import Mathlib

/-!
# pjos: a shallow embedding of the SAT solver

The C++ sources are embedded as pure functions over explicit state:

* `Literal`, `ClauseView`, `ClauseBuilder`, `Formula`, `Assignment` (data model);
* `Watcher` (two watched literals with a cached status);
* `DecisionTrail`;
* `BaseSolver` (the CRTP base; the subclass part of the object is the field `ext`,
  the subclass hook `OnVariableAssignment` is the class `SolverExt`);
* `EVSIDSHeuristics`, `DpllSolver`, `CdclSolver`.

Conventions.

* `std::vector` is `List`; `operator[]` on a vector is `List.getD` with a default
  (out-of-range access is undefined behaviour in the source).
* `std::int64_t` watch indices are `Int` (with the sentinel `-1`), `std::size_t` is `Nat`.
* Loops that are not bounded by a list take a `fuel` argument; running out of fuel is
  the fault `Fault.OutOfFuel`.  A failing `assert` of the source is `Fault.AssertionFailed`.
* What the C++ standard leaves to the platform is collected in `Platform`: the arithmetic
  of `double` scores and the iteration order of `std::unordered_set`.
-/

namespace pjos

/-! ## Core.h -/

inductive VariableAssignment where
  | Unassigned
  | False
  | True
  deriving DecidableEq, Repr, Inhabited

inductive SolverStatus where
  | Unsatisfied
  | Satisfied
  | Unknown
  | Solving
  deriving DecidableEq, Repr, Inhabited

/-! ## Literal.h -/

def FlipVariableAssignment (assn : VariableAssignment) : VariableAssignment :=
  match assn with
  | .False => .True
  | .True => .False
  | .Unassigned => .Unassigned

/-- Literal: the signed integer of `class Literal`; `0` is `Literal::Terminator`. -/
abbrev Literal := Int

namespace Literal

def Terminator : Int := 0

/-- Constructor `Literal(UInt literal, VariableAssignment assn)`. -/
def mk (literal : Nat) (assn : VariableAssignment) : Literal :=
  if assn = .False then -1 * (literal : Int) else (literal : Int)

def Get (l : Literal) : Int := l

def Variable (l : Literal) : Nat := l.natAbs

def Assignment (l : Literal) : Nat × VariableAssignment :=
  (Variable l, if l < 0 then .False else .True)

def Eval (l : Literal) (assn : VariableAssignment) : Bool :=
  (decide (l > 0) && decide (assn = .True)) || (decide (l < 0) && decide (assn = .False))

def Negate (l : Literal) : Literal := -l

end Literal

/-! ## Clause.h, Clause.cpp -/

/-- ClauseView: the literal array with its length, and the largest variable it mentions. -/
structure ClauseView where
  clause : List Literal
  num_of_variables : Nat
  deriving DecidableEq, Repr, Inhabited

/-- Clause: a clause that owns its literals; ownership is not modelled. -/
abbrev Clause := ClauseView

namespace ClauseView

def Length (c : ClauseView) : Nat := c.clause.length

def Empty (c : ClauseView) : Bool := c.clause.length == 0

def NumOfVariables (c : ClauseView) : Nat := c.num_of_variables

/-- Unchecked `operator[]`. -/
def get (c : ClauseView) (index : Nat) : Literal := c.clause.getD index Literal.Terminator

/-- Checked accessor `At`; `none` stands for the thrown `SatError`. -/
def At (c : ClauseView) (index : Nat) : Option Literal :=
  if index < c.clause.length then some (c.get index) else none

def HasVariable (c : ClauseView) (var : Nat) : Bool :=
  c.clause.any (fun l => Literal.Variable l == var)

/-- FindLiteral: the position of the first occurrence, or `Length` (the `end()` iterator). -/
def FindLiteral (c : ClauseView) (literal : Literal) : Nat :=
  c.clause.indexOf literal

def HasLiteral (c : ClauseView) (literal : Literal) : Bool :=
  c.FindLiteral literal != c.Length

end ClauseView

/-- ClauseBuilder: `literals` is the `std::unordered_set`, kept in insertion order without
duplicates. -/
structure ClauseBuilder where
  literals : List Literal
  num_of_variables : Nat
  deriving DecidableEq, Repr

namespace ClauseBuilder

def empty : ClauseBuilder := ⟨[], 0⟩

def Add (b : ClauseBuilder) (literal : Literal) : ClauseBuilder :=
  { literals := if literal ∈ b.literals then b.literals else b.literals ++ [literal]
    num_of_variables := max (Literal.Variable literal) b.num_of_variables }

def Reset (_b : ClauseBuilder) : ClauseBuilder := ⟨[], 0⟩

/-- Make: copies the set into a fresh clause in the iteration order `set_order` of the hash set,
then resets the builder. -/
def Make (set_order : List Literal → List Literal) (b : ClauseBuilder) : Clause × ClauseBuilder :=
  (⟨set_order b.literals, b.num_of_variables⟩, b.Reset)

end ClauseBuilder

/-! ## Formula.h, Formula.cpp -/

structure Formula where
  clauses : List Clause
  num_of_variables : Nat
  deriving DecidableEq, Repr

namespace Formula

def empty : Formula := ⟨[], 0⟩

def NumOfClauses (f : Formula) : Nat := f.clauses.length

def Empty (f : Formula) : Bool := f.clauses.isEmpty

def NumOfVariables (f : Formula) : Nat := f.num_of_variables

/-- Unchecked `operator[]`. -/
def get (f : Formula) (index : Nat) : ClauseView := f.clauses.getD index ⟨[], 0⟩

def AppendClause (f : Formula) (clause : Clause) : Formula :=
  { clauses := f.clauses ++ [clause]
    num_of_variables := max f.num_of_variables clause.NumOfVariables }

def RemoveClause (f : Formula) (index : Nat) : Bool × Formula :=
  if index < f.clauses.length then
    (true, { f with clauses := f.clauses.eraseIdx index })
  else
    (false, f)

def Clear (f : Formula) : Formula := { f with clauses := [] }

end Formula

/-- FormulaBuilder: the state of the helper that builds a formula from a literal stream. -/
structure FormulaBuilder where
  formula : Formula
  clause_builder : ClauseBuilder
  new_clause : Bool

namespace FormulaBuilder

def new (formula : Formula) : FormulaBuilder := ⟨formula, ClauseBuilder.empty, true⟩

def AppendLiteral (b : FormulaBuilder) (literal : Literal) : FormulaBuilder :=
  { b with new_clause := false, clause_builder := b.clause_builder.Add literal }

def EndClause (set_order : List Literal → List Literal) (b : FormulaBuilder) : FormulaBuilder :=
  let r := b.clause_builder.Make set_order
  { formula := b.formula.AppendClause r.1, clause_builder := r.2, new_clause := true }

def Finish (set_order : List Literal → List Literal) (b : FormulaBuilder) : FormulaBuilder :=
  if !b.new_clause then
    let r := b.clause_builder.Make set_order
    { b with formula := b.formula.AppendClause r.1, clause_builder := r.2 }
  else b

end FormulaBuilder

/-! ## Assignment.h, Assignment.cpp -/

/-- Assignment: the vector of variable states; variable `v` lives at index `v - 1`. -/
structure Assignment where
  assignment : List VariableAssignment
  deriving DecidableEq, Repr

namespace Assignment

def new (num_of_variables : Nat) : Assignment :=
  ⟨List.replicate num_of_variables .Unassigned⟩

def NumOfVariables (a : Assignment) : Nat := a.assignment.length

/-- Unchecked read `operator[]`. -/
def get (a : Assignment) (index : Nat) : VariableAssignment :=
  a.assignment.getD (index - 1) .Unassigned

/-- Unchecked write through `operator[]`. -/
def set (a : Assignment) (index : Nat) (assn : VariableAssignment) : Assignment :=
  ⟨a.assignment.set (index - 1) assn⟩

def Reset (a : Assignment) : Assignment :=
  ⟨List.replicate a.assignment.length .Unassigned⟩

def SetNumOfVariables (a : Assignment) (num_of_variables : Nat) : Assignment :=
  if a.assignment.length > num_of_variables then
    ⟨a.assignment.take num_of_variables⟩
  else if a.assignment.length < num_of_variables then
    ⟨a.assignment ++ List.replicate (num_of_variables - a.assignment.length) .Unassigned⟩
  else a

end Assignment

/-! ## Watcher.h, Watcher.cpp -/

inductive ClauseStatus where
  | Satisfied
  | Unsatisfied
  | Unit
  | Undecided
  deriving DecidableEq, Repr, Inhabited

/-- Watcher: the watched clause, the cached status and the two watched indices (or `-1`). -/
structure Watcher where
  clause : ClauseView
  status : ClauseStatus
  watched_literals : Int × Int
  deriving DecidableEq, Repr

namespace Watcher

/-- Constructor `Watcher(const ClauseView &)`. -/
def new (clause : ClauseView) : Watcher :=
  if clause.Length > 0 then
    if clause.Length > 1 then
      { clause := clause, status := .Undecided, watched_literals := (0, 1) }
    else
      { clause := clause, status := .Unit, watched_literals := (0, -1) }
  else
    { clause := clause, status := .Unsatisfied, watched_literals := (-1, -1) }

def Status (w : Watcher) : ClauseStatus := w.status

def WatchedLiterals (w : Watcher) : Int × Int := w.watched_literals

def IsSatisfied (w : Watcher) (assn : Assignment) (index : Int) : Bool :=
  if index = -1 then false
  else
    let literal := w.clause.get index.toNat
    Literal.Eval literal (assn.get (Literal.Variable literal))

def IsUnsatisfied (w : Watcher) (assn : Assignment) (index : Int) : Bool :=
  if index = -1 then true
  else
    let literal := w.clause.get index.toNat
    let var_assignment := assn.get (Literal.Variable literal)
    decide (var_assignment ≠ .Unassigned) && !Literal.Eval literal var_assignment

/-- The loop of `FindUnassigned` over the literals from position `i` on. -/
def FindUnassignedFrom (assn : Assignment) (other : Int) : List Literal → Nat → Int
  | [], _ => -1
  | l :: ls, i =>
    if assn.get (Literal.Variable l) = .Unassigned ∧ (i : Int) ≠ other then (i : Int)
    else FindUnassignedFrom assn other ls (i + 1)

def FindUnassigned (w : Watcher) (assn : Assignment) (other : Int) : Int :=
  FindUnassignedFrom assn other w.clause.clause 0

def UpdateStatus (w : Watcher) (assn : Assignment) : Watcher :=
  if w.IsSatisfied assn w.watched_literals.1 || w.IsSatisfied assn w.watched_literals.2 then
    { w with status := .Satisfied }
  else if w.watched_literals.2 ≠ -1 then
    { w with status := .Undecided }
  else if w.watched_literals.1 ≠ -1 then
    { w with status := .Unit }
  else
    { w with status := .Unsatisfied }

/-- One iteration of the loop of `Rescan`, at literal `literal` with index `i`. -/
def RescanStep (assn : Assignment) (wl : Int × Int) (literal : Literal) (i : Nat) : Int × Int :=
  let var_assignment := assn.get (Literal.Variable literal)
  if Literal.Eval literal var_assignment then
    ((i : Int), wl.1)
  else if var_assignment = .Unassigned then
    if wl.1 = -1 then ((i : Int), wl.2)
    else if wl.2 = -1 then (wl.1, (i : Int))
    else wl
  else wl

/-- The loop of `Rescan` over the literals from position `i` on. -/
def RescanFrom (assn : Assignment) : List Literal → Nat → Int × Int → Int × Int
  | [], _, wl => wl
  | l :: ls, i, wl => RescanFrom assn ls (i + 1) (RescanStep assn wl l i)

/-- Rescan: full rescan of the clause. -/
def Rescan (w : Watcher) (assn : Assignment) : Watcher :=
  UpdateStatus { w with watched_literals := RescanFrom assn w.clause.clause 0 (-1, -1) } assn

/-- Update: incremental rescan after `assigned_variable` received `var_assignment`.
The `assert` on the result of `FindLiteral` is not modelled: when the literal is absent the
index is `Length`, as `std::distance` to `end()` gives. -/
def Update (w : Watcher) (assn : Assignment) (assigned_variable : Nat)
    (var_assignment : VariableAssignment) (satisfies_clause : Bool) : Watcher :=
  if satisfies_clause then
    let assigned_literal := Literal.mk assigned_variable var_assignment
    let w1 :=
      if w.status ≠ .Satisfied ∧
          (w.watched_literals.1 = -1 ∨ assigned_literal ≠ w.clause.get w.watched_literals.1.toNat) ∧
          (w.watched_literals.2 = -1 ∨ assigned_literal ≠ w.clause.get w.watched_literals.2.toNat) then
        let literal_index : Int := (w.clause.FindLiteral assigned_literal : Nat)
        if !w.IsSatisfied assn w.watched_literals.1 then
          { w with watched_literals := (literal_index, w.watched_literals.1) }
        else if !w.IsSatisfied assn w.watched_literals.2 then
          { w with watched_literals := (w.watched_literals.1, literal_index) }
        else w
      else w
    { w1 with status := .Satisfied }
  else
    if w.watched_literals.1 ≠ -1 ∧
        assigned_variable ≠ Literal.Variable (w.clause.get w.watched_literals.1.toNat) ∧
        w.watched_literals.2 ≠ -1 ∧
        assigned_variable ≠ Literal.Variable (w.clause.get w.watched_literals.2.toNat) then
      w
    else
      let w1 :=
        if w.IsUnsatisfied assn w.watched_literals.1 then
          { w with watched_literals := (w.FindUnassigned assn (-1), w.watched_literals.2) }
        else w
      let w2 :=
        if w1.watched_literals.2 = w1.watched_literals.1 ∨
            w1.IsUnsatisfied assn w1.watched_literals.2 then
          { w1 with watched_literals :=
              (w1.watched_literals.1, w1.FindUnassigned assn w1.watched_literals.1) }
        else w1
      if w2.status = .Satisfied ∧
          (w2.IsSatisfied assn w2.watched_literals.1 ∨ w2.IsSatisfied assn w2.watched_literals.2) then
        { w2 with status := .Satisfied }
      else if w2.watched_literals.2 ≠ -1 then
        { w2 with status := .Undecided }
      else if w2.watched_literals.1 ≠ -1 then
        { w2 with status := .Unit }
      else
        { w2 with status := .Unsatisfied }

end Watcher

/-! ## DecisionTrail.h, DecisionTrail.cpp -/

namespace DecisionTrail

/-- Entry of the trail; `reason` is `ReasonAssumption`, `ReasonPropagation`, `ReasonDecision`
or the index of the clause that propagated the assignment. -/
structure Entry where
  var : Nat
  assignment : VariableAssignment
  reason : Int
  level : Nat
  deriving DecidableEq, Repr, Inhabited

def ReasonAssumption : Int := -3

def ReasonPropagation : Int := -2

def ReasonDecision : Int := -1

def IsPropagatedFromClause (reason : Int) : Bool := decide (reason ≥ 0)

end DecisionTrail

/-- DecisionTrail: `var_index` holds for each var the position of its entry; `none` is
`EmptyIndex`. -/
structure DecisionTrail where
  trail : List DecisionTrail.Entry
  level : Nat
  var_index : List (Option Nat)
  deriving DecidableEq, Repr

namespace DecisionTrail

def new (num_of_variables : Nat) : DecisionTrail :=
  { trail := [], level := 0, var_index := List.replicate num_of_variables none }

def Level (t : DecisionTrail) : Nat := t.level

def Length (t : DecisionTrail) : Nat := t.trail.length

/-- Unchecked `operator[]`. -/
def get (t : DecisionTrail) (index : Nat) : Entry :=
  t.trail.getD index ⟨0, .Unassigned, ReasonPropagation, 0⟩

def Decision (t : DecisionTrail) (var : Nat) (assn : VariableAssignment) : DecisionTrail :=
  { trail := t.trail ++ [⟨var, assn, ReasonDecision, t.level + 1⟩]
    level := t.level + 1
    var_index := t.var_index.set (var - 1) (some t.trail.length) }

/-- Propagation without a reason clause. -/
def Propagation (t : DecisionTrail) (var : Nat) (assn : VariableAssignment) : DecisionTrail :=
  { trail := t.trail ++ [⟨var, assn, ReasonPropagation, t.level⟩]
    level := t.level
    var_index := t.var_index.set (var - 1) (some t.trail.length) }

/-- Propagation whose reason is the clause with index `reason`. -/
def PropagationFrom (t : DecisionTrail) (var : Nat) (assn : VariableAssignment)
    (reason : Nat) : DecisionTrail :=
  { trail := t.trail ++ [⟨var, assn, (reason : Int), t.level⟩]
    level := t.level
    var_index := t.var_index.set (var - 1) (some t.trail.length) }

def Assumption (t : DecisionTrail) (var : Nat) (assn : VariableAssignment) : DecisionTrail :=
  { trail := t.trail ++ [⟨var, assn, ReasonAssumption, t.level + 1⟩]
    level := t.level + 1
    var_index := t.var_index.set (var - 1) (some t.trail.length) }

/-- The loop at the start of `Top` and `Pop`: drop entries of variables that are out of range.
The list is the trail reversed (topmost entry first). -/
def DropStale (num : Nat) : List Entry → List Entry
  | [] => []
  | e :: es => if e.var > num then DropStale num es else e :: es

def SkipStale (t : DecisionTrail) : DecisionTrail :=
  { t with trail := (DropStale t.var_index.length t.trail.reverse).reverse }

/-- Top: the topmost live entry (`none` is `nullptr`), and the trail with stale entries
dropped. -/
def Top (t : DecisionTrail) : Option Entry × DecisionTrail :=
  let t1 := t.SkipStale
  (t1.trail.getLast?, t1)

def Pop (t : DecisionTrail) : DecisionTrail :=
  let t1 := t.SkipStale
  match t1.trail.getLast? with
  | none => t1
  | some entry =>
    let trail := t1.trail.dropLast
    { trail := trail
      level := match trail.getLast? with
        | some e => e.level
        | none => 0
      var_index := t1.var_index.set (entry.var - 1) none }

def Reset (t : DecisionTrail) : DecisionTrail :=
  { trail := [], level := 0, var_index := List.replicate t.var_index.length none }

def SetNumOfVariables (t : DecisionTrail) (num_of_variables : Nat) : DecisionTrail :=
  if t.var_index.length > num_of_variables then
    { t with var_index := t.var_index.take num_of_variables }
  else if t.var_index.length < num_of_variables then
    { t with var_index :=
        t.var_index ++ List.replicate (num_of_variables - t.var_index.length) none }
  else t

/-- Find: the entry of `variable`, `none` for `nullptr`.  For `variable = 0` the unsigned
`variable - 1` wraps around and is out of range. -/
def Find (t : DecisionTrail) (var : Nat) : Option Entry :=
  if var = 0 ∨ var - 1 ≥ t.var_index.length then none
  else
    match t.var_index.getD (var - 1) none with
    | some index => some (t.get index)
    | none => none

end DecisionTrail

/-! ## Faults and platform -/

/-- Fault: the ways a call can end without returning: an `assert` of the source fails (this also
stands for the two reads of the trail out of range in the conflict analyses), or the model
ran out of fuel. -/
inductive Fault where
  | AssertionFailed
  | OutOfFuel
  deriving DecidableEq, Repr

/-- Platform: what the source takes from the C++ implementation: the arithmetic of `double`
(the constants `0` and `1.0`, `+`, `*`, `/`, `<`, `<=`, `std::isinf`) and the order in which a
`std::unordered_set<Literal>` is iterated. -/
structure Platform (S : Type) where
  zero : S
  one : S
  add : S → S → S
  mul : S → S → S
  div : S → S → S
  lt : S → S → Bool
  le : S → S → Bool
  isinf : S → Bool
  set_order : List Literal → List Literal

/-- The element at `index` of a vector replaced by its image under `f`. -/
def modifyAt {α : Type} (l : List α) (index : Nat) (f : α → α) : List α :=
  match l.get? index with
  | some x => l.set index (f x)
  | none => l

/-- Insertion into a `std::unordered_set`. -/
def setInsert {α : Type} [DecidableEq α] (l : List α) (x : α) : List α :=
  if x ∈ l then l else l ++ [x]

/-! ## Heuristics.h, Heuristics.cpp -/

structure ScoringParameters (S : Type) where
  rescore_threshold : S
  rescore_factor : S
  initial_increment : S
  decay_rate : S

/-- EVSIDSHeuristics: `ordered_variables` is the vector that the source keeps as a binary heap
under `Comparator`.  The heap order is re-established after every change of a score
(`std::make_heap`) and after every insertion (`std::push_heap`), and `std::pop_heap` moves the
greatest element to the back; the model keeps the elements and not their layout. -/
structure EVSIDSHeuristics (S : Type) where
  scoring : ScoringParameters S
  scores : List S
  score_increment : S
  ordered_variable_index : List Nat
  ordered_variables : List Nat

namespace EVSIDSHeuristics

variable {S : Type}

/-- Comparator: `variable1` comes before `variable2` in the heap order. -/
def Comparator (P : Platform S) (h : EVSIDSHeuristics S) (variable1 variable2 : Nat) : Bool :=
  let score1 := h.scores.getD (variable1 - 1) P.zero
  let score2 := h.scores.getD (variable2 - 1) P.zero
  P.lt score1 score2 || (!(P.lt score2 score1) && decide (variable1 < variable2))

/-- The loop `for i in [from, from + count)`: push score `0` and variable `i + 1`. -/
def AddVariables (P : Platform S) : Nat → Nat → EVSIDSHeuristics S → EVSIDSHeuristics S
  | 0, _, h => h
  | count + 1, i, h =>
    AddVariables P count (i + 1)
      { h with
        scores := h.scores ++ [P.zero]
        ordered_variables := h.ordered_variables ++ [i + 1]
        ordered_variable_index := setInsert h.ordered_variable_index (i + 1) }

/-- FormulaUpdated.  In the shrinking branch `std::remove_if` moves the kept elements to the
front and leaves the old values in the tail, which is what the following loop erases from the
index. -/
def FormulaUpdated (P : Platform S) (h : EVSIDSHeuristics S) (formula : Formula) :
    EVSIDSHeuristics S :=
  let num_of_variables := formula.NumOfVariables
  let num_of_scores := h.scores.length
  if num_of_scores < num_of_variables then
    AddVariables P (num_of_variables - num_of_scores) num_of_scores h
  else if num_of_scores > num_of_variables then
    let kept := h.ordered_variables.filter (fun v => !decide (v > num_of_variables))
    let tail := h.ordered_variables.drop kept.length
    { h with
      scores := h.scores.take num_of_variables
      ordered_variable_index := tail.foldl List.erase h.ordered_variable_index
      ordered_variables := kept }
  else h

/-- Constructor: the member initialiser `score_increment{1.0}`, then `FormulaUpdated`. -/
def new (P : Platform S) (formula : Formula) (scoring : ScoringParameters S) :
    EVSIDSHeuristics S :=
  FormulaUpdated P
    { scoring := scoring, scores := [], score_increment := P.one
      ordered_variable_index := [], ordered_variables := [] }
    formula

/-- Reset: not called by the solvers. -/
def Reset (P : Platform S) (h : EVSIDSHeuristics S) (formula : Formula) : EVSIDSHeuristics S :=
  let num_of_variables := formula.NumOfVariables
  let num_of_scores := h.scores.length
  let vars := (List.range num_of_variables).map (fun i => i + 1)
  { h with
    scores := List.replicate num_of_scores P.zero ++
      List.replicate (num_of_variables - num_of_scores) P.zero
    ordered_variables := vars
    ordered_variable_index := vars.foldl setInsert h.ordered_variable_index
    score_increment := h.scoring.initial_increment }

def NextIteration (P : Platform S) (h : EVSIDSHeuristics S) : EVSIDSHeuristics S :=
  { h with score_increment := P.mul h.score_increment h.scoring.decay_rate }

/-- The two `assert`s on a score. -/
def ScoreOk (P : Platform S) (score : S) : Bool :=
  !P.isinf score && P.le P.zero score

def VariableActive (P : Platform S) (h : EVSIDSHeuristics S) (var : Nat) :
    Except Fault (EVSIDSHeuristics S) :=
  let score := P.add (h.scores.getD (var - 1) P.zero) h.score_increment
  let h1 := { h with scores := h.scores.set (var - 1) score }
  if !ScoreOk P score then .error .AssertionFailed
  else if P.lt h.scoring.rescore_threshold score then
    let scores := h1.scores.map (fun x => P.div x h.scoring.rescore_threshold)
    if scores.all (ScoreOk P) then
      .ok { h1 with
            scores := scores
            score_increment := P.div h1.score_increment h.scoring.rescore_threshold }
    else .error .AssertionFailed
  else .ok h1

def VariableAssigned (h : EVSIDSHeuristics S) (assignment : Assignment) (var : Nat) :
    EVSIDSHeuristics S :=
  let assn := assignment.get var
  if assn = .Unassigned ∧ ¬ var ∈ h.ordered_variable_index then
    { h with
      ordered_variables := h.ordered_variables ++ [var]
      ordered_variable_index := setInsert h.ordered_variable_index var }
  else h

/-- The greatest element of the heap under `Comparator` (what `std::pop_heap` moves to the
back), searched from the candidate `best`. -/
def HeapMax (P : Platform S) (h : EVSIDSHeuristics S) (best : Nat) : List Nat → Nat
  | [] => best
  | v :: vs => HeapMax P h (if Comparator P h best v then v else best) vs

/-- PopVariable: pops until an unassigned variable shows up; `Literal::Terminator` (`0`) when
the heap runs empty.  The first argument bounds the number of pops by the size of the heap. -/
def PopVariableLoop (P : Platform S) (assignment : Assignment) :
    Nat → EVSIDSHeuristics S → Nat × EVSIDSHeuristics S
  | 0, h => (0, h)
  | n + 1, h =>
    match h.ordered_variables with
    | [] => (0, h)
    | v :: vs =>
      let var := HeapMax P h v vs
      let h1 := { h with
        ordered_variables := h.ordered_variables.erase var
        ordered_variable_index := h.ordered_variable_index.erase var }
      if assignment.get var = .Unassigned then (var, h1)
      else PopVariableLoop P assignment n h1

def PopVariable (P : Platform S) (h : EVSIDSHeuristics S) (assignment : Assignment) :
    Nat × EVSIDSHeuristics S :=
  PopVariableLoop P assignment h.ordered_variables.length h

end EVSIDSHeuristics

/-! ## BaseSolver.h -/

inductive UnitPropagationResult where
  | Sat
  | Unsat
  | Pass
  deriving DecidableEq, Repr

inductive LiteralPolarity where
  | PurePositive
  | PureNegative
  | Mixed
  | None
  deriving DecidableEq, Repr

structure VariableIndexEntry where
  positive_clauses : List Nat
  negative_clauses : List Nat
  polarity : LiteralPolarity
  deriving DecidableEq, Repr

def VariableIndexEntry.empty : VariableIndexEntry := ⟨[], [], .None⟩

/-- SolverExt: the part of the CRTP subclass `C` that the base calls back:
`OnVariableAssignment` receives the assignment after the change. -/
class SolverExt (X : Type) where
  OnVariableAssignment : Assignment → Nat → VariableAssignment → X → X

/-- The hook of `BaseSolver` itself, which does nothing (used by `DpllSolver`). -/
instance : SolverExt Unit where
  OnVariableAssignment := fun _ _ _ x => x

/-- BaseSolver: the fields of `BaseSolver<C>`; `ext` holds the fields that the subclass adds.
The formula is the one the solver refers to (for a modifiable solver, `owned_formula`).
`interrupt_request_fn` answers the `n`-th call with its value at `n`; `interrupt_polls` counts
the calls made. -/
structure BaseSolver (X : Type) where
  formula : Formula
  variable_index : List VariableIndexEntry
  watchers : List Watcher
  assignment : Assignment
  trail : DecisionTrail
  pending_assignments : List (Nat × VariableAssignment × Bool)
  interrupt_requested : Bool
  current_status : SolverStatus
  interrupt_request_fn : Option (Nat → Bool)
  interrupt_polls : Nat
  fresh_solver : Bool
  ext : X

namespace BaseSolver

variable {X : Type}

def ClauseUndef : Nat := 2 ^ 64 - 1

def GetFormula (s : BaseSolver X) : Formula := s.formula

def GetAssignment (s : BaseSolver X) : Assignment := s.assignment

def Interrupt (s : BaseSolver X) : BaseSolver X := { s with interrupt_requested := true }

def InterruptOn (s : BaseSolver X) (req_fn : Nat → Bool) : BaseSolver X :=
  { s with interrupt_request_fn := some req_fn }

def Status (s : BaseSolver X) : SolverStatus := s.current_status

def VariableIndex (s : BaseSolver X) (var : Nat) : VariableIndexEntry :=
  s.variable_index.getD (var - 1) VariableIndexEntry.empty

/-- The body of the loop of `UpdateClauseIndex` for one literal. -/
def UpdateClauseIndexEntry (clause_idx : Nat) (literal : Literal)
    (index_entry : VariableIndexEntry) : VariableIndexEntry :=
  if (Literal.Assignment literal).2 = .True then
    { index_entry with
      positive_clauses := index_entry.positive_clauses ++ [clause_idx]
      polarity := match index_entry.polarity with
        | .PurePositive => .PurePositive
        | .Mixed => .Mixed
        | .PureNegative => .Mixed
        | .None => .PurePositive }
  else
    { index_entry with
      negative_clauses := index_entry.negative_clauses ++ [clause_idx]
      polarity := match index_entry.polarity with
        | .PureNegative => .PureNegative
        | .Mixed => .Mixed
        | .PurePositive => .Mixed
        | .None => .PureNegative }

/-- UpdateClauseIndex, on the variable index alone. -/
def UpdateClauseIndexList (clause_idx : Nat) :
    List Literal → List VariableIndexEntry → List VariableIndexEntry
  | [], vi => vi
  | literal :: ls, vi =>
    UpdateClauseIndexList clause_idx ls
      (modifyAt vi (Literal.Variable literal - 1) (UpdateClauseIndexEntry clause_idx literal))

def UpdateClauseIndex (s : BaseSolver X) (clause_idx : Nat) (clause : ClauseView) :
    BaseSolver X :=
  { s with variable_index := UpdateClauseIndexList clause_idx clause.clause s.variable_index }

/-- The loop of the constructor over the clauses from index `clause_idx` on. -/
def PopulateFrom : List Clause → Nat → BaseSolver X → BaseSolver X
  | [], _, s => s
  | clause :: cs, clause_idx, s =>
    PopulateFrom cs (clause_idx + 1)
      (UpdateClauseIndex { s with watchers := s.watchers ++ [Watcher.new clause] } clause_idx clause)

/-- Constructor `BaseSolver(const Formula &)`. -/
def new (formula : Formula) (ext : X) : BaseSolver X :=
  PopulateFrom formula.clauses 0
    { formula := formula
      variable_index := List.replicate formula.NumOfVariables VariableIndexEntry.empty
      watchers := []
      assignment := Assignment.new formula.NumOfVariables
      trail := DecisionTrail.new formula.NumOfVariables
      pending_assignments := []
      interrupt_requested := false
      current_status := .Unknown
      interrupt_request_fn := none
      interrupt_polls := 0
      fresh_solver := true
      ext := ext }

/-- One of the two loops of `UpdateWatchers`, on the watcher vector. -/
def UpdateWatchersList (assignment : Assignment) (var : Nat) (assn : VariableAssignment)
    (satisfies_affected_watcher : Bool) : List Nat → List Watcher → List Watcher
  | [], ws => ws
  | affected_watcher :: rest, ws =>
    UpdateWatchersList assignment var assn satisfies_affected_watcher rest
      (modifyAt ws affected_watcher
        (fun w => w.Update assignment var assn satisfies_affected_watcher))

def UpdateWatchers (s : BaseSolver X) (var : Nat) (assn : VariableAssignment) : BaseSolver X :=
  let var_index := s.VariableIndex var
  let ws1 := UpdateWatchersList s.assignment var assn (decide (assn = .True))
    var_index.positive_clauses s.watchers
  let ws2 := UpdateWatchersList s.assignment var assn (decide (assn = .False))
    var_index.negative_clauses ws1
  { s with watchers := ws2 }

def Assign [SolverExt X] (s : BaseSolver X) (var : Nat) (assignment : VariableAssignment) :
    BaseSolver X :=
  let s1 := { s with assignment := s.assignment.set var assignment }
  let s2 := s1.UpdateWatchers var assignment
  { s2 with ext := SolverExt.OnVariableAssignment s2.assignment var assignment s2.ext }

/-- The state of one pass of the `for` loop of `UnitPropagation` when it is left:
`conflict = some i` is the early `return (Unsat, i)`. -/
structure PropagationPass (X : Type) where
  solver : BaseSolver X
  all_satisfied : Bool
  propagate : Bool
  conflict : Option Nat

/-- The `for` loop of `UnitPropagation` from index `i`, with `n` watchers left. -/
def UnitPropagationFor [SolverExt X] :
    Nat → Nat → BaseSolver X → Bool → PropagationPass X
  | 0, _, s, all_satisfied => ⟨s, all_satisfied, false, none⟩
  | n + 1, i, s, all_satisfied =>
    let watcher := s.watchers.getD i (Watcher.new ⟨[], 0⟩)
    let watcher_status := watcher.Status
    let all_satisfied := all_satisfied && decide (watcher_status = .Satisfied)
    if watcher_status = .Unit then
      let watcher_unit := watcher.WatchedLiterals.1
      let va := Literal.Assignment ((s.formula.get i).get watcher_unit.toNat)
      let s1 := { s with trail := s.trail.PropagationFrom va.1 va.2 i }
      ⟨s1.Assign va.1 va.2, all_satisfied, true, none⟩
    else if watcher_status = .Unsatisfied then
      ⟨s, all_satisfied, false, some i⟩
    else
      UnitPropagationFor n (i + 1) s all_satisfied

/-- The `while` loop of `UnitPropagation`, entered with `propagate && !all_satisfied`. -/
def UnitPropagationLoop [SolverExt X] :
    Nat → BaseSolver X → Except Fault (BaseSolver X × UnitPropagationResult × Nat)
  | 0, _ => .error .OutOfFuel
  | fuel + 1, s =>
    let pass := UnitPropagationFor s.watchers.length 0 s true
    match pass.conflict with
    | some i => .ok (pass.solver, .Unsat, i)
    | none =>
      if pass.propagate && !pass.all_satisfied then
        UnitPropagationLoop fuel pass.solver
      else
        .ok (pass.solver, if pass.all_satisfied then .Sat else .Pass, ClauseUndef)

/-- UnitPropagation: Boolean constraint propagation. -/
def UnitPropagation [SolverExt X] (fuel : Nat) (s : BaseSolver X) :
    Except Fault (BaseSolver X × UnitPropagationResult × Nat) :=
  UnitPropagationLoop fuel s

def ResetCurrentStatus (s : BaseSolver X) : BaseSolver X :=
  match s.current_status with
  | .Unknown => s
  | .Solving => s
  | .Satisfied => { s with current_status := .Unknown }
  | .Unsatisfied => { s with current_status := .Unknown }

/-- AttachClause of the base: called with the clause already in the formula. -/
def AttachClause (s : BaseSolver X) (clause_index : Nat) (clause : ClauseView) : BaseSolver X :=
  let s := s.ResetCurrentStatus
  let s := { s with
    assignment := s.assignment.SetNumOfVariables s.formula.NumOfVariables
    trail := s.trail.SetNumOfVariables s.formula.NumOfVariables }
  let s :=
    if s.formula.NumOfVariables > s.variable_index.length then
      { s with variable_index := s.variable_index ++
          (List.replicate (s.formula.NumOfVariables - s.variable_index.length)
            VariableIndexEntry.empty) }
    else s
  let s := { s with
    watchers := s.watchers.take clause_index ++ [Watcher.new clause] ++
      s.watchers.drop clause_index }
  let s := s.UpdateClauseIndex clause_index clause
  { s with watchers := modifyAt s.watchers clause_index (fun w => w.Rescan s.assignment) }

/-- The body of the loop of `DetachClause` for one entry of the variable index. -/
def DetachClauseEntry (index : Nat) (var_index : VariableIndexEntry) : VariableIndexEntry :=
  let watcher_map := fun (watcher_index : Nat) =>
    if watcher_index ≤ index then watcher_index else watcher_index - 1
  { var_index with
    positive_clauses := ((var_index.positive_clauses.filter (fun j => j != index)).map watcher_map)
    negative_clauses := ((var_index.negative_clauses.filter (fun j => j != index)).map watcher_map) }

/-- DetachClause of the base: called with the clause still in the formula. -/
def DetachClause (s : BaseSolver X) (index : Nat) (_clause : ClauseView) : BaseSolver X :=
  let s := s.ResetCurrentStatus
  let s := { s with
    assignment := s.assignment.SetNumOfVariables s.formula.NumOfVariables
    trail := s.trail.SetNumOfVariables s.formula.NumOfVariables }
  let s :=
    if s.formula.NumOfVariables < s.variable_index.length then
      { s with variable_index := s.variable_index.take s.formula.NumOfVariables }
    else s
  { s with
    variable_index := s.variable_index.map (DetachClauseEntry index)
    watchers := s.watchers.eraseIdx index }

/-- The loop of `ScanPureLiterals` over the variables `var, var + 1, ...` (`n` of them);
the result is what is written to the output iterator. -/
def ScanPureLiteralsFrom (s : BaseSolver X) :
    Nat → Nat → List (Nat × VariableAssignment × Bool)
  | 0, _ => []
  | n + 1, var =>
    let polarity := (s.VariableIndex var).polarity
    if s.assignment.get var ≠ .Unassigned then ScanPureLiteralsFrom s n (var + 1)
    else
      match polarity with
      | .PurePositive => (var, .True, false) :: ScanPureLiteralsFrom s n (var + 1)
      | .None => (var, .True, false) :: ScanPureLiteralsFrom s n (var + 1)
      | .PureNegative => (var, .False, false) :: ScanPureLiteralsFrom s n (var + 1)
      | .Mixed => ScanPureLiteralsFrom s n (var + 1)

def ScanPureLiterals (s : BaseSolver X) : List (Nat × VariableAssignment × Bool) :=
  ScanPureLiteralsFrom s s.formula.NumOfVariables 1

def ResetState (s : BaseSolver X) : BaseSolver X :=
  let assignment := s.assignment.Reset
  { s with
    pending_assignments := []
    assignment := assignment
    trail := s.trail.Reset
    watchers := s.watchers.map (fun w => w.Rescan assignment) }

/-- PerformPendingAssignment: the flag tells whether the assignment succeeded. -/
def PerformPendingAssignment [SolverExt X] (s : BaseSolver X) (var : Nat)
    (variable_assignment : VariableAssignment) (is_assumption : Bool) : Bool × BaseSolver X :=
  let current_assignment := s.assignment.get var
  if is_assumption then
    if current_assignment = .Unassigned then
      let s1 := s.Assign var variable_assignment
      (true, { s1 with trail := s1.trail.Assumption var variable_assignment })
    else if current_assignment = variable_assignment then
      (true, { s with trail := s.trail.Assumption var variable_assignment })
    else (false, s)
  else if current_assignment = .Unassigned then
    let s1 := s.Assign var variable_assignment
    (true, { s1 with trail := s1.trail.Decision var variable_assignment })
  else (true, s)

/-- VerifyPendingAssignments over a range of pending assignments: `none` is the result `true`,
`some conflict` is the result `false` with the conflicting literal written to `conflict`. -/
def VerifyPendingAssignments (s : BaseSolver X) :
    List (Nat × VariableAssignment × Bool) → Option Literal
  | [] => none
  | (var, variable_assignment, is_assumption) :: rest =>
    let current_assignment := s.assignment.get var
    if is_assumption = true ∧ current_assignment ≠ .Unassigned ∧
        current_assignment ≠ variable_assignment then
      some (Literal.mk var variable_assignment)
    else VerifyPendingAssignments s rest

/-- PreSolve; `ResetState` is the one of the base for both solvers. -/
def PreSolve (s : BaseSolver X) : BaseSolver X :=
  let s := if !s.fresh_solver then s.ResetState else s
  { s with fresh_solver := false, interrupt_requested := false, current_status := .Solving }

/-- PostSolve: empty unless `PJOS_DEBUG_VALIDATIONS_ENABLE` is set. -/
def PostSolve (s : BaseSolver X) : BaseSolver X := s

def SaveAssumptions (s : BaseSolver X) (assumptions : List Literal) : BaseSolver X :=
  { s with pending_assignments := s.pending_assignments ++
      assumptions.map (fun literal =>
        ((Literal.Assignment literal).1, (Literal.Assignment literal).2, true)) }

/-- The interrupt test at the head of the main loops. -/
def PollInterrupt (s : BaseSolver X) : Bool × BaseSolver X :=
  if s.interrupt_requested then (true, s)
  else
    match s.interrupt_request_fn with
    | none => (false, s)
    | some req_fn => (req_fn s.interrupt_polls, { s with interrupt_polls := s.interrupt_polls + 1 })

/-- Solve with assumptions, over the `SolveImpl` of the subclass. -/
def SolveWith (impl : BaseSolver X → Except Fault (SolverStatus × BaseSolver X))
    (s : BaseSolver X) (assumptions : List Literal) :
    Except Fault (SolverStatus × BaseSolver X) :=
  let s := s.PreSolve
  let s := s.SaveAssumptions assumptions
  match impl s with
  | .error e => .error e
  | .ok (status, s) =>
    let s := { s with current_status := status }
    .ok (s.current_status, s.PostSolve)

/-- Solve without assumptions, over the `SolveImpl` of the subclass. -/
def SolveNoAssumptions (impl : BaseSolver X → Except Fault (SolverStatus × BaseSolver X))
    (s : BaseSolver X) : Except Fault (SolverStatus × BaseSolver X) :=
  let s := s.PreSolve
  match impl s with
  | .error e => .error e
  | .ok (status, s) =>
    let s := { s with current_status := status }
    .ok (s.current_status, s.PostSolve)

end BaseSolver

/-! ## DpllSolver.h, DpllSolver.cpp -/

/-- DpllSolver: adds no field to the base. -/
abbrev DpllSolver := BaseSolver Unit

namespace DpllSolver

def new (formula : Formula) : DpllSolver := BaseSolver.new formula ()

/-- The loop `while (undo_decision)` of `SolveImpl`: pops the trail down to the last entry that
is not a propagation.  `none` is the `return SolverStatus::Unsatisfied` of the loop; otherwise
the variable and value of the entry found.  The first argument bounds the number of rounds by
the length of the trail. -/
def UndoDecision : Nat → DpllSolver → Except Fault (Option (Nat × VariableAssignment) × DpllSolver)
  | 0, _ => .error .OutOfFuel
  | n + 1, s =>
    let top := s.trail.Top
    let s := { s with trail := top.2 }
    match top.1 with
    | none => .ok (none, s)
    | some trail_entry =>
      let var := trail_entry.var
      if DecisionTrail.IsPropagatedFromClause trail_entry.reason ∨
          trail_entry.reason = DecisionTrail.ReasonPropagation then
        let s := s.Assign var .Unassigned
        UndoDecision n { s with trail := s.trail.Pop }
      else
        .ok (some (var, trail_entry.assignment), { s with trail := s.trail.Pop })

/-- The loop of `SolveImpl` that looks for the unassigned variable of highest index, from
`var` downwards. -/
def FindDecision (s : DpllSolver) : Nat → Option Nat
  | 0 => none
  | var + 1 => if s.assignment.get (var + 1) = .Unassigned then some (var + 1) else FindDecision s var

/-- The main loop of `SolveImpl`; `pending_assignments_iter` is the position of the iterator. -/
def SolveLoop : Nat → DpllSolver → Nat → Except Fault (SolverStatus × DpllSolver)
  | 0, _, _ => .error .OutOfFuel
  | fuel + 1, s, pending_assignments_iter =>
    let poll := s.PollInterrupt
    let s := poll.2
    if poll.1 then .ok (.Unknown, s)
    else
      match s.UnitPropagation (fuel + 1) with
      | .error e => .error e
      | .ok (s, bcp_result, _) =>
        if bcp_result = .Sat then .ok (.Satisfied, s)
        else if bcp_result = .Unsat then
          match UndoDecision (s.trail.trail.length + 1) s with
          | .error e => .error e
          | .ok (none, s) => .ok (.Unsatisfied, s)
          | .ok (some (var, assignment), s) =>
            let new_assignment := FlipVariableAssignment assignment
            let s := { s with trail := s.trail.Propagation var new_assignment }
            SolveLoop fuel (s.Assign var new_assignment) pending_assignments_iter
        else if pending_assignments_iter = s.pending_assignments.length then
          match FindDecision s s.assignment.NumOfVariables with
          | none => .error .AssertionFailed
          | some var =>
            let s := { s with trail := s.trail.Decision var .True }
            SolveLoop fuel (s.Assign var .True) pending_assignments_iter
        else
          let p := s.pending_assignments.getD pending_assignments_iter (0, .Unassigned, false)
          let r := s.PerformPendingAssignment p.1 p.2.1 p.2.2
          if !r.1 then .ok (.Unsatisfied, r.2)
          else SolveLoop fuel r.2 (pending_assignments_iter + 1)

def SolveImpl (fuel : Nat) (s : DpllSolver) : Except Fault (SolverStatus × DpllSolver) :=
  SolveLoop fuel s 0

/-- Solve with assumptions. -/
def Solve (fuel : Nat) (s : DpllSolver) (assumptions : List Literal) :
    Except Fault (SolverStatus × DpllSolver) :=
  BaseSolver.SolveWith (SolveImpl fuel) s assumptions

/-- Solve without arguments. -/
def Solve0 (fuel : Nat) (s : DpllSolver) : Except Fault (SolverStatus × DpllSolver) :=
  BaseSolver.SolveNoAssumptions (SolveImpl fuel) s

end DpllSolver

/-- ModifiableDpllSolver: a `DpllSolver` over a formula it owns. -/
abbrev ModifiableDpllSolver := DpllSolver

namespace ModifiableDpllSolver

def new (formula : Formula) : ModifiableDpllSolver := DpllSolver.new formula

/-- AppendClause of `ModifiableSolverBase`. -/
def AppendClause (s : ModifiableDpllSolver) (clause : Clause) : ModifiableDpllSolver :=
  let s := { s with formula := s.formula.AppendClause clause }
  s.AttachClause (s.formula.NumOfClauses - 1) clause

/-- RemoveClause of `ModifiableSolverBase`. -/
def RemoveClause (s : ModifiableDpllSolver) (index : Nat) : ModifiableDpllSolver :=
  let view := s.formula.get index
  let s := s.DetachClause index view
  { s with formula := (s.formula.RemoveClause index).2 }

end ModifiableDpllSolver

/-! ## CdclSolver.h, CdclSolver.cpp -/

namespace CdclSolver

structure Parameters where
  pure_literal_elimination : Bool
  phase_saving : Bool
  deriving DecidableEq, Repr

/-- The default member initialisers of `Parameters`. -/
def Parameters.default : Parameters := ⟨true, true⟩

inductive AnalysisTrackState where
  | Untracked
  | Pending
  | Processed
  deriving DecidableEq, Repr

end CdclSolver

/-- CdclExt: the fields that `CdclSolver` adds to the base.  `final_conflict` is the
`std::unordered_set`, kept in insertion order.  The listener `learned_clause_fn` only observes
and is left out. -/
structure CdclExt (S : Type) where
  parameters : CdclSolver.Parameters
  analysis_track : List CdclSolver.AnalysisTrackState
  learned_clause : ClauseBuilder
  evsids : EVSIDSHeuristics S
  saved_phases : Assignment
  final_conflict : List Literal

/-- OnVariableAssignment of `CdclSolver`: tells the heuristics. -/
instance (S : Type) : SolverExt (CdclExt S) where
  OnVariableAssignment := fun assignment var _ x =>
    { x with evsids := x.evsids.VariableAssigned assignment var }

abbrev CdclSolver (S : Type) := BaseSolver (CdclExt S)

namespace CdclSolver

variable {S : Type}

/-- Constructor `CdclSolver(Formula, const ScoringParameters &)`. -/
def new (P : Platform S) (formula : Formula) (scoring : ScoringParameters S) : CdclSolver S :=
  BaseSolver.new formula
    { parameters := Parameters.default
      analysis_track := List.replicate formula.NumOfVariables .Untracked
      learned_clause := ClauseBuilder.empty
      evsids := EVSIDSHeuristics.new P formula scoring
      saved_phases := Assignment.new formula.NumOfVariables
      final_conflict := [] }

def GetParameters (s : CdclSolver S) : Parameters := s.ext.parameters

def SetParameters (s : CdclSolver S) (parameters : Parameters) : CdclSolver S :=
  { s with ext := { s.ext with parameters := parameters } }

def AnalysisTrackOf (s : CdclSolver S) (var : Nat) : AnalysisTrackState :=
  s.ext.analysis_track.getD (var - 1) .Untracked

def SetAnalysisTrackOf (s : CdclSolver S) (var : Nat) (state : AnalysisTrackState) :
    CdclSolver S :=
  { s with ext := { s.ext with analysis_track := s.ext.analysis_track.set (var - 1) state } }

def ClearAnalysisTrack (s : CdclSolver S) : CdclSolver S :=
  { s with ext := { s.ext with
      analysis_track := List.replicate s.ext.analysis_track.length .Untracked } }

/-- AttachClause of `CdclSolver`. -/
def AttachClause (P : Platform S) (s : CdclSolver S) (clause_index : Nat) (clause : ClauseView) :
    CdclSolver S :=
  let s := BaseSolver.AttachClause s clause_index clause
  let analysis_track :=
    if s.formula.NumOfVariables > s.ext.analysis_track.length then
      s.ext.analysis_track ++
        (List.replicate (s.formula.NumOfVariables - s.ext.analysis_track.length) .Untracked)
    else s.ext.analysis_track
  { s with ext := { s.ext with
      analysis_track := analysis_track
      evsids := s.ext.evsids.FormulaUpdated P s.formula
      saved_phases := s.ext.saved_phases.SetNumOfVariables s.formula.NumOfVariables } }

/-- DetachClause of `CdclSolver`. -/
def DetachClause (P : Platform S) (s : CdclSolver S) (clause_index : Nat) (clause : ClauseView) :
    CdclSolver S :=
  let s := BaseSolver.DetachClause s clause_index clause
  let analysis_track :=
    if s.formula.NumOfVariables < s.ext.analysis_track.length then
      s.ext.analysis_track.take s.formula.NumOfVariables
    else s.ext.analysis_track
  { s with ext := { s.ext with
      analysis_track := analysis_track
      evsids := s.ext.evsids.FormulaUpdated P s.formula
      saved_phases := s.ext.saved_phases.SetNumOfVariables s.formula.NumOfVariables } }

/-- AppendClause of `ModifiableSolverBase`. -/
def AppendClause (P : Platform S) (s : CdclSolver S) (clause : Clause) : CdclSolver S :=
  let s := { s with formula := s.formula.AppendClause clause }
  AttachClause P s (s.formula.NumOfClauses - 1) clause

/-- RemoveClause of `ModifiableSolverBase`. -/
def RemoveClause (P : Platform S) (s : CdclSolver S) (index : Nat) : CdclSolver S :=
  let view := s.formula.get index
  let s := DetachClause P s index view
  { s with formula := (s.formula.RemoveClause index).2 }

/-- MarkClauseForFinalConflictAnalysis: the number of assignments newly marked `Pending`. -/
def MarkClauseForFinalConflictAnalysis (assumption_clause : Bool) :
    List Literal → CdclSolver S → Except Fault (Nat × CdclSolver S)
  | [], s => .ok (0, s)
  | literal :: rest, s =>
    let var := Literal.Variable literal
    if AnalysisTrackOf s var ≠ .Untracked then
      MarkClauseForFinalConflictAnalysis assumption_clause rest s
    else
      match s.trail.Find var with
      | none => .error .AssertionFailed
      | some trail_entry =>
        if DecisionTrail.IsPropagatedFromClause trail_entry.reason ∧ assumption_clause = false then
          match MarkClauseForFinalConflictAnalysis assumption_clause rest
              (SetAnalysisTrackOf s var .Pending) with
          | .error e => .error e
          | .ok (pending, s) => .ok (pending + 1, s)
        else if trail_entry.reason = DecisionTrail.ReasonAssumption ∨ assumption_clause = true then
          MarkClauseForFinalConflictAnalysis assumption_clause rest
            { s with ext := { s.ext with final_conflict :=
                (setInsert s.ext.final_conflict
                  (Literal.mk trail_entry.var trail_entry.assignment)) } }
        else
          MarkClauseForFinalConflictAnalysis assumption_clause rest s

/-- The inner loop of both analyses: walk down the trail from `trail_index` to the next entry
marked `Pending`.  Reading the trail out of range and the failing `assert(trail_index > 0)`
are faults. -/
def FindPending (s : CdclSolver S) : Nat → Except Fault Nat
  | 0 =>
    if 0 < s.trail.Length ∧ AnalysisTrackOf s (s.trail.get 0).var = .Pending then .ok 0
    else .error .AssertionFailed
  | trail_index + 1 =>
    if trail_index + 1 < s.trail.Length then
      if AnalysisTrackOf s (s.trail.get (trail_index + 1)).var ≠ .Pending then
        FindPending s trail_index
      else .ok (trail_index + 1)
    else .error .AssertionFailed

/-- The loop `while (pending > 0)` of `AnalyzeFinalConflict`. -/
def AnalyzeFinalConflictLoop :
    Nat → CdclSolver S → Nat → Nat → Except Fault (CdclSolver S)
  | 0, _, _, _ => .error .OutOfFuel
  | n + 1, s, pending, trail_index =>
    if pending > 0 then
      match FindPending s trail_index with
      | .error e => .error e
      | .ok trail_index =>
        let trail_entry := s.trail.get trail_index
        let s := SetAnalysisTrackOf s trail_entry.var .Processed
        let pending := pending - 1
        if DecisionTrail.IsPropagatedFromClause trail_entry.reason then
          let clause := s.formula.get trail_entry.reason.toNat
          match MarkClauseForFinalConflictAnalysis false clause.clause s with
          | .error e => .error e
          | .ok (more, s) => AnalyzeFinalConflictLoop n s (pending + more) trail_index
        else if trail_entry.reason = DecisionTrail.ReasonAssumption then
          AnalyzeFinalConflictLoop n
            { s with ext := { s.ext with final_conflict :=
                (setInsert s.ext.final_conflict
                  (Literal.mk trail_entry.var trail_entry.assignment)) } }
            pending trail_index
        else AnalyzeFinalConflictLoop n s pending trail_index
    else .ok s

/-- AnalyzeFinalConflict over the literals of the conflict.  Every round of the loop marks an
entry of the trail `Processed`, which bounds the rounds by the length of the trail. -/
def AnalyzeFinalConflict (s : CdclSolver S) (conflict : List Literal) (assumption_clause : Bool) :
    Except Fault (CdclSolver S) :=
  let s := ClearAnalysisTrack s
  match MarkClauseForFinalConflictAnalysis assumption_clause conflict s with
  | .error e => .error e
  | .ok (pending, s) =>
    AnalyzeFinalConflictLoop (s.trail.Length + 1) s pending (s.trail.Length - 1)

/-- The local variables of `AnalyzeConflict`. -/
structure ConflictAnalysis (S : Type) where
  solver : CdclSolver S
  number_of_paths : Nat
  backjump_level : Nat

/-- The loop of `AnalyzeConflict` over the literals of the current clause. -/
def AnalyzeClause (P : Platform S) :
    List Literal → ConflictAnalysis S → Except Fault (ConflictAnalysis S)
  | [], a => .ok a
  | literal :: rest, a =>
    let var := Literal.Variable literal
    if AnalysisTrackOf a.solver var ≠ .Untracked then AnalyzeClause P rest a
    else
      match a.solver.trail.Find var with
      | none => .error .AssertionFailed
      | some trail_entry =>
        let a :=
          if trail_entry.level ≥ a.solver.trail.Level then
            { a with
              solver := SetAnalysisTrackOf a.solver var .Pending
              number_of_paths := a.number_of_paths + 1 }
          else
            { a with
              solver := { a.solver with ext := { a.solver.ext with
                learned_clause := (a.solver.ext.learned_clause.Add
                  (Literal.mk var (FlipVariableAssignment trail_entry.assignment))) } }
              backjump_level := max a.backjump_level trail_entry.level }
        match a.solver.ext.evsids.VariableActive P var with
        | .error e => .error e
        | .ok evsids =>
          AnalyzeClause P rest
            { a with solver := { a.solver with ext := { a.solver.ext with evsids := evsids } } }

/-- The `do ... while (number_of_paths > 1)` loop of `AnalyzeConflict`; the result carries the
final `trail_index`. -/
def AnalyzeConflictLoop (P : Platform S) :
    Nat → ConflictAnalysis S → List Literal → Nat → Except Fault (ConflictAnalysis S × Nat)
  | 0, _, _, _ => .error .OutOfFuel
  | n + 1, a, clause, trail_index =>
    match AnalyzeClause P clause a with
    | .error e => .error e
    | .ok a =>
      let a := { a with number_of_paths := a.number_of_paths - 1 }
      match FindPending a.solver trail_index with
      | .error e => .error e
      | .ok trail_index =>
        let trail_entry := a.solver.trail.get trail_index
        let a := { a with solver := SetAnalysisTrackOf a.solver trail_entry.var .Processed }
        if DecisionTrail.IsPropagatedFromClause trail_entry.reason then
          if a.number_of_paths > 1 then
            AnalyzeConflictLoop P n a (a.solver.formula.get trail_entry.reason.toNat).clause
              trail_index
          else .ok (a, trail_index)
        else if a.number_of_paths ≠ 1 then .error .AssertionFailed
        else .ok (a, trail_index)

/-- AnalyzeConflict: conflict analysis and clause learning; returns the learned clause and the
backjump level.  Every round of the loop but the first moves `trail_index` down, which bounds
the rounds by the length of the trail. -/
def AnalyzeConflict (P : Platform S) (s : CdclSolver S) (conflict : ClauseView) :
    Except Fault (Clause × Nat × CdclSolver S) :=
  if ¬ s.trail.Level > 0 then .error .AssertionFailed
  else
    let s := ClearAnalysisTrack s
    match AnalyzeConflictLoop P (s.trail.Length + 1) ⟨s, 1, 0⟩ conflict.clause
        (s.trail.Length - 1) with
    | .error e => .error e
    | .ok (a, trail_index) =>
      let trail_entry := a.solver.trail.get trail_index
      let s := a.solver
      let s := { s with ext := { s.ext with
        learned_clause := (s.ext.learned_clause.Add
          (Literal.mk trail_entry.var (FlipVariableAssignment trail_entry.assignment))) } }
      match s.ext.evsids.VariableActive P trail_entry.var with
      | .error e => .error e
      | .ok evsids =>
        let s := { s with ext := { s.ext with evsids := evsids } }
        if ¬ trail_entry.level > 0 then .error .AssertionFailed
        else
          let backjump_level :=
            if a.backjump_level = 0 then max a.backjump_level (trail_entry.level - 1)
            else a.backjump_level
          if trail_entry.level ≠ s.trail.Level then .error .AssertionFailed
          else if ¬ backjump_level < s.trail.Level then .error .AssertionFailed
          else
            let made := s.ext.learned_clause.Make P.set_order
            .ok (made.1, backjump_level, { s with ext := { s.ext with learned_clause := made.2 } })

/-- The loop of `Backjump`.  Every round pops one entry, which bounds the rounds by the length
of the trail. -/
def BackjumpLoop (level : Nat) : Nat → CdclSolver S → Except Fault (Bool × CdclSolver S)
  | 0, _ => .error .OutOfFuel
  | n + 1, s =>
    if s.trail.Level > level then
      let top := s.trail.Top
      let s := { s with trail := top.2 }
      match top.1 with
      | none => .ok (false, s)
      | some trail_entry =>
        if trail_entry.reason = DecisionTrail.ReasonAssumption then .error .AssertionFailed
        else
          let s :=
            if s.ext.parameters.phase_saving ∧ trail_entry.reason = DecisionTrail.ReasonDecision ∧
                trail_entry.level > level then
              { s with ext := { s.ext with
                  saved_phases := s.ext.saved_phases.set trail_entry.var trail_entry.assignment } }
            else s
          let s := s.Assign trail_entry.var .Unassigned
          BackjumpLoop level n { s with trail := s.trail.Pop }
    else .ok (true, s)

/-- Backjump: undo all the assignments made above `level`. -/
def Backjump (s : CdclSolver S) (level : Nat) : Except Fault (Bool × CdclSolver S) :=
  BackjumpLoop level (s.trail.Length + 1) s

/-- The tail of `SolveImpl` on the paths that return `Unsatisfied`: the optional final
conflict analysis. -/
def FinishUnsatisfied (s : CdclSolver S) (analyze_final_conflict : Bool)
    (conflict : List Literal) (assumption_clause : Bool) :
    Except Fault (SolverStatus × CdclSolver S) :=
  if analyze_final_conflict then
    match AnalyzeFinalConflict s conflict assumption_clause with
    | .error e => .error e
    | .ok s => .ok (.Unsatisfied, s)
  else .ok (.Unsatisfied, s)

/-- The main loop of `SolveImpl`; `pending_assignments_iter` is the position of the
iterator. -/
def SolveLoop (P : Platform S) (analyze_final_conflict : Bool) :
    Nat → CdclSolver S → Nat → Nat → Except Fault (SolverStatus × CdclSolver S)
  | 0, _, _, _ => .error .OutOfFuel
  | fuel + 1, s, pending_assignments_iter, number_of_assumptions =>
    let poll := s.PollInterrupt
    let s := poll.2
    if poll.1 then .ok (.Unknown, s)
    else
      match s.UnitPropagation (fuel + 1) with
      | .error e => .error e
      | .ok (s, bcp_result, conflict_clause) =>
        if bcp_result = .Sat then
          match s.VerifyPendingAssignments (s.pending_assignments.drop pending_assignments_iter) with
          | none => .ok (.Satisfied, s)
          | some conflict => FinishUnsatisfied s analyze_final_conflict [conflict] true
        else if bcp_result = .Unsat then
          if s.trail.Level = 0 then
            FinishUnsatisfied s analyze_final_conflict (s.formula.get conflict_clause).clause false
          else
            match AnalyzeConflict P s (s.formula.get conflict_clause) with
            | .error e => .error e
            | .ok (learned_clause, backjump_level, s) =>
              let s := AppendClause P s learned_clause
              if backjump_level < number_of_assumptions then
                FinishUnsatisfied s analyze_final_conflict
                  (s.formula.get conflict_clause).clause false
              else
                match Backjump s backjump_level with
                | .error e => .error e
                | .ok (false, s) =>
                  FinishUnsatisfied s analyze_final_conflict
                    (s.formula.get conflict_clause).clause false
                | .ok (true, s) =>
                  SolveLoop P analyze_final_conflict fuel
                    { s with ext := { s.ext with evsids := s.ext.evsids.NextIteration P } }
                    pending_assignments_iter number_of_assumptions
        else if pending_assignments_iter = s.pending_assignments.length then
          let popped := s.ext.evsids.PopVariable P s.assignment
          let var := popped.1
          let s := { s with ext := { s.ext with evsids := popped.2 } }
          if var = 0 then .error .AssertionFailed
          else if s.assignment.get var ≠ .Unassigned then .error .AssertionFailed
          else
            let variable_assignment :=
              if s.ext.parameters.phase_saving ∧ s.ext.saved_phases.get var ≠ .Unassigned then
                s.ext.saved_phases.get var
              else .True
            let s := { s with trail := s.trail.Decision var variable_assignment }
            SolveLoop P analyze_final_conflict fuel (s.Assign var variable_assignment)
              pending_assignments_iter number_of_assumptions
        else
          let p := s.pending_assignments.getD pending_assignments_iter (0, .Unassigned, false)
          let r := s.PerformPendingAssignment p.1 p.2.1 p.2.2
          if !r.1 then
            FinishUnsatisfied r.2 analyze_final_conflict [Literal.mk p.1 p.2.1] true
          else
            SolveLoop P analyze_final_conflict fuel r.2 (pending_assignments_iter + 1)
              (if p.2.2 then number_of_assumptions + 1 else number_of_assumptions)

def SolveImpl (P : Platform S) (fuel : Nat) (analyze_final_conflict : Bool) (s : CdclSolver S) :
    Except Fault (SolverStatus × CdclSolver S) :=
  let s :=
    if s.ext.parameters.pure_literal_elimination then
      { s with pending_assignments := s.pending_assignments ++ s.ScanPureLiterals }
    else s
  SolveLoop P analyze_final_conflict fuel s 0 0

/-- Solve with assumptions (inherited from the base). -/
def Solve (P : Platform S) (fuel : Nat) (s : CdclSolver S) (assumptions : List Literal) :
    Except Fault (SolverStatus × CdclSolver S) :=
  BaseSolver.SolveWith (SolveImpl P fuel false) s assumptions

/-- Solve without arguments (inherited from the base). -/
def Solve0 (P : Platform S) (fuel : Nat) (s : CdclSolver S) :
    Except Fault (SolverStatus × CdclSolver S) :=
  BaseSolver.SolveNoAssumptions (SolveImpl P fuel false) s

/-- Solve with assumptions and a final conflict output: the list is what is written to
`final_conflict_output`. -/
def SolveFinalConflict (P : Platform S) (fuel : Nat) (s : CdclSolver S)
    (assumptions : List Literal) : Except Fault (SolverStatus × List Literal × CdclSolver S) :=
  let s := s.PreSolve
  let s := s.SaveAssumptions assumptions
  match SolveImpl P fuel true s with
  | .error e => .error e
  | .ok (status, s) =>
    let s := { s with current_status := status }
    let s := s.PostSolve
    if s.current_status = .Unsatisfied then
      .ok (s.current_status, P.set_order s.ext.final_conflict,
        { s with ext := { s.ext with final_conflict := [] } })
    else .ok (s.current_status, [], s)

end CdclSolver

/-! ## Concrete platform and inputs -/

/-- Score: an exact nonnegative score `num / den`, for running the solver on examples. -/
structure Score where
  num : Nat
  den : Nat
  deriving DecidableEq, Repr

/-- A platform with exact arithmetic on scores (no rounding, no infinity) and insertion order
as the iteration order of hash sets. -/
def exactPlatform : Platform Score where
  zero := ⟨0, 1⟩
  one := ⟨1, 1⟩
  add := fun a b => ⟨a.num * b.den + b.num * a.den, a.den * b.den⟩
  mul := fun a b => ⟨a.num * b.num, a.den * b.den⟩
  div := fun a b => ⟨a.num * b.den, a.den * b.num⟩
  lt := fun a b => decide (a.num * b.den < b.num * a.den)
  le := fun a b => decide (a.num * b.den ≤ b.num * a.den)
  isinf := fun _ => false
  set_order := fun ls => ls

/-- The default member initialisers of `ScoringParameters`: `1e100`, `1e-100`, `1.0`, `1.05`. -/
def defaultScoring : ScoringParameters Score :=
  { rescore_threshold := ⟨10 ^ 100, 1⟩
    rescore_factor := ⟨1, 10 ^ 100⟩
    initial_increment := ⟨1, 1⟩
    decay_rate := ⟨21, 20⟩ }

/-- The formula that a `FormulaBuilder` makes of a stream of clauses: `AppendLiteral` for
every literal and `EndClause` after every clause. -/
def Formula.ofClauses (set_order : List Literal → List Literal) (clauses : List (List Literal)) :
    Formula :=
  (clauses.foldl
    (fun b c => (c.foldl FormulaBuilder.AppendLiteral b).EndClause set_order)
    (FormulaBuilder.new Formula.empty)).formula

/-! ## Vocabulary of the specification -/

/-- The status that a call returned, or its fault. -/
def resultStatus {σ : Type} (r : Except Fault (SolverStatus × σ)) : Except Fault SolverStatus :=
  match r with
  | .error e => .error e
  | .ok (status, _) => .ok status

/-- The status that a call returned together with `GetAssignment()` afterwards. -/
def resultModel {X : Type} (r : Except Fault (SolverStatus × BaseSolver X)) :
    Except Fault (SolverStatus × Assignment) :=
  match r with
  | .error e => .error e
  | .ok (status, s) => .ok (status, s.GetAssignment)

/-- The status and the final conflict that the call with a final conflict output returned. -/
def resultFinalConflict {σ : Type} (r : Except Fault (SolverStatus × List Literal × σ)) :
    Except Fault (SolverStatus × List Literal) :=
  match r with
  | .error e => .error e
  | .ok (status, final_conflict, _) => .ok (status, final_conflict)

/-- The value of a literal under a total valuation of the variables. -/
def Literal.value (M : Nat → Bool) (l : Literal) : Bool :=
  if l < 0 then !M (Literal.Variable l) else M (Literal.Variable l)

/-- A clause is true under a total valuation when one of its literals is. -/
def ClauseView.value (M : Nat → Bool) (c : ClauseView) : Bool :=
  c.clause.any (Literal.value M)

/-- A formula is true under a total valuation when all its clauses are. -/
def Formula.value (M : Nat → Bool) (f : Formula) : Bool :=
  f.clauses.all (ClauseView.value M)

/-- A clause has a literal that evaluates to true under the (partial) assignment. -/
def ClauseView.SatisfiedBy (c : ClauseView) (a : Assignment) : Bool :=
  c.clause.any (fun l => Literal.Eval l (a.get (Literal.Variable l)))

/-- The outcomes of `n` successive calls of `Solve()` on the same solver, up to the first
fault. -/
def CdclSolver.RepeatedSolve {S : Type} (P : Platform S) (fuel : Nat) :
    Nat → CdclSolver S → List (Except Fault SolverStatus)
  | 0, _ => []
  | n + 1, s =>
    match CdclSolver.Solve0 P fuel s with
    | .error e => [.error e]
    | .ok (status, s) => .ok status :: CdclSolver.RepeatedSolve P fuel n s

/-- The scenario `Solve()`, `AppendClause(c)`, `Solve()`: the first status and the outcome of
the second call with the solver it leaves. -/
def CdclSolver.SolveAppendSolve {S : Type} (P : Platform S) (fuel : Nat) (s : CdclSolver S)
    (c : Clause) : Except Fault (SolverStatus × Except Fault (SolverStatus × CdclSolver S)) :=
  match CdclSolver.Solve0 P fuel s with
  | .error e => .error e
  | .ok (status, s) => .ok (status, CdclSolver.Solve0 P fuel (CdclSolver.AppendClause P s c))

/-- The clause that a `ClauseBuilder` makes of the given literals. -/
def Clause.ofLiterals (set_order : List Literal → List Literal) (literals : List Literal) :
    Clause :=
  ((literals.foldl ClauseBuilder.Add ClauseBuilder.empty).Make set_order).1

/-! ## Invariants -/

/-- A watch index is the sentinel `-1` or a position of the clause. -/
def Watcher.WatchInRange (w : Watcher) (i : Int) : Prop :=
  i = -1 ∨ (0 ≤ i ∧ i.toNat < w.clause.clause.length)

/-- Both watch indices are valid, and a `Unit` watcher has a first watch. -/
def Watcher.RangeOk (w : Watcher) : Prop :=
  w.WatchInRange w.watched_literals.1 ∧ w.WatchInRange w.watched_literals.2 ∧
    (w.status = .Unit → w.watched_literals.1 ≠ -1)

/-- A watcher with status `Satisfied` watches a literal that is true. -/
def Watcher.SatisfiedOk (w : Watcher) (assn : Assignment) : Prop :=
  w.status = .Satisfied →
    w.IsSatisfied assn w.watched_literals.1 = true ∨ w.IsSatisfied assn w.watched_literals.2 = true

/-- The literal at watch index `i` has an unassigned variable. -/
def Watcher.UnassignedAt (w : Watcher) (assn : Assignment) (i : Int) : Prop :=
  assn.get (Literal.Variable (w.clause.get i.toNat)) = .Unassigned

/-- A watcher whose status is not `Satisfied` watches unassigned literals only. -/
def Watcher.UnassignedOk (w : Watcher) (assn : Assignment) : Prop :=
  w.status ≠ .Satisfied →
    (w.watched_literals.1 ≠ -1 → w.UnassignedAt assn w.watched_literals.1) ∧
    (w.watched_literals.2 ≠ -1 → w.UnassignedAt assn w.watched_literals.2)

/-- The part of the watcher invariant that every update keeps, whatever the order of the
assignments. -/
def Watcher.Ok (w : Watcher) (assn : Assignment) : Prop :=
  w.RangeOk ∧ w.SatisfiedOk assn ∧ w.UnassignedOk assn

/-- The test at the head of the falsifying branch of `Update` that makes it return at once. -/
def Watcher.EarlyReturn (w : Watcher) (assigned_variable : Nat) : Prop :=
  w.watched_literals.1 ≠ -1 ∧
    assigned_variable ≠ Literal.Variable (w.clause.get w.watched_literals.1.toNat) ∧
    w.watched_literals.2 ≠ -1 ∧
    assigned_variable ≠ Literal.Variable (w.clause.get w.watched_literals.2.toNat)

/-- The first watch after the falsifying branch of `Update`. -/
def Watcher.NewFirst (w : Watcher) (assn : Assignment) : Int :=
  if w.IsUnsatisfied assn w.watched_literals.1 then w.FindUnassigned assn (-1)
  else w.watched_literals.1

/-- The second watch after the falsifying branch of `Update`. -/
def Watcher.NewSecond (w : Watcher) (assn : Assignment) : Int :=
  if w.watched_literals.2 = w.NewFirst assn ∨ w.IsUnsatisfied assn w.watched_literals.2 = true then
    w.FindUnassigned assn (w.NewFirst assn)
  else w.watched_literals.2

/-- Some watch of the watcher is on a literal of variable `v`. -/
def Watcher.WatchesVar (w : Watcher) (v : Nat) : Prop :=
  (w.watched_literals.1 ≠ -1 ∧ Literal.Variable (w.clause.get w.watched_literals.1.toNat) = v) ∨
  (w.watched_literals.2 ≠ -1 ∧ Literal.Variable (w.clause.get w.watched_literals.2.toNat) = v)

/-- The state of a watcher between the updates that follow an assignment to `v`: the invariant
may fail at watches on `v` only. -/
def Watcher.Mid (w : Watcher) (assn : Assignment) (v : Nat) : Prop :=
  w.RangeOk ∧
  (w.status = .Satisfied → w.SatisfiedOk assn ∨ w.WatchesVar v) ∧
  (w.status ≠ .Satisfied → ∀ i, (i = w.watched_literals.1 ∨ i = w.watched_literals.2) → i ≠ -1 →
    w.UnassignedAt assn i ∨ Literal.Variable (w.clause.get i.toNat) = v)

/-- The state of a watcher after an update by the falsifying branch: the watches of a watcher
that is not `Satisfied` are unassigned, or true literals of `v`. -/
def Watcher.Post (w : Watcher) (assn : Assignment) (v : Nat) : Prop :=
  w.RangeOk ∧ w.SatisfiedOk assn ∧
  (w.status ≠ .Satisfied → ∀ i, (i = w.watched_literals.1 ∨ i = w.watched_literals.2) → i ≠ -1 →
    w.UnassignedAt assn i ∨
      (Literal.Variable (w.clause.get i.toNat) = v ∧ w.IsSatisfied assn i = true))

/-- A watch chosen by `Rescan`: the sentinel, or a position of a literal that is true or
unassigned. -/
def Watcher.GoodWatch (c : ClauseView) (assn : Assignment) (i : Int) : Prop :=
  i = -1 ∨ (0 ≤ i ∧ i.toNat < c.clause.length ∧
    (Literal.Eval (c.get i.toNat) (assn.get (Literal.Variable (c.get i.toNat))) = true ∨
      assn.get (Literal.Variable (c.get i.toNat)) = .Unassigned))

/-- Every literal of every clause is a valid literal over the variables of the formula. -/
def Formula.WellFormed (f : Formula) : Prop :=
  ∀ c ∈ f.clauses, ∀ l ∈ c.clause, l ≠ 0 ∧ Literal.Variable l ≤ f.num_of_variables

/-- The invariant of the shared solver state that every operation of the solvers keeps:
the vectors have the size of the formula, the watchers are those of the clauses, the variable
index lists exactly the occurrences, and every watcher is `Ok`. -/
structure BaseSolver.Consistent {X : Type} (s : BaseSolver X) : Prop where
  wf : s.formula.WellFormed
  assignment_length : s.assignment.assignment.length = s.formula.num_of_variables
  index_length : s.variable_index.length = s.formula.num_of_variables
  watchers_clauses : s.watchers.map (fun w => w.clause) = s.formula.clauses
  index_pos : ∀ v i, 1 ≤ v → v ≤ s.formula.num_of_variables →
    (i ∈ (s.VariableIndex v).positive_clauses ↔
      (i < s.formula.clauses.length ∧ (v : Int) ∈ (s.formula.get i).clause))
  index_neg : ∀ v i, 1 ≤ v → v ≤ s.formula.num_of_variables →
    (i ∈ (s.VariableIndex v).negative_clauses ↔
      (i < s.formula.clauses.length ∧ -(v : Int) ∈ (s.formula.get i).clause))
  watchers_ok : ∀ w ∈ s.watchers, w.Ok s.assignment

/-- The invariant of the constructor of `BaseSolver` after the first `k` clauses of the formula
`f` over `n` variables have been given their watcher. -/
structure BaseSolver.Populated {X : Type} (f : Formula) (k : Nat) (s : BaseSolver X) : Prop where
  formula_eq : s.formula = f
  assignment_eq : s.assignment = Assignment.new f.num_of_variables
  index_length : s.variable_index.length = f.num_of_variables
  watchers_clauses : s.watchers.map (fun w => w.clause) = f.clauses.take k
  index_pos : ∀ v i, 1 ≤ v → v ≤ f.num_of_variables →
    (i ∈ (s.VariableIndex v).positive_clauses ↔ (i < k ∧ (v : Int) ∈ (f.get i).clause))
  index_neg : ∀ v i, 1 ≤ v → v ≤ f.num_of_variables →
    (i ∈ (s.VariableIndex v).negative_clauses ↔ (i < k ∧ -(v : Int) ∈ (f.get i).clause))
  watchers_ok : ∀ w ∈ s.watchers, w.Ok s.assignment

/-- The iteration order of a hash set lists the elements of the set: `set_order` permutes its
argument. -/
def Platform.SetOrderOk {S : Type} (P : Platform S) : Prop :=
  ∀ ls : List Literal, List.Perm (P.set_order ls) ls

/-- Every entry of the trail for the variable `v` has an assumption entry at or above it. -/
def DecisionTrail.Guarded (trail : List DecisionTrail.Entry) (v : Nat) : Prop :=
  ∀ (i : Nat) (e : DecisionTrail.Entry), trail[i]? = some e → e.var = v →
    ∃ (j : Nat) (e1 : DecisionTrail.Entry),
      i ≤ j ∧ trail[j]? = some e1 ∧ e1.reason = DecisionTrail.ReasonAssumption

/-- The invariant of the main loop of `CdclSolver::SolveImpl` when the iterator over the pending
assignments stands at `iter`: the shared state is consistent, the trail, the heap of the
heuristic and the pending assignments hold variables of the formula, the clause builder holds
valid literals, and every assumption already applied is still in force and guarded on the
trail by an assumption entry. -/
structure CdclSolver.Inv {S : Type} (s : CdclSolver S) (iter : Nat) : Prop where
  consistent : s.Consistent
  trail_range : ∀ e ∈ s.trail.trail, 1 ≤ e.var ∧ e.var ≤ s.formula.num_of_variables
  trail_index_length : s.trail.var_index.length = s.formula.num_of_variables
  heap_range : ∀ v ∈ s.ext.evsids.ordered_variables, 1 ≤ v ∧ v ≤ s.formula.num_of_variables
  pending_range : ∀ p ∈ s.pending_assignments,
    1 ≤ p.1 ∧ p.1 ≤ s.formula.num_of_variables ∧ p.2.1 ≠ .Unassigned
  builder_ok : ∀ l ∈ s.ext.learned_clause.literals,
    l ≠ 0 ∧ Literal.Variable l ≤ s.ext.learned_clause.num_of_variables
  iter_le : iter ≤ s.pending_assignments.length
  applied : ∀ j v a, j < iter → s.pending_assignments[j]? = some (v, a, true) →
    s.assignment.get v = a ∧ DecisionTrail.Guarded s.trail.trail v

/-- Two solver states share the formula, the variable index, the watchers, the assignment, the
trail and the pending assignments. -/
structure BaseSolver.SameShared {X : Type} (t s : BaseSolver X) : Prop where
  formula : t.formula = s.formula
  variable_index : t.variable_index = s.variable_index
  watchers : t.watchers = s.watchers
  assignment : t.assignment = s.assignment
  trail : t.trail = s.trail
  pending : t.pending_assignments = s.pending_assignments

/-- No literal of the clause evaluates to true. -/
def ClauseView.NoTrue (c : ClauseView) (assn : Assignment) : Prop :=
  ∀ l ∈ c.clause, Literal.Eval l (assn.get (Literal.Variable l)) = false

/-- The watch `i` is on a true literal that was assigned no later than any other true literal
of the clause, where `r` gives the time at which a variable was assigned. -/
def Watcher.MinTrue (w : Watcher) (assn : Assignment) (r : Nat → Nat) (i : Int) : Prop :=
  w.IsSatisfied assn i = true ∧
    ∀ l ∈ w.clause.clause, Literal.Eval l (assn.get (Literal.Variable l)) = true →
      r (Literal.Variable (w.clause.get i.toNat)) ≤ r (Literal.Variable l)

/-- One of the two watches is on an earliest true literal. -/
def Watcher.HasMinTrue (w : Watcher) (assn : Assignment) (r : Nat → Nat) : Prop :=
  w.MinTrue assn r w.watched_literals.1 ∨ w.MinTrue assn r w.watched_literals.2

/-- The statuses `Unit` and `Unsatisfied` go with missing watches. -/
def Watcher.StatusByWatches (w : Watcher) : Prop :=
  (w.status = .Unit → w.watched_literals.2 = -1) ∧
  (w.status = .Unsatisfied → w.watched_literals.1 = -1 ∧ w.watched_literals.2 = -1)

/-- A missing watch means that no candidate is left: without a first watch every literal is
assigned, without a second watch every literal but the first watch is assigned. -/
def Watcher.NoneLeft (w : Watcher) (assn : Assignment) : Prop :=
  (w.watched_literals.1 = -1 →
    ∀ l ∈ w.clause.clause, assn.get (Literal.Variable l) ≠ .Unassigned) ∧
  (w.watched_literals.2 = -1 →
    ∀ i : Nat, i < w.clause.clause.length → (i : Int) ≠ w.watched_literals.1 →
      assn.get (Literal.Variable (w.clause.get i)) ≠ .Unassigned)

/-- The part of the watcher invariant that relies on assignments being undone in the reverse
order: the cached status is exact. -/
def Watcher.Tight (w : Watcher) (assn : Assignment) (r : Nat → Nat) : Prop :=
  w.StatusByWatches ∧ w.NoneLeft assn ∧
  (w.status ≠ .Satisfied → w.clause.NoTrue assn) ∧
  (w.status = .Satisfied → w.HasMinTrue assn r)

/-- The state of a watcher after the assignment changed at `x` and before the falsifying
branch of `Update` has run, when the clause gained no true literal. -/
def Watcher.Semi (w : Watcher) (assn : Assignment) (r : Nat → Nat) (x : Nat) : Prop :=
  w.RangeOk ∧ w.StatusByWatches ∧
  (w.status ≠ .Satisfied → w.clause.NoTrue assn) ∧
  (w.status = .Satisfied → w.HasMinTrue assn r ∨ (w.clause.NoTrue assn ∧ w.WatchesVar x))

/-- The state of a watcher after `x` was assigned and before the satisfying branch of `Update`
has run. -/
def Watcher.PreSat (w : Watcher) (assn : Assignment) (r : Nat → Nat) (x : Nat) : Prop :=
  w.RangeOk ∧ w.NoneLeft assn ∧
  (w.status = .Satisfied → w.HasMinTrue assn r) ∧
  (w.status ≠ .Satisfied →
    ∀ l ∈ w.clause.clause, Literal.Eval l (assn.get (Literal.Variable l)) = true →
      Literal.Variable l = x)

/-- The position of the entry of `v` on the trail (the length of the trail when there is
none): the time at which `v` was assigned. -/
def DecisionTrail.Rank (trail : List DecisionTrail.Entry) (v : Nat) : Nat :=
  (trail.map (fun e => e.var)).indexOf v

/-- The literal is assigned and evaluates to false. -/
def Literal.IsFalse (l : Literal) (assn : pjos.Assignment) : Prop :=
  assn.get (Literal.Variable l) ≠ .Unassigned ∧
    Literal.Eval l (assn.get (Literal.Variable l)) = false

/-- The total valuation `M` gives `v` the value opposite to the one it is assigned. -/
def Assignment.Disagree (assn : Assignment) (M : Nat → Bool) (v : Nat) : Prop :=
  M v ≠ decide (assn.get v = .True)

/-- The invariant behind the soundness of the conflict analysis for a solve of the formula `F`:
the cached statuses of the watchers are exact, the trail and the assignment agree (a variable
has a second entry only when an assumption on it was applied while it was assigned), every
propagated assignment has a reason clause all of whose other literals were false before, the
decision levels grow along the trail, and every clause of the solver (learned clauses included)
follows from `F`. -/
structure CdclSolver.Sound {S : Type} (F : Formula) (s : CdclSolver S) : Prop where
  tight : ∀ w ∈ s.watchers, w.Tight s.assignment (DecisionTrail.Rank s.trail.trail)
  trail_assignment : ∀ e ∈ s.trail.trail,
    s.assignment.get e.var = e.assignment ∧ e.assignment ≠ .Unassigned
  assigned_on_trail : ∀ v, 1 ≤ v → v ≤ s.formula.num_of_variables →
    s.assignment.get v ≠ .Unassigned → ∃ e ∈ s.trail.trail, e.var = v
  dups : ∀ (i j : Nat) (ei ej : DecisionTrail.Entry), i < j → s.trail.trail[i]? = some ei →
    s.trail.trail[j]? = some ej → ei.var = ej.var → ej.reason = DecisionTrail.ReasonAssumption
  index : ∀ (k i : Nat), s.trail.var_index[k]? = some (some i) →
    ∃ e, s.trail.trail[i]? = some e ∧ e.var = k + 1
  reasons : ∀ (i : Nat) (e : DecisionTrail.Entry), s.trail.trail[i]? = some e → 0 ≤ e.reason →
    Literal.mk e.var e.assignment ∈ (s.formula.get e.reason.toNat).clause ∧
    ∀ l ∈ (s.formula.get e.reason.toNat).clause, l = Literal.mk e.var e.assignment ∨
      (Literal.IsFalse l s.assignment ∧
        DecisionTrail.Rank s.trail.trail (Literal.Variable l) < i)
  levels : s.trail.trail.Pairwise (fun e1 e2 => e1.level ≤ e2.level)
  level_last : s.trail.level = (s.trail.trail.getLast?.map (fun e => e.level)).getD 0
  level_reason : ∀ e ∈ s.trail.trail, 0 ≤ e.reason ∨ 1 ≤ e.level
  implied : ∀ M : Nat → Bool, F.value M = true → ∀ c ∈ s.formula.clauses, c.value M = true
  track_length : s.ext.analysis_track.length = s.formula.num_of_variables

/-- The clause that the conflict analysis is resolving, read off its marks: some literal
collected in the clause builder is true under `M`, or `M` disagrees with the assignment on a
variable marked `Pending`. -/
def CdclSolver.Resolvent {S : Type} (s : CdclSolver S) (M : Nat → Bool) : Prop :=
  (∃ l ∈ s.ext.learned_clause.literals, Literal.value M l = true) ∨
  (∃ v, 1 ≤ v ∧ CdclSolver.AnalysisTrackOf s v = .Pending ∧ s.assignment.Disagree M v)

/-- The state `a1` of the conflict analysis comes after the state `a`: the shared state is the
same, marks and collected literals were only added, no variable was marked `Processed`, and the
count of paths went up by the number of variables newly marked `Pending`. -/
structure CdclSolver.Extends {S : Type} (a a1 : CdclSolver.ConflictAnalysis S) : Prop where
  shared : BaseSolver.SameShared a1.solver a.solver
  track_length : a1.solver.ext.analysis_track.length = a.solver.ext.analysis_track.length
  processed : ∀ v, CdclSolver.AnalysisTrackOf a1.solver v = .Processed ↔
    CdclSolver.AnalysisTrackOf a.solver v = .Processed
  pending : ∀ v, CdclSolver.AnalysisTrackOf a.solver v = .Pending →
    CdclSolver.AnalysisTrackOf a1.solver v = .Pending
  builder : ∀ l ∈ a.solver.ext.learned_clause.literals,
    l ∈ a1.solver.ext.learned_clause.literals
  count : a1.number_of_paths + a.solver.ext.analysis_track.count .Pending =
    a.number_of_paths + a1.solver.ext.analysis_track.count .Pending

/-! ## Sequences of operations on a `DecisionTrail` -/

/-- A call of one of the operations that change a `DecisionTrail`. -/
inductive DecisionTrail.Op where
  | Decision (var : Nat) (assn : VariableAssignment)
  | Assumption (var : Nat) (assn : VariableAssignment)
  | Propagation (var : Nat) (assn : VariableAssignment)
  | PropagationFrom (var : Nat) (assn : VariableAssignment) (reason : Nat)
  | Pop
  deriving DecidableEq, Repr

/-- The trail after the call. -/
def DecisionTrail.apply (t : DecisionTrail) : DecisionTrail.Op → DecisionTrail
  | .Decision var assn => t.Decision var assn
  | .Assumption var assn => t.Assumption var assn
  | .Propagation var assn => t.Propagation var assn
  | .PropagationFrom var assn reason => t.PropagationFrom var assn reason
  | .Pop => t.Pop

/-- The trail after a sequence of calls. -/
def DecisionTrail.run (t : DecisionTrail) (ops : List DecisionTrail.Op) : DecisionTrail :=
  ops.foldl DecisionTrail.apply t

/-- The variable that a call pushes on the trail (`none` for `Pop`). -/
def DecisionTrail.Op.pushed : DecisionTrail.Op → Option Nat
  | .Decision var _ => some var
  | .Assumption var _ => some var
  | .Propagation var _ => some var
  | .PropagationFrom var _ _ => some var
  | .Pop => none

/-- The variable of the call is within the configured variable count of the trail. -/
def DecisionTrail.Op.inRange (t : DecisionTrail) (op : DecisionTrail.Op) : Bool :=
  match op.pushed with
  | some var => decide (1 ≤ var ∧ var ≤ t.var_index.length)
  | none => true

/-- The variable of the call is within range and has no entry on the trail. -/
def DecisionTrail.Op.fresh (t : DecisionTrail) (op : DecisionTrail.Op) : Bool :=
  match op.pushed with
  | some var => decide (1 ≤ var ∧ var ≤ t.var_index.length) && t.trail.all (fun e => e.var != var)
  | none => true

/-- Every call of the sequence is on a variable within range. -/
def DecisionTrail.allInRange : DecisionTrail → List DecisionTrail.Op → Bool
  | _, [] => true
  | t, op :: ops => op.inRange t && DecisionTrail.allInRange (t.apply op) ops

/-- Every call of the sequence is on a variable within range that has no entry on the trail at
the time of the call. -/
def DecisionTrail.allFresh : DecisionTrail → List DecisionTrail.Op → Bool
  | _, [] => true
  | t, op :: ops => op.fresh t && DecisionTrail.allFresh (t.apply op) ops

/-- The per-variable index holds the position of every entry: the variables of the entries are
distinct and within range, and `var_index` maps the variable of the entry at position `i` to
`i`. -/
structure DecisionTrail.Indexed (t : DecisionTrail) : Prop where
  nodup : (t.trail.map (fun e => e.var)).Nodup
  range : ∀ e ∈ t.trail, 1 ≤ e.var ∧ e.var ≤ t.var_index.length
  index : ∀ (i : Nat) (e : DecisionTrail.Entry), t.trail[i]? = some e →
    t.var_index[e.var - 1]? = some (some i)

/-! ## The status of a clause and the watcher invariant, as the specification words them -/

/-- The assignment covers the variables of the clause: every literal is a valid literal on a
variable that the assignment has. -/
def ClauseView.CoveredBy (c : ClauseView) (assn : Assignment) : Prop :=
  ∀ l ∈ c.clause, l ≠ 0 ∧ Literal.Variable l ≤ assn.NumOfVariables

/-- The number of literals of the clause whose variable is unassigned. -/
def ClauseView.numUnassigned (c : ClauseView) (assn : Assignment) : Nat :=
  c.clause.countP (fun l => decide (assn.get (Literal.Variable l) = .Unassigned))

/-- The true status of a clause under an assignment: `Satisfied` when some literal is true;
otherwise `Undecided` with at least two unassigned literals, `Unit` with exactly one,
`Unsatisfied` with none. -/
def ClauseView.TrueStatus (c : ClauseView) (assn : Assignment) : ClauseStatus :=
  if c.SatisfiedBy assn then .Satisfied
  else if 2 ≤ c.numUnassigned assn then .Undecided
  else if c.numUnassigned assn = 1 then .Unit
  else .Unsatisfied

/-- The watch `i` refers to a literal of the clause whose variable is unassigned. -/
def Watcher.WatchUnassigned (w : Watcher) (assn : Assignment) (i : Int) : Prop :=
  0 ≤ i ∧ i.toNat < w.clause.clause.length ∧ w.UnassignedAt assn i

/-- The watcher invariant in the words of the specification: `Satisfied` - a watched literal
is true; `Undecided` - both watches refer to unassigned literals; `Unit` - exactly one watch
refers to an unassigned literal and no literal of the clause is true; `Unsatisfied` - no watch
refers to an unassigned or a true literal. -/
def Watcher.Invariant (w : Watcher) (assn : Assignment) : Prop :=
  (w.status = .Satisfied →
    w.IsSatisfied assn w.watched_literals.1 = true ∨
      w.IsSatisfied assn w.watched_literals.2 = true) ∧
  (w.status = .Undecided →
    w.WatchUnassigned assn w.watched_literals.1 ∧ w.WatchUnassigned assn w.watched_literals.2) ∧
  (w.status = .Unit →
    ((w.WatchUnassigned assn w.watched_literals.1 ∧
        ¬ w.WatchUnassigned assn w.watched_literals.2) ∨
      (¬ w.WatchUnassigned assn w.watched_literals.1 ∧
        w.WatchUnassigned assn w.watched_literals.2)) ∧
    w.clause.NoTrue assn) ∧
  (w.status = .Unsatisfied →
    ¬ w.WatchUnassigned assn w.watched_literals.1 ∧
    ¬ w.WatchUnassigned assn w.watched_literals.2 ∧
    w.IsSatisfied assn w.watched_literals.1 = false ∧
    w.IsSatisfied assn w.watched_literals.2 = false)

/-- The state of the loop of `Rescan` before the literal at position `k`: with a true literal
among the first `k`, the first watch is on a true literal; without one, the watches are on the
first two unassigned literals among the first `k`, as far as there are any. -/
def Watcher.ScanState (c : ClauseView) (assn : Assignment) (k : Nat) (wl : Int × Int) : Prop :=
  ((c.clause.take k).any (fun l => Literal.Eval l (assn.get (Literal.Variable l))) = true →
    0 ≤ wl.1 ∧ wl.1.toNat < k ∧
      Literal.Eval (c.get wl.1.toNat) (assn.get (Literal.Variable (c.get wl.1.toNat))) = true) ∧
  ((c.clause.take k).any (fun l => Literal.Eval l (assn.get (Literal.Variable l))) = false →
    (((c.clause.take k).countP
        (fun l => decide (assn.get (Literal.Variable l) = .Unassigned)) = 0 →
      wl.1 = -1 ∧ wl.2 = -1) ∧
    ((c.clause.take k).countP
        (fun l => decide (assn.get (Literal.Variable l) = .Unassigned)) = 1 →
      (0 ≤ wl.1 ∧ wl.1.toNat < k ∧
        assn.get (Literal.Variable (c.get wl.1.toNat)) = .Unassigned) ∧ wl.2 = -1) ∧
    (2 ≤ (c.clause.take k).countP
        (fun l => decide (assn.get (Literal.Variable l) = .Unassigned)) →
      (0 ≤ wl.1 ∧ wl.1.toNat < k ∧
        assn.get (Literal.Variable (c.get wl.1.toNat)) = .Unassigned) ∧
      (0 ≤ wl.2 ∧ wl.2.toNat < k ∧
        assn.get (Literal.Variable (c.get wl.2.toNat)) = .Unassigned) ∧
      wl.1 ≠ wl.2)))

/-- An `Undecided` watcher has a second watch, which is not the first. -/
def Watcher.UndecidedOk (w : Watcher) : Prop :=
  w.status = .Undecided →
    w.watched_literals.2 ≠ -1 ∧ w.watched_literals.1 ≠ w.watched_literals.2

/-- The state of a `Satisfied` watcher right after the newest assignment, the one of `x`, was
flipped, when a watch is on `x` and every literal that is true now is on `x`. -/
def Watcher.FlipState (w : Watcher) (assn : Assignment) (x : Nat) : Prop :=
  w.RangeOk ∧ w.NoneLeft assn ∧ w.status = .Satisfied ∧ w.WatchesVar x ∧
    ∀ l ∈ w.clause.clause, Literal.Eval l (assn.get (Literal.Variable l)) = true →
      Literal.Variable l = x

/-- The strengthened watcher invariant that `Assign` keeps when assignments are undone in the
reverse order: the watches are valid, the cached status is exact for the times `r` at which the
variables were assigned, and an `Undecided` watcher has two watches. -/
def Watcher.Exact (w : Watcher) (assn : Assignment) (r : Nat → Nat) : Prop :=
  w.Ok assn ∧ w.Tight assn r ∧ w.UndecidedOk

/-- The three orders in which the solvers call `Assign(x, a)`, where `r` gives the time at which
a variable was assigned: a value for an unassigned variable, which becomes the newest assignment;
the undoing of the newest assignment; the flip of the newest assignment from `True` (the value
of every decision of `DpllSolver`) to `False`. -/
def BaseSolver.AssignOrder {X : Type} (s : BaseSolver X) (r : Nat → Nat) (x : Nat)
    (a : VariableAssignment) : Prop :=
  (a ≠ .Unassigned ∧ s.assignment.get x = .Unassigned ∧
    ∀ y, s.assignment.get y ≠ .Unassigned → r y ≤ r x) ∨
  (a = .Unassigned ∧ ∀ y, 1 ≤ y → y ≤ s.formula.num_of_variables → y ≠ x →
    s.assignment.get y ≠ .Unassigned → r y < r x) ∨
  (a = .False ∧ s.assignment.get x = .True ∧
    ∀ y, 1 ≤ y → y ≤ s.formula.num_of_variables → y ≠ x →
      s.assignment.get y ≠ .Unassigned → r y < r x)

/-- The order of the assignment to `x` as one watcher sees it; see `BaseSolver.AssignOrder`. -/
def Watcher.UpdateOrder (w : Watcher) (assn : Assignment) (r : Nat → Nat) (x : Nat)
    (a : VariableAssignment) : Prop :=
  (a ≠ .Unassigned ∧ assn.get x = .Unassigned ∧
    ∀ y, assn.get y ≠ .Unassigned → r y ≤ r x) ∨
  (a = .Unassigned ∧ ∀ l ∈ w.clause.clause, Literal.Variable l ≠ x →
    assn.get (Literal.Variable l) ≠ .Unassigned → r (Literal.Variable l) < r x) ∨
  (a = .False ∧ assn.get x = .True ∧ ∀ l ∈ w.clause.clause, Literal.Variable l ≠ x →
    assn.get (Literal.Variable l) ≠ .Unassigned → r (Literal.Variable l) < r x)

/-- The calls of `Update` that `UpdateWatchers` makes on one watcher after `x` received `a`:
one call for every occurrence of the clause in the positive list of `x`, then one for every
occurrence in the negative list. -/
def Watcher.UpdateCalls (w : Watcher) (assn : Assignment) (x : Nat) (a : VariableAssignment)
    (kp kn : Nat) : Watcher :=
  (fun w : Watcher => w.Update assn x a (decide (a = .False)))^[kn]
    ((fun w : Watcher => w.Update assn x a (decide (a = .True)))^[kp] w)

/-! ## Sequences of calls on a formula and on a modifiable solver -/

/-- A clause as `ClauseBuilder::Make` builds it: no literal is the terminator and every variable
is within the number of variables of the clause. -/
def ClauseView.Valid (c : ClauseView) : Prop :=
  ∀ l ∈ c.clause, l ≠ 0 ∧ Literal.Variable l ≤ c.num_of_variables

/-- The largest variable index that occurs in the clauses of the formula, `0` when there is
none. -/
def Formula.MaxVariable (f : Formula) : Nat :=
  (f.clauses.map (fun c => (c.clause.map Literal.Variable).foldl max 0)).foldl max 0

/-- One call that modifies a `Formula`. -/
inductive Formula.Op where
  | Append (clause : Clause)
  | Remove (index : Nat)
  | Clear
  deriving DecidableEq, Repr

def Formula.step (f : Formula) : Formula.Op → Formula
  | .Append clause => f.AppendClause clause
  | .Remove index => (f.RemoveClause index).2
  | .Clear => f.Clear

/-- The formula after a sequence of calls. -/
def Formula.run (f : Formula) (ops : List Formula.Op) : Formula := ops.foldl Formula.step f

/-- One call of `ModifiableSolverBase`. -/
inductive SolverOp where
  | Append (clause : Clause)
  | Remove (index : Nat)
  deriving DecidableEq, Repr

/-- The calls are within their preconditions on a solver that holds `n` clauses: a clause that
is appended is valid, and a clause that is removed exists (`RemoveClause` reads
`owned_formula[index]` unchecked). -/
def SolverOp.Valid : Nat → List SolverOp → Prop
  | _, [] => True
  | n, .Append clause :: ops => clause.Valid ∧ SolverOp.Valid (n + 1) ops
  | n, .Remove index :: ops => index < n ∧ SolverOp.Valid (n - 1) ops

/-- The clause sequence after a sequence of calls, in the words of the specification: an
appended clause goes to the end, a removed clause is deleted and the clauses behind it move
down by one. -/
def SolverOp.clauses : List Clause → List SolverOp → List Clause
  | cs, [] => cs
  | cs, .Append clause :: ops => SolverOp.clauses (cs ++ [clause]) ops
  | cs, .Remove index :: ops => SolverOp.clauses (cs.take index ++ cs.drop (index + 1)) ops

def ModifiableDpllSolver.step (s : ModifiableDpllSolver) : SolverOp → ModifiableDpllSolver
  | .Append clause => ModifiableDpllSolver.AppendClause s clause
  | .Remove index => ModifiableDpllSolver.RemoveClause s index

/-- The solver after a sequence of calls of `AppendClause` and `RemoveClause`. -/
def ModifiableDpllSolver.run (s : ModifiableDpllSolver) (ops : List SolverOp) :
    ModifiableDpllSolver :=
  ops.foldl ModifiableDpllSolver.step s

def CdclSolver.step {S : Type} (P : Platform S) (s : CdclSolver S) : SolverOp → CdclSolver S
  | .Append clause => CdclSolver.AppendClause P s clause
  | .Remove index => CdclSolver.RemoveClause P s index

/-- The solver after a sequence of calls of `AppendClause` and `RemoveClause`. -/
def CdclSolver.run {S : Type} (P : Platform S) (s : CdclSolver S) (ops : List SolverOp) :
    CdclSolver S :=
  ops.foldl (CdclSolver.step P) s

/-- The polarity tag that the occurrence lists of a variable call for: `Mixed` when both are
non-empty, `PurePositive` or `PureNegative` when only one is, `None` when both are empty. -/
def VariableIndexEntry.listedPolarity (e : VariableIndexEntry) : LiteralPolarity :=
  match e.positive_clauses.isEmpty, e.negative_clauses.isEmpty with
  | false, false => .Mixed
  | false, true => .PurePositive
  | true, false => .PureNegative
  | true, true => .None

/-- The variable index lists are exact for the formula of the solver: the index `j` is in the
positive (negative) list of the variable `v` exactly when the clause `j` of the formula holds
the literal `v` (`-v`). -/
def BaseSolver.IndexExact {X : Type} (s : BaseSolver X) : Prop :=
  ∀ v j, 1 ≤ v →
    (j ∈ (s.VariableIndex v).positive_clauses ↔
      (j < s.formula.NumOfClauses ∧ (v : Int) ∈ (s.formula.get j).clause)) ∧
    (j ∈ (s.VariableIndex v).negative_clauses ↔
      (j < s.formula.NumOfClauses ∧ -(v : Int) ∈ (s.formula.get j).clause))

/-! ## Vocabulary for the contracts of the small operations -/

/-- The builder after `Add` was called for every literal of the list, in order. -/
def ClauseBuilder.AddAll (b : ClauseBuilder) (literals : List Literal) : ClauseBuilder :=
  literals.foldl ClauseBuilder.Add b

/-- The largest variable among the literals, `0` when there is none. -/
def Literal.maxVariable (literals : List Literal) : Nat :=
  (literals.map Literal.Variable).foldl max 0

/-- The polarity of a literal in the words of the specification: `True` for `L > 0`, `False`
for `L < 0`. -/
def Literal.Polarity (l : Literal) : VariableAssignment :=
  if 0 < l then .True else .False

/-- A literal that `Literal::Int` holds together with its negation. -/
def Literal.Representable (l : Literal) : Prop :=
  -(2 : Int) ^ 63 < l ∧ l < (2 : Int) ^ 63

/-- What the specification has `ScanPureLiterals` emit for the variable `var`: nothing when it
is assigned or its tag is `Mixed`, `(var, True, false)` for `PurePositive` and `None`,
`(var, False, false)` for `PureNegative`. -/
def BaseSolver.PureLiteralEntry {X : Type} (s : BaseSolver X) (var : Nat) :
    Option (Nat × VariableAssignment × Bool) :=
  if s.assignment.get var ≠ .Unassigned then none
  else
    match (s.VariableIndex var).polarity with
    | .Mixed => none
    | .PurePositive => some (var, .True, false)
    | .None => some (var, .True, false)
    | .PureNegative => some (var, .False, false)

/-- The entries of the variables `1, ..., NumOfVariables` in increasing order. -/
def BaseSolver.PureLiterals {X : Type} (s : BaseSolver X) :
    List (Nat × VariableAssignment × Bool) :=
  ((List.range s.formula.NumOfVariables).map (fun i => i + 1)).filterMap s.PureLiteralEntry

/-! ## Vocabulary for the decision heuristic -/

/-- The score of a variable, as `Comparator` reads it. -/
def EVSIDSHeuristics.ScoreOf {S : Type} (P : Platform S) (h : EVSIDSHeuristics S) (var : Nat) :
    S :=
  h.scores.getD (var - 1) P.zero

/-- The comparison `<` of the platform orders the scores of the variables: it is irreflexive
and transitive, and a score that is neither below nor above another one compares like it
(as for `double` values that are not NaN). -/
def EVSIDSHeuristics.ScoresOrdered {S : Type} (P : Platform S) (h : EVSIDSHeuristics S) :
    Prop :=
  (∀ a : Nat, P.lt (h.ScoreOf P a) (h.ScoreOf P a) = false) ∧
  (∀ a b c : Nat, P.lt (h.ScoreOf P a) (h.ScoreOf P b) = true →
    P.lt (h.ScoreOf P b) (h.ScoreOf P c) = true → P.lt (h.ScoreOf P a) (h.ScoreOf P c) = true) ∧
  (∀ a b c : Nat, P.lt (h.ScoreOf P a) (h.ScoreOf P b) = true →
    P.lt (h.ScoreOf P a) (h.ScoreOf P c) = true ∨ P.lt (h.ScoreOf P c) (h.ScoreOf P b) = true)

/-- The solver after `n` calls of `Solve()` that returned a status; `none` when one of them
ended in a fault. -/
def CdclSolver.afterSolves {S : Type} (P : Platform S) (fuel : Nat) :
    Nat → CdclSolver S → Option (CdclSolver S)
  | 0, s => some s
  | n + 1, s =>
    match CdclSolver.Solve0 P fuel s with
    | .error _ => none
    | .ok (_, s) => CdclSolver.afterSolves P fuel n s

/-- The state in which a call of `Solve()` reaches a decision point in the first round of the
main loop: after `PreSolve`, the scan for pure literals, the interrupt test and
`UnitPropagation` with the result `Pass`, when there is no pending assignment; `none` when
the first round takes another branch. -/
def CdclSolver.firstDecisionPoint {S : Type} (fuel : Nat) (s : CdclSolver S) :
    Option (CdclSolver S) :=
  let s := s.PreSolve
  let s :=
    if s.ext.parameters.pure_literal_elimination then
      { s with pending_assignments := s.pending_assignments ++ s.ScanPureLiterals }
    else s
  let poll := s.PollInterrupt
  if poll.1 then none
  else
    match poll.2.UnitPropagation fuel with
    | .error _ => none
    | .ok (s, bcp_result, _) =>
      if bcp_result = .Pass ∧ 0 = s.pending_assignments.length then some s else none

/-! ## Vocabulary for the trail -/

/-- Every entry of the trail is on a variable of the index of the trail. -/
def DecisionTrail.Live (t : DecisionTrail) : Prop :=
  ∀ e ∈ t.trail, 1 ≤ e.var ∧ e.var ≤ t.var_index.length

/-- The field `level` is the level of the topmost entry (`0` for an empty trail), and the
levels do not decrease along the trail. -/
def DecisionTrail.LevelsOk (t : DecisionTrail) : Prop :=
  t.level = (t.trail.getLast?.map (fun e => e.level)).getD 0 ∧
  List.Pairwise (fun a b : DecisionTrail.Entry => a.level ≤ b.level) t.trail

/-- The entry of the main loop of `CdclSolver::SolveImpl` that decides `var`: the trail entry
and the assignment. -/
def CdclSolver.Decide {S : Type} (s : CdclSolver S) (var : Nat)
    (variable_assignment : VariableAssignment) : CdclSolver S :=
  BaseSolver.Assign { s with trail := s.trail.Decision var variable_assignment } var
    variable_assignment

/-- The step of `UnitPropagation` that propagates `var` from the clause `reason`. -/
def BaseSolver.Propagate {X : Type} [SolverExt X] (s : BaseSolver X) (var : Nat)
    (variable_assignment : VariableAssignment) (reason : Nat) : BaseSolver X :=
  BaseSolver.Assign { s with trail := s.trail.PropagationFrom var variable_assignment reason }
    var variable_assignment

/-! ## Vocabulary for unit propagation -/

/-- Every watcher is exact for the assignment, for some order in which the variables were
assigned. -/
def BaseSolver.WatchersExact {X : Type} (s : BaseSolver X) : Prop :=
  ∃ r : Nat → Nat, ∀ w ∈ s.watchers, w.Exact s.assignment r

/-- The number of unassigned variables. -/
def Assignment.numUnassigned (a : Assignment) : Nat :=
  a.assignment.count .Unassigned

/-- The solver after the propagation steps of the list, each given by the index of the reason
clause and the propagated literal. -/
def BaseSolver.PropagateAll {X : Type} [SolverExt X] (s : BaseSolver X) :
    List (Nat × Literal) → BaseSolver X
  | [] => s
  | (reason, literal) :: rest =>
    BaseSolver.PropagateAll
      (s.Propagate (Literal.Assignment literal).1 (Literal.Assignment literal).2 reason) rest

/-- Every propagation step of the list is justified at the moment it is made: the reason is a
clause of the formula in which the propagated literal is unassigned and every other literal is
false. -/
def BaseSolver.UnitJustified {X : Type} [SolverExt X] (s : BaseSolver X) :
    List (Nat × Literal) → Prop
  | [] => True
  | (reason, literal) :: rest =>
    (reason < s.formula.NumOfClauses ∧ literal ∈ (s.formula.get reason).clause ∧
      s.assignment.get (Literal.Variable literal) = .Unassigned ∧
      ∀ l ∈ (s.formula.get reason).clause, l ≠ literal → Literal.IsFalse l s.assignment) ∧
    BaseSolver.UnitJustified
      (s.Propagate (Literal.Assignment literal).1 (Literal.Assignment literal).2 reason) rest

/-- The result of `UnitPropagation` and the clause index it returned, or its fault. -/
def resultPropagation {σ : Type} (r : Except Fault (σ × UnitPropagationResult × Nat)) :
    Except Fault (UnitPropagationResult × Nat) :=
  match r with
  | .error e => .error e
  | .ok (_, result, clause) => .ok (result, clause)

/-! ## Vocabulary for interrupts -/

/-- The solver with another interrupt predicate and another count of the calls made to it. -/
def BaseSolver.withInterrupt {X : Type} (s : BaseSolver X) (fn : Option (Nat → Bool))
    (polls : Nat) : BaseSolver X :=
  { s with interrupt_request_fn := fn, interrupt_polls := polls }

/-- A solver in the state of a new one: nothing is pending, no variable is assigned, the trail
is empty and every watcher is what a rescan gives. -/
def BaseSolver.Pristine {X : Type} (s : BaseSolver X) : Prop :=
  s.pending_assignments = [] ∧ s.assignment.Reset = s.assignment ∧ s.trail.Reset = s.trail ∧
    s.watchers.map (fun w => w.Rescan s.assignment) = s.watchers

/-- Two outcomes of a call agree up to the count of the calls made to the interrupt
predicate: the same fault, or the same status with solver states that differ in that count
only. -/
def BaseSolver.ResultsAgree {X : Type} (fn : Option (Nat → Bool))
    (r1 r2 : Except Fault (SolverStatus × BaseSolver X)) : Prop :=
  (∃ e, r1 = .error e ∧ r2 = .error e) ∨
  (∃ (status : SolverStatus) (s : BaseSolver X) (k1 k2 : Nat),
    r1 = .ok (status, s.withInterrupt fn k1) ∧ r2 = .ok (status, s.withInterrupt fn k2))

/-! ## Sequences of calls on a `DecisionTrail`, `Reset` included -/

/-- A call of `Decision`, `Assumption`, `Propagation` or `Pop` (an `Op`), or of `Reset`. -/
inductive DecisionTrail.Call where
  | op (o : DecisionTrail.Op)
  | Reset
  deriving DecidableEq, Repr

/-- The trail after the call. -/
def DecisionTrail.call (t : DecisionTrail) : DecisionTrail.Call → DecisionTrail
  | .op o => t.apply o
  | .Reset => t.Reset

/-- The trail after a sequence of calls. -/
def DecisionTrail.calls (t : DecisionTrail) (cs : List DecisionTrail.Call) : DecisionTrail :=
  cs.foldl DecisionTrail.call t

/-- Every call of the sequence that pushes an entry is on a variable within range. -/
def DecisionTrail.callsInRange : DecisionTrail → List DecisionTrail.Call → Bool
  | _, [] => true
  | t, .op o :: cs => o.inRange t && DecisionTrail.callsInRange (t.apply o) cs
  | t, .Reset :: cs => DecisionTrail.callsInRange t.Reset cs

/-- The watcher vector is aligned with the formula: there is one watcher per clause, and the
watcher at index `i` is on the clause `i` of the formula, with watches that are positions of
that clause (or the sentinel `-1`). -/
def BaseSolver.WatchersAligned {X : Type} (s : BaseSolver X) : Prop :=
  s.watchers.length = s.formula.NumOfClauses ∧
  ∀ i, i < s.formula.NumOfClauses →
    ∃ w, s.watchers[i]? = some w ∧ w.clause = s.formula.get i ∧
      w.WatchInRange w.watched_literals.1 ∧ w.WatchInRange w.watched_literals.2

/-! ## The calls made by the main loop of `CdclSolver::SolveImpl` -/

/-- A call that the main loop of `CdclSolver::SolveImpl` makes, with the state of the solver at
the call: `UnitPropagation()`; `AnalyzeConflict(formula[conflict_clause])`, with the value of
`number_of_assumptions`; `AnalyzeFinalConflict` on the literals of a conflict. -/
inductive CdclSolver.Event (S : Type) where
  | propagate (s : CdclSolver S)
  | analyze (s : CdclSolver S) (conflict_clause : Nat) (number_of_assumptions : Nat)
  | final (s : CdclSolver S) (conflict : List Literal) (assumption_clause : Bool)

/-- The call of `AnalyzeFinalConflict` on the paths of `SolveImpl` that return `Unsatisfied`
(see `FinishUnsatisfied`). -/
def CdclSolver.FinishEvents {S : Type} (s : CdclSolver S) (analyze_final_conflict : Bool)
    (conflict : List Literal) (assumption_clause : Bool) : List (CdclSolver.Event S) :=
  if analyze_final_conflict then [.final s conflict assumption_clause] else []

/-- The calls of `UnitPropagation`, `AnalyzeConflict` and `AnalyzeFinalConflict` that the main
loop of `SolveImpl` makes, in their order: the loop of `SolveLoop`, with the calls recorded in
place of the result. -/
def CdclSolver.LoopEvents {S : Type} (P : Platform S) (analyze_final_conflict : Bool) :
    Nat → CdclSolver S → Nat → Nat → List (CdclSolver.Event S)
  | 0, _, _, _ => []
  | fuel + 1, s, pending_assignments_iter, number_of_assumptions =>
    let poll := s.PollInterrupt
    let s := poll.2
    if poll.1 then []
    else
      .propagate s ::
      match s.UnitPropagation (fuel + 1) with
      | .error _ => []
      | .ok (s, bcp_result, conflict_clause) =>
        if bcp_result = .Sat then
          match s.VerifyPendingAssignments (s.pending_assignments.drop pending_assignments_iter) with
          | none => []
          | some conflict => CdclSolver.FinishEvents s analyze_final_conflict [conflict] true
        else if bcp_result = .Unsat then
          if s.trail.Level = 0 then
            CdclSolver.FinishEvents s analyze_final_conflict
              (s.formula.get conflict_clause).clause false
          else
            .analyze s conflict_clause number_of_assumptions ::
            match CdclSolver.AnalyzeConflict P s (s.formula.get conflict_clause) with
            | .error _ => []
            | .ok (learned_clause, backjump_level, s) =>
              let s := CdclSolver.AppendClause P s learned_clause
              if backjump_level < number_of_assumptions then
                CdclSolver.FinishEvents s analyze_final_conflict
                  (s.formula.get conflict_clause).clause false
              else
                match CdclSolver.Backjump s backjump_level with
                | .error _ => []
                | .ok (false, s) =>
                  CdclSolver.FinishEvents s analyze_final_conflict
                    (s.formula.get conflict_clause).clause false
                | .ok (true, s) =>
                  CdclSolver.LoopEvents P analyze_final_conflict fuel
                    { s with ext := { s.ext with evsids := s.ext.evsids.NextIteration P } }
                    pending_assignments_iter number_of_assumptions
        else if pending_assignments_iter = s.pending_assignments.length then
          let popped := s.ext.evsids.PopVariable P s.assignment
          let var := popped.1
          let s := { s with ext := { s.ext with evsids := popped.2 } }
          if var = 0 then []
          else if s.assignment.get var ≠ .Unassigned then []
          else
            let variable_assignment :=
              if s.ext.parameters.phase_saving ∧ s.ext.saved_phases.get var ≠ .Unassigned then
                s.ext.saved_phases.get var
              else .True
            let s := { s with trail := s.trail.Decision var variable_assignment }
            CdclSolver.LoopEvents P analyze_final_conflict fuel (s.Assign var variable_assignment)
              pending_assignments_iter number_of_assumptions
        else
          let p := s.pending_assignments.getD pending_assignments_iter (0, .Unassigned, false)
          let r := s.PerformPendingAssignment p.1 p.2.1 p.2.2
          if !r.1 then
            CdclSolver.FinishEvents r.2 analyze_final_conflict [Literal.mk p.1 p.2.1] true
          else
            CdclSolver.LoopEvents P analyze_final_conflict fuel r.2 (pending_assignments_iter + 1)
              (if p.2.2 then number_of_assumptions + 1 else number_of_assumptions)

/-- The calls made by `SolveImpl` (see `SolveImpl`). -/
def CdclSolver.ImplEvents {S : Type} (P : Platform S) (fuel : Nat) (analyze_final_conflict : Bool)
    (s : CdclSolver S) : List (CdclSolver.Event S) :=
  let s :=
    if s.ext.parameters.pure_literal_elimination then
      { s with pending_assignments := s.pending_assignments ++ s.ScanPureLiterals }
    else s
  CdclSolver.LoopEvents P analyze_final_conflict fuel s 0 0

/-- The calls made by `Solve(assumptions)`, or by the `Solve` with a final conflict output when
`analyze_final_conflict` is set. -/
def CdclSolver.SolveEvents {S : Type} (P : Platform S) (fuel : Nat) (analyze_final_conflict : Bool)
    (s : CdclSolver S) (assumptions : List Literal) : List (CdclSolver.Event S) :=
  CdclSolver.ImplEvents P fuel analyze_final_conflict (s.PreSolve.SaveAssumptions assumptions)

end pjos

namespace pjos

/-! ## Invariants of the main loop of `CdclSolver::SolveImpl` with assumptions -/

/-- The per-variable index of the trail holds, for every entry, the position of the last entry
on its variable: `Find` returns the last entry of a variable that has entries. -/
def DecisionTrail.Found (t : DecisionTrail) : Prop :=
  ∀ (i : Nat) (e : DecisionTrail.Entry), t.trail[i]? = some e →
    ∃ j, i ≤ j ∧ t.var_index[e.var - 1]? = some (some j)

/-- The level of the entry below the position `i` of the trail, `0` at the bottom. -/
def DecisionTrail.levelBelow (trail : List DecisionTrail.Entry) : Nat → Nat
  | 0 => 0
  | i + 1 => (trail[i]?.map (fun e => e.level)).getD 0

/-- The entries that start a level are the decisions and the assumptions: the level of a
propagation from a clause is the level of the entry below it (`0` at the bottom), the level of
any other entry is above the level of the entry below it. -/
def DecisionTrail.Starts (t : DecisionTrail) : Prop :=
  ∀ (i : Nat) (e : DecisionTrail.Entry), t.trail[i]? = some e →
    (0 ≤ e.reason → e.level = DecisionTrail.levelBelow t.trail i) ∧
    (e.reason < 0 → DecisionTrail.levelBelow t.trail i < e.level)

/-- None of the clauses `cs` was falsified when a level was started: for every decision or
assumption entry, every clause has a literal that is not false under the assignments made by
the entries below that entry. -/
def CdclSolver.NoEarlyConflict {S : Type} (cs : List Clause) (s : CdclSolver S) : Prop :=
  ∀ (p : Nat) (e : DecisionTrail.Entry), s.trail.trail[p]? = some e → e.reason < 0 →
    ∀ c ∈ cs, ∃ l ∈ c.clause,
      ¬ (Literal.IsFalse l s.assignment ∧
        DecisionTrail.Rank s.trail.trail (Literal.Variable l) < p)

/-- The part of the invariant of the main loop of `CdclSolver::SolveImpl` that concerns the
shape of the trail: an `Undecided` watcher has two watches, `Find` returns the last entry of a
variable, the decisions and the assumptions start the levels, none of the clauses `cs` was
falsified when a level was started, and the clause builder is empty. -/
structure CdclSolver.Shape {S : Type} (cs : List Clause) (s : CdclSolver S) : Prop where
  undecided : ∀ w ∈ s.watchers, w.UndecidedOk
  found : s.trail.Found
  starts : s.trail.Starts
  early : CdclSolver.NoEarlyConflict cs s
  builder : s.ext.learned_clause.literals = []

/-- The invariant of the main loop of `CdclSolver::SolveImpl` for a solve of the formula `F`,
with or without assumptions, when the iterator over the pending assignments stands at
`iter`. -/
structure CdclSolver.LoopInv {S : Type} (F : Formula) (s : CdclSolver S) (iter : Nat) :
    Prop where
  inv : CdclSolver.Inv s iter
  sound : CdclSolver.Sound F s
  shape : CdclSolver.Shape s.formula.clauses s

/-- The level at which the variable `v` is assigned: the level of the entry that `Find`
returns, `0` when there is none. -/
def DecisionTrail.LevelOf (t : DecisionTrail) (v : Nat) : Nat :=
  ((t.Find v).map (fun e => e.level)).getD 0

/-- The greatest level at which a variable of the literals is assigned, `0` when there is no
literal. -/
def DecisionTrail.MaxLevel (t : DecisionTrail) (literals : List Literal) : Nat :=
  (literals.map (fun l => t.LevelOf (Literal.Variable l))).foldr max 0

/-- The variable `v` is assigned, and when the entry that `Find` returns for it is at the level
of the trail, that entry is at or below the position `ti`. -/
def CdclSolver.Below {S : Type} (s : CdclSolver S) (ti : Nat) (v : Nat) : Prop :=
  s.assignment.get v ≠ .Unassigned ∧
  ∀ (j : Nat) (e : DecisionTrail.Entry), s.trail.var_index[v - 1]? = some (some j) →
    s.trail.trail[j]? = some e → s.trail.level ≤ e.level → j ≤ ti

/-- The invariant of the loop of `AnalyzeConflict`, called in the state `s`, when the scan of
the trail stands at `ti`: only fields of the subclass changed; the counter of paths is the
number of variables marked `Pending`, plus one; the entry that `Find` returns for a variable
marked `Pending` is at the level of the trail, at or below `ti`; the literals collected in the
clause builder are on variables assigned below the level of the trail, and `backjump_level` is
the greatest of their levels (`0` when there is none); the literals collected are false in the
state `s`, and none is collected twice. -/
structure CdclSolver.Marks {S : Type} (s : CdclSolver S) (a : CdclSolver.ConflictAnalysis S)
    (ti : Nat) : Prop where
  shared : BaseSolver.SameShared a.solver s
  track_length : a.solver.ext.analysis_track.length = s.formula.num_of_variables
  paths : a.number_of_paths = a.solver.ext.analysis_track.count .Pending + 1
  pending : ∀ v, 1 ≤ v → CdclSolver.AnalysisTrackOf a.solver v = .Pending →
    ∃ (j : Nat) (e : DecisionTrail.Entry), s.trail.var_index[v - 1]? = some (some j) ∧
      s.trail.trail[j]? = some e ∧ s.trail.level ≤ e.level ∧ j ≤ ti
  backjump : a.backjump_level < s.trail.level
  builder : ∀ l ∈ a.solver.ext.learned_clause.literals,
    s.trail.LevelOf (Literal.Variable l) ≤ a.backjump_level
  builder_max : a.backjump_level = 0 ∨ ∃ l ∈ a.solver.ext.learned_clause.literals,
    s.trail.LevelOf (Literal.Variable l) = a.backjump_level
  builder_false : ∀ l ∈ a.solver.ext.learned_clause.literals, Literal.IsFalse l s.assignment
  builder_nodup : a.solver.ext.learned_clause.literals.Nodup

/-- The state of the solver at a call. -/
def CdclSolver.Event.solver {S : Type} : CdclSolver.Event S → CdclSolver S
  | .propagate s => s
  | .analyze s _ _ => s
  | .final s _ _ => s

/-- What the invariant of the main loop gives at a call that the loop makes, for a solve of
the formula `F`: the invariant holds at a call of `UnitPropagation`; at a call of
`AnalyzeConflict` the invariant holds, the level of the trail is above zero and the conflict
clause is a clause of the formula whose literals are all false; at a call of
`AnalyzeFinalConflict` the trail and the assignment agree and every literal of the conflict is on
an assigned variable of the formula. -/
def CdclSolver.Event.Ready {S : Type} (F : Formula) : CdclSolver.Event S → Prop
  | .propagate s => ∃ iter, CdclSolver.LoopInv F s iter
  | .analyze s conflict_clause _ =>
    (∃ iter, CdclSolver.LoopInv F s iter) ∧ 0 < s.trail.level ∧
      conflict_clause < s.formula.NumOfClauses ∧
      ∀ l ∈ (s.formula.get conflict_clause).clause, Literal.IsFalse l s.assignment
  | .final s conflict _ =>
    (∃ iter, CdclSolver.Inv s iter) ∧ CdclSolver.Sound F s ∧ s.trail.Found ∧
      ∀ l ∈ conflict, l ≠ 0 ∧ Literal.Variable l ≤ s.formula.num_of_variables ∧
        s.assignment.get (Literal.Variable l) ≠ .Unassigned

end pjos

namespace pjos

/-! ## Solver states that a program can reach, and the build without the asserts on scores -/

/-- The platform with the two asserts of `EVSIDSHeuristics::VariableActive` on a score taken
out (`assert(!std::isinf(score))` and `assert(score >= 0.0)` are the only readers of `isinf` and
`le`): the arithmetic that computes the scores (`+`, `*`, `/`, `<`) is the one of `P`. -/
def Platform.withoutScoreAsserts {S : Type} (P : Platform S) : Platform S :=
  { P with le := fun _ _ => true, isinf := fun _ => false }

/-- The states of a `CdclSolver` that a program reaches through the public interface: the
constructor on a formula of valid literals, `GetParameters()` (a reference through which the
parameters are set), `AppendClause` with a clause as `ClauseBuilder::Make` builds it,
`RemoveClause` with the index of a clause, `Interrupt`, `InterruptOn` (with a predicate or
with `nullptr`), and the three `Solve` methods when they return, with assumptions on variables
of the formula. -/
inductive CdclSolver.Reachable {S : Type} (P : Platform S) : CdclSolver S → Prop where
  | new (formula : Formula) (scoring : ScoringParameters S) (h : formula.WellFormed) :
      CdclSolver.Reachable P (CdclSolver.new P formula scoring)
  | parameters (s : CdclSolver S) (parameters : CdclSolver.Parameters)
      (h : CdclSolver.Reachable P s) :
      CdclSolver.Reachable P (CdclSolver.SetParameters s parameters)
  | append (s : CdclSolver S) (clause : Clause) (h : CdclSolver.Reachable P s)
      (hc : clause.Valid) : CdclSolver.Reachable P (CdclSolver.AppendClause P s clause)
  | remove (s : CdclSolver S) (index : Nat) (h : CdclSolver.Reachable P s)
      (hi : index < s.formula.NumOfClauses) :
      CdclSolver.Reachable P (CdclSolver.RemoveClause P s index)
  | interrupt (s : CdclSolver S) (h : CdclSolver.Reachable P s) :
      CdclSolver.Reachable P (BaseSolver.Interrupt s)
  | interruptOn (s : CdclSolver S) (req_fn : Nat → Bool) (h : CdclSolver.Reachable P s) :
      CdclSolver.Reachable P (BaseSolver.InterruptOn s req_fn)
  | interruptOff (s : CdclSolver S) (h : CdclSolver.Reachable P s) :
      CdclSolver.Reachable P (BaseSolver.withInterrupt s none s.interrupt_polls)
  | solve0 (s s1 : CdclSolver S) (fuel : Nat) (status : SolverStatus)
      (h : CdclSolver.Reachable P s)
      (hr : CdclSolver.Solve0 P fuel s = .ok (status, s1)) : CdclSolver.Reachable P s1
  | solve (s s1 : CdclSolver S) (fuel : Nat) (assumptions : List Literal)
      (status : SolverStatus) (h : CdclSolver.Reachable P s)
      (hA : ∀ l ∈ assumptions, l ≠ 0 ∧ Literal.Variable l ≤ s.formula.num_of_variables)
      (hr : CdclSolver.Solve P fuel s assumptions = .ok (status, s1)) :
      CdclSolver.Reachable P s1
  | solveFinalConflict (s s1 : CdclSolver S) (fuel : Nat) (assumptions : List Literal)
      (status : SolverStatus) (final_conflict : List Literal) (h : CdclSolver.Reachable P s)
      (hA : ∀ l ∈ assumptions, l ≠ 0 ∧ Literal.Variable l ≤ s.formula.num_of_variables)
      (hr : CdclSolver.SolveFinalConflict P fuel s assumptions =
        .ok (status, final_conflict, s1)) : CdclSolver.Reachable P s1

/-- The invariant of a `CdclSolver` between the calls of its public methods: the invariant of
the main loop with the iterator at the start, an empty clause builder, an analysis track of the
size of the formula, and, as long as no `Solve` has run (`PreSolve` skips `ResetState` then), the
state of a new solver. -/
structure CdclSolver.Idle {S : Type} (s : CdclSolver S) : Prop where
  inv : CdclSolver.Inv s 0
  builder : s.ext.learned_clause.literals = []
  track_length : s.ext.analysis_track.length = s.formula.num_of_variables
  pristine : s.fresh_solver = true → s.Pristine

/-- Every propagation step of the list assigns a variable that is unassigned at the moment the
step is made, from a literal of a clause of the formula. -/
def BaseSolver.UnitFresh {X : Type} [SolverExt X] (s : BaseSolver X) :
    List (Nat × Literal) → Prop
  | [] => True
  | (reason, literal) :: rest =>
    (reason < s.formula.NumOfClauses ∧ literal ∈ (s.formula.get reason).clause ∧
      s.assignment.get (Literal.Variable literal) = .Unassigned) ∧
    BaseSolver.UnitFresh
      (s.Propagate (Literal.Assignment literal).1 (Literal.Assignment literal).2 reason) rest

/-- The state `t` differs from the state `s` only in what the final conflict analysis writes:
the marks of the analysis track and the final conflict. -/
structure CdclSolver.Frame {S : Type} (t s : CdclSolver S) : Prop where
  shared : BaseSolver.SameShared t s
  fresh : t.fresh_solver = s.fresh_solver
  evsids : t.ext.evsids = s.ext.evsids
  learned : t.ext.learned_clause = s.ext.learned_clause
  track : t.ext.analysis_track.length = s.ext.analysis_track.length

/-- The assumptions on the trail and the counter `number_of_assumptions` of
`CdclSolver::SolveImpl`, when the iterator over the pending assignments stands at `iter` and the
counter at `na`: every `Assumption` entry of the trail is at a level not above the counter; as
long as an assumption is still to be applied, the level of the trail is not above the counter;
and in the pending assignments the assumptions come before the other entries (the pure
literals). -/
structure CdclSolver.Levels {S : Type} (s : CdclSolver S) (iter na : Nat) : Prop where
  assumed : ∀ e ∈ s.trail.trail, e.reason = DecisionTrail.ReasonAssumption → e.level ≤ na
  waiting : ∀ (j : Nat) (p : Nat × VariableAssignment × Bool), iter ≤ j →
    s.pending_assignments[j]? = some p → p.2.2 = true → s.trail.level ≤ na
  sorted : ∀ (i j : Nat) (p q : Nat × VariableAssignment × Bool), i < j →
    s.pending_assignments[i]? = some p → s.pending_assignments[j]? = some q →
    q.2.2 = true → p.2.2 = true

end pjos

/-! # Theorems -/

namespace pjos

/-! ## Assignments and literals -/

theorem Assignment.get_set_same (a : Assignment) (v : Nat) (x : VariableAssignment)
    (hv : 1 ≤ v) (hle : v ≤ a.assignment.length) : (a.set v x).get v = x := by
  simp only [Assignment.get, Assignment.set]
  rw [List.getD_eq_getElem?_getD, List.getElem?_set_self]
  · rfl
  · omega

theorem Assignment.get_set_other (a : Assignment) (u v : Nat) (x : VariableAssignment)
    (hu : 1 ≤ u) (hv : 1 ≤ v) (h : u ≠ v) : (a.set v x).get u = a.get u := by
  simp only [Assignment.get, Assignment.set]
  rw [List.getD_eq_getElem?_getD, List.getD_eq_getElem?_getD, List.getElem?_set_ne]
  omega

theorem Assignment.set_length (a : Assignment) (v : Nat) (x : VariableAssignment) :
    (a.set v x).assignment.length = a.assignment.length := by
  simp [Assignment.set]

theorem Literal.variable_pos {l : Literal} (h : l ≠ 0) : 1 ≤ Literal.Variable l := by
  exact Int.natAbs_pos.mpr h

theorem Literal.eval_unassigned (l : Literal) : Literal.Eval l .Unassigned = false := by
  simp [Literal.Eval]

theorem ClauseView.get_mem (c : ClauseView) (i : Nat) (h : i < c.clause.length) :
    c.get i ∈ c.clause := by
  simp only [ClauseView.get]
  rw [List.getD_eq_getElem _ _ h]
  exact List.getElem_mem h

end pjos

namespace pjos

namespace Watcher

/-! ## Watcher: the helper functions -/

theorem IsSatisfied_iff (w : Watcher) (assn : Assignment) (i : Int) :
    w.IsSatisfied assn i = true ↔
      i ≠ -1 ∧ Literal.Eval (w.clause.get i.toNat)
        (assn.get (Literal.Variable (w.clause.get i.toNat))) = true := by
  unfold IsSatisfied
  by_cases h : i = -1 <;> simp [h]

theorem IsUnsatisfied_eq_false (w : Watcher) (assn : Assignment) (i : Int)
    (h : w.IsUnsatisfied assn i = false) :
    i ≠ -1 ∧ (w.UnassignedAt assn i ∨ w.IsSatisfied assn i = true) := by
  unfold IsUnsatisfied at h
  by_cases hi : i = -1
  · simp [hi] at h
  · refine ⟨hi, ?_⟩
    simp only [hi, if_false, Bool.and_eq_false_imp, decide_eq_true_eq,
      Bool.not_eq_false'] at h
    by_cases hu : assn.get (Literal.Variable (w.clause.get i.toNat)) = .Unassigned
    · exact Or.inl hu
    · right
      rw [IsSatisfied_iff]
      exact ⟨hi, by simpa using h hu⟩

theorem FindUnassignedFrom_spec (assn : Assignment) (other : Int) :
    ∀ (ls : List Literal) (i : Nat) (r : Int), FindUnassignedFrom assn other ls i = r →
      r = -1 ∨ ∃ k, k < ls.length ∧ r = ((i + k : Nat) : Int) ∧
        assn.get (Literal.Variable (ls.getD k Literal.Terminator)) = .Unassigned ∧ r ≠ other
  | [], i, r, h => by
    simp only [FindUnassignedFrom] at h
    exact Or.inl h.symm
  | l :: ls, i, r, h => by
    simp only [FindUnassignedFrom] at h
    split_ifs at h with hc
    · right
      refine ⟨0, by simp, by simpa using h.symm, by simpa using hc.1, ?_⟩
      rw [← h]; exact hc.2
    · rcases FindUnassignedFrom_spec assn other ls (i + 1) r h with h1 | ⟨k, hk, hr, hu, ho⟩
      · exact Or.inl h1
      · right
        refine ⟨k + 1, by simpa using hk, ?_, by simpa using hu, ho⟩
        rw [hr]; congr 1; omega

theorem FindUnassigned_spec (w : Watcher) (assn : Assignment) (other r : Int)
    (h : w.FindUnassigned assn other = r) :
    r = -1 ∨ (0 ≤ r ∧ r.toNat < w.clause.clause.length ∧ w.UnassignedAt assn r ∧ r ≠ other) := by
  rcases FindUnassignedFrom_spec assn other w.clause.clause 0 r h with h1 | ⟨k, hk, hr, hu, ho⟩
  · exact Or.inl h1
  · right
    simp only [Nat.zero_add] at hr
    subst hr
    refine ⟨by omega, by simpa using hk, ?_, ho⟩
    simpa [UnassignedAt, ClauseView.get] using hu

theorem FindUnassigned_inRange (w : Watcher) (assn : Assignment) (other : Int) :
    w.WatchInRange (w.FindUnassigned assn other) := by
  rcases FindUnassigned_spec w assn other _ rfl with h | ⟨h1, h2, _, _⟩
  · exact Or.inl h
  · exact Or.inr ⟨h1, h2⟩

theorem FindUnassigned_unassigned (w : Watcher) (assn : Assignment) (other : Int)
    (h : w.FindUnassigned assn other ≠ -1) :
    w.UnassignedAt assn (w.FindUnassigned assn other) := by
  rcases FindUnassigned_spec w assn other _ rfl with h1 | ⟨_, _, h3, _⟩
  · exact absurd h1 h
  · exact h3

/-! ## Watcher: `Update` -/

/-- The satisfying branch of `Update` in one piece. -/
theorem Update_true_eq (w : Watcher) (assn : Assignment) (v : Nat) (a : VariableAssignment) :
    w.Update assn v a true =
      { clause := w.clause
        status := .Satisfied
        watched_literals :=
          if w.status ≠ .Satisfied ∧
              (w.watched_literals.1 = -1 ∨
                Literal.mk v a ≠ w.clause.get w.watched_literals.1.toNat) ∧
              (w.watched_literals.2 = -1 ∨
                Literal.mk v a ≠ w.clause.get w.watched_literals.2.toNat) then
            if w.IsSatisfied assn w.watched_literals.1 = false then
              (((w.clause.FindLiteral (Literal.mk v a) : Nat) : Int), w.watched_literals.1)
            else if w.IsSatisfied assn w.watched_literals.2 = false then
              (w.watched_literals.1, ((w.clause.FindLiteral (Literal.mk v a) : Nat) : Int))
            else w.watched_literals
          else w.watched_literals } := by
  unfold Update
  simp only [if_true]
  by_cases hc : w.status ≠ .Satisfied ∧
      (w.watched_literals.1 = -1 ∨ Literal.mk v a ≠ w.clause.get w.watched_literals.1.toNat) ∧
      (w.watched_literals.2 = -1 ∨ Literal.mk v a ≠ w.clause.get w.watched_literals.2.toNat)
  · rw [if_pos hc, if_pos hc]
    by_cases h1 : w.IsSatisfied assn w.watched_literals.1 = false
    · simp [h1]
    · by_cases h2 : w.IsSatisfied assn w.watched_literals.2 = false
      · simp [h1, h2]
      · simp [h1, h2]
  · rw [if_neg hc, if_neg hc]

theorem IsSatisfied_congr (w w1 : Watcher) (assn : Assignment) (i : Int)
    (h : w1.clause = w.clause) : w1.IsSatisfied assn i = w.IsSatisfied assn i := by
  unfold IsSatisfied; rw [h]

theorem IsUnsatisfied_congr (w w1 : Watcher) (assn : Assignment) (i : Int)
    (h : w1.clause = w.clause) : w1.IsUnsatisfied assn i = w.IsUnsatisfied assn i := by
  unfold IsUnsatisfied; rw [h]

theorem FindUnassigned_congr (w w1 : Watcher) (assn : Assignment) (i : Int)
    (h : w1.clause = w.clause) : w1.FindUnassigned assn i = w.FindUnassigned assn i := by
  unfold FindUnassigned; rw [h]

/-- The falsifying branch of `Update` in one piece. -/
theorem Update_false_eq (w : Watcher) (assn : Assignment) (v : Nat) (a : VariableAssignment)
    (h : ¬ w.EarlyReturn v) :
    w.Update assn v a false =
      { clause := w.clause
        watched_literals := (w.NewFirst assn, w.NewSecond assn)
        status :=
          if w.status = .Satisfied ∧
              (w.IsSatisfied assn (w.NewFirst assn) = true ∨
                w.IsSatisfied assn (w.NewSecond assn) = true) then .Satisfied
          else if w.NewSecond assn ≠ -1 then .Undecided
          else if w.NewFirst assn ≠ -1 then .Unit
          else .Unsatisfied } := by
  unfold EarlyReturn at h
  unfold Update
  simp only [Bool.false_eq_true, if_false]
  rw [if_neg h]
  have e1 : (if w.IsUnsatisfied assn w.watched_literals.1 = true then
        ({ w with watched_literals := (w.FindUnassigned assn (-1), w.watched_literals.2) } : Watcher)
      else w) = { w with watched_literals := (w.NewFirst assn, w.watched_literals.2) } := by
    unfold NewFirst
    split_ifs <;> rfl
  simp only [e1]
  have e2 : ∀ i, ({ w with watched_literals := (w.NewFirst assn, w.watched_literals.2) } :
      Watcher).IsUnsatisfied assn i = w.IsUnsatisfied assn i :=
    fun i => IsUnsatisfied_congr _ _ _ _ rfl
  have e3 : ∀ i, ({ w with watched_literals := (w.NewFirst assn, w.watched_literals.2) } :
      Watcher).FindUnassigned assn i = w.FindUnassigned assn i :=
    fun i => FindUnassigned_congr _ _ _ _ rfl
  simp only [e2, e3]
  have e4 : (if w.watched_literals.2 = w.NewFirst assn ∨
        w.IsUnsatisfied assn w.watched_literals.2 = true then
        ({ w with watched_literals := (w.NewFirst assn, w.FindUnassigned assn (w.NewFirst assn)) } :
          Watcher)
      else { w with watched_literals := (w.NewFirst assn, w.watched_literals.2) }) =
      { w with watched_literals := (w.NewFirst assn, w.NewSecond assn) } := by
    unfold NewSecond
    split_ifs <;> rfl
  simp only [e4]
  have e5 : ∀ i, ({ w with watched_literals := (w.NewFirst assn, w.NewSecond assn) } :
      Watcher).IsSatisfied assn i = w.IsSatisfied assn i :=
    fun i => IsSatisfied_congr _ _ _ _ rfl
  simp only [e5]
  split_ifs <;> rfl

theorem Update_false_early (w : Watcher) (assn : Assignment) (v : Nat) (a : VariableAssignment)
    (h : w.EarlyReturn v) : w.Update assn v a false = w := by
  unfold EarlyReturn at h
  unfold Update
  simp only [Bool.false_eq_true, if_false]
  rw [if_pos h]

@[simp] theorem Update_clause (w : Watcher) (assn : Assignment) (v : Nat) (a : VariableAssignment)
    (sat : Bool) : (w.Update assn v a sat).clause = w.clause := by
  cases sat
  · by_cases h : w.EarlyReturn v
    · rw [Update_false_early w assn v a h]
    · rw [Update_false_eq w assn v a h]
  · rw [Update_true_eq]

theorem Update_true_status (w : Watcher) (assn : Assignment) (v : Nat) (a : VariableAssignment) :
    (w.Update assn v a true).status = .Satisfied := by
  rw [Update_true_eq]

theorem Update_true_of_satisfied (w : Watcher) (assn : Assignment) (v : Nat)
    (a : VariableAssignment) (h : w.status = .Satisfied) : w.Update assn v a true = w := by
  rw [Update_true_eq]
  have : ¬ (w.status ≠ .Satisfied ∧
      (w.watched_literals.1 = -1 ∨ Literal.mk v a ≠ w.clause.get w.watched_literals.1.toNat) ∧
      (w.watched_literals.2 = -1 ∨ Literal.mk v a ≠ w.clause.get w.watched_literals.2.toNat)) :=
    fun hc => hc.1 h
  rw [if_neg this, ← h]

/-- A watcher built with status `Satisfied` and a true watch is `Ok`. -/
theorem ok_of_satisfied (w : Watcher) (assn : Assignment) (x y : Int)
    (hx : w.WatchInRange x) (hy : w.WatchInRange y)
    (h : w.IsSatisfied assn x = true ∨ w.IsSatisfied assn y = true) :
    ({ clause := w.clause, status := .Satisfied, watched_literals := (x, y) } : Watcher).Ok assn := by
  refine ⟨⟨hx, hy, fun h => by simp at h⟩, fun _ => ?_, fun h => by simp at h⟩
  rcases h with h | h
  · exact Or.inl ((IsSatisfied_congr w _ assn _ rfl).trans h)
  · exact Or.inr ((IsSatisfied_congr w _ assn _ rfl).trans h)

theorem NewFirst_inRange (w : Watcher) (assn : Assignment) (hr : w.RangeOk) :
    w.WatchInRange (w.NewFirst assn) := by
  unfold NewFirst
  split_ifs
  · exact FindUnassigned_inRange w assn _
  · exact hr.1

theorem NewSecond_inRange (w : Watcher) (assn : Assignment) (hr : w.RangeOk) :
    w.WatchInRange (w.NewSecond assn) := by
  unfold NewSecond
  split_ifs
  · exact FindUnassigned_inRange w assn _
  · exact hr.2.1

/-- What the first watch is after the falsifying branch: unassigned, or an old watch on a
true literal. -/
theorem NewFirst_cases (w : Watcher) (assn : Assignment) (h : w.NewFirst assn ≠ -1) :
    w.UnassignedAt assn (w.NewFirst assn) ∨
      (w.NewFirst assn = w.watched_literals.1 ∧ w.IsSatisfied assn (w.NewFirst assn) = true) := by
  unfold NewFirst at h ⊢
  split_ifs at h ⊢ with h1
  · exact Or.inl (FindUnassigned_unassigned w assn _ h)
  · rcases (IsUnsatisfied_eq_false w assn _ (by simpa using h1)).2 with hu | hs
    · exact Or.inl hu
    · exact Or.inr ⟨rfl, hs⟩

theorem NewSecond_cases (w : Watcher) (assn : Assignment) (h : w.NewSecond assn ≠ -1) :
    w.UnassignedAt assn (w.NewSecond assn) ∨
      (w.NewSecond assn = w.watched_literals.2 ∧ w.IsSatisfied assn (w.NewSecond assn) = true) := by
  unfold NewSecond at h ⊢
  split_ifs at h ⊢ with h1
  · exact Or.inl (FindUnassigned_unassigned w assn _ h)
  · rw [not_or] at h1
    rcases (IsUnsatisfied_eq_false w assn _ (by simpa using h1.2)).2 with hu | hs
    · exact Or.inl hu
    · exact Or.inr ⟨rfl, hs⟩

theorem Update_false_rangeOk (w : Watcher) (assn : Assignment) (v : Nat) (a : VariableAssignment)
    (hr : w.RangeOk) : (w.Update assn v a false).RangeOk := by
  by_cases h : w.EarlyReturn v
  · rw [Update_false_early w assn v a h]; exact hr
  · rw [Update_false_eq w assn v a h]
    refine ⟨NewFirst_inRange w assn hr, NewSecond_inRange w assn hr, ?_⟩
    intro hs
    simp only at hs
    split_ifs at hs with h1 h2 h3
    exact h3

theorem Update_false_satisfiedOk (w : Watcher) (assn : Assignment) (v : Nat)
    (a : VariableAssignment) (h : ¬ w.EarlyReturn v) :
    (w.Update assn v a false).SatisfiedOk assn := by
  rw [Update_false_eq w assn v a h]
  intro hs
  simp only at hs
  split_ifs at hs with h1
  rcases h1.2 with h2 | h2
  · left
    rw [IsSatisfied_congr w _ assn _ rfl]; exact h2
  · right
    rw [IsSatisfied_congr w _ assn _ rfl]; exact h2

/-- After the falsifying branch (no early return) a watcher that is not `Satisfied` watches
unassigned literals, except for true literals that it watched before without being
`Satisfied`. -/
theorem Update_false_watches (w : Watcher) (assn : Assignment) (v : Nat)
    (a : VariableAssignment) (h : ¬ w.EarlyReturn v)
    (hs : (w.Update assn v a false).status ≠ .Satisfied) (i : Int)
    (hi : i = (w.Update assn v a false).watched_literals.1 ∨
      i = (w.Update assn v a false).watched_literals.2) (hne : i ≠ -1) :
    w.UnassignedAt assn i ∨
      (w.status ≠ .Satisfied ∧ (i = w.watched_literals.1 ∨ i = w.watched_literals.2) ∧
        w.IsSatisfied assn i = true) := by
  rw [Update_false_eq w assn v a h] at hs hi
  simp only at hs hi
  have key : ∀ j, (j = w.NewFirst assn ∨ j = w.NewSecond assn) → w.IsSatisfied assn j = true →
      w.status ≠ .Satisfied := by
    intro j hj hsat hst
    apply hs
    rw [if_pos]
    refine ⟨hst, ?_⟩
    rcases hj with hj | hj
    · left; rw [← hj]; exact hsat
    · right; rw [← hj]; exact hsat
  rcases hi with hi | hi
  · subst hi
    rcases NewFirst_cases w assn hne with hu | ⟨he, hsat⟩
    · exact Or.inl hu
    · exact Or.inr ⟨key _ (Or.inl rfl) hsat, Or.inl he, hsat⟩
  · subst hi
    rcases NewSecond_cases w assn hne with hu | ⟨he, hsat⟩
    · exact Or.inl hu
    · exact Or.inr ⟨key _ (Or.inr rfl) hsat, Or.inr he, hsat⟩

/-! ## Watcher: the invariant through one update -/

theorem UnassignedAt_congr (w w1 : Watcher) (assn : Assignment) (i : Int)
    (h : w1.clause = w.clause) : w1.UnassignedAt assn i ↔ w.UnassignedAt assn i := by
  unfold UnassignedAt; rw [h]

theorem Ok.mid {w : Watcher} {assn : Assignment} (h : w.Ok assn) (v : Nat) : w.Mid assn v :=
  ⟨h.1, fun hs => Or.inl h.2.1, fun hs i hi hne => by
    rcases hi with hi | hi
    · exact Or.inl (hi ▸ (h.2.2 hs).1 (hi ▸ hne))
    · exact Or.inl (hi ▸ (h.2.2 hs).2 (hi ▸ hne))⟩

theorem Post.toMid {w : Watcher} {assn : Assignment} {v : Nat} (h : w.Post assn v) :
    w.Mid assn v :=
  ⟨h.1, fun _ => Or.inl h.2.1, fun hs i hi hne => by
    rcases h.2.2 hs i hi hne with hu | ⟨hv, _⟩
    · exact Or.inl hu
    · exact Or.inr hv⟩

theorem Ok.post {w : Watcher} {assn : Assignment} (h : w.Ok assn) (v : Nat) : w.Post assn v :=
  ⟨h.1, h.2.1, fun hs i hi hne => by
    rcases hi with hi | hi
    · exact Or.inl (hi ▸ (h.2.2 hs).1 (hi ▸ hne))
    · exact Or.inl (hi ▸ (h.2.2 hs).2 (hi ▸ hne))⟩

theorem Mid.ok_of_not_watches {w : Watcher} {assn : Assignment} {v : Nat} (h : w.Mid assn v)
    (hv : ¬ w.WatchesVar v) : w.Ok assn := by
  refine ⟨h.1, fun hs => ?_, fun hs => ⟨fun hne => ?_, fun hne => ?_⟩⟩
  · rcases h.2.1 hs with h1 | h1
    · exact h1 hs
    · exact absurd h1 hv
  · rcases h.2.2 hs _ (Or.inl rfl) hne with h1 | h1
    · exact h1
    · exact absurd (Or.inl ⟨hne, h1⟩) hv
  · rcases h.2.2 hs _ (Or.inr rfl) hne with h1 | h1
    · exact h1
    · exact absurd (Or.inr ⟨hne, h1⟩) hv

theorem EarlyReturn.not_watches {w : Watcher} {v : Nat} (h : w.EarlyReturn v) :
    ¬ w.WatchesVar v := by
  rintro (⟨_, h1⟩ | ⟨_, h1⟩)
  · exact h.2.1 h1.symm
  · exact h.2.2.2 h1.symm

/-- The falsifying branch turns a `Mid` watcher into a `Post` watcher. -/
theorem Update_false_post (w : Watcher) (assn : Assignment) (v : Nat) (a : VariableAssignment)
    (h : w.Mid assn v) : (w.Update assn v a false).Post assn v := by
  by_cases he : w.EarlyReturn v
  · rw [Update_false_early w assn v a he]
    exact (h.ok_of_not_watches he.not_watches).post v
  · refine ⟨Update_false_rangeOk w assn v a h.1, Update_false_satisfiedOk w assn v a he, ?_⟩
    intro hs i hi hne
    rcases Update_false_watches w assn v a he hs i hi hne with hu | ⟨hst, hold, hsat⟩
    · exact Or.inl ((UnassignedAt_congr w _ assn i (Update_clause ..)).mpr hu)
    · rcases h.2.2 hst i hold hne with hu | hv
      · exact Or.inl ((UnassignedAt_congr w _ assn i (Update_clause ..)).mpr hu)
      · right
        rw [Update_clause]
        exact ⟨hv, by rw [IsSatisfied_congr w _ assn i (Update_clause ..)]; exact hsat⟩

/-- The falsifying branch restores the invariant of a `Mid` watcher none of whose watches on
`v` is true. -/
theorem Update_false_ok_of_no_true (w : Watcher) (assn : Assignment) (v : Nat)
    (a : VariableAssignment) (h : w.Mid assn v)
    (hno : w.status ≠ .Satisfied → ∀ i, (i = w.watched_literals.1 ∨ i = w.watched_literals.2) →
      i ≠ -1 → Literal.Variable (w.clause.get i.toNat) = v → w.IsSatisfied assn i = false) :
    (w.Update assn v a false).Ok assn := by
  by_cases he : w.EarlyReturn v
  · rw [Update_false_early w assn v a he]
    exact h.ok_of_not_watches he.not_watches
  · refine ⟨Update_false_rangeOk w assn v a h.1, Update_false_satisfiedOk w assn v a he, ?_⟩
    intro hs
    have key : ∀ i, (i = (w.Update assn v a false).watched_literals.1 ∨
        i = (w.Update assn v a false).watched_literals.2) → i ≠ -1 →
        (w.Update assn v a false).UnassignedAt assn i := by
      intro i hi hne
      rw [UnassignedAt_congr w _ assn i (Update_clause ..)]
      rcases Update_false_watches w assn v a he hs i hi hne with hu | ⟨hst, hold, hsat⟩
      · exact hu
      · rcases h.2.2 hst i hold hne with hu | hv
        · exact hu
        · rw [hno hst i hold hne hv] at hsat
          exact absurd hsat (by simp)
    exact ⟨fun hne => key _ (Or.inl rfl) hne, fun hne => key _ (Or.inr rfl) hne⟩

theorem UnassignedAt.not_satisfied {w : Watcher} {assn : Assignment} {i : Int}
    (h : w.UnassignedAt assn i) : w.IsSatisfied assn i = false := by
  unfold UnassignedAt at h
  unfold IsSatisfied
  split_ifs
  · rfl
  · simp only [h]; exact Literal.eval_unassigned _

/-- The falsifying branch keeps the invariant. -/
theorem Update_false_ok (w : Watcher) (assn : Assignment) (v : Nat) (a : VariableAssignment)
    (h : w.Ok assn) : (w.Update assn v a false).Ok assn := by
  apply Update_false_ok_of_no_true w assn v a (h.mid v)
  intro hs i hi hne _
  rcases hi with hi | hi
  · subst hi; exact ((h.2.2 hs).1 hne).not_satisfied
  · subst hi; exact ((h.2.2 hs).2 hne).not_satisfied

/-- The falsifying branch restores the invariant of a `Mid` watcher that is `Satisfied`. -/
theorem Update_false_ok_of_satisfied (w : Watcher) (assn : Assignment) (v : Nat)
    (a : VariableAssignment) (h : w.Mid assn v) (hs : w.status = .Satisfied) :
    (w.Update assn v a false).Ok assn :=
  Update_false_ok_of_no_true w assn v a h (fun hn => absurd hs hn)

/-- The satisfying branch establishes the invariant, provided the literal is in the clause and
true, and a watcher that was `Satisfied` already had a true watch. -/
theorem Update_true_ok (w : Watcher) (assn : Assignment) (v : Nat) (a : VariableAssignment)
    (hr : w.RangeOk) (hL : Literal.mk v a ∈ w.clause.clause)
    (hE : Literal.Eval (Literal.mk v a) (assn.get (Literal.Variable (Literal.mk v a))) = true)
    (hJ : w.status = .Satisfied → w.SatisfiedOk assn) : (w.Update assn v a true).Ok assn := by
  have hidx : w.clause.clause.indexOf (Literal.mk v a) < w.clause.clause.length :=
    List.indexOf_lt_length.mpr hL
  have hget : w.clause.get (w.clause.clause.indexOf (Literal.mk v a)) = Literal.mk v a := by
    simp only [ClauseView.get]
    rw [List.getD_eq_getElem _ _ hidx]
    exact List.getElem_indexOf hidx
  have hsatidx : w.IsSatisfied assn ((w.clause.FindLiteral (Literal.mk v a) : Nat) : Int) = true := by
    rw [IsSatisfied_iff]
    refine ⟨by omega, ?_⟩
    simp only [ClauseView.FindLiteral, Int.toNat_ofNat, hget]
    exact hE
  have hrange : w.WatchInRange ((w.clause.FindLiteral (Literal.mk v a) : Nat) : Int) := by
    right
    simp only [ClauseView.FindLiteral, Int.toNat_ofNat]
    exact ⟨by omega, hidx⟩
  rw [Update_true_eq]
  by_cases hc : w.status ≠ .Satisfied ∧
      (w.watched_literals.1 = -1 ∨ Literal.mk v a ≠ w.clause.get w.watched_literals.1.toNat) ∧
      (w.watched_literals.2 = -1 ∨ Literal.mk v a ≠ w.clause.get w.watched_literals.2.toNat)
  · rw [if_pos hc]
    by_cases h1 : w.IsSatisfied assn w.watched_literals.1 = false
    · rw [if_pos h1]
      exact ok_of_satisfied w assn _ _ hrange hr.1 (Or.inl hsatidx)
    · rw [if_neg h1]
      have h1t : w.IsSatisfied assn w.watched_literals.1 = true := by simpa using h1
      by_cases h2 : w.IsSatisfied assn w.watched_literals.2 = false
      · rw [if_pos h2]
        exact ok_of_satisfied w assn _ _ hr.1 hrange (Or.inl h1t)
      · rw [if_neg h2]
        exact ok_of_satisfied w assn _ _ hr.1 hr.2.1 (Or.inl h1t)
  · rw [if_neg hc]
    apply ok_of_satisfied w assn _ _ hr.1 hr.2.1
    by_cases hst : w.status = .Satisfied
    · exact hJ hst hst
    · by_cases hb : w.watched_literals.1 = -1 ∨
          Literal.mk v a ≠ w.clause.get w.watched_literals.1.toNat
      · by_cases hd : w.watched_literals.2 = -1 ∨
            Literal.mk v a ≠ w.clause.get w.watched_literals.2.toNat
        · exact absurd ⟨hst, hb, hd⟩ hc
        · rw [not_or, not_not] at hd
          right
          rw [IsSatisfied_iff]
          exact ⟨hd.1, by rw [← hd.2]; exact hE⟩
      · rw [not_or, not_not] at hb
        left
        rw [IsSatisfied_iff]
        exact ⟨hb.1, by rw [← hb.2]; exact hE⟩

end Watcher

end pjos

namespace pjos

/-! ## Literals of a variable -/

theorem Literal.eq_of_variable {l : Literal} {v : Nat} (h : Literal.Variable l = v) :
    l = (v : Int) ∨ l = -(v : Int) := by
  have h1 := Int.natAbs_eq l
  simp only [Literal.Variable] at h
  rw [h] at h1
  exact h1

theorem Literal.eval_pos_true {v : Nat} (hv : 1 ≤ v) :
    Literal.Eval (v : Int) .True = true := by
  simp only [Literal.Eval]
  simp
  omega

theorem Literal.eval_neg_false {v : Nat} (hv : 1 ≤ v) :
    Literal.Eval (-(v : Int)) .False = true := by
  simp only [Literal.Eval]
  simp
  omega

theorem Literal.eval_pos_false (v : Nat) : Literal.Eval (v : Int) .False = false := by
  simp only [Literal.Eval]
  simp

theorem Literal.eval_neg_true (v : Nat) : Literal.Eval (-(v : Int)) .True = false := by
  simp only [Literal.Eval]
  simp

theorem Literal.variable_natCast (v : Nat) : Literal.Variable (v : Int) = v := by
  simp [Literal.Variable]

theorem Literal.variable_neg_natCast (v : Nat) : Literal.Variable (-(v : Int)) = v := by
  simp [Literal.Variable]

theorem Literal.mk_true (v : Nat) : Literal.mk v .True = (v : Int) := by
  simp [Literal.mk]

theorem Literal.mk_false (v : Nat) : Literal.mk v .False = -(v : Int) := by
  simp [Literal.mk]

theorem Literal.eval_zero (a : VariableAssignment) : Literal.Eval 0 a = false := by
  simp [Literal.Eval]

namespace Watcher

/-! ## Watcher: the invariant through the updates of one assignment -/

/-- The literal at a valid watch is a literal of the clause. -/
theorem watch_mem {w : Watcher} {i : Int} (hr : w.WatchInRange i) (hne : i ≠ -1) :
    w.clause.get i.toNat ∈ w.clause.clause := by
  rcases hr with h | ⟨_, h⟩
  · exact absurd h hne
  · exact ClauseView.get_mem _ _ h

/-- A true watch is on a literal of the clause. -/
theorem satisfied_mem {w : Watcher} {assn : Assignment} {i : Int}
    (h : w.IsSatisfied assn i = true) : w.clause.get i.toNat ∈ w.clause.clause := by
  rw [IsSatisfied_iff] at h
  simp only [ClauseView.get] at h ⊢
  by_cases hlt : i.toNat < w.clause.clause.length
  · rw [List.getD_eq_getElem _ _ hlt]
    exact List.getElem_mem hlt
  · rw [List.getD_eq_default _ _ (by omega)] at h
    simp [Literal.Terminator, Literal.eval_zero] at h

theorem watchesVar_mem {w : Watcher} {v : Nat} (hr : w.RangeOk) (h : w.WatchesVar v) :
    ∃ l ∈ w.clause.clause, Literal.Variable l = v := by
  rcases h with ⟨hne, hv⟩ | ⟨hne, hv⟩
  · exact ⟨_, watch_mem hr.1 hne, hv⟩
  · exact ⟨_, watch_mem hr.2.1 hne, hv⟩

/-- After an assignment to `v` the invariant of a watcher may fail at watches on `v` only. -/
theorem Ok.mid_set {w : Watcher} {assn : Assignment} (h : w.Ok assn) (v : Nat)
    (a : VariableAssignment) (hv : 1 ≤ v) (hnz : ∀ l ∈ w.clause.clause, l ≠ 0) :
    w.Mid (assn.set v a) v := by
  have hother : ∀ l ∈ w.clause.clause, Literal.Variable l ≠ v →
      (assn.set v a).get (Literal.Variable l) = assn.get (Literal.Variable l) :=
    fun l hl hne => Assignment.get_set_other assn _ v a (Literal.variable_pos (hnz l hl)) hv hne
  refine ⟨h.1, fun hs => ?_, fun hs i hi hne => ?_⟩
  · have key : ∀ i, w.IsSatisfied assn i = true →
        w.IsSatisfied (assn.set v a) i = true ∨
          (i ≠ -1 ∧ Literal.Variable (w.clause.get i.toNat) = v) := by
      intro i hi
      by_cases hvar : Literal.Variable (w.clause.get i.toNat) = v
      · exact Or.inr ⟨((IsSatisfied_iff w assn i).mp hi).1, hvar⟩
      · left
        rw [IsSatisfied_iff] at hi ⊢
        rw [hother _ (satisfied_mem ((IsSatisfied_iff w assn i).mpr hi)) hvar]
        exact hi
    rcases h.2.1 hs with h1 | h1
    · rcases key _ h1 with h2 | h2
      · exact Or.inl (fun _ => Or.inl h2)
      · exact Or.inr (Or.inl h2)
    · rcases key _ h1 with h2 | h2
      · exact Or.inl (fun _ => Or.inr h2)
      · exact Or.inr (Or.inr h2)
  · by_cases hvar : Literal.Variable (w.clause.get i.toNat) = v
    · exact Or.inr hvar
    · left
      have hu : w.UnassignedAt assn i := by
        rcases hi with hi | hi
        · subst hi; exact (h.2.2 hs).1 hne
        · subst hi; exact (h.2.2 hs).2 hne
      have hmem : w.clause.get i.toNat ∈ w.clause.clause := by
        rcases hi with hi | hi
        · subst hi; exact watch_mem h.1.1 hne
        · subst hi; exact watch_mem h.1.2.1 hne
      unfold UnassignedAt at hu ⊢
      rw [hother _ hmem hvar]
      exact hu

theorem iterate_invariant {α : Type} (f : α → α) (P : α → Prop) (h : ∀ x, P x → P (f x)) :
    ∀ (k : Nat) (x : α), P x → P (f^[k] x)
  | 0, _, hx => hx
  | k + 1, x, hx => by
    rw [Function.iterate_succ_apply]
    exact iterate_invariant f P h k (f x) (h x hx)

theorem iterate_establish {α : Type} (f : α → α) (P Q : α → Prop) (hPQ : ∀ x, P x → Q (f x))
    (hQ : ∀ x, Q x → Q (f x)) (k : Nat) (hk : 0 < k) (x : α) (hx : P x) : Q (f^[k] x) := by
  obtain ⟨n, rfl⟩ : ∃ n, k = n + 1 := ⟨k - 1, by omega⟩
  rw [Function.iterate_succ_apply]
  exact iterate_invariant f Q hQ n (f x) (hPQ x hx)

theorem not_watches_of_no_literal {w : Watcher} {v : Nat} (hr : w.RangeOk)
    (hp : (v : Int) ∉ w.clause.clause) (hn : -(v : Int) ∉ w.clause.clause) :
    ¬ w.WatchesVar v := by
  intro h
  obtain ⟨l, hl, hv⟩ := watchesVar_mem hr h
  rcases Literal.eq_of_variable hv with h1 | h1
  · exact hp (h1 ▸ hl)
  · exact hn (h1 ▸ hl)

/-- A `Mid` watcher whose watches on `v` can only be on a true literal is `Ok`, provided it is
`Satisfied`. -/
theorem Mid.ok_of_satisfied_true {w : Watcher} {assn : Assignment} {v : Nat}
    (h : w.Mid assn v) (hs : w.status = .Satisfied)
    (htrue : ∀ l ∈ w.clause.clause, Literal.Variable l = v →
      Literal.Eval l (assn.get (Literal.Variable l)) = true) : w.Ok assn := by
  refine ⟨h.1, fun _ => ?_, fun hn => absurd hs hn⟩
  rcases h.2.1 hs with h1 | h1
  · exact h1 hs
  · rcases h1 with ⟨hne, hv⟩ | ⟨hne, hv⟩
    · left
      rw [IsSatisfied_iff]
      exact ⟨hne, htrue _ (watch_mem h.1.1 hne) hv⟩
    · right
      rw [IsSatisfied_iff]
      exact ⟨hne, htrue _ (watch_mem h.1.2.1 hne) hv⟩

/-- A `Post` watcher is `Ok` when no literal of `v` in the clause is true. -/
theorem Post.ok_of_no_true {w : Watcher} {assn : Assignment} {v : Nat} (h : w.Post assn v)
    (hfalse : ∀ l ∈ w.clause.clause, Literal.Variable l = v →
      Literal.Eval l (assn.get (Literal.Variable l)) = false) : w.Ok assn := by
  refine ⟨h.1, h.2.1, fun hs => ?_⟩
  have key : ∀ i, (i = w.watched_literals.1 ∨ i = w.watched_literals.2) → i ≠ -1 →
      w.UnassignedAt assn i := by
    intro i hi hne
    rcases h.2.2 hs i hi hne with hu | ⟨hv, hsat⟩
    · exact hu
    · have := hfalse _ (satisfied_mem hsat) hv
      rw [IsSatisfied_iff] at hsat
      rw [this] at hsat
      exact absurd hsat.2 (by simp)
  exact ⟨fun hne => key _ (Or.inl rfl) hne, fun hne => key _ (Or.inr rfl) hne⟩

/-- A `Mid` watcher none of whose literals of `v` is true satisfies the side condition of
`Update_false_ok_of_no_true`. -/
theorem Update_false_ok_of_none_true (w : Watcher) (assn : Assignment) (v : Nat)
    (a : VariableAssignment) (h : w.Mid assn v)
    (hfalse : ∀ l ∈ w.clause.clause, Literal.Variable l = v →
      Literal.Eval l (assn.get (Literal.Variable l)) = false) :
    (w.Update assn v a false).Ok assn := by
  apply Update_false_ok_of_no_true w assn v a h
  intro _ i hi hne hv
  have hmem : w.clause.get i.toNat ∈ w.clause.clause := by
    rcases hi with hi | hi
    · subst hi; exact watch_mem h.1.1 hne
    · subst hi; exact watch_mem h.1.2.1 hne
  have := hfalse _ hmem hv
  unfold IsSatisfied
  rw [if_neg hne]
  exact this

/-- The satisfying branch keeps a `Mid` watcher `Mid` and makes it `Satisfied`. -/
theorem Update_true_mid (w : Watcher) (assn : Assignment) (v : Nat) (a : VariableAssignment)
    (h : w.Mid assn v) (hL : Literal.mk v a ∈ w.clause.clause)
    (hE : Literal.Eval (Literal.mk v a) (assn.get (Literal.Variable (Literal.mk v a))) = true) :
    (w.Update assn v a true).Mid assn v := by
  by_cases hs : w.status = .Satisfied
  · rw [Update_true_of_satisfied w assn v a hs]; exact h
  · exact (Update_true_ok w assn v a h.1 hL hE (fun h1 => absurd h1 hs)).mid v

/-- Unassigning `v`: the watcher is `Ok` after the updates for the positive and the negative
occurrences (`kp` and `kn` calls of the falsifying branch). -/
theorem ok_after_updates_unassigned (w : Watcher) (assn : Assignment) (v kp kn : Nat)
    (hv : 1 ≤ v) (hle : v ≤ assn.assignment.length) (hok : w.Ok assn)
    (hnz : ∀ l ∈ w.clause.clause, l ≠ 0)
    (hkp : 0 < kp ↔ (v : Int) ∈ w.clause.clause)
    (hkn : 0 < kn ↔ -(v : Int) ∈ w.clause.clause) :
    ((fun w : Watcher => w.Update (assn.set v .Unassigned) v .Unassigned false)^[kn]
      ((fun w : Watcher => w.Update (assn.set v .Unassigned) v .Unassigned false)^[kp] w)).Ok
      (assn.set v .Unassigned) := by
  have hget := Assignment.get_set_same assn v .Unassigned hv hle
  have hmid := hok.mid_set v .Unassigned hv hnz
  have hfalse : ∀ x : Watcher, x.clause = w.clause → ∀ l ∈ x.clause.clause,
      Literal.Variable l = v →
      Literal.Eval l ((assn.set v .Unassigned).get (Literal.Variable l)) = false := by
    intro x _ l _ hl
    rw [hl, hget]; exact Literal.eval_unassigned l
  have hPQ : ∀ x : Watcher, (x.clause = w.clause ∧ x.Mid (assn.set v .Unassigned) v) →
      ((x.Update (assn.set v .Unassigned) v .Unassigned false).clause = w.clause ∧
        (x.Update (assn.set v .Unassigned) v .Unassigned false).Ok (assn.set v .Unassigned)) :=
    fun x hx => ⟨by rw [Update_clause]; exact hx.1,
      Update_false_ok_of_none_true x _ v _ hx.2 (hfalse x hx.1)⟩
  have hQ : ∀ x : Watcher, (x.clause = w.clause ∧ x.Ok (assn.set v .Unassigned)) →
      ((x.Update (assn.set v .Unassigned) v .Unassigned false).clause = w.clause ∧
        (x.Update (assn.set v .Unassigned) v .Unassigned false).Ok (assn.set v .Unassigned)) :=
    fun x hx => ⟨by rw [Update_clause]; exact hx.1, Update_false_ok x _ v _ hx.2⟩
  by_cases h1 : 0 < kp
  · have := iterate_establish _ _ _ hPQ hQ kp h1 w ⟨rfl, hmid⟩
    exact (iterate_invariant _ _ hQ kn _ this).2
  · have hkp0 : kp = 0 := by omega
    subst hkp0
    simp only [Function.iterate_zero, id_eq]
    by_cases h2 : 0 < kn
    · exact (iterate_establish _ _ _ hPQ hQ kn h2 w ⟨rfl, hmid⟩).2
    · have hkn0 : kn = 0 := by omega
      subst hkn0
      simp only [Function.iterate_zero, id_eq]
      exact hmid.ok_of_not_watches
        (not_watches_of_no_literal hok.1 (fun h => h1 (hkp.mpr h)) (fun h => h2 (hkn.mpr h)))

/-- Assigning `True` to `v`: the watcher is `Ok` after `kp` calls of the satisfying branch
(positive occurrences) followed by `kn` calls of the falsifying branch (negative ones). -/
theorem ok_after_updates_true (w : Watcher) (assn : Assignment) (v kp kn : Nat)
    (hv : 1 ≤ v) (hle : v ≤ assn.assignment.length) (hok : w.Ok assn)
    (hnz : ∀ l ∈ w.clause.clause, l ≠ 0)
    (hkp : 0 < kp ↔ (v : Int) ∈ w.clause.clause)
    (hkn : 0 < kn ↔ -(v : Int) ∈ w.clause.clause) :
    ((fun w : Watcher => w.Update (assn.set v .True) v .True false)^[kn]
      ((fun w : Watcher => w.Update (assn.set v .True) v .True true)^[kp] w)).Ok
      (assn.set v .True) := by
  have hget := Assignment.get_set_same assn v .True hv hle
  have hmid := hok.mid_set v .True hv hnz
  have hE : Literal.Eval (Literal.mk v .True)
      ((assn.set v .True).get (Literal.Variable (Literal.mk v .True))) = true := by
    rw [Literal.mk_true, Literal.variable_natCast, hget]; exact Literal.eval_pos_true hv
  have hQ : ∀ x : Watcher, (x.clause = w.clause ∧ x.Ok (assn.set v .True)) →
      ((x.Update (assn.set v .True) v .True false).clause = w.clause ∧
        (x.Update (assn.set v .True) v .True false).Ok (assn.set v .True)) :=
    fun x hx => ⟨by rw [Update_clause]; exact hx.1, Update_false_ok x _ v _ hx.2⟩
  by_cases h1 : 0 < kp
  · have hL : Literal.mk v .True ∈ w.clause.clause := by
      rw [Literal.mk_true]; exact hkp.mp h1
    have hT : ∀ x : Watcher, (x.clause = w.clause ∧ x.Mid (assn.set v .True) v) →
        ((x.Update (assn.set v .True) v .True true).clause = w.clause ∧
          (x.Update (assn.set v .True) v .True true).Mid (assn.set v .True) v ∧
          (x.Update (assn.set v .True) v .True true).status = .Satisfied) :=
      fun x hx => ⟨by rw [Update_clause]; exact hx.1,
        Update_true_mid x _ v _ hx.2 (hx.1 ▸ hL) hE, Update_true_status x _ v _⟩
    have hT2 : ∀ x : Watcher, (x.clause = w.clause ∧ x.Mid (assn.set v .True) v ∧
        x.status = .Satisfied) →
        ((x.Update (assn.set v .True) v .True true).clause = w.clause ∧
          (x.Update (assn.set v .True) v .True true).Mid (assn.set v .True) v ∧
          (x.Update (assn.set v .True) v .True true).status = .Satisfied) :=
      fun x hx => hT x ⟨hx.1, hx.2.1⟩
    have h3 := iterate_establish _ _ _ hT hT2 kp h1 w ⟨rfl, hmid⟩
    by_cases h2 : 0 < kn
    · have hPQ : ∀ x : Watcher, (x.clause = w.clause ∧ x.Mid (assn.set v .True) v ∧
          x.status = .Satisfied) →
          ((x.Update (assn.set v .True) v .True false).clause = w.clause ∧
            (x.Update (assn.set v .True) v .True false).Ok (assn.set v .True)) :=
        fun x hx => ⟨by rw [Update_clause]; exact hx.1,
          Update_false_ok_of_satisfied x _ v _ hx.2.1 hx.2.2⟩
      exact (iterate_establish _ _ _ hPQ hQ kn h2 _ h3).2
    · have hkn0 : kn = 0 := by omega
      subst hkn0
      simp only [Function.iterate_zero, id_eq]
      apply h3.2.1.ok_of_satisfied_true h3.2.2
      intro l hl hvar
      rw [h3.1] at hl
      rcases Literal.eq_of_variable hvar with h4 | h4
      · rw [h4, Literal.variable_natCast, hget]; exact Literal.eval_pos_true hv
      · exact absurd (h4 ▸ hl) (fun h => h2 (hkn.mpr h))
  · have hkp0 : kp = 0 := by omega
    subst hkp0
    simp only [Function.iterate_zero, id_eq]
    by_cases h2 : 0 < kn
    · have hPQ : ∀ x : Watcher, (x.clause = w.clause ∧ x.Mid (assn.set v .True) v) →
          ((x.Update (assn.set v .True) v .True false).clause = w.clause ∧
            (x.Update (assn.set v .True) v .True false).Ok (assn.set v .True)) := by
        intro x hx
        refine ⟨by rw [Update_clause]; exact hx.1, Update_false_ok_of_none_true x _ v _ hx.2 ?_⟩
        intro l hl hvar
        rw [hx.1] at hl
        rcases Literal.eq_of_variable hvar with h4 | h4
        · exact absurd (h4 ▸ hl) (fun h => h1 (hkp.mpr h))
        · rw [h4, Literal.variable_neg_natCast, hget]; exact Literal.eval_neg_true v
      exact (iterate_establish _ _ _ hPQ hQ kn h2 w ⟨rfl, hmid⟩).2
    · have hkn0 : kn = 0 := by omega
      subst hkn0
      simp only [Function.iterate_zero, id_eq]
      exact hmid.ok_of_not_watches
        (not_watches_of_no_literal hok.1 (fun h => h1 (hkp.mpr h)) (fun h => h2 (hkn.mpr h)))

/-- Assigning `False` to `v`: the watcher is `Ok` after `kp` calls of the falsifying branch
(positive occurrences) followed by `kn` calls of the satisfying branch (negative ones). -/
theorem ok_after_updates_false (w : Watcher) (assn : Assignment) (v kp kn : Nat)
    (hv : 1 ≤ v) (hle : v ≤ assn.assignment.length) (hok : w.Ok assn)
    (hnz : ∀ l ∈ w.clause.clause, l ≠ 0)
    (hkp : 0 < kp ↔ (v : Int) ∈ w.clause.clause)
    (hkn : 0 < kn ↔ -(v : Int) ∈ w.clause.clause) :
    ((fun w : Watcher => w.Update (assn.set v .False) v .False true)^[kn]
      ((fun w : Watcher => w.Update (assn.set v .False) v .False false)^[kp] w)).Ok
      (assn.set v .False) := by
  have hget := Assignment.get_set_same assn v .False hv hle
  have hmid := hok.mid_set v .False hv hnz
  have hE : Literal.Eval (Literal.mk v .False)
      ((assn.set v .False).get (Literal.Variable (Literal.mk v .False))) = true := by
    rw [Literal.mk_false, Literal.variable_neg_natCast, hget]; exact Literal.eval_neg_false hv
  have hQ : (-(v : Int)) ∈ w.clause.clause →
      ∀ x : Watcher, (x.clause = w.clause ∧ x.Ok (assn.set v .False)) →
      ((x.Update (assn.set v .False) v .False true).clause = w.clause ∧
        (x.Update (assn.set v .False) v .False true).Ok (assn.set v .False)) := by
    intro hL x hx
    refine ⟨by rw [Update_clause]; exact hx.1, ?_⟩
    exact Update_true_ok x _ v _ hx.2.1 (by rw [Literal.mk_false, hx.1]; exact hL) hE
      (fun _ => hx.2.2.1)
  by_cases h1 : 0 < kp
  · have hF : ∀ x : Watcher, (x.clause = w.clause ∧ x.Mid (assn.set v .False) v) →
        ((x.Update (assn.set v .False) v .False false).clause = w.clause ∧
          (x.Update (assn.set v .False) v .False false).Post (assn.set v .False) v) :=
      fun x hx => ⟨by rw [Update_clause]; exact hx.1, Update_false_post x _ v _ hx.2⟩
    have hF2 : ∀ x : Watcher, (x.clause = w.clause ∧ x.Post (assn.set v .False) v) →
        ((x.Update (assn.set v .False) v .False false).clause = w.clause ∧
          (x.Update (assn.set v .False) v .False false).Post (assn.set v .False) v) :=
      fun x hx => hF x ⟨hx.1, hx.2.toMid⟩
    have h3 := iterate_establish _ _ _ hF hF2 kp h1 w ⟨rfl, hmid⟩
    by_cases h2 : 0 < kn
    · have hL := hkn.mp h2
      have hPQ : ∀ x : Watcher, (x.clause = w.clause ∧ x.Post (assn.set v .False) v) →
          ((x.Update (assn.set v .False) v .False true).clause = w.clause ∧
            (x.Update (assn.set v .False) v .False true).Ok (assn.set v .False)) := by
        intro x hx
        refine ⟨by rw [Update_clause]; exact hx.1, ?_⟩
        exact Update_true_ok x _ v _ hx.2.1 (by rw [Literal.mk_false, hx.1]; exact hL) hE
          (fun _ => hx.2.2.1)
      exact (iterate_establish _ _ _ hPQ (hQ hL) kn h2 _ h3).2
    · have hkn0 : kn = 0 := by omega
      subst hkn0
      simp only [Function.iterate_zero, id_eq]
      apply h3.2.ok_of_no_true
      intro l hl hvar
      rw [h3.1] at hl
      rcases Literal.eq_of_variable hvar with h4 | h4
      · rw [h4, Literal.variable_natCast, hget]; exact Literal.eval_pos_false v
      · exact absurd (h4 ▸ hl) (fun h => h2 (hkn.mpr h))
  · have hkp0 : kp = 0 := by omega
    subst hkp0
    simp only [Function.iterate_zero, id_eq]
    by_cases h2 : 0 < kn
    · have hL := hkn.mp h2
      have hPQ : ∀ x : Watcher, (x.clause = w.clause ∧ x.Mid (assn.set v .False) v) →
          ((x.Update (assn.set v .False) v .False true).clause = w.clause ∧
            (x.Update (assn.set v .False) v .False true).Ok (assn.set v .False)) := by
        intro x hx
        refine ⟨by rw [Update_clause]; exact hx.1, ?_⟩
        apply Update_true_ok x _ v _ hx.2.1 (by rw [Literal.mk_false, hx.1]; exact hL) hE
        intro hs
        refine (hx.2.ok_of_satisfied_true hs ?_).2.1
        intro l hl hvar
        rw [hx.1] at hl
        rcases Literal.eq_of_variable hvar with h4 | h4
        · exact absurd (h4 ▸ hl) (fun h => h1 (hkp.mpr h))
        · rw [h4, Literal.variable_neg_natCast, hget]; exact Literal.eval_neg_false hv
      exact (iterate_establish _ _ _ hPQ (hQ hL) kn h2 w ⟨rfl, hmid⟩).2
    · have hkn0 : kn = 0 := by omega
      subst hkn0
      simp only [Function.iterate_zero, id_eq]
      exact hmid.ok_of_not_watches
        (not_watches_of_no_literal hok.1 (fun h => h1 (hkp.mpr h)) (fun h => h2 (hkn.mpr h)))

/-- The invariant of a watcher after all the updates that `UpdateWatchers` applies to it for
an assignment to `v`. -/
theorem ok_after_updates (w : Watcher) (assn : Assignment) (v : Nat) (a : VariableAssignment)
    (kp kn : Nat) (hv : 1 ≤ v) (hle : v ≤ assn.assignment.length) (hok : w.Ok assn)
    (hnz : ∀ l ∈ w.clause.clause, l ≠ 0)
    (hkp : 0 < kp ↔ (v : Int) ∈ w.clause.clause)
    (hkn : 0 < kn ↔ -(v : Int) ∈ w.clause.clause) :
    ((fun w : Watcher => w.Update (assn.set v a) v a (decide (a = .False)))^[kn]
      ((fun w : Watcher => w.Update (assn.set v a) v a (decide (a = .True)))^[kp] w)).Ok
      (assn.set v a) := by
  cases a
  · exact ok_after_updates_unassigned w assn v kp kn hv hle hok hnz hkp hkn
  · exact ok_after_updates_false w assn v kp kn hv hle hok hnz hkp hkn
  · exact ok_after_updates_true w assn v kp kn hv hle hok hnz hkp hkn

end Watcher

end pjos

namespace pjos

/-! ## Vectors of watchers -/

theorem modifyAt_length {α : Type} (l : List α) (j : Nat) (f : α → α) :
    (modifyAt l j f).length = l.length := by
  unfold modifyAt
  split <;> simp

theorem modifyAt_getElem? {α : Type} (l : List α) (j : Nat) (f : α → α) (i : Nat) :
    (modifyAt l j f)[i]? = if i = j then l[i]?.map f else l[i]? := by
  unfold modifyAt
  split
  · rename_i x hx
    rw [List.get?_eq_getElem?] at hx
    by_cases hij : i = j
    · subst hij
      rw [if_pos rfl, List.getElem?_set_self, hx]
      · rfl
      · exact (List.getElem?_eq_some_iff.mp hx).1
    · rw [if_neg hij, List.getElem?_set_ne (Ne.symm hij)]
  · rename_i hx
    rw [List.get?_eq_getElem?] at hx
    by_cases hij : i = j
    · subst hij
      rw [if_pos rfl, hx]; rfl
    · rw [if_neg hij]

namespace BaseSolver

theorem UpdateWatchersList_length (assn : Assignment) (v : Nat) (a : VariableAssignment)
    (sat : Bool) : ∀ (idxs : List Nat) (ws : List Watcher),
      (UpdateWatchersList assn v a sat idxs ws).length = ws.length
  | [], ws => rfl
  | j :: rest, ws => by
    simp only [UpdateWatchersList]
    rw [UpdateWatchersList_length assn v a sat rest, modifyAt_length]

/-- The watcher at position `i` after one loop of `UpdateWatchers`: updated once for every
occurrence of `i` in the list of affected watchers. -/
theorem UpdateWatchersList_getElem? (assn : Assignment) (v : Nat) (a : VariableAssignment)
    (sat : Bool) : ∀ (idxs : List Nat) (ws : List Watcher) (i : Nat),
      (UpdateWatchersList assn v a sat idxs ws)[i]? =
        ws[i]?.map ((fun w : Watcher => w.Update assn v a sat)^[idxs.count i])
  | [], ws, i => by
    simp [UpdateWatchersList]
  | j :: rest, ws, i => by
    simp only [UpdateWatchersList]
    rw [UpdateWatchersList_getElem? assn v a sat rest, modifyAt_getElem?]
    by_cases hij : i = j
    · subst hij
      rw [if_pos rfl, List.count_cons_self, Option.map_map]
      congr 1
    · rw [if_neg hij, List.count_cons_of_ne hij]

/-! ## `Assign` keeps the invariant -/

variable {X : Type}

@[simp] theorem Assign_formula [SolverExt X] (s : BaseSolver X) (v : Nat)
    (a : VariableAssignment) : (s.Assign v a).formula = s.formula := rfl

@[simp] theorem Assign_assignment [SolverExt X] (s : BaseSolver X) (v : Nat)
    (a : VariableAssignment) : (s.Assign v a).assignment = s.assignment.set v a := rfl

@[simp] theorem Assign_variable_index [SolverExt X] (s : BaseSolver X) (v : Nat)
    (a : VariableAssignment) : (s.Assign v a).variable_index = s.variable_index := rfl

theorem Assign_watchers [SolverExt X] (s : BaseSolver X) (v : Nat) (a : VariableAssignment) :
    (s.Assign v a).watchers =
      UpdateWatchersList (s.assignment.set v a) v a (decide (a = .False))
        (s.VariableIndex v).negative_clauses
        (UpdateWatchersList (s.assignment.set v a) v a (decide (a = .True))
          (s.VariableIndex v).positive_clauses s.watchers) := rfl

/-- The watcher at position `i` after `Assign`. -/
theorem Assign_watchers_getElem? [SolverExt X] (s : BaseSolver X) (v : Nat)
    (a : VariableAssignment) (i : Nat) :
    (s.Assign v a).watchers[i]? =
      s.watchers[i]?.map (fun w =>
        (fun w : Watcher => w.Update (s.assignment.set v a) v a (decide (a = .False)))^[
            (s.VariableIndex v).negative_clauses.count i]
          ((fun w : Watcher => w.Update (s.assignment.set v a) v a (decide (a = .True)))^[
            (s.VariableIndex v).positive_clauses.count i] w)) := by
  rw [Assign_watchers, UpdateWatchersList_getElem?, UpdateWatchersList_getElem?, Option.map_map]
  rfl

theorem iterate_Update_clause (assn : Assignment) (v : Nat) (a : VariableAssignment) (sat : Bool)
    (k : Nat) (w : Watcher) :
    ((fun w : Watcher => w.Update assn v a sat)^[k] w).clause = w.clause :=
  Watcher.iterate_invariant _ (fun x => x.clause = w.clause)
    (fun x hx => (Watcher.Update_clause x assn v a sat).trans hx) k w rfl

/-- The clause of the watcher at position `i` is the clause at position `i` of the formula. -/
theorem Consistent.watcher_clause {s : BaseSolver X} (h : s.Consistent) {i : Nat} {w : Watcher}
    (hw : s.watchers[i]? = some w) :
    s.formula.clauses[i]? = some w.clause ∧ i < s.formula.clauses.length ∧
      s.formula.get i = w.clause := by
  have h1 : (s.watchers.map (fun w => w.clause))[i]? = some w.clause := by
    rw [List.getElem?_map, hw]; rfl
  rw [h.watchers_clauses] at h1
  refine ⟨h1, (List.getElem?_eq_some_iff.mp h1).1, ?_⟩
  simp only [Formula.get, List.getD_eq_getElem?_getD, h1, Option.getD_some]

theorem Consistent.watcher_nonzero {s : BaseSolver X} (h : s.Consistent) {i : Nat} {w : Watcher}
    (hw : s.watchers[i]? = some w) : ∀ l ∈ w.clause.clause, l ≠ 0 := by
  intro l hl
  have h1 := (h.watcher_clause hw).1
  exact (h.wf _ (List.getElem?_mem h1) l hl).1

theorem Assign_consistent [SolverExt X] (s : BaseSolver X) (v : Nat) (a : VariableAssignment)
    (h : s.Consistent) (hv : 1 ≤ v) (hle : v ≤ s.formula.num_of_variables) :
    (s.Assign v a).Consistent := by
  refine ⟨h.wf, ?_, h.index_length, ?_, h.index_pos, h.index_neg, ?_⟩
  · rw [Assign_assignment, Assignment.set_length]; exact h.assignment_length
  · rw [Assign_formula, ← h.watchers_clauses]
    apply List.ext_getElem?
    intro i
    rw [List.getElem?_map, List.getElem?_map, Assign_watchers_getElem?, Option.map_map]
    cases hw : s.watchers[i]? with
    | none => rfl
    | some w =>
      simp only [Option.map_some', Function.comp_apply]
      rw [iterate_Update_clause, iterate_Update_clause]
  · intro w2 hw2
    obtain ⟨i, hi⟩ := List.mem_iff_getElem?.mp hw2
    rw [Assign_watchers_getElem?] at hi
    cases hw : s.watchers[i]? with
    | none => rw [hw] at hi; simp at hi
    | some w =>
      rw [hw] at hi
      simp only [Option.map_some', Option.some.injEq] at hi
      rw [← hi, Assign_assignment]
      have hc := h.watcher_clause hw
      apply Watcher.ok_after_updates w s.assignment v a _ _ hv
        (by rw [h.assignment_length]; exact hle)
        (h.watchers_ok w (List.getElem?_mem hw)) (h.watcher_nonzero hw)
      · rw [List.count_pos_iff, h.index_pos v i hv hle, hc.2.2]
        exact ⟨fun h1 => h1.2, fun h1 => ⟨hc.2.1, h1⟩⟩
      · rw [List.count_pos_iff, h.index_neg v i hv hle, hc.2.2]
        exact ⟨fun h1 => h1.2, fun h1 => ⟨hc.2.1, h1⟩⟩

end BaseSolver

end pjos

namespace pjos

namespace BaseSolver

/-! ## The variable index -/

theorem UpdateClauseIndexList_length (idx : Nat) :
    ∀ (lits : List Literal) (vi : List VariableIndexEntry),
      (UpdateClauseIndexList idx lits vi).length = vi.length
  | [], vi => rfl
  | l :: ls, vi => by
    simp only [UpdateClauseIndexList]
    rw [UpdateClauseIndexList_length idx ls, modifyAt_length]

theorem modifyAt_getD {α : Type} (l : List α) (j : Nat) (f : α → α) (i : Nat) (d : α)
    (hi : i < l.length) :
    (modifyAt l j f).getD i d = if i = j then f (l.getD i d) else l.getD i d := by
  rw [List.getD_eq_getElem?_getD, modifyAt_getElem?, List.getD_eq_getElem?_getD]
  have h1 : l[i]? = some l[i] := List.getElem?_eq_getElem hi
  split_ifs <;> simp [h1]

theorem UpdateClauseIndexEntry_pos (idx : Nat) (l : Literal) (e : VariableIndexEntry) (i : Nat) :
    i ∈ (UpdateClauseIndexEntry idx l e).positive_clauses ↔
      i ∈ e.positive_clauses ∨ (i = idx ∧ ¬ l < 0) := by
  unfold UpdateClauseIndexEntry
  by_cases h : l < 0
  · simp [Literal.Assignment, h]
  · simp [Literal.Assignment, h]

theorem UpdateClauseIndexEntry_neg (idx : Nat) (l : Literal) (e : VariableIndexEntry) (i : Nat) :
    i ∈ (UpdateClauseIndexEntry idx l e).negative_clauses ↔
      i ∈ e.negative_clauses ∨ (i = idx ∧ l < 0) := by
  unfold UpdateClauseIndexEntry
  by_cases h : l < 0
  · simp [Literal.Assignment, h]
  · simp [Literal.Assignment, h]

/-- The positive occurrence lists after `UpdateClauseIndex`. -/
theorem UpdateClauseIndexList_pos (idx : Nat) :
    ∀ (lits : List Literal) (vi : List VariableIndexEntry),
      (∀ l ∈ lits, l ≠ 0 ∧ Literal.Variable l ≤ vi.length) →
      ∀ v i, 1 ≤ v → v ≤ vi.length →
        (i ∈ ((UpdateClauseIndexList idx lits vi).getD (v - 1)
            VariableIndexEntry.empty).positive_clauses ↔
          i ∈ (vi.getD (v - 1) VariableIndexEntry.empty).positive_clauses ∨
            (i = idx ∧ (v : Int) ∈ lits))
  | [], vi, _, v, i, _, _ => by simp [UpdateClauseIndexList]
  | l :: ls, vi, hl, v, i, hv, hle => by
    simp only [UpdateClauseIndexList]
    have hl0 := hl l (List.mem_cons_self _ _)
    rw [UpdateClauseIndexList_pos idx ls _
      (fun x hx => by rw [modifyAt_length]; exact hl x (List.mem_cons_of_mem _ hx)) v i hv
      (by rw [modifyAt_length]; exact hle)]
    have hvl := Literal.variable_pos hl0.1
    rw [modifyAt_getD _ _ _ _ _ (by omega)]
    by_cases hvar : v - 1 = Literal.Variable l - 1
    · have hvar2 : Literal.Variable l = v := by omega
      rw [if_pos hvar, UpdateClauseIndexEntry_pos]
      rcases Literal.eq_of_variable hvar2 with h1 | h1
      · have : ¬ l < 0 := by unfold Literal at *; omega
        simp only [this, not_false_eq_true, and_true, List.mem_cons]
        constructor
        · rintro ((h2 | h2) | ⟨h2, h3⟩)
          · exact Or.inl h2
          · exact Or.inr ⟨h2, Or.inl h1.symm⟩
          · exact Or.inr ⟨h2, Or.inr h3⟩
        · rintro (h2 | ⟨h2, h3 | h3⟩)
          · exact Or.inl (Or.inl h2)
          · exact Or.inl (Or.inr h2)
          · exact Or.inr ⟨h2, h3⟩
      · have h2 : l < 0 := by unfold Literal at *; omega
        have h3 : (v : Int) ≠ l := by unfold Literal at *; omega
        simp only [h2, not_true_eq_false, and_false, or_false, List.mem_cons, h3, false_or]
    · rw [if_neg hvar]
      have h3 : (v : Int) ≠ l := by
        intro h4
        apply hvar
        rw [← h4, Literal.variable_natCast]
      simp only [List.mem_cons, h3, false_or]

/-- The negative occurrence lists after `UpdateClauseIndex`. -/
theorem UpdateClauseIndexList_neg (idx : Nat) :
    ∀ (lits : List Literal) (vi : List VariableIndexEntry),
      (∀ l ∈ lits, l ≠ 0 ∧ Literal.Variable l ≤ vi.length) →
      ∀ v i, 1 ≤ v → v ≤ vi.length →
        (i ∈ ((UpdateClauseIndexList idx lits vi).getD (v - 1)
            VariableIndexEntry.empty).negative_clauses ↔
          i ∈ (vi.getD (v - 1) VariableIndexEntry.empty).negative_clauses ∨
            (i = idx ∧ -(v : Int) ∈ lits))
  | [], vi, _, v, i, _, _ => by simp [UpdateClauseIndexList]
  | l :: ls, vi, hl, v, i, hv, hle => by
    simp only [UpdateClauseIndexList]
    have hl0 := hl l (List.mem_cons_self _ _)
    rw [UpdateClauseIndexList_neg idx ls _
      (fun x hx => by rw [modifyAt_length]; exact hl x (List.mem_cons_of_mem _ hx)) v i hv
      (by rw [modifyAt_length]; exact hle)]
    have hvl := Literal.variable_pos hl0.1
    rw [modifyAt_getD _ _ _ _ _ (by omega)]
    by_cases hvar : v - 1 = Literal.Variable l - 1
    · have hvar2 : Literal.Variable l = v := by omega
      rw [if_pos hvar, UpdateClauseIndexEntry_neg]
      rcases Literal.eq_of_variable hvar2 with h1 | h1
      · have h2 : ¬ l < 0 := by unfold Literal at *; omega
        have h3 : -(v : Int) ≠ l := by unfold Literal at *; omega
        simp only [h2, and_false, or_false, List.mem_cons, h3, false_or]
      · have h2 : l < 0 := by unfold Literal at *; omega
        simp only [h2, and_true, List.mem_cons]
        constructor
        · rintro ((h2 | h2) | ⟨h2, h3⟩)
          · exact Or.inl h2
          · exact Or.inr ⟨h2, Or.inl h1.symm⟩
          · exact Or.inr ⟨h2, Or.inr h3⟩
        · rintro (h2 | ⟨h2, h3 | h3⟩)
          · exact Or.inl (Or.inl h2)
          · exact Or.inl (Or.inr h2)
          · exact Or.inr ⟨h2, h3⟩
    · rw [if_neg hvar]
      have h3 : -(v : Int) ≠ l := by
        intro h4
        apply hvar
        rw [← h4, Literal.variable_neg_natCast]
      simp only [List.mem_cons, h3, false_or]

end BaseSolver

end pjos

namespace pjos

namespace Watcher

/-! ## Watcher: construction and `Rescan` -/

theorem new_ok (c : ClauseView) (assn : Assignment)
    (h : ∀ l ∈ c.clause, assn.get (Literal.Variable l) = .Unassigned) : (Watcher.new c).Ok assn := by
  unfold Watcher.new
  by_cases h0 : c.Length > 0
  · rw [if_pos h0]
    have h0' : 0 < c.clause.length := h0
    by_cases h1 : c.Length > 1
    · rw [if_pos h1]
      have h1' : 1 < c.clause.length := h1
      refine ⟨⟨Or.inr ⟨by simp, by simpa using h0'⟩, Or.inr ⟨by simp, by simpa using h1'⟩,
        fun hs => by simp at hs⟩, fun hs => by simp at hs, fun _ => ⟨fun _ => ?_, fun _ => ?_⟩⟩
      · exact h _ (ClauseView.get_mem c _ (by simpa using h0'))
      · exact h _ (ClauseView.get_mem c _ (by simpa using h1'))
    · rw [if_neg h1]
      refine ⟨⟨Or.inr ⟨by simp, by simpa using h0'⟩, Or.inl rfl, fun _ => by simp⟩,
        fun hs => by simp at hs, fun _ => ⟨fun _ => ?_, fun hne => absurd rfl hne⟩⟩
      exact h _ (ClauseView.get_mem c _ (by simpa using h0'))
  · rw [if_neg h0]
    exact ⟨⟨Or.inl rfl, Or.inl rfl, fun hs => by simp at hs⟩, fun hs => by simp at hs,
      fun _ => ⟨fun hne => absurd rfl hne, fun hne => absurd rfl hne⟩⟩

@[simp] theorem new_clause (c : ClauseView) : (Watcher.new c).clause = c := by
  unfold Watcher.new
  split_ifs <;> rfl

theorem RescanStep_good (c : ClauseView) (assn : Assignment) (wl : Int × Int) (l : Literal)
    (k : Nat) (hk : k < c.clause.length) (hl : c.get k = l)
    (h1 : GoodWatch c assn wl.1) (h2 : GoodWatch c assn wl.2) :
    GoodWatch c assn (RescanStep assn wl l k).1 ∧ GoodWatch c assn (RescanStep assn wl l k).2 := by
  have hgood : Literal.Eval l (assn.get (Literal.Variable l)) = true ∨
      assn.get (Literal.Variable l) = .Unassigned → GoodWatch c assn (k : Int) := by
    intro h
    right
    refine ⟨by omega, by simpa using hk, ?_⟩
    simp only [Int.toNat_ofNat, hl]
    exact h
  unfold RescanStep
  simp only
  split_ifs with h3 h4 h5 h6
  · exact ⟨hgood (Or.inl h3), h1⟩
  · exact ⟨hgood (Or.inr h4), h2⟩
  · exact ⟨h1, hgood (Or.inr h4)⟩
  · exact ⟨h1, h2⟩
  · exact ⟨h1, h2⟩

theorem RescanFrom_good (c : ClauseView) (assn : Assignment) :
    ∀ (ls : List Literal) (k : Nat) (wl : Int × Int), c.clause.drop k = ls →
      GoodWatch c assn wl.1 → GoodWatch c assn wl.2 →
      GoodWatch c assn (RescanFrom assn ls k wl).1 ∧ GoodWatch c assn (RescanFrom assn ls k wl).2
  | [], _, _, _, h1, h2 => ⟨h1, h2⟩
  | l :: ls, k, wl, hd, h1, h2 => by
    simp only [RescanFrom]
    have hk : k < c.clause.length := by
      by_contra hge
      rw [List.drop_eq_nil_of_le (by omega)] at hd
      exact absurd hd (by simp)
    have hl : c.get k = l := by
      simp only [ClauseView.get]
      have h0 : (c.clause.drop k)[0]? = some l := by rw [hd]; simp
      rw [List.getElem?_drop, Nat.add_zero] at h0
      rw [List.getD_eq_getElem?_getD, h0]; rfl
    have hd' : c.clause.drop (k + 1) = ls := by
      rw [← List.drop_drop, hd]; rfl
    have := RescanStep_good c assn wl l k hk hl h1 h2
    exact RescanFrom_good c assn ls (k + 1) _ hd' this.1 this.2

theorem Rescan_clause (w : Watcher) (assn : Assignment) : (w.Rescan assn).clause = w.clause := by
  unfold Rescan UpdateStatus
  split_ifs <;> rfl

theorem Rescan_ok (w : Watcher) (assn : Assignment) : (w.Rescan assn).Ok assn := by
  have hg := RescanFrom_good w.clause assn w.clause.clause 0 (-1, -1) rfl (Or.inl rfl) (Or.inl rfl)
  generalize hwl : RescanFrom assn w.clause.clause 0 (-1, -1) = wl at hg
  have hun : ∀ i, GoodWatch w.clause assn i → w.IsSatisfied assn i = false → i ≠ -1 →
      w.UnassignedAt assn i := by
    intro i hgi hns hne
    rcases hgi with h | ⟨_, _, h | h⟩
    · exact absurd h hne
    · have : w.IsSatisfied assn i = true := (IsSatisfied_iff w assn i).mpr ⟨hne, h⟩
      rw [this] at hns; exact absurd hns (by simp)
    · exact h
  have hr : ∀ i, GoodWatch w.clause assn i → w.WatchInRange i := by
    intro i hgi
    rcases hgi with h | ⟨h1, h2, _⟩
    · exact Or.inl h
    · exact Or.inr ⟨h1, h2⟩
  unfold Rescan UpdateStatus
  rw [hwl]
  simp only [IsSatisfied_congr w { w with watched_literals := wl } assn _ rfl]
  by_cases hs : (w.IsSatisfied assn wl.1 || w.IsSatisfied assn wl.2) = true
  · rw [if_pos hs]
    refine ⟨⟨hr _ hg.1, hr _ hg.2, fun h => by simp at h⟩, fun _ => ?_, fun h => by simp at h⟩
    simp only [Bool.or_eq_true] at hs
    rcases hs with hs | hs
    · exact Or.inl ((IsSatisfied_congr w _ assn _ rfl).trans hs)
    · exact Or.inr ((IsSatisfied_congr w _ assn _ rfl).trans hs)
  · rw [if_neg hs]
    simp only [Bool.or_eq_true, not_or, Bool.not_eq_true] at hs
    have hu1 : wl.1 ≠ -1 → w.UnassignedAt assn wl.1 := hun _ hg.1 hs.1
    have hu2 : wl.2 ≠ -1 → w.UnassignedAt assn wl.2 := hun _ hg.2 hs.2
    split_ifs with h2 h3
    · exact ⟨⟨hr _ hg.1, hr _ hg.2, fun h => by simp at h⟩, fun h => by simp at h,
        fun _ => ⟨hu1, hu2⟩⟩
    · exact ⟨⟨hr _ hg.1, hr _ hg.2, fun _ => h3⟩, fun h => by simp at h, fun _ => ⟨hu1, hu2⟩⟩
    · exact ⟨⟨hr _ hg.1, hr _ hg.2, fun h => by simp at h⟩, fun h => by simp at h,
        fun _ => ⟨hu1, hu2⟩⟩

end Watcher

end pjos

namespace pjos

theorem Assignment.new_get (n x : Nat) : (Assignment.new n).get x = .Unassigned := by
  simp only [Assignment.new, Assignment.get, List.getD_eq_getElem?_getD]
  by_cases h : x - 1 < n
  · rw [List.getElem?_replicate, if_pos h]; rfl
  · rw [List.getElem?_replicate, if_neg h]; rfl

theorem Assignment.SetNumOfVariables_length (a : Assignment) (n : Nat)
    (h : a.assignment.length ≤ n) : (a.SetNumOfVariables n).assignment.length = n := by
  unfold Assignment.SetNumOfVariables
  split_ifs with h1 h2
  · omega
  · simp; omega
  · omega

theorem Assignment.SetNumOfVariables_get (a : Assignment) (n x : Nat)
    (h : a.assignment.length ≤ n) : (a.SetNumOfVariables n).get x = a.get x := by
  unfold Assignment.SetNumOfVariables
  split_ifs with h1 h2
  · omega
  · simp only [Assignment.get, List.getD_eq_getElem?_getD]
    by_cases hx : x - 1 < a.assignment.length
    · rw [List.getElem?_append_left hx]
    · rw [List.getElem?_append_right (by omega), List.getElem?_replicate]
      rw [List.getElem?_eq_none (by omega)]
      split_ifs <;> rfl
  · rfl

namespace Watcher

/-- The invariant of a watcher depends on the assignment through `get` only. -/
theorem Ok.congr {w : Watcher} {a b : Assignment} (h : w.Ok a) (hab : ∀ x, b.get x = a.get x) :
    w.Ok b := by
  have hs : ∀ i, w.IsSatisfied b i = w.IsSatisfied a i := by
    intro i; unfold IsSatisfied; simp only [hab]
  refine ⟨h.1, fun hst => ?_, fun hst => ⟨fun hne => ?_, fun hne => ?_⟩⟩
  · rw [hs, hs]; exact h.2.1 hst
  · have := (h.2.2 hst).1 hne
    unfold UnassignedAt at this ⊢; simp only [hab]; exact this
  · have := (h.2.2 hst).2 hne
    unfold UnassignedAt at this ⊢; simp only [hab]; exact this

end Watcher

namespace BaseSolver

variable {X : Type}

/-! ## The constructor establishes the invariant -/

theorem Formula_get_of_getElem? {f : Formula} {k : Nat} {c : Clause}
    (h : f.clauses[k]? = some c) : f.get k = c := by
  simp only [Formula.get, List.getD_eq_getElem?_getD, h, Option.getD_some]

theorem Populated.step {f : Formula} {k : Nat} {s : BaseSolver X} {clause : Clause}
    (h : Populated f k s) (hwf : f.WellFormed) (hc : f.clauses[k]? = some clause) :
    Populated f (k + 1)
      (UpdateClauseIndex { s with watchers := s.watchers ++ [Watcher.new clause] } k clause) := by
  have hmem : clause ∈ f.clauses := List.getElem?_mem hc
  have hlits : ∀ l ∈ clause.clause, l ≠ 0 ∧ Literal.Variable l ≤ s.variable_index.length := by
    intro l hl
    rw [h.index_length]
    exact hwf clause hmem l hl
  have hget := Formula_get_of_getElem? hc
  refine ⟨h.formula_eq, h.assignment_eq, ?_, ?_, ?_, ?_, ?_⟩
  · show (UpdateClauseIndexList k clause.clause s.variable_index).length = _
    rw [UpdateClauseIndexList_length]; exact h.index_length
  · show (s.watchers ++ [Watcher.new clause]).map (fun w => w.clause) = _
    rw [List.map_append, h.watchers_clauses, List.take_succ, hc]
    simp
  · intro v i hv hle
    show i ∈ ((UpdateClauseIndexList k clause.clause s.variable_index).getD (v - 1)
      VariableIndexEntry.empty).positive_clauses ↔ _
    rw [UpdateClauseIndexList_pos k _ _ hlits v i hv (by rw [h.index_length]; exact hle)]
    have := h.index_pos v i hv hle
    simp only [VariableIndex] at this
    rw [this]
    constructor
    · rintro (⟨h1, h2⟩ | ⟨h1, h2⟩)
      · exact ⟨by omega, h2⟩
      · subst h1; exact ⟨by omega, by rw [hget]; exact h2⟩
    · rintro ⟨h1, h2⟩
      by_cases hik : i = k
      · subst hik; exact Or.inr ⟨rfl, by rw [hget] at h2; exact h2⟩
      · exact Or.inl ⟨by omega, h2⟩
  · intro v i hv hle
    show i ∈ ((UpdateClauseIndexList k clause.clause s.variable_index).getD (v - 1)
      VariableIndexEntry.empty).negative_clauses ↔ _
    rw [UpdateClauseIndexList_neg k _ _ hlits v i hv (by rw [h.index_length]; exact hle)]
    have := h.index_neg v i hv hle
    simp only [VariableIndex] at this
    rw [this]
    constructor
    · rintro (⟨h1, h2⟩ | ⟨h1, h2⟩)
      · exact ⟨by omega, h2⟩
      · subst h1; exact ⟨by omega, by rw [hget]; exact h2⟩
    · rintro ⟨h1, h2⟩
      by_cases hik : i = k
      · subst hik; exact Or.inr ⟨rfl, by rw [hget] at h2; exact h2⟩
      · exact Or.inl ⟨by omega, h2⟩
  · intro w hw
    show w.Ok s.assignment
    have hw' : w ∈ s.watchers ++ [Watcher.new clause] := hw
    rw [List.mem_append, List.mem_singleton] at hw'
    rcases hw' with hw' | hw'
    · exact h.watchers_ok w hw'
    · rw [hw', h.assignment_eq]
      exact Watcher.new_ok _ _ (fun l _ => Assignment.new_get _ _)

theorem PopulateFrom_populated (f : Formula) (hwf : f.WellFormed) :
    ∀ (cs : List Clause) (k : Nat) (s : BaseSolver X), f.clauses.drop k = cs →
      Populated f k s → Populated f f.clauses.length (PopulateFrom cs k s)
  | [], k, s, hd, h => by
    simp only [PopulateFrom]
    have hk : f.clauses.length ≤ k := by
      by_contra hlt
      have := List.drop_eq_nil_iff.mp hd
      omega
    refine ⟨h.formula_eq, h.assignment_eq, h.index_length, ?_, ?_, ?_, h.watchers_ok⟩
    · rw [h.watchers_clauses, List.take_of_length_le hk, List.take_of_length_le (le_refl _)]
    · intro v i hv hle
      rw [h.index_pos v i hv hle]
      constructor
      · rintro ⟨h1, h2⟩
        refine ⟨?_, h2⟩
        by_contra hge
        simp only [Formula.get] at h2
        rw [List.getD_eq_default _ _ (by omega)] at h2
        simp at h2
      · rintro ⟨h1, h2⟩
        exact ⟨by omega, h2⟩
    · intro v i hv hle
      rw [h.index_neg v i hv hle]
      constructor
      · rintro ⟨h1, h2⟩
        refine ⟨?_, h2⟩
        by_contra hge
        simp only [Formula.get] at h2
        rw [List.getD_eq_default _ _ (by omega)] at h2
        simp at h2
      · rintro ⟨h1, h2⟩
        exact ⟨by omega, h2⟩
  | c :: cs, k, s, hd, h => by
    simp only [PopulateFrom]
    have hc : f.clauses[k]? = some c := by
      have h0 : (f.clauses.drop k)[0]? = some c := by rw [hd]; simp
      rw [List.getElem?_drop, Nat.add_zero] at h0
      exact h0
    have hd' : f.clauses.drop (k + 1) = cs := by
      rw [← List.drop_drop, hd]; rfl
    exact PopulateFrom_populated f hwf cs (k + 1) _ hd' (h.step hwf hc)

theorem Populated.consistent {f : Formula} {s : BaseSolver X}
    (h : Populated f f.clauses.length s) (hwf : f.WellFormed) : s.Consistent := by
  refine ⟨by rw [h.formula_eq]; exact hwf, ?_, ?_, ?_, ?_, ?_, h.watchers_ok⟩
  · rw [h.assignment_eq, h.formula_eq]; simp [Assignment.new]
  · rw [h.index_length, h.formula_eq]
  · rw [h.watchers_clauses, h.formula_eq, List.take_of_length_le (le_refl _)]
  · intro v i hv hle
    rw [h.formula_eq] at hle ⊢
    exact h.index_pos v i hv hle
  · intro v i hv hle
    rw [h.formula_eq] at hle ⊢
    exact h.index_neg v i hv hle

/-- The constructor of `BaseSolver` establishes the invariant. -/
theorem new_consistent (f : Formula) (ext : X) (hwf : f.WellFormed) :
    (BaseSolver.new f ext).Consistent := by
  unfold BaseSolver.new
  apply Populated.consistent _ hwf
  apply PopulateFrom_populated f hwf _ 0 _ rfl
  refine ⟨rfl, rfl, by simp [Formula.NumOfVariables], by simp, ?_, ?_, ?_⟩
  · intro v i hv hle
    simp only [VariableIndex, Formula.NumOfVariables, List.getD_eq_getElem?_getD]
    rw [List.getElem?_replicate]
    split_ifs <;> simp [VariableIndexEntry.empty]
  · intro v i hv hle
    simp only [VariableIndex, Formula.NumOfVariables, List.getD_eq_getElem?_getD]
    rw [List.getElem?_replicate]
    split_ifs <;> simp [VariableIndexEntry.empty]
  · intro w hw
    simp at hw

end BaseSolver

end pjos

namespace pjos

namespace BaseSolver

variable {X : Type}

/-- The invariant reads the formula, the variable index, the watchers and the assignment. -/
theorem Consistent.of_eq {s t : BaseSolver X} (h : s.Consistent)
    (hf : t.formula = s.formula) (hi : t.variable_index = s.variable_index)
    (hw : t.watchers = s.watchers) (ha : t.assignment = s.assignment) : t.Consistent := by
  obtain ⟨h1, h2, h3, h4, h5, h6, h7⟩ := h
  refine ⟨?_, ?_, ?_, ?_, ?_, ?_, ?_⟩
  · rw [hf]; exact h1
  · rw [hf, ha]; exact h2
  · rw [hf, hi]; exact h3
  · rw [hf, hw]; exact h4
  · intro v i hv hle
    rw [hf] at hle ⊢
    have := h5 v i hv hle
    simp only [VariableIndex] at this ⊢
    rw [hi]; exact this
  · intro v i hv hle
    rw [hf] at hle ⊢
    have := h6 v i hv hle
    simp only [VariableIndex] at this ⊢
    rw [hi]; exact this
  · rw [hw, ha]; exact h7

@[simp] theorem ResetCurrentStatus_formula (s : BaseSolver X) :
    s.ResetCurrentStatus.formula = s.formula := by
  unfold ResetCurrentStatus; split <;> rfl

@[simp] theorem ResetCurrentStatus_assignment (s : BaseSolver X) :
    s.ResetCurrentStatus.assignment = s.assignment := by
  unfold ResetCurrentStatus; split <;> rfl

@[simp] theorem ResetCurrentStatus_trail (s : BaseSolver X) :
    s.ResetCurrentStatus.trail = s.trail := by
  unfold ResetCurrentStatus; split <;> rfl

@[simp] theorem ResetCurrentStatus_variable_index (s : BaseSolver X) :
    s.ResetCurrentStatus.variable_index = s.variable_index := by
  unfold ResetCurrentStatus; split <;> rfl

@[simp] theorem ResetCurrentStatus_watchers (s : BaseSolver X) :
    s.ResetCurrentStatus.watchers = s.watchers := by
  unfold ResetCurrentStatus; split <;> rfl

@[simp] theorem ResetCurrentStatus_pending (s : BaseSolver X) :
    s.ResetCurrentStatus.pending_assignments = s.pending_assignments := by
  unfold ResetCurrentStatus; split <;> rfl

@[simp] theorem ResetCurrentStatus_ext (s : BaseSolver X) :
    s.ResetCurrentStatus.ext = s.ext := by
  unfold ResetCurrentStatus; split <;> rfl

@[simp] theorem AttachClause_formula (s : BaseSolver X) (k : Nat) (c : ClauseView) :
    (s.AttachClause k c).formula = s.formula := by
  simp only [AttachClause, UpdateClauseIndex]
  split_ifs <;> simp

@[simp] theorem AttachClause_assignment (s : BaseSolver X) (k : Nat) (c : ClauseView) :
    (s.AttachClause k c).assignment = s.assignment.SetNumOfVariables s.formula.NumOfVariables := by
  simp only [AttachClause, UpdateClauseIndex]
  split_ifs <;> simp

@[simp] theorem AttachClause_trail (s : BaseSolver X) (k : Nat) (c : ClauseView) :
    (s.AttachClause k c).trail = s.trail.SetNumOfVariables s.formula.NumOfVariables := by
  simp only [AttachClause, UpdateClauseIndex]
  split_ifs <;> simp

@[simp] theorem AttachClause_pending (s : BaseSolver X) (k : Nat) (c : ClauseView) :
    (s.AttachClause k c).pending_assignments = s.pending_assignments := by
  simp only [AttachClause, UpdateClauseIndex]
  split_ifs <;> simp

@[simp] theorem AttachClause_ext (s : BaseSolver X) (k : Nat) (c : ClauseView) :
    (s.AttachClause k c).ext = s.ext := by
  simp only [AttachClause, UpdateClauseIndex]
  split_ifs <;> simp

theorem AttachClause_variable_index (s : BaseSolver X) (k : Nat) (c : ClauseView) :
    (s.AttachClause k c).variable_index =
      UpdateClauseIndexList k c.clause
        (s.variable_index ++ List.replicate (s.formula.num_of_variables - s.variable_index.length)
          VariableIndexEntry.empty) := by
  simp only [AttachClause, UpdateClauseIndex, Formula.NumOfVariables]
  split_ifs with h
  · simp
  · have : s.formula.num_of_variables - s.variable_index.length = 0 := by
      simp only [ResetCurrentStatus_formula, ResetCurrentStatus_variable_index] at h
      omega
    simp [this]

theorem AttachClause_watchers (s : BaseSolver X) (k : Nat) (c : ClauseView) :
    (s.AttachClause k c).watchers =
      modifyAt (s.watchers.take k ++ [Watcher.new c] ++ s.watchers.drop k) k
        (fun w => w.Rescan (s.assignment.SetNumOfVariables s.formula.NumOfVariables)) := by
  simp only [AttachClause, UpdateClauseIndex]
  split_ifs <;> simp

theorem modifyAt_append_singleton {α : Type} (l : List α) (x : α) (f : α → α) :
    modifyAt (l ++ [x]) l.length f = l ++ [f x] := by
  unfold modifyAt
  have : (l ++ [x]).get? l.length = some x := by
    simp [List.get?_eq_getElem?]
  rw [this]
  simp

theorem getD_append_replicate_empty (vi : List VariableIndexEntry) (n i : Nat) :
    (vi ++ List.replicate n VariableIndexEntry.empty).getD i VariableIndexEntry.empty =
      vi.getD i VariableIndexEntry.empty := by
  simp only [List.getD_eq_getElem?_getD]
  by_cases hi : i < vi.length
  · rw [List.getElem?_append_left hi]
  · rw [List.getElem?_append_right (by omega), List.getElem?_replicate,
      List.getElem?_eq_none (by omega)]
    split_ifs <;> rfl

theorem Formula_get_append_left (f : Formula) (c : Clause) (i : Nat) (h : i < f.clauses.length) :
    (f.AppendClause c).get i = f.get i := by
  simp only [Formula.get, Formula.AppendClause, List.getD_eq_getElem?_getD]
  rw [List.getElem?_append_left h]

theorem Formula_get_append_self (f : Formula) (c : Clause) :
    (f.AppendClause c).get f.clauses.length = c := by
  simp only [Formula.get, Formula.AppendClause, List.getD_eq_getElem?_getD]
  simp

theorem Formula_get_mem (f : Formula) (i : Nat) (h : i < f.clauses.length) :
    f.get i ∈ f.clauses := by
  simp only [Formula.get, List.getD_eq_getElem?_getD]
  rw [List.getElem?_eq_getElem h]
  exact List.getElem_mem h

/-- Appending a well-formed clause to the formula and attaching it keeps the invariant. -/
theorem AttachClause_consistent (s : BaseSolver X) (c : Clause) (h : s.Consistent)
    (hc : ∀ l ∈ c.clause, l ≠ 0 ∧ Literal.Variable l ≤ c.num_of_variables) :
    (AttachClause { s with formula := s.formula.AppendClause c }
      s.formula.clauses.length c).Consistent := by
  have hlen : s.watchers.length = s.formula.clauses.length := by
    have := congrArg List.length h.watchers_clauses
    simpa using this
  have hN : s.formula.num_of_variables ≤ (s.formula.AppendClause c).num_of_variables := by
    simp [Formula.AppendClause]
  have hcN : c.num_of_variables ≤ (s.formula.AppendClause c).num_of_variables := by
    simp [Formula.AppendClause, ClauseView.NumOfVariables]
  have hget : ∀ x, (s.assignment.SetNumOfVariables
      (s.formula.AppendClause c).num_of_variables).get x = s.assignment.get x := by
    intro x
    apply Assignment.SetNumOfVariables_get
    rw [h.assignment_length]; exact hN
  have hvilen : (s.variable_index ++ List.replicate
      ((s.formula.AppendClause c).num_of_variables - s.variable_index.length)
        VariableIndexEntry.empty).length = (s.formula.AppendClause c).num_of_variables := by
    rw [List.length_append, List.length_replicate, h.index_length]; omega
  have hlits : ∀ l ∈ c.clause, l ≠ 0 ∧ Literal.Variable l ≤ (s.variable_index ++ List.replicate
      ((s.formula.AppendClause c).num_of_variables - s.variable_index.length)
        VariableIndexEntry.empty).length := by
    intro l hl
    rw [hvilen]
    exact ⟨(hc l hl).1, le_trans (hc l hl).2 hcN⟩
  have hwf : (s.formula.AppendClause c).WellFormed := by
    intro c1 hc1 l hl
    simp only [Formula.AppendClause, List.mem_append, List.mem_singleton] at hc1
    rcases hc1 with hc1 | hc1
    · exact ⟨(h.wf c1 hc1 l hl).1, le_trans (h.wf c1 hc1 l hl).2 hN⟩
    · subst hc1
      exact ⟨(hc l hl).1, le_trans (hc l hl).2 hcN⟩
  have hold : ∀ (v : Int) i, v ≠ 0 → i < s.formula.clauses.length → v ∈ (s.formula.get i).clause →
      Literal.Variable v ≤ s.formula.num_of_variables := by
    intro v i _ hi hv
    exact (h.wf _ (Formula_get_mem _ _ hi) v hv).2
  refine ⟨?_, ?_, ?_, ?_, ?_, ?_, ?_⟩
  · rw [AttachClause_formula]; exact hwf
  · rw [AttachClause_assignment, AttachClause_formula]
    apply Assignment.SetNumOfVariables_length
    rw [h.assignment_length]; exact hN
  · rw [AttachClause_variable_index, AttachClause_formula, UpdateClauseIndexList_length]
    exact hvilen
  · rw [AttachClause_watchers, AttachClause_formula]
    show List.map _ (modifyAt (List.take _ s.watchers ++ _ ++ List.drop _ s.watchers) _ _) = _
    rw [← hlen, List.take_length, List.drop_length, List.append_nil, modifyAt_append_singleton,
      List.map_append, h.watchers_clauses]
    simp [Formula.AppendClause, Watcher.Rescan_clause, Watcher.new_clause]
  · intro v i hv hle
    rw [AttachClause_formula] at hle ⊢
    simp only [VariableIndex]
    rw [AttachClause_variable_index]
    show i ∈ ((UpdateClauseIndexList _ c.clause (s.variable_index ++ List.replicate
      ((s.formula.AppendClause c).num_of_variables - s.variable_index.length)
        VariableIndexEntry.empty)).getD (v - 1) VariableIndexEntry.empty).positive_clauses ↔ _
    rw [UpdateClauseIndexList_pos _ _ _ hlits v i hv (by rw [hvilen]; exact hle),
      getD_append_replicate_empty]
    have hlen2 : (s.formula.AppendClause c).clauses.length = s.formula.clauses.length + 1 := by
      simp [Formula.AppendClause]
    rw [hlen2]
    constructor
    · rintro (h1 | ⟨h1, h2⟩)
      · by_cases hvN : v ≤ s.formula.num_of_variables
        · have := (h.index_pos v i hv hvN).mp h1
          exact ⟨by omega, by rw [Formula_get_append_left _ _ _ this.1]; exact this.2⟩
        · exfalso
          simp only [List.getD_eq_getElem?_getD] at h1
          rw [List.getElem?_eq_none (by rw [h.index_length]; omega)] at h1
          simp [VariableIndexEntry.empty] at h1
      · subst h1
        exact ⟨by omega, by rw [Formula_get_append_self]; exact h2⟩
    · rintro ⟨h1, h2⟩
      by_cases hik : i = s.formula.clauses.length
      · subst hik
        rw [Formula_get_append_self] at h2
        exact Or.inr ⟨rfl, h2⟩
      · have hi : i < s.formula.clauses.length := by omega
        rw [Formula_get_append_left _ _ _ hi] at h2
        have hvN := hold (v : Int) i (by omega) hi h2
        rw [Literal.variable_natCast] at hvN
        exact Or.inl ((h.index_pos v i hv hvN).mpr ⟨hi, h2⟩)
  · intro v i hv hle
    rw [AttachClause_formula] at hle ⊢
    simp only [VariableIndex]
    rw [AttachClause_variable_index]
    show i ∈ ((UpdateClauseIndexList _ c.clause (s.variable_index ++ List.replicate
      ((s.formula.AppendClause c).num_of_variables - s.variable_index.length)
        VariableIndexEntry.empty)).getD (v - 1) VariableIndexEntry.empty).negative_clauses ↔ _
    rw [UpdateClauseIndexList_neg _ _ _ hlits v i hv (by rw [hvilen]; exact hle),
      getD_append_replicate_empty]
    have hlen2 : (s.formula.AppendClause c).clauses.length = s.formula.clauses.length + 1 := by
      simp [Formula.AppendClause]
    rw [hlen2]
    constructor
    · rintro (h1 | ⟨h1, h2⟩)
      · by_cases hvN : v ≤ s.formula.num_of_variables
        · have := (h.index_neg v i hv hvN).mp h1
          exact ⟨by omega, by rw [Formula_get_append_left _ _ _ this.1]; exact this.2⟩
        · exfalso
          simp only [List.getD_eq_getElem?_getD] at h1
          rw [List.getElem?_eq_none (by rw [h.index_length]; omega)] at h1
          simp [VariableIndexEntry.empty] at h1
      · subst h1
        exact ⟨by omega, by rw [Formula_get_append_self]; exact h2⟩
    · rintro ⟨h1, h2⟩
      by_cases hik : i = s.formula.clauses.length
      · subst hik
        rw [Formula_get_append_self] at h2
        exact Or.inr ⟨rfl, h2⟩
      · have hi : i < s.formula.clauses.length := by omega
        rw [Formula_get_append_left _ _ _ hi] at h2
        have hvN := hold (-(v : Int)) i (by omega) hi h2
        rw [Literal.variable_neg_natCast] at hvN
        exact Or.inl ((h.index_neg v i hv hvN).mpr ⟨hi, h2⟩)
  · intro w hw
    rw [AttachClause_watchers] at hw
    rw [AttachClause_assignment]
    have hw2 : w ∈ modifyAt (List.take s.formula.clauses.length s.watchers ++
        [Watcher.new c] ++ List.drop s.formula.clauses.length s.watchers)
        s.formula.clauses.length
        (fun w => w.Rescan (s.assignment.SetNumOfVariables
          (s.formula.AppendClause c).num_of_variables)) := hw
    rw [← hlen, List.take_length, List.drop_length, List.append_nil, modifyAt_append_singleton,
      List.mem_append, List.mem_singleton] at hw2
    rcases hw2 with hw2 | hw2
    · exact (h.watchers_ok w hw2).congr hget
    · rw [hw2]; exact Watcher.Rescan_ok _ _

end BaseSolver

end pjos

namespace pjos

namespace DecisionTrail

theorem DropStale_eq_self (num : Nat) (l : List Entry) (h : ∀ e ∈ l, e.var ≤ num) :
    DropStale num l = l := by
  cases l with
  | nil => rfl
  | cons e es =>
    have := h e (List.mem_cons_self _ _)
    simp only [DropStale]
    rw [if_neg (by omega)]

theorem SkipStale_eq_self (t : DecisionTrail) (h : ∀ e ∈ t.trail, e.var ≤ t.var_index.length) :
    t.SkipStale = t := by
  unfold SkipStale
  rw [DropStale_eq_self _ _ (fun e he => h e (List.mem_reverse.mp he)), List.reverse_reverse]

theorem Guarded.append {tr : List Entry} {v : Nat} (h : Guarded tr v) (x : Entry)
    (hx : x.var ≠ v ∨ x.reason = ReasonAssumption) : Guarded (tr ++ [x]) v := by
  intro i e hi hev
  by_cases hlt : i < tr.length
  · rw [List.getElem?_append_left hlt] at hi
    obtain ⟨j, e1, hij, hj, hr⟩ := h i e hi hev
    have hjlt : j < tr.length := by
      by_contra hge
      rw [List.getElem?_eq_none (by omega)] at hj
      exact Option.noConfusion hj
    exact ⟨j, e1, hij, by rw [List.getElem?_append_left hjlt]; exact hj, hr⟩
  · by_cases heq : i = tr.length
    · subst heq
      have hxe : x = e := by simpa using hi
      subst hxe
      rcases hx with hx | hx
      · exact absurd hev hx
      · exact ⟨tr.length, x, le_refl _, hi, hx⟩
    · rw [List.getElem?_eq_none (by simp; omega)] at hi
      exact Option.noConfusion hi

theorem Guarded.of_assumption_on_top (tr : List Entry) (x : Entry)
    (hx : x.reason = ReasonAssumption) (v : Nat) : Guarded (tr ++ [x]) v := by
  intro i e hi _
  have hlt : i < (tr ++ [x]).length := by
    by_contra hge
    rw [List.getElem?_eq_none (by omega)] at hi
    exact Option.noConfusion hi
  refine ⟨tr.length, x, ?_, by simp, hx⟩
  simp at hlt
  omega

theorem getLast?_eq_getElem? {α : Type} (l : List α) : l.getLast? = l[l.length - 1]? := by
  induction l using List.reverseRecOn with
  | nil => rfl
  | append_singleton l a _ => simp

theorem Guarded.top_var_ne {tr : List Entry} {v : Nat} (h : Guarded tr v) {e : Entry}
    (hl : tr.getLast? = some e) (hr : e.reason ≠ ReasonAssumption) : e.var ≠ v := by
  intro hev
  rw [getLast?_eq_getElem?] at hl
  obtain ⟨j, e1, hij, hj, hr1⟩ := h _ e hl hev
  have hjlt : j < tr.length := by
    by_contra hge
    rw [List.getElem?_eq_none (by omega)] at hj
    exact Option.noConfusion hj
  have : j = tr.length - 1 := by omega
  subst this
  rw [hl] at hj
  have : e = e1 := by simpa using hj
  subst this
  exact hr hr1

theorem Guarded.dropLast {tr : List Entry} {v : Nat} (h : Guarded tr v) {e : Entry}
    (hl : tr.getLast? = some e) (hr : e.reason ≠ ReasonAssumption) : Guarded tr.dropLast v := by
  intro i e0 hi hev
  have hlt : i < tr.dropLast.length := by
    by_contra hge
    rw [List.getElem?_eq_none (by omega)] at hi
    exact Option.noConfusion hi
  have hlt2 : i < tr.length - 1 := by simpa using hlt
  have hi2 : tr[i]? = some e0 := by
    rw [List.dropLast_eq_take, List.getElem?_take] at hi
    simpa [hlt2] using hi
  obtain ⟨j, e1, hij, hj, hr1⟩ := h i e0 hi2 hev
  have hjlt : j < tr.length := by
    by_contra hge
    rw [List.getElem?_eq_none (by omega)] at hj
    exact Option.noConfusion hj
  have hjne : j ≠ tr.length - 1 := by
    intro hje
    subst hje
    rw [getLast?_eq_getElem?] at hl
    rw [hl] at hj
    have : e = e1 := by simpa using hj
    subst this
    exact hr hr1
  refine ⟨j, e1, hij, ?_, hr1⟩
  rw [List.dropLast_eq_take, List.getElem?_take]
  have : j < tr.length - 1 := by omega
  simpa [this] using hj

end DecisionTrail

end pjos

namespace pjos

namespace EVSIDSHeuristics

variable {S : Type}

theorem VariableAssigned_mem (h : EVSIDSHeuristics S) (assignment : Assignment) (var v : Nat)
    (hv : v ∈ (h.VariableAssigned assignment var).ordered_variables) :
    v ∈ h.ordered_variables ∨ v = var := by
  unfold VariableAssigned at hv
  simp only at hv
  split_ifs at hv
  · simp only [List.mem_append, List.mem_singleton] at hv
    exact hv
  · exact Or.inl hv

theorem VariableActive_ordered (P : Platform S) (h h1 : EVSIDSHeuristics S) (var : Nat)
    (hr : h.VariableActive P var = .ok h1) : h1.ordered_variables = h.ordered_variables := by
  unfold VariableActive at hr
  simp only at hr
  split_ifs at hr
  · cases hr; rfl
  · cases hr; rfl

theorem AddVariables_mem (P : Platform S) :
    ∀ (count i : Nat) (h : EVSIDSHeuristics S) (v : Nat),
      v ∈ (AddVariables P count i h).ordered_variables →
        v ∈ h.ordered_variables ∨ (i + 1 ≤ v ∧ v ≤ i + count)
  | 0, _, _, _, hv => Or.inl hv
  | count + 1, i, h, v, hv => by
    simp only [AddVariables] at hv
    rcases AddVariables_mem P count (i + 1) _ v hv with h1 | h1
    · simp only [List.mem_append, List.mem_singleton] at h1
      rcases h1 with h1 | h1
      · exact Or.inl h1
      · exact Or.inr ⟨by omega, by omega⟩
    · exact Or.inr ⟨by omega, by omega⟩

theorem FormulaUpdated_mem (P : Platform S) (h : EVSIDSHeuristics S) (formula : Formula) (v : Nat)
    (hv : v ∈ (h.FormulaUpdated P formula).ordered_variables) :
    v ∈ h.ordered_variables ∨ (1 ≤ v ∧ v ≤ formula.num_of_variables) := by
  unfold FormulaUpdated at hv
  simp only [Formula.NumOfVariables] at hv
  split_ifs at hv with h1 h2
  · rcases AddVariables_mem P _ _ _ v hv with h3 | h3
    · exact Or.inl h3
    · exact Or.inr ⟨by omega, by omega⟩
  · exact Or.inl (List.mem_filter.mp hv).1
  · exact Or.inl hv

theorem HeapMax_mem (P : Platform S) (h : EVSIDSHeuristics S) :
    ∀ (vs : List Nat) (best : Nat), HeapMax P h best vs = best ∨ HeapMax P h best vs ∈ vs
  | [], _ => Or.inl rfl
  | v :: vs, best => by
    simp only [HeapMax]
    rcases HeapMax_mem P h vs (if Comparator P h best v then v else best) with h1 | h1
    · rw [h1]
      split_ifs
      · exact Or.inr (List.mem_cons_self _ _)
      · exact Or.inl rfl
    · exact Or.inr (List.mem_cons_of_mem _ h1)

theorem PopVariableLoop_spec (P : Platform S) (assignment : Assignment) :
    ∀ (n : Nat) (h : EVSIDSHeuristics S),
      ((PopVariableLoop P assignment n h).1 = 0 ∨
        (PopVariableLoop P assignment n h).1 ∈ h.ordered_variables) ∧
      ∀ v ∈ (PopVariableLoop P assignment n h).2.ordered_variables, v ∈ h.ordered_variables
  | 0, h => ⟨Or.inl rfl, fun _ hv => hv⟩
  | n + 1, h => by
    unfold PopVariableLoop
    cases hov : h.ordered_variables with
    | nil => exact ⟨Or.inl rfl, fun _ hv => by rw [hov] at hv; exact hv⟩
    | cons v vs =>
      simp only
      have hmem : HeapMax P h v vs ∈ v :: vs := by
        rcases HeapMax_mem P h vs v with h1 | h1
        · rw [h1]; exact List.mem_cons_self _ _
        · exact List.mem_cons_of_mem _ h1
      split_ifs with hu
      · refine ⟨Or.inr hmem, fun x hx => ?_⟩
        exact List.mem_of_mem_erase hx
      · have ih := PopVariableLoop_spec P assignment n
          { h with
            ordered_variables := (v :: vs).erase (HeapMax P h v vs)
            ordered_variable_index := h.ordered_variable_index.erase (HeapMax P h v vs) }
        refine ⟨?_, fun x hx => ?_⟩
        · rcases ih.1 with h1 | h1
          · exact Or.inl h1
          · exact Or.inr (List.mem_of_mem_erase h1)
        · exact List.mem_of_mem_erase (ih.2 x hx)

theorem PopVariable_spec (P : Platform S) (h : EVSIDSHeuristics S) (assignment : Assignment) :
    ((h.PopVariable P assignment).1 = 0 ∨ (h.PopVariable P assignment).1 ∈ h.ordered_variables) ∧
      ∀ v ∈ (h.PopVariable P assignment).2.ordered_variables, v ∈ h.ordered_variables :=
  PopVariableLoop_spec P assignment _ h

theorem new_mem (P : Platform S) (formula : Formula) (scoring : ScoringParameters S) (v : Nat)
    (hv : v ∈ (EVSIDSHeuristics.new P formula scoring).ordered_variables) :
    1 ≤ v ∧ v ≤ formula.num_of_variables := by
  unfold EVSIDSHeuristics.new at hv
  rcases FormulaUpdated_mem P _ formula v hv with h1 | h1
  · simp at h1
  · exact h1

end EVSIDSHeuristics

end pjos

namespace pjos

namespace CdclSolver

variable {S : Type}

/-- A variable that is unassigned is not the variable of an applied assumption. -/
theorem Inv.not_applied {s : CdclSolver S} {iter : Nat} (h : Inv s iter) {u : Nat}
    (hu : s.assignment.get u = .Unassigned) :
    ∀ j v a, j < iter → s.pending_assignments[j]? = some (v, a, true) → v ≠ u := by
  intro j v a hj hp hvu
  subst hvu
  have h1 := (h.applied j v a hj hp).1
  have h2 := (h.pending_range _ (List.getElem?_mem hp)).2.2
  rw [hu] at h1
  exact h2 h1.symm

theorem Assign_ext (s : CdclSolver S) (u : Nat) (val : VariableAssignment) :
    (BaseSolver.Assign s u val).ext =
      { s.ext with evsids := s.ext.evsids.VariableAssigned (s.assignment.set u val) u } := rfl

/-- Assigning a variable that no applied assumption is about keeps the invariant. -/
theorem Inv.assign {s : CdclSolver S} {iter : Nat} (h : Inv s iter) (u : Nat)
    (val : VariableAssignment) (hu1 : 1 ≤ u) (hu2 : u ≤ s.formula.num_of_variables)
    (hna : ∀ j v a, j < iter → s.pending_assignments[j]? = some (v, a, true) → v ≠ u) :
    Inv (BaseSolver.Assign s u val) iter := by
  refine ⟨BaseSolver.Assign_consistent s u val h.consistent hu1 hu2, h.trail_range,
    h.trail_index_length, ?_, h.pending_range, h.builder_ok, h.iter_le, ?_⟩
  · intro v hv
    rw [Assign_ext] at hv
    rcases EVSIDSHeuristics.VariableAssigned_mem _ _ _ _ hv with h1 | h1
    · exact h.heap_range v h1
    · rw [h1]; exact ⟨hu1, hu2⟩
  · intro j v a hj hp
    have hp2 : s.pending_assignments[j]? = some (v, a, true) := hp
    have h1 := h.applied j v a hj hp2
    have hv := (h.pending_range _ (List.getElem?_mem hp2)).1
    refine ⟨?_, h1.2⟩
    rw [BaseSolver.Assign_assignment, Assignment.get_set_other _ _ _ _ hv hu1 (hna j v a hj hp2)]
    exact h1.1

/-- Pushing an entry on the trail keeps the invariant when the entry is an assumption or is
about a variable that no applied assumption is about. -/
theorem Inv.push {s : CdclSolver S} {iter : Nat} (h : Inv s iter) (t : DecisionTrail)
    (x : DecisionTrail.Entry) (ht : t.trail = s.trail.trail ++ [x])
    (hl : t.var_index.length = s.trail.var_index.length)
    (hx1 : 1 ≤ x.var) (hx2 : x.var ≤ s.formula.num_of_variables)
    (hna : x.reason = DecisionTrail.ReasonAssumption ∨
      ∀ j v a, j < iter → s.pending_assignments[j]? = some (v, a, true) → v ≠ x.var) :
    Inv { s with trail := t } iter := by
  refine ⟨h.consistent.of_eq rfl rfl rfl rfl, ?_, ?_, h.heap_range, h.pending_range,
    h.builder_ok, h.iter_le, ?_⟩
  · intro e he
    have he2 : e ∈ t.trail := he
    rw [ht, List.mem_append, List.mem_singleton] at he2
    rcases he2 with he2 | he2
    · exact h.trail_range e he2
    · rw [he2]; exact ⟨hx1, hx2⟩
  · show t.var_index.length = _
    rw [hl]; exact h.trail_index_length
  · intro j v a hj hp
    have hp2 : s.pending_assignments[j]? = some (v, a, true) := hp
    have h1 := h.applied j v a hj hp2
    refine ⟨h1.1, ?_⟩
    show DecisionTrail.Guarded t.trail v
    rw [ht]
    rcases hna with hna | hna
    · exact DecisionTrail.Guarded.of_assumption_on_top _ _ hna v
    · exact h1.2.append x (Or.inl (fun hxv => hna j v a hj hp2 hxv.symm))

/-- The iterator over the pending assignments moves on. -/
theorem Inv.advance {s : CdclSolver S} {iter : Nat} (h : Inv s iter)
    (hlt : iter < s.pending_assignments.length)
    (hnew : ∀ v a, s.pending_assignments[iter]? = some (v, a, true) →
      s.assignment.get v = a ∧ DecisionTrail.Guarded s.trail.trail v) :
    Inv s (iter + 1) := by
  refine ⟨h.consistent, h.trail_range, h.trail_index_length, h.heap_range, h.pending_range,
    h.builder_ok, hlt, ?_⟩
  intro j v a hj hp
  by_cases hji : j < iter
  · exact h.applied j v a hji hp
  · have : j = iter := by omega
    subst this
    exact hnew v a hp

theorem Inv.skipStale {s : CdclSolver S} {iter : Nat} (h : Inv s iter) :
    s.trail.SkipStale = s.trail := by
  apply DecisionTrail.SkipStale_eq_self
  intro e he
  rw [h.trail_index_length]
  exact (h.trail_range e he).2

/-- Popping the topmost entry of the trail keeps the invariant when it is no assumption. -/
theorem Inv.pop {s : CdclSolver S} {iter : Nat} (h : Inv s iter) {e : DecisionTrail.Entry}
    (hl : s.trail.trail.getLast? = some e) (hr : e.reason ≠ DecisionTrail.ReasonAssumption) :
    Inv { s with trail := s.trail.Pop } iter := by
  have hpop : s.trail.Pop.trail = s.trail.trail.dropLast ∧
      s.trail.Pop.var_index.length = s.trail.var_index.length := by
    unfold DecisionTrail.Pop
    simp only [h.skipStale, hl]
    simp
  refine ⟨h.consistent.of_eq rfl rfl rfl rfl, ?_, ?_, h.heap_range, h.pending_range,
    h.builder_ok, h.iter_le, ?_⟩
  · intro x hx
    have hx2 : x ∈ s.trail.Pop.trail := hx
    rw [hpop.1] at hx2
    exact h.trail_range x (List.mem_of_mem_dropLast hx2)
  · show s.trail.Pop.var_index.length = _
    rw [hpop.2]; exact h.trail_index_length
  · intro j v a hj hp
    have hp2 : s.pending_assignments[j]? = some (v, a, true) := hp
    have h1 := h.applied j v a hj hp2
    refine ⟨h1.1, ?_⟩
    show DecisionTrail.Guarded s.trail.Pop.trail v
    rw [hpop.1]
    exact h1.2.dropLast hl hr

end CdclSolver

end pjos

namespace pjos

namespace CdclSolver

variable {S : Type}

/-- The literal that a `Unit` watcher propagates is a literal of the formula whose variable is
unassigned. -/
theorem unit_literal {s : CdclSolver S} (h : s.Consistent) {i : Nat} {w : Watcher}
    (hw : s.watchers[i]? = some w) (hs : w.status = .Unit) :
    (s.formula.get i).get w.watched_literals.1.toNat ≠ 0 ∧
    Literal.Variable ((s.formula.get i).get w.watched_literals.1.toNat) ≤
      s.formula.num_of_variables ∧
    s.assignment.get (Literal.Variable ((s.formula.get i).get w.watched_literals.1.toNat)) =
      .Unassigned := by
  have hok := h.watchers_ok w (List.getElem?_mem hw)
  have hc := h.watcher_clause hw
  have hne : w.watched_literals.1 ≠ -1 := hok.1.2.2 hs
  have hmem := Watcher.watch_mem hok.1.1 hne
  rw [hc.2.2]
  have hwf := h.wf _ (List.getElem?_mem hc.1) _ hmem
  refine ⟨hwf.1, hwf.2, ?_⟩
  have hst : w.status ≠ .Satisfied := by rw [hs]; decide
  exact (hok.2.2 hst).1 hne

/-- One pass of the loop over the watchers keeps the invariant; when it reports that every
watcher is satisfied it has changed nothing. -/
theorem UnitPropagationFor_spec (iter : Nat) :
    ∀ (n i : Nat) (s : CdclSolver S) (b : Bool), Inv s iter → i + n ≤ s.watchers.length →
      Inv (BaseSolver.UnitPropagationFor n i s b).solver iter ∧
      (BaseSolver.UnitPropagationFor n i s b).solver.formula = s.formula ∧
      (BaseSolver.UnitPropagationFor n i s b).solver.pending_assignments =
        s.pending_assignments ∧
      ((BaseSolver.UnitPropagationFor n i s b).all_satisfied = true →
        b = true ∧ (BaseSolver.UnitPropagationFor n i s b).solver = s ∧
        ∀ j w, i ≤ j → j < i + n → s.watchers[j]? = some w → w.status = .Satisfied)
  | 0, i, s, b, h, _ => by
    unfold BaseSolver.UnitPropagationFor
    exact ⟨h, rfl, rfl, fun hb => ⟨hb, rfl, fun j w h1 h2 => by omega⟩⟩
  | n + 1, i, s, b, h, hle => by
    have hi : i < s.watchers.length := by omega
    have hw : s.watchers[i]? = some (s.watchers.getD i (Watcher.new ⟨[], 0⟩)) := by
      rw [List.getD_eq_getElem?_getD, List.getElem?_eq_getElem hi]; rfl
    unfold BaseSolver.UnitPropagationFor
    simp only [Watcher.Status, Watcher.WatchedLiterals]
    split_ifs with h1 h2
    · -- the watcher is `Unit`: propagate
      obtain ⟨hl0, hlN, hlu⟩ := unit_literal h.consistent hw h1
      have hv1 := Literal.variable_pos hl0
      have hna := h.not_applied hlu
      have hpush := h.push
        (s.trail.PropagationFrom
          (Literal.Assignment ((s.formula.get i).get
            (s.watchers.getD i (Watcher.new ⟨[], 0⟩)).watched_literals.1.toNat)).1
          (Literal.Assignment ((s.formula.get i).get
            (s.watchers.getD i (Watcher.new ⟨[], 0⟩)).watched_literals.1.toNat)).2 i)
        _ rfl (by simp [DecisionTrail.PropagationFrom]) hv1 hlN (Or.inr hna)
      refine ⟨hpush.assign _ _ hv1 hlN hna, rfl, rfl, ?_⟩
      intro hb
      simp only [Bool.and_eq_true, decide_eq_true_eq] at hb
      rw [h1] at hb
      exact absurd hb.2 (by decide)
    · refine ⟨h, rfl, rfl, fun hb => ?_⟩
      simp only [Bool.and_eq_true, decide_eq_true_eq] at hb
      rw [h2] at hb
      exact absurd hb.2 (by decide)
    · have ih := UnitPropagationFor_spec iter n (i + 1) s
        (b && decide ((s.watchers.getD i (Watcher.new ⟨[], 0⟩)).status = .Satisfied)) h
        (by omega)
      refine ⟨ih.1, ih.2.1, ih.2.2.1, ?_⟩
      intro hb
      obtain ⟨hb1, hb2, hb3⟩ := ih.2.2.2 hb
      simp only [Bool.and_eq_true, decide_eq_true_eq] at hb1
      refine ⟨hb1.1, hb2, ?_⟩
      intro j w hj1 hj2 hjw
      by_cases hji : j = i
      · subst hji
        rw [hw] at hjw
        cases hjw
        exact hb1.2
      · exact hb3 j w (by omega) (by omega) hjw

/-- UnitPropagation keeps the invariant, and when it reports `Sat` every watcher has the status
`Satisfied`. -/
theorem UnitPropagationLoop_spec (iter : Nat) :
    ∀ (fuel : Nat) (s s1 : CdclSolver S) (r : UnitPropagationResult) (c : Nat), Inv s iter →
      BaseSolver.UnitPropagationLoop fuel s = .ok (s1, r, c) →
      Inv s1 iter ∧ s1.formula = s.formula ∧ s1.pending_assignments = s.pending_assignments ∧
      (r = .Sat → ∀ w ∈ s1.watchers, w.status = .Satisfied)
  | 0, s, s1, r, c, _, hr => by
    simp [BaseSolver.UnitPropagationLoop] at hr
  | fuel + 1, s, s1, r, c, h, hr => by
    have hp := UnitPropagationFor_spec iter s.watchers.length 0 s true h (by omega)
    unfold BaseSolver.UnitPropagationLoop at hr
    simp only at hr
    split at hr
    · cases hr
      exact ⟨hp.1, hp.2.1, hp.2.2.1, fun hc => by cases hc⟩
    · split_ifs at hr with h1 hall
      · have ih := UnitPropagationLoop_spec iter fuel _ s1 r c hp.1 hr
        exact ⟨ih.1, ih.2.1.trans hp.2.1, ih.2.2.1.trans hp.2.2.1, ih.2.2.2⟩
      · cases hr
        refine ⟨hp.1, hp.2.1, hp.2.2.1, ?_⟩
        intro _
        obtain ⟨_, hs, hws⟩ := hp.2.2.2 hall
        rw [hs]
        intro w hw
        obtain ⟨j, hj⟩ := List.mem_iff_getElem?.mp hw
        have hjlt : j < s.watchers.length := (List.getElem?_eq_some_iff.mp hj).1
        exact hws j w (by omega) (by omega) hj
      · cases hr
        exact ⟨hp.1, hp.2.1, hp.2.2.1, fun hc => by cases hc⟩

end CdclSolver

end pjos

namespace pjos

theorem Literal.variable_mk (v : Nat) (a : VariableAssignment) :
    Literal.Variable (Literal.mk v a) = v := by
  unfold Literal.mk Literal.Variable
  split_ifs <;> simp

theorem Literal.mk_ne_zero {v : Nat} (a : VariableAssignment) (hv : 1 ≤ v) :
    Literal.mk v a ≠ 0 := by
  unfold Literal.mk
  split_ifs
  · show (-1 * (v : Int)) ≠ (0 : Int)
    omega
  · show (v : Int) ≠ (0 : Int)
    omega

theorem ClauseBuilder.Add_ok (b : ClauseBuilder) (literal : Literal) (hl : literal ≠ 0)
    (hb : ∀ l ∈ b.literals, l ≠ 0 ∧ Literal.Variable l ≤ b.num_of_variables) :
    ∀ l ∈ (b.Add literal).literals,
      l ≠ 0 ∧ Literal.Variable l ≤ (b.Add literal).num_of_variables := by
  intro l hmem
  simp only [ClauseBuilder.Add] at hmem ⊢
  split_ifs at hmem
  · exact ⟨(hb l hmem).1, le_trans (hb l hmem).2 (le_max_right _ _)⟩
  · rw [List.mem_append, List.mem_singleton] at hmem
    rcases hmem with hmem | hmem
    · exact ⟨(hb l hmem).1, le_trans (hb l hmem).2 (le_max_right _ _)⟩
    · rw [hmem]; exact ⟨hl, le_max_left _ _⟩

theorem Formula.get_wellFormed {f : Formula} (h : f.WellFormed) (i : Nat) :
    ∀ l ∈ (f.get i).clause, l ≠ 0 ∧ Literal.Variable l ≤ f.num_of_variables := by
  intro l hl
  by_cases hi : i < f.clauses.length
  · exact h _ (BaseSolver.Formula_get_mem f i hi) l hl
  · simp only [Formula.get] at hl
    rw [List.getD_eq_default _ _ (by omega)] at hl
    simp at hl

namespace BaseSolver

variable {X : Type}

theorem SameShared.refl (s : BaseSolver X) : s.SameShared s := ⟨rfl, rfl, rfl, rfl, rfl, rfl⟩

theorem SameShared.trans {r t s : BaseSolver X} (h1 : r.SameShared t) (h2 : t.SameShared s) :
    r.SameShared s :=
  ⟨h1.formula.trans h2.formula, h1.variable_index.trans h2.variable_index,
    h1.watchers.trans h2.watchers, h1.assignment.trans h2.assignment, h1.trail.trans h2.trail,
    h1.pending.trans h2.pending⟩

end BaseSolver

namespace CdclSolver

variable {S : Type}

/-- A change of the fields of the subclass keeps the invariant when the heap does not grow and
the clause builder stays valid. -/
theorem Inv.of_shared {s t : CdclSolver S} {iter : Nat} (h : Inv s iter)
    (hs : BaseSolver.SameShared t s)
    (hh : ∀ v ∈ t.ext.evsids.ordered_variables, v ∈ s.ext.evsids.ordered_variables)
    (hb : ∀ l ∈ t.ext.learned_clause.literals,
      l ≠ 0 ∧ Literal.Variable l ≤ t.ext.learned_clause.num_of_variables) : Inv t iter := by
  refine ⟨h.consistent.of_eq hs.formula hs.variable_index hs.watchers hs.assignment,
    ?_, ?_, ?_, ?_, hb, ?_, ?_⟩
  · rw [hs.trail, hs.formula]; exact h.trail_range
  · rw [hs.trail, hs.formula]; exact h.trail_index_length
  · rw [hs.formula]; exact fun v hv => h.heap_range v (hh v hv)
  · rw [hs.pending, hs.formula]; exact h.pending_range
  · rw [hs.pending]; exact h.iter_le
  · rw [hs.pending, hs.assignment, hs.trail]; exact h.applied

/-- The analysis of one clause changes fields of the subclass only. -/
theorem AnalyzeClause_spec (P : Platform S) (iter : Nat) :
    ∀ (lits : List Literal) (a a1 : ConflictAnalysis S), (∀ l ∈ lits, l ≠ 0) →
      Inv a.solver iter → AnalyzeClause P lits a = .ok a1 →
      Inv a1.solver iter ∧ BaseSolver.SameShared a1.solver a.solver
  | [], a, a1, _, h, hr => by
    simp only [AnalyzeClause] at hr
    cases hr
    exact ⟨h, BaseSolver.SameShared.refl _⟩
  | literal :: rest, a, a1, hl, h, hr => by
    have hl0 := hl literal (List.mem_cons_self _ _)
    have hrest : ∀ l ∈ rest, l ≠ 0 := fun l hm => hl l (List.mem_cons_of_mem _ hm)
    unfold AnalyzeClause at hr
    simp only at hr
    split_ifs at hr with h1
    · exact AnalyzeClause_spec P iter rest a a1 hrest h hr
    · split at hr
      · cases hr
      · rename_i trail_entry _
        split at hr
        · cases hr
        · rename_i evsids hev
          have hstep := AnalyzeClause_spec P iter rest _ a1 hrest ?_ hr
          · refine ⟨hstep.1, hstep.2.trans ?_⟩
            split_ifs
            · exact ⟨rfl, rfl, rfl, rfl, rfl, rfl⟩
            · exact ⟨rfl, rfl, rfl, rfl, rfl, rfl⟩
          · have hord := EVSIDSHeuristics.VariableActive_ordered P _ _ _ hev
            split_ifs at hord ⊢ with h2
            · refine h.of_shared ⟨rfl, rfl, rfl, rfl, rfl, rfl⟩ ?_ h.builder_ok
              intro v hv
              have hv2 : v ∈ evsids.ordered_variables := hv
              rw [hord] at hv2
              exact hv2
            · refine h.of_shared ⟨rfl, rfl, rfl, rfl, rfl, rfl⟩ ?_ ?_
              · intro v hv
                have hv2 : v ∈ evsids.ordered_variables := hv
                rw [hord] at hv2
                exact hv2
              · exact ClauseBuilder.Add_ok _ _
                  (Literal.mk_ne_zero _ (Literal.variable_pos hl0)) h.builder_ok

theorem FindPending_lt (s : CdclSolver S) :
    ∀ (k j : Nat), FindPending s k = .ok j → j < s.trail.Length
  | 0, j, h => by
    unfold FindPending at h
    split_ifs at h with h1
    cases h
    exact h1.1
  | k + 1, j, h => by
    unfold FindPending at h
    split_ifs at h with h1 h2
    · exact FindPending_lt s k j h
    · cases h
      exact h1

end CdclSolver

end pjos

namespace pjos

namespace DecisionTrail

theorem get_mem_trail (t : DecisionTrail) (i : Nat) (h : i < t.Length) : t.get i ∈ t.trail := by
  simp only [DecisionTrail.get, List.getD_eq_getElem?_getD]
  rw [List.getElem?_eq_getElem h]
  exact List.getElem_mem h

theorem SetNumOfVariables_trail (t : DecisionTrail) (n : Nat) :
    (t.SetNumOfVariables n).trail = t.trail := by
  unfold SetNumOfVariables
  split_ifs <;> rfl

theorem SetNumOfVariables_index_length (t : DecisionTrail) (n : Nat) (h : t.var_index.length ≤ n) :
    (t.SetNumOfVariables n).var_index.length = n := by
  unfold SetNumOfVariables
  split_ifs with h1 h2
  · omega
  · simp; omega
  · omega

end DecisionTrail

namespace CdclSolver

variable {S : Type}

/-- The loop of the conflict analysis changes fields of the subclass only, and stops at an
entry of the trail. -/
theorem AnalyzeConflictLoop_spec (P : Platform S) (iter : Nat) :
    ∀ (n : Nat) (a a1 : ConflictAnalysis S) (lits : List Literal) (ti ti1 : Nat),
      (∀ l ∈ lits, l ≠ 0) → Inv a.solver iter →
      AnalyzeConflictLoop P n a lits ti = .ok (a1, ti1) →
      Inv a1.solver iter ∧ BaseSolver.SameShared a1.solver a.solver ∧
        ti1 < a1.solver.trail.Length
  | 0, _, _, _, _, _, _, _, hr => by
    simp [AnalyzeConflictLoop] at hr
  | n + 1, a, a1, lits, ti, ti1, hl, h, hr => by
    unfold AnalyzeConflictLoop at hr
    split at hr
    · cases hr
    · rename_i a2 ha2
      obtain ⟨hi2, hs2⟩ := AnalyzeClause_spec P iter lits a a2 hl h ha2
      simp only at hr
      split at hr
      · cases hr
      · rename_i ti2 hti2
        have hlt := FindPending_lt _ _ _ hti2
        have hi3 : Inv (SetAnalysisTrackOf a2.solver (a2.solver.trail.get ti2).var .Processed)
            iter :=
          hi2.of_shared ⟨rfl, rfl, rfl, rfl, rfl, rfl⟩ (fun v hv => hv) hi2.builder_ok
        have hs3a : BaseSolver.SameShared
            (SetAnalysisTrackOf a2.solver (a2.solver.trail.get ti2).var .Processed) a2.solver :=
          ⟨rfl, rfl, rfl, rfl, rfl, rfl⟩
        have hs3 := hs3a.trans hs2
        split_ifs at hr with h1 h2 h3
        · have ih := AnalyzeConflictLoop_spec P iter n _ a1 _ ti2 ti1
            (fun l hm => (Formula.get_wellFormed hi3.consistent.wf _ l hm).1) hi3 hr
          exact ⟨ih.1, ih.2.1.trans hs3, ih.2.2⟩
        · cases hr
          exact ⟨hi3, hs3, hlt⟩
        · cases hr
          exact ⟨hi3, hs3, hlt⟩

/-- AnalyzeConflict changes fields of the subclass only, leaves the clause builder empty and
returns a clause of valid literals. -/
theorem AnalyzeConflict_spec (P : Platform S) (hP : P.SetOrderOk) (iter : Nat) (s s1 : CdclSolver S)
    (conflict : ClauseView) (learned : Clause) (level : Nat)
    (hc : ∀ l ∈ conflict.clause, l ≠ 0) (h : Inv s iter)
    (hr : AnalyzeConflict P s conflict = .ok (learned, level, s1)) :
    Inv s1 iter ∧ BaseSolver.SameShared s1 s ∧
      ∀ l ∈ learned.clause, l ≠ 0 ∧ Literal.Variable l ≤ learned.num_of_variables := by
  unfold AnalyzeConflict at hr
  split_ifs at hr with h0
  simp only at hr
  split at hr
  · cases hr
  · rename_i a ti hloop
    have hclear : Inv (ClearAnalysisTrack s) iter :=
      h.of_shared ⟨rfl, rfl, rfl, rfl, rfl, rfl⟩ (fun v hv => hv) h.builder_ok
    obtain ⟨hi, hs, hlt⟩ := AnalyzeConflictLoop_spec P iter _ ⟨ClearAnalysisTrack s, 1, 0⟩ a
      conflict.clause _ ti hc hclear hloop
    have hs0 : BaseSolver.SameShared a.solver s :=
      hs.trans ⟨rfl, rfl, rfl, rfl, rfl, rfl⟩
    have hentry := hi.trail_range _ (DecisionTrail.get_mem_trail _ _ hlt)
    split at hr
    · cases hr
    · rename_i evsids hev
      have hord := EVSIDSHeuristics.VariableActive_ordered P _ _ _ hev
      split_ifs at hr with h1 h2 h3
      all_goals
        cases hr
        refine ⟨?_, ?_, ?_⟩
        · refine hi.of_shared ⟨rfl, rfl, rfl, rfl, rfl, rfl⟩ ?_ ?_
          · intro v hv
            have hv2 : v ∈ evsids.ordered_variables := hv
            rw [hord] at hv2
            exact hv2
          · intro l hl
            simp [ClauseBuilder.Make, ClauseBuilder.Reset] at hl
        · exact ⟨hs0.formula, hs0.variable_index, hs0.watchers, hs0.assignment, hs0.trail,
            hs0.pending⟩
        · intro l hl
          simp only [ClauseBuilder.Make] at hl
          have hl2 := (hP _).subset hl
          exact ClauseBuilder.Add_ok _ _ (Literal.mk_ne_zero _ hentry.1) hi.builder_ok l hl2

/-- Appending a clause of valid literals keeps the invariant of the main loop. -/
theorem AppendClause_spec (P : Platform S) (iter : Nat) (s : CdclSolver S) (c : Clause)
    (h : Inv s iter)
    (hc : ∀ l ∈ c.clause, l ≠ 0 ∧ Literal.Variable l ≤ c.num_of_variables) :
    Inv (AppendClause P s c) iter ∧
      (AppendClause P s c).formula.clauses = s.formula.clauses ++ [c] ∧
      (AppendClause P s c).pending_assignments = s.pending_assignments := by
  have hN : s.formula.num_of_variables ≤ (s.formula.AppendClause c).num_of_variables := by
    simp [Formula.AppendClause]
  have hk : (s.formula.AppendClause c).NumOfClauses - 1 = s.formula.clauses.length := by
    simp [Formula.AppendClause, Formula.NumOfClauses]
  have hcons := BaseSolver.AttachClause_consistent s c h.consistent hc
  unfold AppendClause AttachClause
  simp only [hk]
  refine ⟨⟨hcons.of_eq rfl rfl rfl rfl, ?_, ?_, ?_, ?_, ?_, ?_, ?_⟩, ?_, ?_⟩
  · intro e he
    simp only [BaseSolver.AttachClause_trail, BaseSolver.AttachClause_formula,
      DecisionTrail.SetNumOfVariables_trail] at he ⊢
    exact ⟨(h.trail_range e he).1, le_trans (h.trail_range e he).2 hN⟩
  · simp only [BaseSolver.AttachClause_trail, BaseSolver.AttachClause_formula]
    apply DecisionTrail.SetNumOfVariables_index_length
    rw [h.trail_index_length]; exact hN
  · intro v hv
    simp only [BaseSolver.AttachClause_formula, BaseSolver.AttachClause_ext] at hv ⊢
    rcases EVSIDSHeuristics.FormulaUpdated_mem P _ _ v hv with h1 | h1
    · exact ⟨(h.heap_range v h1).1, le_trans (h.heap_range v h1).2 hN⟩
    · exact h1
  · intro p hp
    simp only [BaseSolver.AttachClause_pending, BaseSolver.AttachClause_formula] at hp ⊢
    exact ⟨(h.pending_range p hp).1, le_trans (h.pending_range p hp).2.1 hN,
      (h.pending_range p hp).2.2⟩
  · simp only [BaseSolver.AttachClause_ext]
    exact h.builder_ok
  · simp only [BaseSolver.AttachClause_pending]
    exact h.iter_le
  · intro j v a hj hp
    simp only [BaseSolver.AttachClause_pending] at hp
    simp only [BaseSolver.AttachClause_assignment, BaseSolver.AttachClause_trail,
      DecisionTrail.SetNumOfVariables_trail]
    have h1 := h.applied j v a hj hp
    refine ⟨?_, h1.2⟩
    rw [Assignment.SetNumOfVariables_get]
    · exact h1.1
    · rw [h.consistent.assignment_length]; exact hN
  · simp only [BaseSolver.AttachClause_formula]
    rfl
  · simp only [BaseSolver.AttachClause_pending]

end CdclSolver

end pjos

namespace pjos

namespace CdclSolver

variable {S : Type}

/-- Backjump keeps the invariant: it never pops an assumption, so the assignments that it
undoes are not those of applied assumptions. -/
theorem BackjumpLoop_spec (iter level : Nat) :
    ∀ (n : Nat) (s s1 : CdclSolver S) (b : Bool), Inv s iter →
      BackjumpLoop level n s = .ok (b, s1) →
      Inv s1 iter ∧ s1.formula = s.formula ∧ s1.pending_assignments = s.pending_assignments
  | 0, _, _, _, _, hr => by
    simp [BackjumpLoop] at hr
  | n + 1, s, s1, b, h, hr => by
    unfold BackjumpLoop at hr
    split_ifs at hr with h0
    · have htop : s.trail.Top = (s.trail.trail.getLast?, s.trail) := by
        unfold DecisionTrail.Top
        simp only [h.skipStale]
      simp only [htop] at hr
      split at hr
      · cases hr
        exact ⟨h, rfl, rfl⟩
      · rename_i e he
        split_ifs at hr with h1 h2
        · have hi2 : Inv ({ s with ext := { s.ext with
              saved_phases := s.ext.saved_phases.set e.var e.assignment } } : CdclSolver S) iter :=
            h.of_shared ⟨rfl, rfl, rfl, rfl, rfl, rfl⟩ (fun v hv => hv) h.builder_ok
          have hrange := h.trail_range e (List.mem_of_mem_getLast? he)
          have hi3 := hi2.assign e.var .Unassigned hrange.1 hrange.2
            (fun j v a hj hp hv =>
              DecisionTrail.Guarded.top_var_ne (h.applied j v a hj hp).2 he h1 hv.symm)
          have hi4 := hi3.pop he h1
          have ih := BackjumpLoop_spec iter level n _ s1 b hi4 hr
          exact ⟨ih.1, ih.2.1, ih.2.2⟩
        · have hrange := h.trail_range e (List.mem_of_mem_getLast? he)
          have hi3 := h.assign e.var .Unassigned hrange.1 hrange.2
            (fun j v a hj hp hv =>
              DecisionTrail.Guarded.top_var_ne (h.applied j v a hj hp).2 he h1 hv.symm)
          have hi4 := hi3.pop he h1
          have ih := BackjumpLoop_spec iter level n _ s1 b hi4 hr
          exact ⟨ih.1, ih.2.1, ih.2.2⟩
    · cases hr
      exact ⟨h, rfl, rfl⟩

theorem FinishUnsatisfied_status (s s1 : CdclSolver S) (afc : Bool) (conflict : List Literal)
    (ac : Bool) (st : SolverStatus) (hr : FinishUnsatisfied s afc conflict ac = .ok (st, s1)) :
    st = .Unsatisfied := by
  unfold FinishUnsatisfied at hr
  split_ifs at hr
  · split at hr
    · cases hr
    · cases hr; rfl
  · cases hr; rfl

/-- A pending assignment that succeeds keeps the invariant and moves the iterator on. -/
theorem PerformPendingAssignment_spec (iter : Nat) (s : CdclSolver S) (v : Nat)
    (a : VariableAssignment) (flag : Bool) (h : Inv s iter)
    (hp : s.pending_assignments[iter]? = some (v, a, flag))
    (hr : (BaseSolver.PerformPendingAssignment s v a flag).1 = true) :
    Inv (BaseSolver.PerformPendingAssignment s v a flag).2 (iter + 1) ∧
      (BaseSolver.PerformPendingAssignment s v a flag).2.formula = s.formula ∧
      (BaseSolver.PerformPendingAssignment s v a flag).2.pending_assignments =
        s.pending_assignments := by
  have hlt : iter < s.pending_assignments.length := (List.getElem?_eq_some_iff.mp hp).1
  have hrange := h.pending_range _ (List.getElem?_mem hp)
  have hvlen : v ≤ s.assignment.assignment.length := by
    rw [h.consistent.assignment_length]; exact hrange.2.1
  unfold BaseSolver.PerformPendingAssignment at hr ⊢
  simp only at hr ⊢
  split_ifs at hr ⊢ with h1 h2 h3 h4
  · -- an assumption on an unassigned variable
    have hna := h.not_applied h2
    have hi1 := h.assign v a hrange.1 hrange.2.1 hna
    have hi2 := hi1.push ((BaseSolver.Assign s v a).trail.Assumption v a) _ rfl
      (by simp [DecisionTrail.Assumption]) hrange.1 hrange.2.1 (Or.inl rfl)
    refine ⟨hi2.advance hlt ?_, rfl, rfl⟩
    intro v1 a1 hp1
    have hp2 : s.pending_assignments[iter]? = some (v1, a1, true) := hp1
    rw [hp] at hp2
    cases hp2
    exact ⟨Assignment.get_set_same _ _ _ hrange.1 hvlen,
      DecisionTrail.Guarded.of_assumption_on_top _ _ rfl _⟩
  · -- an assumption that already holds
    have hi2 := h.push (s.trail.Assumption v a) _ rfl
      (by simp [DecisionTrail.Assumption]) hrange.1 hrange.2.1 (Or.inl rfl)
    refine ⟨hi2.advance hlt ?_, rfl, rfl⟩
    intro v1 a1 hp1
    have hp2 : s.pending_assignments[iter]? = some (v1, a1, true) := hp1
    rw [hp] at hp2
    cases hp2
    exact ⟨h3, DecisionTrail.Guarded.of_assumption_on_top _ _ rfl _⟩
  · -- a pure literal
    have hna := h.not_applied h4
    have hi1 := h.assign v a hrange.1 hrange.2.1 hna
    have hi2 := hi1.push ((BaseSolver.Assign s v a).trail.Decision v a) _ rfl
      (by simp [DecisionTrail.Decision]) hrange.1 hrange.2.1 (Or.inr hna)
    refine ⟨hi2.advance hlt ?_, rfl, rfl⟩
    intro v1 a1 hp1
    have hp2 : s.pending_assignments[iter]? = some (v1, a1, true) := hp1
    rw [hp] at hp2
    cases hp2
    exact absurd rfl h1
  · refine ⟨h.advance hlt ?_, rfl, rfl⟩
    intro v1 a1 hp1
    rw [hp] at hp1
    cases hp1
    exact absurd rfl h1

end CdclSolver

end pjos

namespace pjos

namespace BaseSolver

variable {X : Type}

theorem PollInterrupt_spec (s : BaseSolver X) :
    SameShared s.PollInterrupt.2 s ∧ s.PollInterrupt.2.ext = s.ext := by
  unfold PollInterrupt
  split_ifs
  · exact ⟨SameShared.refl _, rfl⟩
  · split
    · exact ⟨SameShared.refl _, rfl⟩
    · exact ⟨⟨rfl, rfl, rfl, rfl, rfl, rfl⟩, rfl⟩

end BaseSolver

namespace CdclSolver

variable {S : Type}

theorem Inv.of_finish {s s1 : CdclSolver S} {afc ac : Bool} {conflict : List Literal}
    (hr : FinishUnsatisfied s afc conflict ac = .ok (.Satisfied, s1)) : False := by
  have := FinishUnsatisfied_status s s1 afc conflict ac _ hr
  cases this

/-- A decision on an unassigned variable keeps the invariant. -/
theorem Inv.decision {s : CdclSolver S} {iter : Nat} (h : Inv s iter) (u : Nat)
    (val : VariableAssignment) (hu1 : 1 ≤ u) (hu2 : u ≤ s.formula.num_of_variables)
    (hun : s.assignment.get u = .Unassigned) :
    Inv (BaseSolver.Assign ({ s with trail := s.trail.Decision u val } : CdclSolver S) u val)
      iter := by
  have hna := h.not_applied hun
  have hi4 := h.push (s.trail.Decision u val) _ rfl (by simp [DecisionTrail.Decision]) hu1 hu2
    (Or.inr hna)
  exact hi4.assign _ _ hu1 hu2 hna

/-- The main loop of `SolveImpl`: when it returns `Satisfied`, the state it leaves satisfies the
invariant, every watcher has the status `Satisfied`, the clauses it started with are still the
first clauses of the formula, and no pending assumption is contradicted. -/
theorem SolveLoop_satisfied (P : Platform S) (hP : P.SetOrderOk) (afc : Bool) :
    ∀ (fuel : Nat) (s s1 : CdclSolver S) (iter nassum : Nat), Inv s iter →
      SolveLoop P afc fuel s iter nassum = .ok (.Satisfied, s1) →
      ∃ iter1, Inv s1 iter1 ∧ s1.pending_assignments = s.pending_assignments ∧
        s.formula.clauses <+: s1.formula.clauses ∧
        (∀ w ∈ s1.watchers, w.status = .Satisfied) ∧
        s1.VerifyPendingAssignments (s1.pending_assignments.drop iter1) = none
  | 0, _, _, _, _, _, hr => by
    simp [SolveLoop] at hr
  | fuel + 1, s, s1, iter, nassum, h, hr => by
    unfold SolveLoop at hr
    simp only at hr
    have hpoll := BaseSolver.PollInterrupt_spec s
    have hi0 : Inv s.PollInterrupt.2 iter :=
      h.of_shared hpoll.1 (by rw [hpoll.2]; exact fun v hv => hv)
        (by rw [hpoll.2]; exact h.builder_ok)
    split at hr
    · cases hr
    · split at hr
      · cases hr
      · rename_i s2 bcp cc hup
        obtain ⟨hi2, hf2, hp2, hsat⟩ := UnitPropagationLoop_spec iter _ _ s2 bcp cc hi0 hup
        have hf2s : s2.formula = s.formula := hf2.trans hpoll.1.formula
        have hp2s : s2.pending_assignments = s.pending_assignments := hp2.trans hpoll.1.pending
        split at hr
        · rename_i hbcp
          split at hr
          · cases hr
            exact ⟨iter, hi2, hp2s, by rw [hf2s], hsat hbcp, by assumption⟩
          · exact (Inv.of_finish hr).elim
        · split at hr
          · split at hr
            · exact (Inv.of_finish hr).elim
            · split at hr
              · cases hr
              · rename_i learned bl s3 han
                obtain ⟨hi3, hs3, hlearned⟩ := AnalyzeConflict_spec P hP iter s2 s3 _ learned bl
                  (fun l hl => (Formula.get_wellFormed hi2.consistent.wf _ l hl).1) hi2 han
                obtain ⟨hi4, hf4, hp4⟩ := AppendClause_spec P iter s3 learned hi3 hlearned
                split at hr
                · exact (Inv.of_finish hr).elim
                · split at hr
                  · cases hr
                  · exact (Inv.of_finish hr).elim
                  · rename_i s5 hbj
                    obtain ⟨hi5, hf5, hp5⟩ := BackjumpLoop_spec iter bl _ _ s5 true hi4 hbj
                    have hi6 : Inv ({ s5 with ext := { s5.ext with
                        evsids := s5.ext.evsids.NextIteration P } } : CdclSolver S) iter :=
                      hi5.of_shared ⟨rfl, rfl, rfl, rfl, rfl, rfl⟩ (fun v hv => hv) hi5.builder_ok
                    obtain ⟨iter1, hj1, hj2, hj3, hj4, hj5⟩ :=
                      SolveLoop_satisfied P hP afc fuel _ s1 iter nassum hi6 hr
                    refine ⟨iter1, hj1, ?_, ?_, hj4, hj5⟩
                    · rw [hj2]
                      show s5.pending_assignments = _
                      rw [hp5, hp4, hs3.pending, hp2s]
                    · refine List.IsPrefix.trans ?_ hj3
                      show s.formula.clauses <+: s5.formula.clauses
                      rw [hf5, hf4, hs3.formula, hf2s]
                      exact List.prefix_append _ _
          · split at hr
            · -- a decision
              rename_i hiter
              split_ifs at hr with hv0 hvu
              all_goals
                have hpop := EVSIDSHeuristics.PopVariable_spec P s2.ext.evsids s2.assignment
                have hvar : 1 ≤ (s2.ext.evsids.PopVariable P s2.assignment).1 ∧
                    (s2.ext.evsids.PopVariable P s2.assignment).1 ≤ s2.formula.num_of_variables := by
                  rcases hpop.1 with h1 | h1
                  · exact absurd h1 hv0
                  · exact hi2.heap_range _ h1
                have hi3 : Inv ({ s2 with ext := { s2.ext with
                    evsids := (s2.ext.evsids.PopVariable P s2.assignment).2 } } : CdclSolver S)
                    iter :=
                  hi2.of_shared ⟨rfl, rfl, rfl, rfl, rfl, rfl⟩ hpop.2 hi2.builder_ok
                have hun : s2.assignment.get (s2.ext.evsids.PopVariable P s2.assignment).1 =
                    .Unassigned := by
                  by_contra hne
                  exact hvu hne
                obtain ⟨iter1, hj1, hj2, hj3, hj4, hj5⟩ :=
                  SolveLoop_satisfied P hP afc fuel _ s1 iter nassum
                    (hi3.decision _ _ hvar.1 hvar.2 hun) hr
                refine ⟨iter1, hj1, ?_, ?_, hj4, hj5⟩
                · rw [hj2]
                  exact hp2s
                · refine List.IsPrefix.trans ?_ hj3
                  show s.formula.clauses <+: s2.formula.clauses
                  rw [hf2s]
            · -- a pending assignment
              rename_i hiter
              have hlt : iter < s2.pending_assignments.length :=
                lt_of_le_of_ne hi2.iter_le hiter
              have hget : s2.pending_assignments[iter]? =
                  some (s2.pending_assignments.getD iter (0, .Unassigned, false)) := by
                rw [List.getD_eq_getElem?_getD, List.getElem?_eq_getElem hlt]; rfl
              split at hr
              · exact (Inv.of_finish hr).elim
              · rename_i hperf
                have hperf2 : (BaseSolver.PerformPendingAssignment s2
                    (s2.pending_assignments.getD iter (0, .Unassigned, false)).1
                    (s2.pending_assignments.getD iter (0, .Unassigned, false)).2.1
                    (s2.pending_assignments.getD iter (0, .Unassigned, false)).2.2).1 = true := by
                  simpa using hperf
                obtain ⟨hi3, hf3, hp3⟩ := PerformPendingAssignment_spec iter s2 _ _ _ hi2 hget hperf2
                obtain ⟨iter1, hj1, hj2, hj3, hj4, hj5⟩ :=
                  SolveLoop_satisfied P hP afc fuel _ s1 (iter + 1) _ hi3 hr
                refine ⟨iter1, hj1, ?_, ?_, hj4, hj5⟩
                · rw [hj2, hp3, hp2s]
                · refine List.IsPrefix.trans ?_ hj3
                  rw [hf3, hf2s]

end CdclSolver

end pjos

namespace pjos

theorem Literal.eval_assignment {l : Literal} (h : l ≠ 0) :
    Literal.Eval l (Literal.Assignment l).2 = true := by
  unfold Literal.Eval Literal.Assignment
  by_cases hl : l < 0
  · simp [hl]
  · have : l > 0 := by
      unfold Literal at *
      omega
    simp [hl, this]

theorem Literal.assignment_ne_unassigned (l : Literal) :
    (Literal.Assignment l).2 ≠ .Unassigned := by
  unfold Literal.Assignment
  split_ifs <;> simp

namespace BaseSolver

variable {X : Type}

/-- A consistent state in which every watcher has the status `Satisfied` satisfies every clause
of the formula. -/
theorem Consistent.satisfied {s : BaseSolver X} (h : s.Consistent)
    (hall : ∀ w ∈ s.watchers, w.status = .Satisfied) :
    ∀ c ∈ s.formula.clauses, c.SatisfiedBy s.assignment = true := by
  intro c hc
  rw [← h.watchers_clauses, List.mem_map] at hc
  obtain ⟨w, hw, hwc⟩ := hc
  have hsat := (h.watchers_ok w hw).2.1 (hall w hw)
  unfold ClauseView.SatisfiedBy
  rw [List.any_eq_true]
  rcases hsat with h1 | h1
  · refine ⟨_, ?_, ((Watcher.IsSatisfied_iff _ _ _).mp h1).2⟩
    rw [← hwc]; exact Watcher.satisfied_mem h1
  · refine ⟨_, ?_, ((Watcher.IsSatisfied_iff _ _ _).mp h1).2⟩
    rw [← hwc]; exact Watcher.satisfied_mem h1

theorem VerifyPendingAssignments_none (s : BaseSolver X) :
    ∀ (l : List (Nat × VariableAssignment × Bool)), s.VerifyPendingAssignments l = none →
      ∀ p ∈ l, p.2.2 = true →
        s.assignment.get p.1 = .Unassigned ∨ s.assignment.get p.1 = p.2.1
  | [], _, p, hp, _ => by simp at hp
  | (var, a, flag) :: rest, h, p, hp, hflag => by
    unfold VerifyPendingAssignments at h
    simp only at h
    split_ifs at h with h1
    rw [List.mem_cons] at hp
    rcases hp with hp | hp
    · subst hp
      by_contra hne
      push_neg at hne
      exact h1 ⟨hflag, hne.1, hne.2⟩
    · exact VerifyPendingAssignments_none s rest h p hp hflag

theorem ScanPureLiteralsFrom_mem (s : BaseSolver X) :
    ∀ (n var : Nat) (p : Nat × VariableAssignment × Bool), p ∈ s.ScanPureLiteralsFrom n var →
      var ≤ p.1 ∧ p.1 < var + n ∧ p.2.1 ≠ .Unassigned ∧ p.2.2 = false
  | 0, _, p, hp => by simp [ScanPureLiteralsFrom] at hp
  | n + 1, var, p, hp => by
    unfold ScanPureLiteralsFrom at hp
    simp only at hp
    have ih := ScanPureLiteralsFrom_mem s n (var + 1) p
    have step : (var + 1 ≤ p.1 ∧ p.1 < var + 1 + n ∧ p.2.1 ≠ .Unassigned ∧ p.2.2 = false) →
        (var ≤ p.1 ∧ p.1 < var + (n + 1) ∧ p.2.1 ≠ .Unassigned ∧ p.2.2 = false) :=
      fun h => ⟨by omega, by omega, h.2.2⟩
    split_ifs at hp
    · exact step (ih hp)
    · split at hp
      all_goals
        first
        | exact step (ih hp)
        | (rw [List.mem_cons] at hp
           rcases hp with hp | hp
           · subst hp
             exact ⟨le_refl _, by omega, by simp, rfl⟩
           · exact step (ih hp))

theorem PopulateFrom_fields :
    ∀ (cs : List Clause) (k : Nat) (s : BaseSolver X),
      (PopulateFrom cs k s).trail = s.trail ∧
      (PopulateFrom cs k s).pending_assignments = s.pending_assignments ∧
      (PopulateFrom cs k s).fresh_solver = s.fresh_solver ∧
      (PopulateFrom cs k s).ext = s.ext ∧
      (PopulateFrom cs k s).formula = s.formula
  | [], _, _ => ⟨rfl, rfl, rfl, rfl, rfl⟩
  | c :: cs, k, s => by
    simp only [PopulateFrom]
    exact PopulateFrom_fields cs (k + 1) _

end BaseSolver

end pjos

namespace pjos

namespace CdclSolver

variable {S : Type}

/-- `SolveImpl` on a state that is ready for a first solve, with the assumptions saved as the
pending assignments: when it returns `Satisfied`, every clause of the formula it started with
has a true literal, and no assumption is contradicted. -/
theorem SolveImpl_satisfied (P : Platform S) (hP : P.SetOrderOk) (fuel : Nat) (afc : Bool)
    (s s1 : CdclSolver S) (assumptions : List Literal)
    (hc : s.Consistent) (ht : s.trail = DecisionTrail.new s.formula.num_of_variables)
    (hh : ∀ v ∈ s.ext.evsids.ordered_variables, 1 ≤ v ∧ v ≤ s.formula.num_of_variables)
    (hb : s.ext.learned_clause = ClauseBuilder.empty)
    (hp : s.pending_assignments = assumptions.map (fun literal =>
      ((Literal.Assignment literal).1, (Literal.Assignment literal).2, true)))
    (hA : ∀ l ∈ assumptions, l ≠ 0 ∧ Literal.Variable l ≤ s.formula.num_of_variables)
    (hr : SolveImpl P fuel afc s = .ok (.Satisfied, s1)) :
    (∀ c ∈ s.formula.clauses, c.SatisfiedBy s1.assignment = true) ∧
    (∀ l ∈ assumptions, s1.assignment.get (Literal.Variable l) = .Unassigned ∨
      Literal.Eval l (s1.assignment.get (Literal.Variable l)) = true) := by
  have hpr : ∀ p ∈ s.pending_assignments,
      1 ≤ p.1 ∧ p.1 ≤ s.formula.num_of_variables ∧ p.2.1 ≠ .Unassigned := by
    intro p hp1
    rw [hp, List.mem_map] at hp1
    obtain ⟨l, hl, hlp⟩ := hp1
    subst hlp
    exact ⟨Literal.variable_pos (hA l hl).1, (hA l hl).2, Literal.assignment_ne_unassigned l⟩
  have hinv : Inv s 0 := by
    refine ⟨hc, ?_, ?_, hh, hpr, ?_, Nat.zero_le _, ?_⟩
    · rw [ht]; intro e he; simp [DecisionTrail.new] at he
    · rw [ht]; simp [DecisionTrail.new]
    · rw [hb]; intro l hl; simp [ClauseBuilder.empty] at hl
    · intro j v a hj; omega
  unfold SolveImpl at hr
  simp only at hr
  have hinv2 : Inv (if s.ext.parameters.pure_literal_elimination = true then
      ({ s with pending_assignments := s.pending_assignments ++ s.ScanPureLiterals } :
        CdclSolver S) else s) 0 := by
    split_ifs
    · refine ⟨hc.of_eq rfl rfl rfl rfl, hinv.trail_range, hinv.trail_index_length, hh, ?_,
        hinv.builder_ok, Nat.zero_le _, ?_⟩
      · intro p hp1
        have hp2 : p ∈ s.pending_assignments ++ s.ScanPureLiterals := hp1
        rw [List.mem_append] at hp2
        rcases hp2 with hp2 | hp2
        · exact hpr p hp2
        · have := BaseSolver.ScanPureLiteralsFrom_mem s _ _ p hp2
          simp only [Formula.NumOfVariables] at this
          refine ⟨this.1, ?_, this.2.2.1⟩
          show p.1 ≤ s.formula.num_of_variables
          omega
      · intro j v a hj; omega
    · exact hinv
  obtain ⟨iter1, hi1, hp1, hf1, hall, hver⟩ :=
    SolveLoop_satisfied P hP afc fuel _ s1 0 0 hinv2 hr
  have hpend : ∀ l ∈ assumptions,
      ((Literal.Assignment l).1, (Literal.Assignment l).2, true) ∈ s1.pending_assignments := by
    intro l hl
    rw [hp1]
    have hm : ((Literal.Assignment l).1, (Literal.Assignment l).2, true) ∈
        s.pending_assignments := by
      rw [hp, List.mem_map]
      exact ⟨l, hl, rfl⟩
    split_ifs
    · exact List.mem_append_left _ hm
    · exact hm
  have hform : s.formula.clauses <+: s1.formula.clauses := by
    have : (if s.ext.parameters.pure_literal_elimination = true then
      ({ s with pending_assignments := s.pending_assignments ++ s.ScanPureLiterals } :
        CdclSolver S) else s).formula = s.formula := by
      split_ifs <;> rfl
    rw [this] at hf1
    exact hf1
  refine ⟨?_, ?_⟩
  · intro c hcm
    exact hi1.consistent.satisfied hall c (hform.subset hcm)
  · intro l hl
    obtain ⟨j, hj⟩ := List.mem_iff_getElem?.mp (hpend l hl)
    by_cases hji : j < iter1
    · right
      have := (hi1.applied j _ _ hji hj).1
      have hv : (Literal.Assignment l).1 = Literal.Variable l := rfl
      rw [hv] at this
      rw [this]
      exact Literal.eval_assignment (hA l hl).1
    · have hjlt : j < s1.pending_assignments.length := (List.getElem?_eq_some_iff.mp hj).1
      have hmem : ((Literal.Assignment l).1, (Literal.Assignment l).2, true) ∈
          s1.pending_assignments.drop iter1 := by
        rw [List.mem_iff_getElem?]
        refine ⟨j - iter1, ?_⟩
        rw [List.getElem?_drop]
        have : iter1 + (j - iter1) = j := by omega
        rw [this]; exact hj
      rcases BaseSolver.VerifyPendingAssignments_none s1 _ hver _ hmem rfl with h1 | h1
      · exact Or.inl h1
      · right
        have hv : (Literal.Assignment l).1 = Literal.Variable l := rfl
        simp only [hv] at h1
        rw [h1]
        exact Literal.eval_assignment (hA l hl).1

/-- A new solver, after `SetParameters` and `PreSolve`, is ready for a first solve. -/
theorem fresh_ready (P : Platform S) (formula : Formula) (hF : formula.WellFormed)
    (scoring : ScoringParameters S) (parameters : Parameters) :
    (BaseSolver.PreSolve (SetParameters (CdclSolver.new P formula scoring) parameters)).Consistent ∧
    (BaseSolver.PreSolve (SetParameters (CdclSolver.new P formula scoring) parameters)).formula =
      formula ∧
    (BaseSolver.PreSolve (SetParameters (CdclSolver.new P formula scoring) parameters)).trail =
      DecisionTrail.new formula.num_of_variables ∧
    (∀ v ∈ (BaseSolver.PreSolve (SetParameters (CdclSolver.new P formula scoring)
      parameters)).ext.evsids.ordered_variables, 1 ≤ v ∧ v ≤ formula.num_of_variables) ∧
    (BaseSolver.PreSolve (SetParameters (CdclSolver.new P formula scoring)
      parameters)).ext.learned_clause = ClauseBuilder.empty ∧
    (BaseSolver.PreSolve (SetParameters (CdclSolver.new P formula scoring)
      parameters)).pending_assignments = [] := by
  have hcons := BaseSolver.new_consistent formula
    ({ parameters := Parameters.default
       analysis_track := List.replicate formula.NumOfVariables .Untracked
       learned_clause := ClauseBuilder.empty
       evsids := EVSIDSHeuristics.new P formula scoring
       saved_phases := Assignment.new formula.NumOfVariables
       final_conflict := [] } : CdclExt S) hF
  have hfields := BaseSolver.PopulateFrom_fields formula.clauses 0
    ({ formula := formula
       variable_index := List.replicate formula.NumOfVariables VariableIndexEntry.empty
       watchers := []
       assignment := Assignment.new formula.NumOfVariables
       trail := DecisionTrail.new formula.NumOfVariables
       pending_assignments := []
       interrupt_requested := false
       current_status := .Unknown
       interrupt_request_fn := none
       interrupt_polls := 0
       fresh_solver := true
       ext := ({ parameters := Parameters.default
                 analysis_track := List.replicate formula.NumOfVariables .Untracked
                 learned_clause := ClauseBuilder.empty
                 evsids := EVSIDSHeuristics.new P formula scoring
                 saved_phases := Assignment.new formula.NumOfVariables
                 final_conflict := [] } : CdclExt S) } : CdclSolver S)
  obtain ⟨hf1, hf2, hf3, hf4, hf5⟩ := hfields
  have hfresh : (SetParameters (CdclSolver.new P formula scoring) parameters).fresh_solver =
      true := hf3
  have hpre : BaseSolver.SameShared
      (BaseSolver.PreSolve (SetParameters (CdclSolver.new P formula scoring) parameters))
      (CdclSolver.new P formula scoring) ∧
      (BaseSolver.PreSolve (SetParameters (CdclSolver.new P formula scoring) parameters)).ext =
        { (CdclSolver.new P formula scoring).ext with parameters := parameters } := by
    unfold BaseSolver.PreSolve
    simp only [hfresh]
    exact ⟨⟨rfl, rfl, rfl, rfl, rfl, rfl⟩, rfl⟩
  obtain ⟨hsh, hext⟩ := hpre
  have hext0 : (CdclSolver.new P formula scoring).ext = _ := hf4
  refine ⟨?_, ?_, ?_, ?_, ?_, ?_⟩
  · exact hcons.of_eq hsh.formula hsh.variable_index hsh.watchers hsh.assignment
  · rw [hsh.formula]; exact hf5
  · rw [hsh.trail]; exact hf1
  · intro v hv
    rw [hext, hext0] at hv
    exact EVSIDSHeuristics.new_mem P formula scoring v hv
  · rw [hext, hext0]
  · rw [hsh.pending]; exact hf2

/-- The first `SolveImpl` of a new solver with the assumptions saved: when it returns
`Satisfied`, every clause of the formula has a true literal and no assumption is
contradicted. -/
theorem fresh_satisfied (P : Platform S) (hP : P.SetOrderOk) (formula : Formula)
    (hF : formula.WellFormed) (scoring : ScoringParameters S) (parameters : Parameters)
    (assumptions : List Literal)
    (hA : ∀ l ∈ assumptions, l ≠ 0 ∧ Literal.Variable l ≤ formula.num_of_variables)
    (fuel : Nat) (afc : Bool) (s1 : CdclSolver S)
    (hr : SolveImpl P fuel afc (BaseSolver.SaveAssumptions
      (BaseSolver.PreSolve (SetParameters (CdclSolver.new P formula scoring) parameters))
      assumptions) = .ok (.Satisfied, s1)) :
    (∀ c ∈ formula.clauses, c.SatisfiedBy s1.assignment = true) ∧
    (∀ l ∈ assumptions, s1.assignment.get (Literal.Variable l) = .Unassigned ∨
      Literal.Eval l (s1.assignment.get (Literal.Variable l)) = true) := by
  obtain ⟨hc, hf, ht, hh, hb, hp⟩ := fresh_ready P formula hF scoring parameters
  have hf2 : (BaseSolver.SaveAssumptions
      (BaseSolver.PreSolve (SetParameters (CdclSolver.new P formula scoring) parameters))
      assumptions).formula = formula := hf
  have hp2 : (BaseSolver.SaveAssumptions
      (BaseSolver.PreSolve (SetParameters (CdclSolver.new P formula scoring) parameters))
      assumptions).pending_assignments = assumptions.map (fun literal =>
        ((Literal.Assignment literal).1, (Literal.Assignment literal).2, true)) := by
    show _ ++ _ = _
    rw [hp]; rfl
  have := SolveImpl_satisfied P hP fuel afc (BaseSolver.SaveAssumptions
      (BaseSolver.PreSolve (SetParameters (CdclSolver.new P formula scoring) parameters))
      assumptions) s1 assumptions (hc.of_eq rfl rfl rfl rfl)
    (by rw [hf2]; exact ht) (by rw [hf2]; exact hh) hb hp2 (by rw [hf2]; exact hA) hr
  rw [hf2] at this
  exact this

/-- The first `SolveImpl` of a new solver without assumptions: when it returns `Satisfied`,
every clause of the formula has a true literal. -/
theorem fresh_satisfied_no_assumptions (P : Platform S) (hP : P.SetOrderOk) (formula : Formula)
    (hF : formula.WellFormed) (scoring : ScoringParameters S) (parameters : Parameters)
    (fuel : Nat) (afc : Bool) (s1 : CdclSolver S)
    (hr : SolveImpl P fuel afc
      (BaseSolver.PreSolve (SetParameters (CdclSolver.new P formula scoring) parameters))
        = .ok (.Satisfied, s1)) :
    ∀ c ∈ formula.clauses, c.SatisfiedBy s1.assignment = true := by
  obtain ⟨hc, hf, ht, hh, hb, hp⟩ := fresh_ready P formula hF scoring parameters
  have := (SolveImpl_satisfied P hP fuel afc
    (BaseSolver.PreSolve (SetParameters (CdclSolver.new P formula scoring) parameters))
    s1 [] hc (by rw [hf]; exact ht) (by rw [hf]; exact hh) hb (by rw [hp]; rfl) (by simp) hr).1
  rw [hf] at this
  exact this

end CdclSolver

end pjos

namespace pjos

namespace Watcher

/-! ## Watcher: the exact status -/

theorem FindUnassignedFrom_none (assn : Assignment) (other : Int) :
    ∀ (ls : List Literal) (i : Nat), FindUnassignedFrom assn other ls i = -1 →
      ∀ k, k < ls.length → ((i + k : Nat) : Int) ≠ other →
        assn.get (Literal.Variable (ls.getD k Literal.Terminator)) ≠ .Unassigned
  | [], _, _, k, hk, _ => by simp at hk
  | l :: ls, i, h, k, hk, hne => by
    simp only [FindUnassignedFrom] at h
    split_ifs at h with hc
    cases k with
    | zero =>
      intro hu
      apply hc
      refine ⟨by simpa using hu, ?_⟩
      simpa using hne
    | succ k =>
      have := FindUnassignedFrom_none assn other ls (i + 1) h k (by simpa using hk)
        (by rw [show i + 1 + k = i + (k + 1) by omega]; exact hne)
      simpa using this

/-- When `FindUnassigned` finds nothing, every literal but the one at `other` is assigned. -/
theorem FindUnassigned_none (w : Watcher) (assn : Assignment) (other : Int)
    (h : w.FindUnassigned assn other = -1) :
    ∀ i : Nat, i < w.clause.clause.length → (i : Int) ≠ other →
      assn.get (Literal.Variable (w.clause.get i)) ≠ .Unassigned := by
  intro i hi hne
  have := FindUnassignedFrom_none assn other w.clause.clause 0 h i hi (by simpa using hne)
  simpa [ClauseView.get] using this

theorem mem_iff_get (c : ClauseView) (l : Literal) :
    l ∈ c.clause ↔ ∃ i : Nat, i < c.clause.length ∧ c.get i = l := by
  constructor
  · intro h
    obtain ⟨i, hi, he⟩ := List.getElem_of_mem h
    refine ⟨i, hi, ?_⟩
    simp only [ClauseView.get]
    rw [List.getD_eq_getElem _ _ hi]
    exact he
  · rintro ⟨i, hi, he⟩
    rw [← he]
    exact ClauseView.get_mem c i hi

theorem IsUnsatisfied_of_satisfied (w : Watcher) (assn : Assignment) (i : Int)
    (h : w.IsSatisfied assn i = true) : w.IsUnsatisfied assn i = false := by
  rw [IsSatisfied_iff] at h
  unfold IsUnsatisfied
  rw [if_neg h.1]
  simp only [h.2, Bool.not_true, Bool.and_false]

theorem IsUnsatisfied_neg_one (w : Watcher) (assn : Assignment) :
    w.IsUnsatisfied assn (-1) = true := by
  unfold IsUnsatisfied
  simp

/-- A watch on a true literal survives the falsifying branch. -/
theorem true_watch_stays (w : Watcher) (assn : Assignment) (i : Int)
    (hi : i = w.watched_literals.1 ∨ i = w.watched_literals.2)
    (hs : w.IsSatisfied assn i = true) : i = w.NewFirst assn ∨ i = w.NewSecond assn := by
  have hu := IsUnsatisfied_of_satisfied w assn i hs
  rcases hi with hi | hi
  · left
    unfold NewFirst
    rw [← hi, hu]
    simp
  · by_cases heq : w.watched_literals.2 = w.NewFirst assn
    · left; rw [hi]; exact heq
    · right
      unfold NewSecond
      rw [if_neg]
      · exact hi
      · rw [not_or]
        refine ⟨heq, ?_⟩
        rw [← hi, hu]
        simp

/-- After the falsifying branch (no early return) the status goes with the watches, and a
missing watch means that no candidate is left. -/
theorem Update_false_free (w : Watcher) (assn : Assignment) (v : Nat) (a : VariableAssignment)
    (h : ¬ w.EarlyReturn v) :
    (w.Update assn v a false).StatusByWatches ∧ (w.Update assn v a false).NoneLeft assn := by
  rw [Update_false_eq w assn v a h]
  refine ⟨⟨?_, ?_⟩, ?_, ?_⟩
  · intro hs
    simp only at hs ⊢
    split_ifs at hs with h1 h2 h3
    simpa using h2
  · intro hs
    simp only at hs ⊢
    split_ifs at hs with h1 h2 h3
    exact ⟨by simpa using h3, by simpa using h2⟩
  · intro hf l hl
    simp only at hf hl
    obtain ⟨i, hi, he⟩ := (mem_iff_get _ _).mp hl
    rw [← he]
    unfold NewFirst at hf
    split_ifs at hf with h1
    · exact FindUnassigned_none w assn (-1) hf i hi (by omega)
    · rw [hf, IsUnsatisfied_neg_one] at h1
      exact absurd rfl h1
  · intro hf i hi hne
    simp only at hf hi hne ⊢
    unfold NewSecond at hf
    split_ifs at hf with h1
    · exact FindUnassigned_none w assn _ hf i hi hne
    · rw [not_or] at h1
      rw [hf, IsUnsatisfied_neg_one] at h1
      exact absurd rfl h1.2

theorem MinTrue_congr (w w1 : Watcher) (assn : Assignment) (r : Nat → Nat) (i : Int)
    (h : w1.clause = w.clause) : w1.MinTrue assn r i ↔ w.MinTrue assn r i := by
  unfold MinTrue
  rw [IsSatisfied_congr w w1 assn i h, h]

theorem MinTrue.not_noTrue {w : Watcher} {assn : Assignment} {r : Nat → Nat} {i : Int}
    (h : w.MinTrue assn r i) (hn : w.clause.NoTrue assn) : False := by
  have h1 := h.1
  have hm := satisfied_mem h1
  rw [IsSatisfied_iff] at h1
  rw [hn _ hm] at h1
  exact absurd h1.2 (by simp)

theorem satisfied_not_noTrue {w : Watcher} {assn : Assignment} {i : Int}
    (h : w.IsSatisfied assn i = true) (hn : w.clause.NoTrue assn) : False := by
  have hm := satisfied_mem h
  rw [IsSatisfied_iff] at h
  rw [hn _ hm] at h
  exact absurd h.2 (by simp)

/-- A watcher with an earliest true watch keeps it through the falsifying branch. -/
theorem HasMinTrue.stays {w : Watcher} {assn : Assignment} {r : Nat → Nat}
    (h : w.HasMinTrue assn r) :
    (w.MinTrue assn r (w.NewFirst assn) ∨ w.MinTrue assn r (w.NewSecond assn)) ∧
    (w.IsSatisfied assn (w.NewFirst assn) = true ∨
      w.IsSatisfied assn (w.NewSecond assn) = true) := by
  rcases h with h | h
  · rcases true_watch_stays w assn _ (Or.inl rfl) h.1 with h1 | h1
    · exact ⟨Or.inl (h1 ▸ h), Or.inl (h1 ▸ h.1)⟩
    · exact ⟨Or.inr (h1 ▸ h), Or.inr (h1 ▸ h.1)⟩
  · rcases true_watch_stays w assn _ (Or.inr rfl) h.1 with h1 | h1
    · exact ⟨Or.inl (h1 ▸ h), Or.inl (h1 ▸ h.1)⟩
    · exact ⟨Or.inr (h1 ▸ h), Or.inr (h1 ▸ h.1)⟩

end Watcher

end pjos

namespace pjos

namespace Watcher

theorem EarlyReturn.watches_ne {w : Watcher} {v : Nat} (h : w.EarlyReturn v) :
    w.watched_literals.1 ≠ -1 ∧ w.watched_literals.2 ≠ -1 :=
  ⟨h.1, h.2.2.1⟩

/-- The falsifying branch makes the status exact when the clause gained no true literal. -/
theorem Update_false_tight (w : Watcher) (assn : Assignment) (r : Nat → Nat) (v : Nat)
    (a : VariableAssignment) (h : w.Semi assn r v) :
    (w.Update assn v a false).Tight assn r := by
  obtain ⟨hr, hst, hns, hs⟩ := h
  by_cases he : w.EarlyReturn v
  · rw [Update_false_early w assn v a he]
    refine ⟨hst, ⟨fun h1 => absurd h1 he.watches_ne.1, fun h1 => absurd h1 he.watches_ne.2⟩,
      hns, ?_⟩
    intro hsat
    rcases hs hsat with h1 | h1
    · exact h1
    · exact absurd h1.2 he.not_watches
  · obtain ⟨hfree1, hfree2⟩ := Update_false_free w assn v a he
    refine ⟨hfree1, hfree2, ?_, ?_⟩
    · intro hne
      rw [Update_clause]
      rw [Update_false_eq w assn v a he] at hne
      simp only at hne
      by_cases hsat : w.status = .Satisfied
      · rcases hs hsat with h1 | h1
        · exfalso
          apply hne
          rw [if_pos ⟨hsat, h1.stays.2⟩]
        · exact h1.1
      · exact hns hsat
    · intro hsat
      have hsat2 := hsat
      rw [Update_false_eq w assn v a he] at hsat2
      simp only at hsat2
      split_ifs at hsat2 with h1
      rcases hs h1.1 with h2 | h2
      · have h3 := h2.stays.1
        unfold HasMinTrue
        rw [Update_false_eq w assn v a he]
        simp only
        rcases h3 with h3 | h3
        · exact Or.inl ((MinTrue_congr w _ assn r _ rfl).mpr h3)
        · exact Or.inr ((MinTrue_congr w _ assn r _ rfl).mpr h3)
      · exfalso
        rcases h1.2 with h3 | h3
        · exact satisfied_not_noTrue h3 h2.1
        · exact satisfied_not_noTrue h3 h2.1

theorem Tight.semi {w : Watcher} {assn : Assignment} {r : Nat → Nat} (h : w.Tight assn r)
    (hr : w.RangeOk) (v : Nat) : w.Semi assn r v :=
  ⟨hr, h.1, h.2.2.1, fun hs => Or.inl (h.2.2.2 hs)⟩

/-- The falsifying branch keeps an exact status exact. -/
theorem Update_false_tight_stable (w : Watcher) (assn : Assignment) (r : Nat → Nat) (v : Nat)
    (a : VariableAssignment) (h : w.RangeOk ∧ w.Tight assn r) :
    (w.Update assn v a false).RangeOk ∧ (w.Update assn v a false).Tight assn r :=
  ⟨Update_false_rangeOk w assn v a h.1, Update_false_tight w assn r v a (h.2.semi h.1 v)⟩

/-- The falsifying branch keeps the state in which the satisfying branch is awaited. -/
theorem Update_false_preSat (w : Watcher) (assn : Assignment) (r : Nat → Nat) (v : Nat)
    (a : VariableAssignment) (h : w.PreSat assn r v) :
    (w.Update assn v a false).PreSat assn r v := by
  by_cases he : w.EarlyReturn v
  · rw [Update_false_early w assn v a he]; exact h
  · obtain ⟨hr, hnl, hs, hns⟩ := h
    refine ⟨Update_false_rangeOk w assn v a hr, (Update_false_free w assn v a he).2, ?_, ?_⟩
    · intro hsat
      have hsat2 := hsat
      rw [Update_false_eq w assn v a he] at hsat2
      simp only at hsat2
      split_ifs at hsat2 with h1
      have h3 := (hs h1.1).stays.1
      unfold HasMinTrue
      rw [Update_false_eq w assn v a he]
      simp only
      rcases h3 with h3 | h3
      · exact Or.inl ((MinTrue_congr w _ assn r _ rfl).mpr h3)
      · exact Or.inr ((MinTrue_congr w _ assn r _ rfl).mpr h3)
    · intro hne
      rw [Update_clause]
      rw [Update_false_eq w assn v a he] at hne
      simp only at hne
      by_cases hsat : w.status = .Satisfied
      · exfalso
        apply hne
        rw [if_pos ⟨hsat, (hs hsat).stays.2⟩]
      · exact hns hsat

/-- The satisfying branch leaves an exact watcher as it is. -/
theorem Update_true_tight_stable (w : Watcher) (assn : Assignment) (r : Nat → Nat) (v : Nat)
    (a : VariableAssignment) (hL : Literal.mk v a ∈ w.clause.clause)
    (hE : Literal.Eval (Literal.mk v a) (assn.get (Literal.Variable (Literal.mk v a))) = true)
    (h : w.RangeOk ∧ w.Tight assn r) :
    (w.Update assn v a true).RangeOk ∧ (w.Update assn v a true).Tight assn r := by
  have hs : w.status = .Satisfied := by
    by_contra hne
    have := h.2.2.2.1 hne _ hL
    rw [hE] at this
    exact absurd this (by simp)
  rw [Update_true_of_satisfied w assn v a hs]
  exact h

end Watcher

end pjos

namespace pjos

namespace Watcher

theorem MinTrue_of_all_on {w : Watcher} {assn : Assignment} {r : Nat → Nat} {x : Nat} {i : Int}
    (hall : ∀ l ∈ w.clause.clause, Literal.Eval l (assn.get (Literal.Variable l)) = true →
      Literal.Variable l = x)
    (hsat : w.IsSatisfied assn i = true) : w.MinTrue assn r i := by
  refine ⟨hsat, fun l hl he => ?_⟩
  have h1 := hall _ (satisfied_mem hsat) ((IsSatisfied_iff _ _ _).mp hsat).2
  rw [h1, hall l hl he]

theorem IsSatisfied_neg_one (w : Watcher) (assn : Assignment) :
    w.IsSatisfied assn (-1) = false := by
  unfold IsSatisfied
  simp

/-- The satisfying branch makes the status exact. -/
theorem Update_true_tight (w : Watcher) (assn : Assignment) (r : Nat → Nat) (v : Nat)
    (a : VariableAssignment) (hL : Literal.mk v a ∈ w.clause.clause)
    (hE : Literal.Eval (Literal.mk v a) (assn.get (Literal.Variable (Literal.mk v a))) = true)
    (h : w.PreSat assn r v) :
    (w.Update assn v a true).RangeOk ∧ (w.Update assn v a true).Tight assn r := by
  obtain ⟨hr, hnl, hs, hns⟩ := h
  have hJ : w.status = .Satisfied → w.SatisfiedOk assn := by
    intro hsat _
    rcases hs hsat with h1 | h1
    · exact Or.inl h1.1
    · exact Or.inr h1.1
  refine ⟨(Update_true_ok w assn v a hr hL hE hJ).1, ?_⟩
  have hidx : w.clause.clause.indexOf (Literal.mk v a) < w.clause.clause.length :=
    List.indexOf_lt_length.mpr hL
  have hget : w.clause.get (w.clause.clause.indexOf (Literal.mk v a)) = Literal.mk v a := by
    simp only [ClauseView.get]
    rw [List.getD_eq_getElem _ _ hidx]
    exact List.getElem_indexOf hidx
  have hsatidx : w.IsSatisfied assn ((w.clause.FindLiteral (Literal.mk v a) : Nat) : Int) = true := by
    rw [IsSatisfied_iff]
    refine ⟨by omega, ?_⟩
    simp only [ClauseView.FindLiteral, Int.toNat_ofNat, hget]
    exact hE
  have hwatch : ∀ i : Int, i ≠ -1 → Literal.mk v a = w.clause.get i.toNat →
      w.IsSatisfied assn i = true := by
    intro i hi he
    rw [IsSatisfied_iff]
    refine ⟨hi, ?_⟩
    rw [← he]; exact hE
  rw [Update_true_eq]
  refine ⟨⟨fun h1 => by simp at h1, fun h1 => by simp at h1⟩, ?_, fun h1 => absurd rfl h1, ?_⟩
  · -- no candidate is left for a missing watch
    by_cases hc : w.status ≠ .Satisfied ∧
        (w.watched_literals.1 = -1 ∨ Literal.mk v a ≠ w.clause.get w.watched_literals.1.toNat) ∧
        (w.watched_literals.2 = -1 ∨ Literal.mk v a ≠ w.clause.get w.watched_literals.2.toNat)
    · simp only [if_pos hc]
      by_cases h1 : w.IsSatisfied assn w.watched_literals.1 = false
      · simp only [if_pos h1]
        refine ⟨fun hf => ?_, fun hf i hi _ => ?_⟩
        · simp only at hf
          omega
        · simp only at hf
          exact hnl.1 hf _ (ClauseView.get_mem _ _ hi)
      · simp only [if_neg h1]
        by_cases h2 : w.IsSatisfied assn w.watched_literals.2 = false
        · simp only [if_pos h2]
          refine ⟨fun hf => ?_, fun hf i hi _ => ?_⟩
          · exact hnl.1 hf
          · simp only at hf
            omega
        · simp only [if_neg h2]
          exact hnl
    · simp only [if_neg hc]
      exact hnl
  · -- an earliest true literal is watched
    intro _
    unfold HasMinTrue
    simp only
    by_cases hsat : w.status = .Satisfied
    · have hc : ¬ (w.status ≠ .Satisfied ∧
          (w.watched_literals.1 = -1 ∨
            Literal.mk v a ≠ w.clause.get w.watched_literals.1.toNat) ∧
          (w.watched_literals.2 = -1 ∨
            Literal.mk v a ≠ w.clause.get w.watched_literals.2.toNat)) := fun hc => hc.1 hsat
      simp only [if_neg hc]
      rcases hs hsat with h1 | h1
      · exact Or.inl ((MinTrue_congr w _ assn r _ rfl).mpr h1)
      · exact Or.inr ((MinTrue_congr w _ assn r _ rfl).mpr h1)
    · have hall := hns hsat
      by_cases hc : w.status ≠ .Satisfied ∧
          (w.watched_literals.1 = -1 ∨
            Literal.mk v a ≠ w.clause.get w.watched_literals.1.toNat) ∧
          (w.watched_literals.2 = -1 ∨
            Literal.mk v a ≠ w.clause.get w.watched_literals.2.toNat)
      · simp only [if_pos hc]
        by_cases h1 : w.IsSatisfied assn w.watched_literals.1 = false
        · simp only [if_pos h1]
          exact Or.inl ((MinTrue_congr w _ assn r _ rfl).mpr (MinTrue_of_all_on hall hsatidx))
        · have h1t : w.IsSatisfied assn w.watched_literals.1 = true := by simpa using h1
          have hm : w.MinTrue assn r w.watched_literals.1 := MinTrue_of_all_on hall h1t
          simp only [if_neg h1]
          by_cases h2 : w.IsSatisfied assn w.watched_literals.2 = false
          · simp only [if_pos h2]
            exact Or.inl ((MinTrue_congr w _ assn r _ rfl).mpr hm)
          · simp only [if_neg h2]
            exact Or.inl ((MinTrue_congr w _ assn r _ rfl).mpr hm)
      · simp only [if_neg hc]
        rw [not_and, not_and_or, not_or, not_or] at hc
        rcases hc hsat with ⟨h1, h2⟩ | ⟨h1, h2⟩
        · exact Or.inl ((MinTrue_congr w _ assn r _ rfl).mpr
            (MinTrue_of_all_on hall (hwatch _ h1 (by simpa using h2))))
        · exact Or.inr ((MinTrue_congr w _ assn r _ rfl).mpr
            (MinTrue_of_all_on hall (hwatch _ h1 (by simpa using h2))))

end Watcher

end pjos

namespace pjos

theorem Literal.eq_mk_of_eval {l : Literal} {a : VariableAssignment}
    (h : Literal.Eval l a = true) : l = Literal.mk (Literal.Variable l) a := by
  unfold Literal.Eval at h
  simp only [Bool.or_eq_true, Bool.and_eq_true, decide_eq_true_eq] at h
  unfold Literal.mk Literal.Variable
  rcases h with ⟨h1, h2⟩ | ⟨h1, h2⟩
  · subst h2
    simp only [reduceCtorEq, if_false]
    unfold Literal at *
    omega
  · subst h2
    simp only [if_true]
    unfold Literal at *
    omega

namespace Watcher

theorem IsSatisfied_congr_assn (w : Watcher) (a b : Assignment)
    (h : ∀ l ∈ w.clause.clause, b.get (Literal.Variable l) = a.get (Literal.Variable l))
    (i : Int) : w.IsSatisfied b i = w.IsSatisfied a i := by
  unfold IsSatisfied
  split_ifs
  · rfl
  · simp only
    by_cases hlt : i.toNat < w.clause.clause.length
    · rw [h _ (ClauseView.get_mem _ _ hlt)]
    · have : w.clause.get i.toNat = 0 := by
        simp only [ClauseView.get]
        rw [List.getD_eq_default _ _ (by omega)]
        rfl
      rw [this, Literal.eval_zero, Literal.eval_zero]

/-- The exact status depends on the assignment of the variables of the clause only. -/
theorem Tight.congr_assn {w : Watcher} {a b : Assignment} {r : Nat → Nat} (h : w.Tight a r)
    (hab : ∀ l ∈ w.clause.clause, b.get (Literal.Variable l) = a.get (Literal.Variable l)) :
    w.Tight b r := by
  obtain ⟨h1, h2, h3, h4⟩ := h
  refine ⟨h1, ⟨?_, ?_⟩, ?_, ?_⟩
  · intro hf l hl
    rw [hab l hl]; exact h2.1 hf l hl
  · intro hf i hi hne
    rw [hab _ (ClauseView.get_mem _ _ hi)]; exact h2.2 hf i hi hne
  · intro hs l hl
    rw [hab l hl]; exact h3 hs l hl
  · intro hs
    have key : ∀ i, w.MinTrue a r i → w.MinTrue b r i := by
      intro i hi
      refine ⟨by rw [IsSatisfied_congr_assn w a b hab]; exact hi.1, fun l hl he => ?_⟩
      rw [hab l hl] at he
      exact hi.2 l hl he
    rcases h4 hs with h5 | h5
    · exact Or.inl (key _ h5)
    · exact Or.inr (key _ h5)

/-- The exact status depends on the times of the assigned variables of the clause only. -/
theorem Tight.congr_rank {w : Watcher} {a : Assignment} {r q : Nat → Nat} (h : w.Tight a r)
    (hrq : ∀ l ∈ w.clause.clause, a.get (Literal.Variable l) ≠ .Unassigned →
      q (Literal.Variable l) = r (Literal.Variable l)) :
    w.Tight a q := by
  obtain ⟨h1, h2, h3, h4⟩ := h
  refine ⟨h1, h2, h3, ?_⟩
  intro hs
  have hassigned : ∀ l : Literal, Literal.Eval l (a.get (Literal.Variable l)) = true →
      a.get (Literal.Variable l) ≠ .Unassigned := by
    intro l he hu
    rw [hu, Literal.eval_unassigned] at he
    exact absurd he (by simp)
  have key : ∀ i, w.MinTrue a r i → w.MinTrue a q i := by
    intro i hi
    refine ⟨hi.1, fun l hl he => ?_⟩
    rw [hrq l hl (hassigned l he),
      hrq _ (satisfied_mem hi.1) (hassigned _ ((IsSatisfied_iff _ _ _).mp hi.1).2)]
    exact hi.2 l hl he
  rcases h4 hs with h5 | h5
  · exact Or.inl (key _ h5)
  · exact Or.inr (key _ h5)

/-- The state of an exact watcher right after the newest assignment was undone. -/
theorem Tight.semi_unassign {w : Watcher} {assn : Assignment} {r : Nat → Nat} {x : Nat}
    (hr : w.RangeOk) (h : w.Tight assn r) (hnz : ∀ l ∈ w.clause.clause, l ≠ 0)
    (hx : 1 ≤ x) (hle : x ≤ assn.assignment.length)
    (hnew : ∀ l ∈ w.clause.clause, Literal.Variable l ≠ x →
      assn.get (Literal.Variable l) ≠ .Unassigned → r (Literal.Variable l) < r x) :
    w.Semi (assn.set x .Unassigned) r x := by
  obtain ⟨h1, h2, h3, h4⟩ := h
  have hget := Assignment.get_set_same assn x .Unassigned hx hle
  have hother : ∀ l ∈ w.clause.clause, Literal.Variable l ≠ x →
      (assn.set x .Unassigned).get (Literal.Variable l) = assn.get (Literal.Variable l) :=
    fun l hl hne => Assignment.get_set_other assn _ x _ (Literal.variable_pos (hnz l hl)) hx hne
  have htrue : ∀ l ∈ w.clause.clause,
      Literal.Eval l ((assn.set x .Unassigned).get (Literal.Variable l)) = true →
      Literal.Variable l ≠ x ∧ Literal.Eval l (assn.get (Literal.Variable l)) = true := by
    intro l hl he
    by_cases hv : Literal.Variable l = x
    · rw [hv, hget, Literal.eval_unassigned] at he
      exact absurd he (by simp)
    · rw [hother l hl hv] at he
      exact ⟨hv, he⟩
  have hassigned : ∀ l : Literal, Literal.Eval l (assn.get (Literal.Variable l)) = true →
      assn.get (Literal.Variable l) ≠ .Unassigned := by
    intro l he hu
    rw [hu, Literal.eval_unassigned] at he
    exact absurd he (by simp)
  refine ⟨hr, h1, ?_, ?_⟩
  · intro hs l hl
    by_contra hne
    have := (htrue l hl (by simpa using hne)).2
    rw [h3 hs l hl] at this
    exact absurd this (by simp)
  · intro hs
    have key : ∀ i, (i = w.watched_literals.1 ∨ i = w.watched_literals.2) → w.MinTrue assn r i →
        w.MinTrue (assn.set x .Unassigned) r i ∨
          (w.clause.NoTrue (assn.set x .Unassigned) ∧ w.WatchesVar x) := by
      intro i hi hm
      have hmem := satisfied_mem hm.1
      have hi1 := (IsSatisfied_iff _ _ _).mp hm.1
      by_cases hv : Literal.Variable (w.clause.get i.toNat) = x
      · right
        refine ⟨?_, ?_⟩
        · intro l hl
          by_contra hne
          obtain ⟨hlx, hle2⟩ := htrue l hl (by simpa using hne)
          have h5 := hm.2 l hl hle2
          have h6 := hnew l hl hlx (hassigned l hle2)
          rw [hv] at h5
          omega
        · rcases hi with hi | hi
          · exact Or.inl ⟨hi ▸ hi1.1, hi ▸ hv⟩
          · exact Or.inr ⟨hi ▸ hi1.1, hi ▸ hv⟩
      · left
        refine ⟨?_, fun l hl he => hm.2 l hl (htrue l hl he).2⟩
        rw [IsSatisfied_iff]
        refine ⟨hi1.1, ?_⟩
        rw [hother _ hmem hv]
        exact hi1.2
    rcases h4 hs with h5 | h5
    · rcases key _ (Or.inl rfl) h5 with h6 | h6
      · exact Or.inl (Or.inl h6)
      · exact Or.inr h6
    · rcases key _ (Or.inr rfl) h5 with h6 | h6
      · exact Or.inl (Or.inr h6)
      · exact Or.inr h6

/-- The state of an exact watcher right after a variable that was unassigned received a value,
which makes it the newest assignment. -/
theorem Tight.preSat_assign {w : Watcher} {assn : Assignment} {r : Nat → Nat} {x : Nat}
    (a : VariableAssignment)
    (hr : w.RangeOk) (h : w.Tight assn r) (hnz : ∀ l ∈ w.clause.clause, l ≠ 0)
    (hx : 1 ≤ x) (hle : x ≤ assn.assignment.length) (hu : assn.get x = .Unassigned)
    (hnew : ∀ y, assn.get y ≠ .Unassigned → r y ≤ r x) :
    w.PreSat (assn.set x a) r x ∧
      (Literal.mk x a ∉ w.clause.clause → a ≠ .Unassigned → w.Semi (assn.set x a) r x) := by
  obtain ⟨h1, h2, h3, h4⟩ := h
  have hget := Assignment.get_set_same assn x a hx hle
  have hother : ∀ l ∈ w.clause.clause, Literal.Variable l ≠ x →
      (assn.set x a).get (Literal.Variable l) = assn.get (Literal.Variable l) :=
    fun l hl hne => Assignment.get_set_other assn _ x _ (Literal.variable_pos (hnz l hl)) hx hne
  have hassigned : ∀ l : Literal, Literal.Eval l (assn.get (Literal.Variable l)) = true →
      assn.get (Literal.Variable l) ≠ .Unassigned := by
    intro l he hu
    rw [hu, Literal.eval_unassigned] at he
    exact absurd he (by simp)
  have hkeep : ∀ l ∈ w.clause.clause, assn.get (Literal.Variable l) ≠ .Unassigned →
      (assn.set x a).get (Literal.Variable l) = assn.get (Literal.Variable l) := by
    intro l hl hne
    apply hother l hl
    intro hv
    rw [hv] at hne
    exact hne hu
  have htrue : ∀ l ∈ w.clause.clause,
      Literal.Eval l ((assn.set x a).get (Literal.Variable l)) = true →
      Literal.Variable l = x ∨ Literal.Eval l (assn.get (Literal.Variable l)) = true := by
    intro l hl he
    by_cases hv : Literal.Variable l = x
    · exact Or.inl hv
    · rw [hother l hl hv] at he
      exact Or.inr he
  have hmin : w.status = .Satisfied → w.HasMinTrue (assn.set x a) r := by
    intro hs
    have key : ∀ i, w.MinTrue assn r i → w.MinTrue (assn.set x a) r i := by
      intro i hm
      have hmem := satisfied_mem hm.1
      have hi1 := (IsSatisfied_iff _ _ _).mp hm.1
      refine ⟨?_, fun l hl he => ?_⟩
      · rw [IsSatisfied_iff]
        refine ⟨hi1.1, ?_⟩
        rw [hkeep _ hmem (hassigned _ hi1.2)]
        exact hi1.2
      · rcases htrue l hl he with h5 | h5
        · rw [h5]
          exact hnew _ (hassigned _ hi1.2)
        · exact hm.2 l hl h5
    rcases h4 hs with h5 | h5
    · exact Or.inl (key _ h5)
    · exact Or.inr (key _ h5)
  refine ⟨⟨hr, ⟨?_, ?_⟩, hmin, ?_⟩, ?_⟩
  · intro hf l hl
    have := h2.1 hf l hl
    rw [hkeep l hl this]; exact this
  · intro hf i hi hne
    have := h2.2 hf i hi hne
    rw [hkeep _ (ClauseView.get_mem _ _ hi) this]; exact this
  · intro hs l hl he
    rcases htrue l hl he with h5 | h5
    · exact h5
    · rw [h3 hs l hl] at h5
      exact absurd h5 (by simp)
  · intro hL ha
    refine ⟨hr, h1, ?_, fun hs => Or.inl (hmin hs)⟩
    intro hs l hl
    by_contra hne
    have he : Literal.Eval l ((assn.set x a).get (Literal.Variable l)) = true := by
      simpa using hne
    rcases htrue l hl he with h5 | h5
    · rw [h5, hget] at he
      have := Literal.eq_mk_of_eval he
      rw [h5] at this
      rw [this] at hl
      exact hL hl
    · rw [h3 hs l hl] at h5
      exact absurd h5 (by simp)

end Watcher

end pjos

namespace pjos

namespace Watcher

theorem get_eq_of_no_literal {w : Watcher} (assn : Assignment) {x : Nat} (a : VariableAssignment)
    (hx : 1 ≤ x) (hnz : ∀ l ∈ w.clause.clause, l ≠ 0)
    (hp : (x : Int) ∉ w.clause.clause) (hn : -(x : Int) ∉ w.clause.clause) :
    ∀ l ∈ w.clause.clause,
      (assn.set x a).get (Literal.Variable l) = assn.get (Literal.Variable l) := by
  intro l hl
  apply Assignment.get_set_other assn _ x a (Literal.variable_pos (hnz l hl)) hx
  intro hv
  rcases Literal.eq_of_variable hv with h1 | h1
  · rw [h1] at hl; exact hp hl
  · rw [h1] at hl; exact hn hl

/-- Undoing the newest assignment: the status is exact after the updates. -/
theorem tight_after_updates_unassigned (w : Watcher) (assn : Assignment) (r : Nat → Nat)
    (x kp kn : Nat) (hx : 1 ≤ x) (hle : x ≤ assn.assignment.length)
    (hr : w.RangeOk) (ht : w.Tight assn r) (hnz : ∀ l ∈ w.clause.clause, l ≠ 0)
    (hkp : 0 < kp ↔ (x : Int) ∈ w.clause.clause)
    (hkn : 0 < kn ↔ -(x : Int) ∈ w.clause.clause)
    (hnew : ∀ l ∈ w.clause.clause, Literal.Variable l ≠ x →
      assn.get (Literal.Variable l) ≠ .Unassigned → r (Literal.Variable l) < r x) :
    ((fun w : Watcher => w.Update (assn.set x .Unassigned) x .Unassigned false)^[kn]
      ((fun w : Watcher => w.Update (assn.set x .Unassigned) x .Unassigned false)^[kp] w)).Tight
      (assn.set x .Unassigned) r := by
  have hsemi := ht.semi_unassign hr hnz hx hle hnew
  have hPQ : ∀ y : Watcher, y.Semi (assn.set x .Unassigned) r x →
      ((y.Update (assn.set x .Unassigned) x .Unassigned false).RangeOk ∧
        (y.Update (assn.set x .Unassigned) x .Unassigned false).Tight
          (assn.set x .Unassigned) r) :=
    fun y hy => ⟨Update_false_rangeOk y _ x _ hy.1, Update_false_tight y _ r x _ hy⟩
  have hQ : ∀ y : Watcher, (y.RangeOk ∧ y.Tight (assn.set x .Unassigned) r) →
      ((y.Update (assn.set x .Unassigned) x .Unassigned false).RangeOk ∧
        (y.Update (assn.set x .Unassigned) x .Unassigned false).Tight
          (assn.set x .Unassigned) r) :=
    fun y hy => Update_false_tight_stable y _ r x _ hy
  by_cases h1 : 0 < kp
  · have := iterate_establish _ _ _ hPQ hQ kp h1 w hsemi
    exact (iterate_invariant _ _ hQ kn _ this).2
  · have hkp0 : kp = 0 := by omega
    subst hkp0
    simp only [Function.iterate_zero, id_eq]
    by_cases h2 : 0 < kn
    · exact (iterate_establish _ _ _ hPQ hQ kn h2 w hsemi).2
    · have hkn0 : kn = 0 := by omega
      subst hkn0
      simp only [Function.iterate_zero, id_eq]
      exact ht.congr_assn (get_eq_of_no_literal assn _ hx hnz (fun h => h1 (hkp.mpr h))
        (fun h => h2 (hkn.mpr h)))

/-- Assigning `True` to an unassigned variable: the status is exact after the updates. -/
theorem tight_after_updates_true (w : Watcher) (assn : Assignment) (r : Nat → Nat)
    (x kp kn : Nat) (hx : 1 ≤ x) (hle : x ≤ assn.assignment.length)
    (hr : w.RangeOk) (ht : w.Tight assn r) (hnz : ∀ l ∈ w.clause.clause, l ≠ 0)
    (hkp : 0 < kp ↔ (x : Int) ∈ w.clause.clause)
    (hkn : 0 < kn ↔ -(x : Int) ∈ w.clause.clause)
    (hu : assn.get x = .Unassigned)
    (hnew : ∀ y, assn.get y ≠ .Unassigned → r y ≤ r x) :
    ((fun w : Watcher => w.Update (assn.set x .True) x .True false)^[kn]
      ((fun w : Watcher => w.Update (assn.set x .True) x .True true)^[kp] w)).Tight
      (assn.set x .True) r := by
  obtain ⟨hpre, hsemi⟩ := ht.preSat_assign .True hr hnz hx hle hu hnew
  have hget := Assignment.get_set_same assn x .True hx hle
  have hE : Literal.Eval (Literal.mk x .True)
      ((assn.set x .True).get (Literal.Variable (Literal.mk x .True))) = true := by
    rw [Literal.variable_mk, hget, Literal.mk_true]
    exact Literal.eval_pos_true hx
  have hQf : ∀ y : Watcher, (y.RangeOk ∧ y.Tight (assn.set x .True) r) →
      ((y.Update (assn.set x .True) x .True false).RangeOk ∧
        (y.Update (assn.set x .True) x .True false).Tight (assn.set x .True) r) :=
    fun y hy => Update_false_tight_stable y _ r x _ hy
  by_cases h1 : 0 < kp
  · have hL : Literal.mk x .True ∈ w.clause.clause := by
      rw [Literal.mk_true]; exact hkp.mp h1
    have hPQ : ∀ y : Watcher, (y.clause = w.clause ∧ y.PreSat (assn.set x .True) r x) →
        ((y.Update (assn.set x .True) x .True true).clause = w.clause ∧
          (y.Update (assn.set x .True) x .True true).RangeOk ∧
          (y.Update (assn.set x .True) x .True true).Tight (assn.set x .True) r) :=
      fun y hy => ⟨by rw [Update_clause]; exact hy.1,
        Update_true_tight y _ r x _ (by rw [hy.1]; exact hL) hE hy.2⟩
    have hQ : ∀ y : Watcher,
        (y.clause = w.clause ∧ y.RangeOk ∧ y.Tight (assn.set x .True) r) →
        ((y.Update (assn.set x .True) x .True true).clause = w.clause ∧
          (y.Update (assn.set x .True) x .True true).RangeOk ∧
          (y.Update (assn.set x .True) x .True true).Tight (assn.set x .True) r) :=
      fun y hy => ⟨by rw [Update_clause]; exact hy.1,
        Update_true_tight_stable y _ r x _ (by rw [hy.1]; exact hL) hE hy.2⟩
    have := iterate_establish _ _ _ hPQ hQ kp h1 w ⟨rfl, hpre⟩
    exact (iterate_invariant _ _ hQf kn _ this.2).2
  · have hkp0 : kp = 0 := by omega
    subst hkp0
    simp only [Function.iterate_zero, id_eq]
    have hL : Literal.mk x .True ∉ w.clause.clause := by
      rw [Literal.mk_true]; exact fun h => h1 (hkp.mpr h)
    have hs := hsemi hL (by simp)
    have hPQ : ∀ y : Watcher, y.Semi (assn.set x .True) r x →
        ((y.Update (assn.set x .True) x .True false).RangeOk ∧
          (y.Update (assn.set x .True) x .True false).Tight (assn.set x .True) r) :=
      fun y hy => ⟨Update_false_rangeOk y _ x _ hy.1, Update_false_tight y _ r x _ hy⟩
    by_cases h2 : 0 < kn
    · exact (iterate_establish _ _ _ hPQ hQf kn h2 w hs).2
    · have hkn0 : kn = 0 := by omega
      subst hkn0
      simp only [Function.iterate_zero, id_eq]
      exact ht.congr_assn (get_eq_of_no_literal assn _ hx hnz (fun h => h1 (hkp.mpr h))
        (fun h => h2 (hkn.mpr h)))

/-- Assigning `False` to an unassigned variable: the status is exact after the updates. -/
theorem tight_after_updates_false (w : Watcher) (assn : Assignment) (r : Nat → Nat)
    (x kp kn : Nat) (hx : 1 ≤ x) (hle : x ≤ assn.assignment.length)
    (hr : w.RangeOk) (ht : w.Tight assn r) (hnz : ∀ l ∈ w.clause.clause, l ≠ 0)
    (hkp : 0 < kp ↔ (x : Int) ∈ w.clause.clause)
    (hkn : 0 < kn ↔ -(x : Int) ∈ w.clause.clause)
    (hu : assn.get x = .Unassigned)
    (hnew : ∀ y, assn.get y ≠ .Unassigned → r y ≤ r x) :
    ((fun w : Watcher => w.Update (assn.set x .False) x .False true)^[kn]
      ((fun w : Watcher => w.Update (assn.set x .False) x .False false)^[kp] w)).Tight
      (assn.set x .False) r := by
  obtain ⟨hpre, hsemi⟩ := ht.preSat_assign .False hr hnz hx hle hu hnew
  have hget := Assignment.get_set_same assn x .False hx hle
  have hE : Literal.Eval (Literal.mk x .False)
      ((assn.set x .False).get (Literal.Variable (Literal.mk x .False))) = true := by
    rw [Literal.variable_mk, hget, Literal.mk_false]
    exact Literal.eval_neg_false hx
  by_cases h2 : 0 < kn
  · have hL : Literal.mk x .False ∈ w.clause.clause := by
      rw [Literal.mk_false]; exact hkn.mp h2
    have hP : ∀ y : Watcher, (y.clause = w.clause ∧ y.PreSat (assn.set x .False) r x) →
        ((y.Update (assn.set x .False) x .False false).clause = w.clause ∧
          (y.Update (assn.set x .False) x .False false).PreSat (assn.set x .False) r x) :=
      fun y hy => ⟨by rw [Update_clause]; exact hy.1, Update_false_preSat y _ r x _ hy.2⟩
    have hPQ : ∀ y : Watcher, (y.clause = w.clause ∧ y.PreSat (assn.set x .False) r x) →
        ((y.Update (assn.set x .False) x .False true).clause = w.clause ∧
          (y.Update (assn.set x .False) x .False true).RangeOk ∧
          (y.Update (assn.set x .False) x .False true).Tight (assn.set x .False) r) :=
      fun y hy => ⟨by rw [Update_clause]; exact hy.1,
        Update_true_tight y _ r x _ (by rw [hy.1]; exact hL) hE hy.2⟩
    have hQ : ∀ y : Watcher,
        (y.clause = w.clause ∧ y.RangeOk ∧ y.Tight (assn.set x .False) r) →
        ((y.Update (assn.set x .False) x .False true).clause = w.clause ∧
          (y.Update (assn.set x .False) x .False true).RangeOk ∧
          (y.Update (assn.set x .False) x .False true).Tight (assn.set x .False) r) :=
      fun y hy => ⟨by rw [Update_clause]; exact hy.1,
        Update_true_tight_stable y _ r x _ (by rw [hy.1]; exact hL) hE hy.2⟩
    have hmid := iterate_invariant _ _ hP kp w ⟨rfl, hpre⟩
    exact (iterate_establish _ _ _ hPQ hQ kn h2 _ hmid).2.2
  · have hkn0 : kn = 0 := by omega
    subst hkn0
    simp only [Function.iterate_zero, id_eq]
    have hL : Literal.mk x .False ∉ w.clause.clause := by
      rw [Literal.mk_false]; exact fun h => h2 (hkn.mpr h)
    have hs := hsemi hL (by simp)
    have hPQ : ∀ y : Watcher, y.Semi (assn.set x .False) r x →
        ((y.Update (assn.set x .False) x .False false).RangeOk ∧
          (y.Update (assn.set x .False) x .False false).Tight (assn.set x .False) r) :=
      fun y hy => ⟨Update_false_rangeOk y _ x _ hy.1, Update_false_tight y _ r x _ hy⟩
    have hQf : ∀ y : Watcher, (y.RangeOk ∧ y.Tight (assn.set x .False) r) →
        ((y.Update (assn.set x .False) x .False false).RangeOk ∧
          (y.Update (assn.set x .False) x .False false).Tight (assn.set x .False) r) :=
      fun y hy => Update_false_tight_stable y _ r x _ hy
    by_cases h1 : 0 < kp
    · exact (iterate_establish _ _ _ hPQ hQf kp h1 w hs).2
    · have hkp0 : kp = 0 := by omega
      subst hkp0
      simp only [Function.iterate_zero, id_eq]
      exact ht.congr_assn (get_eq_of_no_literal assn _ hx hnz (fun h => h1 (hkp.mpr h))
        (fun h => h2 (hkn.mpr h)))

/-- The status of a watcher is exact after all the updates that `UpdateWatchers` applies to it
for an assignment to `x` that is the newest one: a value for an unassigned variable, or the
undoing of the last assignment. -/
theorem tight_after_updates (w : Watcher) (assn : Assignment) (r : Nat → Nat) (x : Nat)
    (a : VariableAssignment) (kp kn : Nat) (hx : 1 ≤ x) (hle : x ≤ assn.assignment.length)
    (hr : w.RangeOk) (ht : w.Tight assn r) (hnz : ∀ l ∈ w.clause.clause, l ≠ 0)
    (hkp : 0 < kp ↔ (x : Int) ∈ w.clause.clause)
    (hkn : 0 < kn ↔ -(x : Int) ∈ w.clause.clause)
    (htr : (a = .Unassigned ∧ ∀ l ∈ w.clause.clause, Literal.Variable l ≠ x →
        assn.get (Literal.Variable l) ≠ .Unassigned → r (Literal.Variable l) < r x) ∨
      (a ≠ .Unassigned ∧ assn.get x = .Unassigned ∧
        ∀ y, assn.get y ≠ .Unassigned → r y ≤ r x)) :
    ((fun w : Watcher => w.Update (assn.set x a) x a (decide (a = .False)))^[kn]
      ((fun w : Watcher => w.Update (assn.set x a) x a (decide (a = .True)))^[kp] w)).Tight
      (assn.set x a) r := by
  cases a
  · rcases htr with ⟨_, h1⟩ | ⟨h1, _⟩
    · exact tight_after_updates_unassigned w assn r x kp kn hx hle hr ht hnz hkp hkn h1
    · exact absurd rfl h1
  · rcases htr with ⟨h1, _⟩ | ⟨_, h1, h2⟩
    · cases h1
    · exact tight_after_updates_false w assn r x kp kn hx hle hr ht hnz hkp hkn h1 h2
  · rcases htr with ⟨h1, _⟩ | ⟨_, h1, h2⟩
    · cases h1
    · exact tight_after_updates_true w assn r x kp kn hx hle hr ht hnz hkp hkn h1 h2

end Watcher

end pjos

namespace pjos

namespace DecisionTrail

theorem Rank_lt {trail : List Entry} {v : Nat} (h : ∃ e ∈ trail, e.var = v) :
    Rank trail v < trail.length := by
  unfold Rank
  have : v ∈ trail.map (fun e => e.var) := by
    obtain ⟨e, he, hv⟩ := h
    exact List.mem_map.mpr ⟨e, he, hv⟩
  simpa using List.indexOf_lt_length.mpr this

theorem Rank_of_not_mem {trail : List Entry} {v : Nat} (h : ¬ ∃ e ∈ trail, e.var = v) :
    Rank trail v = trail.length := by
  unfold Rank
  have : v ∉ trail.map (fun e => e.var) := by
    intro hm
    obtain ⟨e, he, hv⟩ := List.mem_map.mp hm
    exact h ⟨e, he, hv⟩
  simpa using List.indexOf_of_not_mem this

theorem Rank_append_of_mem {trail : List Entry} {v : Nat} (x : Entry)
    (h : ∃ e ∈ trail, e.var = v) : Rank (trail ++ [x]) v = Rank trail v := by
  unfold Rank
  have : v ∈ trail.map (fun e => e.var) := by
    obtain ⟨e, he, hv⟩ := h
    exact List.mem_map.mpr ⟨e, he, hv⟩
  rw [List.map_append, List.indexOf_append_of_mem this]

theorem Rank_append_self {trail : List Entry} (x : Entry)
    (h : ¬ ∃ e ∈ trail, e.var = x.var) : Rank (trail ++ [x]) x.var = trail.length := by
  unfold Rank
  have : x.var ∉ trail.map (fun e => e.var) := by
    intro hm
    obtain ⟨e, he, hv⟩ := List.mem_map.mp hm
    exact h ⟨e, he, hv⟩
  rw [List.map_append, List.indexOf_append_of_not_mem this]
  simp

theorem Rank_getElem? {trail : List Entry} (hn : (trail.map (fun e => e.var)).Nodup) {i : Nat}
    {e : Entry} (h : trail[i]? = some e) : Rank trail e.var = i := by
  unfold Rank
  have hi : i < trail.length := (List.getElem?_eq_some_iff.mp h).1
  have he : trail[i] = e := (List.getElem?_eq_some_iff.mp h).2
  have hi2 : i < (trail.map (fun e => e.var)).length := by simpa using hi
  have : (trail.map (fun e => e.var))[i] = e.var := by simp [he]
  rw [← this]
  exact List.indexOf_getElem hn i hi2

theorem Rank_dropLast {trail : List Entry} {v : Nat}
    {x : Entry} (hl : trail.getLast? = some x) (hv : v ≠ x.var) (h : ∃ e ∈ trail, e.var = v) :
    (∃ e ∈ trail.dropLast, e.var = v) ∧ Rank trail.dropLast v = Rank trail v := by
  have hsplit : trail = trail.dropLast ++ [x] := by
    have hne : trail ≠ [] := by
      intro h0; rw [h0] at hl; simp at hl
    have := List.dropLast_append_getLast hne
    rw [List.getLast?_eq_getLast _ hne] at hl
    cases hl
    exact this.symm
  obtain ⟨e, he, hev⟩ := h
  have hmem : ∃ e ∈ trail.dropLast, e.var = v := by
    rw [hsplit, List.mem_append, List.mem_singleton] at he
    rcases he with he | he
    · exact ⟨e, he, hev⟩
    · rw [he] at hev
      exact absurd hev.symm hv
  refine ⟨hmem, ?_⟩
  conv_rhs => rw [hsplit]
  exact (Rank_append_of_mem x hmem).symm

theorem split_last {trail : List Entry} {x : Entry} (hl : trail.getLast? = some x) :
    trail = trail.dropLast ++ [x] := by
  have hne : trail ≠ [] := by
    intro h0; rw [h0] at hl; simp at hl
  have := List.dropLast_append_getLast hne
  rw [List.getLast?_eq_getLast _ hne] at hl
  cases hl
  exact this.symm

end DecisionTrail

theorem Literal.mk_assignment (l : Literal) :
    Literal.mk (Literal.Assignment l).1 (Literal.Assignment l).2 = l := by
  unfold Literal.mk Literal.Assignment Literal.Variable
  by_cases hl : l < 0
  · simp only [hl, if_true]
    unfold Literal at *
    omega
  · simp only [hl, if_false, reduceCtorEq]
    unfold Literal at *
    omega

/-- A literal that is false under the assignment is true under `M` exactly when `M` disagrees
with the assignment on its variable. -/
theorem Literal.IsFalse.value_iff {l : Literal} {assn : pjos.Assignment} (h : l.IsFalse assn)
    (hl0 : l ≠ 0) (M : Nat → Bool) :
    Literal.value M l = true ↔ assn.Disagree M (Literal.Variable l) := by
  obtain ⟨h1, h2⟩ := h
  unfold Literal.value pjos.Assignment.Disagree
  unfold Literal.Eval at h2
  cases hv : assn.get (Literal.Variable l) with
  | Unassigned => exact absurd hv h1
  | False =>
    rw [hv] at h2
    simp only [reduceCtorEq, decide_False, Bool.and_false, decide_True, Bool.and_true,
      Bool.false_or, decide_eq_false_iff_not] at h2
    simp only [h2, if_false, reduceCtorEq, decide_False]
    simp
  | True =>
    rw [hv] at h2
    simp only [reduceCtorEq, decide_False, Bool.and_false, decide_True, Bool.and_true,
      Bool.or_false, decide_eq_false_iff_not] at h2
    have hl : l < 0 := by
      unfold Literal at *
      omega
    simp only [hl, if_true, decide_True]
    simp

end pjos

namespace pjos

namespace BaseSolver

variable {X : Type}

/-- After `Assign` for the newest assignment the status of every watcher is exact. -/
theorem Assign_tight [SolverExt X] (s : BaseSolver X) (r : Nat → Nat) (x : Nat)
    (a : VariableAssignment) (h : s.Consistent) (hx : 1 ≤ x)
    (hle : x ≤ s.formula.num_of_variables)
    (ht : ∀ w ∈ s.watchers, w.Tight s.assignment r)
    (htr : (a = .Unassigned ∧ ∀ y, 1 ≤ y → y ≤ s.formula.num_of_variables → y ≠ x →
        s.assignment.get y ≠ .Unassigned → r y < r x) ∨
      (a ≠ .Unassigned ∧ s.assignment.get x = .Unassigned ∧
        ∀ y, s.assignment.get y ≠ .Unassigned → r y ≤ r x)) :
    ∀ w ∈ (s.Assign x a).watchers, w.Tight (s.assignment.set x a) r := by
  intro w2 hw2
  obtain ⟨i, hi⟩ := List.mem_iff_getElem?.mp hw2
  rw [Assign_watchers_getElem?] at hi
  cases hw : s.watchers[i]? with
  | none => rw [hw] at hi; simp at hi
  | some w =>
    rw [hw] at hi
    simp only [Option.map_some', Option.some.injEq] at hi
    rw [← hi]
    have hc := h.watcher_clause hw
    have hmem := List.getElem?_mem hw
    have hwf := h.wf _ (List.getElem?_mem hc.1)
    have htr2 : (a = .Unassigned ∧ ∀ l ∈ w.clause.clause, Literal.Variable l ≠ x →
        s.assignment.get (Literal.Variable l) ≠ .Unassigned → r (Literal.Variable l) < r x) ∨
        (a ≠ .Unassigned ∧ s.assignment.get x = .Unassigned ∧
          ∀ y, s.assignment.get y ≠ .Unassigned → r y ≤ r x) := by
      rcases htr with h1 | h1
      · exact Or.inl ⟨h1.1, fun l hl hne hass =>
          h1.2 _ (Literal.variable_pos (hwf l hl).1) (hwf l hl).2 hne hass⟩
      · exact Or.inr h1
    apply Watcher.tight_after_updates w s.assignment r x a _ _ hx
      (by rw [h.assignment_length]; exact hle)
      (h.watchers_ok w hmem).1 (ht w hmem) (h.watcher_nonzero hw) _ _ htr2
    · rw [List.count_pos_iff, h.index_pos x i hx hle, hc.2.2]
      exact ⟨fun h1 => h1.2, fun h1 => ⟨hc.2.1, h1⟩⟩
    · rw [List.count_pos_iff, h.index_neg x i hx hle, hc.2.2]
      exact ⟨fun h1 => h1.2, fun h1 => ⟨hc.2.1, h1⟩⟩

/-- The clause of every watcher after `Assign` is a clause of the formula. -/
theorem Assign_watcher_clause [SolverExt X] (s : BaseSolver X) (x : Nat)
    (a : VariableAssignment) (h : s.Consistent) (hx : 1 ≤ x)
    (hle : x ≤ s.formula.num_of_variables) :
    ∀ w ∈ (s.Assign x a).watchers, w.clause ∈ s.formula.clauses := by
  intro w hw
  have hc := (Assign_consistent s x a h hx hle).watchers_clauses
  rw [Assign_formula] at hc
  rw [← hc]
  exact List.mem_map.mpr ⟨w, hw, rfl⟩

end BaseSolver

namespace CdclSolver

variable {S : Type}

theorem Sound.level_le {F : Formula} {s : CdclSolver S} (hs : Sound F s) :
    ∀ e ∈ s.trail.trail, e.level ≤ s.trail.level := by
  intro e he
  rw [hs.level_last]
  cases hl : s.trail.trail.getLast? with
  | none =>
    rw [List.getLast?_eq_none_iff] at hl
    rw [hl] at he
    simp at he
  | some x =>
    simp only [Option.map_some', Option.getD_some]
    have hsplit := DecisionTrail.split_last hl
    have hp := hs.levels
    rw [hsplit, List.pairwise_append] at hp
    rw [hsplit, List.mem_append, List.mem_singleton] at he
    rcases he with he | he
    · exact hp.2.2 e he x (List.mem_singleton.mpr rfl)
    · rw [he]

theorem Sound.not_on_trail {F : Formula} {s : CdclSolver S} (hs : Sound F s) {x : Nat}
    (hu : s.assignment.get x = .Unassigned) : ¬ ∃ e ∈ s.trail.trail, e.var = x := by
  rintro ⟨e, he, hv⟩
  have := hs.trail_assignment e he
  rw [hv, hu] at this
  exact this.2 this.1.symm

end CdclSolver

end pjos

namespace pjos

namespace CdclSolver

variable {S : Type}

/-- Assigning an unassigned variable and pushing its entry on the trail, in either order,
keeps the soundness invariant. -/
theorem Sound.assign_push {F : Formula} {s s1 : CdclSolver S} {iter : Nat} (hs : Sound F s)
    (hi : Inv s iter) (x : Nat) (a : VariableAssignment) (e : DecisionTrail.Entry)
    (hx1 : 1 ≤ x) (hx2 : x ≤ s.formula.num_of_variables)
    (hu : s.assignment.get x = .Unassigned) (ha : a ≠ .Unassigned)
    (he1 : e.var = x) (he2 : e.assignment = a) (hlv : s.trail.level ≤ e.level)
    (hlr : 0 ≤ e.reason ∨ 1 ≤ e.level)
    (hreason : 0 ≤ e.reason →
      Literal.mk x a ∈ (s.formula.get e.reason.toNat).clause ∧
      ∀ l ∈ (s.formula.get e.reason.toNat).clause,
        l = Literal.mk x a ∨ Literal.IsFalse l s.assignment)
    (hf : s1.formula = s.formula)
    (hw : s1.watchers = (BaseSolver.Assign s x a).watchers)
    (hα : s1.assignment = s.assignment.set x a)
    (ht1 : s1.trail.trail = s.trail.trail ++ [e])
    (ht2 : s1.trail.var_index = s.trail.var_index.set (x - 1) (some s.trail.trail.length))
    (ht3 : s1.trail.level = e.level)
    (hp : s1.pending_assignments = s.pending_assignments)
    (hk : s1.ext.analysis_track = s.ext.analysis_track) : Sound F s1 := by
  have hc := hi.consistent
  have hxlen : x ≤ s.assignment.assignment.length := by
    rw [hc.assignment_length]; exact hx2
  have hget := Assignment.get_set_same s.assignment x a hx1 hxlen
  have hother : ∀ v, 1 ≤ v → v ≠ x → (s.assignment.set x a).get v = s.assignment.get v :=
    fun v hv hne => Assignment.get_set_other s.assignment v x a hv hx1 hne
  have hkeep : ∀ v, 1 ≤ v → s.assignment.get v ≠ .Unassigned →
      (s.assignment.set x a).get v = s.assignment.get v := by
    intro v hv hne
    apply hother v hv
    intro hvx
    rw [hvx] at hne
    exact hne hu
  have hnot := hs.not_on_trail hu
  have hrank : ∀ v, 1 ≤ v → v ≤ s.formula.num_of_variables →
      (s.assignment.set x a).get v ≠ .Unassigned →
      DecisionTrail.Rank (s.trail.trail ++ [e]) v = DecisionTrail.Rank s.trail.trail v := by
    intro v hv1 hv2 hne
    by_cases hvx : v = x
    · rw [hvx, ← he1, DecisionTrail.Rank_append_self e (by rw [he1]; exact hnot),
        DecisionTrail.Rank_of_not_mem (by rw [he1]; exact hnot)]
    · rw [hother v hv1 hvx] at hne
      exact DecisionTrail.Rank_append_of_mem e (hs.assigned_on_trail v hv1 hv2 hne)
  have hfalse : ∀ l : Literal, l ≠ 0 → Literal.Variable l ≤ s.formula.num_of_variables →
      Literal.IsFalse l s.assignment →
      Literal.IsFalse l (s.assignment.set x a) ∧
        DecisionTrail.Rank (s.trail.trail ++ [e]) (Literal.Variable l) =
          DecisionTrail.Rank s.trail.trail (Literal.Variable l) ∧
        DecisionTrail.Rank s.trail.trail (Literal.Variable l) < s.trail.trail.length := by
    intro l hl0 hlN hl
    have hv1 := Literal.variable_pos hl0
    have hk := hkeep _ hv1 hl.1
    have hon := hs.assigned_on_trail _ hv1 hlN hl.1
    refine ⟨?_, DecisionTrail.Rank_append_of_mem e hon, DecisionTrail.Rank_lt hon⟩
    unfold Literal.IsFalse
    rw [hk]
    exact hl
  refine ⟨?_, ?_, ?_, ?_, ?_, ?_, ?_, ?_, ?_, ?_, ?_⟩
  · -- tight
    intro w hwm
    rw [hw] at hwm
    rw [hα, ht1]
    have h1 := BaseSolver.Assign_tight s (DecisionTrail.Rank s.trail.trail) x a hc hx1 hx2
      hs.tight (Or.inr ⟨ha, hu, fun y hy => by
        by_cases hy0 : 1 ≤ y ∧ y ≤ s.formula.num_of_variables
        · rw [DecisionTrail.Rank_of_not_mem hnot]
          exact le_of_lt (DecisionTrail.Rank_lt (hs.assigned_on_trail y hy0.1 hy0.2 hy))
        · rw [DecisionTrail.Rank_of_not_mem hnot]
          unfold DecisionTrail.Rank
          have := List.indexOf_le_length (a := y) (l := s.trail.trail.map (fun e => e.var))
          simpa using this⟩) w hwm
    have hcl := hc.wf _ (BaseSolver.Assign_watcher_clause s x a hc hx1 hx2 w hwm)
    apply h1.congr_rank
    intro l hl hne
    exact hrank _ (Literal.variable_pos (hcl l hl).1) (hcl l hl).2 hne
  · -- trail_assignment
    intro e1 he1m
    rw [ht1, List.mem_append, List.mem_singleton] at he1m
    rw [hα]
    rcases he1m with h1 | h1
    · have h2 := hs.trail_assignment e1 h1
      rw [hkeep _ (hi.trail_range e1 h1).1 (by rw [h2.1]; exact h2.2)]
      exact h2
    · rw [h1, he1, he2, hget]
      exact ⟨rfl, ha⟩
  · -- assigned_on_trail
    intro v hv1 hv2 hne
    rw [hα] at hne
    rw [hf] at hv2
    rw [ht1]
    by_cases hvx : v = x
    · exact ⟨e, List.mem_append_right _ (List.mem_singleton.mpr rfl), by rw [he1, hvx]⟩
    · rw [hother v hv1 hvx] at hne
      obtain ⟨e1, h1, h2⟩ := hs.assigned_on_trail v hv1 hv2 hne
      exact ⟨e1, List.mem_append_left _ h1, h2⟩
  · -- dups
    intro i j ei ej hij hei hej hvar
    rw [ht1] at hei hej
    have hjlt : j < (s.trail.trail ++ [e]).length := (List.getElem?_eq_some_iff.mp hej).1
    rw [List.length_append, List.length_singleton] at hjlt
    by_cases hj : j < s.trail.trail.length
    · rw [List.getElem?_append_left hj] at hej
      rw [List.getElem?_append_left (by omega)] at hei
      exact hs.dups i j ei ej hij hei hej hvar
    · exfalso
      have hj2 : j = s.trail.trail.length := by omega
      rw [List.getElem?_append_left (by omega)] at hei
      rw [hj2, List.getElem?_append_right (le_refl _)] at hej
      simp only [Nat.sub_self, List.getElem?_cons_zero, Option.some.injEq] at hej
      exact hnot ⟨ei, List.getElem?_mem hei, by rw [hvar, ← hej, he1]⟩
  · -- index
    intro k i hki
    rw [ht2] at hki
    rw [ht1]
    by_cases hkx : x - 1 = k
    · rw [List.getElem?_set] at hki
      simp only [hkx, if_true] at hki
      split_ifs at hki with h1
      cases hki
      refine ⟨e, by simp, ?_⟩
      rw [he1]; omega
    · rw [List.getElem?_set_ne hkx] at hki
      obtain ⟨e1, h1, h2⟩ := hs.index k i hki
      have hlt : i < s.trail.trail.length := (List.getElem?_eq_some_iff.mp h1).1
      exact ⟨e1, by rw [List.getElem?_append_left hlt]; exact h1, h2⟩
  · -- reasons
    intro i e1 hie hre
    rw [ht1] at hie
    rw [hf, hα, ht1]
    by_cases hlt : i < s.trail.trail.length
    · rw [List.getElem?_append_left hlt] at hie
      obtain ⟨h1, h2⟩ := hs.reasons i e1 hie hre
      refine ⟨h1, fun l hl => ?_⟩
      rcases h2 l hl with h3 | h3
      · exact Or.inl h3
      · right
        have hwf := Formula.get_wellFormed hc.wf _ l hl
        obtain ⟨h4, h5, _⟩ := hfalse l hwf.1 hwf.2 h3.1
        exact ⟨h4, by rw [h5]; exact h3.2⟩
    · have hieq : i = s.trail.trail.length := by
        by_contra hne
        rw [List.getElem?_eq_none (by simp; omega)] at hie
        cases hie
      subst hieq
      have : e1 = e := by simpa using hie.symm
      subst this
      obtain ⟨h1, h2⟩ := hreason hre
      rw [he1, he2]
      refine ⟨h1, fun l hl => ?_⟩
      rcases h2 l hl with h3 | h3
      · exact Or.inl h3
      · right
        have hwf := Formula.get_wellFormed hc.wf _ l hl
        obtain ⟨h4, h5, h6⟩ := hfalse l hwf.1 hwf.2 h3
        exact ⟨h4, by rw [h5]; exact h6⟩
  · -- levels
    rw [ht1, List.pairwise_append]
    refine ⟨hs.levels, by simp, ?_⟩
    intro e1 h1 e2 h2
    rw [List.mem_singleton] at h2
    rw [h2]
    exact le_trans (hs.level_le e1 h1) hlv
  · -- level_last
    rw [ht3, ht1]
    simp
  · -- level_reason
    intro e1 h1
    rw [ht1, List.mem_append, List.mem_singleton] at h1
    rcases h1 with h1 | h1
    · exact hs.level_reason e1 h1
    · rw [h1]; exact hlr
  · rw [hf]; exact hs.implied
  · rw [hk, hf]; exact hs.track_length

end CdclSolver

end pjos

namespace pjos

namespace CdclSolver

variable {S : Type}

theorem Inv.pop_fields {s : CdclSolver S} {iter : Nat} (h : Inv s iter)
    {e : DecisionTrail.Entry} (hl : s.trail.trail.getLast? = some e) :
    s.trail.Pop.trail = s.trail.trail.dropLast ∧
    s.trail.Pop.var_index = s.trail.var_index.set (e.var - 1) none ∧
    s.trail.Pop.level =
      (s.trail.trail.dropLast.getLast?.map (fun e => e.level)).getD 0 := by
  unfold DecisionTrail.Pop
  simp only [h.skipStale, hl]
  refine ⟨trivial, trivial, ?_⟩
  cases s.trail.trail.dropLast.getLast? <;> rfl

/-- Undoing the newest assignment and popping its entry keeps the soundness invariant. -/
theorem Sound.unassign_pop {F : Formula} {s s1 : CdclSolver S} {iter : Nat} (hs : Sound F s)
    (hi : Inv s iter) (e : DecisionTrail.Entry) (hl : s.trail.trail.getLast? = some e)
    (hra : e.reason ≠ DecisionTrail.ReasonAssumption)
    (hf : s1.formula = s.formula)
    (hw : s1.watchers = (BaseSolver.Assign s e.var .Unassigned).watchers)
    (hα : s1.assignment = s.assignment.set e.var .Unassigned)
    (ht : s1.trail = s.trail.Pop)
    (hp : s1.pending_assignments = s.pending_assignments)
    (hk : s1.ext.analysis_track = s.ext.analysis_track) : Sound F s1 := by
  have hc := hi.consistent
  obtain ⟨hpop1, hpop2, hpop3⟩ := hi.pop_fields hl
  have hsplit := DecisionTrail.split_last hl
  have hemem : e ∈ s.trail.trail := List.mem_of_mem_getLast? hl
  obtain ⟨hx1, hx2⟩ := hi.trail_range e hemem
  have hxlen : e.var ≤ s.assignment.assignment.length := by
    rw [hc.assignment_length]; exact hx2
  have hget := Assignment.get_set_same s.assignment e.var .Unassigned hx1 hxlen
  have hother : ∀ v, 1 ≤ v → v ≠ e.var →
      (s.assignment.set e.var .Unassigned).get v = s.assignment.get v :=
    fun v hv hne => Assignment.get_set_other s.assignment v e.var _ hv hx1 hne
  have hlen : s.trail.trail.length = s.trail.trail.dropLast.length + 1 := by
    conv_lhs => rw [hsplit]
    simp
  have hlast : s.trail.trail[s.trail.trail.dropLast.length]? = some e := by
    conv_lhs => rw [hsplit]
    rw [List.getElem?_append_right (by simp)]
    simp
  have hnotin : ¬ ∃ e1 ∈ s.trail.trail.dropLast, e1.var = e.var := by
    rintro ⟨e1, h1, h2⟩
    obtain ⟨i, hi1⟩ := List.mem_iff_getElem?.mp h1
    have hilt : i < s.trail.trail.dropLast.length := (List.getElem?_eq_some_iff.mp hi1).1
    have hi2 : s.trail.trail[i]? = some e1 := by
      conv_lhs => rw [hsplit]
      rw [List.getElem?_append_left hilt]
      exact hi1
    exact hra (hs.dups i _ e1 e hilt hi2 hlast h2)
  have hrankx : DecisionTrail.Rank s.trail.trail e.var = s.trail.trail.dropLast.length := by
    conv_lhs => rw [hsplit]
    exact DecisionTrail.Rank_append_self e hnotin
  have hon : ∀ v, 1 ≤ v → v ≤ s.formula.num_of_variables → v ≠ e.var →
      s.assignment.get v ≠ .Unassigned →
      (∃ e1 ∈ s.trail.trail.dropLast, e1.var = v) ∧
        DecisionTrail.Rank s.trail.trail.dropLast v = DecisionTrail.Rank s.trail.trail v :=
    fun v hv1 hv2 hne hass =>
      DecisionTrail.Rank_dropLast hl hne (hs.assigned_on_trail v hv1 hv2 hass)
  have hget? : ∀ (i : Nat) (e1 : DecisionTrail.Entry),
      s.trail.trail.dropLast[i]? = some e1 → s.trail.trail[i]? = some e1 := by
    intro i e1 h1
    have hlt : i < s.trail.trail.dropLast.length := (List.getElem?_eq_some_iff.mp h1).1
    conv_lhs => rw [hsplit]
    rw [List.getElem?_append_left hlt]
    exact h1
  refine ⟨?_, ?_, ?_, ?_, ?_, ?_, ?_, ?_, ?_, ?_, ?_⟩
  · -- tight
    intro w hwm
    rw [hw] at hwm
    rw [hα, ht, hpop1]
    have h1 := BaseSolver.Assign_tight s (DecisionTrail.Rank s.trail.trail) e.var .Unassigned
      hc hx1 hx2 hs.tight (Or.inl ⟨rfl, fun y hy1 hy2 hne hass => by
        rw [hrankx, ← (hon y hy1 hy2 hne hass).2]
        exact DecisionTrail.Rank_lt (hon y hy1 hy2 hne hass).1⟩) w hwm
    have hcl := hc.wf _ (BaseSolver.Assign_watcher_clause s e.var .Unassigned hc hx1 hx2 w hwm)
    apply h1.congr_rank
    intro l hl1 hne
    have hv1 := Literal.variable_pos (hcl l hl1).1
    have hvx : Literal.Variable l ≠ e.var := by
      intro hv
      rw [hv, hget] at hne
      exact hne rfl
    rw [hother _ hv1 hvx] at hne
    exact (hon _ hv1 (hcl l hl1).2 hvx hne).2
  · -- trail_assignment
    intro e1 he1m
    rw [ht, hpop1] at he1m
    rw [hα]
    have h1 := List.mem_of_mem_dropLast he1m
    have h2 := hs.trail_assignment e1 h1
    have hne : e1.var ≠ e.var := fun hv => hnotin ⟨e1, he1m, hv⟩
    rw [hother _ (hi.trail_range e1 h1).1 hne]
    exact h2
  · -- assigned_on_trail
    intro v hv1 hv2 hne
    rw [hα] at hne
    rw [hf] at hv2
    rw [ht, hpop1]
    have hvx : v ≠ e.var := by
      intro hv
      rw [hv, hget] at hne
      exact hne rfl
    rw [hother v hv1 hvx] at hne
    exact (hon v hv1 hv2 hvx hne).1
  · -- dups
    intro i j ei ej hij hei hej hvar
    rw [ht, hpop1] at hei hej
    have hup : ∀ (k : Nat) (x : DecisionTrail.Entry), s.trail.trail.dropLast[k]? = some x →
        s.trail.trail[k]? = some x := by
      intro k x hk
      have hklt : k < s.trail.trail.dropLast.length := (List.getElem?_eq_some_iff.mp hk).1
      conv_lhs => rw [hsplit]
      rw [List.getElem?_append_left hklt]
      exact hk
    exact hs.dups i j ei ej hij (hup i ei hei) (hup j ej hej) hvar
  · -- index
    intro k i hki
    rw [ht, hpop2] at hki
    rw [ht, hpop1]
    by_cases hkx : e.var - 1 = k
    · rw [List.getElem?_set] at hki
      simp only [hkx, if_true] at hki
      split_ifs at hki
      cases hki
    · rw [List.getElem?_set_ne hkx] at hki
      obtain ⟨e1, h1, h2⟩ := hs.index k i hki
      have hne : e1.var ≠ e.var := by omega
      have hilt : i < s.trail.trail.length := (List.getElem?_eq_some_iff.mp h1).1
      have hine : i ≠ s.trail.trail.dropLast.length := by
        intro hie
        rw [hie] at h1
        have h3 : s.trail.trail[s.trail.trail.dropLast.length]? = some e := by
          conv_lhs => rw [hsplit]
          simp
        rw [h3] at h1
        cases h1
        exact hne rfl
      refine ⟨e1, ?_, h2⟩
      conv_lhs at h1 => rw [hsplit]
      rw [List.getElem?_append_left (by omega)] at h1
      exact h1
  · -- reasons
    intro i e1 hie hre
    rw [ht, hpop1] at hie
    rw [hf, hα, ht, hpop1]
    have hlt : i < s.trail.trail.dropLast.length := (List.getElem?_eq_some_iff.mp hie).1
    obtain ⟨h1, h2⟩ := hs.reasons i e1 (hget? i e1 hie) hre
    refine ⟨h1, fun l hl1 => ?_⟩
    rcases h2 l hl1 with h3 | h3
    · exact Or.inl h3
    · right
      have hwf := Formula.get_wellFormed hc.wf _ l hl1
      have hv1 := Literal.variable_pos hwf.1
      have hvx : Literal.Variable l ≠ e.var := by
        intro hv
        have := h3.2
        rw [hv, hrankx] at this
        omega
      obtain ⟨_, h5⟩ := hon _ hv1 hwf.2 hvx h3.1.1
      refine ⟨?_, by rw [h5]; exact h3.2⟩
      unfold Literal.IsFalse
      rw [hother _ hv1 hvx]
      exact h3.1
  · -- levels
    rw [ht, hpop1]
    have := hs.levels
    rw [hsplit, List.pairwise_append] at this
    exact this.1
  · -- level_last
    rw [ht, hpop3, hpop1]
  · -- level_reason
    intro e1 h1
    rw [ht, hpop1] at h1
    exact hs.level_reason e1 (List.mem_of_mem_dropLast h1)
  · rw [hf]; exact hs.implied
  · rw [hk, hf]; exact hs.track_length

end CdclSolver

end pjos

namespace pjos

namespace Watcher

theorem RescanFrom_all_false (assn : Assignment) :
    ∀ (ls : List Literal) (i : Nat) (wl : Int × Int),
      (∀ l ∈ ls, Literal.IsFalse l assn) → RescanFrom assn ls i wl = wl
  | [], _, _, _ => rfl
  | l :: ls, i, wl, h => by
    have hl := h l (List.mem_cons_self _ _)
    simp only [RescanFrom]
    have : RescanStep assn wl l i = wl := by
      unfold RescanStep
      simp only [hl.2, Bool.false_eq_true, if_false, hl.1]
    rw [this]
    exact RescanFrom_all_false assn ls (i + 1) wl (fun l1 h1 => h l1 (List.mem_cons_of_mem _ h1))

/-- The watcher that `Rescan` makes of a clause whose literals are all false: no watch, status
`Unsatisfied`, which is exact. -/
theorem Rescan_all_false (w : Watcher) (assn : Assignment) (r : Nat → Nat)
    (h : ∀ l ∈ w.clause.clause, Literal.IsFalse l assn) : (w.Rescan assn).Tight assn r := by
  have hw : w.Rescan assn =
      { clause := w.clause, status := .Unsatisfied, watched_literals := (-1, -1) } := by
    unfold Rescan
    rw [RescanFrom_all_false assn _ _ _ h]
    unfold UpdateStatus
    simp [IsSatisfied]
  rw [hw]
  refine ⟨⟨fun h1 => by simp at h1, fun _ => ⟨rfl, rfl⟩⟩, ⟨fun _ l hl => (h l hl).1,
    fun _ i hi _ => (h _ (ClauseView.get_mem _ _ hi)).1⟩, fun _ l hl => (h l hl).2,
    fun h1 => by simp at h1⟩

/-- The watcher of a clause none of whose variables is assigned is exact. -/
theorem new_tight (c : ClauseView) (assn : Assignment) (r : Nat → Nat)
    (h : ∀ l ∈ c.clause, assn.get (Literal.Variable l) = .Unassigned) :
    (Watcher.new c).Tight assn r := by
  have hnt : c.NoTrue assn := by
    intro l hl
    rw [h l hl]; exact Literal.eval_unassigned l
  unfold Watcher.new
  simp only [ClauseView.Length]
  split_ifs with h1 h2
  · refine ⟨⟨fun h3 => by simp at h3, fun h3 => by simp at h3⟩,
      ⟨fun h3 => by simp at h3, fun h3 => by simp at h3⟩, fun _ => hnt, fun h3 => by simp at h3⟩
  · refine ⟨⟨fun _ => rfl, fun h3 => by simp at h3⟩,
      ⟨fun h3 => by simp at h3, fun _ i hi hne => ?_⟩, fun _ => hnt, fun h3 => by simp at h3⟩
    simp only at hi hne
    have : i = 0 := by omega
    subst this
    exact absurd rfl hne
  · refine ⟨⟨fun h3 => by simp at h3, fun _ => ⟨rfl, rfl⟩⟩,
      ⟨fun _ l hl => ?_, fun _ i hi _ => ?_⟩, fun _ => hnt, fun h3 => by simp at h3⟩
    · simp only at hl
      have : c.clause = [] := List.length_eq_zero.mp (by omega)
      rw [this] at hl
      simp at hl
    · simp only at hi
      omega

end Watcher

namespace CdclSolver

variable {S : Type}

/-- A change of the fields of the subclass that keeps the size of the analysis marks keeps the
soundness invariant. -/
theorem Sound.of_same {F : Formula} {s t : CdclSolver S} (hs : Sound F s)
    (h : BaseSolver.SameShared t s)
    (hk : t.ext.analysis_track.length = s.ext.analysis_track.length) : Sound F t := by
  refine ⟨?_, ?_, ?_, ?_, ?_, ?_, ?_, ?_, ?_, ?_, ?_⟩
  · rw [h.watchers, h.assignment, h.trail]; exact hs.tight
  · rw [h.assignment, h.trail]; exact hs.trail_assignment
  · rw [h.assignment, h.trail, h.formula]; exact hs.assigned_on_trail
  · rw [h.trail]; exact hs.dups
  · rw [h.trail]; exact hs.index
  · rw [h.assignment, h.trail, h.formula]; exact hs.reasons
  · rw [h.trail]; exact hs.levels
  · rw [h.trail]; exact hs.level_last
  · rw [h.trail]; exact hs.level_reason
  · rw [h.formula]; exact hs.implied
  · rw [hk, h.formula]; exact hs.track_length

theorem AppendClause_fields (P : Platform S) (s : CdclSolver S) (c : Clause)
    (h : s.Consistent) :
    (AppendClause P s c).formula = s.formula.AppendClause c ∧
    (AppendClause P s c).watchers = s.watchers ++
      [(Watcher.new c).Rescan
        (s.assignment.SetNumOfVariables (s.formula.AppendClause c).num_of_variables)] ∧
    (AppendClause P s c).assignment =
      s.assignment.SetNumOfVariables (s.formula.AppendClause c).num_of_variables ∧
    (AppendClause P s c).trail =
      s.trail.SetNumOfVariables (s.formula.AppendClause c).num_of_variables ∧
    (AppendClause P s c).ext.analysis_track.length =
      max s.ext.analysis_track.length (s.formula.AppendClause c).num_of_variables ∧
    (AppendClause P s c).pending_assignments = s.pending_assignments := by
  have hlen : s.watchers.length = s.formula.clauses.length := by
    have := congrArg List.length h.watchers_clauses
    simpa using this
  have hk : (s.formula.AppendClause c).NumOfClauses - 1 = s.formula.clauses.length := by
    simp [Formula.AppendClause, Formula.NumOfClauses]
  unfold AppendClause AttachClause
  simp only [hk]
  refine ⟨?_, ?_, ?_, ?_, ?_, ?_⟩
  · simp only [BaseSolver.AttachClause_formula]
  · simp only [BaseSolver.AttachClause_watchers]
    show modifyAt (List.take _ s.watchers ++ _ ++ List.drop _ s.watchers) _ _ = _
    rw [← hlen, List.take_length, List.drop_length, List.append_nil,
      BaseSolver.modifyAt_append_singleton]
    rfl
  · simp only [BaseSolver.AttachClause_assignment]
    rfl
  · simp only [BaseSolver.AttachClause_trail]
    rfl
  · simp only [BaseSolver.AttachClause_formula, BaseSolver.AttachClause_ext,
      Formula.NumOfVariables]
    split_ifs with h1
    · simp only [List.length_append, List.length_replicate]
      have h2 : (s.formula.AppendClause c).num_of_variables > s.ext.analysis_track.length := h1
      omega
    · have h2 : ¬ (s.formula.AppendClause c).num_of_variables > s.ext.analysis_track.length :=
        h1
      omega
  · simp only [BaseSolver.AttachClause_pending]

end CdclSolver

end pjos

namespace pjos

namespace DecisionTrail

theorem SetNumOfVariables_level (t : DecisionTrail) (n : Nat) :
    (t.SetNumOfVariables n).level = t.level := by
  unfold SetNumOfVariables
  split_ifs <;> rfl

theorem SetNumOfVariables_index (t : DecisionTrail) (n : Nat) (h : t.var_index.length ≤ n)
    (k i : Nat) (hk : (t.SetNumOfVariables n).var_index[k]? = some (some i)) :
    t.var_index[k]? = some (some i) := by
  unfold SetNumOfVariables at hk
  split_ifs at hk with h1 h2
  · omega
  · simp only at hk
    by_cases hlt : k < t.var_index.length
    · rw [List.getElem?_append_left hlt] at hk
      exact hk
    · rw [List.getElem?_append_right (by omega), List.getElem?_replicate] at hk
      split_ifs at hk
      cases hk
  · exact hk

end DecisionTrail

namespace CdclSolver

variable {S : Type}

/-- Appending a clause that follows from the formula and whose literals are all false keeps
the soundness invariant. -/
theorem Sound.append_clause {F : Formula} {s : CdclSolver S} {iter : Nat} (P : Platform S)
    (hs : Sound F s) (hi : Inv s iter) (c : Clause)
    (hfalse : ∀ l ∈ c.clause, Literal.IsFalse l s.assignment)
    (himp : ∀ M : Nat → Bool, (∀ c1 ∈ s.formula.clauses, c1.value M = true) →
      c.value M = true) :
    Sound F (AppendClause P s c) := by
  have hc := hi.consistent
  obtain ⟨hf, hw, hα, ht, hk, hp⟩ := AppendClause_fields P s c hc
  have hN : s.formula.num_of_variables ≤ (s.formula.AppendClause c).num_of_variables := by
    simp [Formula.AppendClause]
  have hget : ∀ x, (s.assignment.SetNumOfVariables
      (s.formula.AppendClause c).num_of_variables).get x = s.assignment.get x := by
    intro x
    apply Assignment.SetNumOfVariables_get
    rw [hc.assignment_length]; exact hN
  have htt := DecisionTrail.SetNumOfVariables_trail s.trail
    (s.formula.AppendClause c).num_of_variables
  have hfalse2 : ∀ l : Literal, Literal.IsFalse l s.assignment →
      Literal.IsFalse l
        (s.assignment.SetNumOfVariables (s.formula.AppendClause c).num_of_variables) := by
    intro l hl
    unfold Literal.IsFalse
    rw [hget]
    exact hl
  refine ⟨?_, ?_, ?_, ?_, ?_, ?_, ?_, ?_, ?_, ?_, ?_⟩
  · intro w hwm
    rw [hw, List.mem_append, List.mem_singleton] at hwm
    rw [hα, ht, htt]
    rcases hwm with h1 | h1
    · exact (hs.tight w h1).congr_assn (fun l _ => hget _)
    · rw [h1]
      apply Watcher.Rescan_all_false
      intro l hl
      rw [Watcher.new_clause] at hl
      exact hfalse2 l (hfalse l hl)
  · intro e he
    rw [ht, htt] at he
    rw [hα, hget]
    exact hs.trail_assignment e he
  · intro v hv1 hv2 hne
    rw [hα, hget] at hne
    rw [ht, htt]
    by_cases hvN : v ≤ s.formula.num_of_variables
    · exact hs.assigned_on_trail v hv1 hvN hne
    · exfalso
      apply hne
      simp only [Assignment.get, List.getD_eq_getElem?_getD]
      rw [List.getElem?_eq_none (by rw [hc.assignment_length]; omega)]
      rfl
  · rw [ht, htt]; exact hs.dups
  · intro k i hki
    rw [ht] at hki
    rw [ht, htt]
    exact hs.index k i (DecisionTrail.SetNumOfVariables_index _ _
      (by rw [hi.trail_index_length]; exact hN) k i hki)
  · intro i e hie hre
    rw [ht, htt] at hie
    rw [hf, hα, ht, htt]
    obtain ⟨h1, h2⟩ := hs.reasons i e hie hre
    have hlt : e.reason.toNat < s.formula.clauses.length := by
      by_contra hge
      simp only [Formula.get] at h1
      rw [List.getD_eq_default _ _ (by omega)] at h1
      simp at h1
    rw [BaseSolver.Formula_get_append_left _ _ _ hlt]
    refine ⟨h1, fun l hl => ?_⟩
    rcases h2 l hl with h3 | h3
    · exact Or.inl h3
    · exact Or.inr ⟨hfalse2 l h3.1, h3.2⟩
  · rw [ht, htt]; exact hs.levels
  · rw [ht, htt, DecisionTrail.SetNumOfVariables_level]; exact hs.level_last
  · rw [ht, htt]; exact hs.level_reason
  · intro M hM c1 hc1
    rw [hf] at hc1
    simp only [Formula.AppendClause, List.mem_append, List.mem_singleton] at hc1
    rcases hc1 with h1 | h1
    · exact hs.implied M hM c1 h1
    · rw [h1]
      exact himp M (hs.implied M hM)
  · rw [hk, hf, hs.track_length]
    exact max_eq_right hN

end CdclSolver

end pjos

namespace pjos

theorem FlipVariableAssignment_eval (v : Nat) (a : VariableAssignment) :
    Literal.Eval (Literal.mk v (FlipVariableAssignment a)) a = false := by
  cases a
  · exact Literal.eval_unassigned _
  · show Literal.Eval (Literal.mk v .True) .False = false
    rw [Literal.mk_true]; exact Literal.eval_pos_false v
  · show Literal.Eval (Literal.mk v .False) .True = false
    rw [Literal.mk_false]; exact Literal.eval_neg_true v

/-- A non-zero literal that is false under the value `a` of its variable is the literal of the
flipped value. -/
theorem Literal.eq_mk_flip {l : Literal} {a : VariableAssignment}
    (ha : a ≠ .Unassigned) (h : Literal.Eval l a = false) :
    l = Literal.mk (Literal.Variable l) (FlipVariableAssignment a) := by
  unfold Literal.Eval at h
  unfold Literal.mk Literal.Variable
  cases a
  · exact absurd rfl ha
  · simp only [reduceCtorEq, decide_False, Bool.and_false, decide_True, Bool.and_true,
      Bool.false_or, decide_eq_false_iff_not] at h
    simp only [FlipVariableAssignment, reduceCtorEq, if_false]
    unfold Literal at *
    omega
  · simp only [reduceCtorEq, decide_False, Bool.and_false, decide_True, Bool.and_true,
      Bool.or_false, decide_eq_false_iff_not] at h
    simp only [FlipVariableAssignment, if_true]
    unfold Literal at *
    omega

/-- The literal of the flipped value of an assigned variable is false, and it is true under `M`
exactly when `M` disagrees with the assignment on the variable. -/
theorem Literal.mk_flip_isFalse (assn : pjos.Assignment) (v : Nat)
    (ha : assn.get v ≠ .Unassigned) :
    Literal.IsFalse (Literal.mk v (FlipVariableAssignment (assn.get v))) assn := by
  unfold Literal.IsFalse
  rw [Literal.variable_mk]
  exact ⟨ha, FlipVariableAssignment_eval v _⟩

theorem Literal.value_mk_of_disagree (assn : pjos.Assignment) (M : Nat → Bool) (v : Nat)
    (hv : 1 ≤ v) (ha : assn.get v ≠ .Unassigned) (hd : assn.Disagree M v) :
    Literal.value M (Literal.mk v (FlipVariableAssignment (assn.get v))) = true ∧
    Literal.value M (Literal.mk v (assn.get v)) = false := by
  unfold pjos.Assignment.Disagree at hd
  unfold Literal.value
  rw [Literal.variable_mk, Literal.variable_mk]
  cases hg : assn.get v with
  | Unassigned => exact absurd hg ha
  | False =>
    rw [hg] at hd
    simp only [reduceCtorEq, decide_False, ne_eq, Bool.not_eq_false] at hd
    simp only [FlipVariableAssignment, Literal.mk_true, Literal.mk_false]
    have h1 : ¬ ((v : Int) < 0) := by omega
    have h2 : (-(v : Int) < 0) := by omega
    simp [h1, h2, hd]
  | True =>
    rw [hg] at hd
    simp only [decide_True, ne_eq, Bool.not_eq_true] at hd
    simp only [FlipVariableAssignment, Literal.mk_true, Literal.mk_false]
    have h1 : ¬ ((v : Int) < 0) := by omega
    have h2 : (-(v : Int) < 0) := by omega
    simp [h1, h2, hd]

theorem List.count_le_one_unique {α : Type} [DecidableEq α] (a : α) :
    ∀ (l : List α) (i j : Nat), l.count a ≤ 1 → l[i]? = some a → l[j]? = some a → i = j
  | [], i, _, _, hi, _ => by simp at hi
  | x :: xs, i, j, hc, hi, hj => by
    rw [List.count_cons] at hc
    cases i with
    | zero =>
      cases j with
      | zero => rfl
      | succ j =>
        simp only [List.getElem?_cons_zero, Option.some.injEq] at hi
        simp only [List.getElem?_cons_succ] at hj
        have : 0 < xs.count a := List.count_pos_iff.mpr (List.getElem?_mem hj)
        simp only [hi, beq_self_eq_true, if_true] at hc
        omega
    | succ i =>
      simp only [List.getElem?_cons_succ] at hi
      cases j with
      | zero =>
        simp only [List.getElem?_cons_zero, Option.some.injEq] at hj
        have : 0 < xs.count a := List.count_pos_iff.mpr (List.getElem?_mem hi)
        simp only [hj, beq_self_eq_true, if_true] at hc
        omega
      | succ j =>
        simp only [List.getElem?_cons_succ] at hj
        have := List.count_le_one_unique a xs i j (by omega) hi hj
        omega

theorem List.count_set_of_ne {α : Type} [DecidableEq α] (a b : α) (hab : b ≠ a) :
    ∀ (l : List α) (k : Nat), l[k]? = some b → (l.set k a).count a = l.count a + 1
  | [], k, h => by simp at h
  | x :: xs, 0, h => by
    simp only [List.getElem?_cons_zero, Option.some.injEq] at h
    subst h
    simp only [List.set_cons_zero, List.count_cons, beq_self_eq_true, if_true]
    have : (x == a) = false := by simpa using hab
    simp [this]
  | x :: xs, k + 1, h => by
    simp only [List.getElem?_cons_succ] at h
    simp only [List.set_cons_succ, List.count_cons]
    rw [List.count_set_of_ne a b hab xs k h]
    omega

theorem List.count_set_remove {α : Type} [DecidableEq α] (a b : α) (hab : b ≠ a) :
    ∀ (l : List α) (k : Nat), l[k]? = some a → (l.set k b).count a + 1 = l.count a
  | [], k, h => by simp at h
  | x :: xs, 0, h => by
    simp only [List.getElem?_cons_zero, Option.some.injEq] at h
    subst h
    simp only [List.set_cons_zero, List.count_cons, beq_self_eq_true, if_true]
    have : (b == x) = false := by simpa using hab
    simp [this]
  | x :: xs, k + 1, h => by
    simp only [List.getElem?_cons_succ] at h
    simp only [List.set_cons_succ, List.count_cons]
    have := List.count_set_remove a b hab xs k h
    omega

end pjos

namespace pjos

namespace CdclSolver

variable {S : Type}

theorem AnalysisTrackOf_set (t : CdclSolver S) (v u : Nat) (st : AnalysisTrackState) :
    AnalysisTrackOf (SetAnalysisTrackOf t v st) u =
      if u - 1 = v - 1 ∧ v - 1 < t.ext.analysis_track.length then st
      else AnalysisTrackOf t u := by
  unfold AnalysisTrackOf SetAnalysisTrackOf
  simp only [List.getD_eq_getElem?_getD]
  by_cases h1 : v - 1 = u - 1
  · by_cases h2 : v - 1 < t.ext.analysis_track.length
    · rw [if_pos ⟨h1.symm, h2⟩, ← h1, List.getElem?_set_self h2]
      rfl
    · rw [if_neg (fun hc => h2 hc.2), List.getElem?_eq_none (by simp; omega),
        List.getElem?_eq_none (by omega)]
  · rw [if_neg (fun hc => h1 hc.1.symm), List.getElem?_set_ne h1]

theorem AnalysisTrackOf_index {t : CdclSolver S} {v : Nat} {st : AnalysisTrackState}
    (h : AnalysisTrackOf t v = st) (hne : st ≠ .Untracked) :
    t.ext.analysis_track[v - 1]? = some st := by
  unfold AnalysisTrackOf at h
  rw [List.getD_eq_getElem?_getD] at h
  cases hg : t.ext.analysis_track[v - 1]? with
  | none =>
    rw [hg] at h
    exact absurd h.symm hne
  | some x =>
    rw [hg] at h
    simp only [Option.getD_some] at h
    rw [h]

theorem AnalysisTrackOf_untracked_index {t : CdclSolver S} {v : Nat}
    (h : AnalysisTrackOf t v = .Untracked) (hlt : v - 1 < t.ext.analysis_track.length) :
    t.ext.analysis_track[v - 1]? = some .Untracked := by
  unfold AnalysisTrackOf at h
  rw [List.getD_eq_getElem?_getD, List.getElem?_eq_getElem hlt] at h
  rw [List.getElem?_eq_getElem hlt]
  simpa using h

theorem AnalysisTrackOf_clear (t : CdclSolver S) (v : Nat) :
    AnalysisTrackOf (ClearAnalysisTrack t) v = .Untracked := by
  unfold AnalysisTrackOf ClearAnalysisTrack
  simp only [List.getD_eq_getElem?_getD, List.getElem?_replicate]
  split_ifs <;> rfl

/-- What `Find` returns is the entry of the variable on the trail. -/
theorem Sound.find {F : Formula} {s : CdclSolver S} (hs : Sound F s) {v : Nat}
    {entry : DecisionTrail.Entry} (h : s.trail.Find v = some entry) :
    entry ∈ s.trail.trail ∧ entry.var = v ∧ 1 ≤ v := by
  unfold DecisionTrail.Find at h
  split_ifs at h with h1
  rw [not_or] at h1
  split at h
  · rename_i index hidx
    cases h
    have hlt : v - 1 < s.trail.var_index.length := by omega
    rw [List.getD_eq_getElem?_getD, List.getElem?_eq_getElem hlt] at hidx
    simp only [Option.getD_some] at hidx
    have hq : s.trail.var_index[v - 1]? = some (some index) := by
      rw [List.getElem?_eq_getElem hlt, hidx]
    obtain ⟨e, he1, he2⟩ := hs.index _ _ hq
    have hget : s.trail.get index = e := by
      simp only [DecisionTrail.get, List.getD_eq_getElem?_getD, he1, Option.getD_some]
    rw [hget]
    exact ⟨List.getElem?_mem he1, by omega, by omega⟩
  · cases h

theorem FindPending_spec (s : CdclSolver S) :
    ∀ (k j : Nat), FindPending s k = .ok j →
      j ≤ k ∧ j < s.trail.Length ∧ AnalysisTrackOf s (s.trail.get j).var = .Pending
  | 0, j, h => by
    unfold FindPending at h
    split_ifs at h with h1
    cases h
    exact ⟨le_refl _, h1.1, h1.2⟩
  | k + 1, j, h => by
    unfold FindPending at h
    split_ifs at h with h1 h2
    · have := FindPending_spec s k j h
      exact ⟨by omega, this.2⟩
    · cases h
      exact ⟨le_refl _, h1, by simpa using h2⟩

theorem get_getElem? (t : DecisionTrail) (j : Nat) (h : j < t.Length) :
    t.trail[j]? = some (t.get j) := by
  simp only [DecisionTrail.get, List.getD_eq_getElem?_getD]
  rw [List.getElem?_eq_getElem h]
  rfl

end CdclSolver

end pjos

namespace pjos

namespace CdclSolver

variable {S : Type}

theorem Extends.same (a : ConflictAnalysis S) : Extends a a :=
  ⟨BaseSolver.SameShared.refl _, rfl, fun _ => Iff.rfl, fun _ h => h, fun _ h => h, rfl⟩

theorem Extends.chain {a b c : ConflictAnalysis S} (h1 : Extends a b) (h2 : Extends b c) :
    Extends a c :=
  ⟨h2.shared.trans h1.shared, h2.track_length.trans h1.track_length,
    fun v => (h2.processed v).trans (h1.processed v),
    fun v h => h2.pending v (h1.pending v h),
    fun l h => h2.builder l (h1.builder l h), by
      have := h1.count
      have := h2.count
      omega⟩

theorem Extends.tracked {a b : ConflictAnalysis S} (h : Extends a b) (v : Nat)
    (hv : AnalysisTrackOf a.solver v ≠ .Untracked) : AnalysisTrackOf b.solver v ≠ .Untracked := by
  cases hc : AnalysisTrackOf a.solver v with
  | Untracked => exact absurd hc hv
  | Pending => rw [h.pending v hc]; simp
  | Processed => rw [(h.processed v).mpr hc]; simp

theorem ClauseBuilder.mem_Add (b : ClauseBuilder) (x l : Literal) (h : l ∈ b.literals) :
    l ∈ (b.Add x).literals := by
  simp only [ClauseBuilder.Add]
  split_ifs
  · exact h
  · exact List.mem_append_left _ h

theorem ClauseBuilder.mem_Add_self (b : ClauseBuilder) (x : Literal) :
    x ∈ (b.Add x).literals := by
  simp only [ClauseBuilder.Add]
  split_ifs with h
  · exact h
  · exact List.mem_append_right _ (List.mem_singleton.mpr rfl)

theorem ClauseBuilder.mem_Add_iff (b : ClauseBuilder) (x l : Literal)
    (h : l ∈ (b.Add x).literals) : l ∈ b.literals ∨ l = x := by
  simp only [ClauseBuilder.Add] at h
  split_ifs at h
  · exact Or.inl h
  · rw [List.mem_append, List.mem_singleton] at h
    exact h

/-- The analysis of one clause: the shared state stays, marks and literals are only added, the
literals collected are false, and every false literal of the clause ends up collected or with
its variable marked. -/
theorem AnalyzeClause_sound (P : Platform S) (F : Formula) :
    ∀ (lits : List Literal) (a a1 : ConflictAnalysis S), Sound F a.solver →
      (∀ l ∈ lits, l ≠ 0 ∧ Literal.Variable l ≤ a.solver.formula.num_of_variables) →
      (∀ l ∈ a.solver.ext.learned_clause.literals, Literal.IsFalse l a.solver.assignment) →
      AnalyzeClause P lits a = .ok a1 →
      Extends a a1 ∧
      (∀ l ∈ a1.solver.ext.learned_clause.literals, Literal.IsFalse l a.solver.assignment) ∧
      (∀ l ∈ lits, Literal.IsFalse l a.solver.assignment →
        l ∈ a1.solver.ext.learned_clause.literals ∨
          AnalysisTrackOf a1.solver (Literal.Variable l) ≠ .Untracked)
  | [], a, a1, _, _, hb, hr => by
    simp only [AnalyzeClause] at hr
    cases hr
    exact ⟨Extends.same _, hb, fun l hl => by simp at hl⟩
  | literal :: rest, a, a1, hs, hl, hb, hr => by
    have hl0 := hl literal (List.mem_cons_self _ _)
    have hrest : ∀ l ∈ rest, l ≠ 0 ∧ Literal.Variable l ≤ a.solver.formula.num_of_variables :=
      fun l hm => hl l (List.mem_cons_of_mem _ hm)
    have hv1 := Literal.variable_pos hl0.1
    unfold AnalyzeClause at hr
    simp only at hr
    split_ifs at hr with h1
    · -- the variable is marked already
      obtain ⟨he, hb1, hcov⟩ := AnalyzeClause_sound P F rest a a1 hs hrest hb hr
      refine ⟨he, hb1, fun l hm hf => ?_⟩
      rw [List.mem_cons] at hm
      rcases hm with hm | hm
      · rw [hm]
        exact Or.inr (he.tracked _ h1)
      · exact hcov l hm hf
    · have hun : AnalysisTrackOf a.solver (Literal.Variable literal) = .Untracked := by
        by_contra hne
        exact h1 hne
      split at hr
      · cases hr
      · rename_i trail_entry hfind
        obtain ⟨hmem, hvar, _⟩ := hs.find hfind
        have hassn := hs.trail_assignment trail_entry hmem
        rw [hvar] at hassn
        split at hr
        · cases hr
        · rename_i evsids hev
          have hlen : Literal.Variable literal - 1 < a.solver.ext.analysis_track.length := by
            rw [hs.track_length]; omega
          split_ifs at hr hev with h2
          · -- marked `Pending`
            have hstep : Extends a
                ({ solver := { (SetAnalysisTrackOf a.solver (Literal.Variable literal) .Pending)
                      with ext := { (SetAnalysisTrackOf a.solver (Literal.Variable literal)
                        .Pending).ext with evsids := evsids } },
                   number_of_paths := a.number_of_paths + 1,
                   backjump_level := a.backjump_level } : ConflictAnalysis S) := by
              refine ⟨⟨rfl, rfl, rfl, rfl, rfl, rfl⟩, ?_, ?_, ?_, fun l h => h, ?_⟩
              · simp [SetAnalysisTrackOf]
              · intro v
                show AnalysisTrackOf (SetAnalysisTrackOf a.solver _ .Pending) v = _ ↔ _
                rw [AnalysisTrackOf_set]
                split_ifs with h3
                · have : AnalysisTrackOf a.solver v = .Untracked := by
                    unfold AnalysisTrackOf at hun ⊢
                    rw [h3.1]; exact hun
                  rw [this]
                  simp
                · exact Iff.rfl
              · intro v hp
                show AnalysisTrackOf (SetAnalysisTrackOf a.solver _ .Pending) v = _
                rw [AnalysisTrackOf_set]
                split_ifs
                · rfl
                · exact hp
              · show a.number_of_paths + 1 + _ = a.number_of_paths +
                  (a.solver.ext.analysis_track.set (Literal.Variable literal - 1)
                    .Pending).count .Pending
                rw [List.count_set_of_ne .Pending .Untracked (by simp) _ _
                  (AnalysisTrackOf_untracked_index hun hlen)]
                omega
            obtain ⟨he, hb1, hcov⟩ := AnalyzeClause_sound P F rest _ a1
              (hs.of_same hstep.shared hstep.track_length) hrest hb hr
            refine ⟨hstep.chain he, hb1, fun l hm hf => ?_⟩
            rw [List.mem_cons] at hm
            rcases hm with hm | hm
            · rw [hm]
              right
              apply he.tracked
              show AnalysisTrackOf (SetAnalysisTrackOf a.solver _ .Pending) _ ≠ _
              rw [AnalysisTrackOf_set, if_pos ⟨rfl, hlen⟩]
              simp
            · exact hcov l hm hf
          · -- collected in the clause builder
            have hstep : Extends a
                ({ solver := { a.solver with ext := { a.solver.ext with
                      learned_clause := a.solver.ext.learned_clause.Add
                        (Literal.mk (Literal.Variable literal)
                          (FlipVariableAssignment trail_entry.assignment)),
                      evsids := evsids } },
                   number_of_paths := a.number_of_paths,
                   backjump_level := max a.backjump_level trail_entry.level } :
                  ConflictAnalysis S) :=
              ⟨⟨rfl, rfl, rfl, rfl, rfl, rfl⟩, rfl, fun _ => Iff.rfl, fun _ h => h,
                fun l h => ClauseBuilder.mem_Add _ _ l h, rfl⟩
            have hnew : Literal.IsFalse (Literal.mk (Literal.Variable literal)
                (FlipVariableAssignment trail_entry.assignment)) a.solver.assignment := by
              have := Literal.mk_flip_isFalse a.solver.assignment (Literal.Variable literal)
                (by rw [hassn.1]; exact hassn.2)
              rw [hassn.1] at this
              exact this
            obtain ⟨he, hb1, hcov⟩ := AnalyzeClause_sound P F rest _ a1
              (hs.of_same hstep.shared hstep.track_length) hrest
              (fun l hm => by
                rcases ClauseBuilder.mem_Add_iff _ _ l hm with h3 | h3
                · exact hb l h3
                · rw [h3]; exact hnew) hr
            refine ⟨hstep.chain he, hb1, fun l hm hf => ?_⟩
            rw [List.mem_cons] at hm
            rcases hm with hm | hm
            · rw [hm]
              left
              apply he.builder
              rw [hm] at hf
              have heq := Literal.eq_mk_flip (l := literal) hf.1 hf.2
              rw [hassn.1] at heq
              have key : ∀ x : Literal, x = Literal.mk (Literal.Variable literal)
                  (FlipVariableAssignment trail_entry.assignment) →
                  x ∈ (a.solver.ext.learned_clause.Add (Literal.mk (Literal.Variable literal)
                    (FlipVariableAssignment trail_entry.assignment))).literals := by
                intro x hx
                rw [hx]
                exact ClauseBuilder.mem_Add_self _ _
              exact key literal heq
            · exact hcov l hm hf

end CdclSolver

end pjos

namespace pjos

theorem Literal.eval_mk (v : Nat) (a : VariableAssignment) (hv : 1 ≤ v) (ha : a ≠ .Unassigned) :
    Literal.Eval (Literal.mk v a) a = true := by
  unfold Literal.Eval Literal.mk
  cases a with
  | Unassigned => exact absurd rfl ha
  | True =>
    have h1 : ((v : Int) > 0) := by omega
    simp [h1]
  | False =>
    have h1 : (-1 * (v : Int) < 0) := by omega
    simp [h1]
    omega

theorem Literal.mk_not_isFalse (assn : pjos.Assignment) (v : Nat) (hv : 1 ≤ v)
    (ha : assn.get v ≠ .Unassigned) : ¬ Literal.IsFalse (Literal.mk v (assn.get v)) assn := by
  intro h
  have h2 := h.2
  rw [Literal.variable_mk, Literal.eval_mk v _ hv ha] at h2
  cases h2

theorem ClauseView.value_true {c : ClauseView} {M : Nat → Bool} (h : c.value M = true) :
    ∃ l ∈ c.clause, Literal.value M l = true := by
  unfold ClauseView.value at h
  rw [List.any_eq_true] at h
  exact h

theorem ClauseView.value_of_mem {c : ClauseView} {M : Nat → Bool} {l : Literal}
    (hl : l ∈ c.clause) (h : Literal.value M l = true) : c.value M = true := by
  unfold ClauseView.value
  rw [List.any_eq_true]
  exact ⟨l, hl, h⟩

theorem Formula.get_mem_of_literal (f : Formula) (i : Nat) {l : Literal}
    (h : l ∈ (f.get i).clause) : f.get i ∈ f.clauses := by
  by_cases hi : i < f.clauses.length
  · exact BaseSolver.Formula_get_mem f i hi
  · exfalso
    have : f.get i = ⟨[], 0⟩ := by
      simp only [Formula.get, List.getD_eq_getElem?_getD]
      rw [List.getElem?_eq_none (by omega)]
      rfl
    rw [this] at h
    simp at h

/-- The first position of an element is not behind any of its positions. -/
theorem List.indexOf_le_of_getElem? {α : Type} [DecidableEq α] (a : α) :
    ∀ (l : List α) (i : Nat), l[i]? = some a → l.indexOf a ≤ i
  | [], i, h => by simp at h
  | x :: xs, 0, h => by
    simp only [List.getElem?_cons_zero, Option.some.injEq] at h
    rw [List.indexOf_cons_eq _ h]
  | x :: xs, i + 1, h => by
    by_cases hx : x = a
    · rw [List.indexOf_cons_eq _ hx]
      omega
    · rw [List.indexOf_cons_ne _ hx]
      have := List.indexOf_le_of_getElem? a xs i (by simpa using h)
      omega

/-- The rank of the variable of an entry is not behind the entry, and the entry at the rank is
on the same variable. -/
theorem DecisionTrail.Rank_le {trail : List DecisionTrail.Entry} {i : Nat}
    {e : DecisionTrail.Entry} (h : trail[i]? = some e) :
    DecisionTrail.Rank trail e.var ≤ i ∧
    ∃ e0, trail[DecisionTrail.Rank trail e.var]? = some e0 ∧ e0.var = e.var := by
  have hle : DecisionTrail.Rank trail e.var ≤ i := by
    unfold DecisionTrail.Rank
    apply List.indexOf_le_of_getElem?
    rw [List.getElem?_map, h]
    rfl
  have hi : i < trail.length := (List.getElem?_eq_some_iff.mp h).1
  have hlt : DecisionTrail.Rank trail e.var < trail.length := by omega
  refine ⟨hle, trail[DecisionTrail.Rank trail e.var], List.getElem?_eq_getElem hlt, ?_⟩
  have hlt2 : List.indexOf e.var (trail.map (fun e => e.var)) <
      (trail.map (fun e => e.var)).length := by
    simpa [DecisionTrail.Rank] using hlt
  have h1 := List.getElem_indexOf hlt2
  rw [List.getElem_map] at h1
  exact h1

namespace CdclSolver

variable {S : Type}

/-- An entry that is no assumption is the first entry of its variable: its position is the rank
of the variable. -/
theorem Sound.rank_entry {F : Formula} {s : CdclSolver S} (hs : Sound F s) {i : Nat}
    {e : DecisionTrail.Entry} (h : s.trail.trail[i]? = some e)
    (hra : e.reason ≠ DecisionTrail.ReasonAssumption) :
    DecisionTrail.Rank s.trail.trail e.var = i := by
  obtain ⟨hle, e0, he0, hvar⟩ := DecisionTrail.Rank_le h
  by_contra hne
  exact hra (hs.dups _ i e0 e (by omega) he0 h hvar)

end CdclSolver

namespace CdclSolver

variable {S : Type}

theorem AnalysisTrackOf_count_zero {t : CdclSolver S} (st : AnalysisTrackState)
    (hne : st ≠ .Untracked) (h : t.ext.analysis_track.count st = 0) (v : Nat) :
    AnalysisTrackOf t v ≠ st := by
  intro hv
  have := AnalysisTrackOf_index hv hne
  have hm := List.getElem?_mem this
  have := List.count_pos_iff.mpr hm
  omega

/-- The loop of the conflict analysis resolves soundly: under every valuation that satisfies the
formula, a literal collected in the clause builder is true or the valuation disagrees with the
assignment on the variable at which the loop stops. -/
theorem AnalyzeConflictLoop_sound (P : Platform S) (F : Formula) :
    ∀ (n : Nat) (a a1 : ConflictAnalysis S) (lits : List Literal) (ti ti1 : Nat),
      Sound F a.solver → a.solver.formula.WellFormed →
      (∀ e ∈ a.solver.trail.trail, 1 ≤ e.var) →
      (∀ l ∈ lits, l ≠ 0 ∧ Literal.Variable l ≤ a.solver.formula.num_of_variables) →
      (∀ l ∈ a.solver.ext.learned_clause.literals, Literal.IsFalse l a.solver.assignment) →
      (∀ l ∈ lits, Literal.IsFalse l a.solver.assignment →
        AnalysisTrackOf a.solver (Literal.Variable l) ≠ .Processed) →
      (∀ v, 1 ≤ v → AnalysisTrackOf a.solver v = .Processed →
        ti ≤ DecisionTrail.Rank a.solver.trail.trail v) →
      a.number_of_paths = a.solver.ext.analysis_track.count .Pending + 1 →
      (∀ M : Nat → Bool, F.value M = true → Resolvent a.solver M ∨
        ∃ l ∈ lits, Literal.value M l = true ∧ Literal.IsFalse l a.solver.assignment) →
      AnalyzeConflictLoop P n a lits ti = .ok (a1, ti1) →
      BaseSolver.SameShared a1.solver a.solver ∧
      a1.solver.ext.analysis_track.length = a.solver.ext.analysis_track.length ∧
      (∀ l ∈ a1.solver.ext.learned_clause.literals, Literal.IsFalse l a.solver.assignment) ∧
      ti1 < a.solver.trail.Length ∧
      ∀ M : Nat → Bool, F.value M = true →
        (∃ l ∈ a1.solver.ext.learned_clause.literals, Literal.value M l = true) ∨
        a.solver.assignment.Disagree M (a.solver.trail.get ti1).var
  | 0, _, _, _, _, _, _, _, _, _, _, _, _, _, _, hr => by
    simp [AnalyzeConflictLoop] at hr
  | n + 1, a, a1, lits, ti, ti1, hs, hwf, htr, hl, hb, hnp, hproc, hcount, hres, hr => by
    unfold AnalyzeConflictLoop at hr
    split at hr
    · cases hr
    · rename_i a2 ha2
      obtain ⟨he, hb2, hcov⟩ := AnalyzeClause_sound P F lits a a2 hs hl hb ha2
      have hs2 : Sound F a2.solver := hs.of_same he.shared he.track_length
      have hα : a2.solver.assignment = a.solver.assignment := he.shared.assignment
      have htrail : a2.solver.trail = a.solver.trail := he.shared.trail
      have hform : a2.solver.formula = a.solver.formula := he.shared.formula
      -- the resolvent after the clause was analysed
      have hres2 : ∀ M : Nat → Bool, F.value M = true → Resolvent a2.solver M := by
        intro M hM
        rcases hres M hM with h1 | ⟨l, hlm, hlv, hlf⟩
        · rcases h1 with ⟨l, hlm, hlv⟩ | ⟨v, hv1, hvp, hvd⟩
          · exact Or.inl ⟨l, he.builder l hlm, hlv⟩
          · refine Or.inr ⟨v, hv1, he.pending v hvp, ?_⟩
            rw [hα]; exact hvd
        · rcases hcov l hlm hlf with h2 | h2
          · exact Or.inl ⟨l, h2, hlv⟩
          · have hl0 := (hl l hlm).1
            refine Or.inr ⟨Literal.Variable l, Literal.variable_pos hl0, ?_, ?_⟩
            · cases hc : AnalysisTrackOf a2.solver (Literal.Variable l) with
              | Untracked => exact absurd hc h2
              | Pending => rfl
              | Processed => exact absurd ((he.processed _).mp hc) (hnp l hlm hlf)
            · rw [hα]
              exact (hlf.value_iff hl0 M).mp hlv
      simp only at hr
      split at hr
      · cases hr
      · rename_i ti2 hti2
        obtain ⟨hle, hlt, hpend⟩ := FindPending_spec _ _ _ hti2
        have hlt2 : ti2 < a2.solver.trail.Length := hlt
        have hpend2 : AnalysisTrackOf a2.solver (a2.solver.trail.get ti2).var = .Pending := hpend
        have hget := get_getElem? _ _ hlt2
        have hmem := DecisionTrail.get_mem_trail _ _ hlt2
        have hv1 : 1 ≤ (a2.solver.trail.get ti2).var := htr _ (by rw [← htrail]; exact hmem)
        have hassn := hs2.trail_assignment _ hmem
        have hidx := AnalysisTrackOf_index hpend2 (by simp)
        have hlen : (a2.solver.trail.get ti2).var - 1 < a2.solver.ext.analysis_track.length := by
          by_contra hcon
          rw [List.getElem?_eq_none (by omega)] at hidx
          cases hidx
        have hcnt := List.count_set_remove .Pending .Processed (by simp) _ _ hidx
        have hc2 := he.count
        -- the state after the entry was marked `Processed`
        have hs3a : BaseSolver.SameShared
            (SetAnalysisTrackOf a2.solver (a2.solver.trail.get ti2).var .Processed) a2.solver :=
          ⟨rfl, rfl, rfl, rfl, rfl, rfl⟩
        have hk3 : (SetAnalysisTrackOf a2.solver (a2.solver.trail.get ti2).var
            .Processed).ext.analysis_track.length = a2.solver.ext.analysis_track.length := by
          simp [SetAnalysisTrackOf]
        have hs3 : Sound F (SetAnalysisTrackOf a2.solver (a2.solver.trail.get ti2).var
            .Processed) := hs2.of_same hs3a hk3
        have htrack : ∀ u, 1 ≤ u → AnalysisTrackOf
            (SetAnalysisTrackOf a2.solver (a2.solver.trail.get ti2).var .Processed) u =
            if u = (a2.solver.trail.get ti2).var then .Processed
            else AnalysisTrackOf a2.solver u := by
          intro u hu
          rw [AnalysisTrackOf_set]
          by_cases hu2 : u = (a2.solver.trail.get ti2).var
          · rw [if_pos ⟨by rw [hu2], hlen⟩, if_pos hu2]
          · rw [if_neg (fun hc => hu2 (by omega)), if_neg hu2]
        have hres3 : ∀ M : Nat → Bool, F.value M = true →
            Resolvent (SetAnalysisTrackOf a2.solver (a2.solver.trail.get ti2).var .Processed) M ∨
            a2.solver.assignment.Disagree M (a2.solver.trail.get ti2).var := by
          intro M hM
          rcases hres2 M hM with ⟨l, hlm, hlv⟩ | ⟨v, hv, hvp, hvd⟩
          · exact Or.inl (Or.inl ⟨l, hlm, hlv⟩)
          · by_cases hveq : v = (a2.solver.trail.get ti2).var
            · right
              rw [← hveq]; exact hvd
            · left
              refine Or.inr ⟨v, hv, ?_, hvd⟩
              rw [htrack v hv, if_neg hveq]
              exact hvp
        have hexit : a2.number_of_paths - 1 ≤ 1 →
            BaseSolver.SameShared
              (SetAnalysisTrackOf a2.solver (a2.solver.trail.get ti2).var .Processed) a.solver ∧
            (SetAnalysisTrackOf a2.solver (a2.solver.trail.get ti2).var
              .Processed).ext.analysis_track.length = a.solver.ext.analysis_track.length ∧
            (∀ l ∈ (SetAnalysisTrackOf a2.solver (a2.solver.trail.get ti2).var
              .Processed).ext.learned_clause.literals, Literal.IsFalse l a.solver.assignment) ∧
            ti2 < a.solver.trail.Length ∧
            ∀ M : Nat → Bool, F.value M = true →
              (∃ l ∈ (SetAnalysisTrackOf a2.solver (a2.solver.trail.get ti2).var
                .Processed).ext.learned_clause.literals, Literal.value M l = true) ∨
              a.solver.assignment.Disagree M (a.solver.trail.get ti2).var := by
          intro hnop
          refine ⟨hs3a.trans he.shared, hk3.trans he.track_length, hb2, ?_, ?_⟩
          · rw [← htrail]; exact hlt2
          · intro M hM
            rw [← htrail, ← hα]
            rcases hres3 M hM with (h1 | ⟨v, hv, hvp, _⟩) | h1
            · exact Or.inl h1
            · exfalso
              refine AnalysisTrackOf_count_zero .Pending (by simp) ?_ v hvp
              show (a2.solver.ext.analysis_track.set _ .Processed).count .Pending = 0
              omega
            · exact Or.inr h1
        split_ifs at hr with h1 h2 h3
        · -- another round with the reason of the entry
          have h0 : 0 ≤ (a2.solver.trail.get ti2).reason := by
            simpa [DecisionTrail.IsPropagatedFromClause] using h1
          obtain ⟨hown, hothers⟩ := hs2.reasons ti2 _ hget h0
          have hrank := hs2.rank_entry hget (by
            intro hc
            rw [hc] at h0
            exact absurd h0 (by decide))
          have ih := AnalyzeConflictLoop_sound P F n _ a1 _ ti2 ti1 hs3
            (by show a2.solver.formula.WellFormed; rw [hform]; exact hwf)
            (by show ∀ e ∈ a2.solver.trail.trail, 1 ≤ e.var; rw [htrail]; exact htr)
            (by
              show ∀ l ∈ (a2.solver.formula.get _).clause, l ≠ 0 ∧
                Literal.Variable l ≤ a2.solver.formula.num_of_variables
              rw [hform]
              exact Formula.get_wellFormed hwf _)
            (by
              show ∀ l ∈ a2.solver.ext.learned_clause.literals,
                Literal.IsFalse l a2.solver.assignment
              rw [hα]; exact hb2)
            (by
              show ∀ l ∈ (a2.solver.formula.get _).clause,
                Literal.IsFalse l a2.solver.assignment → _
              intro l hlm hlf
              have hl0 : l ≠ 0 := by
                have := Formula.get_wellFormed hwf (a2.solver.trail.get ti2).reason.toNat l
                  (by rw [← hform]; exact hlm)
                exact this.1
              rw [htrack _ (Literal.variable_pos hl0)]
              rcases hothers l hlm with h4 | ⟨_, h4⟩
              · exfalso
                rw [h4, ← hassn.1] at hlf
                exact Literal.mk_not_isFalse _ _ hv1 (by rw [hassn.1]; exact hassn.2) hlf
              · split_ifs with h5
                · rw [h5, hrank] at h4
                  omega
                · intro h6
                  have := hproc _ (Literal.variable_pos hl0) ((he.processed _).mp h6)
                  rw [← htrail] at this
                  omega)
            (by
              intro v hv hvp
              rw [htrack v hv] at hvp
              show ti2 ≤ DecisionTrail.Rank a2.solver.trail.trail v
              split_ifs at hvp with h5
              · rw [h5, hrank]
              · have := hproc v hv ((he.processed _).mp hvp)
                rw [← htrail] at this
                omega)
            (by
              show a2.number_of_paths - 1 =
                (a2.solver.ext.analysis_track.set _ .Processed).count .Pending + 1
              omega)
            (by
              intro M hM
              rcases hres3 M hM with h4 | h4
              · exact Or.inl h4
              · right
                have hcm := Formula.get_mem_of_literal _ _ hown
                have hcv := hs2.implied M hM _ hcm
                obtain ⟨l, hlm, hlv⟩ := ClauseView.value_true hcv
                refine ⟨l, hlm, hlv, ?_⟩
                rcases hothers l hlm with h5 | ⟨h5, _⟩
                · exfalso
                  have := (Literal.value_mk_of_disagree _ M _ hv1
                    (by rw [hassn.1]; exact hassn.2) h4).2
                  rw [hassn.1, ← h5, hlv] at this
                  cases this
                · exact h5)
            hr
          obtain ⟨i1, i2, i3, i4, i5⟩ := ih
          refine ⟨i1.trans (hs3a.trans he.shared), i2.trans (hk3.trans he.track_length), ?_, ?_, ?_⟩
          · intro l hlm
            have := i3 l hlm
            rw [← hα]; exact this
          · rw [← htrail]; exact i4
          · intro M hM
            rw [← htrail, ← hα]
            exact i5 M hM
        · cases hr
          exact hexit (by
            have : ¬ (a2.number_of_paths - 1 > 1) := h2
            omega)
        · cases hr
          exact hexit (by
            have : a2.number_of_paths - 1 = 1 := by
              by_contra hc
              exact h3 hc
            omega)

end CdclSolver

end pjos

namespace pjos

theorem Formula.value_all (f : Formula) (M : Nat → Bool) :
    f.value M = true ↔ ∀ c ∈ f.clauses, ClauseView.value M c = true := by
  unfold Formula.value
  rw [List.all_eq_true]

namespace CdclSolver

variable {S : Type}

/-- The invariant does not depend on the formula but for the clauses being implied. -/
theorem Sound.self {F : Formula} {s : CdclSolver S} (hs : Sound F s) : Sound s.formula s :=
  ⟨hs.tight, hs.trail_assignment, hs.assigned_on_trail, hs.dups, hs.index, hs.reasons,
    hs.levels, hs.level_last, hs.level_reason,
    fun M hM c hc => (Formula.value_all _ M).mp hM c hc, hs.track_length⟩

/-- AnalyzeConflict on a clause of the formula all of whose literals are false: the learned
clause follows from the clauses of the solver, and all its literals are false. -/
theorem AnalyzeConflict_sound (P : Platform S) (hP : P.SetOrderOk) (F : Formula) (iter : Nat)
    (s s1 : CdclSolver S) (conflict : ClauseView) (learned : Clause) (level : Nat)
    (hs : Sound F s) (hi : Inv s iter) (hb : s.ext.learned_clause.literals = [])
    (hfalse : ∀ l ∈ conflict.clause, Literal.IsFalse l s.assignment)
    (hmem : conflict ∈ s.formula.clauses)
    (hr : AnalyzeConflict P s conflict = .ok (learned, level, s1)) :
    Sound F s1 ∧ s1.ext.learned_clause.literals = [] ∧
    (∀ l ∈ learned.clause, Literal.IsFalse l s.assignment) ∧
    (∀ M : Nat → Bool, (∀ c ∈ s.formula.clauses, ClauseView.value M c = true) →
      ClauseView.value M learned = true) := by
  unfold AnalyzeConflict at hr
  split_ifs at hr with h0
  simp only at hr
  split at hr
  · cases hr
  · rename_i a ti hloop
    have hs0a : BaseSolver.SameShared (ClearAnalysisTrack s) s := ⟨rfl, rfl, rfl, rfl, rfl, rfl⟩
    have hk0 : (ClearAnalysisTrack s).ext.analysis_track.length = s.ext.analysis_track.length := by
      simp [ClearAnalysisTrack]
    have hclear : Sound s.formula (ClearAnalysisTrack s) := hs.self.of_same hs0a hk0
    have hwf := hi.consistent.wf
    obtain ⟨l1, l2, l3, l4, l5⟩ := AnalyzeConflictLoop_sound P s.formula _
      ⟨ClearAnalysisTrack s, 1, 0⟩ a conflict.clause _ ti hclear hwf
      (fun e he => (hi.trail_range e he).1)
      (fun l hl => hwf conflict hmem l hl)
      (fun l hl => by
        have : l ∈ s.ext.learned_clause.literals := hl
        rw [hb] at this
        simp at this)
      (fun l _ _ => by rw [AnalysisTrackOf_clear]; simp)
      (fun v _ hv => by rw [AnalysisTrackOf_clear] at hv; cases hv)
      (by
        show 1 = (List.replicate _ AnalysisTrackState.Untracked).count .Pending + 1
        rw [List.count_replicate]
        simp)
      (fun M hM => by
        right
        have := (Formula.value_all _ M).mp hM conflict hmem
        obtain ⟨l, hl, hv⟩ := ClauseView.value_true this
        exact ⟨l, hl, hv, hfalse l hl⟩)
      hloop
    have hs0 : BaseSolver.SameShared a.solver s := l1.trans hs0a
    have hlt : ti < s.trail.Length := l4
    have hmemt := DecisionTrail.get_mem_trail _ _ hlt
    have hentry := hi.trail_range _ hmemt
    have hassn := hs.trail_assignment _ hmemt
    have hne : s.assignment.get (s.trail.get ti).var ≠ .Unassigned := by
      rw [hassn.1]; exact hassn.2
    have htrail : a.solver.trail = s.trail := hs0.trail
    rw [htrail] at hr
    split at hr
    · cases hr
    · rename_i evsids hev
      split_ifs at hr with h1 h2 h3
      all_goals
        cases hr
        refine ⟨?_, ?_, ?_, ?_⟩
        · refine hs.of_same ⟨hs0.formula, hs0.variable_index, hs0.watchers, hs0.assignment,
            rfl, hs0.pending⟩ ?_
          exact l2.trans hk0
        · rfl
        · intro l hl
          simp only [ClauseBuilder.Make] at hl
          have hl2 := (hP _).subset hl
          rcases ClauseBuilder.mem_Add_iff _ _ l hl2 with h4 | h4
          · exact l3 l h4
          · rw [h4, ← hassn.1]
            exact Literal.mk_flip_isFalse _ _ hne
        · intro M hM
          simp only [ClauseBuilder.Make]
          rcases l5 M ((Formula.value_all _ M).mpr hM) with ⟨l, hl, hv⟩ | hd
          · exact ClauseView.value_of_mem ((hP _).symm.subset (ClauseBuilder.mem_Add _ _ l hl)) hv
          · refine ClauseView.value_of_mem
              ((hP _).symm.subset (ClauseBuilder.mem_Add_self _ _)) ?_
            have := (Literal.value_mk_of_disagree _ M _ hentry.1 hne hd).1
            rw [hassn.1] at this
            exact this

end CdclSolver

end pjos

namespace pjos

namespace Watcher

/-- A `Unit` watcher with an exact status: every literal of the clause other than the first
watch is false. -/
theorem unit_others {w : Watcher} {assn : Assignment} {r : Nat → Nat} (hok : w.Ok assn)
    (ht : w.Tight assn r) (hs : w.status = .Unit) :
    w.clause.get w.watched_literals.1.toNat ∈ w.clause.clause ∧
    ∀ l ∈ w.clause.clause, l = w.clause.get w.watched_literals.1.toNat ∨
      Literal.IsFalse l assn := by
  have hne : w.watched_literals.1 ≠ -1 := hok.1.2.2 hs
  have hst : w.status ≠ .Satisfied := by rw [hs]; decide
  refine ⟨Watcher.watch_mem hok.1.1 hne, ?_⟩
  intro l hl
  obtain ⟨i, hi, hget⟩ := (mem_iff_get _ _).mp hl
  by_cases hiw : (i : Int) = w.watched_literals.1
  · left
    rw [← hget, ← hiw]
    simp
  · right
    refine ⟨?_, ht.2.2.1 hst l hl⟩
    have := ht.2.1.2 (ht.1.1 hs) i hi hiw
    rw [hget] at this
    exact this

/-- An `Unsatisfied` watcher with an exact status: every literal of the clause is false. -/
theorem unsatisfied_all_false {w : Watcher} {assn : Assignment} {r : Nat → Nat}
    (ht : w.Tight assn r) (hs : w.status = .Unsatisfied) :
    ∀ l ∈ w.clause.clause, Literal.IsFalse l assn := by
  have hst : w.status ≠ .Satisfied := by rw [hs]; decide
  intro l hl
  exact ⟨ht.2.1.1 (ht.1.2 hs).1 l hl, ht.2.2.1 hst l hl⟩

end Watcher

namespace CdclSolver

variable {S : Type}

/-- One pass of the loop over the watchers keeps the soundness invariant, and a conflict it
reports is a clause of the formula all of whose literals are false. -/
theorem UnitPropagationFor_sound (F : Formula) (iter : Nat) :
    ∀ (n i : Nat) (s : CdclSolver S) (b : Bool), Inv s iter → Sound F s →
      i + n ≤ s.watchers.length →
      Sound F (BaseSolver.UnitPropagationFor n i s b).solver ∧
      (BaseSolver.UnitPropagationFor n i s b).solver.ext.learned_clause =
        s.ext.learned_clause ∧
      ∀ c, (BaseSolver.UnitPropagationFor n i s b).conflict = some c →
        (BaseSolver.UnitPropagationFor n i s b).solver.formula.get c ∈
          (BaseSolver.UnitPropagationFor n i s b).solver.formula.clauses ∧
        ∀ l ∈ ((BaseSolver.UnitPropagationFor n i s b).solver.formula.get c).clause,
          Literal.IsFalse l (BaseSolver.UnitPropagationFor n i s b).solver.assignment
  | 0, i, s, b, _, hs, _ => by
    unfold BaseSolver.UnitPropagationFor
    exact ⟨hs, rfl, fun c hc => by cases hc⟩
  | n + 1, i, s, b, h, hs, hle => by
    have hi : i < s.watchers.length := by omega
    have hw : s.watchers[i]? = some (s.watchers.getD i (Watcher.new ⟨[], 0⟩)) := by
      rw [List.getD_eq_getElem?_getD, List.getElem?_eq_getElem hi]; rfl
    have hwm := List.getElem?_mem hw
    have hc := h.consistent.watcher_clause hw
    have hok := h.consistent.watchers_ok _ hwm
    have htight := hs.tight _ hwm
    unfold BaseSolver.UnitPropagationFor
    simp only [Watcher.Status, Watcher.WatchedLiterals]
    split_ifs with h1 h2
    · -- the watcher is `Unit`: propagate
      obtain ⟨hl0, hlN, hlu⟩ := unit_literal h.consistent hw h1
      have hv1 := Literal.variable_pos hl0
      obtain ⟨hu1, hu2⟩ := Watcher.unit_others hok htight h1
      rw [← hc.2.2] at hu1 hu2
      refine ⟨?_, rfl, fun c hc => by cases hc⟩
      refine hs.assign_push h _ _
        ⟨_, _, (i : Int), s.trail.level⟩ hv1 hlN hlu (Literal.assignment_ne_unassigned _)
        rfl rfl (le_refl _) (Or.inl (Int.ofNat_nonneg i)) ?_ rfl rfl rfl rfl rfl rfl rfl rfl
      intro _
      show Literal.mk _ _ ∈ (s.formula.get (i : Int).toNat).clause ∧
        ∀ l ∈ (s.formula.get (i : Int).toNat).clause, _
      rw [Int.toNat_ofNat]
      show Literal.mk (Literal.Assignment _).1 (Literal.Assignment _).2 ∈ _ ∧
        ∀ l ∈ _, l = Literal.mk (Literal.Assignment _).1 (Literal.Assignment _).2 ∨ _
      rw [Literal.mk_assignment]
      exact ⟨hu1, hu2⟩
    · refine ⟨hs, rfl, fun c hcc => ?_⟩
      simp only [Option.some.injEq] at hcc
      subst hcc
      refine ⟨BaseSolver.Formula_get_mem _ _ hc.2.1, ?_⟩
      rw [hc.2.2]
      exact Watcher.unsatisfied_all_false htight h2
    · exact UnitPropagationFor_sound F iter n (i + 1) s _ h hs (by omega)

/-- UnitPropagation keeps the soundness invariant, and the conflict of the result `Unsat` is a
clause of the formula all of whose literals are false. -/
theorem UnitPropagationLoop_sound (F : Formula) (iter : Nat) :
    ∀ (fuel : Nat) (s s1 : CdclSolver S) (r : UnitPropagationResult) (c : Nat), Inv s iter →
      Sound F s → BaseSolver.UnitPropagationLoop fuel s = .ok (s1, r, c) →
      Sound F s1 ∧ s1.ext.learned_clause = s.ext.learned_clause ∧
      (r = .Unsat → s1.formula.get c ∈ s1.formula.clauses ∧
        ∀ l ∈ (s1.formula.get c).clause, Literal.IsFalse l s1.assignment)
  | 0, s, s1, r, c, _, _, hr => by
    simp [BaseSolver.UnitPropagationLoop] at hr
  | fuel + 1, s, s1, r, c, h, hs, hr => by
    have hp := UnitPropagationFor_spec iter s.watchers.length 0 s true h (by omega)
    have hq := UnitPropagationFor_sound F iter s.watchers.length 0 s true h hs (by omega)
    unfold BaseSolver.UnitPropagationLoop at hr
    simp only at hr
    split at hr
    · rename_i cc hcc
      cases hr
      exact ⟨hq.1, hq.2.1, fun _ => hq.2.2 _ hcc⟩
    · split_ifs at hr with h1 hall
      · have ih := UnitPropagationLoop_sound F iter fuel _ s1 r c hp.1 hq.1 hr
        exact ⟨ih.1, ih.2.1.trans hq.2.1, ih.2.2⟩
      · cases hr
        exact ⟨hq.1, hq.2.1, fun hc => by cases hc⟩
      · cases hr
        exact ⟨hq.1, hq.2.1, fun hc => by cases hc⟩

end CdclSolver

end pjos

namespace pjos

namespace CdclSolver

variable {S : Type}

/-- Backjump keeps the soundness invariant, and it does not fail when the levels of the trail
are consistent: the trail is not empty above level zero. -/
theorem BackjumpLoop_sound (F : Formula) (iter level : Nat) :
    ∀ (n : Nat) (s s1 : CdclSolver S) (b : Bool), Inv s iter → Sound F s →
      BackjumpLoop level n s = .ok (b, s1) →
      Sound F s1 ∧ b = true ∧ s1.ext.learned_clause = s.ext.learned_clause
  | 0, _, _, _, _, _, hr => by
    simp [BackjumpLoop] at hr
  | n + 1, s, s1, b, h, hs, hr => by
    unfold BackjumpLoop at hr
    split_ifs at hr with h0
    · have htop : s.trail.Top = (s.trail.trail.getLast?, s.trail) := by
        unfold DecisionTrail.Top
        simp only [h.skipStale]
      simp only [htop] at hr
      split at hr
      · rename_i hnone
        exfalso
        have hl := hs.level_last
        rw [hnone] at hl
        simp only [Option.map_none', Option.getD_none] at hl
        have h0a : s.trail.level > level := h0
        omega
      · rename_i e he
        split_ifs at hr with h1 h2
        · have hi2 : Inv ({ s with ext := { s.ext with
              saved_phases := s.ext.saved_phases.set e.var e.assignment } } : CdclSolver S) iter :=
            h.of_shared ⟨rfl, rfl, rfl, rfl, rfl, rfl⟩ (fun v hv => hv) h.builder_ok
          have hrange := h.trail_range e (List.mem_of_mem_getLast? he)
          have hi3 := hi2.assign e.var .Unassigned hrange.1 hrange.2
            (fun j v a hj hp hv =>
              DecisionTrail.Guarded.top_var_ne (h.applied j v a hj hp).2 he h1 hv.symm)
          have hi4 := hi3.pop he h1
          have hs4 : Sound F ({ (BaseSolver.Assign ({ s with ext := { s.ext with
                saved_phases := s.ext.saved_phases.set e.var e.assignment } } : CdclSolver S)
                e.var .Unassigned) with
              trail := (BaseSolver.Assign ({ s with ext := { s.ext with
                saved_phases := s.ext.saved_phases.set e.var e.assignment } } : CdclSolver S)
                e.var .Unassigned).trail.Pop } : CdclSolver S) :=
            hs.unassign_pop h e he h1 rfl rfl rfl rfl rfl rfl
          have ih := BackjumpLoop_sound F iter level n _ s1 b hi4 hs4 hr
          exact ⟨ih.1, ih.2.1, ih.2.2⟩
        · have hrange := h.trail_range e (List.mem_of_mem_getLast? he)
          have hi3 := h.assign e.var .Unassigned hrange.1 hrange.2
            (fun j v a hj hp hv =>
              DecisionTrail.Guarded.top_var_ne (h.applied j v a hj hp).2 he h1 hv.symm)
          have hi4 := hi3.pop he h1
          have hs4 : Sound F ({ (BaseSolver.Assign s e.var .Unassigned) with
              trail := (BaseSolver.Assign s e.var .Unassigned).trail.Pop } : CdclSolver S) :=
            hs.unassign_pop h e he h1 rfl rfl rfl rfl rfl rfl
          have ih := BackjumpLoop_sound F iter level n _ s1 b hi4 hs4 hr
          exact ⟨ih.1, ih.2.1, ih.2.2⟩
    · cases hr
      exact ⟨hs, rfl, rfl⟩

end CdclSolver

end pjos

namespace pjos

namespace BaseSolver

variable {X : Type}

theorem VerifyPendingAssignments_no_assumptions (s : BaseSolver X) :
    ∀ (l : List (Nat × VariableAssignment × Bool)), (∀ p ∈ l, p.2.2 = false) →
      s.VerifyPendingAssignments l = none
  | [], _ => rfl
  | (var, a, flag) :: rest, h => by
    unfold VerifyPendingAssignments
    simp only
    have hf : flag = false := h (var, a, flag) (List.mem_cons_self _ _)
    rw [if_neg (by rw [hf]; simp)]
    exact VerifyPendingAssignments_no_assumptions s rest
      (fun p hp => h p (List.mem_cons_of_mem _ hp))

end BaseSolver

namespace CdclSolver

variable {S : Type}

theorem AppendClause_learned (P : Platform S) (s : CdclSolver S) (c : Clause) :
    (AppendClause P s c).ext.learned_clause = s.ext.learned_clause := by
  simp only [AppendClause, AttachClause, BaseSolver.AttachClause_ext]

/-- Without decisions every valuation that satisfies the formula agrees with the assignment:
the entries of the trail at level zero are propagations from clauses. -/
theorem Sound.level_zero_agree {F : Formula} {s : CdclSolver S} {iter : Nat} (hs : Sound F s)
    (hi : Inv s iter) (h0 : s.trail.level = 0) (M : Nat → Bool) (hM : F.value M = true) :
    ∀ (n i : Nat) (e : DecisionTrail.Entry), i < n → s.trail.trail[i]? = some e →
      ¬ s.assignment.Disagree M e.var
  | 0, i, _, hlt, _ => by omega
  | n + 1, i, e, _, he => by
    intro hd
    have hmem := List.getElem?_mem he
    have hrange := hi.trail_range e hmem
    have hassn := hs.trail_assignment e hmem
    have hne : s.assignment.get e.var ≠ .Unassigned := by rw [hassn.1]; exact hassn.2
    have hlev := hs.level_le e hmem
    have hreason : 0 ≤ e.reason := by
      rcases hs.level_reason e hmem with h1 | h1
      · exact h1
      · omega
    obtain ⟨hown, hothers⟩ := hs.reasons i e he hreason
    have hcm := Formula.get_mem_of_literal _ _ hown
    obtain ⟨l, hlm, hlv⟩ := ClauseView.value_true (hs.implied M hM _ hcm)
    rcases hothers l hlm with h1 | ⟨h1, h2⟩
    · have := (Literal.value_mk_of_disagree _ M _ hrange.1 hne hd).2
      rw [hassn.1, ← h1, hlv] at this
      cases this
    · have hwf := hi.consistent.wf _ hcm l hlm
      have hv1 := Literal.variable_pos hwf.1
      obtain ⟨e1, he1, hvar⟩ := hs.assigned_on_trail _ hv1 hwf.2 h1.1
      obtain ⟨j, hj⟩ := List.mem_iff_getElem?.mp he1
      have hrank := hs.rank_entry hj (by
        intro hc
        have hl1 := hs.level_le e1 he1
        rcases hs.level_reason e1 he1 with h7 | h7
        · rw [hc] at h7
          exact absurd h7 (by decide)
        · omega)
      rw [hvar] at hrank
      have hdis := (h1.value_iff hwf.1 M).mp hlv
      rw [← hvar] at hdis
      have hjn : j < n := by omega
      exact Sound.level_zero_agree hs hi h0 M hM n j e1 hjn hj hdis

/-- A clause of the formula all of whose literals are false while the trail holds no decision:
the formula that the solver was given has no model. -/
theorem Sound.level_zero_conflict {F : Formula} {s : CdclSolver S} {iter : Nat} (hs : Sound F s)
    (hi : Inv s iter) (h0 : s.trail.level = 0) (c : ClauseView) (hc : c ∈ s.formula.clauses)
    (hfalse : ∀ l ∈ c.clause, Literal.IsFalse l s.assignment) (M : Nat → Bool) :
    F.value M = false := by
  by_contra hne
  have hM : F.value M = true := by
    cases hv : F.value M with
    | true => rfl
    | false => exact absurd hv hne
  obtain ⟨l, hlm, hlv⟩ := ClauseView.value_true (hs.implied M hM c hc)
  have hf := hfalse l hlm
  have hwf := hi.consistent.wf c hc l hlm
  have hv1 := Literal.variable_pos hwf.1
  obtain ⟨e1, he1, hvar⟩ := hs.assigned_on_trail _ hv1 hwf.2 hf.1
  obtain ⟨j, hj⟩ := List.mem_iff_getElem?.mp he1
  have hdis := (hf.value_iff hwf.1 M).mp hlv
  rw [← hvar] at hdis
  exact Sound.level_zero_agree hs hi h0 M hM (j + 1) j e1 (by omega) hj hdis

/-- A decision on an unassigned variable keeps the soundness invariant. -/
theorem Sound.decide_on {F : Formula} {s : CdclSolver S} {iter : Nat} (hs : Sound F s)
    (hi : Inv s iter) (u : Nat) (val : VariableAssignment) (hu1 : 1 ≤ u)
    (hu2 : u ≤ s.formula.num_of_variables) (hun : s.assignment.get u = .Unassigned)
    (hval : val ≠ .Unassigned) :
    Sound F (BaseSolver.Assign ({ s with trail := s.trail.Decision u val } : CdclSolver S)
      u val) :=
  hs.assign_push hi u val ⟨u, val, DecisionTrail.ReasonDecision, s.trail.level + 1⟩ hu1 hu2 hun
    hval rfl rfl (by show s.trail.level ≤ s.trail.level + 1; omega)
    (Or.inr (by show 1 ≤ s.trail.level + 1; omega))
    (fun h => by
      have : (0 : Int) ≤ DecisionTrail.ReasonDecision := h
      unfold DecisionTrail.ReasonDecision at this
      omega)
    rfl rfl rfl rfl rfl rfl rfl rfl

/-- A pending assignment that is no assumption succeeds and keeps the soundness invariant. -/
theorem Sound.pending {F : Formula} {s : CdclSolver S} {iter : Nat} (hs : Sound F s)
    (hi : Inv s iter) (v : Nat) (a : VariableAssignment) (hv1 : 1 ≤ v)
    (hv2 : v ≤ s.formula.num_of_variables) (ha : a ≠ .Unassigned) :
    (BaseSolver.PerformPendingAssignment s v a false).1 = true ∧
    Sound F (BaseSolver.PerformPendingAssignment s v a false).2 ∧
    (BaseSolver.PerformPendingAssignment s v a false).2.ext.learned_clause =
      s.ext.learned_clause := by
  unfold BaseSolver.PerformPendingAssignment
  simp only [Bool.false_eq_true, if_false]
  split_ifs with h1
  · refine ⟨rfl, ?_, rfl⟩
    exact hs.assign_push hi v a ⟨v, a, DecisionTrail.ReasonDecision, s.trail.level + 1⟩ hv1 hv2
      h1 ha rfl rfl (by show s.trail.level ≤ s.trail.level + 1; omega)
      (Or.inr (by show 1 ≤ s.trail.level + 1; omega))
      (fun h => by
        have : (0 : Int) ≤ DecisionTrail.ReasonDecision := h
        unfold DecisionTrail.ReasonDecision at this
        omega)
      rfl rfl rfl rfl rfl rfl rfl rfl
  · exact ⟨rfl, hs, rfl⟩

end CdclSolver

end pjos

namespace pjos

namespace CdclSolver

variable {S : Type}

/-- The main loop of `SolveImpl` without assumptions: when it returns `Unsatisfied`, the formula
that the solver was given has no model. -/
theorem SolveLoop_unsat (P : Platform S) (hP : P.SetOrderOk) (F : Formula) (afc : Bool) :
    ∀ (fuel : Nat) (s s1 : CdclSolver S) (iter : Nat), Inv s iter → Sound F s →
      s.ext.learned_clause.literals = [] →
      (∀ p ∈ s.pending_assignments, p.2.2 = false) →
      SolveLoop P afc fuel s iter 0 = .ok (.Unsatisfied, s1) →
      ∀ M : Nat → Bool, F.value M = false
  | 0, _, _, _, _, _, _, _, hr => by
    simp [SolveLoop] at hr
  | fuel + 1, s, s1, iter, h, hs, hb, hna, hr => by
    unfold SolveLoop at hr
    simp only at hr
    have hpoll := BaseSolver.PollInterrupt_spec s
    have hi0 : Inv s.PollInterrupt.2 iter :=
      h.of_shared hpoll.1 (by rw [hpoll.2]; exact fun v hv => hv)
        (by rw [hpoll.2]; exact h.builder_ok)
    have hs0 : Sound F s.PollInterrupt.2 := hs.of_same hpoll.1 (by rw [hpoll.2])
    have hb0 : s.PollInterrupt.2.ext.learned_clause.literals = [] := by rw [hpoll.2]; exact hb
    split at hr
    · cases hr
    · split at hr
      · cases hr
      · rename_i s2 bcp cc hup
        obtain ⟨hi2, hf2, hp2, hsat⟩ := UnitPropagationLoop_spec iter _ _ s2 bcp cc hi0 hup
        obtain ⟨hs2, hb2a, hconf⟩ := UnitPropagationLoop_sound F iter _ _ s2 bcp cc hi0 hs0 hup
        have hb2 : s2.ext.learned_clause.literals = [] := by rw [hb2a]; exact hb0
        have hna2 : ∀ p ∈ s2.pending_assignments, p.2.2 = false := by
          rw [hp2, hpoll.1.pending]; exact hna
        split at hr
        · rename_i hbcp
          split at hr
          · cases hr
          · rename_i conflict hver
            rw [BaseSolver.VerifyPendingAssignments_no_assumptions s2 _
              (fun p hp => hna2 p (List.mem_of_mem_drop hp))] at hver
            cases hver
        · split at hr
          · rename_i hbcp
            obtain ⟨hcm, hcf⟩ := hconf hbcp
            split at hr
            · rename_i hlev
              exact hs2.level_zero_conflict hi2 hlev _ hcm hcf
            · split at hr
              · cases hr
              · rename_i learned bl s3 han
                obtain ⟨hi3, hsh3, hlearned⟩ := AnalyzeConflict_spec P hP iter s2 s3 _ learned bl
                  (fun l hl => (Formula.get_wellFormed hi2.consistent.wf _ l hl).1) hi2 han
                obtain ⟨hs3, hb3, hlf, hlimp⟩ := AnalyzeConflict_sound P hP F iter s2 s3 _ learned
                  bl hs2 hi2 hb2 hcf hcm han
                obtain ⟨hi4, hf4, hp4⟩ := AppendClause_spec P iter s3 learned hi3 hlearned
                have hs4 : Sound F (AppendClause P s3 learned) :=
                  hs3.append_clause P hi3 learned (by rw [hsh3.assignment]; exact hlf)
                    (by rw [hsh3.formula]; exact hlimp)
                have hb4 : (AppendClause P s3 learned).ext.learned_clause.literals = [] := by
                  rw [AppendClause_learned]; exact hb3
                split at hr
                · rename_i hlt
                  omega
                · split at hr
                  · cases hr
                  · rename_i s5 hbj
                    have := (BackjumpLoop_sound F iter bl _ _ s5 false hi4 hs4 hbj).2.1
                    cases this
                  · rename_i s5 hbj
                    obtain ⟨hi5, hf5, hp5⟩ := BackjumpLoop_spec iter bl _ _ s5 true hi4 hbj
                    obtain ⟨hs5, _, hb5⟩ := BackjumpLoop_sound F iter bl _ _ s5 true hi4 hs4 hbj
                    have hi6 : Inv ({ s5 with ext := { s5.ext with
                        evsids := s5.ext.evsids.NextIteration P } } : CdclSolver S) iter :=
                      hi5.of_shared ⟨rfl, rfl, rfl, rfl, rfl, rfl⟩ (fun v hv => hv) hi5.builder_ok
                    have hs6 : Sound F ({ s5 with ext := { s5.ext with
                        evsids := s5.ext.evsids.NextIteration P } } : CdclSolver S) :=
                      hs5.of_same ⟨rfl, rfl, rfl, rfl, rfl, rfl⟩ rfl
                    exact SolveLoop_unsat P hP F afc fuel _ s1 iter hi6 hs6
                      (by
                        show s5.ext.learned_clause.literals = []
                        rw [hb5]; exact hb4)
                      (by
                        show ∀ p ∈ s5.pending_assignments, p.2.2 = false
                        rw [hp5, hp4, hsh3.pending]; exact hna2) hr
          · split at hr
            · -- a decision
              rename_i hiter
              split_ifs at hr with hv0 hvu hph
              all_goals
                have hpop := EVSIDSHeuristics.PopVariable_spec P s2.ext.evsids s2.assignment
                have hvar : 1 ≤ (s2.ext.evsids.PopVariable P s2.assignment).1 ∧
                    (s2.ext.evsids.PopVariable P s2.assignment).1 ≤ s2.formula.num_of_variables := by
                  rcases hpop.1 with h1 | h1
                  · exact absurd h1 hv0
                  · exact hi2.heap_range _ h1
                have hi3 : Inv ({ s2 with ext := { s2.ext with
                    evsids := (s2.ext.evsids.PopVariable P s2.assignment).2 } } : CdclSolver S)
                    iter :=
                  hi2.of_shared ⟨rfl, rfl, rfl, rfl, rfl, rfl⟩ hpop.2 hi2.builder_ok
                have hs3 : Sound F ({ s2 with ext := { s2.ext with
                    evsids := (s2.ext.evsids.PopVariable P s2.assignment).2 } } : CdclSolver S) :=
                  hs2.of_same ⟨rfl, rfl, rfl, rfl, rfl, rfl⟩ rfl
                have hun : s2.assignment.get (s2.ext.evsids.PopVariable P s2.assignment).1 =
                    .Unassigned := by
                  by_contra hne
                  exact hvu hne
              · exact SolveLoop_unsat P hP F afc fuel _ s1 iter
                  (hi3.decision _ _ hvar.1 hvar.2 hun)
                  (hs3.decide_on hi3 _ _ hvar.1 hvar.2 hun hph.2) hb2 hna2 hr
              · exact SolveLoop_unsat P hP F afc fuel _ s1 iter
                  (hi3.decision _ _ hvar.1 hvar.2 hun)
                  (hs3.decide_on hi3 _ _ hvar.1 hvar.2 hun (by simp)) hb2 hna2 hr
            · -- a pending assignment
              rename_i hiter
              have hlt : iter < s2.pending_assignments.length :=
                lt_of_le_of_ne hi2.iter_le hiter
              have hget : s2.pending_assignments[iter]? =
                  some (s2.pending_assignments.getD iter (0, .Unassigned, false)) := by
                rw [List.getD_eq_getElem?_getD, List.getElem?_eq_getElem hlt]; rfl
              have hmem := List.getElem?_mem hget
              have hflag := hna2 _ hmem
              have hrange := hi2.pending_range _ hmem
              rw [hflag] at hr
              obtain ⟨hq1, hq2, hq3⟩ := hs2.pending hi2 _ _ hrange.1 hrange.2.1 hrange.2.2
              have hget2 : s2.pending_assignments[iter]? =
                  some ((s2.pending_assignments.getD iter (0, .Unassigned, false)).1,
                    (s2.pending_assignments.getD iter (0, .Unassigned, false)).2.1, false) := by
                rw [hget]
                exact congrArg some (Prod.ext rfl (Prod.ext rfl hflag))
              obtain ⟨hi3, hf3, hp3⟩ := PerformPendingAssignment_spec iter s2 _ _ _ hi2 hget2 hq1
              split at hr
              · rename_i hperf
                rw [hq1] at hperf
                simp at hperf
              · exact SolveLoop_unsat P hP F afc fuel _ s1 (iter + 1) hi3 hq2
                  (by rw [hq3]; exact hb2) (by rw [hp3]; exact hna2) hr

end CdclSolver

end pjos

namespace pjos

namespace BaseSolver

variable {X : Type}

theorem PopulateFrom_watchers :
    ∀ (cs : List Clause) (k : Nat) (s : BaseSolver X),
      (PopulateFrom cs k s).watchers = s.watchers ++ cs.map Watcher.new ∧
      (PopulateFrom cs k s).assignment = s.assignment
  | [], _, _ => ⟨by simp [PopulateFrom], rfl⟩
  | c :: cs, k, s => by
    simp only [PopulateFrom]
    have ih := PopulateFrom_watchers cs (k + 1)
      (UpdateClauseIndex { s with watchers := s.watchers ++ [Watcher.new c] } k c)
    refine ⟨?_, ih.2⟩
    rw [ih.1]
    show (s.watchers ++ [Watcher.new c]) ++ _ = _
    simp

end BaseSolver

namespace CdclSolver

variable {S : Type}

/-- A state that is ready for a solve without assumptions satisfies the loop invariant, also
after the pure literals were added to the pending assignments. -/
theorem Inv.ready (s : CdclSolver S) (hc : s.Consistent)
    (ht : s.trail = DecisionTrail.new s.formula.num_of_variables)
    (hh : ∀ v ∈ s.ext.evsids.ordered_variables, 1 ≤ v ∧ v ≤ s.formula.num_of_variables)
    (hb : s.ext.learned_clause = ClauseBuilder.empty)
    (hp : s.pending_assignments = []) :
    Inv (if s.ext.parameters.pure_literal_elimination = true then
      ({ s with pending_assignments := s.pending_assignments ++ s.ScanPureLiterals } :
        CdclSolver S) else s) 0 := by
  have hpr : ∀ p ∈ s.pending_assignments,
      1 ≤ p.1 ∧ p.1 ≤ s.formula.num_of_variables ∧ p.2.1 ≠ .Unassigned := by
    intro p hp1
    rw [hp] at hp1
    simp at hp1
  have hinv : Inv s 0 := by
    refine ⟨hc, ?_, ?_, hh, hpr, ?_, Nat.zero_le _, ?_⟩
    · rw [ht]; intro e he; simp [DecisionTrail.new] at he
    · rw [ht]; simp [DecisionTrail.new]
    · rw [hb]; intro l hl; simp [ClauseBuilder.empty] at hl
    · intro j v a hj; omega
  split_ifs
  · refine ⟨hc.of_eq rfl rfl rfl rfl, hinv.trail_range, hinv.trail_index_length, hh, ?_,
      hinv.builder_ok, Nat.zero_le _, ?_⟩
    · intro p hp1
      have hp2 : p ∈ s.pending_assignments ++ s.ScanPureLiterals := hp1
      rw [List.mem_append] at hp2
      rcases hp2 with hp2 | hp2
      · exact hpr p hp2
      · have := BaseSolver.ScanPureLiteralsFrom_mem s _ _ p hp2
        simp only [Formula.NumOfVariables] at this
        refine ⟨this.1, ?_, this.2.2.1⟩
        show p.1 ≤ s.formula.num_of_variables
        omega
    · intro j v a hj; omega
  · exact hinv

/-- `SolveImpl` on a state that is ready for a solve without assumptions: when it returns
`Unsatisfied`, the formula has no model. -/
theorem SolveImpl_unsat (P : Platform S) (hP : P.SetOrderOk) (F : Formula) (fuel : Nat)
    (afc : Bool) (s s1 : CdclSolver S) (hc : s.Consistent)
    (ht : s.trail = DecisionTrail.new s.formula.num_of_variables)
    (hh : ∀ v ∈ s.ext.evsids.ordered_variables, 1 ≤ v ∧ v ≤ s.formula.num_of_variables)
    (hb : s.ext.learned_clause = ClauseBuilder.empty)
    (hp : s.pending_assignments = []) (hs : Sound F s)
    (hr : SolveImpl P fuel afc s = .ok (.Unsatisfied, s1)) (M : Nat → Bool) :
    F.value M = false := by
  have hinv := Inv.ready s hc ht hh hb hp
  unfold SolveImpl at hr
  simp only at hr
  have hs2 : Sound F (if s.ext.parameters.pure_literal_elimination = true then
      ({ s with pending_assignments := s.pending_assignments ++ s.ScanPureLiterals } :
        CdclSolver S) else s) := by
    split_ifs
    · exact ⟨hs.tight, hs.trail_assignment, hs.assigned_on_trail, hs.dups, hs.index,
        hs.reasons, hs.levels, hs.level_last, hs.level_reason, hs.implied, hs.track_length⟩
    · exact hs
  have hna2 : ∀ p ∈ (if s.ext.parameters.pure_literal_elimination = true then
      ({ s with pending_assignments := s.pending_assignments ++ s.ScanPureLiterals } :
        CdclSolver S) else s).pending_assignments, p.2.2 = false := by
    split_ifs
    · intro p hp1
      have hp2 : p ∈ s.pending_assignments ++ s.ScanPureLiterals := hp1
      rw [hp, List.nil_append] at hp2
      exact (BaseSolver.ScanPureLiteralsFrom_mem s _ _ p hp2).2.2.2
    · rw [hp]
      intro p hp1
      cases hp1
  have hb2 : (if s.ext.parameters.pure_literal_elimination = true then
      ({ s with pending_assignments := s.pending_assignments ++ s.ScanPureLiterals } :
        CdclSolver S) else s).ext.learned_clause.literals = [] := by
    split_ifs
    · show s.ext.learned_clause.literals = []
      rw [hb]; rfl
    · rw [hb]; rfl
  exact SolveLoop_unsat P hP F afc fuel _ s1 0 hinv hs2 hb2 hna2 hr M

/-- A new solver, after `SetParameters` and `PreSolve`, satisfies the soundness invariant for
its formula. -/
theorem fresh_sound (P : Platform S) (formula : Formula) (scoring : ScoringParameters S)
    (parameters : Parameters) :
    Sound formula
      (BaseSolver.PreSolve (SetParameters (CdclSolver.new P formula scoring) parameters)) := by
  have hfields := BaseSolver.PopulateFrom_fields formula.clauses 0
    ({ formula := formula
       variable_index := List.replicate formula.NumOfVariables VariableIndexEntry.empty
       watchers := []
       assignment := Assignment.new formula.NumOfVariables
       trail := DecisionTrail.new formula.NumOfVariables
       pending_assignments := []
       interrupt_requested := false
       current_status := .Unknown
       interrupt_request_fn := none
       interrupt_polls := 0
       fresh_solver := true
       ext := ({ parameters := Parameters.default
                 analysis_track := List.replicate formula.NumOfVariables .Untracked
                 learned_clause := ClauseBuilder.empty
                 evsids := EVSIDSHeuristics.new P formula scoring
                 saved_phases := Assignment.new formula.NumOfVariables
                 final_conflict := [] } : CdclExt S) } : CdclSolver S)
  have hw := BaseSolver.PopulateFrom_watchers formula.clauses 0
    ({ formula := formula
       variable_index := List.replicate formula.NumOfVariables VariableIndexEntry.empty
       watchers := []
       assignment := Assignment.new formula.NumOfVariables
       trail := DecisionTrail.new formula.NumOfVariables
       pending_assignments := []
       interrupt_requested := false
       current_status := .Unknown
       interrupt_request_fn := none
       interrupt_polls := 0
       fresh_solver := true
       ext := ({ parameters := Parameters.default
                 analysis_track := List.replicate formula.NumOfVariables .Untracked
                 learned_clause := ClauseBuilder.empty
                 evsids := EVSIDSHeuristics.new P formula scoring
                 saved_phases := Assignment.new formula.NumOfVariables
                 final_conflict := [] } : CdclExt S) } : CdclSolver S)
  obtain ⟨hf1, hf2, hf3, hf4, hf5⟩ := hfields
  obtain ⟨hw1, hw2⟩ := hw
  have hfresh : (SetParameters (CdclSolver.new P formula scoring) parameters).fresh_solver =
      true := hf3
  have hpre : BaseSolver.SameShared
      (BaseSolver.PreSolve (SetParameters (CdclSolver.new P formula scoring) parameters))
      (CdclSolver.new P formula scoring) ∧
      (BaseSolver.PreSolve (SetParameters (CdclSolver.new P formula scoring) parameters)).ext =
        { (CdclSolver.new P formula scoring).ext with parameters := parameters } := by
    unfold BaseSolver.PreSolve
    simp only [hfresh]
    exact ⟨⟨rfl, rfl, rfl, rfl, rfl, rfl⟩, rfl⟩
  obtain ⟨hsh, hext⟩ := hpre
  have hext0 : (CdclSolver.new P formula scoring).ext = _ := hf4
  have hα : (BaseSolver.PreSolve (SetParameters (CdclSolver.new P formula scoring)
      parameters)).assignment = Assignment.new formula.NumOfVariables := by
    rw [hsh.assignment]; exact hw2
  have htr : (BaseSolver.PreSolve (SetParameters (CdclSolver.new P formula scoring)
      parameters)).trail = DecisionTrail.new formula.NumOfVariables := by
    rw [hsh.trail]; exact hf1
  have hun : ∀ v, (BaseSolver.PreSolve (SetParameters (CdclSolver.new P formula scoring)
      parameters)).assignment.get v = .Unassigned := by
    intro v
    rw [hα]
    exact Assignment.new_get _ _
  have hform : (BaseSolver.PreSolve (SetParameters (CdclSolver.new P formula scoring)
      parameters)).formula = formula := by
    rw [hsh.formula]; exact hf5
  have hpend : (BaseSolver.PreSolve (SetParameters (CdclSolver.new P formula scoring)
      parameters)).pending_assignments = [] := by
    rw [hsh.pending]; exact hf2
  have htrack : (BaseSolver.PreSolve (SetParameters (CdclSolver.new P formula scoring)
      parameters)).ext.analysis_track =
      List.replicate formula.NumOfVariables AnalysisTrackState.Untracked := by
    rw [hext, hext0]
  refine ⟨?_, ?_, ?_, ?_, ?_, ?_, ?_, ?_, ?_, ?_, ?_⟩
  · intro w hwm
    rw [hsh.watchers] at hwm
    have hwm2 : w ∈ ([] : List Watcher) ++ formula.clauses.map Watcher.new := by
      rw [← hw1]; exact hwm
    rw [List.nil_append, List.mem_map] at hwm2
    obtain ⟨c, _, hcw⟩ := hwm2
    rw [← hcw]
    exact Watcher.new_tight c _ _ (fun l _ => hun _)
  · rw [htr]; intro e he; simp [DecisionTrail.new] at he
  · intro v _ _ hv
    exact absurd (hun v) hv
  · rw [htr]; intro i j ei ej _ hei; simp [DecisionTrail.new] at hei
  · rw [htr]
    intro k i hk
    simp only [DecisionTrail.new, List.getElem?_replicate] at hk
    split_ifs at hk
    cases hk
  · rw [htr]; intro i e he; simp [DecisionTrail.new] at he
  · rw [htr]; simp [DecisionTrail.new]
  · rw [htr]; simp [DecisionTrail.new]
  · rw [htr]; intro e he; simp [DecisionTrail.new] at he
  · intro M hM c hcm
    rw [hform] at hcm
    exact (Formula.value_all _ M).mp hM c hcm
  · rw [htrack, hform]
    simp [Formula.NumOfVariables]

/-- The first `SolveImpl` of a new solver without assumptions: when it returns `Unsatisfied`,
the formula has no model. -/
theorem fresh_unsat (P : Platform S) (hP : P.SetOrderOk) (formula : Formula)
    (hF : formula.WellFormed) (scoring : ScoringParameters S) (parameters : Parameters)
    (fuel : Nat) (afc : Bool) (s1 : CdclSolver S)
    (hr : SolveImpl P fuel afc
      (BaseSolver.PreSolve (SetParameters (CdclSolver.new P formula scoring) parameters))
        = .ok (.Unsatisfied, s1)) (M : Nat → Bool) :
    formula.value M = false := by
  obtain ⟨hc, hf, ht, hh, hb, hp⟩ := fresh_ready P formula hF scoring parameters
  exact SolveImpl_unsat P hP formula fuel afc
    (BaseSolver.PreSolve (SetParameters (CdclSolver.new P formula scoring) parameters))
    s1 hc (by rw [hf]; exact ht) (by rw [hf]; exact hh) hb hp
    (fresh_sound P formula scoring parameters) hr M

end CdclSolver

end pjos

namespace pjos

/-! ## Runs of the solvers on concrete inputs -/

/-- C2 (failing input): on `(¬x1 ∨ ¬x4 ∨ x3) (¬x1 ∨ ¬x4 ∨ ¬x3) (x4 ∨ x2)` with the assumptions
`x1, x2` a fresh `CdclSolver` returns `Unsatisfied`, although the valuation
`x1 = x2 = true, x3 = x4 = false` makes every clause and both assumptions true. -/
theorem C2_unsatisfied_on_satisfiable_input :
    resultStatus (CdclSolver.Solve exactPlatform 100
      (CdclSolver.new exactPlatform
        (Formula.ofClauses id [[-1, -4, 3], [-1, -4, -3], [4, 2]]) defaultScoring) [1, 2])
      = .ok .Unsatisfied ∧
    (Formula.ofClauses id [[-1, -4, 3], [-1, -4, -3], [4, 2]]).value (fun v => decide (v ≤ 2))
      = true ∧
    [(1 : Literal), 2].all (Literal.value (fun v => decide (v ≤ 2))) = true := by
  refine ⟨?_, ?_, ?_⟩ <;> rfl

/-- C5 (failing input): on `(¬x1)` with the assumption `x1` the call with a final conflict
output returns `Unsatisfied` and writes `¬x1`, which is not among the assumptions. -/
theorem C5_final_conflict_not_an_assumption :
    resultFinalConflict (CdclSolver.SolveFinalConflict exactPlatform 100
      (CdclSolver.new exactPlatform (Formula.ofClauses id [[-1]]) defaultScoring) [1])
      = .ok (.Unsatisfied, [-1]) ∧ ¬ ((-1 : Literal) ∈ [(1 : Literal)]) := by
  refine ⟨?_, ?_⟩
  · rfl
  · decide

/-- C6 (failing input): on `(¬x1 ∨ x2)` with the assumptions `x1, ¬x2` the call with a final
conflict output returns `Unsatisfied` with the final conflict `x2`, and the formula together
with `x2` is satisfied by the valuation that makes every variable true. -/
theorem C6_final_conflict_satisfiable :
    resultFinalConflict (CdclSolver.SolveFinalConflict exactPlatform 100
      (CdclSolver.new exactPlatform (Formula.ofClauses id [[-1, 2]]) defaultScoring) [1, -2])
      = .ok (.Unsatisfied, [2]) ∧
    (Formula.ofClauses id [[-1, 2]]).value (fun _ => true) = true ∧
    [(2 : Literal)].all (Literal.value (fun _ => true)) = true := by
  refine ⟨?_, ?_, ?_⟩ <;> rfl

/-- C8 (failing input): on `(¬x1)` with the assumption `x1` a `DpllSolver` returns `Satisfied`
with `x1` assigned `False`, under which the assumption `x1` evaluates to false. -/
theorem C8_dpll_satisfied_against_assumption :
    resultModel (DpllSolver.Solve 100 (DpllSolver.new (Formula.ofClauses id [[-1]])) [1])
      = .ok (.Satisfied, ⟨[.False]⟩) ∧
    Literal.Eval 1 ((⟨[.False]⟩ : Assignment).get (Literal.Variable 1)) = false := by
  refine ⟨?_, ?_⟩ <;> rfl

/-- C9 (failing input): on `(x1 ∨ x2) (¬x1 ∨ ¬x2)` the first two calls of `Solve()` return
`Satisfied` and the third one reaches the decision point with an empty heap, where
`assert(variable != Literal::Terminator)` fails. -/
theorem C9_third_solve_fails :
    CdclSolver.RepeatedSolve exactPlatform 100 3
      (CdclSolver.new exactPlatform (Formula.ofClauses id [[1, 2], [-1, -2]]) defaultScoring)
      = [.ok .Satisfied, .ok .Satisfied, .error .AssertionFailed] := by
  rfl

/-- C10 (failing input): on `(¬x4 ∨ x1 ∨ x2) (¬x1 ∨ x4 ∨ ¬x2)` the first `Solve()` returns
`Satisfied`; after `AppendClause((x3))` the second `Solve()` returns no status: it reaches
the decision point with an empty heap, where `assert(variable != Literal::Terminator)`
fails. -/
theorem C10_solve_after_append_fails :
    (match CdclSolver.SolveAppendSolve exactPlatform 100
        (CdclSolver.new exactPlatform
          (Formula.ofClauses id [[-4, 1, 2], [-1, 4, -2]]) defaultScoring)
        (Clause.ofLiterals id [3]) with
      | .error e => .error e
      | .ok (first, second) => .ok (first, resultStatus second))
      = (.ok (.Satisfied, .error .AssertionFailed) :
          Except Fault (SolverStatus × Except Fault SolverStatus)) := by
  rfl

end pjos

namespace pjos

/-- C1: on a fresh `CdclSolver` (any parameters, any fuel, any platform whose hash sets iterate
over their elements), for a formula of valid literals and assumptions over its variables, each
of the three overloads of `Solve` that returns `Satisfied` leaves an assignment under which
every clause of the formula as it was before the call has a literal that evaluates to true. -/
theorem C1_satisfied_assignment_satisfies_every_clause {S : Type} (P : Platform S)
    (hP : P.SetOrderOk) (formula : Formula) (hF : formula.WellFormed)
    (scoring : ScoringParameters S) (parameters : CdclSolver.Parameters)
    (assumptions : List Literal)
    (hA : ∀ l ∈ assumptions, l ≠ 0 ∧ Literal.Variable l ≤ formula.num_of_variables)
    (fuel : Nat) :
    (∀ s1, CdclSolver.Solve0 P fuel
        (CdclSolver.SetParameters (CdclSolver.new P formula scoring) parameters)
          = .ok (.Satisfied, s1) →
      ∀ c ∈ formula.clauses, c.SatisfiedBy s1.GetAssignment = true) ∧
    (∀ s1, CdclSolver.Solve P fuel
        (CdclSolver.SetParameters (CdclSolver.new P formula scoring) parameters) assumptions
          = .ok (.Satisfied, s1) →
      ∀ c ∈ formula.clauses, c.SatisfiedBy s1.GetAssignment = true) ∧
    (∀ final_conflict s1, CdclSolver.SolveFinalConflict P fuel
        (CdclSolver.SetParameters (CdclSolver.new P formula scoring) parameters) assumptions
          = .ok (.Satisfied, final_conflict, s1) →
      ∀ c ∈ formula.clauses, c.SatisfiedBy s1.GetAssignment = true) := by
  refine ⟨?_, ?_, ?_⟩
  · intro s1 hr
    unfold CdclSolver.Solve0 BaseSolver.SolveNoAssumptions at hr
    simp only at hr
    split at hr
    · cases hr
    · rename_i st s2 himpl
      cases hr
      exact CdclSolver.fresh_satisfied_no_assumptions P hP formula hF scoring parameters fuel
        false s2 himpl
  · intro s1 hr
    unfold CdclSolver.Solve BaseSolver.SolveWith at hr
    simp only at hr
    split at hr
    · cases hr
    · rename_i st s2 himpl
      cases hr
      exact (CdclSolver.fresh_satisfied P hP formula hF scoring parameters assumptions hA fuel
        false s2 himpl).1
  · intro fc s1 hr
    unfold CdclSolver.SolveFinalConflict at hr
    simp only at hr
    split at hr
    · cases hr
    · rename_i st s2 himpl
      split_ifs at hr with hst
      · cases hr
        simp only [BaseSolver.PostSolve] at hst
        cases hst
      · cases hr
        exact (CdclSolver.fresh_satisfied P hP formula hF scoring parameters assumptions hA fuel
          true s2 himpl).1

end pjos

namespace pjos

/-- C1 (instance): on `(x1 ∨ x2) (¬x1 ∨ x2)` with the assumption `¬x1` the call returns
`Satisfied`, and every clause has a true literal under the assignment it leaves. -/
theorem C1_satisfied_assignment_satisfies_every_clause_witness :
    exactPlatform.SetOrderOk ∧
    (Formula.ofClauses id [[1, 2], [-1, 2]]).WellFormed ∧
    (∀ l ∈ [(-1 : Literal)],
      l ≠ 0 ∧ Literal.Variable l ≤ (Formula.ofClauses id [[1, 2], [-1, 2]]).num_of_variables) ∧
    ∃ s1, CdclSolver.Solve exactPlatform 100
        (CdclSolver.SetParameters
          (CdclSolver.new exactPlatform (Formula.ofClauses id [[1, 2], [-1, 2]]) defaultScoring)
          ⟨true, true⟩) [-1] = .ok (.Satisfied, s1) ∧
      ∀ c ∈ (Formula.ofClauses id [[1, 2], [-1, 2]]).clauses,
        c.SatisfiedBy s1.GetAssignment = true := by
  have hP : exactPlatform.SetOrderOk := fun ls => List.Perm.refl ls
  have hF : (Formula.ofClauses id [[1, 2], [-1, 2]]).WellFormed := by
    intro c hc l hl
    have hc2 : c ∈ [(⟨[1, 2], 2⟩ : Clause), ⟨[-1, 2], 2⟩] := hc
    simp only [List.mem_cons, List.mem_singleton, List.not_mem_nil, or_false] at hc2
    rcases hc2 with hc2 | hc2 <;> subst hc2 <;>
      simp only [List.mem_cons, List.mem_singleton, List.not_mem_nil, or_false] at hl <;>
      rcases hl with hl | hl <;> subst hl <;> decide
  have hA : ∀ l ∈ [(-1 : Literal)],
      l ≠ 0 ∧ Literal.Variable l ≤ (Formula.ofClauses id [[1, 2], [-1, 2]]).num_of_variables := by
    intro l hl
    simp only [List.mem_singleton] at hl
    subst hl
    decide
  refine ⟨hP, hF, hA, ?_⟩
  have hst : resultStatus (CdclSolver.Solve exactPlatform 100
        (CdclSolver.SetParameters
          (CdclSolver.new exactPlatform (Formula.ofClauses id [[1, 2], [-1, 2]]) defaultScoring)
          ⟨true, true⟩) [-1]) = .ok .Satisfied := rfl
  cases hs : CdclSolver.Solve exactPlatform 100
        (CdclSolver.SetParameters
          (CdclSolver.new exactPlatform (Formula.ofClauses id [[1, 2], [-1, 2]]) defaultScoring)
          ⟨true, true⟩) [-1] with
  | error e =>
    rw [hs] at hst
    cases hst
  | ok r =>
    obtain ⟨st, s1⟩ := r
    rw [hs] at hst
    simp only [resultStatus] at hst
    cases hst
    exact ⟨s1, rfl, (C1_satisfied_assignment_satisfies_every_clause exactPlatform hP
      (Formula.ofClauses id [[1, 2], [-1, 2]]) hF defaultScoring ⟨true, true⟩ [-1] hA 100).2.1
      s1 hs⟩

/-- C4 (counterexample): on `(x1) (x1 ∨ x2)` with the assumption `x2` the call returns
`Satisfied` and leaves `x2` unassigned, so that the assumption `x2` does not evaluate to true
under the assignment returned. -/
theorem C4_assumption_left_unassigned :
    resultModel (CdclSolver.Solve exactPlatform 100
      (CdclSolver.new exactPlatform (Formula.ofClauses id [[1], [1, 2]]) defaultScoring) [2])
      = .ok (.Satisfied, ⟨[.True, .Unassigned]⟩) ∧
    Literal.Eval 2 ((⟨[.True, .Unassigned]⟩ : Assignment).get (Literal.Variable 2)) = false := by
  refine ⟨?_, ?_⟩ <;> rfl

/-- C4 (amended): on a fresh `CdclSolver` (any parameters, any fuel, any platform whose hash sets
iterate over their elements), for a formula of valid literals and assumptions over its
variables, when `Solve` with assumptions (with or without a final conflict output) returns
`Satisfied`, no assumption is contradicted by the assignment returned: the variable of every
assumption literal is unassigned, or the literal evaluates to true. -/
theorem C4_satisfied_assignment_contradicts_no_assumption {S : Type} (P : Platform S)
    (hP : P.SetOrderOk) (formula : Formula) (hF : formula.WellFormed)
    (scoring : ScoringParameters S) (parameters : CdclSolver.Parameters)
    (assumptions : List Literal)
    (hA : ∀ l ∈ assumptions, l ≠ 0 ∧ Literal.Variable l ≤ formula.num_of_variables)
    (fuel : Nat) :
    (∀ s1, CdclSolver.Solve P fuel
        (CdclSolver.SetParameters (CdclSolver.new P formula scoring) parameters) assumptions
          = .ok (.Satisfied, s1) →
      ∀ l ∈ assumptions, s1.GetAssignment.get (Literal.Variable l) = .Unassigned ∨
        Literal.Eval l (s1.GetAssignment.get (Literal.Variable l)) = true) ∧
    (∀ final_conflict s1, CdclSolver.SolveFinalConflict P fuel
        (CdclSolver.SetParameters (CdclSolver.new P formula scoring) parameters) assumptions
          = .ok (.Satisfied, final_conflict, s1) →
      ∀ l ∈ assumptions, s1.GetAssignment.get (Literal.Variable l) = .Unassigned ∨
        Literal.Eval l (s1.GetAssignment.get (Literal.Variable l)) = true) := by
  refine ⟨?_, ?_⟩
  · intro s1 hr
    unfold CdclSolver.Solve BaseSolver.SolveWith at hr
    simp only at hr
    split at hr
    · cases hr
    · rename_i st s2 himpl
      cases hr
      exact (CdclSolver.fresh_satisfied P hP formula hF scoring parameters assumptions hA fuel
        false s2 himpl).2
  · intro fc s1 hr
    unfold CdclSolver.SolveFinalConflict at hr
    simp only at hr
    split at hr
    · cases hr
    · rename_i st s2 himpl
      split_ifs at hr with hst
      · cases hr
        simp only [BaseSolver.PostSolve] at hst
        cases hst
      · cases hr
        exact (CdclSolver.fresh_satisfied P hP formula hF scoring parameters assumptions hA fuel
          true s2 himpl).2

/-- C4 (instance): on `(x1 ∨ x2) (¬x1 ∨ x2)` with the assumptions `¬x1, x2` the call returns
`Satisfied`, and neither assumption is contradicted by the assignment it leaves. -/
theorem C4_satisfied_assignment_contradicts_no_assumption_witness :
    exactPlatform.SetOrderOk ∧
    (Formula.ofClauses id [[1, 2], [-1, 2]]).WellFormed ∧
    (∀ l ∈ [(-1 : Literal), 2],
      l ≠ 0 ∧ Literal.Variable l ≤ (Formula.ofClauses id [[1, 2], [-1, 2]]).num_of_variables) ∧
    ∃ s1, CdclSolver.Solve exactPlatform 100
        (CdclSolver.SetParameters
          (CdclSolver.new exactPlatform (Formula.ofClauses id [[1, 2], [-1, 2]]) defaultScoring)
          ⟨true, false⟩) [-1, 2] = .ok (.Satisfied, s1) ∧
      ∀ l ∈ [(-1 : Literal), 2], s1.GetAssignment.get (Literal.Variable l) = .Unassigned ∨
        Literal.Eval l (s1.GetAssignment.get (Literal.Variable l)) = true := by
  have hP : exactPlatform.SetOrderOk := fun ls => List.Perm.refl ls
  have hF : (Formula.ofClauses id [[1, 2], [-1, 2]]).WellFormed := by
    intro c hc l hl
    have hc2 : c ∈ [(⟨[1, 2], 2⟩ : Clause), ⟨[-1, 2], 2⟩] := hc
    simp only [List.mem_cons, List.mem_singleton, List.not_mem_nil, or_false] at hc2
    rcases hc2 with hc2 | hc2 <;> subst hc2 <;>
      simp only [List.mem_cons, List.mem_singleton, List.not_mem_nil, or_false] at hl <;>
      rcases hl with hl | hl <;> subst hl <;> decide
  have hA : ∀ l ∈ [(-1 : Literal), 2],
      l ≠ 0 ∧ Literal.Variable l ≤ (Formula.ofClauses id [[1, 2], [-1, 2]]).num_of_variables := by
    intro l hl
    simp only [List.mem_cons, List.mem_singleton, List.not_mem_nil, or_false] at hl
    rcases hl with hl | hl <;> subst hl <;> decide
  refine ⟨hP, hF, hA, ?_⟩
  have hst : resultStatus (CdclSolver.Solve exactPlatform 100
        (CdclSolver.SetParameters
          (CdclSolver.new exactPlatform (Formula.ofClauses id [[1, 2], [-1, 2]]) defaultScoring)
          ⟨true, false⟩) [-1, 2]) = .ok .Satisfied := rfl
  cases hs : CdclSolver.Solve exactPlatform 100
        (CdclSolver.SetParameters
          (CdclSolver.new exactPlatform (Formula.ofClauses id [[1, 2], [-1, 2]]) defaultScoring)
          ⟨true, false⟩) [-1, 2] with
  | error e =>
    rw [hs] at hst
    cases hst
  | ok r =>
    obtain ⟨st, s1⟩ := r
    rw [hs] at hst
    simp only [resultStatus] at hst
    cases hst
    exact ⟨s1, rfl, (C4_satisfied_assignment_contradicts_no_assumption exactPlatform hP
      (Formula.ofClauses id [[1, 2], [-1, 2]]) hF defaultScoring ⟨true, false⟩ [-1, 2] hA 100).1
      s1 hs⟩

end pjos

namespace pjos

namespace CdclSolver

variable {S : Type}

/-- The first `SolveImpl` of a new solver with an empty list of assumptions saved: when it
returns `Unsatisfied`, the formula has no model. -/
theorem fresh_unsat_empty (P : Platform S) (hP : P.SetOrderOk) (formula : Formula)
    (hF : formula.WellFormed) (scoring : ScoringParameters S) (parameters : Parameters)
    (fuel : Nat) (afc : Bool) (s1 : CdclSolver S)
    (hr : SolveImpl P fuel afc (BaseSolver.SaveAssumptions
      (BaseSolver.PreSolve (SetParameters (CdclSolver.new P formula scoring) parameters)) [])
        = .ok (.Unsatisfied, s1)) (M : Nat → Bool) :
    formula.value M = false := by
  obtain ⟨hc, hf, ht, hh, hb, hp⟩ := fresh_ready P formula hF scoring parameters
  have hpe : (BaseSolver.SaveAssumptions
      (BaseSolver.PreSolve (SetParameters (CdclSolver.new P formula scoring) parameters))
      []).pending_assignments = (BaseSolver.PreSolve
        (SetParameters (CdclSolver.new P formula scoring) parameters)).pending_assignments := by
    simp [BaseSolver.SaveAssumptions]
  have hf2 : (BaseSolver.SaveAssumptions
      (BaseSolver.PreSolve (SetParameters (CdclSolver.new P formula scoring) parameters))
      []).formula = formula := hf
  have hs2 : Sound formula (BaseSolver.SaveAssumptions
      (BaseSolver.PreSolve (SetParameters (CdclSolver.new P formula scoring) parameters)) []) :=
    (fresh_sound P formula scoring parameters).of_same ⟨rfl, rfl, rfl, rfl, rfl, hpe⟩ rfl
  exact SolveImpl_unsat P hP formula fuel afc (BaseSolver.SaveAssumptions
      (BaseSolver.PreSolve (SetParameters (CdclSolver.new P formula scoring) parameters)) [])
    s1 (hc.of_eq rfl rfl rfl rfl)
    (by rw [hf2]; exact ht) (by rw [hf2]; exact hh) hb (by rw [hpe]; exact hp) hs2 hr M

end CdclSolver

/-- C3: on a fresh `CdclSolver` (any parameters, any fuel, any platform whose hash sets iterate
over their elements), for a formula of valid literals, when `Solve` without assumptions (the
overload without arguments, or either of the other two with an empty list of assumptions)
returns `Unsatisfied`, the formula is unsatisfiable: under every total valuation some clause of
the formula is false. -/
theorem C3_unsatisfied_without_assumptions_is_unsatisfiable {S : Type} (P : Platform S)
    (hP : P.SetOrderOk) (formula : Formula) (hF : formula.WellFormed)
    (scoring : ScoringParameters S) (parameters : CdclSolver.Parameters) (fuel : Nat) :
    (∀ s1, CdclSolver.Solve0 P fuel
        (CdclSolver.SetParameters (CdclSolver.new P formula scoring) parameters)
          = .ok (.Unsatisfied, s1) →
      ∀ M : Nat → Bool, formula.value M = false) ∧
    (∀ s1, CdclSolver.Solve P fuel
        (CdclSolver.SetParameters (CdclSolver.new P formula scoring) parameters) []
          = .ok (.Unsatisfied, s1) →
      ∀ M : Nat → Bool, formula.value M = false) ∧
    (∀ final_conflict s1, CdclSolver.SolveFinalConflict P fuel
        (CdclSolver.SetParameters (CdclSolver.new P formula scoring) parameters) []
          = .ok (.Unsatisfied, final_conflict, s1) →
      ∀ M : Nat → Bool, formula.value M = false) := by
  refine ⟨?_, ?_, ?_⟩
  · intro s1 hr
    unfold CdclSolver.Solve0 BaseSolver.SolveNoAssumptions at hr
    simp only at hr
    split at hr
    · cases hr
    · rename_i st s2 himpl
      cases hr
      exact CdclSolver.fresh_unsat P hP formula hF scoring parameters fuel false s2 himpl
  · intro s1 hr
    unfold CdclSolver.Solve BaseSolver.SolveWith at hr
    simp only at hr
    split at hr
    · cases hr
    · rename_i st s2 himpl
      cases hr
      exact CdclSolver.fresh_unsat_empty P hP formula hF scoring parameters fuel false s2 himpl
  · intro fc s1 hr
    unfold CdclSolver.SolveFinalConflict at hr
    simp only at hr
    split at hr
    · cases hr
    · rename_i st s2 himpl
      split_ifs at hr with hst
      · cases hr
        exact CdclSolver.fresh_unsat_empty P hP formula hF scoring parameters fuel true s2 himpl
      · cases hr
        exact absurd rfl hst

/-- C3 (instance): on the four clauses over `x1`, `x2` that exclude every valuation, `Solve`
without arguments returns `Unsatisfied` after learning a clause, and the formula is false under
every total valuation. -/
theorem C3_unsatisfied_without_assumptions_is_unsatisfiable_witness :
    exactPlatform.SetOrderOk ∧
    (Formula.ofClauses id [[1, 2], [1, -2], [-1, 2], [-1, -2]]).WellFormed ∧
    ∃ s1, CdclSolver.Solve0 exactPlatform 100
        (CdclSolver.SetParameters
          (CdclSolver.new exactPlatform
            (Formula.ofClauses id [[1, 2], [1, -2], [-1, 2], [-1, -2]]) defaultScoring)
          ⟨true, true⟩) = .ok (.Unsatisfied, s1) ∧
      ∀ M : Nat → Bool,
        (Formula.ofClauses id [[1, 2], [1, -2], [-1, 2], [-1, -2]]).value M = false := by
  have hP : exactPlatform.SetOrderOk := fun ls => List.Perm.refl ls
  have hF : (Formula.ofClauses id [[1, 2], [1, -2], [-1, 2], [-1, -2]]).WellFormed := by
    intro c hc l hl
    have hc2 : c ∈ [(⟨[1, 2], 2⟩ : Clause), ⟨[1, -2], 2⟩, ⟨[-1, 2], 2⟩, ⟨[-1, -2], 2⟩] := hc
    simp only [List.mem_cons, List.mem_singleton, List.not_mem_nil, or_false] at hc2
    rcases hc2 with hc2 | hc2 | hc2 | hc2 <;> subst hc2 <;>
      simp only [List.mem_cons, List.mem_singleton, List.not_mem_nil, or_false] at hl <;>
      rcases hl with hl | hl <;> subst hl <;> decide
  refine ⟨hP, hF, ?_⟩
  have hst : resultStatus (CdclSolver.Solve0 exactPlatform 100
        (CdclSolver.SetParameters
          (CdclSolver.new exactPlatform
            (Formula.ofClauses id [[1, 2], [1, -2], [-1, 2], [-1, -2]]) defaultScoring)
          ⟨true, true⟩)) = .ok .Unsatisfied := rfl
  cases hs : CdclSolver.Solve0 exactPlatform 100
        (CdclSolver.SetParameters
          (CdclSolver.new exactPlatform
            (Formula.ofClauses id [[1, 2], [1, -2], [-1, 2], [-1, -2]]) defaultScoring)
          ⟨true, true⟩) with
  | error e =>
    rw [hs] at hst
    cases hst
  | ok r =>
    obtain ⟨st, s1⟩ := r
    rw [hs] at hst
    simp only [resultStatus] at hst
    cases hst
    exact ⟨s1, rfl, (C3_unsatisfied_without_assumptions_is_unsatisfiable exactPlatform hP
      (Formula.ofClauses id [[1, 2], [1, -2], [-1, 2], [-1, -2]]) hF defaultScoring
      ⟨true, true⟩ 100).1 s1 hs⟩

end pjos

namespace pjos

namespace DecisionTrail

theorem Indexed.find_entry {t : DecisionTrail} (h : t.Indexed) {e : Entry} (he : e ∈ t.trail) :
    t.Find e.var = some e := by
  obtain ⟨i, hi⟩ := List.mem_iff_getElem?.mp he
  have hr := h.range e he
  have hx := h.index i e hi
  unfold Find
  rw [if_neg (by omega)]
  simp only [List.getD_eq_getElem?_getD, hx, Option.getD_some]
  simp only [DecisionTrail.get, List.getD_eq_getElem?_getD, hi, Option.getD_some]

theorem Indexed.new (n : Nat) : (DecisionTrail.new n).Indexed :=
  ⟨by simp [DecisionTrail.new], fun e he => by simp [DecisionTrail.new] at he,
    fun i e he => by simp [DecisionTrail.new] at he⟩

/-- Pushing an entry for a variable that has none keeps the index exact. -/
theorem Indexed.after_push {t t1 : DecisionTrail} (h : t.Indexed) (x : Entry)
    (hx1 : 1 ≤ x.var) (hx2 : x.var ≤ t.var_index.length)
    (hnew : ∀ e ∈ t.trail, e.var ≠ x.var)
    (ht : t1.trail = t.trail ++ [x])
    (hi : t1.var_index = t.var_index.set (x.var - 1) (some t.trail.length)) : t1.Indexed := by
  refine ⟨?_, ?_, ?_⟩
  · rw [ht, List.map_append, List.nodup_append]
    refine ⟨h.nodup, by simp, ?_⟩
    intro a ha hb
    simp only [List.map_cons, List.map_nil, List.mem_singleton] at hb
    rw [List.mem_map] at ha
    obtain ⟨e, he, hea⟩ := ha
    exact hnew e he (hea.trans hb)
  · intro e he
    rw [ht, List.mem_append, List.mem_singleton] at he
    rw [hi, List.length_set]
    rcases he with he | he
    · exact h.range e he
    · rw [he]; exact ⟨hx1, hx2⟩
  · intro i e he
    rw [ht] at he
    rw [hi]
    by_cases hlt : i < t.trail.length
    · rw [List.getElem?_append_left hlt] at he
      have hm := List.getElem?_mem he
      have hne := hnew e hm
      have hr := h.range e hm
      rw [List.getElem?_set_ne (by omega)]
      exact h.index i e he
    · rw [List.getElem?_append_right (by omega)] at he
      have hi0 : i - t.trail.length = 0 := by
        by_contra hc
        rw [List.getElem?_eq_none (by simp; omega)] at he
        cases he
      rw [hi0] at he
      simp only [List.getElem?_cons_zero, Option.some.injEq] at he
      rw [← he, List.getElem?_set_self (by omega)]
      have : i = t.trail.length := by omega
      rw [this]

theorem Indexed.after_skipStale {t : DecisionTrail} (h : t.Indexed) : t.SkipStale = t :=
  SkipStale_eq_self t (fun e he => (h.range e he).2)

/-- Pop keeps the index exact. -/
theorem Indexed.after_pop {t : DecisionTrail} (h : t.Indexed) : t.Pop.Indexed := by
  unfold Pop
  simp only [h.after_skipStale]
  cases hl : t.trail.getLast? with
  | none => exact h
  | some x =>
    simp only
    have hsplit := split_last hl
    have hxm : x ∈ t.trail := List.mem_of_mem_getLast? hl
    have hxr := h.range x hxm
    have hnd := h.nodup
    rw [hsplit, List.map_append, List.nodup_append] at hnd
    refine ⟨hnd.1, ?_, ?_⟩
    · intro e he
      have := h.range e (List.mem_of_mem_dropLast he)
      simp only [List.length_set]
      exact this
    · intro i e he
      have hi : i < t.trail.dropLast.length := (List.getElem?_eq_some_iff.mp he).1
      have he2 : t.trail[i]? = some e := by
        rw [hsplit, List.getElem?_append_left hi]
        exact he
      have hm : e ∈ t.trail.dropLast := List.getElem?_mem he
      have hne : e.var ≠ x.var := by
        intro hc
        exact hnd.2.2 (List.mem_map.mpr ⟨e, hm, rfl⟩) (by simp [hc])
      have hr := h.range e (List.mem_of_mem_dropLast hm)
      show (t.var_index.set (x.var - 1) none)[e.var - 1]? = _
      rw [List.getElem?_set_ne (by omega)]
      exact h.index i e he2

theorem all_ne_of_all {t : DecisionTrail} {v : Nat}
    (h : t.trail.all (fun e => e.var != v) = true) : ∀ e ∈ t.trail, e.var ≠ v := by
  intro e he
  rw [List.all_eq_true] at h
  simpa using h e he

/-- A call on a variable that has no entry keeps the index exact. -/
theorem Indexed.apply {t : DecisionTrail} (h : t.Indexed) (op : Op)
    (hf : op.fresh t = true) : (t.apply op).Indexed := by
  cases op with
  | Pop => exact h.after_pop
  | Decision v a =>
    simp only [Op.fresh, Op.pushed, Bool.and_eq_true, decide_eq_true_eq] at hf
    exact h.after_push ⟨v, a, ReasonDecision, t.level + 1⟩ hf.1.1 hf.1.2 (all_ne_of_all hf.2) rfl rfl
  | Assumption v a =>
    simp only [Op.fresh, Op.pushed, Bool.and_eq_true, decide_eq_true_eq] at hf
    exact h.after_push ⟨v, a, ReasonAssumption, t.level + 1⟩ hf.1.1 hf.1.2 (all_ne_of_all hf.2) rfl rfl
  | Propagation v a =>
    simp only [Op.fresh, Op.pushed, Bool.and_eq_true, decide_eq_true_eq] at hf
    exact h.after_push ⟨v, a, ReasonPropagation, t.level⟩ hf.1.1 hf.1.2 (all_ne_of_all hf.2) rfl rfl
  | PropagationFrom v a r =>
    simp only [Op.fresh, Op.pushed, Bool.and_eq_true, decide_eq_true_eq] at hf
    exact h.after_push ⟨v, a, (r : Int), t.level⟩ hf.1.1 hf.1.2 (all_ne_of_all hf.2) rfl rfl

theorem Indexed.after_run : ∀ (ops : List Op) (t : DecisionTrail), t.Indexed →
    allFresh t ops = true → (t.run ops).Indexed
  | [], _, h, _ => h
  | op :: ops, t, h, hf => by
    simp only [allFresh, Bool.and_eq_true] at hf
    exact Indexed.after_run ops (t.apply op) (h.apply op hf.1) hf.2

end DecisionTrail

/-- C11 (counterexample): after `Propagation(1, True)` and `Assumption(1, True)` on an empty
trail for one variable, both calls on a variable within range (the calls that the solver makes
for an assumption on a variable that unit propagation has already set to the assumed value), the
trail holds two entries of the variable `1`, and `Find` of the variable of the first entry
returns the second entry. -/
theorem C11_find_returns_another_entry :
    DecisionTrail.allInRange (DecisionTrail.new 1)
      [.Propagation 1 .True, .Assumption 1 .True] = true ∧
    ((DecisionTrail.new 1).run [.Propagation 1 .True, .Assumption 1 .True]).trail =
      [⟨1, .True, DecisionTrail.ReasonPropagation, 0⟩,
        ⟨1, .True, DecisionTrail.ReasonAssumption, 1⟩] ∧
    ((DecisionTrail.new 1).run [.Propagation 1 .True, .Assumption 1 .True]).Find 1 =
      some ⟨1, .True, DecisionTrail.ReasonAssumption, 1⟩ ∧
    ((DecisionTrail.new 1).run [.Propagation 1 .True, .Assumption 1 .True]).Find 1 ≠
      some ⟨1, .True, DecisionTrail.ReasonPropagation, 0⟩ := by
  refine ⟨by decide, by decide, by decide, by decide⟩

/-- C11 (amended): after any sequence of `Decision`, `Assumption`, `Propagation` and `Pop` calls
on an empty trail, each push on a variable within the configured variable count that has no
entry on the trail at the time of the call, `Find` of the variable of every entry of the trail
returns that entry, and the per-variable index holds the position of the entry. -/
theorem C11_find_returns_the_entry (n : Nat) (ops : List DecisionTrail.Op)
    (h : DecisionTrail.allFresh (DecisionTrail.new n) ops = true) :
    (∀ e ∈ ((DecisionTrail.new n).run ops).trail,
      ((DecisionTrail.new n).run ops).Find e.var = some e) ∧
    (∀ (i : Nat) (e : DecisionTrail.Entry),
      ((DecisionTrail.new n).run ops).trail[i]? = some e →
      ((DecisionTrail.new n).run ops).var_index[e.var - 1]? = some (some i)) := by
  have hi := DecisionTrail.Indexed.after_run ops _ (DecisionTrail.Indexed.new n) h
  exact ⟨fun e he => hi.find_entry he, hi.index⟩

/-- C11 (instance): a decision, two propagations, a pop and an assumption on a trail for three
variables. -/
theorem C11_find_returns_the_entry_witness :
    DecisionTrail.allFresh (DecisionTrail.new 3)
      [.Decision 2 .True, .PropagationFrom 1 .False 0, .Propagation 3 .True, .Pop,
        .Assumption 3 .False] = true ∧
    ((DecisionTrail.new 3).run
      [.Decision 2 .True, .PropagationFrom 1 .False 0, .Propagation 3 .True, .Pop,
        .Assumption 3 .False]).trail.length = 3 ∧
    ∀ e ∈ ((DecisionTrail.new 3).run
        [.Decision 2 .True, .PropagationFrom 1 .False 0, .Propagation 3 .True, .Pop,
          .Assumption 3 .False]).trail,
      ((DecisionTrail.new 3).run
        [.Decision 2 .True, .PropagationFrom 1 .False 0, .Propagation 3 .True, .Pop,
          .Assumption 3 .False]).Find e.var = some e :=
  ⟨by decide, by decide, (C11_find_returns_the_entry 3 _ (by decide)).1⟩

/-- C12: on a trail that is not empty and whose top entry is on a variable within range, `Pop`
removes exactly the top entry: the trail loses its last entry and keeps the others, `Length`
decreases by one, `Find` of the variable of the removed entry returns `nullptr`, the index
slots of the other variables are unchanged, and `Level()` is the level of the new top entry, or
`0` when the trail became empty. -/
theorem C12_pop_removes_the_top_entry (t : DecisionTrail) (e : DecisionTrail.Entry)
    (hl : t.trail.getLast? = some e) (h1 : 1 ≤ e.var) (h2 : e.var ≤ t.var_index.length) :
    t.Pop.trail = t.trail.dropLast ∧
    t.Pop.Length + 1 = t.Length ∧
    (∀ i, i < t.Pop.Length → t.Pop.get i = t.get i) ∧
    t.Pop.Find e.var = none ∧
    (∀ v, 1 ≤ v → v ≠ e.var → t.Pop.var_index[v - 1]? = t.var_index[v - 1]?) ∧
    t.Pop.Level = (t.trail.dropLast.getLast?.map (fun x => x.level)).getD 0 := by
  have hsplit := DecisionTrail.split_last hl
  have hrev : t.trail.reverse = e :: t.trail.dropLast.reverse := by
    conv_lhs => rw [hsplit]
    simp
  have hskip : t.SkipStale = t := by
    unfold DecisionTrail.SkipStale
    rw [hrev]
    simp only [DecisionTrail.DropStale]
    rw [if_neg (by omega)]
    have : (e :: t.trail.dropLast.reverse).reverse = t.trail := by
      rw [← hrev, List.reverse_reverse]
    rw [this]
  have hlen : t.trail.dropLast.length + 1 = t.trail.length := by
    conv_rhs => rw [hsplit]
    simp
  have hpop : t.Pop =
      { trail := t.trail.dropLast
        level := (t.trail.dropLast.getLast?.map (fun x => x.level)).getD 0
        var_index := t.var_index.set (e.var - 1) none } := by
    unfold DecisionTrail.Pop
    simp only [hskip, hl]
    cases t.trail.dropLast.getLast? <;> rfl
  rw [hpop]
  refine ⟨rfl, hlen, ?_, ?_, ?_, rfl⟩
  · intro i hi
    have hi2 : i < t.trail.dropLast.length := hi
    simp only [DecisionTrail.get, List.getD_eq_getElem?_getD]
    conv_rhs => rw [hsplit]
    rw [List.getElem?_append_left hi2]
  · unfold DecisionTrail.Find
    simp only [List.length_set]
    rw [if_neg (by omega)]
    simp only [List.getD_eq_getElem?_getD]
    rw [List.getElem?_set_self (by omega)]
    rfl
  · intro v hv hne
    show (t.var_index.set (e.var - 1) none)[v - 1]? = _
    rw [List.getElem?_set_ne (by omega)]

/-- C12 (instance): popping the second of two entries. -/
theorem C12_pop_removes_the_top_entry_witness :
    (((DecisionTrail.new 2).Decision 2 .True).PropagationFrom 1 .False 0).Pop.trail =
      [⟨2, .True, DecisionTrail.ReasonDecision, 1⟩] ∧
    (((DecisionTrail.new 2).Decision 2 .True).PropagationFrom 1 .False 0).Pop.Find 1 = none ∧
    (((DecisionTrail.new 2).Decision 2 .True).PropagationFrom 1 .False 0).Pop.Level = 1 := by
  have h := C12_pop_removes_the_top_entry
    (((DecisionTrail.new 2).Decision 2 .True).PropagationFrom 1 .False 0)
    ⟨1, .False, 0, 1⟩ (by decide) (by decide) (by decide)
  exact ⟨h.1, h.2.2.2.1, h.2.2.2.2.2⟩

end pjos

namespace pjos

namespace Watcher

theorem take_succ_get (c : ClauseView) (k : Nat) (hk : k < c.clause.length) :
    c.clause.take (k + 1) = c.clause.take k ++ [c.get k] := by
  rw [List.take_succ, List.getElem?_eq_getElem hk]
  simp only [Option.toList_some, ClauseView.get]
  rw [List.getD_eq_getElem _ _ hk]

/-- One iteration of the loop of `Rescan` keeps the state of the loop. -/
theorem ScanState.scan_step {c : ClauseView} {assn : Assignment} {k : Nat} {wl : Int × Int}
    (h : ScanState c assn k wl) (hk : k < c.clause.length) :
    ScanState c assn (k + 1) (RescanStep assn wl (c.get k) k) := by
  obtain ⟨hA, hB⟩ := h
  unfold ScanState
  rw [take_succ_get c k hk]
  simp only [List.any_append, List.any_cons, List.any_nil, Bool.or_false, List.countP_append,
    List.countP_cons, List.countP_nil, Nat.zero_add]
  unfold RescanStep
  simp only
  have hkk : ((k : Int)).toNat = k := Int.toNat_ofNat k
  by_cases ht : Literal.Eval (c.get k) (assn.get (Literal.Variable (c.get k))) = true
  · -- a true literal
    rw [if_pos ht]
    simp only [ht, Bool.or_true, true_implies, Bool.true_eq_false, false_implies, and_true]
    refine ⟨by omega, by omega, ?_⟩
    rw [hkk]; exact ht
  · have htf : Literal.Eval (c.get k) (assn.get (Literal.Variable (c.get k))) = false := by
      simpa using ht
    rw [if_neg ht]
    simp only [htf, Bool.or_false]
    by_cases hu : assn.get (Literal.Variable (c.get k)) = .Unassigned
    · rw [if_pos hu]
      simp only [hu, decide_True, if_true]
      refine ⟨fun hany => ?_, fun hany => ?_⟩
      · have h1 := hA hany
        have hne : wl.1 ≠ -1 := by omega
        rw [if_neg hne]
        split_ifs
        · exact ⟨h1.1, by omega, h1.2.2⟩
        · exact ⟨h1.1, by omega, h1.2.2⟩
      · obtain ⟨h0, h1, h2⟩ := hB hany
        refine ⟨fun hc => by omega, fun hc => ?_, fun hc => ?_⟩
        · have hc0 : (c.clause.take k).countP
              (fun l => decide (assn.get (Literal.Variable l) = .Unassigned)) = 0 := by omega
          obtain ⟨hw1, hw2⟩ := h0 hc0
          rw [if_pos hw1]
          refine ⟨⟨by omega, by omega, ?_⟩, hw2⟩
          show assn.get (Literal.Variable (c.get ((k : Int)).toNat)) = _
          rw [hkk]; exact hu
        · by_cases hc1 : (c.clause.take k).countP
              (fun l => decide (assn.get (Literal.Variable l) = .Unassigned)) = 1
          · obtain ⟨hw1, hw2⟩ := h1 hc1
            have hne : wl.1 ≠ -1 := by omega
            rw [if_neg hne, if_pos hw2]
            refine ⟨⟨hw1.1, by omega, hw1.2.2⟩, ⟨by omega, by omega, ?_⟩, ?_⟩
            · show assn.get (Literal.Variable (c.get ((k : Int)).toNat)) = _
              rw [hkk]; exact hu
            · show wl.1 ≠ (k : Int)
              omega
          · obtain ⟨hw1, hw2, hw3⟩ := h2 (by omega)
            have hne1 : wl.1 ≠ -1 := by omega
            have hne2 : wl.2 ≠ -1 := by omega
            rw [if_neg hne1, if_neg hne2]
            exact ⟨⟨hw1.1, by omega, hw1.2.2⟩, ⟨hw2.1, by omega, hw2.2.2⟩, hw3⟩
    · rw [if_neg hu]
      simp only [hu, decide_False, Bool.false_eq_true, if_false, Nat.add_zero]
      refine ⟨fun hany => ?_, fun hany => ?_⟩
      · have h1 := hA hany
        exact ⟨h1.1, by omega, h1.2.2⟩
      · obtain ⟨h0, h1, h2⟩ := hB hany
        refine ⟨h0, fun hc => ?_, fun hc => ?_⟩
        · obtain ⟨hw1, hw2⟩ := h1 hc
          exact ⟨⟨hw1.1, by omega, hw1.2.2⟩, hw2⟩
        · obtain ⟨hw1, hw2, hw3⟩ := h2 hc
          exact ⟨⟨hw1.1, by omega, hw1.2.2⟩, ⟨hw2.1, by omega, hw2.2.2⟩, hw3⟩

theorem ScanState.scan_run (c : ClauseView) (assn : Assignment) :
    ∀ (ls : List Literal) (k : Nat) (wl : Int × Int), c.clause.drop k = ls →
      k ≤ c.clause.length → ScanState c assn k wl →
      ScanState c assn c.clause.length (RescanFrom assn ls k wl)
  | [], k, wl, hd, hle, h => by
    simp only [RescanFrom]
    have hk : c.clause.length ≤ k := by
      by_contra hlt
      have := List.drop_eq_nil_iff.mp hd
      omega
    have : k = c.clause.length := by omega
    rw [← this]
    exact h
  | l :: ls, k, wl, hd, _, h => by
    simp only [RescanFrom]
    have hk : k < c.clause.length := by
      by_contra hge
      rw [List.drop_eq_nil_of_le (by omega)] at hd
      exact absurd hd (by simp)
    have hl : c.get k = l := by
      simp only [ClauseView.get]
      have h0 : (c.clause.drop k)[0]? = some l := by rw [hd]; simp
      rw [List.getElem?_drop, Nat.add_zero] at h0
      rw [List.getD_eq_getElem?_getD, h0]; rfl
    have hd' : c.clause.drop (k + 1) = ls := by
      rw [← List.drop_drop, hd]; rfl
    rw [← hl]
    exact ScanState.scan_run c assn ls (k + 1) _ hd' hk (h.scan_step hk)

theorem ScanState.init (c : ClauseView) (assn : Assignment) : ScanState c assn 0 (-1, -1) := by
  unfold ScanState
  simp

/-- The watches and the status that `Rescan` computes. -/
theorem Rescan_scan (w : Watcher) (assn : Assignment) :
    ScanState w.clause assn w.clause.clause.length (w.Rescan assn).watched_literals ∧
    (w.Rescan assn).clause = w.clause ∧
    (w.Rescan assn).status =
      (if (w.Rescan assn).IsSatisfied assn (w.Rescan assn).watched_literals.1 ||
          (w.Rescan assn).IsSatisfied assn (w.Rescan assn).watched_literals.2 then .Satisfied
        else if (w.Rescan assn).watched_literals.2 ≠ -1 then .Undecided
        else if (w.Rescan assn).watched_literals.1 ≠ -1 then .Unit
        else .Unsatisfied) := by
  have hs := ScanState.scan_run w.clause assn w.clause.clause 0 (-1, -1) rfl (Nat.zero_le _)
    (ScanState.init _ _)
  unfold Rescan UpdateStatus
  simp only [IsSatisfied]
  split_ifs <;> simp_all

end Watcher

namespace Watcher

theorem RescanFrom_keep (assn : Assignment) :
    ∀ (ls : List Literal) (i : Nat) (wl : Int × Int), wl.1 ≠ -1 → wl.2 ≠ -1 →
      (∀ l ∈ ls, Literal.Eval l (assn.get (Literal.Variable l)) = false) →
      RescanFrom assn ls i wl = wl
  | [], _, _, _, _, _ => rfl
  | l :: ls, i, wl, h1, h2, h => by
    simp only [RescanFrom]
    have : RescanStep assn wl l i = wl := by
      unfold RescanStep
      simp only [h l (List.mem_cons_self _ _), Bool.false_eq_true, if_false, if_neg h1, if_neg h2]
      split_ifs <;> rfl
    rw [this]
    exact RescanFrom_keep assn ls (i + 1) wl h1 h2 (fun l1 hl => h l1 (List.mem_cons_of_mem _ hl))

end Watcher

/-- The status and the watches that `Rescan` computes are those of the true status of the
clause. -/
theorem Watcher.Rescan_exact (w : Watcher) (assn : Assignment) :
    (w.Rescan assn).clause = w.clause ∧
    (w.Rescan assn).status = w.clause.TrueStatus assn ∧
    ((w.Rescan assn).status = .Satisfied →
      (w.Rescan assn).IsSatisfied assn (w.Rescan assn).watched_literals.1 = true ∨
        (w.Rescan assn).IsSatisfied assn (w.Rescan assn).watched_literals.2 = true) ∧
    ((w.Rescan assn).status = .Undecided →
      (w.Rescan assn).WatchUnassigned assn (w.Rescan assn).watched_literals.1 ∧
      (w.Rescan assn).WatchUnassigned assn (w.Rescan assn).watched_literals.2 ∧
      (w.Rescan assn).watched_literals.1 ≠ (w.Rescan assn).watched_literals.2) ∧
    ((w.Rescan assn).status = .Unit →
      (w.Rescan assn).WatchUnassigned assn (w.Rescan assn).watched_literals.1 ∧
      (w.Rescan assn).watched_literals.2 = -1 ∧ w.clause.numUnassigned assn = 1) ∧
    ((w.Rescan assn).status = .Unsatisfied →
      (w.Rescan assn).watched_literals.1 = -1 ∧ (w.Rescan assn).watched_literals.2 = -1) := by
  obtain ⟨hscan, hcl, hst⟩ := Watcher.Rescan_scan w assn
  generalize w.Rescan assn = w1 at hscan hcl hst ⊢
  obtain ⟨hA, hB⟩ := hscan
  rw [List.take_of_length_le (le_refl _)] at hA hB
  have hsat : ∀ i, w1.IsSatisfied assn i = true → w.clause.SatisfiedBy assn = true := by
    intro i hi
    have hm := Watcher.satisfied_mem hi
    rw [hcl] at hm
    unfold ClauseView.SatisfiedBy
    rw [List.any_eq_true]
    refine ⟨_, hm, ?_⟩
    rw [Watcher.IsSatisfied_iff] at hi
    rw [← hcl]
    exact hi.2
  unfold ClauseView.TrueStatus ClauseView.numUnassigned
  by_cases hany : w.clause.SatisfiedBy assn = true
  · -- some literal is true
    have h1 := hA hany
    have hw1 : w1.IsSatisfied assn w1.watched_literals.1 = true := by
      rw [Watcher.IsSatisfied_iff, hcl]
      exact ⟨by omega, h1.2.2⟩
    have hs : w1.status = .Satisfied := by
      rw [hst, hw1]; rfl
    rw [if_pos hany, hs]
    refine ⟨hcl, rfl, fun _ => Or.inl hw1, (fun h => by cases h), (fun h => by cases h),
      (fun h => by cases h)⟩
  · have hanyf : w.clause.SatisfiedBy assn = false := by simpa using hany
    have hn1 : w1.IsSatisfied assn w1.watched_literals.1 = false := by
      cases hx : w1.IsSatisfied assn w1.watched_literals.1 with
      | false => rfl
      | true => exact absurd (hsat _ hx) hany
    have hn2 : w1.IsSatisfied assn w1.watched_literals.2 = false := by
      cases hx : w1.IsSatisfied assn w1.watched_literals.2 with
      | false => rfl
      | true => exact absurd (hsat _ hx) hany
    rw [hn1, hn2] at hst
    simp only [Bool.or_self, Bool.false_eq_true, if_false] at hst
    obtain ⟨h0, h1, h2⟩ := hB hanyf
    rw [if_neg hany]
    have hwu : ∀ i : Int, 0 ≤ i ∧ i.toNat < w.clause.clause.length ∧
        assn.get (Literal.Variable (w.clause.get i.toNat)) = .Unassigned →
        w1.WatchUnassigned assn i := by
      intro i hi
      unfold Watcher.WatchUnassigned Watcher.UnassignedAt
      rw [hcl]
      exact hi
    by_cases hc2 : 2 ≤ w.clause.clause.countP
        (fun l => decide (assn.get (Literal.Variable l) = .Unassigned))
    · obtain ⟨hw1, hw2, hw3⟩ := h2 hc2
      have hne : w1.watched_literals.2 ≠ -1 := by omega
      rw [if_pos hne] at hst
      rw [if_pos hc2, hst]
      refine ⟨hcl, rfl, (fun h => by cases h), fun _ => ⟨hwu _ hw1, hwu _ hw2, hw3⟩,
        (fun h => by cases h), (fun h => by cases h)⟩
    · rw [if_neg hc2]
      by_cases hc1 : w.clause.clause.countP
          (fun l => decide (assn.get (Literal.Variable l) = .Unassigned)) = 1
      · obtain ⟨hw1, hw2⟩ := h1 hc1
        have hne : w1.watched_literals.1 ≠ -1 := by omega
        rw [if_neg (by rw [hw2]; simp), if_pos hne] at hst
        rw [if_pos hc1, hst]
        refine ⟨hcl, rfl, (fun h => by cases h), (fun h => by cases h),
          fun _ => ⟨hwu _ hw1, hw2, hc1⟩, (fun h => by cases h)⟩
      · obtain ⟨hw1, hw2⟩ := h0 (by omega)
        rw [if_neg (by rw [hw2]; simp), if_neg (by rw [hw1]; simp)] at hst
        rw [if_neg hc1, hst]
        refine ⟨hcl, rfl, (fun h => by cases h), (fun h => by cases h), (fun h => by cases h),
          fun _ => ⟨hw1, hw2⟩⟩

/-- C13: for every clause and every assignment that covers its variables, after `Rescan` the
cached status is the true status of the clause (`Satisfied` iff some literal is true; otherwise
`Undecided`, `Unit` or `Unsatisfied` as at least two, exactly one or none of the literals are
unassigned), and the watches fit the status: `Satisfied` - a watched literal is true;
`Undecided` - the watches are two distinct unassigned literals; `Unit` - the first watch is the
single unassigned literal and the second is `-1`; `Unsatisfied` - both watches are `-1`. -/
theorem C13_rescan_computes_the_true_status (w : Watcher) (assn : Assignment)
    (_hc : w.clause.CoveredBy assn) :
    (w.Rescan assn).clause = w.clause ∧
    (w.Rescan assn).status = w.clause.TrueStatus assn ∧
    ((w.Rescan assn).status = .Satisfied →
      (w.Rescan assn).IsSatisfied assn (w.Rescan assn).watched_literals.1 = true ∨
        (w.Rescan assn).IsSatisfied assn (w.Rescan assn).watched_literals.2 = true) ∧
    ((w.Rescan assn).status = .Undecided →
      (w.Rescan assn).WatchUnassigned assn (w.Rescan assn).watched_literals.1 ∧
      (w.Rescan assn).WatchUnassigned assn (w.Rescan assn).watched_literals.2 ∧
      (w.Rescan assn).watched_literals.1 ≠ (w.Rescan assn).watched_literals.2) ∧
    ((w.Rescan assn).status = .Unit →
      (w.Rescan assn).WatchUnassigned assn (w.Rescan assn).watched_literals.1 ∧
      (w.Rescan assn).watched_literals.2 = -1 ∧ w.clause.numUnassigned assn = 1) ∧
    ((w.Rescan assn).status = .Unsatisfied →
      (w.Rescan assn).watched_literals.1 = -1 ∧ (w.Rescan assn).watched_literals.2 = -1) :=
  Watcher.Rescan_exact w assn

/-- C13 (instance): the clause `x1 ∨ ¬x2 ∨ x3` with `x1` false, `x2` true and `x3` unassigned
is `Unit`, with the first watch on `x3`. -/
theorem C13_rescan_computes_the_true_status_witness :
    (⟨[1, -2, 3], 3⟩ : ClauseView).CoveredBy ⟨[.False, .True, .Unassigned]⟩ ∧
    ((Watcher.new ⟨[1, -2, 3], 3⟩).Rescan ⟨[.False, .True, .Unassigned]⟩).status = .Unit ∧
    ((Watcher.new ⟨[1, -2, 3], 3⟩).Rescan ⟨[.False, .True, .Unassigned]⟩).status =
      (⟨[1, -2, 3], 3⟩ : ClauseView).TrueStatus ⟨[.False, .True, .Unassigned]⟩ := by
  have hc : (⟨[1, -2, 3], 3⟩ : ClauseView).CoveredBy ⟨[.False, .True, .Unassigned]⟩ := by
    intro l hl
    simp only [List.mem_cons, List.mem_singleton, List.not_mem_nil, or_false] at hl
    rcases hl with hl | hl | hl <;> subst hl <;> decide
  exact ⟨hc, by decide,
    (C13_rescan_computes_the_true_status (Watcher.new ⟨[1, -2, 3], 3⟩)
      ⟨[.False, .True, .Unassigned]⟩ hc).2.1⟩

end pjos

namespace pjos

namespace Watcher

/-- Every call of `Update` keeps that an `Undecided` watcher has two watches. -/
theorem Update_undecidedOk (w : Watcher) (assn : Assignment) (v : Nat) (a : VariableAssignment)
    (sat : Bool) (h : w.UndecidedOk) : (w.Update assn v a sat).UndecidedOk := by
  cases sat
  · by_cases he : w.EarlyReturn v
    · rw [Update_false_early w assn v a he]; exact h
    · intro hs
      rw [Update_false_eq w assn v a he] at hs ⊢
      simp only at hs ⊢
      split_ifs at hs with h1 h2
      refine ⟨h2, ?_⟩
      unfold NewSecond at h2 ⊢
      split_ifs at h2 ⊢ with h3
      · rcases FindUnassigned_spec w assn (w.NewFirst assn) _ rfl with h4 | ⟨_, _, _, h4⟩
        · exact absurd h4 h2
        · exact fun hc => h4 hc.symm
      · rw [not_or] at h3
        exact fun hc => h3.1 hc.symm
  · intro hs
    rw [Update_true_status] at hs
    cases hs

theorem new_undecidedOk (c : ClauseView) : (Watcher.new c).UndecidedOk := by
  unfold Watcher.new UndecidedOk
  split_ifs <;> simp

theorem Rescan_undecidedOk (w : Watcher) (assn : Assignment) : (w.Rescan assn).UndecidedOk := by
  obtain ⟨hscan, hcl, hst⟩ := Rescan_scan w assn
  intro hs
  generalize w.Rescan assn = w1 at hscan hcl hst hs ⊢
  rw [hst] at hs
  split_ifs at hs with h1 h2
  refine ⟨h2, ?_⟩
  obtain ⟨hA, hB⟩ := hscan
  rw [List.take_of_length_le (le_refl _)] at hA hB
  by_cases hany : (w.clause.clause.any
      (fun l => Literal.Eval l (assn.get (Literal.Variable l)))) = true
  · exfalso
    have h3 := hA hany
    apply h1
    have : w1.IsSatisfied assn w1.watched_literals.1 = true := by
      rw [IsSatisfied_iff, hcl]
      exact ⟨by omega, h3.2.2⟩
    rw [this]; rfl
  · obtain ⟨h0, h3, h4⟩ := hB (by simpa using hany)
    by_cases hc2 : 2 ≤ w.clause.clause.countP
        (fun l => decide (assn.get (Literal.Variable l) = .Unassigned))
    · exact (h4 hc2).2.2
    · exfalso
      by_cases hc1 : w.clause.clause.countP
          (fun l => decide (assn.get (Literal.Variable l) = .Unassigned)) = 1
      · exact h2 (h3 hc1).2
      · exact h2 (h0 (by omega)).2

/-- The falsifying branch after the flip of the newest assignment leaves the state in which the
satisfying branch is awaited. -/
theorem Update_false_of_flip (w : Watcher) (assn : Assignment) (r : Nat → Nat) (v : Nat)
    (a : VariableAssignment) (h : w.FlipState assn v) :
    (w.Update assn v a false).PreSat assn r v := by
  obtain ⟨hr, _, hs, hwv, hall⟩ := h
  have he : ¬ w.EarlyReturn v := fun hc => hc.not_watches hwv
  refine ⟨Update_false_rangeOk w assn v a hr, (Update_false_free w assn v a he).2, ?_, ?_⟩
  · intro hsat
    have hsat2 := hsat
    rw [Update_false_eq w assn v a he] at hsat2
    simp only at hsat2
    split_ifs at hsat2 with h1
    unfold HasMinTrue
    rw [Update_false_eq w assn v a he]
    simp only
    rcases h1.2 with h3 | h3
    · exact Or.inl ((MinTrue_congr w _ assn r _ rfl).mpr (MinTrue_of_all_on hall h3))
    · exact Or.inr ((MinTrue_congr w _ assn r _ rfl).mpr (MinTrue_of_all_on hall h3))
  · intro _
    rw [Update_clause]
    exact hall

/-- The state of an exact watcher right after the newest assignment, the one of `x`, was
flipped from `True` to `False`. -/
theorem Tight.flip {w : Watcher} {assn : Assignment} {r : Nat → Nat} {x : Nat}
    (hr : w.RangeOk) (h : w.Tight assn r) (hnz : ∀ l ∈ w.clause.clause, l ≠ 0)
    (hx : 1 ≤ x) (hle : x ≤ assn.assignment.length) (hxt : assn.get x = .True)
    (hnew : ∀ l ∈ w.clause.clause, Literal.Variable l ≠ x →
      assn.get (Literal.Variable l) ≠ .Unassigned → r (Literal.Variable l) < r x) :
    (w.PreSat (assn.set x .False) r x ∨
      (w.FlipState (assn.set x .False) x ∧ (x : Int) ∈ w.clause.clause)) ∧
    (-(x : Int) ∉ w.clause.clause → w.Semi (assn.set x .False) r x) := by
  obtain ⟨h1, h2, h3, h4⟩ := h
  have hget := Assignment.get_set_same assn x .False hx hle
  have hother : ∀ l ∈ w.clause.clause, Literal.Variable l ≠ x →
      (assn.set x .False).get (Literal.Variable l) = assn.get (Literal.Variable l) :=
    fun l hl hne => Assignment.get_set_other assn _ x _ (Literal.variable_pos (hnz l hl)) hx hne
  have hassigned : ∀ l : Literal, Literal.Eval l (assn.get (Literal.Variable l)) = true →
      assn.get (Literal.Variable l) ≠ .Unassigned := by
    intro l he hu
    rw [hu, Literal.eval_unassigned] at he
    exact absurd he (by simp)
  -- assignedness is the same before and after
  have hsame : ∀ l ∈ w.clause.clause, assn.get (Literal.Variable l) ≠ .Unassigned →
      (assn.set x .False).get (Literal.Variable l) ≠ .Unassigned := by
    intro l hl hne
    by_cases hv : Literal.Variable l = x
    · rw [hv, hget]; simp
    · rw [hother l hl hv]; exact hne
  have htrue : ∀ l ∈ w.clause.clause,
      Literal.Eval l ((assn.set x .False).get (Literal.Variable l)) = true →
      Literal.Variable l = x ∨ Literal.Eval l (assn.get (Literal.Variable l)) = true := by
    intro l hl he
    by_cases hv : Literal.Variable l = x
    · exact Or.inl hv
    · rw [hother l hl hv] at he
      exact Or.inr he
  have hnl : w.NoneLeft (assn.set x .False) :=
    ⟨fun hf l hl => hsame l hl (h2.1 hf l hl),
      fun hf i hi hne => hsame _ (ClauseView.get_mem _ _ hi) (h2.2 hf i hi hne)⟩
  have hns : w.status ≠ .Satisfied → ∀ l ∈ w.clause.clause,
      Literal.Eval l ((assn.set x .False).get (Literal.Variable l)) = true →
      Literal.Variable l = x := by
    intro hs l hl he
    rcases htrue l hl he with h5 | h5
    · exact h5
    · rw [h3 hs l hl] at h5
      exact absurd h5 (by simp)
  -- a watch on an earliest true literal of another variable stays one
  have keep : ∀ i, w.MinTrue assn r i → Literal.Variable (w.clause.get i.toNat) ≠ x →
      w.MinTrue (assn.set x .False) r i := by
    intro i hm hv
    have hmem := satisfied_mem hm.1
    have hi1 := (IsSatisfied_iff _ _ _).mp hm.1
    refine ⟨?_, fun l hl he => ?_⟩
    · rw [IsSatisfied_iff]
      refine ⟨hi1.1, ?_⟩
      rw [hother _ hmem hv]
      exact hi1.2
    · rcases htrue l hl he with h5 | h5
      · rw [h5]
        exact le_of_lt (hnew _ hmem hv (hassigned _ hi1.2))
      · exact hm.2 l hl h5
  -- with an earliest true literal on `x`, every true literal was on `x`
  have allx : ∀ i, w.MinTrue assn r i → Literal.Variable (w.clause.get i.toNat) = x →
      ∀ l ∈ w.clause.clause, Literal.Eval l (assn.get (Literal.Variable l)) = true →
        Literal.Variable l = x := by
    intro i hm hv l hl he
    by_contra hne
    have h5 := hm.2 l hl he
    have h6 := hnew l hl hne (hassigned l he)
    rw [hv] at h5
    omega
  refine ⟨?_, ?_⟩
  · by_cases hs : w.status = .Satisfied
    · have key : ∀ i, (i = w.watched_literals.1 ∨ i = w.watched_literals.2) →
          w.MinTrue assn r i →
          w.MinTrue (assn.set x .False) r i ∨
            (w.FlipState (assn.set x .False) x ∧ (x : Int) ∈ w.clause.clause) := by
        intro i hi hm
        have hi1 := (IsSatisfied_iff _ _ _).mp hm.1
        by_cases hv : Literal.Variable (w.clause.get i.toNat) = x
        · right
          refine ⟨⟨hr, hnl, hs, ?_, ?_⟩, ?_⟩
          rotate_left 2
          · have h7 := hi1.2
            rw [hv, hxt] at h7
            have h8 := Literal.eq_mk_of_eval h7
            rw [hv, Literal.mk_true] at h8
            rw [← h8]
            exact satisfied_mem hm.1
          · rcases hi with hi | hi
            · exact Or.inl ⟨hi ▸ hi1.1, hi ▸ hv⟩
            · exact Or.inr ⟨hi ▸ hi1.1, hi ▸ hv⟩
          · intro l hl he
            rcases htrue l hl he with h5 | h5
            · exact h5
            · exact allx i hm hv l hl h5
        · exact Or.inl (keep i hm hv)
      rcases h4 hs with h5 | h5
      · rcases key _ (Or.inl rfl) h5 with h6 | h6
        · exact Or.inl ⟨hr, hnl, fun _ => Or.inl h6, fun hne => absurd hs hne⟩
        · exact Or.inr h6
      · rcases key _ (Or.inr rfl) h5 with h6 | h6
        · exact Or.inl ⟨hr, hnl, fun _ => Or.inr h6, fun hne => absurd hs hne⟩
        · exact Or.inr h6
    · exact Or.inl ⟨hr, hnl, fun h5 => absurd h5 hs, hns⟩
  · intro hL
    -- no literal becomes true
    have hno : ∀ l ∈ w.clause.clause,
        Literal.Eval l ((assn.set x .False).get (Literal.Variable l)) = true →
        Literal.Variable l ≠ x := by
      intro l hl he hv
      rw [hv, hget] at he
      have := Literal.eq_mk_of_eval he
      rw [hv, Literal.mk_false] at this
      rw [this] at hl
      exact hL (by simpa using hl)
    refine ⟨hr, h1, ?_, ?_⟩
    · intro hs l hl
      by_contra hne
      have he : Literal.Eval l ((assn.set x .False).get (Literal.Variable l)) = true := by
        simpa using hne
      exact hno l hl he (hns hs l hl he)
    · intro hs
      have key : ∀ i, (i = w.watched_literals.1 ∨ i = w.watched_literals.2) →
          w.MinTrue assn r i →
          w.MinTrue (assn.set x .False) r i ∨
            (w.clause.NoTrue (assn.set x .False) ∧ w.WatchesVar x) := by
        intro i hi hm
        have hi1 := (IsSatisfied_iff _ _ _).mp hm.1
        by_cases hv : Literal.Variable (w.clause.get i.toNat) = x
        · right
          refine ⟨?_, ?_⟩
          · intro l hl
            by_contra hne
            have he : Literal.Eval l ((assn.set x .False).get (Literal.Variable l)) = true := by
              simpa using hne
            rcases htrue l hl he with h5 | h5
            · exact hno l hl he h5
            · exact hno l hl he (allx i hm hv l hl h5)
          · rcases hi with hi | hi
            · exact Or.inl ⟨hi ▸ hi1.1, hi ▸ hv⟩
            · exact Or.inr ⟨hi ▸ hi1.1, hi ▸ hv⟩
        · exact Or.inl (keep i hm hv)
      rcases h4 hs with h5 | h5
      · rcases key _ (Or.inl rfl) h5 with h6 | h6
        · exact Or.inl (Or.inl h6)
        · exact Or.inr h6
      · rcases key _ (Or.inr rfl) h5 with h6 | h6
        · exact Or.inl (Or.inr h6)
        · exact Or.inr h6

/-- Flipping the newest assignment from `True` to `False`: the status is exact after the
updates. -/
theorem tight_after_updates_flip (w : Watcher) (assn : Assignment) (r : Nat → Nat)
    (x kp kn : Nat) (hx : 1 ≤ x) (hle : x ≤ assn.assignment.length)
    (hr : w.RangeOk) (ht : w.Tight assn r) (hnz : ∀ l ∈ w.clause.clause, l ≠ 0)
    (hkp : 0 < kp ↔ (x : Int) ∈ w.clause.clause)
    (hkn : 0 < kn ↔ -(x : Int) ∈ w.clause.clause)
    (hxt : assn.get x = .True)
    (hnew : ∀ l ∈ w.clause.clause, Literal.Variable l ≠ x →
      assn.get (Literal.Variable l) ≠ .Unassigned → r (Literal.Variable l) < r x) :
    ((fun w : Watcher => w.Update (assn.set x .False) x .False true)^[kn]
      ((fun w : Watcher => w.Update (assn.set x .False) x .False false)^[kp] w)).Tight
      (assn.set x .False) r := by
  obtain ⟨hpre, hsemi⟩ := ht.flip hr hnz hx hle hxt hnew
  have hget := Assignment.get_set_same assn x .False hx hle
  have hE : Literal.Eval (Literal.mk x .False)
      ((assn.set x .False).get (Literal.Variable (Literal.mk x .False))) = true := by
    rw [Literal.variable_mk, hget, Literal.mk_false]
    exact Literal.eval_neg_false hx
  by_cases h2 : 0 < kn
  · have hL : Literal.mk x .False ∈ w.clause.clause := by
      rw [Literal.mk_false]; exact hkn.mp h2
    have hP : ∀ y : Watcher, (y.clause = w.clause ∧ y.PreSat (assn.set x .False) r x) →
        ((y.Update (assn.set x .False) x .False false).clause = w.clause ∧
          (y.Update (assn.set x .False) x .False false).PreSat (assn.set x .False) r x) :=
      fun y hy => ⟨by rw [Update_clause]; exact hy.1, Update_false_preSat y _ r x _ hy.2⟩
    have hF : ∀ y : Watcher, (y.clause = w.clause ∧ y.FlipState (assn.set x .False) x) →
        ((y.Update (assn.set x .False) x .False false).clause = w.clause ∧
          (y.Update (assn.set x .False) x .False false).PreSat (assn.set x .False) r x) :=
      fun y hy => ⟨by rw [Update_clause]; exact hy.1, Update_false_of_flip y _ r x _ hy.2⟩
    have hPQ : ∀ y : Watcher, (y.clause = w.clause ∧ y.PreSat (assn.set x .False) r x) →
        ((y.Update (assn.set x .False) x .False true).clause = w.clause ∧
          (y.Update (assn.set x .False) x .False true).RangeOk ∧
          (y.Update (assn.set x .False) x .False true).Tight (assn.set x .False) r) :=
      fun y hy => ⟨by rw [Update_clause]; exact hy.1,
        Update_true_tight y _ r x _ (by rw [hy.1]; exact hL) hE hy.2⟩
    have hQ : ∀ y : Watcher,
        (y.clause = w.clause ∧ y.RangeOk ∧ y.Tight (assn.set x .False) r) →
        ((y.Update (assn.set x .False) x .False true).clause = w.clause ∧
          (y.Update (assn.set x .False) x .False true).RangeOk ∧
          (y.Update (assn.set x .False) x .False true).Tight (assn.set x .False) r) :=
      fun y hy => ⟨by rw [Update_clause]; exact hy.1,
        Update_true_tight_stable y _ r x _ (by rw [hy.1]; exact hL) hE hy.2⟩
    have hmid : ((fun w : Watcher => w.Update (assn.set x .False) x .False false)^[kp] w).clause =
          w.clause ∧
        ((fun w : Watcher => w.Update (assn.set x .False) x .False false)^[kp] w).PreSat
          (assn.set x .False) r x := by
      rcases hpre with h3 | ⟨h3, h4⟩
      · exact iterate_invariant _ _ hP kp w ⟨rfl, h3⟩
      · exact iterate_establish _ _ _ hF hP kp (hkp.mpr h4) w ⟨rfl, h3⟩
    exact (iterate_establish _ _ _ hPQ hQ kn h2 _ hmid).2.2
  · have hkn0 : kn = 0 := by omega
    subst hkn0
    simp only [Function.iterate_zero, id_eq]
    have hs := hsemi (fun h => h2 (hkn.mpr h))
    have hPQ : ∀ y : Watcher, y.Semi (assn.set x .False) r x →
        ((y.Update (assn.set x .False) x .False false).RangeOk ∧
          (y.Update (assn.set x .False) x .False false).Tight (assn.set x .False) r) :=
      fun y hy => ⟨Update_false_rangeOk y _ x _ hy.1, Update_false_tight y _ r x _ hy⟩
    have hQf : ∀ y : Watcher, (y.RangeOk ∧ y.Tight (assn.set x .False) r) →
        ((y.Update (assn.set x .False) x .False false).RangeOk ∧
          (y.Update (assn.set x .False) x .False false).Tight (assn.set x .False) r) :=
      fun y hy => Update_false_tight_stable y _ r x _ hy
    by_cases h1 : 0 < kp
    · exact (iterate_establish _ _ _ hPQ hQf kp h1 w hs).2
    · have hkp0 : kp = 0 := by omega
      subst hkp0
      simp only [Function.iterate_zero, id_eq]
      exact ht.congr_assn (get_eq_of_no_literal assn _ hx hnz (fun h => h1 (hkp.mpr h))
        (fun h => h2 (hkn.mpr h)))

theorem iterate_undecidedOk (assn : Assignment) (v : Nat) (a : VariableAssignment) (sat : Bool)
    (k : Nat) (w : Watcher) (h : w.UndecidedOk) :
    ((fun w : Watcher => w.Update assn v a sat)^[k] w).UndecidedOk :=
  iterate_invariant _ (fun x => x.UndecidedOk)
    (fun x hx => Update_undecidedOk x assn v a sat hx) k w h

end Watcher

end pjos

namespace pjos

theorem countP_unique {α : Type} (p : α → Bool) :
    ∀ (l : List α) (i : Nat), l[i]?.map p = some true →
      (∀ j, j ≠ i → l[j]?.map p ≠ some true) → l.countP p = 1
  | [], i, h, _ => by simp at h
  | x :: xs, 0, h, hu => by
    simp only [List.getElem?_cons_zero, Option.map_some', Option.some.injEq] at h
    rw [List.countP_cons_of_pos _ _ h]
    have : xs.countP p = 0 := by
      rw [List.countP_eq_zero]
      intro a ha hpa
      obtain ⟨j, hj⟩ := List.mem_iff_getElem?.mp ha
      have := hu (j + 1) (by omega)
      simp only [List.getElem?_cons_succ, hj, Option.map_some'] at this
      exact this (by rw [hpa])
    omega
  | x :: xs, i + 1, h, hu => by
    have hx : ¬ p x = true := by
      intro hpx
      have := hu 0 (by omega)
      simp only [List.getElem?_cons_zero, Option.map_some'] at this
      exact this (by rw [hpx])
    rw [List.countP_cons_of_neg _ _ hx]
    simp only [List.getElem?_cons_succ] at h
    apply countP_unique p xs i h
    intro j hj
    have := hu (j + 1) (by omega)
    simpa only [List.getElem?_cons_succ] using this

theorem countP_two {α : Type} (p : α → Bool) :
    ∀ (l : List α) (i j : Nat), i < j → l[i]?.map p = some true → l[j]?.map p = some true →
      2 ≤ l.countP p
  | [], i, j, _, h, _ => by simp at h
  | x :: xs, 0, j + 1, _, hi, hj => by
    simp only [List.getElem?_cons_zero, Option.map_some', Option.some.injEq] at hi
    simp only [List.getElem?_cons_succ] at hj
    rw [List.countP_cons_of_pos _ _ hi]
    have : 0 < xs.countP p := by
      rw [List.countP_pos_iff]
      cases hx : xs[j]? with
      | none => rw [hx] at hj; simp at hj
      | some y =>
        rw [hx] at hj
        simp only [Option.map_some', Option.some.injEq] at hj
        exact ⟨y, List.getElem?_mem hx, hj⟩
    omega
  | x :: xs, i + 1, j + 1, hlt, hi, hj => by
    simp only [List.getElem?_cons_succ] at hi hj
    have := countP_two p xs i j (by omega) hi hj
    rw [List.countP_cons]
    omega
  | x :: xs, i + 1, 0, hlt, _, _ => by omega

namespace Watcher

theorem clause_getElem? (c : ClauseView) (i : Nat) (hi : i < c.clause.length) :
    c.clause[i]? = some (c.get i) := by
  simp only [ClauseView.get]
  rw [List.getElem?_eq_getElem hi, List.getD_eq_getElem _ _ hi]

/-- An `Undecided` watcher that is exact has a first watch. -/
theorem Exact.first {w : Watcher} {assn : Assignment} {r : Nat → Nat} (h : w.Exact assn r)
    (hs : w.status = .Undecided) :
    w.WatchUnassigned assn w.watched_literals.1 ∧ w.WatchUnassigned assn w.watched_literals.2 ∧
      w.watched_literals.1 ≠ w.watched_literals.2 := by
  obtain ⟨⟨hr, _, hu⟩, ⟨_, hnl, _, _⟩, hund⟩ := h
  obtain ⟨h2, hne⟩ := hund hs
  have hnsat : w.status ≠ .Satisfied := by rw [hs]; decide
  obtain ⟨hu1, hu2⟩ := hu hnsat
  have hr2 : 0 ≤ w.watched_literals.2 ∧ w.watched_literals.2.toNat < w.clause.clause.length := by
    rcases hr.2.1 with h3 | h3
    · exact absurd h3 h2
    · exact h3
  have h1 : w.watched_literals.1 ≠ -1 := by
    intro hc
    have := hnl.1 hc _ (ClauseView.get_mem _ _ hr2.2)
    exact this (hu2 h2)
  have hr1 : 0 ≤ w.watched_literals.1 ∧ w.watched_literals.1.toNat < w.clause.clause.length := by
    rcases hr.1 with h3 | h3
    · exact absurd h3 h1
    · exact h3
  exact ⟨⟨hr1.1, hr1.2, hu1 h1⟩, ⟨hr2.1, hr2.2, hu2 h2⟩, hne⟩

/-- An exact watcher satisfies the watcher invariant in the words of the specification. -/
theorem Exact.invariant {w : Watcher} {assn : Assignment} {r : Nat → Nat} (h : w.Exact assn r) :
    w.Invariant assn := by
  have hfirst := h.first
  obtain ⟨⟨hr, hsat, hu⟩, ⟨hsw, hnl, hnt, _⟩, hund⟩ := h
  refine ⟨hsat, fun hs => ⟨(hfirst hs).1, (hfirst hs).2.1⟩, ?_, ?_⟩
  · intro hs
    have hnsat : w.status ≠ .Satisfied := by rw [hs]; decide
    have h1 := hr.2.2 hs
    have h2 := hsw.1 hs
    have hr1 : 0 ≤ w.watched_literals.1 ∧
        w.watched_literals.1.toNat < w.clause.clause.length := by
      rcases hr.1 with h3 | h3
      · exact absurd h3 h1
      · exact h3
    refine ⟨Or.inl ⟨⟨hr1.1, hr1.2, (hu hnsat).1 h1⟩, ?_⟩, hnt hnsat⟩
    intro hc
    have := hc.1
    omega
  · intro hs
    obtain ⟨h1, h2⟩ := hsw.2 hs
    refine ⟨?_, ?_, ?_, ?_⟩
    · intro hc
      have := hc.1
      omega
    · intro hc
      have := hc.1
      omega
    · rw [h1]; exact IsSatisfied_neg_one w assn
    · rw [h2]; exact IsSatisfied_neg_one w assn

/-- The status of an exact watcher is the true status of its clause. -/
theorem Exact.status {w : Watcher} {assn : Assignment} {r : Nat → Nat} (h : w.Exact assn r) :
    w.status = w.clause.TrueStatus assn := by
  have hfirst := h.first
  obtain ⟨⟨hr, hsat, hu⟩, ⟨hsw, hnl, hnt, hmin⟩, hund⟩ := h
  unfold ClauseView.TrueStatus ClauseView.numUnassigned
  by_cases hs : w.status = .Satisfied
  · have : w.clause.SatisfiedBy assn = true := by
      unfold ClauseView.SatisfiedBy
      rw [List.any_eq_true]
      rcases hsat hs with h1 | h1
      · exact ⟨_, satisfied_mem h1, ((IsSatisfied_iff _ _ _).mp h1).2⟩
      · exact ⟨_, satisfied_mem h1, ((IsSatisfied_iff _ _ _).mp h1).2⟩
    rw [if_pos this, hs]
  · have hno := hnt hs
    have : ¬ w.clause.SatisfiedBy assn = true := by
      unfold ClauseView.SatisfiedBy
      rw [List.any_eq_true]
      rintro ⟨l, hl, he⟩
      rw [hno l hl] at he
      cases he
    rw [if_neg this]
    have hat : ∀ i : Int, 0 ≤ i → i.toNat < w.clause.clause.length → w.UnassignedAt assn i →
        w.clause.clause[i.toNat]?.map
          (fun l => decide (assn.get (Literal.Variable l) = .Unassigned)) = some true := by
      intro i _ h2 h3
      rw [clause_getElem? _ _ h2]
      simp only [Option.map_some', Option.some.injEq, decide_eq_true_eq]
      exact h3
    cases hst : w.status with
    | Satisfied => exact absurd hst hs
    | Undecided =>
      obtain ⟨h1, h2, hne⟩ := hfirst hst
      have hne2 : w.watched_literals.1.toNat ≠ w.watched_literals.2.toNat := by
        have := h1.1
        have := h2.1
        omega
      have hge : 2 ≤ w.clause.clause.countP
          (fun l => decide (assn.get (Literal.Variable l) = .Unassigned)) := by
        rcases Nat.lt_or_gt_of_ne hne2 with hlt | hlt
        · exact countP_two _ _ _ _ hlt (hat _ h1.1 h1.2.1 h1.2.2) (hat _ h2.1 h2.2.1 h2.2.2)
        · exact countP_two _ _ _ _ hlt (hat _ h2.1 h2.2.1 h2.2.2) (hat _ h1.1 h1.2.1 h1.2.2)
      rw [if_pos hge]
    | Unit =>
      have h1 := hr.2.2 hst
      have h2 := hsw.1 hst
      have hr1 : 0 ≤ w.watched_literals.1 ∧
          w.watched_literals.1.toNat < w.clause.clause.length := by
        rcases hr.1 with h3 | h3
        · exact absurd h3 h1
        · exact h3
      have hone : w.clause.clause.countP
          (fun l => decide (assn.get (Literal.Variable l) = .Unassigned)) = 1 := by
        apply countP_unique _ _ _ (hat _ hr1.1 hr1.2 ((hu hs).1 h1))
        intro j hj hc
        cases hx : w.clause.clause[j]? with
        | none => rw [hx] at hc; simp at hc
        | some y =>
          have hjlt : j < w.clause.clause.length := (List.getElem?_eq_some_iff.mp hx).1
          rw [clause_getElem? _ _ hjlt] at hc
          simp only [Option.map_some', Option.some.injEq, decide_eq_true_eq] at hc
          exact hnl.2 h2 j hjlt (by omega) hc
      rw [if_neg (by omega), if_pos hone]
    | Unsatisfied =>
      obtain ⟨h1, _⟩ := hsw.2 hst
      have hzero : w.clause.clause.countP
          (fun l => decide (assn.get (Literal.Variable l) = .Unassigned)) = 0 := by
        rw [List.countP_eq_zero]
        intro l hl hc
        simp only [decide_eq_true_eq] at hc
        exact hnl.1 h1 l hl hc
      rw [if_neg (by omega), if_neg (by omega)]

end Watcher

namespace BaseSolver

variable {X : Type}

/-- After `Assign` for the flip of the newest assignment from `True` to `False` the status of
every watcher is exact. -/
theorem Assign_tight_flip [SolverExt X] (s : BaseSolver X) (r : Nat → Nat) (x : Nat)
    (h : s.Consistent) (hx : 1 ≤ x) (hle : x ≤ s.formula.num_of_variables)
    (ht : ∀ w ∈ s.watchers, w.Tight s.assignment r)
    (hxt : s.assignment.get x = .True)
    (hnew : ∀ y, 1 ≤ y → y ≤ s.formula.num_of_variables → y ≠ x →
      s.assignment.get y ≠ .Unassigned → r y < r x) :
    ∀ w ∈ (s.Assign x .False).watchers, w.Tight (s.assignment.set x .False) r := by
  intro w2 hw2
  obtain ⟨i, hi⟩ := List.mem_iff_getElem?.mp hw2
  rw [Assign_watchers_getElem?] at hi
  cases hw : s.watchers[i]? with
  | none => rw [hw] at hi; simp at hi
  | some w =>
    rw [hw] at hi
    simp only [Option.map_some', Option.some.injEq] at hi
    rw [← hi]
    have hc := h.watcher_clause hw
    have hmem := List.getElem?_mem hw
    have hwf := h.wf _ (List.getElem?_mem hc.1)
    apply Watcher.tight_after_updates_flip w s.assignment r x _ _ hx
      (by rw [h.assignment_length]; exact hle)
      (h.watchers_ok w hmem).1 (ht w hmem) (h.watcher_nonzero hw) _ _ hxt
      (fun l hl hne hass => hnew _ (Literal.variable_pos (hwf l hl).1) (hwf l hl).2 hne hass)
    · rw [List.count_pos_iff, h.index_pos x i hx hle, hc.2.2]
      exact ⟨fun h1 => h1.2, fun h1 => ⟨hc.2.1, h1⟩⟩
    · rw [List.count_pos_iff, h.index_neg x i hx hle, hc.2.2]
      exact ⟨fun h1 => h1.2, fun h1 => ⟨hc.2.1, h1⟩⟩

/-- `Assign` keeps that an `Undecided` watcher has two watches. -/
theorem Assign_undecidedOk [SolverExt X] (s : BaseSolver X) (x : Nat) (a : VariableAssignment)
    (hu : ∀ w ∈ s.watchers, w.UndecidedOk) :
    ∀ w ∈ (s.Assign x a).watchers, w.UndecidedOk := by
  intro w2 hw2
  obtain ⟨i, hi⟩ := List.mem_iff_getElem?.mp hw2
  rw [Assign_watchers_getElem?] at hi
  cases hw : s.watchers[i]? with
  | none => rw [hw] at hi; simp at hi
  | some w =>
    rw [hw] at hi
    simp only [Option.map_some', Option.some.injEq] at hi
    rw [← hi]
    exact Watcher.iterate_undecidedOk _ _ _ _ _ _
      (Watcher.iterate_undecidedOk _ _ _ _ _ _ (hu w (List.getElem?_mem hw)))

/-- `Assign` in one of the orders that the solvers use keeps the strengthened watcher invariant,
and with it the watcher invariant of the specification and the exactness of the status. -/
theorem Assign_exact [SolverExt X] (s : BaseSolver X) (r : Nat → Nat) (x : Nat)
    (a : VariableAssignment) (h : s.Consistent) (hx : 1 ≤ x)
    (hle : x ≤ s.formula.num_of_variables)
    (he : ∀ w ∈ s.watchers, w.Exact s.assignment r)
    (ho : s.AssignOrder r x a) :
    (s.Assign x a).Consistent ∧
    ∀ w ∈ (s.Assign x a).watchers, w.Exact (s.Assign x a).assignment r := by
  have hcons := Assign_consistent s x a h hx hle
  refine ⟨hcons, fun w hw => ⟨hcons.watchers_ok w hw, ?_,
    Assign_undecidedOk s x a (fun w1 hw1 => (he w1 hw1).2.2) w hw⟩⟩
  rw [Assign_assignment]
  rcases ho with h1 | h1 | h1
  · exact Assign_tight s r x a h hx hle (fun w1 hw1 => (he w1 hw1).2.1) (Or.inr h1) w hw
  · exact Assign_tight s r x a h hx hle (fun w1 hw1 => (he w1 hw1).2.1) (Or.inl h1) w hw
  · obtain ⟨ha, hxt, hnew⟩ := h1
    subst ha
    exact Assign_tight_flip s r x h hx hle (fun w1 hw1 => (he w1 hw1).2.1) hxt hnew w hw

end BaseSolver

end pjos

namespace pjos

namespace Watcher

/-- The watcher after the calls of `Update` that `UpdateWatchers` makes on it is exact when the
assignment came in one of the orders that the solvers use. -/
theorem UpdateCalls_exact (w : Watcher) (assn : Assignment) (r : Nat → Nat) (x : Nat)
    (a : VariableAssignment) (kp kn : Nat) (hx : 1 ≤ x) (hle : x ≤ assn.NumOfVariables)
    (he : w.Exact assn r) (hnz : ∀ l ∈ w.clause.clause, l ≠ 0)
    (hkp : 0 < kp ↔ (x : Int) ∈ w.clause.clause)
    (hkn : 0 < kn ↔ -(x : Int) ∈ w.clause.clause)
    (ho : w.UpdateOrder assn r x a) :
    (w.UpdateCalls (assn.set x a) x a kp kn).Exact (assn.set x a) r ∧
    (w.UpdateCalls (assn.set x a) x a kp kn).clause = w.clause := by
  have hle2 : x ≤ assn.assignment.length := hle
  refine ⟨⟨ok_after_updates w assn x a kp kn hx hle2 he.1 hnz hkp hkn, ?_, ?_⟩, ?_⟩
  · rcases ho with h1 | h1 | h1
    · exact tight_after_updates w assn r x a kp kn hx hle2 he.1.1 he.2.1 hnz hkp hkn (Or.inr h1)
    · exact tight_after_updates w assn r x a kp kn hx hle2 he.1.1 he.2.1 hnz hkp hkn (Or.inl h1)
    · obtain ⟨ha, hxt, hnew⟩ := h1
      subst ha
      exact tight_after_updates_flip w assn r x kp kn hx hle2 he.1.1 he.2.1 hnz hkp hkn hxt hnew
  · exact iterate_undecidedOk _ _ _ _ _ _ (iterate_undecidedOk _ _ _ _ _ _ he.2.2)
  · unfold UpdateCalls
    rw [BaseSolver.iterate_Update_clause, BaseSolver.iterate_Update_clause]

theorem Rescan_status_congr (w1 w2 : Watcher) (assn : Assignment) (h : w1.clause = w2.clause) :
    (w1.Rescan assn).status = (w2.Rescan assn).status := by
  rw [(Rescan_exact w1 assn).2.1, (Rescan_exact w2 assn).2.1, h]

end Watcher

namespace BaseSolver

variable {X : Type}

/-- The watchers of a new solver are exact. -/
theorem new_exact (f : Formula) (ext : X) (hwf : f.WellFormed) (r : Nat → Nat) :
    (BaseSolver.new f ext).assignment = Assignment.new f.NumOfVariables ∧
    ∀ w ∈ (BaseSolver.new f ext).watchers, w.Exact (BaseSolver.new f ext).assignment r := by
  have hc := new_consistent f ext hwf
  have hw := PopulateFrom_watchers f.clauses 0
    ({ formula := f
       variable_index := List.replicate f.NumOfVariables VariableIndexEntry.empty
       watchers := []
       assignment := Assignment.new f.NumOfVariables
       trail := DecisionTrail.new f.NumOfVariables
       pending_assignments := []
       interrupt_requested := false
       current_status := .Unknown
       interrupt_request_fn := none
       interrupt_polls := 0
       fresh_solver := true
       ext := ext } : BaseSolver X)
  have ha : (BaseSolver.new f ext).assignment = Assignment.new f.NumOfVariables := hw.2
  refine ⟨ha, fun w hwm => ⟨hc.watchers_ok w hwm, ?_, ?_⟩⟩
  · have hwm2 : w ∈ ([] : List Watcher) ++ f.clauses.map Watcher.new := by
      rw [← hw.1]; exact hwm
    rw [List.nil_append, List.mem_map] at hwm2
    obtain ⟨c, _, hcw⟩ := hwm2
    rw [← hcw, ha]
    exact Watcher.new_tight c _ _ (fun l _ => Assignment.new_get _ _)
  · have hwm2 : w ∈ ([] : List Watcher) ++ f.clauses.map Watcher.new := by
      rw [← hw.1]; exact hwm
    rw [List.nil_append, List.mem_map] at hwm2
    obtain ⟨c, _, hcw⟩ := hwm2
    rw [← hcw]
    exact Watcher.new_undecidedOk c

end BaseSolver

end pjos

namespace pjos

/-- C17 (failing run): a `CdclSolver` for `(x1 ∨ x2) (¬x1 ∨ x2)` after `RemoveClause(1)` holds the
formula `(x1 ∨ x2)`; the occurrence lists of `x1` are `[0]` and `[]`, which call for the tag
`PurePositive`, but the tag is still `Mixed`, and `ScanPureLiterals` leaves the pure literal
`x1` out.  The same holds for `ModifiableDpllSolver`; and after `AppendClause((x1))` and
`RemoveClause(0)` on a solver for the empty formula both lists of `x1` are empty while the tag
is `PurePositive`. -/
theorem C17_polarity_tag_is_stale_after_remove :
    (CdclSolver.run exactPlatform
      (CdclSolver.new exactPlatform (Formula.ofClauses id [[1, 2], [-1, 2]]) defaultScoring)
      [.Remove 1]).formula.clauses = [⟨[1, 2], 2⟩] ∧
    (CdclSolver.run exactPlatform
      (CdclSolver.new exactPlatform (Formula.ofClauses id [[1, 2], [-1, 2]]) defaultScoring)
      [.Remove 1]).VariableIndex 1 = ⟨[0], [], .Mixed⟩ ∧
    (⟨[0], [], .Mixed⟩ : VariableIndexEntry).listedPolarity = .PurePositive ∧
    (CdclSolver.run exactPlatform
      (CdclSolver.new exactPlatform (Formula.ofClauses id [[1, 2], [-1, 2]]) defaultScoring)
      [.Remove 1]).ScanPureLiterals = [(2, .True, false)] ∧
    (ModifiableDpllSolver.run
      (ModifiableDpllSolver.new (Formula.ofClauses id [[1, 2], [-1, 2]]))
      [.Remove 1]).VariableIndex 1 = ⟨[0], [], .Mixed⟩ ∧
    (ModifiableDpllSolver.run (ModifiableDpllSolver.new Formula.empty)
      [.Append ⟨[1], 1⟩, .Remove 0]).formula.clauses = [] ∧
    (ModifiableDpllSolver.run (ModifiableDpllSolver.new Formula.empty)
      [.Append ⟨[1], 1⟩, .Remove 0]).VariableIndex 1 = ⟨[], [], .PurePositive⟩ ∧
    (⟨[], [], .PurePositive⟩ : VariableIndexEntry).listedPolarity = .None :=
  ⟨rfl, rfl, rfl, rfl, rfl, rfl, rfl, rfl⟩

/-- C19 (failing run): after `AppendClause((x1 ∨ ¬x3))` and `RemoveClause(0)` on an empty
`Formula` no clause is left and the largest variable that occurs is `0`, but
`NumOfVariables()` is `3`; the same after `Clear()`; and after `AppendClause((x1 ∨ ¬x3))`,
`AppendClause((x2))`, `RemoveClause(0)` the largest variable that occurs is `2` while
`NumOfVariables()` is `3`. -/
theorem C19_num_of_variables_is_not_lowered :
    (Formula.run Formula.empty [.Append ⟨[1, -3], 3⟩, .Remove 0]).clauses = [] ∧
    (Formula.run Formula.empty [.Append ⟨[1, -3], 3⟩, .Remove 0]).MaxVariable = 0 ∧
    (Formula.run Formula.empty [.Append ⟨[1, -3], 3⟩, .Remove 0]).NumOfVariables = 3 ∧
    (Formula.run Formula.empty [.Append ⟨[1, -3], 3⟩, .Clear]).clauses = [] ∧
    (Formula.run Formula.empty [.Append ⟨[1, -3], 3⟩, .Clear]).NumOfVariables = 3 ∧
    (Formula.run Formula.empty [.Append ⟨[1, -3], 3⟩, .Append ⟨[2], 2⟩, .Remove 0]).clauses
      = [⟨[2], 2⟩] ∧
    (Formula.run Formula.empty [.Append ⟨[1, -3], 3⟩, .Append ⟨[2], 2⟩, .Remove 0]).MaxVariable
      = 2 ∧
    (Formula.run Formula.empty
      [.Append ⟨[1, -3], 3⟩, .Append ⟨[2], 2⟩, .Remove 0]).NumOfVariables = 3 :=
  ⟨rfl, rfl, rfl, rfl, rfl, rfl, rfl, rfl⟩

/-- C20: for every `Formula` with `N` clauses and every index `i`: when `i < N`,
`RemoveClause(i)` returns `true`, the clause sequence becomes the old one with the element `i`
deleted (`N - 1` clauses; the clause at an index `j < i` is unchanged, the clause at an index
`j ≥ i` is the old clause `j + 1`) and the number of variables is unchanged; when `i ≥ N` it
returns `false` and the formula is unchanged. -/
theorem C20_remove_clause_deletes_the_element (f : Formula) (i : Nat) :
    (i < f.NumOfClauses →
      (f.RemoveClause i).1 = true ∧
      (f.RemoveClause i).2.clauses = f.clauses.take i ++ f.clauses.drop (i + 1) ∧
      (f.RemoveClause i).2.NumOfClauses = f.NumOfClauses - 1 ∧
      (∀ j, j < i → (f.RemoveClause i).2.clauses[j]? = f.clauses[j]?) ∧
      (∀ j, i ≤ j → (f.RemoveClause i).2.clauses[j]? = f.clauses[j + 1]?) ∧
      (f.RemoveClause i).2.NumOfVariables = f.NumOfVariables) ∧
    (f.NumOfClauses ≤ i → f.RemoveClause i = (false, f)) := by
  constructor
  · intro h
    have h2 : i < f.clauses.length := h
    simp only [Formula.RemoveClause, if_pos h2, Formula.NumOfClauses, Formula.NumOfVariables]
    refine ⟨trivial, List.eraseIdx_eq_take_drop_succ _ _, ?_, ?_, ?_, trivial⟩
    · exact List.length_eraseIdx_of_lt h2
    · intro j hj
      exact List.getElem?_eraseIdx_of_lt _ _ _ hj
    · intro j hj
      exact List.getElem?_eraseIdx_of_ge _ _ _ hj
  · intro h
    have h2 : ¬ i < f.clauses.length := Nat.not_lt.mpr h
    simp only [Formula.RemoveClause, if_neg h2]

/-- C20 (instance): `RemoveClause(1)` and `RemoveClause(3)` on `(x1) (x2) (x3)`. -/
theorem C20_remove_clause_deletes_the_element_witness :
    (Formula.RemoveClause ⟨[⟨[1], 1⟩, ⟨[2], 2⟩, ⟨[3], 3⟩], 3⟩ 1).1 = true ∧
    (Formula.RemoveClause ⟨[⟨[1], 1⟩, ⟨[2], 2⟩, ⟨[3], 3⟩], 3⟩ 1).2.clauses
      = [⟨[1], 1⟩, ⟨[3], 3⟩] ∧
    Formula.RemoveClause ⟨[⟨[1], 1⟩, ⟨[2], 2⟩, ⟨[3], 3⟩], 3⟩ 3
      = (false, ⟨[⟨[1], 1⟩, ⟨[2], 2⟩, ⟨[3], 3⟩], 3⟩) :=
  ⟨((C20_remove_clause_deletes_the_element ⟨[⟨[1], 1⟩, ⟨[2], 2⟩, ⟨[3], 3⟩], 3⟩ 1).1
      (by decide)).1,
    ((C20_remove_clause_deletes_the_element ⟨[⟨[1], 1⟩, ⟨[2], 2⟩, ⟨[3], 3⟩], 3⟩ 1).1
      (by decide)).2.1,
    (C20_remove_clause_deletes_the_element ⟨[⟨[1], 1⟩, ⟨[2], 2⟩, ⟨[3], 3⟩], 3⟩ 3).2
      (by decide)⟩

end pjos

namespace pjos

theorem Assignment.SetNumOfVariables_self (a : Assignment) (n : Nat)
    (h : a.assignment.length = n) : a.SetNumOfVariables n = a := by
  unfold Assignment.SetNumOfVariables
  rw [if_neg (by omega), if_neg (by omega)]

namespace BaseSolver

variable {X : Type}

theorem DetachClauseEntry_pos (i : Nat) (e : VariableIndexEntry) (j : Nat) :
    j ∈ (DetachClauseEntry i e).positive_clauses ↔
      ((j < i ∧ j ∈ e.positive_clauses) ∨ (i ≤ j ∧ j + 1 ∈ e.positive_clauses)) := by
  simp only [DetachClauseEntry, List.mem_map, List.mem_filter, bne_iff_ne, ne_eq]
  constructor
  · rintro ⟨k, ⟨hk, hne⟩, hkj⟩
    split_ifs at hkj with h1
    · subst hkj
      exact Or.inl ⟨by omega, hk⟩
    · refine Or.inr ⟨by omega, ?_⟩
      have : j + 1 = k := by omega
      rw [this]; exact hk
  · rintro (⟨h1, h2⟩ | ⟨h1, h2⟩)
    · exact ⟨j, ⟨h2, by omega⟩, by rw [if_pos (by omega)]⟩
    · exact ⟨j + 1, ⟨h2, by omega⟩, by rw [if_neg (by omega)]; omega⟩

theorem DetachClauseEntry_neg (i : Nat) (e : VariableIndexEntry) (j : Nat) :
    j ∈ (DetachClauseEntry i e).negative_clauses ↔
      ((j < i ∧ j ∈ e.negative_clauses) ∨ (i ≤ j ∧ j + 1 ∈ e.negative_clauses)) := by
  simp only [DetachClauseEntry, List.mem_map, List.mem_filter, bne_iff_ne, ne_eq]
  constructor
  · rintro ⟨k, ⟨hk, hne⟩, hkj⟩
    split_ifs at hkj with h1
    · subst hkj
      exact Or.inl ⟨by omega, hk⟩
    · refine Or.inr ⟨by omega, ?_⟩
      have : j + 1 = k := by omega
      rw [this]; exact hk
  · rintro (⟨h1, h2⟩ | ⟨h1, h2⟩)
    · exact ⟨j, ⟨h2, by omega⟩, by rw [if_pos (by omega)]⟩
    · exact ⟨j + 1, ⟨h2, by omega⟩, by rw [if_neg (by omega)]; omega⟩

theorem DetachClauseEntry_empty (i : Nat) :
    DetachClauseEntry i VariableIndexEntry.empty = VariableIndexEntry.empty := rfl

theorem getD_map_DetachClauseEntry (vi : List VariableIndexEntry) (i k : Nat) :
    (vi.map (DetachClauseEntry i)).getD k VariableIndexEntry.empty =
      DetachClauseEntry i (vi.getD k VariableIndexEntry.empty) := by
  simp only [List.getD_eq_getElem?_getD, List.getElem?_map]
  cases vi[k]? <;> rfl

theorem DetachClause_formula (s : BaseSolver X) (i : Nat) (c : ClauseView) :
    (s.DetachClause i c).formula = s.formula := by
  simp only [DetachClause]
  split_ifs <;> simp

theorem DetachClause_assignment (s : BaseSolver X) (i : Nat) (c : ClauseView) :
    (s.DetachClause i c).assignment = s.assignment.SetNumOfVariables s.formula.NumOfVariables := by
  simp only [DetachClause]
  split_ifs <;> simp

theorem DetachClause_watchers (s : BaseSolver X) (i : Nat) (c : ClauseView) :
    (s.DetachClause i c).watchers = s.watchers.eraseIdx i := by
  simp only [DetachClause]
  split_ifs <;> simp

theorem DetachClause_variable_index (s : BaseSolver X) (i : Nat) (c : ClauseView)
    (h : s.variable_index.length = s.formula.num_of_variables) :
    (s.DetachClause i c).variable_index = s.variable_index.map (DetachClauseEntry i) := by
  simp only [DetachClause, Formula.NumOfVariables, ResetCurrentStatus_formula,
    ResetCurrentStatus_variable_index]
  rw [if_neg (by omega)]

theorem map_eraseIdx_clause (ws : List Watcher) (i : Nat) :
    (ws.eraseIdx i).map (fun w => w.clause) = (ws.map (fun w => w.clause)).eraseIdx i := by
  induction ws generalizing i with
  | nil => rfl
  | cons w ws ih =>
    cases i with
    | zero => rfl
    | succ i => simp only [List.eraseIdx_cons_succ, List.map_cons, ih]

theorem Formula_get_eraseIdx (f : Formula) (i j : Nat) :
    Formula.get { f with clauses := f.clauses.eraseIdx i } j =
      if j < i then f.get j else f.get (j + 1) := by
  simp only [Formula.get, List.getD_eq_getElem?_getD]
  split_ifs with h
  · rw [List.getElem?_eraseIdx_of_lt _ _ _ h]
  · rw [List.getElem?_eraseIdx_of_ge _ _ _ (by omega)]

/-- Detaching a clause of the formula and removing it from the formula keeps the invariant. -/
theorem DetachClause_consistent (s : BaseSolver X) (i : Nat) (c : ClauseView)
    (h : s.Consistent) (hi : i < s.formula.clauses.length) :
    (BaseSolver.Consistent
      { s.DetachClause i c with formula := ((s.DetachClause i c).formula.RemoveClause i).2 }) ∧
    ((s.DetachClause i c).formula.RemoveClause i).2 =
      { s.formula with clauses := s.formula.clauses.eraseIdx i } := by
  have hf : ((s.DetachClause i c).formula.RemoveClause i).2 =
      { s.formula with clauses := s.formula.clauses.eraseIdx i } := by
    rw [DetachClause_formula]
    simp only [Formula.RemoveClause, if_pos hi]
  have ha : (s.DetachClause i c).assignment = s.assignment := by
    rw [DetachClause_assignment]
    exact Assignment.SetNumOfVariables_self _ _ h.assignment_length
  have hlen : (s.formula.clauses.eraseIdx i).length = s.formula.clauses.length - 1 :=
    List.length_eraseIdx_of_lt hi
  refine ⟨⟨?_, ?_, ?_, ?_, ?_, ?_, ?_⟩, hf⟩
  · show Formula.WellFormed ((s.DetachClause i c).formula.RemoveClause i).2
    rw [hf]
    intro c1 hc1 l hl
    exact h.wf c1 (List.mem_of_mem_eraseIdx hc1) l hl
  · show (s.DetachClause i c).assignment.assignment.length =
      ((s.DetachClause i c).formula.RemoveClause i).2.num_of_variables
    rw [hf, ha]; exact h.assignment_length
  · show (s.DetachClause i c).variable_index.length =
      ((s.DetachClause i c).formula.RemoveClause i).2.num_of_variables
    rw [hf, DetachClause_variable_index _ _ _ h.index_length, List.length_map]
    exact h.index_length
  · show (s.DetachClause i c).watchers.map (fun w => w.clause) =
      ((s.DetachClause i c).formula.RemoveClause i).2.clauses
    rw [hf, DetachClause_watchers, map_eraseIdx_clause, h.watchers_clauses]
  · intro v j hv hle
    show j ∈ (((s.DetachClause i c).variable_index).getD (v - 1)
        VariableIndexEntry.empty).positive_clauses ↔
      j < (((s.DetachClause i c).formula.RemoveClause i).2).clauses.length ∧
        (v : Int) ∈ (Formula.get ((s.DetachClause i c).formula.RemoveClause i).2 j).clause
    have hle2 : v ≤ s.formula.num_of_variables := by
      have : (((s.DetachClause i c).formula.RemoveClause i).2).num_of_variables =
          s.formula.num_of_variables := by rw [hf]
      rw [← this]; exact hle
    rw [hf, DetachClause_variable_index _ _ _ h.index_length, getD_map_DetachClauseEntry,
      DetachClauseEntry_pos, Formula_get_eraseIdx]
    show _ ↔ j < (s.formula.clauses.eraseIdx i).length ∧ _
    rw [hlen]
    have h1 := h.index_pos v j hv hle2
    have h2 := h.index_pos v (j + 1) hv hle2
    simp only [VariableIndex] at h1 h2
    rw [h1, h2]
    by_cases hji : j < i
    · rw [if_pos hji]
      constructor
      · rintro (⟨_, _, h4⟩ | ⟨h3, _⟩)
        · exact ⟨by omega, h4⟩
        · omega
      · rintro ⟨_, h4⟩
        exact Or.inl ⟨hji, by omega, h4⟩
    · rw [if_neg hji]
      constructor
      · rintro (⟨h3, _⟩ | ⟨_, h3, h4⟩)
        · omega
        · exact ⟨by omega, h4⟩
      · rintro ⟨h3, h4⟩
        exact Or.inr ⟨by omega, by omega, h4⟩
  · intro v j hv hle
    show j ∈ (((s.DetachClause i c).variable_index).getD (v - 1)
        VariableIndexEntry.empty).negative_clauses ↔
      j < (((s.DetachClause i c).formula.RemoveClause i).2).clauses.length ∧
        -(v : Int) ∈ (Formula.get ((s.DetachClause i c).formula.RemoveClause i).2 j).clause
    have hle2 : v ≤ s.formula.num_of_variables := by
      have : (((s.DetachClause i c).formula.RemoveClause i).2).num_of_variables =
          s.formula.num_of_variables := by rw [hf]
      rw [← this]; exact hle
    rw [hf, DetachClause_variable_index _ _ _ h.index_length, getD_map_DetachClauseEntry,
      DetachClauseEntry_neg, Formula_get_eraseIdx]
    show _ ↔ j < (s.formula.clauses.eraseIdx i).length ∧ _
    rw [hlen]
    have h1 := h.index_neg v j hv hle2
    have h2 := h.index_neg v (j + 1) hv hle2
    simp only [VariableIndex] at h1 h2
    rw [h1, h2]
    by_cases hji : j < i
    · rw [if_pos hji]
      constructor
      · rintro (⟨_, _, h4⟩ | ⟨h3, _⟩)
        · exact ⟨by omega, h4⟩
        · omega
      · rintro ⟨_, h4⟩
        exact Or.inl ⟨hji, by omega, h4⟩
    · rw [if_neg hji]
      constructor
      · rintro (⟨h3, _⟩ | ⟨_, h3, h4⟩)
        · omega
        · exact ⟨by omega, h4⟩
      · rintro ⟨h3, h4⟩
        exact Or.inr ⟨by omega, by omega, h4⟩
  · intro w hw
    have hw2 : w ∈ (s.DetachClause i c).watchers := hw
    rw [DetachClause_watchers] at hw2
    show w.Ok (s.DetachClause i c).assignment
    rw [ha]
    exact h.watchers_ok w (List.mem_of_mem_eraseIdx hw2)

/-- The invariant makes the variable index exact for every variable. -/
theorem Consistent.index_exact {s : BaseSolver X} (h : s.Consistent) : s.IndexExact := by
  intro v j hv
  by_cases hle : v ≤ s.formula.num_of_variables
  · exact ⟨h.index_pos v j hv hle, h.index_neg v j hv hle⟩
  · have he : s.VariableIndex v = VariableIndexEntry.empty := by
      simp only [VariableIndex, List.getD_eq_getElem?_getD]
      rw [List.getElem?_eq_none (by rw [h.index_length]; omega)]
      rfl
    rw [he]
    have hno : ∀ l : Int, Literal.Variable l = v → l ≠ 0 →
        ¬ (j < s.formula.NumOfClauses ∧ l ∈ (s.formula.get j).clause) := by
      rintro l hl hl0 ⟨h1, h2⟩
      have := (h.wf _ (Formula_get_mem _ _ h1) l h2).2
      omega
    constructor
    · simp only [VariableIndexEntry.empty, List.not_mem_nil, false_iff]
      exact hno _ (Literal.variable_natCast v) (by omega)
    · simp only [VariableIndexEntry.empty, List.not_mem_nil, false_iff]
      refine hno _ ?_ (by omega)
      simp only [Literal.Variable, Int.natAbs_neg, Int.natAbs_ofNat]

end BaseSolver

theorem ModifiableDpllSolver.dpll_run_consistent (ops : List SolverOp) :
    ∀ (s : ModifiableDpllSolver), s.Consistent → SolverOp.Valid s.formula.clauses.length ops →
      (ModifiableDpllSolver.run s ops).Consistent ∧
      (ModifiableDpllSolver.run s ops).formula.clauses = SolverOp.clauses s.formula.clauses ops := by
  induction ops with
  | nil => intro s h _; exact ⟨h, rfl⟩
  | cons op ops ih =>
    intro s h hv
    cases op with
    | Append c =>
      obtain ⟨hc, hv2⟩ := hv
      have hk : (s.formula.AppendClause c).NumOfClauses - 1 = s.formula.clauses.length := by
        simp [Formula.AppendClause, Formula.NumOfClauses]
      have hcons : (ModifiableDpllSolver.AppendClause s c).Consistent := by
        have := BaseSolver.AttachClause_consistent s c h hc
        unfold ModifiableDpllSolver.AppendClause
        simp only [hk]
        exact this
      have hcl : (ModifiableDpllSolver.AppendClause s c).formula.clauses =
          s.formula.clauses ++ [c] := by
        unfold ModifiableDpllSolver.AppendClause
        simp only [BaseSolver.AttachClause_formula]
        rfl
      have := ih (ModifiableDpllSolver.AppendClause s c) hcons
        (by rw [hcl, List.length_append]; exact hv2)
      rw [hcl] at this
      exact this
    | Remove i =>
      obtain ⟨hi, hv2⟩ := hv
      have hd := BaseSolver.DetachClause_consistent s i (s.formula.get i) h hi
      have hcons : (ModifiableDpllSolver.RemoveClause s i).Consistent := hd.1
      have hcl : (ModifiableDpllSolver.RemoveClause s i).formula.clauses =
          s.formula.clauses.take i ++ s.formula.clauses.drop (i + 1) := by
        show (((s.DetachClause i (s.formula.get i)).formula.RemoveClause i).2).clauses = _
        rw [hd.2]
        exact List.eraseIdx_eq_take_drop_succ _ _
      have hlen : (ModifiableDpllSolver.RemoveClause s i).formula.clauses.length =
          s.formula.clauses.length - 1 := by
        show (((s.DetachClause i (s.formula.get i)).formula.RemoveClause i).2).clauses.length = _
        rw [hd.2]
        exact List.length_eraseIdx_of_lt hi
      have := ih (ModifiableDpllSolver.RemoveClause s i) hcons (by rw [hlen]; exact hv2)
      rw [hcl] at this
      exact this

theorem CdclSolver.cdcl_run_consistent {S : Type} (P : Platform S) (ops : List SolverOp) :
    ∀ (s : CdclSolver S), s.Consistent → SolverOp.Valid s.formula.clauses.length ops →
      (CdclSolver.run P s ops).Consistent ∧
      (CdclSolver.run P s ops).formula.clauses = SolverOp.clauses s.formula.clauses ops := by
  induction ops with
  | nil => intro s h _; exact ⟨h, rfl⟩
  | cons op ops ih =>
    intro s h hv
    cases op with
    | Append c =>
      obtain ⟨hc, hv2⟩ := hv
      have hk : (s.formula.AppendClause c).NumOfClauses - 1 = s.formula.clauses.length := by
        simp [Formula.AppendClause, Formula.NumOfClauses]
      have hcons : (CdclSolver.AppendClause P s c).Consistent := by
        have := BaseSolver.AttachClause_consistent s c h hc
        unfold CdclSolver.AppendClause CdclSolver.AttachClause
        simp only [hk]
        exact this.of_eq rfl rfl rfl rfl
      have hcl : (CdclSolver.AppendClause P s c).formula.clauses = s.formula.clauses ++ [c] := by
        unfold CdclSolver.AppendClause CdclSolver.AttachClause
        simp only [BaseSolver.AttachClause_formula]
        rfl
      have := ih (CdclSolver.AppendClause P s c) hcons
        (by rw [hcl, List.length_append]; exact hv2)
      rw [hcl] at this
      exact this
    | Remove i =>
      obtain ⟨hi, hv2⟩ := hv
      have hd := BaseSolver.DetachClause_consistent s i (s.formula.get i) h hi
      have hcons : (CdclSolver.RemoveClause P s i).Consistent := hd.1.of_eq rfl rfl rfl rfl
      have hcl : (CdclSolver.RemoveClause P s i).formula.clauses =
          s.formula.clauses.take i ++ s.formula.clauses.drop (i + 1) := by
        show (((BaseSolver.DetachClause s i (s.formula.get i)).formula.RemoveClause i).2).clauses
          = _
        rw [hd.2]
        exact List.eraseIdx_eq_take_drop_succ _ _
      have hlen : (CdclSolver.RemoveClause P s i).formula.clauses.length =
          s.formula.clauses.length - 1 := by
        show (((BaseSolver.DetachClause s i (s.formula.get i)).formula.RemoveClause i).2
          ).clauses.length = _
        rw [hd.2]
        exact List.length_eraseIdx_of_lt hi
      have := ih (CdclSolver.RemoveClause P s i) hcons (by rw [hlen]; exact hv2)
      rw [hcl] at this
      exact this

/-- C18: after any sequence of calls of `AppendClause` (with a valid clause) and `RemoveClause`
(with the index of a clause of the formula) on a `ModifiableDpllSolver` or a `CdclSolver`
constructed for a well-formed formula, the formula holds the clauses that the sequence of
calls describes, and the variable index lists are exact for it: for every variable `v` and
every index `j`, `j` is in the positive list of `v` exactly when the clause `j` of the current
formula holds the literal `v`, and in the negative list exactly when it holds `-v`. -/
theorem C18_variable_index_lists_are_exact {S : Type} (P : Platform S)
    (scoring : ScoringParameters S) (f : Formula) (ops : List SolverOp)
    (hwf : f.WellFormed) (hv : SolverOp.Valid f.NumOfClauses ops) :
    ((ModifiableDpllSolver.run (ModifiableDpllSolver.new f) ops).formula.clauses =
        SolverOp.clauses f.clauses ops ∧
      (ModifiableDpllSolver.run (ModifiableDpllSolver.new f) ops).IndexExact) ∧
    ((CdclSolver.run P (CdclSolver.new P f scoring) ops).formula.clauses =
        SolverOp.clauses f.clauses ops ∧
      (CdclSolver.run P (CdclSolver.new P f scoring) ops).IndexExact) := by
  have h1 : (ModifiableDpllSolver.new f).Consistent := BaseSolver.new_consistent f () hwf
  have h2 : (CdclSolver.new P f scoring).Consistent := BaseSolver.new_consistent f _ hwf
  have hf1 : (ModifiableDpllSolver.new f).formula = f :=
    (BaseSolver.PopulateFrom_fields f.clauses 0 _).2.2.2.2
  have hf2 : (CdclSolver.new P f scoring).formula = f :=
    (BaseSolver.PopulateFrom_fields f.clauses 0 _).2.2.2.2
  have r1 := ModifiableDpllSolver.dpll_run_consistent ops _ h1 (by rw [hf1]; exact hv)
  have r2 := CdclSolver.cdcl_run_consistent P ops _ h2 (by rw [hf2]; exact hv)
  rw [hf1] at r1
  rw [hf2] at r2
  exact ⟨⟨r1.2, r1.1.index_exact⟩, ⟨r2.2, r2.1.index_exact⟩⟩

/-- C18 (instance): `RemoveClause(0)` and then `AppendClause((¬x2))` on solvers for
`(x1 ∨ x2) (¬x1 ∨ x2)`: the formula is `(¬x1 ∨ x2) (¬x2)` and the lists of `x2` are `[0]` and
`[1]`. -/
theorem C18_variable_index_lists_are_exact_witness :
    (ModifiableDpllSolver.run
      (ModifiableDpllSolver.new (Formula.ofClauses id [[1, 2], [-1, 2]]))
      [.Remove 0, .Append ⟨[-2], 2⟩]).VariableIndex 2 = ⟨[0], [1], .Mixed⟩ ∧
    ((ModifiableDpllSolver.run
        (ModifiableDpllSolver.new (Formula.ofClauses id [[1, 2], [-1, 2]]))
        [.Remove 0, .Append ⟨[-2], 2⟩]).formula.clauses =
          SolverOp.clauses (Formula.ofClauses id [[1, 2], [-1, 2]]).clauses
            [.Remove 0, .Append ⟨[-2], 2⟩] ∧
      (ModifiableDpllSolver.run
        (ModifiableDpllSolver.new (Formula.ofClauses id [[1, 2], [-1, 2]]))
        [.Remove 0, .Append ⟨[-2], 2⟩]).IndexExact) ∧
    ((CdclSolver.run exactPlatform
        (CdclSolver.new exactPlatform (Formula.ofClauses id [[1, 2], [-1, 2]]) defaultScoring)
        [.Remove 0, .Append ⟨[-2], 2⟩]).formula.clauses =
          SolverOp.clauses (Formula.ofClauses id [[1, 2], [-1, 2]]).clauses
            [.Remove 0, .Append ⟨[-2], 2⟩] ∧
      (CdclSolver.run exactPlatform
        (CdclSolver.new exactPlatform (Formula.ofClauses id [[1, 2], [-1, 2]]) defaultScoring)
        [.Remove 0, .Append ⟨[-2], 2⟩]).IndexExact) := by
  have hF : (Formula.ofClauses id [[1, 2], [-1, 2]]).WellFormed := by
    intro c hc l hl
    have hc2 : c ∈ [(⟨[1, 2], 2⟩ : Clause), ⟨[-1, 2], 2⟩] := hc
    simp only [List.mem_cons, List.mem_singleton, List.not_mem_nil, or_false] at hc2
    rcases hc2 with hc2 | hc2 <;> subst hc2 <;>
      simp only [List.mem_cons, List.mem_singleton, List.not_mem_nil, or_false] at hl <;>
      rcases hl with hl | hl <;> subst hl <;> decide
  have hV : SolverOp.Valid (Formula.ofClauses id [[1, 2], [-1, 2]]).NumOfClauses
      [.Remove 0, .Append ⟨[-2], 2⟩] := by
    refine ⟨by decide, ?_, trivial⟩
    intro l hl
    simp only [List.mem_singleton] at hl
    subst hl
    decide
  exact ⟨rfl, C18_variable_index_lists_are_exact exactPlatform defaultScoring
    (Formula.ofClauses id [[1, 2], [-1, 2]]) [.Remove 0, .Append ⟨[-2], 2⟩] hF hV⟩

end pjos

namespace pjos

namespace ClauseBuilder

theorem Add_literals_nodup (b : ClauseBuilder) (l : Literal) (h : b.literals.Nodup) :
    (b.Add l).literals.Nodup := by
  unfold Add
  simp only
  split_ifs with hm
  · exact h
  · exact List.Nodup.append h (List.nodup_singleton l)
      (by intro x hx hx2; rw [List.mem_singleton] at hx2; subst hx2; exact hm hx)

/-- The builder after a sequence of `Add` calls holds every added literal once, and the largest
variable seen. -/
theorem AddAll_spec : ∀ (lits : List Literal) (b : ClauseBuilder), b.literals.Nodup →
    (b.AddAll lits).literals.Nodup ∧
    (∀ l, l ∈ (b.AddAll lits).literals ↔ l ∈ b.literals ∨ l ∈ lits) ∧
    (b.AddAll lits).num_of_variables = (lits.map Literal.Variable).foldl max b.num_of_variables
  | [], b, h => ⟨h, fun l => by simp [AddAll], rfl⟩
  | x :: xs, b, h => by
    have ih := AddAll_spec xs (b.Add x) (Add_literals_nodup b x h)
    have hstep : b.AddAll (x :: xs) = (b.Add x).AddAll xs := rfl
    rw [hstep]
    refine ⟨ih.1, ?_, ?_⟩
    · intro l
      rw [ih.2.1 l, List.mem_cons]
      constructor
      · rintro (h1 | h1)
        · rcases pjos.CdclSolver.ClauseBuilder.mem_Add_iff b x l h1 with h2 | h2
          · exact Or.inl h2
          · exact Or.inr (Or.inl h2)
        · exact Or.inr (Or.inr h1)
      · rintro (h1 | h1 | h1)
        · exact Or.inl (pjos.CdclSolver.ClauseBuilder.mem_Add b x l h1)
        · rw [h1]; exact Or.inl (pjos.CdclSolver.ClauseBuilder.mem_Add_self b x)
        · exact Or.inr h1
    · rw [ih.2.2]
      simp only [List.map_cons, List.foldl_cons]
      have : (b.Add x).num_of_variables = max b.num_of_variables (Literal.Variable x) := by
        unfold Add
        exact max_comm _ _
      rw [this]

end ClauseBuilder

/-- C21: for every sequence of literals added to a `ClauseBuilder` since its last `Reset` or
`Make` (or its construction), on every platform whose hash set iterates over exactly its
elements, `Make` returns a clause whose literals are pairwise distinct, whose literals are
the added literals, whose `Length` is the number of distinct added literals and whose
`NumOfVariables` is the largest variable among them (`0` for an empty clause); after `Make`
the builder is empty again. -/
theorem C21_make_returns_the_distinct_added_literals
    (set_order : List Literal → List Literal) (b0 : ClauseBuilder) (lits : List Literal)
    (hP : ∀ ls : List Literal, List.Perm (set_order ls) ls) :
    b0.Reset = ClauseBuilder.empty ∧ (b0.Make set_order).2 = ClauseBuilder.empty ∧
    ((ClauseBuilder.empty.AddAll lits).Make set_order).1.clause.Nodup ∧
    (∀ l, l ∈ ((ClauseBuilder.empty.AddAll lits).Make set_order).1.clause ↔ l ∈ lits) ∧
    ((ClauseBuilder.empty.AddAll lits).Make set_order).1.Length = lits.toFinset.card ∧
    ((ClauseBuilder.empty.AddAll lits).Make set_order).1.NumOfVariables =
      Literal.maxVariable lits ∧
    ((ClauseBuilder.empty.AddAll lits).Make set_order).2 = ClauseBuilder.empty := by
  have h := ClauseBuilder.AddAll_spec lits ClauseBuilder.empty List.nodup_nil
  have hperm := hP (ClauseBuilder.empty.AddAll lits).literals
  have hnd : (set_order (ClauseBuilder.empty.AddAll lits).literals).Nodup :=
    hperm.nodup_iff.mpr h.1
  have hmem : ∀ l, l ∈ set_order (ClauseBuilder.empty.AddAll lits).literals ↔ l ∈ lits := by
    intro l
    rw [hperm.mem_iff, h.2.1 l]
    simp [ClauseBuilder.empty]
  refine ⟨rfl, rfl, hnd, hmem, ?_, h.2.2, rfl⟩
  show (set_order (ClauseBuilder.empty.AddAll lits).literals).length = lits.toFinset.card
  rw [← List.toFinset_card_of_nodup hnd]
  congr 1
  ext l
  simp only [List.mem_toFinset]
  exact hmem l

/-- C21 (instance): the literals `3, -1, 3, 2, -1` give a clause of the three literals
`3, -1, 2` over three variables. -/
theorem C21_make_returns_the_distinct_added_literals_witness :
    ((ClauseBuilder.empty.AddAll [3, -1, 3, 2, -1]).Make id).1 = ⟨[3, -1, 2], 3⟩ ∧
    ((ClauseBuilder.empty.AddAll [3, -1, 3, 2, -1]).Make id).1.clause.Nodup ∧
    ((ClauseBuilder.empty.AddAll [3, -1, 3, 2, -1]).Make id).1.Length =
      ([3, -1, 3, 2, -1] : List Literal).toFinset.card :=
  ⟨by decide,
    (C21_make_returns_the_distinct_added_literals id ClauseBuilder.empty [3, -1, 3, 2, -1]
      (fun ls => List.Perm.refl ls)).2.2.1,
    (C21_make_returns_the_distinct_added_literals id ClauseBuilder.empty [3, -1, 3, 2, -1]
      (fun ls => List.Perm.refl ls)).2.2.2.2.1⟩

/-- C22: for every non-zero literal `L` that `Literal::Int` holds together with its negation,
and every value `a` that is `True` or `False`: `L.Eval(a)` is true iff `a` is the polarity of `L`
(`True` for `L > 0`, `False` for `L < 0`); `L.Negate().Eval(a)` is the negation of `L.Eval(a)`;
`L.Negate().Negate() = L`; `L.Negate().Variable() = L.Variable()`; the polarity is the second
component of `L.Assignment()` and `Literal(L.Variable(), polarity) = L`; and
`L.Eval(Unassigned)` is false. -/
theorem C22_literal_laws (L : Literal) (a : VariableAssignment) (h0 : L ≠ 0)
    (_hr : Literal.Representable L) (ha : a = .True ∨ a = .False) :
    (Literal.Eval L a = true ↔ a = Literal.Polarity L) ∧
    Literal.Eval (Literal.Negate L) a = !Literal.Eval L a ∧
    Literal.Negate (Literal.Negate L) = L ∧
    Literal.Variable (Literal.Negate L) = Literal.Variable L ∧
    (Literal.Assignment L).1 = Literal.Variable L ∧
    (Literal.Assignment L).2 = Literal.Polarity L ∧
    Literal.mk (Literal.Variable L) (Literal.Polarity L) = L ∧
    Literal.Eval L .Unassigned = false := by
  unfold Literal at *
  have hcases : L < 0 ∨ 0 < L := lt_or_gt_of_ne h0
  refine ⟨?_, ?_, ?_, ?_, rfl, ?_, ?_, ?_⟩
  · rcases hcases with h | h <;> rcases ha with ha | ha <;> subst ha <;>
      simp [Literal.Eval, Literal.Polarity, h, not_lt_of_gt h]
  · rcases hcases with h | h <;> rcases ha with ha | ha <;> subst ha <;>
      simp [Literal.Eval, Literal.Negate, h, not_lt_of_gt h, le_of_lt h]
  · simp [Literal.Negate]
  · simp [Literal.Negate, Literal.Variable]
  · rcases hcases with h | h <;>
      simp [Literal.Assignment, Literal.Polarity, h, not_lt_of_gt h]
  · rcases hcases with h | h
    · have : ¬ (0 : Int) < L := not_lt_of_gt h
      simp only [Literal.mk, Literal.Polarity, this, if_false, if_true, Literal.Variable]
      omega
    · simp only [Literal.mk, Literal.Polarity, h, if_true, Literal.Variable]
      rw [if_neg (by decide)]
      omega
  · simp [Literal.Eval]

/-- C22 (instance): the literal `-5` and the value `False`. -/
theorem C22_literal_laws_witness :
    Literal.Eval (-5) .False = true ∧ Literal.Eval (Literal.Negate (-5)) .False = false ∧
    Literal.mk (Literal.Variable (-5)) (Literal.Polarity (-5)) = -5 := by
  have h := C22_literal_laws (-5) .False (by decide) ⟨by decide, by decide⟩ (Or.inr rfl)
  exact ⟨h.1.mpr (by decide), by decide, h.2.2.2.2.2.2.1⟩

end pjos

namespace pjos

namespace BaseSolver

variable {X : Type}

theorem ResetCurrentStatus_status (s : BaseSolver X) :
    s.ResetCurrentStatus.current_status =
      if s.current_status = .Satisfied ∨ s.current_status = .Unsatisfied then .Unknown
      else s.current_status := by
  unfold ResetCurrentStatus
  cases h : s.current_status <;> simp [h]

theorem AttachClause_status (s : BaseSolver X) (k : Nat) (c : ClauseView) :
    (s.AttachClause k c).current_status = s.ResetCurrentStatus.current_status := by
  simp only [AttachClause, UpdateClauseIndex]
  split_ifs <;> rfl

theorem DetachClause_status (s : BaseSolver X) (k : Nat) (c : ClauseView) :
    (s.DetachClause k c).current_status = s.ResetCurrentStatus.current_status := by
  simp only [DetachClause]
  split_ifs <;> rfl

theorem ScanPureLiteralsFrom_succ (s : BaseSolver X) (n var : Nat) :
    s.ScanPureLiteralsFrom (n + 1) var =
      (s.PureLiteralEntry var).toList ++ s.ScanPureLiteralsFrom n (var + 1) := by
  rw [ScanPureLiteralsFrom]
  unfold PureLiteralEntry
  by_cases ha : s.assignment.get var ≠ .Unassigned
  · simp only [if_pos ha, Option.toList_none, List.nil_append]
  · simp only [if_neg ha]
    cases (s.VariableIndex var).polarity <;> rfl

theorem ScanPureLiteralsFrom_eq (s : BaseSolver X) :
    ∀ (n var : Nat), s.ScanPureLiteralsFrom n var =
      ((List.range n).map (fun i => i + var)).filterMap s.PureLiteralEntry
  | 0, _ => rfl
  | n + 1, var => by
    have ih := ScanPureLiteralsFrom_eq s n (var + 1)
    have hr : (List.range (n + 1)).map (fun i => i + var) =
        var :: (List.range n).map (fun i => i + (var + 1)) := by
      rw [List.range_succ_eq_map, List.map_cons, List.map_map]
      simp only [Nat.zero_add, List.cons.injEq, true_and]
      apply List.map_congr_left
      intro i _
      simp only [Function.comp_apply]
      omega
    rw [hr, ScanPureLiteralsFrom_succ, ih, List.filterMap_cons]
    cases s.PureLiteralEntry var <;> rfl

end BaseSolver

/-- C25: attaching or detaching a clause changes the solver status only from a terminal state:
`Satisfied` and `Unsatisfied` become `Unknown`, `Unknown` and `Solving` are left unchanged.
This holds for `AttachClause` and `DetachClause` of the base and of `CdclSolver`, and for
`AppendClause` and `RemoveClause` of `ModifiableDpllSolver` and of `CdclSolver`. -/
theorem C25_attach_detach_reset_terminal_status {X S : Type} (P : Platform S)
    (s : BaseSolver X) (sd : ModifiableDpllSolver) (sc : CdclSolver S) (k : Nat)
    (c : ClauseView) :
    (s.AttachClause k c).Status =
      (if s.Status = .Satisfied ∨ s.Status = .Unsatisfied then .Unknown else s.Status) ∧
    (s.DetachClause k c).Status =
      (if s.Status = .Satisfied ∨ s.Status = .Unsatisfied then .Unknown else s.Status) ∧
    (CdclSolver.AttachClause P sc k c).Status =
      (if sc.Status = .Satisfied ∨ sc.Status = .Unsatisfied then .Unknown else sc.Status) ∧
    (CdclSolver.DetachClause P sc k c).Status =
      (if sc.Status = .Satisfied ∨ sc.Status = .Unsatisfied then .Unknown else sc.Status) ∧
    (ModifiableDpllSolver.AppendClause sd c).Status =
      (if sd.Status = .Satisfied ∨ sd.Status = .Unsatisfied then .Unknown else sd.Status) ∧
    (ModifiableDpllSolver.RemoveClause sd k).Status =
      (if sd.Status = .Satisfied ∨ sd.Status = .Unsatisfied then .Unknown else sd.Status) ∧
    (CdclSolver.AppendClause P sc c).Status =
      (if sc.Status = .Satisfied ∨ sc.Status = .Unsatisfied then .Unknown else sc.Status) ∧
    (CdclSolver.RemoveClause P sc k).Status =
      (if sc.Status = .Satisfied ∨ sc.Status = .Unsatisfied then .Unknown else sc.Status) := by
  refine ⟨?_, ?_, ?_, ?_, ?_, ?_, ?_, ?_⟩
  · exact (BaseSolver.AttachClause_status s k c).trans (BaseSolver.ResetCurrentStatus_status s)
  · exact (BaseSolver.DetachClause_status s k c).trans (BaseSolver.ResetCurrentStatus_status s)
  · exact (BaseSolver.AttachClause_status sc k c).trans (BaseSolver.ResetCurrentStatus_status sc)
  · exact (BaseSolver.DetachClause_status sc k c).trans (BaseSolver.ResetCurrentStatus_status sc)
  · have h1 : (ModifiableDpllSolver.AppendClause sd c).Status =
        (BaseSolver.AttachClause { sd with formula := sd.formula.AppendClause c }
          ((sd.formula.AppendClause c).NumOfClauses - 1) c).current_status := rfl
    rw [h1, BaseSolver.AttachClause_status, BaseSolver.ResetCurrentStatus_status]
    rfl
  · have h1 : (ModifiableDpllSolver.RemoveClause sd k).Status =
        (BaseSolver.DetachClause sd k (sd.formula.get k)).current_status := rfl
    rw [h1, BaseSolver.DetachClause_status, BaseSolver.ResetCurrentStatus_status]
    rfl
  · have h1 : (CdclSolver.AppendClause P sc c).Status =
        (BaseSolver.AttachClause { sc with formula := sc.formula.AppendClause c }
          ((sc.formula.AppendClause c).NumOfClauses - 1) c).current_status := rfl
    rw [h1, BaseSolver.AttachClause_status, BaseSolver.ResetCurrentStatus_status]
    rfl
  · have h1 : (CdclSolver.RemoveClause P sc k).Status =
        (BaseSolver.DetachClause sc k (sc.formula.get k)).current_status := rfl
    rw [h1, BaseSolver.DetachClause_status, BaseSolver.ResetCurrentStatus_status]
    rfl

/-- C28: `PerformPendingAssignment(V, B, is_assumption = true)`: when `V` is `Unassigned` it
assigns `V := B` (updating the watchers as `Assign` does), pushes an `Assumption` entry at the
level one above the current one and returns `true`; when `V` already has the value `B` it
leaves the assignment and the watchers unchanged, pushes an `Assumption` entry and returns
`true`; when `V` is assigned a value other than `B` it returns `false` and leaves the solver
unchanged.  With `is_assumption = false` it assigns and pushes a `Decision` entry when `V` is
`Unassigned`, and changes nothing otherwise; it returns `true` in both cases. -/
theorem C28_perform_pending_assignment {X : Type} [SolverExt X] (s : BaseSolver X) (V : Nat)
    (B : VariableAssignment) :
    (s.assignment.get V = .Unassigned →
      (s.PerformPendingAssignment V B true).1 = true ∧
      (s.PerformPendingAssignment V B true).2.assignment = s.assignment.set V B ∧
      (1 ≤ V → V ≤ s.assignment.NumOfVariables →
        (s.PerformPendingAssignment V B true).2.assignment.get V = B) ∧
      (s.PerformPendingAssignment V B true).2.watchers = (s.Assign V B).watchers ∧
      (s.PerformPendingAssignment V B true).2.trail.trail =
        s.trail.trail ++ [⟨V, B, DecisionTrail.ReasonAssumption, s.trail.Level + 1⟩] ∧
      (s.PerformPendingAssignment V B true).2.trail.Level = s.trail.Level + 1) ∧
    (s.assignment.get V ≠ .Unassigned → s.assignment.get V = B →
      (s.PerformPendingAssignment V B true).1 = true ∧
      (s.PerformPendingAssignment V B true).2.assignment = s.assignment ∧
      (s.PerformPendingAssignment V B true).2.watchers = s.watchers ∧
      (s.PerformPendingAssignment V B true).2.trail.trail =
        s.trail.trail ++ [⟨V, B, DecisionTrail.ReasonAssumption, s.trail.Level + 1⟩] ∧
      (s.PerformPendingAssignment V B true).2.trail.Level = s.trail.Level + 1) ∧
    (s.assignment.get V ≠ .Unassigned → s.assignment.get V ≠ B →
      s.PerformPendingAssignment V B true = (false, s)) ∧
    (s.assignment.get V = .Unassigned →
      (s.PerformPendingAssignment V B false).1 = true ∧
      (s.PerformPendingAssignment V B false).2.assignment = s.assignment.set V B ∧
      (1 ≤ V → V ≤ s.assignment.NumOfVariables →
        (s.PerformPendingAssignment V B false).2.assignment.get V = B) ∧
      (s.PerformPendingAssignment V B false).2.watchers = (s.Assign V B).watchers ∧
      (s.PerformPendingAssignment V B false).2.trail.trail =
        s.trail.trail ++ [⟨V, B, DecisionTrail.ReasonDecision, s.trail.Level + 1⟩] ∧
      (s.PerformPendingAssignment V B false).2.trail.Level = s.trail.Level + 1) ∧
    (s.assignment.get V ≠ .Unassigned → s.PerformPendingAssignment V B false = (true, s)) := by
  refine ⟨fun h => ?_, fun h1 h2 => ?_, fun h1 h2 => ?_, fun h => ?_, fun h => ?_⟩
  · have hr : s.PerformPendingAssignment V B true =
        (true, { s.Assign V B with trail := (s.Assign V B).trail.Assumption V B }) := by
      unfold BaseSolver.PerformPendingAssignment
      simp only [if_true, if_pos h]
    rw [hr]
    exact ⟨rfl, rfl, fun hv hle => Assignment.get_set_same _ _ _ hv hle, rfl, rfl, rfl⟩
  · have hr : s.PerformPendingAssignment V B true =
        (true, { s with trail := s.trail.Assumption V B }) := by
      unfold BaseSolver.PerformPendingAssignment
      simp only [if_true, if_neg h1, if_pos h2]
    rw [hr]
    exact ⟨rfl, rfl, rfl, rfl, rfl⟩
  · unfold BaseSolver.PerformPendingAssignment
    simp only [if_true, if_neg h1, if_neg h2]
  · have hr : s.PerformPendingAssignment V B false =
        (true, { s.Assign V B with trail := (s.Assign V B).trail.Decision V B }) := by
      unfold BaseSolver.PerformPendingAssignment
      simp only [Bool.false_eq_true, if_false, if_pos h]
    rw [hr]
    exact ⟨rfl, rfl, fun hv hle => Assignment.get_set_same _ _ _ hv hle, rfl, rfl, rfl⟩
  · unfold BaseSolver.PerformPendingAssignment
    simp only [Bool.false_eq_true, if_false, if_neg h]

/-- C28 (instance): on a new `DpllSolver` for `(x1 ∨ x2)` the assumption `x1` is applied, a second
assumption `x1` is recorded without a change of the assignment, and the assumption `¬x1` is
refused. -/
theorem C28_perform_pending_assignment_witness :
    (((DpllSolver.new (Formula.ofClauses id [[1, 2]])).PerformPendingAssignment
      1 .True true).2.assignment = ⟨[.True, .Unassigned]⟩ ∧
    ((DpllSolver.new (Formula.ofClauses id [[1, 2]])).PerformPendingAssignment
      1 .True true).2.trail.trail = [⟨1, .True, DecisionTrail.ReasonAssumption, 1⟩]) ∧
    (((DpllSolver.new (Formula.ofClauses id [[1, 2]])).PerformPendingAssignment
      1 .True true).2.PerformPendingAssignment 1 .True true).2.trail.trail =
        [⟨1, .True, DecisionTrail.ReasonAssumption, 1⟩,
          ⟨1, .True, DecisionTrail.ReasonAssumption, 2⟩] ∧
    (((DpllSolver.new (Formula.ofClauses id [[1, 2]])).PerformPendingAssignment
      1 .True true).2.PerformPendingAssignment 1 .False true).1 = false := by
  have h1 := (C28_perform_pending_assignment
    (DpllSolver.new (Formula.ofClauses id [[1, 2]])) 1 .True).1 (by decide)
  have h2 := (C28_perform_pending_assignment
    ((DpllSolver.new (Formula.ofClauses id [[1, 2]])).PerformPendingAssignment
      1 .True true).2 1 .True).2.1 (by decide) (by decide)
  have h3 := (C28_perform_pending_assignment
    ((DpllSolver.new (Formula.ofClauses id [[1, 2]])).PerformPendingAssignment
      1 .True true).2 1 .False).2.2.1 (by decide) (by decide)
  refine ⟨⟨h1.2.1, h1.2.2.2.2.1⟩, ?_, ?_⟩
  · rw [h2.2.2.2.1, h1.2.2.2.2.1]
    rfl
  · rw [h3]

/-- C29: `ScanPureLiterals` emits, in increasing order of the variables `1, ..., NumOfVariables`,
one entry for each variable that is `Unassigned` and whose polarity tag is not `Mixed`:
`(V, True, false)` for `PurePositive` and `None`, `(V, False, false)` for `PureNegative`; it
emits nothing for a variable that is assigned or `Mixed`.  (The scan reads the solver and
writes to the output only; in the embedding it is a function from the solver state to the list
written.) -/
theorem C29_scan_pure_literals_emits_the_pure_entries {X : Type} (s : BaseSolver X) :
    s.ScanPureLiterals = s.PureLiterals ∧
    List.Pairwise (fun p q => p.1 < q.1) s.ScanPureLiterals ∧
    (∀ p, p ∈ s.ScanPureLiterals ↔
      (1 ≤ p.1 ∧ p.1 ≤ s.formula.NumOfVariables ∧ s.assignment.get p.1 = .Unassigned ∧
        (((s.VariableIndex p.1).polarity = .PurePositive ∨
            (s.VariableIndex p.1).polarity = .None) ∧ p.2 = (.True, false) ∨
          (s.VariableIndex p.1).polarity = .PureNegative ∧ p.2 = (.False, false)))) := by
  have heq : s.ScanPureLiterals = s.PureLiterals := by
    unfold BaseSolver.ScanPureLiterals BaseSolver.PureLiterals
    exact BaseSolver.ScanPureLiteralsFrom_eq s _ 1
  have hentry : ∀ v p, s.PureLiteralEntry v = some p →
      p.1 = v ∧ s.assignment.get v = .Unassigned ∧
        (((s.VariableIndex v).polarity = .PurePositive ∨
            (s.VariableIndex v).polarity = .None) ∧ p.2 = (.True, false) ∨
          (s.VariableIndex v).polarity = .PureNegative ∧ p.2 = (.False, false)) := by
    intro v p hp
    unfold BaseSolver.PureLiteralEntry at hp
    split_ifs at hp with ha
    have ha2 : s.assignment.get v = .Unassigned := not_not.mp ha
    cases hpol : (s.VariableIndex v).polarity <;> rw [hpol] at hp <;>
      simp only [Option.some.injEq, reduceCtorEq] at hp
    · subst hp; exact ⟨rfl, ha2, Or.inl ⟨Or.inl rfl, rfl⟩⟩
    · subst hp; exact ⟨rfl, ha2, Or.inr ⟨rfl, rfl⟩⟩
    · subst hp; exact ⟨rfl, ha2, Or.inl ⟨Or.inr rfl, rfl⟩⟩
  refine ⟨heq, ?_, ?_⟩
  · rw [heq]
    unfold BaseSolver.PureLiterals
    have hbase : List.Pairwise (fun a b : Nat => a < b)
        ((List.range s.formula.NumOfVariables).map (fun i => i + 1)) := by
      rw [List.pairwise_map]
      exact List.Pairwise.imp (fun h => Nat.add_lt_add_right h 1) (List.pairwise_lt_range _)
    refine List.Pairwise.filterMap s.PureLiteralEntry ?_ hbase
    intro a b hab p hp q hq
    rw [(hentry a p hp).1, (hentry b q hq).1]
    exact hab
  · intro p
    rw [heq]
    unfold BaseSolver.PureLiterals
    rw [List.mem_filterMap]
    constructor
    · rintro ⟨v, hv, hp⟩
      rw [List.mem_map] at hv
      obtain ⟨i, hi, hiv⟩ := hv
      rw [List.mem_range] at hi
      obtain ⟨h1, h2, h3⟩ := hentry v p hp
      rw [h1]
      exact ⟨by omega, by omega, h2, h3⟩
    · rintro ⟨h1, h2, h3, h4⟩
      refine ⟨p.1, List.mem_map.mpr ⟨p.1 - 1, List.mem_range.mpr (by omega), by omega⟩, ?_⟩
      unfold BaseSolver.PureLiteralEntry
      rw [if_neg (not_not.mpr h3)]
      rcases h4 with ⟨h5 | h5, h6⟩ | ⟨h5, h6⟩ <;> rw [h5] <;>
        simp only [Option.some.injEq] <;> exact Prod.ext rfl h6.symm

end pjos

namespace pjos

namespace EVSIDSHeuristics

variable {S : Type}

theorem Comparator_eq (P : Platform S) (h : EVSIDSHeuristics S) (a b : Nat) :
    Comparator P h a b =
      (P.lt (h.ScoreOf P a) (h.ScoreOf P b) ||
        (!(P.lt (h.ScoreOf P b) (h.ScoreOf P a)) && decide (a < b))) := rfl

theorem Comparator_irrefl {P : Platform S} {h : EVSIDSHeuristics S} (ho : h.ScoresOrdered P)
    (a : Nat) : Comparator P h a a = false := by
  rw [Comparator_eq, ho.1 a]
  simp

theorem Comparator_trans {P : Platform S} {h : EVSIDSHeuristics S} (ho : h.ScoresOrdered P)
    {a b c : Nat} (hab : Comparator P h a b = true) (hbc : Comparator P h b c = true) :
    Comparator P h a c = true := by
  rw [Comparator_eq] at hab hbc ⊢
  simp only [Bool.or_eq_true, Bool.and_eq_true, Bool.not_eq_true', decide_eq_true_eq] at hab hbc ⊢
  rcases hab with h1 | ⟨h1, h2⟩
  · rcases hbc with h3 | ⟨h3, _⟩
    · exact Or.inl (ho.2.1 a b c h1 h3)
    · rcases ho.2.2 a b c h1 with h5 | h5
      · exact Or.inl h5
      · rw [h3] at h5; cases h5
  · rcases hbc with h3 | ⟨h3, h4⟩
    · rcases ho.2.2 b c a h3 with h5 | h5
      · rw [h1] at h5; cases h5
      · exact Or.inl h5
    · by_cases h5 : P.lt (h.ScoreOf P c) (h.ScoreOf P a) = true
      · rcases ho.2.2 c a b h5 with h6 | h6
        · rw [h3] at h6; cases h6
        · rw [h1] at h6; cases h6
      · exact Or.inr ⟨by simpa using h5, by omega⟩

/-- The element that `HeapMax` returns is not below any element of the heap. -/
theorem HeapMax_max {P : Platform S} {h : EVSIDSHeuristics S} (ho : h.ScoresOrdered P) :
    ∀ (vs : List Nat) (best : Nat) (seen : List Nat),
      (∀ x ∈ seen, Comparator P h best x = false) → Comparator P h best best = false →
      ∀ x, x ∈ seen ∨ x = best ∨ x ∈ vs → Comparator P h (HeapMax P h best vs) x = false
  | [], best, seen, hs, hb, x, hx => by
    simp only [HeapMax]
    rcases hx with hx | hx | hx
    · exact hs x hx
    · rw [hx]; exact hb
    · cases hx
  | v :: vs, best, seen, hs, hb, x, hx => by
    simp only [HeapMax]
    by_cases hc : Comparator P h best v = true
    · rw [if_pos hc]
      refine HeapMax_max ho vs v (best :: seen) ?_ (Comparator_irrefl ho v) x ?_
      · intro y hy
        by_contra hvy
        have hvy2 : Comparator P h v y = true := by simpa using hvy
        have hby := Comparator_trans ho hc hvy2
        rw [List.mem_cons] at hy
        rcases hy with hy | hy
        · rw [hy, hb] at hby; cases hby
        · rw [hs y hy] at hby; cases hby
      · rcases hx with hx | hx | hx
        · exact Or.inl (List.mem_cons_of_mem _ hx)
        · exact Or.inl (by rw [hx]; exact List.mem_cons_self _ _)
        · rw [List.mem_cons] at hx
          rcases hx with hx | hx
          · exact Or.inr (Or.inl hx)
          · exact Or.inr (Or.inr hx)
    · rw [if_neg hc]
      refine HeapMax_max ho vs best (v :: seen) ?_ hb x ?_
      · intro y hy
        rw [List.mem_cons] at hy
        rcases hy with hy | hy
        · rw [hy]; simpa using hc
        · exact hs y hy
      · rcases hx with hx | hx | hx
        · exact Or.inl (List.mem_cons_of_mem _ hx)
        · exact Or.inr (Or.inl hx)
        · rw [List.mem_cons] at hx
          rcases hx with hx | hx
          · exact Or.inl (by rw [hx]; exact List.mem_cons_self _ _)
          · exact Or.inr (Or.inr hx)

theorem ScoresOrdered_of_scores {P : Platform S} {h h1 : EVSIDSHeuristics S}
    (hs : h1.scores = h.scores) (ho : h.ScoresOrdered P) : h1.ScoresOrdered P := by
  unfold ScoresOrdered ScoreOf at *
  rw [hs]
  exact ho

/-- The variable that `PopVariable` returns: the heap holds no unassigned variable and the
result is the terminator, or the result is an unassigned variable of the heap that is not below
any other unassigned variable of the heap. -/
theorem PopVariableLoop_max (P : Platform S) (assignment : Assignment) :
    ∀ (n : Nat) (h : EVSIDSHeuristics S), h.ScoresOrdered P → h.ordered_variables.length ≤ n →
      ((PopVariableLoop P assignment n h).1 = 0 ∧
        ∀ w ∈ h.ordered_variables, assignment.get w ≠ .Unassigned) ∨
      ((PopVariableLoop P assignment n h).1 ∈ h.ordered_variables ∧
        assignment.get (PopVariableLoop P assignment n h).1 = .Unassigned ∧
        ∀ w ∈ h.ordered_variables, assignment.get w = .Unassigned →
          Comparator P h (PopVariableLoop P assignment n h).1 w = false)
  | 0, h, _, hlen => by
    left
    refine ⟨rfl, fun w hw => ?_⟩
    have : h.ordered_variables = [] := List.length_eq_zero.mp (Nat.le_zero.mp hlen)
    rw [this] at hw
    cases hw
  | n + 1, h, ho, hlen => by
    unfold PopVariableLoop
    cases hov : h.ordered_variables with
    | nil =>
      left
      exact ⟨rfl, fun w hw => by cases hw⟩
    | cons v vs =>
      simp only
      have hmax : ∀ x ∈ v :: vs, Comparator P h (HeapMax P h v vs) x = false := by
        intro x hx
        refine HeapMax_max ho vs v [] (fun y hy => by cases hy) (Comparator_irrefl ho v) x ?_
        rw [List.mem_cons] at hx
        rcases hx with hx | hx
        · exact Or.inr (Or.inl hx)
        · exact Or.inr (Or.inr hx)
      have hmem : HeapMax P h v vs ∈ v :: vs := by
        rcases HeapMax_mem P h vs v with h1 | h1
        · rw [h1]; exact List.mem_cons_self _ _
        · exact List.mem_cons_of_mem _ h1
      by_cases hu : assignment.get (HeapMax P h v vs) = .Unassigned
      · rw [if_pos hu]
        right
        exact ⟨hmem, hu, fun w hw _ => hmax w hw⟩
      · rw [if_neg hu]
        have hlen1 : ((v :: vs).erase (HeapMax P h v vs)).length ≤ n := by
          rw [List.length_erase_of_mem hmem]
          rw [hov] at hlen
          simp only [List.length_cons] at hlen ⊢
          omega
        have ih := PopVariableLoop_max P assignment n
          { h with
            ordered_variables := (v :: vs).erase (HeapMax P h v vs)
            ordered_variable_index := h.ordered_variable_index.erase (HeapMax P h v vs) }
          (ScoresOrdered_of_scores rfl ho) hlen1
        have hkeep : ∀ w ∈ v :: vs, assignment.get w = .Unassigned →
            w ∈ (v :: vs).erase (HeapMax P h v vs) := by
          intro w hw hwu
          refine (List.mem_erase_of_ne ?_).mpr hw
          intro heq
          rw [heq] at hwu
          exact hu hwu
        rcases ih with ⟨h1, h2⟩ | ⟨h1, h2, h3⟩
        · left
          refine ⟨h1, fun w hw hwu => ?_⟩
          by_cases hwu2 : assignment.get w = .Unassigned
          · exact h2 w (hkeep w hw hwu2) hwu2
          · exact hwu2 hwu
        · right
          exact ⟨List.mem_of_mem_erase h1, h2, fun w hw hwu => h3 w (hkeep w hw hwu) hwu⟩

end EVSIDSHeuristics

/-- C24 (counterexample): on a new `CdclSolver` for `(x1 ∨ x2) (¬x1 ∨ ¬x2)` both variables are
in the heap, both are `Unassigned` and both have the score `0`; `PopVariable` returns the
variable `2`, and `Solve()` decides `x2` first. -/
theorem C24_pop_variable_returns_the_larger_id :
    (CdclSolver.new exactPlatform (Formula.ofClauses id [[1, 2], [-1, -2]])
      defaultScoring).ext.evsids.ordered_variables = [1, 2] ∧
    (CdclSolver.new exactPlatform (Formula.ofClauses id [[1, 2], [-1, -2]])
      defaultScoring).ext.evsids.scores = [⟨0, 1⟩, ⟨0, 1⟩] ∧
    (CdclSolver.new exactPlatform (Formula.ofClauses id [[1, 2], [-1, -2]])
      defaultScoring).assignment = ⟨[.Unassigned, .Unassigned]⟩ ∧
    ((CdclSolver.new exactPlatform (Formula.ofClauses id [[1, 2], [-1, -2]])
      defaultScoring).ext.evsids.PopVariable exactPlatform
        (CdclSolver.new exactPlatform (Formula.ofClauses id [[1, 2], [-1, -2]])
          defaultScoring).assignment).1 = 2 ∧
    (match CdclSolver.Solve0 exactPlatform 100
        (CdclSolver.new exactPlatform (Formula.ofClauses id [[1, 2], [-1, -2]])
          defaultScoring) with
      | .ok (status, s) => some (status, s.trail.trail)
      | .error _ => none) =
        some (.Satisfied, [⟨2, .True, DecisionTrail.ReasonDecision, 1⟩, ⟨1, .False, 1, 1⟩]) :=
  ⟨rfl, rfl, rfl, rfl, rfl⟩

/-- C24 (amended): when the comparison of the platform orders the scores, and the heap holds an
`Unassigned` variable, `PopVariable` returns an `Unassigned` variable of the heap whose score
is not below the score of any `Unassigned` variable `w` of the heap, and when the score of `w`
is not below the score of the result either (a tie), `w` is at most the result: among the
`Unassigned` variables of the heap that share the maximum score, `PopVariable` returns the one
with the largest variable id. -/
theorem C24_pop_variable_breaks_ties_by_the_larger_id {S : Type} (P : Platform S)
    (h : EVSIDSHeuristics S) (assignment : Assignment) (w : Nat)
    (ho : h.ScoresOrdered P) (hw : w ∈ h.ordered_variables)
    (hu : assignment.get w = .Unassigned) :
    (h.PopVariable P assignment).1 ∈ h.ordered_variables ∧
    assignment.get (h.PopVariable P assignment).1 = .Unassigned ∧
    P.lt (h.ScoreOf P (h.PopVariable P assignment).1) (h.ScoreOf P w) = false ∧
    (P.lt (h.ScoreOf P w) (h.ScoreOf P (h.PopVariable P assignment).1) = false →
      w ≤ (h.PopVariable P assignment).1) := by
  rcases EVSIDSHeuristics.PopVariableLoop_max P assignment h.ordered_variables.length h ho
    (le_refl _) with ⟨_, h2⟩ | ⟨h1, h2, h3⟩
  · exact absurd hu (h2 w hw)
  · have hc := h3 w hw hu
    rw [EVSIDSHeuristics.Comparator_eq] at hc
    simp only [Bool.or_eq_false_iff, Bool.and_eq_false_imp, Bool.not_eq_true',
      decide_eq_false_iff_not, not_lt] at hc
    exact ⟨h1, h2, hc.1, hc.2⟩

/-- C24 (instance): the heap of a new solver for `(x1 ∨ x2 ∨ x3)` with `x3` assigned: of `x1`
and `x2`, which share the score `0`, `PopVariable` returns `x2`. -/
theorem C24_pop_variable_breaks_ties_by_the_larger_id_witness :
    ((EVSIDSHeuristics.new exactPlatform (Formula.ofClauses id [[1, 2, 3]])
      defaultScoring).PopVariable exactPlatform ⟨[.Unassigned, .Unassigned, .True]⟩).1 = 2 ∧
    1 ≤ ((EVSIDSHeuristics.new exactPlatform (Formula.ofClauses id [[1, 2, 3]])
      defaultScoring).PopVariable exactPlatform ⟨[.Unassigned, .Unassigned, .True]⟩).1 := by
  have hsc : ∀ a : Nat, (EVSIDSHeuristics.new exactPlatform (Formula.ofClauses id [[1, 2, 3]])
      defaultScoring).ScoreOf exactPlatform a = ⟨0, 1⟩ := by
    intro a
    have hs : (EVSIDSHeuristics.new exactPlatform (Formula.ofClauses id [[1, 2, 3]])
      defaultScoring).scores = [⟨0, 1⟩, ⟨0, 1⟩, ⟨0, 1⟩] := rfl
    unfold EVSIDSHeuristics.ScoreOf
    rw [hs]
    rcases Nat.lt_or_ge (a - 1) 3 with h | h
    · interval_cases (a - 1) <;> rfl
    · rw [List.getD_eq_default _ _ (by simpa using h)]
      rfl
  have ho : (EVSIDSHeuristics.new exactPlatform (Formula.ofClauses id [[1, 2, 3]])
      defaultScoring).ScoresOrdered exactPlatform := by
    refine ⟨fun a => ?_, fun a b c h1 _ => ?_, fun a b c h1 => ?_⟩
    · rw [hsc a]; rfl
    · rw [hsc a, hsc b] at h1; cases h1
    · rw [hsc a, hsc b] at h1; cases h1
  have h := C24_pop_variable_breaks_ties_by_the_larger_id exactPlatform
    (EVSIDSHeuristics.new exactPlatform (Formula.ofClauses id [[1, 2, 3]]) defaultScoring)
    ⟨[.Unassigned, .Unassigned, .True]⟩ 1 ho (by decide) (by decide)
  exact ⟨rfl, h.2.2.2 (by rw [hsc, hsc]; rfl)⟩

/-- C23 (failing run): on a `CdclSolver` for `(x1 ∨ x2) (¬x1 ∨ ¬x2)` the first two calls of
`Solve()` return `Satisfied`.  The third call reaches a decision point with `x1` and `x2`
`Unassigned` and the heap of the heuristic empty, and `PopVariable` returns `0`
(`Literal::Terminator`) although variables are `Unassigned`; the call ends in the failing
`assert(variable != Literal::Terminator)`. -/
theorem C23_pop_variable_returns_terminator_on_reuse :
    CdclSolver.RepeatedSolve exactPlatform 100 3
      (CdclSolver.new exactPlatform (Formula.ofClauses id [[1, 2], [-1, -2]]) defaultScoring)
      = [.ok .Satisfied, .ok .Satisfied, .error .AssertionFailed] ∧
    ((CdclSolver.afterSolves exactPlatform 100 2
      (CdclSolver.new exactPlatform (Formula.ofClauses id [[1, 2], [-1, -2]])
        defaultScoring)).bind (CdclSolver.firstDecisionPoint 100)).map
      (fun s => (s.assignment, s.ext.evsids.ordered_variables,
        (s.ext.evsids.PopVariable exactPlatform s.assignment).1)) =
      some (⟨[.Unassigned, .Unassigned]⟩, [], 0) :=
  ⟨rfl, rfl⟩

end pjos

namespace pjos

theorem Assignment.get_set_unassigned (a : Assignment) (v : Nat) :
    (a.set v .Unassigned).get v = .Unassigned := by
  simp only [Assignment.get, Assignment.set, List.getD_eq_getElem?_getD]
  by_cases h : v - 1 < a.assignment.length
  · rw [List.getElem?_set_self h]; rfl
  · rw [List.getElem?_eq_none (by rw [List.length_set]; omega)]; rfl

namespace DecisionTrail

theorem Pop_of_last {t : DecisionTrail} {e : Entry} (hl : t.trail.getLast? = some e)
    (hlive : t.Live) :
    t.Pop =
      { trail := t.trail.dropLast
        level := (t.trail.dropLast.getLast?.map (fun x => x.level)).getD 0
        var_index := t.var_index.set (e.var - 1) none } := by
  have hskip : t.SkipStale = t := SkipStale_eq_self t (fun x hx => (hlive x hx).2)
  unfold Pop
  simp only [hskip, hl]
  cases t.trail.dropLast.getLast? <;> rfl

theorem level_of_last {t : DecisionTrail} {e : Entry} (hlev : t.LevelsOk)
    (hl : t.trail.getLast? = some e) : t.level = e.level := by
  rw [hlev.1, hl]; rfl

theorem level_le_of_mem {t : DecisionTrail} (hlev : t.LevelsOk) :
    ∀ x ∈ t.trail, x.level ≤ t.level := by
  intro x hx
  cases hl : t.trail.getLast? with
  | none =>
    rw [List.getLast?_eq_none_iff] at hl
    rw [hl] at hx
    cases hx
  | some e =>
    rw [level_of_last hlev hl]
    have hs := split_last hl
    have hp := hlev.2
    rw [hs, List.pairwise_append] at hp
    rw [hs, List.mem_append, List.mem_singleton] at hx
    rcases hx with hx | hx
    · exact hp.2.2 x hx e (List.mem_singleton.mpr rfl)
    · rw [hx]

end DecisionTrail

namespace CdclSolver

variable {S : Type}

end CdclSolver

end pjos

namespace pjos

end pjos

namespace pjos

namespace BaseSolver

variable {X : Type}

/-- The ways in which one pass of the loop of `UnitPropagation` over the watchers ends: at an
`Unsatisfied` watcher, after the propagation from a `Unit` watcher, or at the end of the
vector. -/
theorem UnitPropagationFor_cases [SolverExt X] :
    ∀ (n i : Nat) (s : BaseSolver X) (b : Bool) (pass : PropagationPass X),
      i + n = s.watchers.length → pass = UnitPropagationFor n i s b →
      (∃ c w, pass.conflict = some c ∧ pass.solver = s ∧ s.watchers[c]? = some w ∧
        w.status = .Unsatisfied) ∨
      (∃ c w, pass.conflict = none ∧ pass.propagate = true ∧ pass.all_satisfied = false ∧
        s.watchers[c]? = some w ∧ w.status = .Unit ∧
        pass.solver = s.Propagate
          (Literal.Assignment ((s.formula.get c).get w.watched_literals.1.toNat)).1
          (Literal.Assignment ((s.formula.get c).get w.watched_literals.1.toNat)).2 c) ∨
      (pass.conflict = none ∧ pass.propagate = false ∧ pass.solver = s ∧
        (∀ j w, i ≤ j → s.watchers[j]? = some w →
          w.status ≠ .Unit ∧ w.status ≠ .Unsatisfied) ∧
        (pass.all_satisfied = true ↔
          (b = true ∧ ∀ j w, i ≤ j → s.watchers[j]? = some w → w.status = .Satisfied)))
  | 0, i, s, b, pass, hle, hp => by
    right; right
    rw [UnitPropagationFor] at hp
    subst hp
    have hnone : ∀ j, i ≤ j → s.watchers[j]? = none :=
      fun j hj => List.getElem?_eq_none (by omega)
    refine ⟨rfl, rfl, rfl, fun j w hj hw => ?_, ?_⟩
    · rw [hnone j hj] at hw; cases hw
    · constructor
      · intro hb
        exact ⟨hb, fun j w hj hw => by rw [hnone j hj] at hw; cases hw⟩
      · intro hb
        exact hb.1
  | n + 1, i, s, b, pass, hle, hp => by
    have hi : i < s.watchers.length := by omega
    obtain ⟨w0, hw0⟩ : ∃ w0, w0 = s.watchers.getD i (Watcher.new ⟨[], 0⟩) := ⟨_, rfl⟩
    have hw : s.watchers[i]? = some w0 := by
      rw [hw0, List.getD_eq_getElem?_getD, List.getElem?_eq_getElem hi]
      rfl
    rw [UnitPropagationFor] at hp
    simp only [← hw0, Watcher.Status, Watcher.WatchedLiterals] at hp
    by_cases hu : w0.status = .Unit
    · rw [if_pos hu] at hp
      right; left
      subst hp
      refine ⟨i, w0, rfl, rfl, ?_, hw, hu, rfl⟩
      show (b && decide (w0.status = .Satisfied)) = false
      rw [hu]
      simp
    · rw [if_neg hu] at hp
      by_cases hus : w0.status = .Unsatisfied
      · rw [if_pos hus] at hp
        left
        subst hp
        exact ⟨i, w0, rfl, rfl, hw, hus⟩
      · rw [if_neg hus] at hp
        rcases UnitPropagationFor_cases n (i + 1) s (b && decide (w0.status = .Satisfied)) pass
          (by omega) hp with h1 | h1 | ⟨h1, h2, h3, h4, h5⟩
        · exact Or.inl h1
        · exact Or.inr (Or.inl h1)
        · right; right
          refine ⟨h1, h2, h3, ?_, ?_⟩
          · intro j w hj hwj
            by_cases hji : j = i
            · subst hji
              rw [hw] at hwj
              cases hwj
              exact ⟨hu, hus⟩
            · exact h4 j w (by omega) hwj
          · rw [h5]
            constructor
            · rintro ⟨hb, hall⟩
              rw [Bool.and_eq_true, decide_eq_true_eq] at hb
              refine ⟨hb.1, fun j w hj hwj => ?_⟩
              by_cases hji : j = i
              · subst hji
                rw [hw] at hwj
                cases hwj
                exact hb.2
              · exact hall j w (by omega) hwj
            · rintro ⟨hb, hall⟩
              refine ⟨?_, fun j w hj hwj => hall j w (by omega) hwj⟩
              rw [Bool.and_eq_true, decide_eq_true_eq]
              exact ⟨hb, hall i w0 (le_refl _) hw⟩

/-- The unit literal of a `Unit` watcher of a consistent state. -/
theorem Consistent.unit_watch {s : BaseSolver X} (h : s.Consistent) {i : Nat} {w : Watcher}
    (hw : s.watchers[i]? = some w) (hs : w.status = .Unit) :
    (s.formula.get i).get w.watched_literals.1.toNat ∈ (s.formula.get i).clause ∧
    (s.formula.get i).get w.watched_literals.1.toNat ≠ 0 ∧
    Literal.Variable ((s.formula.get i).get w.watched_literals.1.toNat) ≤
      s.formula.num_of_variables ∧
    s.assignment.get (Literal.Variable ((s.formula.get i).get w.watched_literals.1.toNat)) =
      .Unassigned := by
  have hok := h.watchers_ok w (List.getElem?_mem hw)
  have hc := h.watcher_clause hw
  have hne : w.watched_literals.1 ≠ -1 := hok.1.2.2 hs
  have hmem := Watcher.watch_mem hok.1.1 hne
  rw [hc.2.2]
  have hwf := h.wf _ (List.getElem?_mem hc.1) _ hmem
  have hst : w.status ≠ .Satisfied := by rw [hs]; decide
  exact ⟨hmem, hwf.1, hwf.2, (hok.2.2 hst).1 hne⟩

theorem rank_bound (r : Nat → Nat) (n : Nat) :
    ∃ m : Nat, ∀ y, y ≤ n → r y ≤ m := by
  induction n with
  | zero => exact ⟨r 0, fun y hy => by rw [Nat.le_zero.mp hy]⟩
  | succ n ih =>
    obtain ⟨m, hm⟩ := ih
    refine ⟨max m (r (n + 1)), fun y hy => ?_⟩
    by_cases hyn : y ≤ n
    · exact le_trans (hm y hyn) (le_max_left _ _)
    · have : y = n + 1 := by omega
      rw [this]
      exact le_max_right _ _

theorem get_unassigned_of_gt (a : Assignment) (y : Nat) (h : a.assignment.length < y) :
    a.get y = .Unassigned := by
  simp only [Assignment.get, List.getD_eq_getElem?_getD]
  rw [List.getElem?_eq_none (by omega)]
  rfl

/-- A propagation step on an unassigned variable of the formula keeps the state consistent
and the watchers exact. -/
theorem Propagate_exact [SolverExt X] (s : BaseSolver X) (x : Nat) (a : VariableAssignment)
    (c : Nat) (h : s.Consistent) (he : s.WatchersExact) (hx : 1 ≤ x)
    (hle : x ≤ s.formula.num_of_variables) (ha : a ≠ .Unassigned)
    (hu : s.assignment.get x = .Unassigned) :
    (s.Propagate x a c).Consistent ∧ (s.Propagate x a c).WatchersExact := by
  obtain ⟨r, hr⟩ := he
  obtain ⟨m, hm⟩ := rank_bound r s.assignment.assignment.length
  have hc1 : BaseSolver.Consistent
      ({ s with trail := s.trail.PropagationFrom x a c } : BaseSolver X) :=
    h.of_eq rfl rfl rfl rfl
  have hex : ∀ w ∈ s.watchers,
      w.Exact s.assignment (fun y => if s.assignment.get y = .Unassigned then m else r y) := by
    intro w hw
    obtain ⟨h1, h2, h3⟩ := hr w hw
    refine ⟨h1, h2.congr_rank (fun l _ hl => ?_), h3⟩
    simp only [if_neg hl]
  have horder : BaseSolver.AssignOrder
      ({ s with trail := s.trail.PropagationFrom x a c } : BaseSolver X)
      (fun y => if s.assignment.get y = .Unassigned then m else r y) x a := by
    left
    refine ⟨ha, hu, fun y hy => ?_⟩
    have hy2 : s.assignment.get y ≠ .Unassigned := hy
    simp only [if_neg hy2, if_pos hu]
    apply hm
    by_contra hgt
    exact hy2 (get_unassigned_of_gt _ _ (by omega))
  have := Assign_exact ({ s with trail := s.trail.PropagationFrom x a c } : BaseSolver X)
    _ x a hc1 hx hle hex horder
  exact ⟨this.1, ⟨_, this.2⟩⟩

theorem Propagate_numUnassigned [SolverExt X] (s : BaseSolver X) (x : Nat)
    (a : VariableAssignment) (c : Nat) (hx : 1 ≤ x) (hle : x ≤ s.assignment.assignment.length)
    (ha : a ≠ .Unassigned) (hu : s.assignment.get x = .Unassigned) :
    (s.Propagate x a c).assignment.numUnassigned + 1 = s.assignment.numUnassigned := by
  have hget : s.assignment.assignment[x - 1]? = some .Unassigned := by
    have h1 : x - 1 < s.assignment.assignment.length := by omega
    simp only [Assignment.get, List.getD_eq_getElem?_getD] at hu
    rw [List.getElem?_eq_getElem h1] at hu ⊢
    simpa using hu
  show (s.assignment.assignment.set (x - 1) a).count .Unassigned + 1 =
    s.assignment.assignment.count .Unassigned
  exact List.count_set_remove .Unassigned a ha _ _ hget

/-- `UnitPropagation` returns when the fuel exceeds the number of unassigned variables, and its
result is right when the state is consistent and the watchers are exact. -/
theorem UnitPropagationLoop_result [SolverExt X] :
    ∀ (fuel : Nat) (s : BaseSolver X), s.Consistent → s.WatchersExact →
      s.assignment.numUnassigned < fuel →
      ∃ (s1 : BaseSolver X) (r : UnitPropagationResult) (c : Nat) (steps : List (Nat × Literal)),
        UnitPropagationLoop fuel s = .ok (s1, r, c) ∧
        s1 = s.PropagateAll steps ∧ s.UnitJustified steps ∧
        s1.Consistent ∧ s1.WatchersExact ∧
        (r = .Sat → ∀ cl ∈ s1.formula.clauses, cl.SatisfiedBy s1.assignment = true) ∧
        (r = .Unsat → c < s1.formula.NumOfClauses ∧
          ∀ l ∈ (s1.formula.get c).clause, Literal.IsFalse l s1.assignment) ∧
        (r = .Pass →
          (∀ cl ∈ s1.formula.clauses, cl.TrueStatus s1.assignment ≠ .Unit ∧
            cl.TrueStatus s1.assignment ≠ .Unsatisfied) ∧
          ∃ cl ∈ s1.formula.clauses, cl.NoTrue s1.assignment)
  | 0, _, _, _, hf => by omega
  | fuel + 1, s, h, he, hf => by
    obtain ⟨pass, hpass⟩ : ∃ pass, pass = UnitPropagationFor s.watchers.length 0 s true :=
      ⟨_, rfl⟩
    have hloop : UnitPropagationLoop (fuel + 1) s =
        (match pass.conflict with
          | some i => .ok (pass.solver, .Unsat, i)
          | none =>
            if pass.propagate && !pass.all_satisfied then UnitPropagationLoop fuel pass.solver
            else .ok (pass.solver, if pass.all_satisfied then .Sat else .Pass, ClauseUndef)) := by
      rw [UnitPropagationLoop, hpass]
      all_goals (cases (UnitPropagationFor s.watchers.length 0 s true).conflict <;> rfl)
    rw [hloop]
    obtain ⟨r, hr⟩ := he
    rcases UnitPropagationFor_cases s.watchers.length 0 s true pass (by omega) hpass with
      ⟨c, w, h1, h2, h3, h4⟩ | ⟨c, w, h1, h2, h3, h4, h5, h6⟩ | ⟨h1, h2, h3, h4, h5⟩
    · -- a conflict
      rw [h1, h2]
      have hwc := h.watcher_clause h3
      have hfalse := Watcher.unsatisfied_all_false (hr w (List.getElem?_mem h3)).2.1 h4
      refine ⟨s, .Unsat, c, [], rfl, rfl, trivial, h, ⟨r, hr⟩, (fun hc => by cases hc),
        fun _ => ⟨hwc.2.1, ?_⟩, (fun hc => by cases hc)⟩
      rw [hwc.2.2]
      exact hfalse
    · -- a propagation
      rw [h1]
      simp only [h2, h3, Bool.not_false, Bool.and_self, if_true]
      have hunit := h.unit_watch h4 h5
      have hwc := h.watcher_clause h4
      have hex := hr w (List.getElem?_mem h4)
      have hothers := Watcher.unit_others hex.1 hex.2.1 h5
      rw [← hwc.2.2] at hothers
      have hv1 := Literal.variable_pos hunit.2.1
      have hinv := Propagate_exact s
        (Literal.Assignment ((s.formula.get c).get w.watched_literals.1.toNat)).1
        (Literal.Assignment ((s.formula.get c).get w.watched_literals.1.toNat)).2 c h ⟨r, hr⟩
        hv1 hunit.2.2.1 (Literal.assignment_ne_unassigned _) hunit.2.2.2
      have hnum := Propagate_numUnassigned s
        (Literal.Assignment ((s.formula.get c).get w.watched_literals.1.toNat)).1
        (Literal.Assignment ((s.formula.get c).get w.watched_literals.1.toNat)).2 c
        hv1 (by rw [h.assignment_length]; exact hunit.2.2.1)
        (Literal.assignment_ne_unassigned _) hunit.2.2.2
      rw [h6]
      obtain ⟨s1, r1, c1, steps, hres, hsteps, hjust, hrest⟩ := UnitPropagationLoop_result fuel
        (s.Propagate (Literal.Assignment ((s.formula.get c).get w.watched_literals.1.toNat)).1
          (Literal.Assignment ((s.formula.get c).get w.watched_literals.1.toNat)).2 c)
        hinv.1 hinv.2 (by omega)
      refine ⟨s1, r1, c1, (c, (s.formula.get c).get w.watched_literals.1.toNat) :: steps,
        hres, hsteps, ⟨⟨hwc.2.1, hunit.1, hunit.2.2.2, fun l hl hne => ?_⟩, hjust⟩, hrest⟩
      rcases hothers.2 l hl with h7 | h7
      · exact absurd h7 hne
      · exact h7
    · -- the end of the pass
      rw [h1]
      simp only [h2, Bool.false_and, Bool.false_eq_true, if_false]
      rw [h3]
      have hstat : ∀ cl ∈ s.formula.clauses, ∃ w ∈ s.watchers, w.clause = cl := by
        intro cl hcl
        rw [← h.watchers_clauses, List.mem_map] at hcl
        exact hcl
      have hidx : ∀ w ∈ s.watchers, w.status ≠ .Unit ∧ w.status ≠ .Unsatisfied := by
        intro w hw
        obtain ⟨j, hj⟩ := List.mem_iff_getElem?.mp hw
        exact h4 j w (Nat.zero_le _) hj
      by_cases hall : pass.all_satisfied = true
      · rw [if_pos hall]
        have hsat : ∀ w ∈ s.watchers, w.status = .Satisfied := by
          intro w hw
          obtain ⟨j, hj⟩ := List.mem_iff_getElem?.mp hw
          exact (h5.mp hall).2 j w (Nat.zero_le _) hj
        exact ⟨s, .Sat, ClauseUndef, [], rfl, rfl, trivial, h, ⟨r, hr⟩,
          fun _ => h.satisfied hsat, (fun hc => by cases hc), (fun hc => by cases hc)⟩
      · rw [if_neg hall]
        refine ⟨s, .Pass, ClauseUndef, [], rfl, rfl, trivial, h, ⟨r, hr⟩,
          (fun hc => by cases hc), (fun hc => by cases hc), fun _ => ⟨?_, ?_⟩⟩
        · intro cl hcl
          obtain ⟨w, hw, hwc⟩ := hstat cl hcl
          rw [← hwc, ← (hr w hw).status]
          exact hidx w hw
        · have hex : ∃ (j : Nat) (w : Watcher), s.watchers[j]? = some w ∧
              w.status ≠ ClauseStatus.Satisfied := by
            by_contra hno
            apply hall
            rw [h5]
            refine ⟨rfl, fun j w _ hj => ?_⟩
            by_contra hns
            exact hno ⟨j, w, hj, hns⟩
          obtain ⟨j, w, hj, hns⟩ := hex
          have hwc := h.watcher_clause hj
          exact ⟨w.clause, List.getElem?_mem hwc.1, (hr w (List.getElem?_mem hj)).2.1.2.2.1 hns⟩

end BaseSolver

end pjos

namespace pjos

end pjos

namespace pjos

namespace BaseSolver

variable {X : Type}

@[simp] theorem withInterrupt_formula (s : BaseSolver X) (g : Option (Nat → Bool)) (k : Nat) :
    (s.withInterrupt g k).formula = s.formula := rfl

@[simp] theorem withInterrupt_variable_index (s : BaseSolver X) (g : Option (Nat → Bool))
    (k : Nat) : (s.withInterrupt g k).variable_index = s.variable_index := rfl

@[simp] theorem withInterrupt_watchers (s : BaseSolver X) (g : Option (Nat → Bool)) (k : Nat) :
    (s.withInterrupt g k).watchers = s.watchers := rfl

@[simp] theorem withInterrupt_assignment (s : BaseSolver X) (g : Option (Nat → Bool)) (k : Nat) :
    (s.withInterrupt g k).assignment = s.assignment := rfl

@[simp] theorem withInterrupt_trail (s : BaseSolver X) (g : Option (Nat → Bool)) (k : Nat) :
    (s.withInterrupt g k).trail = s.trail := rfl

@[simp] theorem withInterrupt_pending (s : BaseSolver X) (g : Option (Nat → Bool)) (k : Nat) :
    (s.withInterrupt g k).pending_assignments = s.pending_assignments := rfl

@[simp] theorem withInterrupt_requested (s : BaseSolver X) (g : Option (Nat → Bool)) (k : Nat) :
    (s.withInterrupt g k).interrupt_requested = s.interrupt_requested := rfl

@[simp] theorem withInterrupt_status (s : BaseSolver X) (g : Option (Nat → Bool)) (k : Nat) :
    (s.withInterrupt g k).current_status = s.current_status := rfl

@[simp] theorem withInterrupt_fn (s : BaseSolver X) (g : Option (Nat → Bool)) (k : Nat) :
    (s.withInterrupt g k).interrupt_request_fn = g := rfl

@[simp] theorem withInterrupt_polls (s : BaseSolver X) (g : Option (Nat → Bool)) (k : Nat) :
    (s.withInterrupt g k).interrupt_polls = k := rfl

@[simp] theorem withInterrupt_fresh (s : BaseSolver X) (g : Option (Nat → Bool)) (k : Nat) :
    (s.withInterrupt g k).fresh_solver = s.fresh_solver := rfl

@[simp] theorem withInterrupt_ext (s : BaseSolver X) (g : Option (Nat → Bool)) (k : Nat) :
    (s.withInterrupt g k).ext = s.ext := rfl

@[simp] theorem withInterrupt_withInterrupt (s : BaseSolver X) (g h : Option (Nat → Bool))
    (k n : Nat) : (s.withInterrupt g k).withInterrupt h n = s.withInterrupt h n := rfl

theorem withInterrupt_self (s : BaseSolver X) :
    s.withInterrupt s.interrupt_request_fn s.interrupt_polls = s := rfl

theorem Assign_withInterrupt [SolverExt X] (s : BaseSolver X) (g : Option (Nat → Bool))
    (k : Nat) (x : Nat) (a : VariableAssignment) :
    (s.withInterrupt g k).Assign x a = (s.Assign x a).withInterrupt g k := rfl

theorem Propagate_withInterrupt [SolverExt X] (s : BaseSolver X) (g : Option (Nat → Bool))
    (k : Nat) (x : Nat) (a : VariableAssignment) (c : Nat) :
    (s.withInterrupt g k).Propagate x a c = (s.Propagate x a c).withInterrupt g k := rfl

theorem UnitPropagationFor_withInterrupt [SolverExt X] (g : Option (Nat → Bool)) (k : Nat) :
    ∀ (n i : Nat) (s : BaseSolver X) (b : Bool),
      UnitPropagationFor n i (s.withInterrupt g k) b =
        ⟨(UnitPropagationFor n i s b).solver.withInterrupt g k,
          (UnitPropagationFor n i s b).all_satisfied,
          (UnitPropagationFor n i s b).propagate,
          (UnitPropagationFor n i s b).conflict⟩
  | 0, _, _, _ => rfl
  | n + 1, i, s, b => by
    rw [UnitPropagationFor, UnitPropagationFor]
    simp only [withInterrupt_watchers, withInterrupt_formula]
    split_ifs
    · rfl
    · rfl
    · exact UnitPropagationFor_withInterrupt g k n (i + 1) s _

theorem UnitPropagationLoop_withInterrupt [SolverExt X] (g : Option (Nat → Bool)) (k : Nat) :
    ∀ (fuel : Nat) (s : BaseSolver X),
      UnitPropagationLoop fuel (s.withInterrupt g k) =
        Except.map (fun r => (r.1.withInterrupt g k, r.2)) (UnitPropagationLoop fuel s)
  | 0, _ => rfl
  | fuel + 1, s => by
    rw [UnitPropagationLoop, UnitPropagationLoop]
    simp only [withInterrupt_watchers, UnitPropagationFor_withInterrupt]
    cases (UnitPropagationFor s.watchers.length 0 s true).conflict with
    | some i => rfl
    | none =>
      simp only
      split_ifs
      all_goals first | rfl | exact UnitPropagationLoop_withInterrupt g k fuel _

theorem UnitPropagation_withInterrupt [SolverExt X] (g : Option (Nat → Bool)) (k : Nat)
    (fuel : Nat) (s : BaseSolver X) :
    (s.withInterrupt g k).UnitPropagation fuel =
      Except.map (fun r => (r.1.withInterrupt g k, r.2)) (s.UnitPropagation fuel) :=
  UnitPropagationLoop_withInterrupt g k fuel s

theorem PerformPendingAssignment_withInterrupt [SolverExt X] (s : BaseSolver X)
    (g : Option (Nat → Bool)) (k : Nat) (v : Nat) (a : VariableAssignment) (flag : Bool) :
    (s.withInterrupt g k).PerformPendingAssignment v a flag =
      ((s.PerformPendingAssignment v a flag).1,
        (s.PerformPendingAssignment v a flag).2.withInterrupt g k) := by
  unfold PerformPendingAssignment
  simp only [withInterrupt_assignment]
  split_ifs <;> rfl

theorem VerifyPendingAssignments_withInterrupt (s : BaseSolver X) (g : Option (Nat → Bool))
    (k : Nat) : ∀ (l : List (Nat × VariableAssignment × Bool)),
      (s.withInterrupt g k).VerifyPendingAssignments l = s.VerifyPendingAssignments l
  | [] => rfl
  | (v, a, flag) :: rest => by
    rw [VerifyPendingAssignments, VerifyPendingAssignments]
    simp only [withInterrupt_assignment]
    split_ifs
    · rfl
    · exact VerifyPendingAssignments_withInterrupt s g k rest

theorem ScanPureLiterals_withInterrupt (s : BaseSolver X) (g : Option (Nat → Bool))
    (k : Nat) : (s.withInterrupt g k).ScanPureLiterals = s.ScanPureLiterals := by
  unfold ScanPureLiterals
  rw [ScanPureLiteralsFrom_eq, ScanPureLiteralsFrom_eq]
  rfl

theorem ResetState_withInterrupt (s : BaseSolver X) (g : Option (Nat → Bool)) (k : Nat) :
    (s.withInterrupt g k).ResetState = s.ResetState.withInterrupt g k := rfl

theorem PreSolve_withInterrupt (s : BaseSolver X) (g : Option (Nat → Bool)) (k : Nat) :
    (s.withInterrupt g k).PreSolve = s.PreSolve.withInterrupt g k := by
  unfold PreSolve
  simp only [withInterrupt_fresh]
  split_ifs <;> rfl

theorem SaveAssumptions_withInterrupt (s : BaseSolver X) (g : Option (Nat → Bool)) (k : Nat)
    (l : List Literal) :
    (s.withInterrupt g k).SaveAssumptions l = (s.SaveAssumptions l).withInterrupt g k := rfl

theorem PollInterrupt_withInterrupt (s : BaseSolver X) (g : Nat → Bool) (k : Nat)
    (hg : ∀ n, g n = false) :
    (s.withInterrupt (some g) k).PollInterrupt =
      (s.interrupt_requested,
        s.withInterrupt (some g) (if s.interrupt_requested then k else k + 1)) := by
  unfold PollInterrupt
  by_cases h : s.interrupt_requested = true
  · rw [if_pos (by rw [withInterrupt_requested]; exact h), if_pos h, h]
  · have h2 : s.interrupt_requested = false := by simpa using h
    rw [if_neg (by rw [withInterrupt_requested]; exact h), if_neg h]
    show (g k, _) = _
    rw [hg k, h2]
    rfl

theorem ResetCurrentStatus_withInterrupt (s : BaseSolver X) (g : Option (Nat → Bool))
    (k : Nat) :
    (s.withInterrupt g k).ResetCurrentStatus = s.ResetCurrentStatus.withInterrupt g k := by
  unfold ResetCurrentStatus
  simp only [withInterrupt_status]
  cases s.current_status <;> rfl

theorem AttachClause_withInterrupt (s : BaseSolver X) (g : Option (Nat → Bool)) (k : Nat)
    (i : Nat) (c : ClauseView) :
    (s.withInterrupt g k).AttachClause i c = (s.AttachClause i c).withInterrupt g k := by
  unfold AttachClause
  rw [ResetCurrentStatus_withInterrupt]
  generalize s.ResetCurrentStatus = t
  simp only [withInterrupt_formula, withInterrupt_variable_index]
  by_cases h : t.formula.NumOfVariables > t.variable_index.length
  · simp only [if_pos h]
    rfl
  · simp only [if_neg h]
    rfl

end BaseSolver

theorem Watcher.Rescan_congr_clause (w1 w2 : Watcher) (a : Assignment)
    (h : w1.clause = w2.clause) : w1.Rescan a = w2.Rescan a := by
  cases w1
  cases w2
  simp only at h
  subst h
  unfold Watcher.Rescan Watcher.UpdateStatus Watcher.IsSatisfied
  simp only

theorem Watcher.Rescan_idem (w : Watcher) (a : Assignment) :
    (w.Rescan a).Rescan a = w.Rescan a :=
  Watcher.Rescan_congr_clause _ _ a (Watcher.Rescan_clause w a)

end pjos

namespace pjos

namespace BaseSolver

variable {X : Type}

theorem ResultsAgree.same_status {g : Option (Nat → Bool)}
    {r1 r2 : Except Fault (SolverStatus × BaseSolver X)} (h : ResultsAgree g r1 r2) :
    resultStatus r1 = resultStatus r2 := by
  rcases h with ⟨e, h1, h2⟩ | ⟨st, s, k1, k2, h1, h2⟩
  · rw [h1, h2]
  · rw [h1, h2]; rfl

theorem ResultsAgree.ok (g : Option (Nat → Bool)) (st : SolverStatus) (s : BaseSolver X)
    (k1 k2 : Nat) :
    ResultsAgree g (.ok (st, s.withInterrupt g k1)) (.ok (st, s.withInterrupt g k2)) :=
  Or.inr ⟨st, s, k1, k2, rfl, rfl⟩

theorem ResultsAgree.error (g : Option (Nat → Bool)) (e : Fault) :
    ResultsAgree g (.error e : Except Fault (SolverStatus × BaseSolver X)) (.error e) :=
  Or.inl ⟨e, rfl, rfl⟩

end BaseSolver

namespace DpllSolver

theorem UndoDecision_withInterrupt (g : Option (Nat → Bool)) (k : Nat) :
    ∀ (n : Nat) (s : DpllSolver),
      UndoDecision n (s.withInterrupt g k) =
        Except.map (fun r => (r.1, r.2.withInterrupt g k)) (UndoDecision n s)
  | 0, _ => rfl
  | n + 1, s => by
    rw [UndoDecision, UndoDecision]
    have ht : (s.withInterrupt g k).trail = s.trail := rfl
    rw [ht]
    cases s.trail.Top.1 with
    | none => rfl
    | some e =>
      simp only
      split_ifs
      · exact UndoDecision_withInterrupt g k n
          { (BaseSolver.Assign { s with trail := s.trail.Top.2 } e.var .Unassigned) with
            trail := (BaseSolver.Assign { s with trail := s.trail.Top.2 } e.var
              .Unassigned).trail.Pop }
      · rfl

theorem FindDecision_withInterrupt (s : DpllSolver) (g : Option (Nat → Bool)) (k : Nat) :
    ∀ n : Nat, FindDecision (s.withInterrupt g k) n = FindDecision s n
  | 0 => rfl
  | n + 1 => by
    rw [FindDecision, FindDecision]
    simp only [BaseSolver.withInterrupt_assignment]
    rw [FindDecision_withInterrupt s g k n]

/-- The main loop of `DpllSolver::SolveImpl` does not depend on the count of the calls made to
an interrupt predicate that answers `false`. -/
theorem dpll_SolveLoop_agree (g : Nat → Bool) (hg : ∀ n, g n = false) :
    ∀ (fuel : Nat) (s : DpllSolver) (iter k1 k2 : Nat),
      BaseSolver.ResultsAgree (some g)
        (SolveLoop fuel (s.withInterrupt (some g) k1) iter)
        (SolveLoop fuel (s.withInterrupt (some g) k2) iter)
  | 0, _, _, _, _ => BaseSolver.ResultsAgree.error _ _
  | fuel + 1, s, iter, k1, k2 => by
    rw [SolveLoop, SolveLoop]
    simp only [BaseSolver.PollInterrupt_withInterrupt _ _ _ hg]
    by_cases hreq : s.interrupt_requested = true
    · simp only [hreq, if_true]
      exact BaseSolver.ResultsAgree.ok _ _ _ _ _
    · have hreq2 : s.interrupt_requested = false := by simpa using hreq
      simp only [hreq2, Bool.false_eq_true, if_false, BaseSolver.UnitPropagation_withInterrupt]
      cases hup : s.UnitPropagation (fuel + 1) with
      | error e => exact BaseSolver.ResultsAgree.error _ _
      | ok r =>
        obtain ⟨sb, res, c⟩ := r
        simp only [Except.map]
        by_cases h1 : res = .Sat
        · simp only [h1, if_true]
          exact BaseSolver.ResultsAgree.ok _ _ _ _ _
        · simp only [h1, if_false]
          by_cases h2 : res = .Unsat
          · simp only [h2, if_true, BaseSolver.withInterrupt_trail, UndoDecision_withInterrupt]
            cases hundo : UndoDecision (sb.trail.trail.length + 1) sb with
            | error e => exact BaseSolver.ResultsAgree.error _ _
            | ok r2 =>
              obtain ⟨o, sc⟩ := r2
              cases o with
              | none =>
                simp only [Except.map]
                exact BaseSolver.ResultsAgree.ok _ _ _ _ _
              | some p =>
                obtain ⟨var, a⟩ := p
                simp only [Except.map]
                exact dpll_SolveLoop_agree g hg fuel
                  (BaseSolver.Assign
                    { sc with trail := sc.trail.Propagation var (FlipVariableAssignment a) }
                    var (FlipVariableAssignment a)) iter _ _
          · simp only [h2, if_false, BaseSolver.withInterrupt_pending,
              BaseSolver.withInterrupt_assignment, FindDecision_withInterrupt,
              BaseSolver.PerformPendingAssignment_withInterrupt]
            by_cases h3 : iter = sb.pending_assignments.length
            · simp only [h3, if_true]
              cases hfd : FindDecision sb sb.assignment.NumOfVariables with
              | none => exact BaseSolver.ResultsAgree.error _ _
              | some var =>
                simp only
                exact dpll_SolveLoop_agree g hg fuel
                  (BaseSolver.Assign { sb with trail := sb.trail.Decision var .True } var .True)
                  _ _ _
            · simp only [h3, if_false]
              split_ifs
              · exact BaseSolver.ResultsAgree.ok _ _ _ _ _
              · exact dpll_SolveLoop_agree g hg fuel _ _ _ _

end DpllSolver

end pjos

namespace pjos

namespace CdclSolver

variable {S : Type}

theorem MarkClause_withInterrupt (g : Option (Nat → Bool)) (k : Nat) (ac : Bool) :
    ∀ (lits : List Literal) (s : CdclSolver S),
      MarkClauseForFinalConflictAnalysis ac lits (s.withInterrupt g k) =
        Except.map (fun r => (r.1, r.2.withInterrupt g k))
          (MarkClauseForFinalConflictAnalysis ac lits s)
  | [], _ => rfl
  | l :: rest, s => by
    rw [MarkClauseForFinalConflictAnalysis, MarkClauseForFinalConflictAnalysis]
    have h1 : AnalysisTrackOf (s.withInterrupt g k) (Literal.Variable l) =
        AnalysisTrackOf s (Literal.Variable l) := rfl
    have h2 : (s.withInterrupt g k).trail = s.trail := rfl
    rw [h1, h2]
    by_cases ha : AnalysisTrackOf s (Literal.Variable l) ≠ .Untracked
    · simp only [if_pos ha]
      exact MarkClause_withInterrupt g k ac rest s
    · simp only [if_neg ha]
      cases s.trail.Find (Literal.Variable l) with
      | none => rfl
      | some e =>
        simp only
        by_cases hb : DecisionTrail.IsPropagatedFromClause e.reason ∧ ac = false
        · simp only [if_pos hb]
          rw [show MarkClauseForFinalConflictAnalysis ac rest
              (SetAnalysisTrackOf (s.withInterrupt g k) (Literal.Variable l) .Pending) = _ from
            MarkClause_withInterrupt g k ac rest
              (SetAnalysisTrackOf s (Literal.Variable l) .Pending)]
          cases MarkClauseForFinalConflictAnalysis ac rest
              (SetAnalysisTrackOf s (Literal.Variable l) .Pending) with
          | error e => rfl
          | ok r => rfl
        · simp only [if_neg hb]
          by_cases hc : e.reason = DecisionTrail.ReasonAssumption ∨ ac = true
          · simp only [if_pos hc]
            exact MarkClause_withInterrupt g k ac rest
              { s with ext := { s.ext with final_conflict :=
                  (setInsert s.ext.final_conflict (Literal.mk e.var e.assignment)) } }
          · simp only [if_neg hc]
            exact MarkClause_withInterrupt g k ac rest s

theorem FindPending_withInterrupt (g : Option (Nat → Bool)) (k : Nat) (s : CdclSolver S) :
    ∀ n : Nat, FindPending (s.withInterrupt g k) n = FindPending s n
  | 0 => rfl
  | n + 1 => by
    rw [FindPending, FindPending]
    have h1 : (s.withInterrupt g k).trail = s.trail := rfl
    have h2 : ∀ v, AnalysisTrackOf (s.withInterrupt g k) v = AnalysisTrackOf s v := fun _ => rfl
    rw [h1, h2, FindPending_withInterrupt g k s n]

theorem AnalyzeFinalConflictLoop_withInterrupt (g : Option (Nat → Bool)) (k : Nat) :
    ∀ (n : Nat) (s : CdclSolver S) (pending trail_index : Nat),
      AnalyzeFinalConflictLoop n (s.withInterrupt g k) pending trail_index =
        Except.map (fun r => r.withInterrupt g k)
          (AnalyzeFinalConflictLoop n s pending trail_index)
  | 0, _, _, _ => rfl
  | n + 1, s, pending, trail_index => by
    rw [AnalyzeFinalConflictLoop, AnalyzeFinalConflictLoop]
    by_cases hp : pending > 0
    · simp only [if_pos hp]
      rw [FindPending_withInterrupt]
      cases FindPending s trail_index with
      | error e => rfl
      | ok ti =>
        simp only
        have h1 : (s.withInterrupt g k).trail = s.trail := rfl
        rw [h1]
        by_cases hb : DecisionTrail.IsPropagatedFromClause (s.trail.get ti).reason
        · simp only [if_pos hb]
          rw [show MarkClauseForFinalConflictAnalysis false
              ((SetAnalysisTrackOf (s.withInterrupt g k) (s.trail.get ti).var
                .Processed).formula.get (s.trail.get ti).reason.toNat).clause
              (SetAnalysisTrackOf (s.withInterrupt g k) (s.trail.get ti).var .Processed) = _ from
            MarkClause_withInterrupt g k false
              ((SetAnalysisTrackOf s (s.trail.get ti).var
                .Processed).formula.get (s.trail.get ti).reason.toNat).clause
              (SetAnalysisTrackOf s (s.trail.get ti).var .Processed)]
          cases MarkClauseForFinalConflictAnalysis false
              ((SetAnalysisTrackOf s (s.trail.get ti).var
                .Processed).formula.get (s.trail.get ti).reason.toNat).clause
              (SetAnalysisTrackOf s (s.trail.get ti).var .Processed) with
          | error e => rfl
          | ok r =>
            exact AnalyzeFinalConflictLoop_withInterrupt g k n r.2 _ _
        · simp only [if_neg hb]
          by_cases hc : (s.trail.get ti).reason = DecisionTrail.ReasonAssumption
          · simp only [if_pos hc]
            exact AnalyzeFinalConflictLoop_withInterrupt g k n
              { (SetAnalysisTrackOf s (s.trail.get ti).var .Processed) with
                ext := { (SetAnalysisTrackOf s (s.trail.get ti).var .Processed).ext with
                  final_conflict :=
                    (setInsert (SetAnalysisTrackOf s (s.trail.get ti).var
                      .Processed).ext.final_conflict
                      (Literal.mk (s.trail.get ti).var (s.trail.get ti).assignment)) } } _ _
          · simp only [if_neg hc]
            exact AnalyzeFinalConflictLoop_withInterrupt g k n
              (SetAnalysisTrackOf s (s.trail.get ti).var .Processed) _ _
    · simp only [if_neg hp]
      rfl

theorem AnalyzeFinalConflict_withInterrupt (g : Option (Nat → Bool)) (k : Nat)
    (s : CdclSolver S) (conflict : List Literal) (ac : Bool) :
    AnalyzeFinalConflict (s.withInterrupt g k) conflict ac =
      Except.map (fun r => r.withInterrupt g k) (AnalyzeFinalConflict s conflict ac) := by
  unfold AnalyzeFinalConflict
  simp only
  rw [show MarkClauseForFinalConflictAnalysis ac conflict
      (ClearAnalysisTrack (s.withInterrupt g k)) = _ from
    MarkClause_withInterrupt g k ac conflict (ClearAnalysisTrack s)]
  cases MarkClauseForFinalConflictAnalysis ac conflict (ClearAnalysisTrack s) with
  | error e => rfl
  | ok r => exact AnalyzeFinalConflictLoop_withInterrupt g k _ r.2 _ _

theorem FinishUnsatisfied_withInterrupt (g : Option (Nat → Bool)) (k : Nat)
    (s : CdclSolver S) (af : Bool) (conflict : List Literal) (ac : Bool) :
    FinishUnsatisfied (s.withInterrupt g k) af conflict ac =
      Except.map (fun r => (r.1, r.2.withInterrupt g k))
        (FinishUnsatisfied s af conflict ac) := by
  unfold FinishUnsatisfied
  cases af with
  | false => rfl
  | true =>
    simp only [if_true]
    rw [AnalyzeFinalConflict_withInterrupt]
    cases AnalyzeFinalConflict s conflict ac with
    | error e => rfl
    | ok r => rfl

theorem FinishUnsatisfied_agree (g : Option (Nat → Bool)) (k1 k2 : Nat)
    (s : CdclSolver S) (af : Bool) (conflict : List Literal) (ac : Bool) :
    BaseSolver.ResultsAgree g
      (FinishUnsatisfied (s.withInterrupt g k1) af conflict ac)
      (FinishUnsatisfied (s.withInterrupt g k2) af conflict ac) := by
  rw [FinishUnsatisfied_withInterrupt, FinishUnsatisfied_withInterrupt]
  cases FinishUnsatisfied s af conflict ac with
  | error e => exact BaseSolver.ResultsAgree.error _ _
  | ok r => exact BaseSolver.ResultsAgree.ok _ _ _ _ _

end CdclSolver

end pjos

namespace pjos

namespace CdclSolver

variable {S : Type}

theorem AnalyzeClause_withInterrupt (P : Platform S) (g : Option (Nat → Bool)) (k : Nat) :
    ∀ (lits : List Literal) (a : ConflictAnalysis S),
      AnalyzeClause P lits ⟨a.solver.withInterrupt g k, a.number_of_paths, a.backjump_level⟩ =
        Except.map
          (fun r => ⟨r.solver.withInterrupt g k, r.number_of_paths, r.backjump_level⟩)
          (AnalyzeClause P lits a)
  | [], _ => rfl
  | l :: rest, a => by
    rw [AnalyzeClause, AnalyzeClause]
    simp only
    have h1 : AnalysisTrackOf (a.solver.withInterrupt g k) (Literal.Variable l) =
        AnalysisTrackOf a.solver (Literal.Variable l) := rfl
    have h2 : (a.solver.withInterrupt g k).trail = a.solver.trail := rfl
    rw [h1, h2]
    by_cases ha : AnalysisTrackOf a.solver (Literal.Variable l) ≠ .Untracked
    · simp only [if_pos ha]
      exact AnalyzeClause_withInterrupt P g k rest a
    · simp only [if_neg ha]
      cases a.solver.trail.Find (Literal.Variable l) with
      | none => rfl
      | some e =>
        simp only
        by_cases hb : e.level ≥ a.solver.trail.Level
        · simp only [if_pos hb]
          have h3 : (SetAnalysisTrackOf (a.solver.withInterrupt g k) (Literal.Variable l)
              .Pending).ext = (SetAnalysisTrackOf a.solver (Literal.Variable l) .Pending).ext :=
            rfl
          rw [h3]
          cases (SetAnalysisTrackOf a.solver (Literal.Variable l) .Pending).ext.evsids.VariableActive
              P (Literal.Variable l) with
          | error e => rfl
          | ok ev =>
            exact AnalyzeClause_withInterrupt P g k rest
              ⟨{ (SetAnalysisTrackOf a.solver (Literal.Variable l) .Pending) with
                  ext := { (SetAnalysisTrackOf a.solver (Literal.Variable l) .Pending).ext with
                    evsids := ev } }, a.number_of_paths + 1, a.backjump_level⟩
        · simp only [if_neg hb]
          have h3 : (a.solver.withInterrupt g k).ext = a.solver.ext := rfl
          rw [h3]
          cases a.solver.ext.evsids.VariableActive P (Literal.Variable l) with
          | error e => rfl
          | ok ev =>
            exact AnalyzeClause_withInterrupt P g k rest
              ⟨{ a.solver with ext :=
                  { ({ a.solver.ext with learned_clause := (a.solver.ext.learned_clause.Add
                      (Literal.mk (Literal.Variable l)
                        (FlipVariableAssignment e.assignment))) } : CdclExt S) with
                    evsids := ev } },
                a.number_of_paths, max a.backjump_level e.level⟩

theorem AnalyzeConflictLoop_withInterrupt (P : Platform S) (g : Option (Nat → Bool))
    (k : Nat) :
    ∀ (n : Nat) (a : ConflictAnalysis S) (clause : List Literal) (trail_index : Nat),
      AnalyzeConflictLoop P n
          ⟨a.solver.withInterrupt g k, a.number_of_paths, a.backjump_level⟩ clause trail_index =
        Except.map
          (fun r => (⟨r.1.solver.withInterrupt g k, r.1.number_of_paths, r.1.backjump_level⟩,
            r.2))
          (AnalyzeConflictLoop P n a clause trail_index)
  | 0, _, _, _ => rfl
  | n + 1, a, clause, trail_index => by
    rw [AnalyzeConflictLoop, AnalyzeConflictLoop, AnalyzeClause_withInterrupt]
    cases AnalyzeClause P clause a with
    | error e => rfl
    | ok b =>
      simp only [Except.map]
      rw [FindPending_withInterrupt]
      cases FindPending b.solver trail_index with
      | error e => rfl
      | ok ti =>
        simp only
        have h1 : (b.solver.withInterrupt g k).trail = b.solver.trail := rfl
        rw [h1]
        by_cases hb : DecisionTrail.IsPropagatedFromClause (b.solver.trail.get ti).reason
        · simp only [if_pos hb]
          by_cases hc : b.number_of_paths - 1 > 1
          · simp only [if_pos hc]
            exact AnalyzeConflictLoop_withInterrupt P g k n
              ⟨SetAnalysisTrackOf b.solver (b.solver.trail.get ti).var .Processed,
                b.number_of_paths - 1, b.backjump_level⟩ _ _
          · simp only [if_neg hc]
            rfl
        · simp only [if_neg hb]
          by_cases hc : b.number_of_paths - 1 ≠ 1
          · simp only [if_pos hc]
            all_goals rfl
          · simp only [if_neg hc]
            all_goals rfl

theorem AnalyzeConflict_withInterrupt (P : Platform S) (g : Option (Nat → Bool)) (k : Nat)
    (s : CdclSolver S) (conflict : ClauseView) :
    AnalyzeConflict P (s.withInterrupt g k) conflict =
      Except.map (fun r => (r.1, r.2.1, r.2.2.withInterrupt g k))
        (AnalyzeConflict P s conflict) := by
  unfold AnalyzeConflict
  have h1 : (s.withInterrupt g k).trail = s.trail := rfl
  rw [h1]
  by_cases h0 : ¬ s.trail.Level > 0
  · simp only [if_pos h0]
    rfl
  · simp only [if_neg h0]
    rw [show AnalyzeConflictLoop P ((ClearAnalysisTrack (s.withInterrupt g k)).trail.Length + 1)
        ⟨ClearAnalysisTrack (s.withInterrupt g k), 1, 0⟩ conflict.clause
        ((ClearAnalysisTrack (s.withInterrupt g k)).trail.Length - 1) = _ from
      AnalyzeConflictLoop_withInterrupt P g k ((ClearAnalysisTrack s).trail.Length + 1)
        ⟨ClearAnalysisTrack s, 1, 0⟩ conflict.clause ((ClearAnalysisTrack s).trail.Length - 1)]
    cases AnalyzeConflictLoop P ((ClearAnalysisTrack s).trail.Length + 1)
        ⟨ClearAnalysisTrack s, 1, 0⟩ conflict.clause ((ClearAnalysisTrack s).trail.Length - 1) with
    | error e => rfl
    | ok r =>
      obtain ⟨a, ti⟩ := r
      simp only [Except.map]
      have h2 : (a.solver.withInterrupt g k).trail = a.solver.trail := rfl
      have h3 : (a.solver.withInterrupt g k).ext = a.solver.ext := rfl
      rw [h2, h3]
      cases (a.solver.ext.learned_clause.Add (Literal.mk (a.solver.trail.get ti).var
          (FlipVariableAssignment (a.solver.trail.get ti).assignment))) with
      | mk lits nv =>
        cases a.solver.ext.evsids.VariableActive P (a.solver.trail.get ti).var with
        | error e => rfl
        | ok ev =>
          simp only
          split_ifs <;> rfl

theorem AppendClause_withInterrupt (P : Platform S) (g : Option (Nat → Bool)) (k : Nat)
    (s : CdclSolver S) (clause : Clause) :
    AppendClause P (s.withInterrupt g k) clause = (AppendClause P s clause).withInterrupt g k := by
  unfold AppendClause AttachClause
  simp only
  rw [show BaseSolver.AttachClause
      { s.withInterrupt g k with
        formula := (s.withInterrupt g k).formula.AppendClause clause }
      (({ s.withInterrupt g k with
        formula := (s.withInterrupt g k).formula.AppendClause clause } :
          CdclSolver S).formula.NumOfClauses - 1) clause =
      (BaseSolver.AttachClause { s with formula := s.formula.AppendClause clause }
        (({ s with formula := s.formula.AppendClause clause } :
          CdclSolver S).formula.NumOfClauses - 1) clause).withInterrupt g k from
    BaseSolver.AttachClause_withInterrupt { s with formula := s.formula.AppendClause clause }
      g k _ clause]
  rfl

theorem BackjumpLoop_withInterrupt (g : Option (Nat → Bool)) (k : Nat) (level : Nat) :
    ∀ (n : Nat) (s : CdclSolver S),
      BackjumpLoop level n (s.withInterrupt g k) =
        Except.map (fun r => (r.1, r.2.withInterrupt g k)) (BackjumpLoop level n s)
  | 0, _ => rfl
  | n + 1, s => by
    rw [BackjumpLoop, BackjumpLoop]
    have h1 : (s.withInterrupt g k).trail = s.trail := rfl
    rw [h1]
    by_cases hl : s.trail.Level > level
    · simp only [if_pos hl]
      cases s.trail.Top.1 with
      | none => rfl
      | some e =>
        simp only
        by_cases hr : e.reason = DecisionTrail.ReasonAssumption
        · simp only [if_pos hr]
          rfl
        · simp only [if_neg hr]
          by_cases hp : s.ext.parameters.phase_saving = true ∧
              e.reason = DecisionTrail.ReasonDecision ∧ e.level > level
          · have hp2 : (s.withInterrupt g k).ext.parameters.phase_saving = true ∧
                e.reason = DecisionTrail.ReasonDecision ∧ e.level > level := hp
            simp only [if_pos hp, if_pos hp2]
            exact BackjumpLoop_withInterrupt g k level n
              { (BaseSolver.Assign
                  { s with trail := s.trail.Top.2, ext := { s.ext with
                      saved_phases := s.ext.saved_phases.set e.var e.assignment } }
                  e.var .Unassigned) with
                trail := (BaseSolver.Assign
                  { s with trail := s.trail.Top.2, ext := { s.ext with
                      saved_phases := s.ext.saved_phases.set e.var e.assignment } }
                  e.var .Unassigned).trail.Pop }
          · have hp2 : ¬ ((s.withInterrupt g k).ext.parameters.phase_saving = true ∧
                e.reason = DecisionTrail.ReasonDecision ∧ e.level > level) := hp
            simp only [if_neg hp, if_neg hp2]
            exact BackjumpLoop_withInterrupt g k level n
              { (BaseSolver.Assign { s with trail := s.trail.Top.2 } e.var .Unassigned) with
                trail := (BaseSolver.Assign { s with trail := s.trail.Top.2 } e.var
                  .Unassigned).trail.Pop }
    · simp only [if_neg hl]
      rfl

theorem Backjump_withInterrupt (g : Option (Nat → Bool)) (k : Nat) (s : CdclSolver S)
    (level : Nat) :
    Backjump (s.withInterrupt g k) level =
      Except.map (fun r => (r.1, r.2.withInterrupt g k)) (Backjump s level) :=
  BackjumpLoop_withInterrupt g k level _ s

end CdclSolver

end pjos

namespace pjos

namespace CdclSolver

variable {S : Type}

/-- The main loop of `CdclSolver::SolveImpl` does not depend on the count of the calls made to
an interrupt predicate that answers `false`. -/
theorem cdcl_SolveLoop_agree (P : Platform S) (af : Bool) (g : Nat → Bool) (hg : ∀ n, g n = false) :
    ∀ (fuel : Nat) (s : CdclSolver S) (iter na k1 k2 : Nat),
      BaseSolver.ResultsAgree (some g)
        (SolveLoop P af fuel (s.withInterrupt (some g) k1) iter na)
        (SolveLoop P af fuel (s.withInterrupt (some g) k2) iter na)
  | 0, _, _, _, _, _ => BaseSolver.ResultsAgree.error _ _
  | fuel + 1, s, iter, na, k1, k2 => by
    rw [SolveLoop, SolveLoop]
    simp only [BaseSolver.PollInterrupt_withInterrupt _ _ _ hg]
    by_cases hreq : s.interrupt_requested = true
    · simp only [hreq, if_true]
      exact BaseSolver.ResultsAgree.ok _ _ _ _ _
    · have hreq2 : s.interrupt_requested = false := by simpa using hreq
      simp only [hreq2, Bool.false_eq_true, if_false, BaseSolver.UnitPropagation_withInterrupt]
      cases hup : s.UnitPropagation (fuel + 1) with
      | error e => exact BaseSolver.ResultsAgree.error _ _
      | ok r =>
        obtain ⟨sb, res, c⟩ := r
        simp only [Except.map]
        by_cases h1 : res = .Sat
        · simp only [h1, if_true, BaseSolver.withInterrupt_pending,
            BaseSolver.VerifyPendingAssignments_withInterrupt]
          cases sb.VerifyPendingAssignments (sb.pending_assignments.drop iter) with
          | none => exact BaseSolver.ResultsAgree.ok _ _ _ _ _
          | some l => exact FinishUnsatisfied_agree _ _ _ _ _ _ _
        · simp only [h1, if_false]
          by_cases h2 : res = .Unsat
          · simp only [h2, if_true, BaseSolver.withInterrupt_trail,
              BaseSolver.withInterrupt_formula]
            by_cases h3 : sb.trail.Level = 0
            · simp only [h3, if_true]
              exact FinishUnsatisfied_agree _ _ _ _ _ _ _
            · simp only [h3, if_false, AnalyzeConflict_withInterrupt]
              cases AnalyzeConflict P sb (sb.formula.get c) with
              | error e => exact BaseSolver.ResultsAgree.error _ _
              | ok r2 =>
                obtain ⟨lc, bl, sc⟩ := r2
                simp only [Except.map, AppendClause_withInterrupt,
                  BaseSolver.withInterrupt_formula]
                by_cases h4 : bl < na
                · simp only [h4, if_true]
                  exact FinishUnsatisfied_agree _ _ _ _ _ _ _
                · simp only [h4, if_false, Backjump_withInterrupt]
                  cases Backjump (AppendClause P sc lc) bl with
                  | error e => exact BaseSolver.ResultsAgree.error _ _
                  | ok r3 =>
                    obtain ⟨flag, sd⟩ := r3
                    cases flag with
                    | false =>
                      simp only [Except.map, BaseSolver.withInterrupt_formula]
                      exact FinishUnsatisfied_agree _ _ _ _ _ _ _
                    | true =>
                      simp only [Except.map]
                      exact cdcl_SolveLoop_agree P af g hg fuel
                        { sd with ext := { sd.ext with
                            evsids := sd.ext.evsids.NextIteration P } } _ _ _ _
          · simp only [h2, if_false, BaseSolver.withInterrupt_pending,
              BaseSolver.withInterrupt_assignment, BaseSolver.withInterrupt_ext,
              BaseSolver.PerformPendingAssignment_withInterrupt]
            by_cases h3 : iter = sb.pending_assignments.length
            · simp only [h3, if_true]
              by_cases h4 : (sb.ext.evsids.PopVariable P sb.assignment).1 = 0
              · simp only [h4, if_true]
                exact BaseSolver.ResultsAgree.error _ _
              · simp only [h4, if_false]
                by_cases h5 : sb.assignment.get (sb.ext.evsids.PopVariable P sb.assignment).1 ≠
                    .Unassigned
                · simp only [if_pos h5]
                  exact BaseSolver.ResultsAgree.error _ _
                · simp only [if_neg h5]
                  exact cdcl_SolveLoop_agree P af g hg fuel
                    (BaseSolver.Assign
                      { sb with
                        ext := { sb.ext with
                          evsids := (sb.ext.evsids.PopVariable P sb.assignment).2 }
                        trail := sb.trail.Decision (sb.ext.evsids.PopVariable P sb.assignment).1
                          (if sb.ext.parameters.phase_saving = true ∧
                              sb.ext.saved_phases.get
                                (sb.ext.evsids.PopVariable P sb.assignment).1 ≠ .Unassigned then
                            sb.ext.saved_phases.get
                              (sb.ext.evsids.PopVariable P sb.assignment).1
                          else .True) }
                      (sb.ext.evsids.PopVariable P sb.assignment).1
                      (if sb.ext.parameters.phase_saving = true ∧
                          sb.ext.saved_phases.get
                            (sb.ext.evsids.PopVariable P sb.assignment).1 ≠ .Unassigned then
                        sb.ext.saved_phases.get (sb.ext.evsids.PopVariable P sb.assignment).1
                      else .True)) _ _ _ _
            · simp only [h3, if_false]
              split_ifs
              · exact FinishUnsatisfied_agree _ _ _ _ _ _ _
              · exact cdcl_SolveLoop_agree P af g hg fuel _ _ _ _ _
              · exact cdcl_SolveLoop_agree P af g hg fuel _ _ _ _ _

theorem SolveImpl_agree (P : Platform S) (af : Bool) (g : Nat → Bool) (hg : ∀ n, g n = false)
    (fuel : Nat) (s : CdclSolver S) (k1 k2 : Nat) :
    BaseSolver.ResultsAgree (some g)
      (SolveImpl P fuel af (s.withInterrupt (some g) k1))
      (SolveImpl P fuel af (s.withInterrupt (some g) k2)) := by
  unfold SolveImpl
  simp only [BaseSolver.withInterrupt_ext, BaseSolver.withInterrupt_pending,
    BaseSolver.ScanPureLiterals_withInterrupt]
  by_cases hp : s.ext.parameters.pure_literal_elimination = true
  · simp only [hp, if_true]
    exact cdcl_SolveLoop_agree P af g hg fuel
      { s with pending_assignments := s.pending_assignments ++ s.ScanPureLiterals } 0 0 k1 k2
  · simp only [hp, if_false]
    exact cdcl_SolveLoop_agree P af g hg fuel s 0 0 k1 k2

end CdclSolver

namespace BaseSolver

variable {X : Type}

/-- Two calls of `Solve` agree when the calls of `SolveImpl` agree on the states that
`PreSolve` and `SaveAssumptions` leave. -/
theorem SolveWith_agree (g : Option (Nat → Bool))
    (impl : BaseSolver X → Except Fault (SolverStatus × BaseSolver X))
    (s1 s2 : BaseSolver X) (A : List Literal)
    (h : ResultsAgree g (impl (s1.PreSolve.SaveAssumptions A))
      (impl (s2.PreSolve.SaveAssumptions A))) :
    ResultsAgree g (SolveWith impl s1 A) (SolveWith impl s2 A) := by
  unfold SolveWith
  simp only
  rcases h with ⟨e, h1, h2⟩ | ⟨st, s, k1, k2, h1, h2⟩
  · rw [h1, h2]
    exact ResultsAgree.error _ _
  · rw [h1, h2]
    exact ResultsAgree.ok g st { s with current_status := st } k1 k2

theorem SolveNoAssumptions_agree (g : Option (Nat → Bool))
    (impl : BaseSolver X → Except Fault (SolverStatus × BaseSolver X))
    (s1 s2 : BaseSolver X)
    (h : ResultsAgree g (impl s1.PreSolve) (impl s2.PreSolve)) :
    ResultsAgree g (SolveNoAssumptions impl s1) (SolveNoAssumptions impl s2) := by
  unfold SolveNoAssumptions
  simp only
  rcases h with ⟨e, h1, h2⟩ | ⟨st, s, k1, k2, h1, h2⟩
  · rw [h1, h2]
    exact ResultsAgree.error _ _
  · rw [h1, h2]
    exact ResultsAgree.ok g st { s with current_status := st } k1 k2

end BaseSolver

end pjos

namespace pjos

theorem Assignment.Reset_Reset (a : Assignment) : a.Reset.Reset = a.Reset := by
  simp [Assignment.Reset]

theorem Assignment.Reset_get (a : Assignment) (v : Nat) : a.Reset.get v = .Unassigned := by
  unfold Assignment.get Assignment.Reset
  rw [List.getD_eq_getElem?_getD]
  by_cases h : v - 1 < a.assignment.length
  · rw [List.getElem?_eq_getElem (by simpa using h)]
    simp
  · rw [List.getElem?_eq_none (by simpa using h)]
    rfl

theorem DecisionTrail.Reset_twice (t : DecisionTrail) : t.Reset.Reset = t.Reset := by
  simp [DecisionTrail.Reset]

namespace BaseSolver

variable {X : Type}

theorem PreSolve_assignment_get (s : BaseSolver X) (hp : s.fresh_solver = true → s.Pristine)
    (v : Nat) : s.PreSolve.assignment.get v = .Unassigned := by
  unfold PreSolve
  cases hfr : s.fresh_solver with
  | true =>
    have h := (hp hfr).2.1
    show s.assignment.get v = .Unassigned
    rw [← h]
    exact Assignment.Reset_get _ _
  | false => exact Assignment.Reset_get _ _

theorem PreSolve_trail (s : BaseSolver X) (hp : s.fresh_solver = true → s.Pristine) :
    s.PreSolve.trail.trail = [] := by
  unfold PreSolve
  cases hfr : s.fresh_solver with
  | true =>
    have h := (hp hfr).2.2.1
    show s.trail.trail = []
    rw [← h]
    rfl
  | false => rfl

/-- The state in which `SolveImpl` starts in a `Solve` that follows an interrupted one is the
state in which the interrupted one started, up to the interrupt predicate. -/
theorem PreSolve_after_interrupt (s : BaseSolver X) (hp : s.fresh_solver = true → s.Pristine)
    (pend : List (Nat × VariableAssignment × Bool)) (fn : Option (Nat → Bool)) (k : Nat)
    (g : Nat → Bool) :
    (InterruptOn { s.PreSolve with
        pending_assignments := s.PreSolve.pending_assignments ++ pend
        current_status := .Unknown
        interrupt_request_fn := fn
        interrupt_polls := k } g).PreSolve = s.PreSolve.withInterrupt (some g) k := by
  obtain ⟨fo, vi, w, a, t, p, ir, cs, fn0, polls, fr, e⟩ := s
  cases fr with
  | true =>
    obtain ⟨h1, h2, h3, h4⟩ := hp rfl
    simp only at h1 h2 h3 h4
    subst h1
    simp only [PreSolve, ResetState, InterruptOn, withInterrupt, Bool.not_true, Bool.not_false,
      Bool.false_eq_true, if_false, if_true, h2, h3, h4]
  | false =>
    simp only [PreSolve, ResetState, InterruptOn, withInterrupt, Bool.not_true, Bool.not_false,
      Bool.false_eq_true, if_false, if_true, Assignment.Reset_Reset, DecisionTrail.Reset_twice,
      List.map_map, Function.comp_def, Watcher.Rescan_idem]

theorem PreSolve_interruptOn (s : BaseSolver X) (g : Nat → Bool) :
    (s.InterruptOn g).PreSolve = s.PreSolve.withInterrupt (some g) s.interrupt_polls := by
  unfold PreSolve InterruptOn
  cases s.fresh_solver <;> rfl

theorem PreSolve_requested (s : BaseSolver X) : s.PreSolve.interrupt_requested = false := rfl

theorem PreSolve_polls (s : BaseSolver X) : s.PreSolve.interrupt_polls = s.interrupt_polls := by
  unfold PreSolve
  cases s.fresh_solver <;> rfl

theorem PollInterrupt_fires (s : BaseSolver X) (f : Nat → Bool)
    (h1 : s.interrupt_requested = false) (h2 : s.interrupt_request_fn = some f)
    (h3 : f s.interrupt_polls = true) :
    s.PollInterrupt = (true, { s with interrupt_polls := s.interrupt_polls + 1 }) := by
  unfold PollInterrupt
  rw [h1, h2]
  simp only [Bool.false_eq_true, if_false, h3]

end BaseSolver

namespace DpllSolver

theorem dpll_Solve_interrupted (s : DpllSolver) (f : Nat → Bool) (A : List Literal) (fuel : Nat)
    (hf : f s.interrupt_polls = true) :
    Solve (fuel + 1) (s.InterruptOn f) A =
      .ok (.Unknown,
        { s.PreSolve with
          pending_assignments := s.PreSolve.pending_assignments ++
            A.map (fun literal =>
              ((Literal.Assignment literal).1, (Literal.Assignment literal).2, true))
          current_status := .Unknown
          interrupt_request_fn := some f
          interrupt_polls := s.interrupt_polls + 1 }) := by
  unfold Solve BaseSolver.SolveWith SolveImpl
  simp only
  rw [BaseSolver.PreSolve_interruptOn, SolveLoop,
    BaseSolver.PollInterrupt_fires _ f rfl rfl
      (by
        show f s.interrupt_polls = true
        exact hf)]
  simp only [if_true]
  rfl

end DpllSolver

end pjos

namespace pjos

namespace CdclSolver

variable {S : Type}

theorem cdcl_Solve_interrupted (P : Platform S) (s : CdclSolver S) (f : Nat → Bool)
    (A : List Literal) (fuel : Nat) (hf : f s.interrupt_polls = true) :
    ∃ pend : List (Nat × VariableAssignment × Bool),
      Solve P (fuel + 1) (s.InterruptOn f) A =
        .ok (.Unknown,
          { s.PreSolve with
            pending_assignments := s.PreSolve.pending_assignments ++ pend
            current_status := .Unknown
            interrupt_request_fn := some f
            interrupt_polls := s.interrupt_polls + 1 }) := by
  unfold Solve BaseSolver.SolveWith SolveImpl
  simp only
  rw [BaseSolver.PreSolve_interruptOn]
  by_cases hp : s.PreSolve.ext.parameters.pure_literal_elimination = true
  · refine ⟨A.map (fun literal =>
        ((Literal.Assignment literal).1, (Literal.Assignment literal).2, true)) ++
      ((s.PreSolve.withInterrupt (some f) s.interrupt_polls).SaveAssumptions
        A).ScanPureLiterals, ?_⟩
    rw [if_pos (by exact hp), SolveLoop,
      BaseSolver.PollInterrupt_fires _ f rfl rfl
        (by
          show f s.interrupt_polls = true
          exact hf)]
    simp only [if_true]
    rw [← List.append_assoc]
    rfl
  · refine ⟨A.map (fun literal =>
        ((Literal.Assignment literal).1, (Literal.Assignment literal).2, true)), ?_⟩
    rw [if_neg (by exact hp), SolveLoop,
      BaseSolver.PollInterrupt_fires _ f rfl rfl
        (by
          show f s.interrupt_polls = true
          exact hf)]
    simp only [if_true]
    rfl

end CdclSolver

/-- C26: for both engines, on a solver that is new or was used before: if the interrupt
predicate installed with `InterruptOn` returns `true` when it is first consulted, `Solve`
returns `Unknown`; the assignment and the trail are the ones `PreSolve` left, so that no variable
is assigned and the trail is empty; and a later `Solve` with a predicate that returns `false`
returns the same status (or ends in the same fault) as that `Solve` on the solver that was
never interrupted. -/
theorem C26_interrupted_solve_returns_unknown_and_keeps_the_solver_usable {S : Type}
    (P : Platform S) (sd : DpllSolver) (sc : CdclSolver S) (f g : Nat → Bool)
    (A1 A : List Literal) (fuel1 fuel : Nat) (hfuel : 0 < fuel1)
    (hfd : f sd.interrupt_polls = true) (hfc : f sc.interrupt_polls = true)
    (hg : ∀ n, g n = false)
    (hpd : sd.fresh_solver = true → sd.Pristine)
    (hpc : sc.fresh_solver = true → sc.Pristine) :
    (∃ s1 : DpllSolver,
      DpllSolver.Solve fuel1 (sd.InterruptOn f) A1 = .ok (.Unknown, s1) ∧
      s1.assignment = sd.PreSolve.assignment ∧ s1.trail = sd.PreSolve.trail ∧
      (∀ v, s1.assignment.get v = .Unassigned) ∧ s1.trail.trail = [] ∧
      resultStatus (DpllSolver.Solve fuel (s1.InterruptOn g) A) =
        resultStatus (DpllSolver.Solve fuel (sd.InterruptOn g) A)) ∧
    (∃ s1 : CdclSolver S,
      CdclSolver.Solve P fuel1 (sc.InterruptOn f) A1 = .ok (.Unknown, s1) ∧
      s1.assignment = sc.PreSolve.assignment ∧ s1.trail = sc.PreSolve.trail ∧
      (∀ v, s1.assignment.get v = .Unassigned) ∧ s1.trail.trail = [] ∧
      resultStatus (CdclSolver.Solve P fuel (s1.InterruptOn g) A) =
        resultStatus (CdclSolver.Solve P fuel (sc.InterruptOn g) A)) := by
  obtain ⟨n, rfl⟩ : ∃ n, fuel1 = n + 1 := ⟨fuel1 - 1, by omega⟩
  constructor
  · refine ⟨_, DpllSolver.dpll_Solve_interrupted sd f A1 n hfd, rfl, rfl,
      BaseSolver.PreSolve_assignment_get sd hpd, BaseSolver.PreSolve_trail sd hpd, ?_⟩
    apply BaseSolver.ResultsAgree.same_status
    apply BaseSolver.SolveWith_agree (some g)
    rw [BaseSolver.PreSolve_after_interrupt sd hpd, BaseSolver.PreSolve_interruptOn,
      BaseSolver.SaveAssumptions_withInterrupt, BaseSolver.SaveAssumptions_withInterrupt]
    exact DpllSolver.dpll_SolveLoop_agree g hg fuel _ 0 _ _
  · obtain ⟨pend, hs⟩ := CdclSolver.cdcl_Solve_interrupted P sc f A1 n hfc
    refine ⟨_, hs, rfl, rfl,
      BaseSolver.PreSolve_assignment_get sc hpc, BaseSolver.PreSolve_trail sc hpc, ?_⟩
    apply BaseSolver.ResultsAgree.same_status
    apply BaseSolver.SolveWith_agree (some g)
    rw [BaseSolver.PreSolve_after_interrupt sc hpc, BaseSolver.PreSolve_interruptOn,
      BaseSolver.SaveAssumptions_withInterrupt, BaseSolver.SaveAssumptions_withInterrupt]
    exact CdclSolver.SolveImpl_agree P false g hg fuel _ _ _

/-- C26 (instance): on new solvers of both engines for `(x1 ∨ x2) (¬x1 ∨ ¬x2)`, `Solve` under a
predicate that answers `true` returns `Unknown`, and the next `Solve` under a predicate that
answers `false` returns `Satisfied`. -/
theorem C26_interrupted_solve_returns_unknown_and_keeps_the_solver_usable_witness :
    (∃ s1 : DpllSolver,
      DpllSolver.Solve 100
        ((DpllSolver.new (Formula.ofClauses id [[1, 2], [-1, -2]])).InterruptOn (fun _ => true))
        [] = .ok (.Unknown, s1) ∧
      resultStatus (DpllSolver.Solve 100 (s1.InterruptOn (fun _ => false)) []) =
        .ok .Satisfied) ∧
    (∃ s1 : CdclSolver Score,
      CdclSolver.Solve exactPlatform 100
        ((CdclSolver.new exactPlatform (Formula.ofClauses id [[1, 2], [-1, -2]])
          defaultScoring).InterruptOn (fun _ => true)) [] = .ok (.Unknown, s1) ∧
      resultStatus (CdclSolver.Solve exactPlatform 100 (s1.InterruptOn (fun _ => false)) []) =
        .ok .Satisfied) := by
  obtain ⟨⟨s1, h1, _, _, _, _, h2⟩, ⟨s2, h3, _, _, _, _, h4⟩⟩ :=
    C26_interrupted_solve_returns_unknown_and_keeps_the_solver_usable exactPlatform
      (DpllSolver.new (Formula.ofClauses id [[1, 2], [-1, -2]]))
      (CdclSolver.new exactPlatform (Formula.ofClauses id [[1, 2], [-1, -2]]) defaultScoring)
      (fun _ => true) (fun _ => false) [] [] 100 100 (by decide) rfl rfl (fun _ => rfl)
      (fun _ => ⟨rfl, rfl, rfl, rfl⟩) (fun _ => ⟨rfl, by rfl, by rfl, by rfl⟩)
  exact ⟨⟨s1, h1, h2.trans rfl⟩, ⟨s2, h3, h4.trans rfl⟩⟩

end pjos

namespace pjos

namespace DecisionTrail

theorem LevelsOk.push_entry {t : DecisionTrail} (h : t.LevelsOk) (e : Entry)
    (hl : t.level ≤ e.level) (vi : List (Option Nat)) :
    LevelsOk { trail := t.trail ++ [e], level := e.level, var_index := vi } := by
  refine ⟨by simp, ?_⟩
  show List.Pairwise _ (t.trail ++ [e])
  rw [List.pairwise_append]
  refine ⟨h.2, List.pairwise_singleton _ _, fun a ha b hb => ?_⟩
  rw [List.mem_singleton] at hb
  subst hb
  exact le_trans (level_le_of_mem h a ha) hl

theorem Live.push_live {t : DecisionTrail} (h : t.Live) (e : Entry) (k : Nat) (x : Option Nat)
    (he : 1 ≤ e.var ∧ e.var ≤ t.var_index.length) (l : Nat) :
    Live { trail := t.trail ++ [e], level := l, var_index := t.var_index.set k x } := by
  intro a ha
  have ha2 : a ∈ t.trail ++ [e] := ha
  show 1 ≤ a.var ∧ a.var ≤ (t.var_index.set k x).length
  rw [List.length_set]
  rw [List.mem_append, List.mem_singleton] at ha2
  rcases ha2 with ha2 | ha2
  · exact h a ha2
  · rw [ha2]; exact he

theorem Pop_levels {t : DecisionTrail} (hlive : t.Live) (hlev : t.LevelsOk) :
    t.Pop.Live ∧ t.Pop.LevelsOk := by
  cases hl : t.trail.getLast? with
  | none =>
    have hskip : t.SkipStale = t := SkipStale_eq_self t (fun x hx => (hlive x hx).2)
    have hp : t.Pop = t := by
      unfold Pop
      simp only [hskip, hl]
    rw [hp]
    exact ⟨hlive, hlev⟩
  | some e =>
    rw [Pop_of_last hl hlive]
    constructor
    · intro a ha
      have ha2 : a ∈ t.trail.dropLast := ha
      show 1 ≤ a.var ∧ a.var ≤ (t.var_index.set (e.var - 1) none).length
      rw [List.length_set]
      exact hlive a (List.mem_of_mem_dropLast ha2)
    · refine ⟨rfl, ?_⟩
      show List.Pairwise _ t.trail.dropLast
      have hp := hlev.2
      rw [split_last hl, List.pairwise_append] at hp
      exact hp.1

theorem Reset_levels (t : DecisionTrail) : t.Reset.Live ∧ t.Reset.LevelsOk :=
  ⟨(fun _ h => by cases h), rfl, List.Pairwise.nil⟩

theorem apply_levels {t : DecisionTrail} (hlive : t.Live) (hlev : t.LevelsOk) (o : Op)
    (hr : o.inRange t = true) : (t.apply o).Live ∧ (t.apply o).LevelsOk := by
  cases o with
  | Decision var assn =>
    simp only [Op.inRange, Op.pushed, decide_eq_true_eq] at hr
    exact ⟨Live.push_live hlive _ _ _ hr _,
      LevelsOk.push_entry hlev ⟨var, assn, ReasonDecision, t.level + 1⟩ (Nat.le_succ _) _⟩
  | Assumption var assn =>
    simp only [Op.inRange, Op.pushed, decide_eq_true_eq] at hr
    exact ⟨Live.push_live hlive _ _ _ hr _,
      LevelsOk.push_entry hlev ⟨var, assn, ReasonAssumption, t.level + 1⟩ (Nat.le_succ _) _⟩
  | Propagation var assn =>
    simp only [Op.inRange, Op.pushed, decide_eq_true_eq] at hr
    exact ⟨Live.push_live hlive _ _ _ hr _,
      LevelsOk.push_entry hlev ⟨var, assn, ReasonPropagation, t.level⟩ (le_refl _) _⟩
  | PropagationFrom var assn reason =>
    simp only [Op.inRange, Op.pushed, decide_eq_true_eq] at hr
    exact ⟨Live.push_live hlive _ _ _ hr _,
      LevelsOk.push_entry hlev ⟨var, assn, (reason : Int), t.level⟩ (le_refl _) _⟩
  | Pop => exact Pop_levels hlive hlev

theorem calls_levels : ∀ (cs : List Call) (t : DecisionTrail), t.Live → t.LevelsOk →
    callsInRange t cs = true → (t.calls cs).Live ∧ (t.calls cs).LevelsOk
  | [], _, h1, h2, _ => ⟨h1, h2⟩
  | .op o :: cs, t, h1, h2, hr => by
    simp only [callsInRange, Bool.and_eq_true] at hr
    have h := apply_levels h1 h2 o hr.1
    exact calls_levels cs (t.apply o) h.1 h.2 hr.2
  | .Reset :: cs, t, _, _, hr => by
    simp only [callsInRange] at hr
    exact calls_levels cs t.Reset (Reset_levels t).1 (Reset_levels t).2 hr

end DecisionTrail

/-- C38: after any sequence of `Decision`, `Assumption`, `Propagation` (with or without a reason
clause), `Pop` and `Reset` calls on a new `DecisionTrail`, the pushed variables being within
range: the levels of the entries do not decrease from the bottom to the top, `Level()` is the
level of the top entry (`0` when the trail is empty); a further `Decision` or `Assumption`
raises `Level()` by exactly one and pushes an entry of the new level, and a further
`Propagation` leaves `Level()` unchanged and pushes an entry of that level. -/
theorem C38_levels_grow_along_the_trail (n : Nat) (cs : List DecisionTrail.Call)
    (h : DecisionTrail.callsInRange (DecisionTrail.new n) cs = true) :
    List.Pairwise (fun a b : DecisionTrail.Entry => a.level ≤ b.level)
      ((DecisionTrail.new n).calls cs).trail ∧
    ((DecisionTrail.new n).calls cs).Level =
      (((DecisionTrail.new n).calls cs).trail.getLast?.map (fun e => e.level)).getD 0 ∧
    (∀ (var : Nat) (a : VariableAssignment) (reason : Nat),
      (((DecisionTrail.new n).calls cs).Decision var a).Level =
        ((DecisionTrail.new n).calls cs).Level + 1 ∧
      (((DecisionTrail.new n).calls cs).Decision var a).trail.getLast? =
        some ⟨var, a, DecisionTrail.ReasonDecision, ((DecisionTrail.new n).calls cs).Level + 1⟩ ∧
      (((DecisionTrail.new n).calls cs).Assumption var a).Level =
        ((DecisionTrail.new n).calls cs).Level + 1 ∧
      (((DecisionTrail.new n).calls cs).Assumption var a).trail.getLast? =
        some ⟨var, a, DecisionTrail.ReasonAssumption,
          ((DecisionTrail.new n).calls cs).Level + 1⟩ ∧
      (((DecisionTrail.new n).calls cs).Propagation var a).Level =
        ((DecisionTrail.new n).calls cs).Level ∧
      (((DecisionTrail.new n).calls cs).Propagation var a).trail.getLast? =
        some ⟨var, a, DecisionTrail.ReasonPropagation, ((DecisionTrail.new n).calls cs).Level⟩ ∧
      (((DecisionTrail.new n).calls cs).PropagationFrom var a reason).Level =
        ((DecisionTrail.new n).calls cs).Level ∧
      (((DecisionTrail.new n).calls cs).PropagationFrom var a reason).trail.getLast? =
        some ⟨var, a, (reason : Int), ((DecisionTrail.new n).calls cs).Level⟩) := by
  have hnew : (DecisionTrail.new n).Live ∧ (DecisionTrail.new n).LevelsOk :=
    ⟨(fun _ h => by cases h), rfl, List.Pairwise.nil⟩
  have hi := DecisionTrail.calls_levels cs (DecisionTrail.new n) hnew.1 hnew.2 h
  refine ⟨hi.2.2, hi.2.1, fun var a reason => ⟨rfl, ?_, rfl, ?_, rfl, ?_, rfl, ?_⟩⟩ <;>
    simp [DecisionTrail.Decision, DecisionTrail.Assumption, DecisionTrail.Propagation,
      DecisionTrail.PropagationFrom, DecisionTrail.Level]

/-- C38 (instance): decide `x1`, propagate `x2`, assume `x3`, pop, reset, decide `x2`. -/
theorem C38_levels_grow_along_the_trail_witness :
    ((DecisionTrail.new 3).calls
      [.op (.Decision 1 .True), .op (.Propagation 2 .False), .op (.Assumption 3 .True),
        .op .Pop]).trail =
      [⟨1, .True, DecisionTrail.ReasonDecision, 1⟩,
        ⟨2, .False, DecisionTrail.ReasonPropagation, 1⟩] ∧
    ((DecisionTrail.new 3).calls
      [.op (.Decision 1 .True), .op (.Propagation 2 .False), .op (.Assumption 3 .True),
        .op .Pop]).Level = 1 ∧
    ((DecisionTrail.new 3).calls
      [.op (.Decision 1 .True), .op (.Propagation 2 .False), .op (.Assumption 3 .True),
        .op .Pop, .Reset, .op (.Decision 2 .True)]).Level =
      (((DecisionTrail.new 3).calls
        [.op (.Decision 1 .True), .op (.Propagation 2 .False), .op (.Assumption 3 .True),
          .op .Pop, .Reset, .op (.Decision 2 .True)]).trail.getLast?.map
            (fun e => e.level)).getD 0 :=
  ⟨by decide, by decide,
    (C38_levels_grow_along_the_trail 3
      [.op (.Decision 1 .True), .op (.Propagation 2 .False), .op (.Assumption 3 .True),
        .op .Pop, .Reset, .op (.Decision 2 .True)] (by decide)).2.1⟩

end pjos

namespace pjos

theorem BaseSolver.Consistent.aligned {X : Type} {s : BaseSolver X} (h : s.Consistent) :
    s.WatchersAligned := by
  have hlen : s.watchers.length = s.formula.clauses.length := by
    have := congrArg List.length h.watchers_clauses
    simpa using this
  refine ⟨hlen, fun i hi => ?_⟩
  have hi2 : i < s.watchers.length := by rw [hlen]; exact hi
  refine ⟨s.watchers[i], List.getElem?_eq_getElem hi2, ?_, ?_, ?_⟩
  · exact ((h.watcher_clause (List.getElem?_eq_getElem hi2)).2.2).symm
  · exact (h.watchers_ok _ (List.getElem_mem hi2)).1.1
  · exact (h.watchers_ok _ (List.getElem_mem hi2)).1.2.1

/-- C37: after any sequence of calls of `AppendClause` (with a valid clause) and `RemoveClause`
(with the index of a clause of the formula) on a `ModifiableDpllSolver` or a `CdclSolver`
constructed for a well-formed formula, the formula holds the clauses that the calls describe
and the watcher vector is aligned with it: `watchers.size()` is `NumOfClauses()`, and for every
index `i` the watcher `i` is on the clause `i` of the current formula and its watches are
positions of that clause. -/
theorem C37_watchers_are_aligned_with_the_formula {S : Type} (P : Platform S)
    (scoring : ScoringParameters S) (f : Formula) (ops : List SolverOp)
    (hwf : f.WellFormed) (hv : SolverOp.Valid f.NumOfClauses ops) :
    ((ModifiableDpllSolver.run (ModifiableDpllSolver.new f) ops).formula.clauses =
        SolverOp.clauses f.clauses ops ∧
      (ModifiableDpllSolver.run (ModifiableDpllSolver.new f) ops).WatchersAligned) ∧
    ((CdclSolver.run P (CdclSolver.new P f scoring) ops).formula.clauses =
        SolverOp.clauses f.clauses ops ∧
      (CdclSolver.run P (CdclSolver.new P f scoring) ops).WatchersAligned) := by
  have h1 : (ModifiableDpllSolver.new f).Consistent := BaseSolver.new_consistent f () hwf
  have h2 : (CdclSolver.new P f scoring).Consistent := BaseSolver.new_consistent f _ hwf
  have hf1 : (ModifiableDpllSolver.new f).formula = f :=
    (BaseSolver.PopulateFrom_fields f.clauses 0 _).2.2.2.2
  have hf2 : (CdclSolver.new P f scoring).formula = f :=
    (BaseSolver.PopulateFrom_fields f.clauses 0 _).2.2.2.2
  have r1 := ModifiableDpllSolver.dpll_run_consistent ops _ h1 (by rw [hf1]; exact hv)
  have r2 := CdclSolver.cdcl_run_consistent P ops _ h2 (by rw [hf2]; exact hv)
  rw [hf1] at r1
  rw [hf2] at r2
  exact ⟨⟨r1.2, r1.1.aligned⟩, ⟨r2.2, r2.1.aligned⟩⟩

/-- C37 (instance): `RemoveClause(0)` and then `AppendClause((¬x2))` on solvers for
`(x1 ∨ x2) (¬x1 ∨ x2)`: two watchers, on `(¬x1 ∨ x2)` and on `(¬x2)`. -/
theorem C37_watchers_are_aligned_with_the_formula_witness :
    (ModifiableDpllSolver.run
      (ModifiableDpllSolver.new (Formula.ofClauses id [[1, 2], [-1, 2]]))
      [.Remove 0, .Append ⟨[-2], 2⟩]).watchers.map (fun w => w.clause) =
        [⟨[-1, 2], 2⟩, ⟨[-2], 2⟩] ∧
    (ModifiableDpllSolver.run
      (ModifiableDpllSolver.new (Formula.ofClauses id [[1, 2], [-1, 2]]))
      [.Remove 0, .Append ⟨[-2], 2⟩]).WatchersAligned ∧
    (CdclSolver.run exactPlatform
      (CdclSolver.new exactPlatform (Formula.ofClauses id [[1, 2], [-1, 2]]) defaultScoring)
      [.Remove 0, .Append ⟨[-2], 2⟩]).WatchersAligned := by
  have hF : (Formula.ofClauses id [[1, 2], [-1, 2]]).WellFormed := by
    intro c hc l hl
    have hc2 : c ∈ [(⟨[1, 2], 2⟩ : Clause), ⟨[-1, 2], 2⟩] := hc
    simp only [List.mem_cons, List.mem_singleton, List.not_mem_nil, or_false] at hc2
    rcases hc2 with hc2 | hc2 <;> subst hc2 <;>
      simp only [List.mem_cons, List.mem_singleton, List.not_mem_nil, or_false] at hl <;>
      rcases hl with hl | hl <;> subst hl <;> decide
  have hV : SolverOp.Valid (Formula.ofClauses id [[1, 2], [-1, 2]]).NumOfClauses
      [.Remove 0, .Append ⟨[-2], 2⟩] := by
    refine ⟨by decide, ?_, trivial⟩
    intro l hl
    simp only [List.mem_singleton] at hl
    subst hl
    decide
  have h := C37_watchers_are_aligned_with_the_formula exactPlatform defaultScoring
    (Formula.ofClauses id [[1, 2], [-1, 2]]) [.Remove 0, .Append ⟨[-2], 2⟩] hF hV
  exact ⟨rfl, h.1.2, h.2.2⟩

end pjos

namespace pjos

/-- C32 (failing run): `DpllSolver` for `(¬x1 ∨ x2) (¬x1 ∨ ¬x2)` with the assumption `x1`.  After
the assumption is applied, unit propagation assigns `x2` and reports the conflict in clause `1`
with the trail `[x1 (Assumption, level 1), x2 (clause 0)]`.  The undo loop unassigns and pops
`x2`, then stops at the `Assumption` entry of `x1` as it would at a `Decision`: the entry is
popped with `x1` left assigned and returned to be flipped.  `SolveImpl` re-records `x1 = False`
as a `Propagation`, and `Solve` returns `Satisfied` with `x1 = False` instead of returning
`Unsatisfied` because no `Decision` entry remains. -/
theorem C32_undo_loop_flips_an_assumption :
    (((DpllSolver.new (Formula.ofClauses id [[-1, 2], [-1, -2]])).PerformPendingAssignment
        1 .True true).2.UnitPropagation 10).toOption.map
      (fun r => (r.1.trail.trail, r.2)) =
      some ([⟨1, .True, DecisionTrail.ReasonAssumption, 1⟩, ⟨2, .True, 0, 1⟩], .Unsat, 1) ∧
    ((((DpllSolver.new (Formula.ofClauses id [[-1, 2], [-1, -2]])).PerformPendingAssignment
        1 .True true).2.UnitPropagation 10).toOption.bind
      (fun r => (DpllSolver.UndoDecision (r.1.trail.trail.length + 1) r.1).toOption)).map
      (fun r => (r.1, r.2.trail.trail, r.2.assignment)) =
      some (some (1, .True), [], ⟨[.True, .Unassigned]⟩) ∧
    (DpllSolver.Solve 100 (DpllSolver.new (Formula.ofClauses id [[-1, 2], [-1, -2]]))
        [1]).toOption.map (fun r => (r.1, r.2.trail.trail, r.2.assignment)) =
      some (.Satisfied, [⟨1, .False, DecisionTrail.ReasonPropagation, 0⟩],
        ⟨[.False, .Unassigned]⟩) :=
  ⟨rfl, rfl, rfl⟩

end pjos

namespace pjos

namespace BaseSolver

variable {X : Type}

/-- Every justified propagation step assigns a variable that was unassigned: the steps of a
justified sequence lower the number of unassigned variables by one each. -/
theorem UnitJustified_count [SolverExt X] :
    ∀ (steps : List (Nat × Literal)) (s : BaseSolver X), s.Consistent → s.WatchersExact →
      s.UnitJustified steps →
      (s.PropagateAll steps).assignment.numUnassigned + steps.length =
        s.assignment.numUnassigned
  | [], _, _, _, _ => rfl
  | (reason, literal) :: rest, s, hc, he, hj => by
    obtain ⟨⟨h1, h2, h3, _⟩, h5⟩ := hj
    have hmem : s.formula.get reason ∈ s.formula.clauses := Formula_get_mem _ _ h1
    have hwf := hc.wf _ hmem literal h2
    have hx : 1 ≤ Literal.Variable literal := Literal.variable_pos hwf.1
    have ha : (Literal.Assignment literal).2 ≠ .Unassigned :=
      Literal.assignment_ne_unassigned literal
    have hv : (Literal.Assignment literal).1 = Literal.Variable literal := rfl
    have hstep := Propagate_exact s (Literal.Assignment literal).1 (Literal.Assignment literal).2
      reason hc he (by rw [hv]; exact hx) (by rw [hv]; exact hwf.2) ha (by rw [hv]; exact h3)
    have hn := Propagate_numUnassigned s (Literal.Assignment literal).1
      (Literal.Assignment literal).2 reason (by rw [hv]; exact hx)
      (by rw [hv, hc.assignment_length]; exact hwf.2) ha (by rw [hv]; exact h3)
    have ih := UnitJustified_count rest _ hstep.1 hstep.2 h5
    show (PropagateAll (s.Propagate _ _ reason) rest).assignment.numUnassigned +
      (rest.length + 1) = _
    omega

end BaseSolver

end pjos

namespace pjos

namespace DecisionTrail

theorem getElem?_append_one {α : Type} (l : List α) (x : α) (i : Nat) (y : α)
    (h : (l ++ [x])[i]? = some y) :
    (i < l.length ∧ l[i]? = some y) ∨ (i = l.length ∧ y = x) := by
  by_cases hi : i < l.length
  · rw [List.getElem?_append_left hi] at h
    exact Or.inl ⟨hi, h⟩
  · have hlen : i < (l ++ [x]).length := (List.getElem?_eq_some_iff.mp h).1
    rw [List.length_append, List.length_singleton] at hlen
    have hil : i = l.length := by omega
    subst hil
    rw [List.getElem?_append_right (le_refl _)] at h
    simp only [Nat.sub_self, List.getElem?_cons_zero, Option.some.injEq] at h
    exact Or.inr ⟨rfl, h.symm⟩

theorem getElem?_dropLast {α : Type} (l : List α) (i : Nat) (y : α)
    (h : l.dropLast[i]? = some y) : i + 1 < l.length ∧ l[i]? = some y := by
  rw [List.dropLast_eq_take, List.getElem?_take] at h
  split_ifs at h with hi
  exact ⟨by omega, h⟩

theorem levelBelow_append (trail : List Entry) (x : Entry) (i : Nat) (hi : i ≤ trail.length) :
    levelBelow (trail ++ [x]) i = levelBelow trail i := by
  cases i with
  | zero => rfl
  | succ j =>
    show (((trail ++ [x])[j]?).map (fun e => e.level)).getD 0 =
      ((trail[j]?).map (fun e => e.level)).getD 0
    rw [List.getElem?_append_left (by omega)]

theorem levelBelow_length (trail : List Entry) :
    levelBelow trail trail.length = (trail.getLast?.map (fun e => e.level)).getD 0 := by
  cases h : trail.length with
  | zero =>
    have : trail = [] := List.length_eq_zero.mp h
    subst this
    rfl
  | succ j =>
    show ((trail[j]?).map (fun e => e.level)).getD 0 = _
    rw [List.getLast?_eq_getElem?, h]
    rfl

theorem levelBelow_dropLast (trail : List Entry) (i : Nat) (hi : i < trail.length) :
    levelBelow trail.dropLast i = levelBelow trail i := by
  cases i with
  | zero => rfl
  | succ j =>
    show ((trail.dropLast[j]?).map (fun e => e.level)).getD 0 =
      ((trail[j]?).map (fun e => e.level)).getD 0
    rw [List.dropLast_eq_take, List.getElem?_take, if_pos (by omega)]

theorem Found.push_found {t t1 : DecisionTrail} (h : t.Found) (e : Entry)
    (hv : e.var - 1 < t.var_index.length)
    (ht : t1.trail = t.trail ++ [e])
    (hi : t1.var_index = t.var_index.set (e.var - 1) (some t.trail.length)) : t1.Found := by
  intro i e0 he0
  rw [ht] at he0
  rw [hi]
  rcases getElem?_append_one _ _ _ _ he0 with ⟨hlt, hold⟩ | ⟨heq, hee⟩
  · obtain ⟨j, hj1, hj2⟩ := h i e0 hold
    by_cases hvar : e0.var - 1 = e.var - 1
    · refine ⟨t.trail.length, by omega, ?_⟩
      rw [hvar, List.getElem?_set_self hv]
    · refine ⟨j, hj1, ?_⟩
      rw [List.getElem?_set_ne (fun hc => hvar hc.symm)]
      exact hj2
  · subst hee
    refine ⟨t.trail.length, by omega, ?_⟩
    rw [List.getElem?_set_self hv]

theorem Found.pop_found {t t1 : DecisionTrail} (h : t.Found) (e : Entry)
    (hu : ∀ i e0, t.trail[i]? = some e0 → i + 1 < t.trail.length → e0.var - 1 ≠ e.var - 1)
    (ht : t1.trail = t.trail.dropLast)
    (hi : t1.var_index = t.var_index.set (e.var - 1) none) : t1.Found := by
  intro i e0 he0
  rw [ht] at he0
  rw [hi]
  obtain ⟨hlt, hold⟩ := getElem?_dropLast _ _ _ he0
  obtain ⟨j, hj1, hj2⟩ := h i e0 hold
  have hne := hu i e0 hold hlt
  refine ⟨j, hj1, ?_⟩
  rw [List.getElem?_set_ne (fun hc => hne hc.symm)]
  exact hj2

theorem Starts.push_starts {t t1 : DecisionTrail} (h : t.Starts) (e : Entry)
    (ht : t1.trail = t.trail ++ [e])
    (hlast : t.level = (t.trail.getLast?.map (fun e => e.level)).getD 0)
    (h1 : 0 ≤ e.reason → e.level = t.level) (h2 : e.reason < 0 → t.level < e.level) :
    t1.Starts := by
  intro i e0 he0
  rw [ht] at he0 ⊢
  rcases getElem?_append_one _ _ _ _ he0 with ⟨hlt, hold⟩ | ⟨heq, hee⟩
  · rw [levelBelow_append _ _ _ (by omega)]
    exact h i e0 hold
  · subst hee heq
    rw [levelBelow_append _ _ _ (le_refl _), levelBelow_length, ← hlast]
    exact ⟨h1, h2⟩

theorem Starts.pop_starts {t t1 : DecisionTrail} (h : t.Starts) (ht : t1.trail = t.trail.dropLast) :
    t1.Starts := by
  intro i e0 he0
  rw [ht] at he0 ⊢
  obtain ⟨hlt, hold⟩ := getElem?_dropLast _ _ _ he0
  rw [levelBelow_dropLast _ _ (by omega)]
  exact h i e0 hold

/-- A variable whose first entry is inside a prefix of the trail has the same first entry in
the prefix. -/
theorem Rank_prefix (t1 rest : List Entry) (v : Nat) (h : Rank (t1 ++ rest) v < t1.length) :
    Rank t1 v = Rank (t1 ++ rest) v := by
  unfold Rank at h ⊢
  rw [List.map_append] at h ⊢
  by_cases hm : v ∈ t1.map (fun e => e.var)
  · rw [List.indexOf_append_of_mem hm]
  · rw [List.indexOf_append_of_not_mem hm] at h
    simp at h

theorem Rank_of_prefix (t1 rest : List Entry) (v : Nat) (h : Rank t1 v < t1.length) :
    Rank (t1 ++ rest) v = Rank t1 v := by
  unfold Rank at h ⊢
  rw [List.map_append]
  have hm : v ∈ t1.map (fun e => e.var) := by
    apply List.indexOf_lt_length.mp
    simpa using h
  rw [List.indexOf_append_of_mem hm]

end DecisionTrail

namespace CdclSolver

variable {S : Type}

theorem NoEarlyConflict.append_entry {cs : List Clause} {s s1 : CdclSolver S}
    (h : NoEarlyConflict cs s) (e : DecisionTrail.Entry)
    (ht : s1.trail.trail = s.trail.trail ++ [e])
    (hfalse : ∀ c ∈ cs, ∀ l ∈ c.clause, Literal.IsFalse l s1.assignment →
      Literal.IsFalse l s.assignment ∨
        s.trail.trail.length ≤ DecisionTrail.Rank s1.trail.trail (Literal.Variable l))
    (hnew : e.reason < 0 → ∀ c ∈ cs, ∃ l ∈ c.clause, ¬ Literal.IsFalse l s.assignment) :
    NoEarlyConflict cs s1 := by
  intro p e0 he0 hr c hc
  rw [ht] at he0
  rcases DecisionTrail.getElem?_append_one _ _ _ _ he0 with ⟨hlt, hold⟩ | ⟨heq, hee⟩
  · obtain ⟨l, hl, hnot⟩ := h p e0 hold hr c hc
    refine ⟨l, hl, fun hboth => hnot ?_⟩
    have hrk : DecisionTrail.Rank s.trail.trail (Literal.Variable l) =
        DecisionTrail.Rank s1.trail.trail (Literal.Variable l) := by
      rw [ht]
      apply DecisionTrail.Rank_prefix
      rw [← ht]
      omega
    rcases hfalse c hc l hl hboth.1 with hf | hf
    · exact ⟨hf, by rw [hrk]; exact hboth.2⟩
    · omega
  · subst hee
    obtain ⟨l, hl, hnot⟩ := hnew hr c hc
    refine ⟨l, hl, fun hboth => ?_⟩
    rcases hfalse c hc l hl hboth.1 with hf | hf
    · exact hnot hf
    · omega

theorem NoEarlyConflict.of_prefix {cs : List Clause} {s s1 : CdclSolver S}
    (h : NoEarlyConflict cs s) (rest : List DecisionTrail.Entry)
    (ht : s.trail.trail = s1.trail.trail ++ rest)
    (hfalse : ∀ c ∈ cs, ∀ l ∈ c.clause, Literal.IsFalse l s1.assignment →
      Literal.IsFalse l s.assignment) :
    NoEarlyConflict cs s1 := by
  intro p e0 he0 hr c hc
  have hlt : p < s1.trail.trail.length := (List.getElem?_eq_some_iff.mp he0).1
  have hold : s.trail.trail[p]? = some e0 := by
    rw [ht, List.getElem?_append_left hlt]
    exact he0
  obtain ⟨l, hl, hnot⟩ := h p e0 hold hr c hc
  refine ⟨l, hl, fun hboth => hnot ⟨hfalse c hc l hl hboth.1, ?_⟩⟩
  rw [ht, DecisionTrail.Rank_of_prefix _ _ _ (by omega)]
  exact hboth.2

theorem NoEarlyConflict.of_subset {cs cs1 : List Clause} {s : CdclSolver S}
    (h : NoEarlyConflict cs s) (hsub : ∀ c ∈ cs1, c ∈ cs) : NoEarlyConflict cs1 s :=
  fun p e he hr c hc => h p e he hr c (hsub c hc)

end CdclSolver

end pjos

namespace pjos

namespace DecisionTrail

theorem SetNumOfVariables_entries (t : DecisionTrail) (n : Nat) :
    (t.SetNumOfVariables n).trail = t.trail := by
  unfold SetNumOfVariables
  split_ifs <;> rfl

theorem SetNumOfVariables_lookup (t : DecisionTrail) (n : Nat) (h : t.var_index.length ≤ n)
    (k i : Nat) (hk : t.var_index[k]? = some (some i)) :
    (t.SetNumOfVariables n).var_index[k]? = some (some i) := by
  have hlt : k < t.var_index.length := (List.getElem?_eq_some_iff.mp hk).1
  unfold SetNumOfVariables
  split_ifs with h1 h2
  · omega
  · show (t.var_index ++ _)[k]? = _
    rw [List.getElem?_append_left hlt]
    exact hk
  · exact hk

end DecisionTrail

namespace CdclSolver

variable {S : Type}

theorem Literal_isFalse_set_other {l : Literal} {assn : Assignment} {x : Nat}
    {a : VariableAssignment} (hl : l ≠ 0) (hx : 1 ≤ x) (hne : Literal.Variable l ≠ x) :
    Literal.IsFalse l (assn.set x a) ↔ Literal.IsFalse l assn := by
  unfold Literal.IsFalse
  rw [Assignment.get_set_other _ _ _ _ (Literal.variable_pos hl) hx hne]

theorem Shape.of_fields {cs : List Clause} {s t : CdclSolver S} (h : Shape cs s)
    (hw : t.watchers = s.watchers) (ha : t.assignment = s.assignment) (ht : t.trail = s.trail)
    (hb : t.ext.learned_clause.literals = []) : Shape cs t := by
  refine ⟨?_, ?_, ?_, ?_, hb⟩
  · rw [hw]; exact h.undecided
  · rw [ht]; exact h.found
  · rw [ht]; exact h.starts
  · intro p e he hr c hc
    rw [ht] at he
    obtain ⟨l, hl, hnot⟩ := h.early p e he hr c hc
    exact ⟨l, hl, by rw [ha, ht]; exact hnot⟩

/-- Assigning an unassigned variable and pushing its entry keeps the shape of the trail. -/
theorem Shape.push_assigned {F : Formula} {cs : List Clause} {s s1 : CdclSolver S} {iter : Nat}
    (h : Shape cs s) (hs : Sound F s) (hi : Inv s iter)
    (hcs : ∀ c ∈ cs, c ∈ s.formula.clauses)
    (x : Nat) (a : VariableAssignment) (e : DecisionTrail.Entry)
    (hx1 : 1 ≤ x) (hx2 : x ≤ s.formula.num_of_variables)
    (hu : s.assignment.get x = .Unassigned) (he1 : e.var = x)
    (hr1 : 0 ≤ e.reason → e.level = s.trail.level)
    (hr2 : e.reason < 0 → s.trail.level < e.level)
    (hnew : e.reason < 0 → ∀ c ∈ cs, ∃ l ∈ c.clause, ¬ Literal.IsFalse l s.assignment)
    (hw : s1.watchers = (BaseSolver.Assign s x a).watchers)
    (hα : s1.assignment = s.assignment.set x a)
    (ht1 : s1.trail.trail = s.trail.trail ++ [e])
    (ht2 : s1.trail.var_index = s.trail.var_index.set (x - 1) (some s.trail.trail.length))
    (hb : s1.ext.learned_clause = s.ext.learned_clause) : Shape cs s1 := by
  refine ⟨?_, ?_, ?_, ?_, ?_⟩
  · rw [hw]; exact BaseSolver.Assign_undecidedOk s x a h.undecided
  · refine h.found.push_found e ?_ ht1 (by rw [he1]; exact ht2)
    rw [he1, hi.trail_index_length]; omega
  · exact h.starts.push_starts e ht1 hs.level_last hr1 hr2
  · refine h.early.append_entry e ht1 ?_ hnew
    intro c hc l hl hf
    have hl0 := (hi.consistent.wf c (hcs c hc) l hl).1
    by_cases hv : Literal.Variable l = x
    · right
      rw [hv, ht1, ← he1]
      rw [DecisionTrail.Rank_append_self e (by rw [he1]; exact hs.not_on_trail hu)]
    · left
      rw [hα] at hf
      exact (Literal_isFalse_set_other hl0 hx1 hv).mp hf
  · rw [hb]; exact h.builder

/-- Pushing a second entry for an assigned variable keeps the shape of the trail. -/
theorem Shape.dup_push {cs : List Clause} {s s1 : CdclSolver S} {F : Formula} {iter : Nat}
    (h : Shape cs s) (hs : Sound F s) (hi : Inv s iter)
    (e : DecisionTrail.Entry) (hx1 : 1 ≤ e.var) (hx2 : e.var ≤ s.formula.num_of_variables)
    (hr : e.reason < 0) (hlv : s.trail.level < e.level)
    (hnew : ∀ c ∈ cs, ∃ l ∈ c.clause, ¬ Literal.IsFalse l s.assignment)
    (hw : s1.watchers = s.watchers)
    (hα : s1.assignment = s.assignment)
    (ht1 : s1.trail.trail = s.trail.trail ++ [e])
    (ht2 : s1.trail.var_index = s.trail.var_index.set (e.var - 1) (some s.trail.trail.length))
    (hb : s1.ext.learned_clause = s.ext.learned_clause) : Shape cs s1 := by
  refine ⟨?_, ?_, ?_, ?_, ?_⟩
  · rw [hw]; exact h.undecided
  · refine h.found.push_found e ?_ ht1 ht2
    rw [hi.trail_index_length]; omega
  · exact h.starts.push_starts e ht1 hs.level_last (fun h0 => by omega) (fun _ => hlv)
  · refine h.early.append_entry e ht1 ?_ (fun _ => hnew)
    intro c hc l hl hf
    left
    rw [hα] at hf
    exact hf
  · rw [hb]; exact h.builder

/-- Undoing the newest assignment and popping its entry keeps the shape of the trail. -/
theorem Shape.pop_unassigned {F : Formula} {cs : List Clause} {s s1 : CdclSolver S} {iter : Nat}
    (h : Shape cs s) (hs : Sound F s) (hi : Inv s iter)
    (hcs : ∀ c ∈ cs, c ∈ s.formula.clauses)
    (e : DecisionTrail.Entry) (hl : s.trail.trail.getLast? = some e)
    (hra : e.reason ≠ DecisionTrail.ReasonAssumption)
    (hw : s1.watchers = (BaseSolver.Assign s e.var .Unassigned).watchers)
    (hα : s1.assignment = s.assignment.set e.var .Unassigned)
    (ht : s1.trail = s.trail.Pop)
    (hb : s1.ext.learned_clause = s.ext.learned_clause) : Shape cs s1 := by
  obtain ⟨hp1, hp2, hp3⟩ := hi.pop_fields hl
  have hrange := hi.trail_range e (List.mem_of_mem_getLast? hl)
  have hlast : s.trail.trail[s.trail.trail.length - 1]? = some e := by
    rw [← List.getLast?_eq_getElem?]; exact hl
  refine ⟨?_, ?_, ?_, ?_, ?_⟩
  · rw [hw]; exact BaseSolver.Assign_undecidedOk s e.var .Unassigned h.undecided
  · refine h.found.pop_found e ?_ (by rw [ht]; exact hp1) (by rw [ht]; exact hp2)
    intro i e0 he0 hlt hv
    have hr0 := hi.trail_range e0 (List.getElem?_mem he0)
    have hvar : e0.var = e.var := by omega
    exact hra (hs.dups i (s.trail.trail.length - 1) e0 e (by omega) he0 hlast hvar)
  · exact h.starts.pop_starts (by rw [ht]; exact hp1)
  · refine h.early.of_prefix [e] ?_ ?_
    · rw [ht, hp1]
      exact (List.dropLast_append_getLast? e hl).symm
    · intro c hc l hl2 hf
      have hl0 := (hi.consistent.wf c (hcs c hc) l hl2).1
      rw [hα] at hf
      by_cases hv : Literal.Variable l = e.var
      · exfalso
        apply hf.1
        rw [hv]
        exact Assignment.get_set_unassigned _ _
      · exact (Literal_isFalse_set_other hl0 hrange.1 hv).mp hf
  · rw [hb]; exact h.builder

/-- Appending a clause keeps the shape of the trail with respect to the clauses `cs`. -/
theorem Shape.clause_appended {cs : List Clause} {s : CdclSolver S} {iter : Nat}
    (P : Platform S) (h : Shape cs s) (hi : Inv s iter) (c : Clause) :
    Shape cs (AppendClause P s c) := by
  have hN : s.formula.num_of_variables ≤ (s.formula.AppendClause c).num_of_variables := by
    simp [Formula.AppendClause]
  obtain ⟨hf, hw, hα, ht, _, _⟩ := AppendClause_fields P s c hi.consistent
  refine ⟨?_, ?_, ?_, ?_, ?_⟩
  · intro w hmem
    rw [hw, List.mem_append, List.mem_singleton] at hmem
    rcases hmem with hmem | hmem
    · exact h.undecided w hmem
    · rw [hmem]; exact Watcher.Rescan_undecidedOk _ _
  · intro i e he
    rw [ht, DecisionTrail.SetNumOfVariables_entries] at he
    obtain ⟨j, hj1, hj2⟩ := h.found i e he
    refine ⟨j, hj1, ?_⟩
    rw [ht]
    exact DecisionTrail.SetNumOfVariables_lookup _ _ (by rw [hi.trail_index_length]; exact hN)
      _ _ hj2
  · intro i e he
    rw [ht, DecisionTrail.SetNumOfVariables_entries] at he ⊢
    exact h.starts i e he
  · refine h.early.of_prefix [] ?_ ?_
    · rw [ht, DecisionTrail.SetNumOfVariables_entries, List.append_nil]
    · intro c1 hc1 l hl hf
      unfold Literal.IsFalse at hf ⊢
      rw [hα, Assignment.SetNumOfVariables_get _ _ _
        (by rw [hi.consistent.assignment_length]; exact hN)] at hf
      exact hf
  · rw [AppendClause_learned]; exact h.builder

end CdclSolver

end pjos

namespace pjos

namespace CdclSolver

variable {S : Type}

/-- Pushing a second entry, an assumption, for a variable that holds the assumed value keeps
the soundness invariant. -/
theorem Sound.dup_entry {F : Formula} {s s1 : CdclSolver S} {iter : Nat} (hs : Sound F s)
    (hi : Inv s iter) (e : DecisionTrail.Entry)
    (hx1 : 1 ≤ e.var) (hx2 : e.var ≤ s.formula.num_of_variables)
    (hassn : s.assignment.get e.var = e.assignment) (ha : e.assignment ≠ .Unassigned)
    (hre : e.reason = DecisionTrail.ReasonAssumption) (hlv : e.level = s.trail.level + 1)
    (hf : s1.formula = s.formula)
    (hw : s1.watchers = s.watchers)
    (hα : s1.assignment = s.assignment)
    (ht1 : s1.trail.trail = s.trail.trail ++ [e])
    (ht2 : s1.trail.var_index =
      s.trail.var_index.set (e.var - 1) (some s.trail.trail.length))
    (ht3 : s1.trail.level = e.level)
    (hk : s1.ext.analysis_track = s.ext.analysis_track) : Sound F s1 := by
  have hc := hi.consistent
  have hrank : ∀ v, 1 ≤ v → v ≤ s.formula.num_of_variables →
      s.assignment.get v ≠ .Unassigned →
      DecisionTrail.Rank (s.trail.trail ++ [e]) v = DecisionTrail.Rank s.trail.trail v :=
    fun v hv1 hv2 hne =>
      DecisionTrail.Rank_append_of_mem e (hs.assigned_on_trail v hv1 hv2 hne)
  refine ⟨?_, ?_, ?_, ?_, ?_, ?_, ?_, ?_, ?_, ?_, ?_⟩
  · -- tight
    intro w hwm
    rw [hw] at hwm
    rw [hα, ht1]
    have h1 := hs.tight w hwm
    have hcl : ∀ l ∈ w.clause.clause, l ≠ 0 ∧ Literal.Variable l ≤ s.formula.num_of_variables := by
      obtain ⟨j, hj⟩ := List.mem_iff_getElem?.mp hwm
      have h2 := hc.watcher_clause hj
      exact hc.wf _ (List.getElem?_mem h2.1)
    apply h1.congr_rank
    intro l hl hne
    exact hrank _ (Literal.variable_pos (hcl l hl).1) (hcl l hl).2 hne
  · -- trail_assignment
    intro e1 he1m
    rw [ht1, List.mem_append, List.mem_singleton] at he1m
    rw [hα]
    rcases he1m with h1 | h1
    · exact hs.trail_assignment e1 h1
    · rw [h1]
      exact ⟨hassn, ha⟩
  · -- assigned_on_trail
    intro v hv1 hv2 hne
    rw [hα] at hne
    rw [hf] at hv2
    rw [ht1]
    obtain ⟨e1, h1, h2⟩ := hs.assigned_on_trail v hv1 hv2 hne
    exact ⟨e1, List.mem_append_left _ h1, h2⟩
  · -- dups
    intro i j ei ej hij hei hej hvar
    rw [ht1] at hei hej
    rcases DecisionTrail.getElem?_append_one _ _ _ _ hej with ⟨hj, hej2⟩ | ⟨hj, hej2⟩
    · rw [List.getElem?_append_left (by omega)] at hei
      exact hs.dups i j ei ej hij hei hej2 hvar
    · rw [hej2]; exact hre
  · -- index
    intro k i hki
    rw [ht2] at hki
    rw [ht1]
    by_cases hkx : e.var - 1 = k
    · rw [List.getElem?_set] at hki
      simp only [hkx, if_true] at hki
      split_ifs at hki with h1
      cases hki
      refine ⟨e, by simp, ?_⟩
      omega
    · rw [List.getElem?_set_ne hkx] at hki
      obtain ⟨e1, h1, h2⟩ := hs.index k i hki
      have hlt : i < s.trail.trail.length := (List.getElem?_eq_some_iff.mp h1).1
      exact ⟨e1, by rw [List.getElem?_append_left hlt]; exact h1, h2⟩
  · -- reasons
    intro i e1 hie hre1
    rw [ht1] at hie
    rw [hf, hα, ht1]
    rcases DecisionTrail.getElem?_append_one _ _ _ _ hie with ⟨hlt, hie2⟩ | ⟨hlt, hie2⟩
    · obtain ⟨h1, h2⟩ := hs.reasons i e1 hie2 hre1
      refine ⟨h1, fun l hl => ?_⟩
      rcases h2 l hl with h3 | h3
      · exact Or.inl h3
      · right
        have hwf := Formula.get_wellFormed hc.wf _ l hl
        rw [hrank _ (Literal.variable_pos hwf.1) hwf.2 h3.1.1]
        exact h3
    · exfalso
      rw [hie2, hre] at hre1
      unfold DecisionTrail.ReasonAssumption at hre1
      omega
  · -- levels
    rw [ht1, List.pairwise_append]
    refine ⟨hs.levels, by simp, ?_⟩
    intro e1 h1 e2 h2
    rw [List.mem_singleton] at h2
    rw [h2, hlv]
    exact le_trans (hs.level_le e1 h1) (Nat.le_succ _)
  · -- level_last
    rw [ht3, ht1]
    simp
  · -- level_reason
    intro e1 h1
    rw [ht1, List.mem_append, List.mem_singleton] at h1
    rcases h1 with h1 | h1
    · exact hs.level_reason e1 h1
    · rw [h1, hlv]; exact Or.inr (by omega)
  · rw [hf]; exact hs.implied
  · rw [hk, hf]; exact hs.track_length

/-- A change of the fields that the invariant does not read keeps the invariant. -/
theorem LoopInv.of_ext {F : Formula} {s t : CdclSolver S} {iter : Nat} (h : LoopInv F s iter)
    (hsh : BaseSolver.SameShared t s)
    (hh : ∀ v ∈ t.ext.evsids.ordered_variables, v ∈ s.ext.evsids.ordered_variables)
    (hb : t.ext.learned_clause = s.ext.learned_clause)
    (hk : t.ext.analysis_track.length = s.ext.analysis_track.length) : LoopInv F t iter := by
  refine ⟨h.inv.of_shared hsh hh (by rw [hb]; exact h.inv.builder_ok), h.sound.of_same hsh hk, ?_⟩
  rw [hsh.formula]
  exact h.shape.of_fields hsh.watchers hsh.assignment hsh.trail (by rw [hb]; exact h.shape.builder)

/-- A step of unit propagation that is justified keeps the invariant. -/
theorem LoopInv.propagate {F : Formula} {s : CdclSolver S} {iter : Nat} (h : LoopInv F s iter)
    (reason : Nat) (literal : Literal)
    (hmem : literal ∈ (s.formula.get reason).clause)
    (hl0 : literal ≠ 0) (hlN : Literal.Variable literal ≤ s.formula.num_of_variables)
    (hu : s.assignment.get (Literal.Variable literal) = .Unassigned)
    (hothers : ∀ l ∈ (s.formula.get reason).clause, l ≠ literal →
      Literal.IsFalse l s.assignment) :
    LoopInv F (BaseSolver.Propagate s (Literal.Assignment literal).1
      (Literal.Assignment literal).2 reason) iter := by
  have hv1 := Literal.variable_pos hl0
  have hx : (Literal.Assignment literal).1 = Literal.Variable literal := rfl
  have hmk : Literal.mk (Literal.Assignment literal).1 (Literal.Assignment literal).2 =
      literal := Literal.mk_assignment literal
  have hna := h.inv.not_applied hu
  have hi4 := h.inv.push
    (s.trail.PropagationFrom (Literal.Assignment literal).1 (Literal.Assignment literal).2 reason)
    _ rfl (by simp [DecisionTrail.PropagationFrom]) hv1 hlN (Or.inr hna)
  have hi5 := hi4.assign (Literal.Assignment literal).1 (Literal.Assignment literal).2 hv1 hlN hna
  have hre : (0 : Int) ≤ (reason : Int) := Int.ofNat_nonneg _
  refine ⟨hi5, ?_, ?_⟩
  · exact h.sound.assign_push h.inv (Literal.Assignment literal).1
      (Literal.Assignment literal).2
      ⟨(Literal.Assignment literal).1, (Literal.Assignment literal).2, (reason : Int),
        s.trail.level⟩ hv1 hlN hu (Literal.assignment_ne_unassigned _) rfl rfl (le_refl _)
      (Or.inl hre)
      (fun _ => by
        show Literal.mk _ _ ∈ (s.formula.get (reason : Int).toNat).clause ∧ _
        rw [Int.toNat_ofNat, hmk]
        refine ⟨hmem, fun l hl => ?_⟩
        by_cases hll : l = literal
        · exact Or.inl hll
        · exact Or.inr (hothers l hl hll))
      rfl rfl rfl rfl rfl rfl rfl rfl
  · exact h.shape.push_assigned h.sound h.inv (fun c hc => hc) (Literal.Assignment literal).1
      (Literal.Assignment literal).2
      ⟨(Literal.Assignment literal).1, (Literal.Assignment literal).2, (reason : Int),
        s.trail.level⟩ hv1 hlN hu rfl (fun _ => rfl)
      (fun hneg => by
        have : ((reason : Int)) < 0 := hneg
        omega)
      (fun hneg => by
        have : ((reason : Int)) < 0 := hneg
        omega)
      rfl rfl rfl rfl rfl

/-- A decision on an unassigned variable, made when no clause is falsified, keeps the
invariant. -/
theorem LoopInv.decide {F : Formula} {s : CdclSolver S} {iter : Nat} (h : LoopInv F s iter)
    (u : Nat) (val : VariableAssignment) (hu1 : 1 ≤ u) (hu2 : u ≤ s.formula.num_of_variables)
    (hun : s.assignment.get u = .Unassigned) (hval : val ≠ .Unassigned)
    (hpass : ∀ c ∈ s.formula.clauses, ∃ l ∈ c.clause, ¬ Literal.IsFalse l s.assignment) :
    LoopInv F (BaseSolver.Assign ({ s with trail := s.trail.Decision u val } : CdclSolver S)
      u val) iter := by
  refine ⟨h.inv.decision u val hu1 hu2 hun, h.sound.decide_on h.inv u val hu1 hu2 hun hval, ?_⟩
  exact h.shape.push_assigned h.sound h.inv (fun c hc => hc) u val
    ⟨u, val, DecisionTrail.ReasonDecision, s.trail.level + 1⟩ hu1 hu2 hun rfl
    (fun h0 => by
      have : (0 : Int) ≤ DecisionTrail.ReasonDecision := h0
      unfold DecisionTrail.ReasonDecision at this
      omega)
    (fun _ => by show s.trail.level < s.trail.level + 1; omega)
    (fun _ => hpass) rfl rfl rfl rfl rfl

end CdclSolver

end pjos

namespace pjos

namespace BaseSolver

variable {X : Type}

/-- More fuel does not change the result of `UnitPropagation`. -/
theorem UnitPropagationLoop_mono [SolverExt X] :
    ∀ (fuel : Nat) (s : BaseSolver X) (x : BaseSolver X × UnitPropagationResult × Nat),
      UnitPropagationLoop fuel s = .ok x →
      ∀ fuel1, fuel ≤ fuel1 → UnitPropagationLoop fuel1 s = .ok x
  | 0, _, _, h, _, _ => by simp [UnitPropagationLoop] at h
  | fuel + 1, s, x, h, fuel1, hle => by
    obtain ⟨k, rfl⟩ : ∃ k, fuel1 = k + 1 := ⟨fuel1 - 1, by omega⟩
    rw [UnitPropagationLoop] at h ⊢
    cases hc : (UnitPropagationFor s.watchers.length 0 s true).conflict with
    | some i =>
      rw [hc] at h
      exact h
    | none =>
      rw [hc] at h
      simp only at h ⊢
      split_ifs at h ⊢ with h1
      all_goals first
        | exact UnitPropagationLoop_mono fuel _ x h k (by omega)
        | exact h

theorem ClauseView_not_all_false {c : ClauseView} {assn : Assignment}
    (h : c.TrueStatus assn ≠ .Unsatisfied) : ∃ l ∈ c.clause, ¬ Literal.IsFalse l assn := by
  unfold ClauseView.TrueStatus at h
  split_ifs at h with h1 h2 h3
  · unfold ClauseView.SatisfiedBy at h1
    rw [List.any_eq_true] at h1
    obtain ⟨l, hl, hev⟩ := h1
    exact ⟨l, hl, fun hf => by rw [hf.2] at hev; cases hev⟩
  · have hpos : 0 < c.clause.countP
        (fun l => decide (assn.get (Literal.Variable l) = .Unassigned)) := by
      unfold ClauseView.numUnassigned at h2
      omega
    obtain ⟨l, hl, hu⟩ := List.countP_pos_iff.mp hpos
    exact ⟨l, hl, fun hf => hf.1 (by simpa using hu)⟩
  · have hpos : 0 < c.clause.countP
        (fun l => decide (assn.get (Literal.Variable l) = .Unassigned)) := by
      unfold ClauseView.numUnassigned at h3
      omega
    obtain ⟨l, hl, hu⟩ := List.countP_pos_iff.mp hpos
    exact ⟨l, hl, fun hf => hf.1 (by simpa using hu)⟩
  · exact absurd rfl h

/-- What `UnitPropagation` did when it returned: a sequence of justified propagation steps. -/
theorem UnitPropagationLoop_steps [SolverExt X] (fuel : Nat) (s s1 : BaseSolver X)
    (r : UnitPropagationResult) (c : Nat) (hc : s.Consistent) (he : s.WatchersExact)
    (hr : UnitPropagationLoop fuel s = .ok (s1, r, c)) :
    ∃ steps : List (Nat × Literal),
      s1 = s.PropagateAll steps ∧ s.UnitJustified steps ∧
      (r = .Sat → ∀ cl ∈ s1.formula.clauses, cl.SatisfiedBy s1.assignment = true) ∧
      (r = .Unsat → c < s1.formula.NumOfClauses ∧
        ∀ l ∈ (s1.formula.get c).clause, Literal.IsFalse l s1.assignment) ∧
      (r = .Pass →
        (∀ cl ∈ s1.formula.clauses, cl.TrueStatus s1.assignment ≠ .Unit) ∧
        ∀ cl ∈ s1.formula.clauses, ∃ l ∈ cl.clause, ¬ Literal.IsFalse l s1.assignment) := by
  obtain ⟨s2, r2, c2, steps, h1, h2, h3, _, _, h6, h7, h8⟩ :=
    UnitPropagationLoop_result (max fuel (s.assignment.numUnassigned + 1)) s hc he
      (by omega)
  have h9 := UnitPropagationLoop_mono fuel s _ hr (max fuel (s.assignment.numUnassigned + 1))
    (le_max_left _ _)
  rw [h1] at h9
  cases h9
  exact ⟨steps, h2, h3, h6, h7, fun hp =>
    ⟨fun cl hcl => ((h8 hp).1 cl hcl).1,
      fun cl hcl => ClauseView_not_all_false ((h8 hp).1 cl hcl).2⟩⟩

end BaseSolver

namespace CdclSolver

variable {S : Type}

theorem LoopInv.exact {F : Formula} {s : CdclSolver S} {iter : Nat} (h : LoopInv F s iter) :
    s.WatchersExact :=
  ⟨DecisionTrail.Rank s.trail.trail, fun w hw =>
    ⟨h.inv.consistent.watchers_ok w hw, h.sound.tight w hw, h.shape.undecided w hw⟩⟩

/-- A sequence of justified propagation steps keeps the invariant. -/
theorem LoopInv.propagateAll {F : Formula} {iter : Nat} :
    ∀ (steps : List (Nat × Literal)) (s : CdclSolver S), LoopInv F s iter →
      BaseSolver.UnitJustified s steps → LoopInv F (BaseSolver.PropagateAll s steps) iter
  | [], _, h, _ => h
  | (reason, literal) :: rest, s, h, hj => by
    obtain ⟨⟨h1, h2, h3, h4⟩, h5⟩ := hj
    have hwf := Formula.get_wellFormed h.inv.consistent.wf _ literal h2
    exact LoopInv.propagateAll rest _ (h.propagate reason literal h2 hwf.1 hwf.2 h3 h4) h5

/-- UnitPropagation keeps the invariant; what its result tells. -/
theorem UnitPropagationLoop_inv (F : Formula) (iter fuel : Nat) (s s1 : CdclSolver S)
    (r : UnitPropagationResult) (c : Nat) (h : LoopInv F s iter)
    (hr : BaseSolver.UnitPropagationLoop fuel s = .ok (s1, r, c)) :
    LoopInv F s1 iter ∧
    s1.formula = s.formula ∧ s1.pending_assignments = s.pending_assignments ∧
    (r = .Sat → ∀ cl ∈ s1.formula.clauses, cl.SatisfiedBy s1.assignment = true) ∧
    (r = .Unsat → c < s1.formula.NumOfClauses ∧
      ∀ l ∈ (s1.formula.get c).clause, Literal.IsFalse l s1.assignment) ∧
    (r = .Pass →
      (∀ cl ∈ s1.formula.clauses, cl.TrueStatus s1.assignment ≠ .Unit) ∧
      ∀ cl ∈ s1.formula.clauses, ∃ l ∈ cl.clause, ¬ Literal.IsFalse l s1.assignment) := by
  obtain ⟨steps, h1, h2, h3, h4, h5⟩ :=
    BaseSolver.UnitPropagationLoop_steps fuel s s1 r c h.inv.consistent h.exact hr
  obtain ⟨_, hf, hp, _⟩ := UnitPropagationLoop_spec iter fuel s s1 r c h.inv hr
  refine ⟨?_, hf, hp, h3, h4, h5⟩
  rw [h1]
  exact LoopInv.propagateAll steps s h h2

/-- A pending assignment that succeeds, made when no clause is falsified, keeps the invariant
and moves the iterator on. -/
theorem LoopInv.pending_applied {F : Formula} {s : CdclSolver S} {iter : Nat} (h : LoopInv F s iter)
    (v : Nat) (a : VariableAssignment) (flag : Bool)
    (hp : s.pending_assignments[iter]? = some (v, a, flag))
    (hpass : ∀ c ∈ s.formula.clauses, ∃ l ∈ c.clause, ¬ Literal.IsFalse l s.assignment)
    (hr : (BaseSolver.PerformPendingAssignment s v a flag).1 = true) :
    LoopInv F (BaseSolver.PerformPendingAssignment s v a flag).2 (iter + 1) := by
  obtain ⟨hi, hf, _⟩ := PerformPendingAssignment_spec iter s v a flag h.inv hp hr
  have hrange := h.inv.pending_range _ (List.getElem?_mem hp)
  have hneg3 : ¬ (0 : Int) ≤ DecisionTrail.ReasonAssumption := by
    unfold DecisionTrail.ReasonAssumption; omega
  have hneg1 : ¬ (0 : Int) ≤ DecisionTrail.ReasonDecision := by
    unfold DecisionTrail.ReasonDecision; omega
  have hboth : Sound F (BaseSolver.PerformPendingAssignment s v a flag).2 ∧
      Shape s.formula.clauses (BaseSolver.PerformPendingAssignment s v a flag).2 := by
    unfold BaseSolver.PerformPendingAssignment at hr ⊢
    simp only at hr ⊢
    split_ifs at hr ⊢ with h1 h2 h3 h4
    · -- an assumption on an unassigned variable
      constructor
      · exact h.sound.assign_push h.inv v a
          ⟨v, a, DecisionTrail.ReasonAssumption, s.trail.level + 1⟩ hrange.1 hrange.2.1 h2
          hrange.2.2 rfl rfl (Nat.le_succ _) (Or.inr (by show 1 ≤ s.trail.level + 1; omega))
          (fun h0 => absurd h0 hneg3) rfl rfl rfl rfl rfl rfl rfl rfl
      · exact h.shape.push_assigned h.sound h.inv (fun c hc => hc) v a
          ⟨v, a, DecisionTrail.ReasonAssumption, s.trail.level + 1⟩ hrange.1 hrange.2.1 h2 rfl
          (fun h0 => absurd h0 hneg3) (fun _ => by show s.trail.level < s.trail.level + 1; omega)
          (fun _ => hpass) rfl rfl rfl rfl rfl
    · -- an assumption that already holds
      constructor
      · exact h.sound.dup_entry h.inv
          ⟨v, a, DecisionTrail.ReasonAssumption, s.trail.level + 1⟩ hrange.1 hrange.2.1 h3
          hrange.2.2 rfl rfl rfl rfl rfl rfl rfl rfl rfl
      · exact h.shape.dup_push h.sound h.inv
          ⟨v, a, DecisionTrail.ReasonAssumption, s.trail.level + 1⟩ hrange.1 hrange.2.1
          (by show DecisionTrail.ReasonAssumption < 0; unfold DecisionTrail.ReasonAssumption; omega)
          (by show s.trail.level < s.trail.level + 1; omega) hpass rfl rfl rfl rfl rfl
    · -- a pure literal
      constructor
      · exact h.sound.assign_push h.inv v a
          ⟨v, a, DecisionTrail.ReasonDecision, s.trail.level + 1⟩ hrange.1 hrange.2.1 h4
          hrange.2.2 rfl rfl (Nat.le_succ _) (Or.inr (by show 1 ≤ s.trail.level + 1; omega))
          (fun h0 => absurd h0 hneg1) rfl rfl rfl rfl rfl rfl rfl rfl
      · exact h.shape.push_assigned h.sound h.inv (fun c hc => hc) v a
          ⟨v, a, DecisionTrail.ReasonDecision, s.trail.level + 1⟩ hrange.1 hrange.2.1 h4 rfl
          (fun h0 => absurd h0 hneg1) (fun _ => by show s.trail.level < s.trail.level + 1; omega)
          (fun _ => hpass) rfl rfl rfl rfl rfl
    · exact ⟨h.sound, h.shape⟩
  exact ⟨hi, hboth.1, by rw [hf]; exact hboth.2⟩

/-- Backjump keeps the shape of the trail: it leaves a prefix of the trail, down to the level,
and pops no assumption. -/
theorem BackjumpLoop_shape (F : Formula) (iter level : Nat) (cs : List Clause) :
    ∀ (n : Nat) (s s1 : CdclSolver S) (b : Bool), Inv s iter → Sound F s → Shape cs s →
      (∀ c ∈ cs, c ∈ s.formula.clauses) →
      BackjumpLoop level n s = .ok (b, s1) →
      Shape cs s1 ∧ s1.trail.level ≤ level ∧
      ∃ rest, s.trail.trail = s1.trail.trail ++ rest ∧
        ∀ e ∈ rest, e.reason ≠ DecisionTrail.ReasonAssumption
  | 0, _, _, _, _, _, _, _, hr => by
    simp [BackjumpLoop] at hr
  | n + 1, s, s1, b, h, hs, hsh, hcs, hr => by
    unfold BackjumpLoop at hr
    split_ifs at hr with h0
    · have htop : s.trail.Top = (s.trail.trail.getLast?, s.trail) := by
        unfold DecisionTrail.Top
        simp only [h.skipStale]
      simp only [htop] at hr
      split at hr
      · rename_i hnone
        exfalso
        have hl := hs.level_last
        rw [hnone] at hl
        simp only [Option.map_none', Option.getD_none] at hl
        have h0a : s.trail.level > level := h0
        omega
      · rename_i e he
        have hsplit : s.trail.trail = s.trail.trail.dropLast ++ [e] :=
          (List.dropLast_append_getLast? e he).symm
        have hpf := h.pop_fields he
        split_ifs at hr with h1 h2
        · have hi2 : Inv ({ s with ext := { s.ext with
              saved_phases := s.ext.saved_phases.set e.var e.assignment } } : CdclSolver S) iter :=
            h.of_shared ⟨rfl, rfl, rfl, rfl, rfl, rfl⟩ (fun v hv => hv) h.builder_ok
          have hrange := h.trail_range e (List.mem_of_mem_getLast? he)
          have hi3 := hi2.assign e.var .Unassigned hrange.1 hrange.2
            (fun j v a hj hp hv =>
              DecisionTrail.Guarded.top_var_ne (h.applied j v a hj hp).2 he h1 hv.symm)
          have hi4 := hi3.pop he h1
          have hs4 : Sound F ({ (BaseSolver.Assign ({ s with ext := { s.ext with
                saved_phases := s.ext.saved_phases.set e.var e.assignment } } : CdclSolver S)
                e.var .Unassigned) with
              trail := (BaseSolver.Assign ({ s with ext := { s.ext with
                saved_phases := s.ext.saved_phases.set e.var e.assignment } } : CdclSolver S)
                e.var .Unassigned).trail.Pop } : CdclSolver S) :=
            hs.unassign_pop h e he h1 rfl rfl rfl rfl rfl rfl
          have hsh4 : Shape cs ({ (BaseSolver.Assign ({ s with ext := { s.ext with
                saved_phases := s.ext.saved_phases.set e.var e.assignment } } : CdclSolver S)
                e.var .Unassigned) with
              trail := (BaseSolver.Assign ({ s with ext := { s.ext with
                saved_phases := s.ext.saved_phases.set e.var e.assignment } } : CdclSolver S)
                e.var .Unassigned).trail.Pop } : CdclSolver S) :=
            hsh.pop_unassigned hs h hcs e he h1 rfl rfl rfl rfl
          obtain ⟨ih1, ih2, rest, ih3, ih4⟩ :=
            BackjumpLoop_shape F iter level cs n _ s1 b hi4 hs4 hsh4 hcs hr
          refine ⟨ih1, ih2, rest ++ [e], ?_, ?_⟩
          · rw [← List.append_assoc, ← ih3]
            exact hsplit.trans (by rw [← hpf.1]; rfl)
          · intro e1 he1
            rw [List.mem_append, List.mem_singleton] at he1
            rcases he1 with he1 | he1
            · exact ih4 e1 he1
            · rw [he1]; exact h1
        · have hrange := h.trail_range e (List.mem_of_mem_getLast? he)
          have hi3 := h.assign e.var .Unassigned hrange.1 hrange.2
            (fun j v a hj hp hv =>
              DecisionTrail.Guarded.top_var_ne (h.applied j v a hj hp).2 he h1 hv.symm)
          have hi4 := hi3.pop he h1
          have hs4 : Sound F ({ (BaseSolver.Assign s e.var .Unassigned) with
              trail := (BaseSolver.Assign s e.var .Unassigned).trail.Pop } : CdclSolver S) :=
            hs.unassign_pop h e he h1 rfl rfl rfl rfl rfl rfl
          have hsh4 : Shape cs ({ (BaseSolver.Assign s e.var .Unassigned) with
              trail := (BaseSolver.Assign s e.var .Unassigned).trail.Pop } : CdclSolver S) :=
            hsh.pop_unassigned hs h hcs e he h1 rfl rfl rfl rfl
          obtain ⟨ih1, ih2, rest, ih3, ih4⟩ :=
            BackjumpLoop_shape F iter level cs n _ s1 b hi4 hs4 hsh4 hcs hr
          refine ⟨ih1, ih2, rest ++ [e], ?_, ?_⟩
          · rw [← List.append_assoc, ← ih3]
            exact hsplit.trans (by rw [← hpf.1]; rfl)
          · intro e1 he1
            rw [List.mem_append, List.mem_singleton] at he1
            rcases he1 with he1 | he1
            · exact ih4 e1 he1
            · rw [he1]; exact h1
    · cases hr
      refine ⟨hsh, ?_, [], by simp, fun e he => by cases he⟩
      have : ¬ s.trail.level > level := h0
      omega

end CdclSolver

end pjos

namespace pjos

namespace BaseSolver

variable {X : Type}

theorem VerifyPendingAssignments_some (s : BaseSolver X) :
    ∀ (l : List (Nat × VariableAssignment × Bool)) (conflict : Literal),
      s.VerifyPendingAssignments l = some conflict →
      ∃ p ∈ l, conflict = Literal.mk p.1 p.2.1 ∧ s.assignment.get p.1 ≠ .Unassigned
  | [], _, h => by simp [VerifyPendingAssignments] at h
  | (var, a, flag) :: rest, conflict, h => by
    unfold VerifyPendingAssignments at h
    simp only at h
    split_ifs at h with h1
    · cases h
      exact ⟨(var, a, flag), List.mem_cons_self _ _, rfl, h1.2.1⟩
    · obtain ⟨p, hp, h2⟩ := VerifyPendingAssignments_some s rest conflict h
      exact ⟨p, List.mem_cons_of_mem _ hp, h2⟩

theorem PerformPendingAssignment_failed [SolverExt X] (s : BaseSolver X) (v : Nat)
    (a : VariableAssignment) (flag : Bool)
    (h : (s.PerformPendingAssignment v a flag).1 = false) :
    (s.PerformPendingAssignment v a flag).2 = s ∧ s.assignment.get v ≠ .Unassigned := by
  unfold PerformPendingAssignment at h ⊢
  simp only at h ⊢
  split_ifs at h ⊢ with h1 h2 h3 h4
  exact ⟨rfl, h2⟩

end BaseSolver

namespace CdclSolver

variable {S : Type}

/-- The entry at which `AnalyzeConflict` stopped is at the level of the trail, its negated
literal is in the learned clause, and the backjump level is below the level of the trail. -/
theorem AnalyzeConflict_uip (P : Platform S) (hP : P.SetOrderOk) (iter : Nat)
    (s s1 : CdclSolver S) (conflict : ClauseView) (learned : Clause) (level : Nat)
    (hc : ∀ l ∈ conflict.clause, l ≠ 0) (h : Inv s iter)
    (hr : AnalyzeConflict P s conflict = .ok (learned, level, s1)) :
    level < s.trail.level ∧
    ∃ (ti : Nat) (e : DecisionTrail.Entry), s.trail.trail[ti]? = some e ∧
      e.level = s.trail.level ∧
      Literal.mk e.var (FlipVariableAssignment e.assignment) ∈ learned.clause := by
  unfold AnalyzeConflict at hr
  split_ifs at hr with h0
  simp only at hr
  split at hr
  · cases hr
  · rename_i a ti hloop
    have hclear : Inv (ClearAnalysisTrack s) iter :=
      h.of_shared ⟨rfl, rfl, rfl, rfl, rfl, rfl⟩ (fun v hv => hv) h.builder_ok
    obtain ⟨hi, hs, hlt⟩ := AnalyzeConflictLoop_spec P iter _ ⟨ClearAnalysisTrack s, 1, 0⟩ a
      conflict.clause _ ti hc hclear hloop
    have hs0 : BaseSolver.SameShared a.solver s :=
      hs.trans ⟨rfl, rfl, rfl, rfl, rfl, rfl⟩
    split at hr
    · cases hr
    · rename_i evsids hev
      split_ifs at hr with h1 h2 h3 h4
      all_goals
        cases hr
        have htl : a.solver.trail.Level = s.trail.level := by rw [hs0.trail]; rfl
        refine ⟨?_, ti, a.solver.trail.get ti, ?_, ?_, ?_⟩
        · rw [← htl]; assumption
        · rw [← hs0.trail]
          unfold DecisionTrail.get
          rw [List.getD_eq_getElem?_getD, List.getElem?_eq_getElem hlt]
          rfl
        · rw [← htl]
          by_contra hne
          exact h2 hne
        · simp only [ClauseBuilder.Make]
          exact (hP _).symm.subset (ClauseBuilder.mem_Add_self _ _)

/-- After a backjump that popped the entry `e` and no assumption, the variable of `e` is
unassigned. -/
theorem Sound.popped_unassigned {F : Formula} {s s1 : CdclSolver S} (hs : Sound F s)
    (hs1 : Sound F s1) (rest : List DecisionTrail.Entry)
    (ht : s.trail.trail = s1.trail.trail ++ rest)
    (hrest : ∀ e ∈ rest, e.reason ≠ DecisionTrail.ReasonAssumption)
    (ti : Nat) (e : DecisionTrail.Entry) (he : s.trail.trail[ti]? = some e)
    (hlv : s1.trail.level < e.level)
    (hv1 : 1 ≤ e.var) (hv2 : e.var ≤ s1.formula.num_of_variables) :
    s1.assignment.get e.var = .Unassigned := by
  by_contra hne
  obtain ⟨e1, he1, hvar⟩ := hs1.assigned_on_trail e.var hv1 hv2 hne
  obtain ⟨i, hi⟩ := List.mem_iff_getElem?.mp he1
  have hilt : i < s1.trail.trail.length := (List.getElem?_eq_some_iff.mp hi).1
  have hlv1 := hs1.level_le e1 he1
  have hi2 : s.trail.trail[i]? = some e1 := by
    rw [ht, List.getElem?_append_left hilt]; exact hi
  by_cases hti : ti < s1.trail.trail.length
  · rw [ht, List.getElem?_append_left hti] at he
    have := hs1.level_le e (List.getElem?_mem he)
    omega
  · rw [ht, List.getElem?_append_right (by omega)] at he
    have hra := hrest e (List.getElem?_mem he)
    have he2 : s.trail.trail[ti]? = some e := by
      rw [ht, List.getElem?_append_right (by omega)]; exact he
    exact hra (hs.dups i ti e1 e (by omega) hi2 he2 hvar)

theorem NoEarlyConflict.add_clause {cs : List Clause} {s : CdclSolver S}
    (h : NoEarlyConflict cs s) (c : Clause)
    (hc : ∃ l ∈ c.clause, ¬ Literal.IsFalse l s.assignment) :
    NoEarlyConflict (cs ++ [c]) s := by
  intro p e he hr c1 hc1
  rw [List.mem_append, List.mem_singleton] at hc1
  rcases hc1 with hc1 | hc1
  · exact h p e he hr c1 hc1
  · obtain ⟨l, hl, hnot⟩ := hc
    rw [hc1]
    exact ⟨l, hl, fun hboth => hnot hboth.1⟩

theorem FinishEvents_ready (F : Formula) (s : CdclSolver S) (afc : Bool)
    (conflict : List Literal) (ac : Bool) (h : Event.Ready F (.final s conflict ac)) :
    ∀ ev ∈ FinishEvents s afc conflict ac, Event.Ready F ev := by
  intro ev hev
  unfold FinishEvents at hev
  split_ifs at hev
  · rw [List.mem_singleton] at hev
    rw [hev]; exact h
  · cases hev

end CdclSolver

end pjos

namespace pjos

namespace CdclSolver

variable {S : Type}

/-- Every call that the main loop of `SolveImpl` makes finds the solver in a state that is
ready for the call. -/
theorem LoopEvents_ready (P : Platform S) (hP : P.SetOrderOk) (F : Formula) (afc : Bool) :
    ∀ (fuel : Nat) (s : CdclSolver S) (iter na : Nat), LoopInv F s iter →
      ∀ ev ∈ LoopEvents P afc fuel s iter na, Event.Ready F ev
  | 0, _, _, _, _, ev, hev => by
    simp [LoopEvents] at hev
  | fuel + 1, s, iter, na, h, ev, hev => by
    unfold LoopEvents at hev
    simp only at hev
    have hpoll := BaseSolver.PollInterrupt_spec s
    have h0 : LoopInv F s.PollInterrupt.2 iter :=
      h.of_ext hpoll.1 (by rw [hpoll.2]; exact fun v hv => hv) (by rw [hpoll.2])
        (by rw [hpoll.2])
    split at hev
    · cases hev
    · rw [List.mem_cons] at hev
      rcases hev with hev | hev
      · rw [hev]
        exact ⟨iter, h0⟩
      · split at hev
        · cases hev
        · rename_i s2 bcp cc hup
          obtain ⟨h2, hf2, hp2, hsat, hunsat, hpass⟩ :=
            UnitPropagationLoop_inv F iter _ _ s2 bcp cc h0 hup
          split at hev
          · -- the formula is satisfied
            split at hev
            · cases hev
            · rename_i conflict hver
              obtain ⟨p, hp, hpc, hpa⟩ := BaseSolver.VerifyPendingAssignments_some s2 _ _ hver
              have hrange := h2.inv.pending_range p (List.mem_of_mem_drop hp)
              refine FinishEvents_ready F s2 afc _ _
                ⟨⟨iter, h2.inv⟩, h2.sound, h2.shape.found, ?_⟩ ev hev
              intro l hl
              rw [List.mem_singleton] at hl
              rw [hl, hpc, Literal.variable_mk]
              exact ⟨Literal.mk_ne_zero _ hrange.1, hrange.2.1, hpa⟩
          · split at hev
            · -- a conflict
              rename_i hbcp
              obtain ⟨hcc, hcf⟩ := hunsat hbcp
              have hwf := Formula.get_wellFormed h2.inv.consistent.wf cc
              split at hev
              · refine FinishEvents_ready F s2 afc _ _
                  ⟨⟨iter, h2.inv⟩, h2.sound, h2.shape.found, ?_⟩ ev hev
                intro l hl
                exact ⟨(hwf l hl).1, (hwf l hl).2, (hcf l hl).1⟩
              · rename_i hlev
                rw [List.mem_cons] at hev
                rcases hev with hev | hev
                · rw [hev]
                  refine ⟨⟨iter, h2⟩, ?_, hcc, hcf⟩
                  have : ¬ s2.trail.level = 0 := hlev
                  omega
                · split at hev
                  · cases hev
                  · rename_i learned bl s3 han
                    have hcm : s2.formula.get cc ∈ s2.formula.clauses :=
                      BaseSolver.Formula_get_mem _ _ hcc
                    obtain ⟨hi3, hsh3, hlearned⟩ := AnalyzeConflict_spec P hP iter s2 s3 _
                      learned bl (fun l hl => (hwf l hl).1) h2.inv han
                    obtain ⟨hs3, hb3, hlf, hlimp⟩ := AnalyzeConflict_sound P hP F iter s2 s3 _
                      learned bl h2.sound h2.inv h2.shape.builder hcf hcm han
                    obtain ⟨hbl, ti, eu, heu, heul, heum⟩ := AnalyzeConflict_uip P hP iter s2 s3
                      _ learned bl (fun l hl => (hwf l hl).1) h2.inv han
                    have hshape3 : Shape s2.formula.clauses s3 :=
                      h2.shape.of_fields hsh3.watchers hsh3.assignment hsh3.trail hb3
                    obtain ⟨hi4, hf4, hp4⟩ := AppendClause_spec P iter s3 learned hi3 hlearned
                    have hs4 : Sound F (AppendClause P s3 learned) :=
                      hs3.append_clause P hi3 learned (by rw [hsh3.assignment]; exact hlf)
                        (by rw [hsh3.formula]; exact hlimp)
                    have hshape4 : Shape s2.formula.clauses (AppendClause P s3 learned) :=
                      hshape3.clause_appended P hi3 learned
                    obtain ⟨hf4a, _, hα4, ht4, _, _⟩ :=
                      AppendClause_fields P s3 learned hi3.consistent
                    have hN : s3.formula.num_of_variables ≤
                        (s3.formula.AppendClause learned).num_of_variables := by
                      simp [Formula.AppendClause]
                    have hget4 : (AppendClause P s3 learned).formula.get cc =
                        s2.formula.get cc := by
                      rw [hf4a, BaseSolver.Formula_get_append_left _ _ _
                        (by rw [hsh3.formula]; exact hcc), hsh3.formula]
                    have hassn4 : ∀ v, (AppendClause P s3 learned).assignment.get v =
                        s2.assignment.get v := by
                      intro v
                      rw [hα4, Assignment.SetNumOfVariables_get _ _ _
                        (by rw [hi3.consistent.assignment_length]; exact hN), hsh3.assignment]
                    have hfin : ∀ s5 : CdclSolver S, Event.Ready F
                        (.final (AppendClause P s3 learned)
                          ((AppendClause P s3 learned).formula.get cc).clause false) := by
                      intro _
                      refine ⟨⟨iter, hi4⟩, hs4, hshape4.found, ?_⟩
                      intro l hl
                      rw [hget4] at hl
                      refine ⟨(hwf l hl).1, ?_, ?_⟩
                      · rw [hf4a]
                        exact le_trans (by rw [hsh3.formula]; exact (hwf l hl).2) hN
                      · rw [hassn4]; exact (hcf l hl).1
                    split at hev
                    · exact FinishEvents_ready F _ afc _ _ (hfin s2) ev hev
                    · split at hev
                      · cases hev
                      · rename_i s5 hbj
                        have := (BackjumpLoop_sound F iter bl _ _ s5 false hi4 hs4 hbj).2.1
                        cases this
                      · rename_i s5 hbj
                        obtain ⟨hi5, hf5, hp5⟩ := BackjumpLoop_spec iter bl _ _ s5 true hi4 hbj
                        obtain ⟨hs5, _, hb5⟩ :=
                          BackjumpLoop_sound F iter bl _ _ s5 true hi4 hs4 hbj
                        obtain ⟨hshape5, hlv5, rest, hrest1, hrest2⟩ :=
                          BackjumpLoop_shape F iter bl s2.formula.clauses _ _ s5 true hi4 hs4
                            hshape4
                            (fun c hc => by rw [hf4, hsh3.formula]; exact List.mem_append_left _ hc)
                            hbj
                        have heu4 : (AppendClause P s3 learned).trail.trail[ti]? = some eu := by
                          rw [ht4, DecisionTrail.SetNumOfVariables_entries, hsh3.trail]
                          exact heu
                        have heur := h2.inv.trail_range eu (List.getElem?_mem heu)
                        have hun : s5.assignment.get eu.var = .Unassigned :=
                          hs4.popped_unassigned hs5 rest hrest1 hrest2 ti eu heu4
                            (by omega) heur.1
                            (by
                              rw [hf5, hf4a]
                              exact le_trans (by rw [hsh3.formula]; exact heur.2) hN)
                        have hclauses : s5.formula.clauses = s2.formula.clauses ++ [learned] := by
                          rw [hf5, hf4, hsh3.formula]
                        have hshape6 : Shape s5.formula.clauses s5 := by
                          refine ⟨hshape5.undecided, hshape5.found, hshape5.starts, ?_,
                            hshape5.builder⟩
                          rw [hclauses]
                          refine hshape5.early.add_clause learned ⟨_, heum, ?_⟩
                          intro hfalse
                          apply hfalse.1
                          rw [Literal.variable_mk]
                          exact hun
                        have h5 : LoopInv F s5 iter := ⟨hi5, hs5, hshape6⟩
                        have h6 : LoopInv F ({ s5 with ext := { s5.ext with
                            evsids := s5.ext.evsids.NextIteration P } } : CdclSolver S) iter :=
                          h5.of_ext ⟨rfl, rfl, rfl, rfl, rfl, rfl⟩ (fun v hv => hv) rfl rfl
                        exact LoopEvents_ready P hP F afc fuel _ iter na h6 ev hev
            · -- no conflict, the formula is not satisfied yet
              rename_i hnsat hnunsat
              have hbcp : bcp = .Pass := by
                cases bcp
                · exact absurd rfl hnsat
                · exact absurd rfl hnunsat
                · rfl
              have hnf := (hpass hbcp).2
              split at hev
              · -- a decision
                rename_i hiter
                have hpop := EVSIDSHeuristics.PopVariable_spec P s2.ext.evsids s2.assignment
                have h3 : LoopInv F ({ s2 with ext := { s2.ext with
                    evsids := (s2.ext.evsids.PopVariable P s2.assignment).2 } } : CdclSolver S)
                    iter :=
                  h2.of_ext ⟨rfl, rfl, rfl, rfl, rfl, rfl⟩ hpop.2 rfl rfl
                have hvar : ¬ (s2.ext.evsids.PopVariable P s2.assignment).1 = 0 →
                    1 ≤ (s2.ext.evsids.PopVariable P s2.assignment).1 ∧
                    (s2.ext.evsids.PopVariable P s2.assignment).1 ≤
                      s2.formula.num_of_variables := by
                  intro hv0
                  rcases hpop.1 with h1 | h1
                  · exact absurd h1 hv0
                  · exact h2.inv.heap_range _ h1
                split_ifs at hev with hv0 hvu hph
                · cases hev
                · cases hev
                · exact LoopEvents_ready P hP F afc fuel _ iter na
                    (h3.decide _ _ (hvar hv0).1 (hvar hv0).2 (by_contra (fun hne => hvu hne))
                      hph.2 hnf) ev hev
                · exact LoopEvents_ready P hP F afc fuel _ iter na
                    (h3.decide _ _ (hvar hv0).1 (hvar hv0).2 (by_contra (fun hne => hvu hne))
                      (by simp) hnf) ev hev
              · -- a pending assignment
                rename_i hiter
                have hlt : iter < s2.pending_assignments.length :=
                  lt_of_le_of_ne h2.inv.iter_le hiter
                have hget : s2.pending_assignments[iter]? =
                    some (s2.pending_assignments.getD iter (0, .Unassigned, false)) := by
                  rw [List.getD_eq_getElem?_getD, List.getElem?_eq_getElem hlt]; rfl
                have hrange := h2.inv.pending_range _ (List.getElem?_mem hget)
                split at hev
                · rename_i hperf
                  have hfail : (BaseSolver.PerformPendingAssignment s2
                      (s2.pending_assignments.getD iter (0, .Unassigned, false)).1
                      (s2.pending_assignments.getD iter (0, .Unassigned, false)).2.1
                      (s2.pending_assignments.getD iter (0, .Unassigned, false)).2.2).1 =
                        false := by
                    simpa using hperf
                  obtain ⟨hsame, hassigned⟩ :=
                    BaseSolver.PerformPendingAssignment_failed _ _ _ _ hfail
                  refine FinishEvents_ready F _ afc _ _ ⟨⟨iter, ?_⟩, ?_, ?_, ?_⟩ ev hev
                  · rw [hsame]; exact h2.inv
                  · rw [hsame]; exact h2.sound
                  · rw [hsame]; exact h2.shape.found
                  · intro l hl
                    rw [List.mem_singleton] at hl
                    rw [hl, Literal.variable_mk, hsame]
                    exact ⟨Literal.mk_ne_zero _ hrange.1, hrange.2.1, hassigned⟩
                · rename_i hperf
                  have hok : (BaseSolver.PerformPendingAssignment s2
                      (s2.pending_assignments.getD iter (0, .Unassigned, false)).1
                      (s2.pending_assignments.getD iter (0, .Unassigned, false)).2.1
                      (s2.pending_assignments.getD iter (0, .Unassigned, false)).2.2).1 =
                        true := by
                    simpa using hperf
                  exact LoopEvents_ready P hP F afc fuel _ (iter + 1) _
                    (h2.pending_applied _ _ _ hget hnf hok) ev hev

end CdclSolver

end pjos

namespace pjos

namespace CdclSolver

variable {S : Type}

theorem Sound.of_pending {F : Formula} {s : CdclSolver S} (hs : Sound F s)
    (p : List (Nat × VariableAssignment × Bool)) :
    Sound F ({ s with pending_assignments := p } : CdclSolver S) :=
  ⟨hs.tight, hs.trail_assignment, hs.assigned_on_trail, hs.dups, hs.index, hs.reasons,
    hs.levels, hs.level_last, hs.level_reason, hs.implied, hs.track_length⟩

/-- The state in which the main loop of `SolveImpl` is entered satisfies the invariant of the
loop, when `SolveImpl` is called on a state without assignments, with the assumptions saved as
the pending assignments. -/
theorem LoopInv.impl_start (F : Formula) (s : CdclSolver S) (assumptions : List Literal)
    (hc : s.Consistent) (ht : s.trail = DecisionTrail.new s.formula.num_of_variables)
    (hh : ∀ v ∈ s.ext.evsids.ordered_variables, 1 ≤ v ∧ v ≤ s.formula.num_of_variables)
    (hb : s.ext.learned_clause.literals = [])
    (hp : s.pending_assignments = assumptions.map (fun literal =>
      ((Literal.Assignment literal).1, (Literal.Assignment literal).2, true)))
    (hA : ∀ l ∈ assumptions, l ≠ 0 ∧ Literal.Variable l ≤ s.formula.num_of_variables)
    (hs : Sound F s) (hu : ∀ w ∈ s.watchers, w.UndecidedOk) :
    LoopInv F (if s.ext.parameters.pure_literal_elimination = true then
      ({ s with pending_assignments := s.pending_assignments ++ s.ScanPureLiterals } :
        CdclSolver S) else s) 0 := by
  have hpr : ∀ p ∈ s.pending_assignments,
      1 ≤ p.1 ∧ p.1 ≤ s.formula.num_of_variables ∧ p.2.1 ≠ .Unassigned := by
    intro p hp1
    rw [hp, List.mem_map] at hp1
    obtain ⟨l, hl, hlp⟩ := hp1
    subst hlp
    exact ⟨Literal.variable_pos (hA l hl).1, (hA l hl).2, Literal.assignment_ne_unassigned l⟩
  have hinv : Inv s 0 := by
    refine ⟨hc, ?_, ?_, hh, hpr, ?_, Nat.zero_le _, ?_⟩
    · rw [ht]; intro e he; simp [DecisionTrail.new] at he
    · rw [ht]; simp [DecisionTrail.new]
    · rw [hb]; intro l hl; cases hl
    · intro j v a hj; omega
  have hshape : Shape s.formula.clauses s := by
    refine ⟨hu, ?_, ?_, ?_, hb⟩
    · rw [ht]; intro i e he; simp [DecisionTrail.new] at he
    · rw [ht]; intro i e he; simp [DecisionTrail.new] at he
    · intro i e he
      rw [ht] at he
      simp [DecisionTrail.new] at he
  split_ifs
  · refine ⟨⟨hc.of_eq rfl rfl rfl rfl, hinv.trail_range, hinv.trail_index_length, hh, ?_,
      hinv.builder_ok, Nat.zero_le _, ?_⟩, hs.of_pending _,
      hshape.of_fields rfl rfl rfl hshape.builder⟩
    · intro p hp1
      have hp2 : p ∈ s.pending_assignments ++ s.ScanPureLiterals := hp1
      rw [List.mem_append] at hp2
      rcases hp2 with hp2 | hp2
      · exact hpr p hp2
      · have := BaseSolver.ScanPureLiteralsFrom_mem s _ _ p hp2
        simp only [Formula.NumOfVariables] at this
        refine ⟨this.1, ?_, this.2.2.1⟩
        show p.1 ≤ s.formula.num_of_variables
        omega
    · intro j v a hj; omega
  · exact ⟨hinv, hs, hshape⟩

/-- The calls made by `SolveImpl` on a state without assignments, with the assumptions saved
as the pending assignments. -/
theorem ImplEvents_ready (P : Platform S) (hP : P.SetOrderOk) (F : Formula) (fuel : Nat)
    (afc : Bool) (s : CdclSolver S) (assumptions : List Literal)
    (hc : s.Consistent) (ht : s.trail = DecisionTrail.new s.formula.num_of_variables)
    (hh : ∀ v ∈ s.ext.evsids.ordered_variables, 1 ≤ v ∧ v ≤ s.formula.num_of_variables)
    (hb : s.ext.learned_clause.literals = [])
    (hp : s.pending_assignments = assumptions.map (fun literal =>
      ((Literal.Assignment literal).1, (Literal.Assignment literal).2, true)))
    (hA : ∀ l ∈ assumptions, l ≠ 0 ∧ Literal.Variable l ≤ s.formula.num_of_variables)
    (hs : Sound F s) (hu : ∀ w ∈ s.watchers, w.UndecidedOk) :
    ∀ ev ∈ ImplEvents P fuel afc s, Event.Ready F ev := by
  intro ev hev
  unfold ImplEvents at hev
  simp only at hev
  exact LoopEvents_ready P hP F afc fuel _ 0 0
    (LoopInv.impl_start F s assumptions hc ht hh hb hp hA hs hu) ev hev

end CdclSolver

end pjos

namespace pjos

/-- Well-formedness of a formula given by a list of clauses, decided clause by clause. -/
theorem Formula.wellFormed_of_all (f : Formula)
    (h : f.clauses.all (fun c => c.clause.all (fun l =>
      decide (l ≠ 0) && decide (Literal.Variable l ≤ f.num_of_variables))) = true) :
    f.WellFormed := by
  intro c hc l hl
  rw [List.all_eq_true] at h
  have h1 := h c hc
  rw [List.all_eq_true] at h1
  have h2 := h1 l hl
  rw [Bool.and_eq_true, decide_eq_true_eq, decide_eq_true_eq] at h2
  exact h2

end pjos

namespace pjos

namespace DecisionTrail

/-- The entry that `Find` returns, read off the index. -/
theorem Find_of_index (t : DecisionTrail) (v j : Nat) (e : Entry) (hv : 1 ≤ v)
    (hi : t.var_index[v - 1]? = some (some j)) (he : t.trail[j]? = some e) :
    t.Find v = some e := by
  have hlt : v - 1 < t.var_index.length := (List.getElem?_eq_some_iff.mp hi).1
  unfold Find
  rw [if_neg (by omega)]
  rw [List.getD_eq_getElem?_getD, hi]
  simp only [Option.getD_some]
  unfold DecisionTrail.get
  rw [List.getD_eq_getElem?_getD, he]
  rfl

theorem LevelOf_of_index (t : DecisionTrail) (v j : Nat) (e : Entry) (hv : 1 ≤ v)
    (hi : t.var_index[v - 1]? = some (some j)) (he : t.trail[j]? = some e) :
    t.LevelOf v = e.level := by
  unfold LevelOf
  rw [Find_of_index t v j e hv hi he]
  rfl

end DecisionTrail

namespace EVSIDSHeuristics

variable {S : Type}

/-- The asserts of `VariableActive` hold on a platform on which no score fails them, as the
platform with these two asserts taken out. -/
theorem VariableActive_ok (P : Platform S)
    (hS : ∀ x : S, EVSIDSHeuristics.ScoreOk P x = true) (h : EVSIDSHeuristics S)
    (var : Nat) : ∃ h1, h.VariableActive P var = .ok h1 := by
  unfold VariableActive
  simp only
  rw [if_neg (by rw [hS]; simp)]
  split_ifs with h1 h2
  · exact ⟨_, rfl⟩
  · exfalso
    apply h2
    rw [List.all_eq_true]
    intro x _
    exact hS x
  · exact ⟨_, rfl⟩

end EVSIDSHeuristics

namespace CdclSolver

variable {S : Type}

/-- The backward scan of the trail succeeds when an entry at or below the index is marked
`Pending`, and it stops at the topmost such entry. -/
theorem FindPending_total (s : CdclSolver S) :
    ∀ (k : Nat), k < s.trail.Length →
      (∃ j, j ≤ k ∧ AnalysisTrackOf s (s.trail.get j).var = .Pending) →
      ∃ j, FindPending s k = .ok j ∧ j ≤ k ∧
        AnalysisTrackOf s (s.trail.get j).var = .Pending ∧
        ∀ i, j < i → i ≤ k → AnalysisTrackOf s (s.trail.get i).var ≠ .Pending
  | 0, hk, ⟨j, hj, hp⟩ => by
    have hj0 : j = 0 := by omega
    subst hj0
    refine ⟨0, ?_, le_refl _, hp, fun i h1 h2 => by omega⟩
    unfold FindPending
    rw [if_pos ⟨hk, hp⟩]
  | k + 1, hk, ⟨j, hj, hp⟩ => by
    unfold FindPending
    rw [if_pos hk]
    by_cases hpk : AnalysisTrackOf s (s.trail.get (k + 1)).var = .Pending
    · rw [if_neg (by simpa using hpk)]
      exact ⟨k + 1, rfl, le_refl _, hpk, fun i h1 h2 => by omega⟩
    · rw [if_pos hpk]
      have hjk : j ≤ k := by
        by_contra hne
        have : j = k + 1 := by omega
        subst this
        exact hpk hp
      obtain ⟨j1, h1, h2, h3, h4⟩ := FindPending_total s k (by omega) ⟨j, hjk, hp⟩
      refine ⟨j1, h1, by omega, h3, fun i hi1 hi2 => ?_⟩
      by_cases hik : i = k + 1
      · rw [hik]; exact hpk
      · exact h4 i hi1 (by omega)

/-- The levels do not decrease along the trail. -/
theorem Sound.level_mono {F : Formula} {s : CdclSolver S} (hs : Sound F s) {i j : Nat}
    {ei ej : DecisionTrail.Entry} (hij : i ≤ j) (hi : s.trail.trail[i]? = some ei)
    (hj : s.trail.trail[j]? = some ej) : ei.level ≤ ej.level := by
  by_cases heq : i = j
  · subst heq
    rw [hi] at hj
    cases hj
    exact le_refl _
  · have hilt : i < s.trail.trail.length := (List.getElem?_eq_some_iff.mp hi).1
    have hjlt : j < s.trail.trail.length := (List.getElem?_eq_some_iff.mp hj).1
    have h1 := (List.pairwise_iff_getElem.mp hs.levels) i j hilt hjlt (by omega)
    rw [(List.getElem?_eq_some_iff.mp hi).2, (List.getElem?_eq_some_iff.mp hj).2] at h1
    exact h1

/-- Below an entry that starts a level all entries are at lower levels. -/
theorem Sound.below_start {F : Formula} {s : CdclSolver S} (hs : Sound F s)
    (hst : s.trail.Starts) {i q : Nat} {ei eq : DecisionTrail.Entry} (hiq : i < q)
    (hi : s.trail.trail[i]? = some ei) (hq : s.trail.trail[q]? = some eq)
    (hr : eq.reason < 0) : ei.level < eq.level := by
  obtain ⟨k, rfl⟩ : ∃ k, q = k + 1 := ⟨q - 1, by omega⟩
  have h1 := (hst (k + 1) eq hq).2 hr
  have hklt : k < s.trail.trail.length := by
    have := (List.getElem?_eq_some_iff.mp hq).1
    omega
  have hk : s.trail.trail[k]? = some s.trail.trail[k] := List.getElem?_eq_getElem hklt
  have h2 : DecisionTrail.levelBelow s.trail.trail (k + 1) = (s.trail.trail[k]).level := by
    show ((s.trail.trail[k]?).map (fun e => e.level)).getD 0 = _
    rw [hk]; rfl
  have h3 := hs.level_mono (Nat.lt_succ_iff.mp hiq) hi hk
  omega

/-- Above level zero the trail holds an entry that starts its topmost level: it is no
propagation from a clause, and every entry below it is at a lower level. -/
theorem Sound.top_start {F : Formula} {s : CdclSolver S} (hs : Sound F s)
    (hst : s.trail.Starts) (h0 : 0 < s.trail.level) :
    ∃ (p : Nat) (e : DecisionTrail.Entry), s.trail.trail[p]? = some e ∧ e.reason < 0 ∧
      e.level = s.trail.level := by
  classical
  have hex : ∃ p : Nat, ∃ e : DecisionTrail.Entry, s.trail.trail[p]? = some e ∧
      e.level = s.trail.level := by
    have hl := hs.level_last
    cases hlast : s.trail.trail.getLast? with
    | none =>
      rw [hlast] at hl
      simp only [Option.map_none', Option.getD_none] at hl
      omega
    | some e =>
      rw [hlast] at hl
      simp only [Option.map_some', Option.getD_some] at hl
      rw [List.getLast?_eq_getElem?] at hlast
      exact ⟨_, e, hlast, hl.symm⟩
  obtain ⟨e, he, hlv⟩ := Nat.find_spec hex
  refine ⟨Nat.find hex, e, he, ?_, hlv⟩
  by_contra hr
  have h1 := (hst _ e he).1 (by omega)
  cases hp : Nat.find hex with
  | zero =>
    rw [hp] at h1
    have : DecisionTrail.levelBelow s.trail.trail 0 = 0 := rfl
    omega
  | succ k =>
    rw [hp] at h1 he
    have hklt : k < s.trail.trail.length := by
      have := (List.getElem?_eq_some_iff.mp he).1
      omega
    have hk : s.trail.trail[k]? = some s.trail.trail[k] := List.getElem?_eq_getElem hklt
    have h2 : DecisionTrail.levelBelow s.trail.trail (k + 1) = (s.trail.trail[k]).level := by
      show ((s.trail.trail[k]?).map (fun e => e.level)).getD 0 = _
      rw [hk]; rfl
    have hmin := Nat.find_min hex (m := k) (by omega)
    exact hmin ⟨_, hk, by omega⟩

end CdclSolver

end pjos

namespace pjos

namespace CdclSolver

variable {S : Type}

/-- The entry that `Find` returns for an assigned variable of the formula. -/
theorem LoopInv.last_entry {F : Formula} {s : CdclSolver S} {iter : Nat} (h : LoopInv F s iter)
    {v : Nat} (hv1 : 1 ≤ v) (hv2 : v ≤ s.formula.num_of_variables)
    (ha : s.assignment.get v ≠ .Unassigned) :
    ∃ (j : Nat) (e : DecisionTrail.Entry), s.trail.var_index[v - 1]? = some (some j) ∧
      s.trail.trail[j]? = some e ∧ e.var = v ∧ s.trail.Find v = some e := by
  obtain ⟨e0, he0m, he0v⟩ := h.sound.assigned_on_trail v hv1 hv2 ha
  obtain ⟨i, hi⟩ := List.mem_iff_getElem?.mp he0m
  obtain ⟨j, _, hj⟩ := h.shape.found i e0 hi
  rw [he0v] at hj
  obtain ⟨e, he, hev⟩ := h.sound.index _ _ hj
  exact ⟨j, e, hj, he, by omega, DecisionTrail.Find_of_index _ _ _ _ hv1 hj he⟩

/-- The loop of `AnalyzeConflict` over the literals of a clause returns and keeps the invariant
of the analysis, when every literal of the clause is on a variable that is marked already or
assigned with its entry at or below the position of the scan. -/
theorem AnalyzeClause_total (P : Platform S)
    (hS : ∀ x : S, EVSIDSHeuristics.ScoreOk P x = true) (F : Formula) (iter : Nat)
    (s : CdclSolver S) (h : LoopInv F s iter) (ti : Nat) :
    ∀ (lits : List Literal) (a : ConflictAnalysis S), Marks s a ti →
      (∀ l ∈ lits, l ≠ 0 ∧ Literal.Variable l ≤ s.formula.num_of_variables ∧
        (AnalysisTrackOf a.solver (Literal.Variable l) ≠ .Untracked ∨
          Below s ti (Literal.Variable l))) →
      ∃ a1, AnalyzeClause P lits a = .ok a1 ∧ Marks s a1 ti ∧
        (∀ v, AnalysisTrackOf a1.solver v = .Processed ↔
          AnalysisTrackOf a.solver v = .Processed) ∧
        (∀ v, AnalysisTrackOf a.solver v ≠ .Untracked →
          AnalysisTrackOf a1.solver v ≠ .Untracked) ∧
        a.solver.ext.analysis_track.count .Pending ≤
          a1.solver.ext.analysis_track.count .Pending ∧
        ((∃ l ∈ lits, AnalysisTrackOf a.solver (Literal.Variable l) = .Untracked ∧
            s.trail.level ≤ s.trail.LevelOf (Literal.Variable l)) →
          1 ≤ a1.solver.ext.analysis_track.count .Pending)
  | [], a, hm, _ => by
    refine ⟨a, rfl, hm, fun _ => Iff.rfl, fun _ hv => hv, le_refl _, ?_⟩
    rintro ⟨l, hl, _⟩
    cases hl
  | literal :: rest, a, hm, hl => by
    obtain ⟨hl0, hlN, hlt⟩ := hl literal (List.mem_cons_self _ _)
    have hrest := fun l hm1 => hl l (List.mem_cons_of_mem literal hm1)
    have hv1 := Literal.variable_pos hl0
    unfold AnalyzeClause
    simp only
    by_cases h1 : AnalysisTrackOf a.solver (Literal.Variable literal) ≠ .Untracked
    · rw [if_pos h1]
      obtain ⟨a1, hr, hm1, hp1, ht1, hc1, hg1⟩ := AnalyzeClause_total P hS F iter s h ti rest a hm
        hrest
      refine ⟨a1, hr, hm1, hp1, ht1, hc1, ?_⟩
      rintro ⟨l, hlm, hlu, hll⟩
      rw [List.mem_cons] at hlm
      rcases hlm with hlm | hlm
      · rw [hlm] at hlu
        exact absurd hlu h1
      · exact hg1 ⟨l, hlm, hlu, hll⟩
    · rw [if_neg h1]
      have hun : AnalysisTrackOf a.solver (Literal.Variable literal) = .Untracked := by
        by_contra hne
        exact h1 hne
      have hbelow : Below s ti (Literal.Variable literal) := by
        rcases hlt with hlt | hlt
        · exact absurd hlt h1
        · exact hlt
      obtain ⟨j, e, hj, he, hev, hfind⟩ := h.last_entry hv1 hlN hbelow.1
      have hfind2 : a.solver.trail.Find (Literal.Variable literal) = some e := by
        rw [hm.shared.trail]; exact hfind
      have hlevel : a.solver.trail.Level = s.trail.level := by
        rw [hm.shared.trail]; rfl
      have hidx : a.solver.ext.analysis_track[Literal.Variable literal - 1]? =
          some .Untracked :=
        AnalysisTrackOf_untracked_index hun (by rw [hm.track_length]; omega)
      rw [hfind2]
      simp only
      by_cases hlv : e.level ≥ a.solver.trail.Level
      · -- the variable is marked `Pending`
        rw [if_pos hlv]
        obtain ⟨ev, hev2⟩ := EVSIDSHeuristics.VariableActive_ok P hS
          (SetAnalysisTrackOf a.solver (Literal.Variable literal) .Pending).ext.evsids
          (Literal.Variable literal)
        have hev3 : EVSIDSHeuristics.VariableActive P
            ({ a with
              solver := SetAnalysisTrackOf a.solver (Literal.Variable literal) .Pending,
              number_of_paths := a.number_of_paths + 1 } : ConflictAnalysis S).solver.ext.evsids
            (Literal.Variable literal) = .ok ev := hev2
        rw [hev3]
        simp only
        have htrack : ∀ v, AnalysisTrackOf
            (SetAnalysisTrackOf a.solver (Literal.Variable literal) .Pending) v =
            if v - 1 = Literal.Variable literal - 1 ∧
              Literal.Variable literal - 1 < a.solver.ext.analysis_track.length then .Pending
            else AnalysisTrackOf a.solver v := fun v => AnalysisTrackOf_set _ _ _ _
        have hcount : (a.solver.ext.analysis_track.set (Literal.Variable literal - 1)
            .Pending).count .Pending = a.solver.ext.analysis_track.count .Pending + 1 :=
          List.count_set_of_ne _ _ (by decide) _ _ hidx
        have hm2 : Marks s
            ({ solver := { (SetAnalysisTrackOf a.solver (Literal.Variable literal) .Pending)
                  with ext := { (SetAnalysisTrackOf a.solver (Literal.Variable literal)
                    .Pending).ext with evsids := ev } },
               number_of_paths := a.number_of_paths + 1,
               backjump_level := a.backjump_level } : ConflictAnalysis S) ti := by
          refine ⟨⟨hm.shared.formula, hm.shared.variable_index, hm.shared.watchers,
            hm.shared.assignment, hm.shared.trail, hm.shared.pending⟩, ?_, ?_, ?_,
            hm.backjump, hm.builder, hm.builder_max, hm.builder_false, hm.builder_nodup⟩
          · show (a.solver.ext.analysis_track.set _ _).length = _
            rw [List.length_set]; exact hm.track_length
          · show a.number_of_paths + 1 = (a.solver.ext.analysis_track.set _ _).count _ + 1
            rw [hcount, hm.paths]
          · intro v hv hp
            have hp2 : AnalysisTrackOf
                (SetAnalysisTrackOf a.solver (Literal.Variable literal) .Pending) v =
                .Pending := hp
            rw [htrack] at hp2
            split_ifs at hp2 with hsame
            · have hvv : v = Literal.Variable literal := by omega
              rw [hvv]
              exact ⟨j, e, hj, he, by omega, hbelow.2 j e hj he (by omega)⟩
            · exact hm.pending v hv hp2
        obtain ⟨a1, hr, hm1, hp1, ht1, hc1, _⟩ := AnalyzeClause_total P hS F iter s h ti rest _
          hm2 (fun l hlm => by
            obtain ⟨h2, h3, h4⟩ := hrest l hlm
            refine ⟨h2, h3, ?_⟩
            rcases h4 with h4 | h4
            · left
              show AnalysisTrackOf
                (SetAnalysisTrackOf a.solver (Literal.Variable literal) .Pending) _ ≠ _
              rw [htrack]
              split_ifs
              · decide
              · exact h4
            · exact Or.inr h4)
        refine ⟨a1, hr, hm1, ?_, ?_, ?_, ?_⟩
        · intro v
          rw [hp1]
          show AnalysisTrackOf
            (SetAnalysisTrackOf a.solver (Literal.Variable literal) .Pending) v = _ ↔ _
          rw [htrack]
          split_ifs with hsame
          · constructor
            · intro hc; cases hc
            · intro hc
              exfalso
              have : AnalysisTrackOf a.solver v =
                  AnalysisTrackOf a.solver (Literal.Variable literal) := by
                unfold AnalysisTrackOf
                rw [hsame.1]
              rw [this, hun] at hc
              cases hc
          · exact Iff.rfl
        · intro v hv
          apply ht1
          show AnalysisTrackOf
            (SetAnalysisTrackOf a.solver (Literal.Variable literal) .Pending) v ≠ _
          rw [htrack]
          split_ifs
          · decide
          · exact hv
        · have hc2 : (a.solver.ext.analysis_track.set (Literal.Variable literal - 1)
              .Pending).count .Pending ≤ a1.solver.ext.analysis_track.count .Pending := hc1
          omega
        · intro _
          have hc2 : (a.solver.ext.analysis_track.set (Literal.Variable literal - 1)
              .Pending).count .Pending ≤ a1.solver.ext.analysis_track.count .Pending := hc1
          omega
      · -- the literal goes to the learned clause
        rw [if_neg hlv]
        obtain ⟨ev, hev2⟩ := EVSIDSHeuristics.VariableActive_ok P hS a.solver.ext.evsids
          (Literal.Variable literal)
        have hev3 : EVSIDSHeuristics.VariableActive P
            ({ a with
              solver := { a.solver with ext := { a.solver.ext with
                learned_clause := (a.solver.ext.learned_clause.Add
                  (Literal.mk (Literal.Variable literal)
                    (FlipVariableAssignment e.assignment))) } },
              backjump_level := max a.backjump_level e.level } :
              ConflictAnalysis S).solver.ext.evsids
            (Literal.Variable literal) = .ok ev := hev2
        rw [hev3]
        simp only
        have hlevof : s.trail.LevelOf (Literal.Variable literal) = e.level :=
          DecisionTrail.LevelOf_of_index _ _ _ _ hv1 hj he
        have hm2 : Marks s
            ({ solver := { a.solver with ext := { a.solver.ext with
                  learned_clause := a.solver.ext.learned_clause.Add
                    (Literal.mk (Literal.Variable literal)
                      (FlipVariableAssignment e.assignment)),
                  evsids := ev } },
               number_of_paths := a.number_of_paths,
               backjump_level := max a.backjump_level e.level } : ConflictAnalysis S) ti := by
          refine ⟨⟨hm.shared.formula, hm.shared.variable_index, hm.shared.watchers,
            hm.shared.assignment, hm.shared.trail, hm.shared.pending⟩, hm.track_length,
            hm.paths, hm.pending, ?_, ?_, ?_, ?_, ?_⟩
          · show max a.backjump_level e.level < s.trail.level
            have := hm.backjump
            rw [max_lt_iff]
            exact ⟨this, by omega⟩
          · intro l hlm
            show s.trail.LevelOf (Literal.Variable l) ≤ max a.backjump_level e.level
            rcases ClauseBuilder.mem_Add_iff _ _ _ hlm with h5 | h5
            · exact le_trans (hm.builder l h5) (le_max_left _ _)
            · rw [h5, Literal.variable_mk, hlevof]
              exact le_max_right _ _
          · show max a.backjump_level e.level = 0 ∨ ∃ l ∈ (a.solver.ext.learned_clause.Add
                (Literal.mk (Literal.Variable literal)
                  (FlipVariableAssignment e.assignment))).literals,
                s.trail.LevelOf (Literal.Variable l) = max a.backjump_level e.level
            by_cases hle : a.backjump_level ≤ e.level
            · right
              refine ⟨_, ClauseBuilder.mem_Add_self _ _, ?_⟩
              rw [Literal.variable_mk, hlevof, max_eq_right hle]
            · rw [max_eq_left (by omega)]
              rcases hm.builder_max with h5 | ⟨l, h5, h6⟩
              · omega
              · exact Or.inr ⟨l, ClauseBuilder.mem_Add _ _ _ h5, h6⟩
          · intro l hlm
            rcases ClauseBuilder.mem_Add_iff _ _ _ hlm with h5 | h5
            · exact hm.builder_false l h5
            · rw [h5, ← (h.sound.trail_assignment e (List.getElem?_mem he)).1, hev]
              exact Literal.mk_flip_isFalse _ _ hbelow.1
          · show (a.solver.ext.learned_clause.Add _).literals.Nodup
            unfold ClauseBuilder.Add
            simp only
            split_ifs with hin
            · exact hm.builder_nodup
            · exact List.Nodup.append hm.builder_nodup (List.nodup_singleton _)
                (by simpa using hin)
        obtain ⟨a1, hr, hm1, hp1, ht1, hc1, hg1⟩ := AnalyzeClause_total P hS F iter s h ti
          rest _ hm2 (fun l hlm => hrest l hlm)
        refine ⟨a1, hr, hm1, hp1, ht1, hc1, ?_⟩
        rintro ⟨l, hlm, hlu, hll⟩
        rw [List.mem_cons] at hlm
        rcases hlm with hlm | hlm
        · rw [hlm, hlevof] at hll
          omega
        · exact hg1 ⟨l, hlm, hlu, hll⟩

end CdclSolver

end pjos

namespace pjos

namespace CdclSolver

variable {S : Type}

/-- A mark that is counted belongs to a variable. -/
theorem AnalysisTrackOf_of_count_pos {t : CdclSolver S} (st : AnalysisTrackState)
    (h : 1 ≤ t.ext.analysis_track.count st) : ∃ v, 1 ≤ v ∧ AnalysisTrackOf t v = st := by
  have hm : st ∈ t.ext.analysis_track := List.count_pos_iff.mp (by omega)
  obtain ⟨k, hk⟩ := List.mem_iff_getElem?.mp hm
  refine ⟨k + 1, by omega, ?_⟩
  unfold AnalysisTrackOf
  rw [List.getD_eq_getElem?_getD]
  show (t.ext.analysis_track[k]?).getD _ = st
  rw [hk]
  rfl

/-- A variable whose first entry is below an entry of the topmost level has its last entry at
or below that entry, when the last entry is at the topmost level too. -/
theorem LoopInv.below_of_rank {F : Formula} {s : CdclSolver S} {iter : Nat}
    (h : LoopInv F s iter) {ti : Nat} {et : DecisionTrail.Entry}
    (het : s.trail.trail[ti]? = some et) (hlv : et.level = s.trail.level) {v : Nat}
    (hv1 : 1 ≤ v) (ha : s.assignment.get v ≠ .Unassigned)
    (hr : DecisionTrail.Rank s.trail.trail v < ti) : Below s ti v := by
  refine ⟨ha, fun j e hj he _ => ?_⟩
  by_contra hgt
  obtain ⟨e1, he1, hev⟩ := h.sound.index _ _ hj
  rw [he] at he1
  cases he1
  have hev2 : e.var = v := by omega
  obtain ⟨_, e0, he0, he0v⟩ := DecisionTrail.Rank_le he
  rw [hev2] at he0 he0v
  have hra := h.sound.dups _ j e0 e (by omega) he0 he (by rw [he0v, hev2])
  have hneg : e.reason < 0 := by
    rw [hra]
    unfold DecisionTrail.ReasonAssumption
    omega
  have h1 := h.sound.below_start h.shape.starts (by omega : ti < j) het he hneg
  have h2 := h.sound.level_le e (List.getElem?_mem he)
  omega

/-- The loop of `AnalyzeConflict` returns: every scan of the trail finds an entry marked
`Pending`, the count of paths is `1` when the loop stops, and the entry at which it stops is
at the level of the trail. -/
theorem AnalyzeConflictLoop_total (P : Platform S)
    (hS : ∀ x : S, EVSIDSHeuristics.ScoreOk P x = true) (F : Formula) (iter : Nat)
    (s : CdclSolver S) (h : LoopInv F s iter) :
    ∀ (n : Nat) (a : ConflictAnalysis S) (lits : List Literal) (ti : Nat),
      Marks s a ti → ti < s.trail.Length →
      (ti + 2 ≤ n ∨
        (ti + 1 ≤ n ∧ AnalysisTrackOf a.solver (s.trail.get ti).var = .Processed)) →
      (∀ l ∈ lits, l ≠ 0 ∧ Literal.Variable l ≤ s.formula.num_of_variables ∧
        (AnalysisTrackOf a.solver (Literal.Variable l) ≠ .Untracked ∨
          Below s ti (Literal.Variable l))) →
      (1 ≤ a.solver.ext.analysis_track.count .Pending ∨
        ∃ l ∈ lits, AnalysisTrackOf a.solver (Literal.Variable l) = .Untracked ∧
          s.trail.level ≤ s.trail.LevelOf (Literal.Variable l)) →
      ∃ (a1 : ConflictAnalysis S) (ti1 : Nat),
        AnalyzeConflictLoop P n a lits ti = .ok (a1, ti1) ∧ Marks s a1 ti1 ∧
        a1.number_of_paths = 1 ∧ ti1 < s.trail.Length ∧
        (s.trail.get ti1).level = s.trail.level ∧
        s.trail.var_index[(s.trail.get ti1).var - 1]? = some (some ti1)
  | 0, a, lits, ti, _, _, hfuel, _, _ => by
    exfalso
    omega
  | n + 1, a, lits, ti, hm, hti, hfuel, hl, hprog => by
    obtain ⟨a1, hr, hm1, hp1, _, hc1, hg1⟩ := AnalyzeClause_total P hS F iter s h ti lits a hm hl
    have hcount : 1 ≤ a1.solver.ext.analysis_track.count .Pending := by
      rcases hprog with hprog | hprog
      · omega
      · exact hg1 hprog
    have htr : a1.solver.trail = s.trail := hm1.shared.trail
    -- the scan finds an entry
    obtain ⟨v, hv1, hvp⟩ := AnalysisTrackOf_of_count_pos _ hcount
    obtain ⟨j, e, hj, he, _, hjti⟩ := hm1.pending v hv1 hvp
    have hjlt : j < s.trail.Length := (List.getElem?_eq_some_iff.mp he).1
    have hgetj : s.trail.get j = e := by
      have := get_getElem? s.trail j hjlt
      rw [he] at this
      cases this
      rfl
    have hevar : e.var = v := by
      obtain ⟨e1, he1, hev⟩ := h.sound.index _ _ hj
      rw [he] at he1
      cases he1
      omega
    obtain ⟨ti1, hfp, hle, hpend, hmax⟩ := FindPending_total a1.solver ti
      (by rw [htr]; exact hti) ⟨j, hjti, by rw [htr, hgetj, hevar]; exact hvp⟩
    rw [htr] at hpend hmax
    have hti1 : ti1 < s.trail.Length := by omega
    have het := get_getElem? s.trail ti1 hti1
    have hrange := h.inv.trail_range _ (List.getElem?_mem het)
    -- the entry found is the last entry of its variable, at the level of the trail
    obtain ⟨j1, e1, hj1, he1, hlv1, hj1ti⟩ := hm1.pending _ hrange.1 hpend
    have he1var : e1.var = (s.trail.get ti1).var := by
      obtain ⟨e2, he2, hev⟩ := h.sound.index _ _ hj1
      rw [he1] at he2
      cases he2
      omega
    have hj1eq : j1 = ti1 := by
      obtain ⟨j2, hj2, hj2i⟩ := h.shape.found ti1 _ het
      rw [hj1] at hj2i
      cases hj2i
      by_contra hne
      have hj1lt : j1 < s.trail.Length := (List.getElem?_eq_some_iff.mp he1).1
      have hgetj1 : s.trail.get j1 = e1 := by
        have := get_getElem? s.trail j1 hj1lt
        rw [he1] at this
        cases this
        rfl
      apply hmax j1 (by omega) hj1ti
      rw [hgetj1, he1var]
      exact hpend
    subst hj1eq
    rw [het] at he1
    cases he1
    have hlevel : (s.trail.get j1).level = s.trail.level := by
      have := h.sound.level_le _ (List.getElem?_mem het)
      omega
    have hvlt : (s.trail.get j1).var - 1 < a1.solver.ext.analysis_track.length := by
      rw [hm1.track_length]; omega
    have hidx := AnalysisTrackOf_index hpend (by decide)
    have htrack : ∀ u, AnalysisTrackOf
        (SetAnalysisTrackOf a1.solver (s.trail.get j1).var .Processed) u =
        if u - 1 = (s.trail.get j1).var - 1 then .Processed
        else AnalysisTrackOf a1.solver u := by
      intro u
      rw [AnalysisTrackOf_set]
      by_cases hu : u - 1 = (s.trail.get j1).var - 1
      · rw [if_pos ⟨hu, hvlt⟩, if_pos hu]
      · rw [if_neg (fun hc => hu hc.1), if_neg hu]
    have hcnt : (a1.solver.ext.analysis_track.set ((s.trail.get j1).var - 1) .Processed).count
        .Pending + 1 = a1.solver.ext.analysis_track.count .Pending :=
      List.count_set_remove _ _ (by decide) _ _ hidx
    have hm2 : Marks s
        ({ solver := SetAnalysisTrackOf a1.solver (s.trail.get j1).var .Processed,
           number_of_paths := a1.number_of_paths - 1,
           backjump_level := a1.backjump_level } : ConflictAnalysis S) j1 := by
      refine ⟨⟨hm1.shared.formula, hm1.shared.variable_index, hm1.shared.watchers,
        hm1.shared.assignment, hm1.shared.trail, hm1.shared.pending⟩, ?_, ?_, ?_,
        hm1.backjump, hm1.builder, hm1.builder_max, hm1.builder_false, hm1.builder_nodup⟩
      · show (a1.solver.ext.analysis_track.set _ _).length = _
        rw [List.length_set]; exact hm1.track_length
      · show a1.number_of_paths - 1 = (a1.solver.ext.analysis_track.set _ _).count _ + 1
        have := hm1.paths
        omega
      · intro u hu1 hup
        have hup2 : AnalysisTrackOf
            (SetAnalysisTrackOf a1.solver (s.trail.get j1).var .Processed) u = .Pending := hup
        rw [htrack] at hup2
        split_ifs at hup2 with hsame
        obtain ⟨j2, e2, hj2, he2, hlv2, hj2ti⟩ := hm1.pending u hu1 hup2
        refine ⟨j2, e2, hj2, he2, hlv2, ?_⟩
        by_contra hgt
        have hj2lt : j2 < s.trail.Length := (List.getElem?_eq_some_iff.mp he2).1
        have hgetj2 : s.trail.get j2 = e2 := by
          have := get_getElem? s.trail j2 hj2lt
          rw [he2] at this
          cases this
          rfl
        have he2var : e2.var = u := by
          obtain ⟨e3, he3, hev⟩ := h.sound.index _ _ hj2
          rw [he2] at he3
          cases he3
          omega
        apply hmax j2 (by omega) hj2ti
        rw [hgetj2, he2var]
        exact hup2
    unfold AnalyzeConflictLoop
    rw [hr]
    simp only
    rw [hfp]
    simp only
    rw [htr]
    by_cases hprop : DecisionTrail.IsPropagatedFromClause (s.trail.get j1).reason = true
    · rw [if_pos hprop]
      have hre : 0 ≤ (s.trail.get j1).reason := by
        unfold DecisionTrail.IsPropagatedFromClause at hprop
        simpa using hprop
      by_cases hpaths : a1.number_of_paths - 1 > 1
      · rw [if_pos hpaths]
        have hform : (SetAnalysisTrackOf a1.solver (s.trail.get j1).var
            .Processed).formula = s.formula := hm1.shared.formula
        rw [hform]
        apply AnalyzeConflictLoop_total P hS F iter s h n _ _ j1 hm2 hti1
        · -- fuel
          right
          refine ⟨?_, ?_⟩
          · rcases hfuel with hfuel | ⟨hfuel, hproc⟩
            · omega
            · have hne : j1 ≠ ti := by
                intro heq
                rw [heq] at hpend
                rw [← hp1] at hproc
                rw [hproc] at hpend
                cases hpend
              omega
          · show AnalysisTrackOf
              (SetAnalysisTrackOf a1.solver (s.trail.get j1).var .Processed) _ = _
            rw [htrack, if_pos rfl]
        · -- the literals of the reason
          intro l hlm
          have hwf := Formula.get_wellFormed h.inv.consistent.wf _ l hlm
          refine ⟨hwf.1, hwf.2, ?_⟩
          rcases (h.sound.reasons j1 _ het hre).2 l hlm with hself | ⟨hfalse, hrank⟩
          · left
            show AnalysisTrackOf
              (SetAnalysisTrackOf a1.solver (s.trail.get j1).var .Processed) _ ≠ _
            rw [htrack, hself, Literal.variable_mk, if_pos rfl]
            decide
          · right
            exact h.below_of_rank het hlevel (Literal.variable_pos hwf.1) hfalse.1 hrank
        · -- a variable is marked
          left
          show 1 ≤ (a1.solver.ext.analysis_track.set _ _).count _
          have := hm1.paths
          omega
      · rw [if_neg hpaths]
        refine ⟨_, _, rfl, hm2, ?_, hti1, hlevel, hj1⟩
        show a1.number_of_paths - 1 = 1
        have := hm1.paths
        omega
    · rw [if_neg hprop]
      have hre : (s.trail.get j1).reason < 0 := by
        unfold DecisionTrail.IsPropagatedFromClause at hprop
        simpa using hprop
      have hzero : (a1.solver.ext.analysis_track.set ((s.trail.get j1).var - 1)
          .Processed).count .Pending = 0 := by
        by_contra hne
        obtain ⟨u, hu1, hup⟩ := AnalysisTrackOf_of_count_pos
          (t := SetAnalysisTrackOf a1.solver (s.trail.get j1).var .Processed) .Pending
          (by
            show 1 ≤ (a1.solver.ext.analysis_track.set _ _).count _
            omega)
        obtain ⟨j2, e2, hj2, he2, hlv2, hj2ti⟩ := hm2.pending u hu1 hup
        rw [htrack] at hup
        split_ifs at hup with hsame
        have he2var : e2.var = u := by
          obtain ⟨e3, he3, hev⟩ := h.sound.index _ _ hj2
          rw [he2] at he3
          cases he3
          omega
        have hne2 : j2 ≠ j1 := by
          intro heq
          rw [heq, het] at he2
          cases he2
          omega
        have := h.sound.below_start h.shape.starts (by omega : j2 < j1) he2 het hre
        omega
      have hone : a1.number_of_paths - 1 = 1 := by
        have := hm1.paths
        omega
      rw [if_neg (by
        show ¬ (a1.number_of_paths - 1 ≠ 1)
        omega)]
      exact ⟨_, _, rfl, hm2, hone, hti1, hlevel, hj1⟩

end CdclSolver

end pjos

namespace pjos

namespace CdclSolver

variable {S : Type}

/-- A clause that is falsified above level zero has a literal whose variable is assigned at the
level of the trail. -/
theorem LoopInv.top_literal {F : Formula} {s : CdclSolver S} {iter : Nat}
    (h : LoopInv F s iter) (h0 : 0 < s.trail.level) (c : Clause) (hc : c ∈ s.formula.clauses)
    (hfalse : ∀ l ∈ c.clause, Literal.IsFalse l s.assignment) :
    ∃ l ∈ c.clause, s.trail.level ≤ s.trail.LevelOf (Literal.Variable l) := by
  obtain ⟨p, e, he, hre, hlv⟩ := h.sound.top_start h.shape.starts h0
  obtain ⟨l, hl, hnot⟩ := h.shape.early p e he hre c hc
  refine ⟨l, hl, ?_⟩
  have hwf := h.inv.consistent.wf c hc l hl
  have hv1 := Literal.variable_pos hwf.1
  obtain ⟨j, e1, hj, he1, hev, _⟩ := h.last_entry hv1 hwf.2 (hfalse l hl).1
  rw [DecisionTrail.LevelOf_of_index _ _ _ _ hv1 hj he1]
  have hrk := (DecisionTrail.Rank_le he1).1
  rw [hev] at hrk
  have hpj : p ≤ j := by
    by_contra hlt
    exact hnot ⟨hfalse l hl, by omega⟩
  have := h.sound.level_mono hpj he he1
  omega

/-- The conflict analysis returns for a falsified clause of the formula above level zero: its
loop stops with one path left at an entry of the level of the trail, and the three assertions
at its end hold. -/
theorem AnalyzeConflict_total (P : Platform S)
    (hS : ∀ x : S, EVSIDSHeuristics.ScoreOk P x = true) (F : Formula) (iter : Nat)
    (s : CdclSolver S) (h : LoopInv F s iter) (h0 : 0 < s.trail.level) (cc : Nat)
    (hcc : cc < s.formula.NumOfClauses)
    (hfalse : ∀ l ∈ (s.formula.get cc).clause, Literal.IsFalse l s.assignment) :
    ∃ (a : ConflictAnalysis S) (ti : Nat),
      AnalyzeConflictLoop P ((ClearAnalysisTrack s).trail.Length + 1)
        ⟨ClearAnalysisTrack s, 1, 0⟩ (s.formula.get cc).clause
        ((ClearAnalysisTrack s).trail.Length - 1) = .ok (a, ti) ∧
      Marks s a ti ∧ a.number_of_paths = 1 ∧ ti < s.trail.Length ∧
      (s.trail.get ti).level = s.trail.level ∧
      s.trail.var_index[(s.trail.get ti).var - 1]? = some (some ti) ∧
      ∃ s1 : CdclSolver S, AnalyzeConflict P s (s.formula.get cc) =
        .ok (((a.solver.ext.learned_clause.Add
            (Literal.mk (s.trail.get ti).var
              (FlipVariableAssignment (s.trail.get ti).assignment))).Make P.set_order).1,
          if a.backjump_level = 0 then s.trail.level - 1 else a.backjump_level, s1) := by
  have hmem : s.formula.get cc ∈ s.formula.clauses := by
    have hlt : cc < s.formula.clauses.length := hcc
    unfold Formula.get
    rw [List.getD_eq_getElem?_getD, List.getElem?_eq_getElem hlt]
    exact List.getElem_mem hlt
  have hlen : 0 < s.trail.Length := by
    have hl := h.sound.level_last
    cases hlast : s.trail.trail.getLast? with
    | none =>
      rw [hlast] at hl
      simp only [Option.map_none', Option.getD_none] at hl
      omega
    | some e =>
      have hne : s.trail.trail ≠ [] := by
        intro hnil
        rw [hnil] at hlast
        cases hlast
      exact List.length_pos.mpr hne
  have hm0 : Marks s (⟨ClearAnalysisTrack s, 1, 0⟩ : ConflictAnalysis S)
      (s.trail.Length - 1) := by
    refine ⟨⟨rfl, rfl, rfl, rfl, rfl, rfl⟩, ?_, ?_, ?_, h0, ?_, Or.inl rfl, ?_, ?_⟩
    · show (List.replicate _ _).length = _
      rw [List.length_replicate]
      exact h.sound.track_length
    · show 1 = (List.replicate _ AnalysisTrackState.Untracked).count _ + 1
      rw [List.count_replicate]
      simp
    · intro v _ hp
      rw [AnalysisTrackOf_clear] at hp
      cases hp
    · intro l hl
      have hb : (ClearAnalysisTrack s).ext.learned_clause.literals = [] := h.shape.builder
      rw [hb] at hl
      cases hl
    · intro l hl
      have hb : (ClearAnalysisTrack s).ext.learned_clause.literals = [] := h.shape.builder
      rw [hb] at hl
      cases hl
    · have hb : (ClearAnalysisTrack s).ext.learned_clause.literals = [] := h.shape.builder
      show (ClearAnalysisTrack s).ext.learned_clause.literals.Nodup
      rw [hb]
      exact List.nodup_nil
  obtain ⟨l0, hl0, hl0lv⟩ := h.top_literal h0 _ hmem hfalse
  obtain ⟨a, ti, hloop, hm, hpaths, hti, hlevel, hidx⟩ :=
    AnalyzeConflictLoop_total P hS F iter s h (s.trail.Length + 1)
      ⟨ClearAnalysisTrack s, 1, 0⟩ (s.formula.get cc).clause (s.trail.Length - 1) hm0
      (by omega) (Or.inl (by omega))
      (fun l hl => by
        have hwf := Formula.get_wellFormed h.inv.consistent.wf cc l hl
        refine ⟨hwf.1, hwf.2, Or.inr ⟨(hfalse l hl).1, fun j e _ he _ => ?_⟩⟩
        have : j < s.trail.trail.length := (List.getElem?_eq_some_iff.mp he).1
        have hL : s.trail.Length = s.trail.trail.length := rfl
        omega)
      (Or.inr ⟨l0, hl0, AnalysisTrackOf_clear s _, hl0lv⟩)
  have hloop2 : AnalyzeConflictLoop P ((ClearAnalysisTrack s).trail.Length + 1)
      ⟨ClearAnalysisTrack s, 1, 0⟩ (s.formula.get cc).clause
      ((ClearAnalysisTrack s).trail.Length - 1) = .ok (a, ti) := hloop
  have htr : a.solver.trail = s.trail := hm.shared.trail
  obtain ⟨ev, hev⟩ := EVSIDSHeuristics.VariableActive_ok P hS a.solver.ext.evsids
    (s.trail.get ti).var
  refine ⟨a, ti, hloop2, hm, hpaths, hti, hlevel, hidx, ?_⟩
  · unfold AnalyzeConflict
    rw [if_neg (by
      show ¬ ¬ s.trail.level > 0
      omega)]
    simp only
    rw [hloop2]
    simp only
    rw [htr, hev]
    simp only
    rw [if_neg (by
      show ¬ ¬ (s.trail.get ti).level > 0
      omega)]
    rw [if_neg (by
      show ¬ ((s.trail.get ti).level ≠ s.trail.level)
      omega)]
    have hbj := hm.backjump
    rw [if_neg (by
      show ¬ ¬ (if a.backjump_level = 0 then max a.backjump_level ((s.trail.get ti).level - 1)
        else a.backjump_level) < s.trail.level
      split_ifs with hz
      · rw [hz, hlevel]
        simp only [Nat.zero_max]
        omega
      · omega)]
    have hbeta : (if a.backjump_level = 0 then max a.backjump_level ((s.trail.get ti).level - 1)
        else a.backjump_level) =
        (if a.backjump_level = 0 then s.trail.level - 1 else a.backjump_level) := by
      split_ifs with hz
      · rw [hz, hlevel]
        simp only [Nat.zero_max]
      · rfl
    rw [hbeta]
    exact ⟨_, rfl⟩

end CdclSolver

end pjos

namespace pjos

namespace EVSIDSHeuristics

variable {S : Type}

theorem ScoreOk_without (P : Platform S) (x : S) : ScoreOk P.withoutScoreAsserts x = true := rfl

/-- `VariableActive` computes the same with and without the asserts on the scores, unless one
of these asserts fails. -/
theorem VariableActive_cases (P : Platform S) (h : EVSIDSHeuristics S) (var : Nat) :
    h.VariableActive P var = h.VariableActive P.withoutScoreAsserts var ∨
    h.VariableActive P var = .error .AssertionFailed := by
  unfold VariableActive
  simp only [ScoreOk_without, Bool.not_true, Bool.false_eq_true, if_false]
  have hadd : P.withoutScoreAsserts.add = P.add := rfl
  have hlt : P.withoutScoreAsserts.lt = P.lt := rfl
  have hdiv : P.withoutScoreAsserts.div = P.div := rfl
  have hzero : P.withoutScoreAsserts.zero = P.zero := rfl
  rw [hadd, hlt, hdiv, hzero]
  by_cases h1 : (!ScoreOk P (P.add (h.scores.getD (var - 1) P.zero) h.score_increment)) = true
  · right
    rw [if_pos h1]
  · rw [if_neg h1]
    by_cases h2 : P.lt h.scoring.rescore_threshold
        (P.add (h.scores.getD (var - 1) P.zero) h.score_increment) = true
    · rw [if_pos h2, if_pos h2]
      have hall : ((List.map (fun x => P.div x h.scoring.rescore_threshold)
          (h.scores.set (var - 1)
            (P.add (h.scores.getD (var - 1) P.zero) h.score_increment))).all
          (ScoreOk P.withoutScoreAsserts)) = true := by
        rw [List.all_eq_true]
        intro x _
        rfl
      rw [if_pos hall]
      by_cases h3 : ((List.map (fun x => P.div x h.scoring.rescore_threshold)
          (h.scores.set (var - 1)
            (P.add (h.scores.getD (var - 1) P.zero) h.score_increment))).all (ScoreOk P)) = true
      · left
        rw [if_pos h3]
      · right
        rw [if_neg h3]
    · left
      rw [if_neg h2, if_neg h2]

end EVSIDSHeuristics

namespace CdclSolver

variable {S : Type}

/-- Some assert of `EVSIDSHeuristics::VariableActive` on a score fails on the platform. -/
theorem AnalyzeClause_cases (P : Platform S) :
    ∀ (lits : List Literal) (a : ConflictAnalysis S),
      AnalyzeClause P lits a = AnalyzeClause P.withoutScoreAsserts lits a ∨
      (AnalyzeClause P lits a = .error .AssertionFailed ∧
        ∃ (h : EVSIDSHeuristics S) (var : Nat), h.VariableActive P var = .error .AssertionFailed)
  | [], a => Or.inl rfl
  | literal :: rest, a => by
    rw [AnalyzeClause, AnalyzeClause]
    simp only
    split_ifs with h1
    · exact AnalyzeClause_cases P rest a
    · cases hfind : a.solver.trail.Find (Literal.Variable literal) with
      | none => exact Or.inl rfl
      | some e =>
        simp only
        generalize hgen : (if e.level ≥ a.solver.trail.Level then
            ({ a with
              solver := SetAnalysisTrackOf a.solver (Literal.Variable literal) .Pending
              number_of_paths := a.number_of_paths + 1 } : ConflictAnalysis S)
          else
            { a with
              solver := { a.solver with ext := { a.solver.ext with
                learned_clause := (a.solver.ext.learned_clause.Add
                  (Literal.mk (Literal.Variable literal)
                    (FlipVariableAssignment e.assignment))) } }
              backjump_level := max a.backjump_level e.level }) = a2
        rcases EVSIDSHeuristics.VariableActive_cases P a2.solver.ext.evsids
          (Literal.Variable literal) with h2 | h2
        · rw [← h2]
          cases hva : a2.solver.ext.evsids.VariableActive P (Literal.Variable literal) with
          | error e => exact Or.inl rfl
          | ok ev => exact AnalyzeClause_cases P rest _
        · right
          rw [h2]
          exact ⟨rfl, _, _, h2⟩

theorem AnalyzeConflictLoop_cases (P : Platform S) :
    ∀ (n : Nat) (a : ConflictAnalysis S) (lits : List Literal) (ti : Nat),
      AnalyzeConflictLoop P n a lits ti = AnalyzeConflictLoop P.withoutScoreAsserts n a lits ti ∨
      (AnalyzeConflictLoop P n a lits ti = .error .AssertionFailed ∧
        ∃ (h : EVSIDSHeuristics S) (var : Nat), h.VariableActive P var = .error .AssertionFailed)
  | 0, _, _, _ => Or.inl rfl
  | n + 1, a, lits, ti => by
    rw [AnalyzeConflictLoop, AnalyzeConflictLoop]
    rcases AnalyzeClause_cases P lits a with h1 | ⟨h1, h2⟩
    · rw [← h1]
      cases hac : AnalyzeClause P lits a with
      | error e => exact Or.inl rfl
      | ok a1 =>
        simp only
        cases hfp : FindPending a1.solver ti with
        | error e => exact Or.inl rfl
        | ok ti1 =>
          simp only
          split_ifs
          · exact AnalyzeConflictLoop_cases P n _ _ _
          · exact Or.inl rfl
          · exact Or.inl rfl
          · exact Or.inl rfl
    · right
      rw [h1]
      exact ⟨rfl, h2⟩

/-- `AnalyzeConflict` computes the same with and without the asserts on the scores, unless one
of these asserts fails. -/
theorem AnalyzeConflict_cases (P : Platform S) (s : CdclSolver S) (c : ClauseView) :
    AnalyzeConflict P s c = AnalyzeConflict P.withoutScoreAsserts s c ∨
    (AnalyzeConflict P s c = .error .AssertionFailed ∧
      ∃ (h : EVSIDSHeuristics S) (var : Nat), h.VariableActive P var = .error .AssertionFailed) := by
  unfold AnalyzeConflict
  by_cases h0 : ¬ s.trail.Level > 0
  · rw [if_pos h0, if_pos h0]
    exact Or.inl rfl
  · rw [if_neg h0, if_neg h0]
    simp only
    rcases AnalyzeConflictLoop_cases P ((ClearAnalysisTrack s).trail.Length + 1)
      ⟨ClearAnalysisTrack s, 1, 0⟩ c.clause ((ClearAnalysisTrack s).trail.Length - 1) with
      h1 | ⟨h1, h2⟩
    · rw [← h1]
      cases hloop : AnalyzeConflictLoop P ((ClearAnalysisTrack s).trail.Length + 1)
        ⟨ClearAnalysisTrack s, 1, 0⟩ c.clause ((ClearAnalysisTrack s).trail.Length - 1) with
      | error e => exact Or.inl rfl
      | ok r =>
        obtain ⟨a, ti⟩ := r
        simp only
        rcases EVSIDSHeuristics.VariableActive_cases P a.solver.ext.evsids
          (a.solver.trail.get ti).var with h3 | h3
        · rw [← h3]
          exact Or.inl rfl
        · right
          rw [h3]
          exact ⟨rfl, _, _, h3⟩
    · right
      rw [h1]
      exact ⟨rfl, h2⟩

/-- When `AnalyzeConflict` returns, it returns what it returns without the asserts on the
scores. -/
theorem AnalyzeConflict_without (P : Platform S) (s : CdclSolver S) (c : ClauseView)
    (r : Clause × Nat × CdclSolver S) (h : AnalyzeConflict P s c = .ok r) :
    AnalyzeConflict P.withoutScoreAsserts s c = .ok r := by
  rcases AnalyzeConflict_cases P s c with h1 | ⟨h1, _⟩
  · rw [← h1]; exact h
  · rw [h1] at h; cases h

theorem AnalyzeConflictLoop_without (P : Platform S) (n : Nat) (a : ConflictAnalysis S)
    (lits : List Literal) (ti : Nat) (r : ConflictAnalysis S × Nat)
    (h : AnalyzeConflictLoop P n a lits ti = .ok r) :
    AnalyzeConflictLoop P.withoutScoreAsserts n a lits ti = .ok r := by
  rcases AnalyzeConflictLoop_cases P n a lits ti with h1 | ⟨h1, _⟩
  · rw [← h1]; exact h
  · rw [h1] at h; cases h

end CdclSolver

namespace CdclSolver

variable {S : Type}

/-- When `AnalyzeConflict` returns, its loop has returned. -/
theorem AnalyzeConflict_loop_of_ok (P : Platform S) (s : CdclSolver S) (c : ClauseView)
    (r : Clause × Nat × CdclSolver S) (h : AnalyzeConflict P s c = .ok r) :
    ∃ (a : ConflictAnalysis S) (ti : Nat),
      AnalyzeConflictLoop P ((ClearAnalysisTrack s).trail.Length + 1)
        ⟨ClearAnalysisTrack s, 1, 0⟩ c.clause ((ClearAnalysisTrack s).trail.Length - 1) =
        .ok (a, ti) := by
  unfold AnalyzeConflict at h
  by_cases h0 : ¬ s.trail.Level > 0
  · rw [if_pos h0] at h
    cases h
  · rw [if_neg h0] at h
    simp only at h
    cases hloop : AnalyzeConflictLoop P ((ClearAnalysisTrack s).trail.Length + 1)
        ⟨ClearAnalysisTrack s, 1, 0⟩ c.clause ((ClearAnalysisTrack s).trail.Length - 1) with
    | error e =>
      rw [hloop] at h
      cases h
    | ok r1 => exact ⟨r1.1, r1.2, rfl⟩

/-- The conflict analysis at a conflict of the main loop, without a hypothesis on the scores:
with the two asserts on the scores taken out the loop returns with one path left at an entry
of the level of the trail and the analysis returns a level below the level of the trail; with
them the analysis returns the same, or one of the asserts on a score fails. -/
theorem LoopInv.analysis (P : Platform S) {F : Formula} {iter : Nat} {s : CdclSolver S}
    (h : LoopInv F s iter) (h0 : 0 < s.trail.level) (cc : Nat)
    (hcc : cc < s.formula.NumOfClauses)
    (hfalse : ∀ l ∈ (s.formula.get cc).clause, Literal.IsFalse l s.assignment) :
    ∃ (a : ConflictAnalysis S) (ti : Nat) (learned : Clause) (backjump_level : Nat)
      (s1 : CdclSolver S),
      AnalyzeConflictLoop P.withoutScoreAsserts ((ClearAnalysisTrack s).trail.Length + 1)
        ⟨ClearAnalysisTrack s, 1, 0⟩ (s.formula.get cc).clause
        ((ClearAnalysisTrack s).trail.Length - 1) = .ok (a, ti) ∧
      a.number_of_paths = 1 ∧ ti < s.trail.Length ∧
      (s.trail.get ti).level = s.trail.level ∧
      AnalyzeConflict P.withoutScoreAsserts s (s.formula.get cc) =
        .ok (learned, backjump_level, s1) ∧
      backjump_level < s.trail.level ∧
      (AnalyzeConflict P s (s.formula.get cc) = .ok (learned, backjump_level, s1) ∨
        (AnalyzeConflict P s (s.formula.get cc) = .error .AssertionFailed ∧
          ∃ (e : EVSIDSHeuristics S) (var : Nat),
            e.VariableActive P var = .error .AssertionFailed)) := by
  obtain ⟨a, ti, hloop, hm, hpaths, hti, hlevel, _, s1, hr⟩ :=
    AnalyzeConflict_total P.withoutScoreAsserts (fun _ => rfl) F iter s h h0 cc hcc hfalse
  refine ⟨a, ti, _, _, s1, hloop, hpaths, hti, hlevel, hr, ?_, ?_⟩
  · have := hm.backjump
    split_ifs <;> omega
  · rcases AnalyzeConflict_cases P s (s.formula.get cc) with h1 | h1
    · left
      rw [h1]
      exact hr
    · exact Or.inr h1

/-- What a returning conflict analysis at a conflict of the main loop went through: its loop
stopped at an entry of the level of the trail whose variable `Find` gives back, with the
invariant of the analysis, and the clause and the level returned are built from the literals
collected. -/
theorem LoopInv.analysed (P : Platform S) {F : Formula} {iter : Nat} {s s1 : CdclSolver S}
    (h : LoopInv F s iter) (h0 : 0 < s.trail.level) (cc : Nat)
    (hcc : cc < s.formula.NumOfClauses)
    (hfalse : ∀ l ∈ (s.formula.get cc).clause, Literal.IsFalse l s.assignment)
    (learned : Clause) (backjump_level : Nat)
    (hr : AnalyzeConflict P s (s.formula.get cc) = .ok (learned, backjump_level, s1)) :
    ∃ (a : ConflictAnalysis S) (ti : Nat),
      AnalyzeConflictLoop P ((ClearAnalysisTrack s).trail.Length + 1)
        ⟨ClearAnalysisTrack s, 1, 0⟩ (s.formula.get cc).clause
        ((ClearAnalysisTrack s).trail.Length - 1) = .ok (a, ti) ∧
      Marks s a ti ∧ a.number_of_paths = 1 ∧ ti < s.trail.Length ∧
      (s.trail.get ti).level = s.trail.level ∧
      s.trail.var_index[(s.trail.get ti).var - 1]? = some (some ti) ∧
      learned = ((a.solver.ext.learned_clause.Add (Literal.mk (s.trail.get ti).var
        (FlipVariableAssignment (s.trail.get ti).assignment))).Make P.set_order).1 ∧
      backjump_level = if a.backjump_level = 0 then s.trail.level - 1 else a.backjump_level := by
  obtain ⟨a, ti, hloop, hm, hpaths, hti, hlevel, hidx, s1x, hr1⟩ :=
    AnalyzeConflict_total P.withoutScoreAsserts (fun _ => rfl) F iter s h h0 cc hcc hfalse
  have hr2 := AnalyzeConflict_without P s _ _ hr
  rw [hr1] at hr2
  have hinj := Except.ok.inj hr2
  obtain ⟨a2, ti2, hloop2⟩ := AnalyzeConflict_loop_of_ok P s _ _ hr
  have hloop3 := AnalyzeConflictLoop_without P _ _ _ _ _ hloop2
  rw [hloop] at hloop3
  have heq := Except.ok.inj hloop3
  rw [← heq] at hloop2
  exact ⟨a, ti, hloop2, hm, hpaths, hti, hlevel, hidx, (congrArg Prod.fst hinj).symm,
    (congrArg (fun x => x.2.1) hinj).symm⟩

end CdclSolver

end pjos

namespace pjos

namespace DecisionTrail

theorem MaxLevel_ge (t : DecisionTrail) :
    ∀ (literals : List Literal), ∀ l ∈ literals,
      t.LevelOf (Literal.Variable l) ≤ t.MaxLevel literals
  | [], _, h => by cases h
  | x :: xs, l, h => by
    show _ ≤ max (t.LevelOf (Literal.Variable x)) (t.MaxLevel xs)
    rw [List.mem_cons] at h
    rcases h with h | h
    · rw [h]
      exact le_max_left _ _
    · exact le_trans (MaxLevel_ge t xs l h) (le_max_right _ _)

theorem MaxLevel_attained (t : DecisionTrail) :
    ∀ (literals : List Literal), t.MaxLevel literals = 0 ∨
      ∃ l ∈ literals, t.LevelOf (Literal.Variable l) = t.MaxLevel literals
  | [] => Or.inl rfl
  | x :: xs => by
    have hm : t.MaxLevel (x :: xs) = max (t.LevelOf (Literal.Variable x)) (t.MaxLevel xs) := rfl
    rw [hm]
    by_cases hle : t.MaxLevel xs ≤ t.LevelOf (Literal.Variable x)
    · rw [max_eq_left hle]
      exact Or.inr ⟨x, List.mem_cons_self _ _, rfl⟩
    · rw [max_eq_right (by omega)]
      rcases MaxLevel_attained t xs with h | ⟨l, hl, h⟩
      · exact Or.inl h
      · exact Or.inr ⟨l, List.mem_cons_of_mem _ hl, h⟩

/-- The greatest level among the literals, told by its two properties. -/
theorem MaxLevel_eq (t : DecisionTrail) (literals : List Literal) (m : Nat)
    (hle : ∀ l ∈ literals, t.LevelOf (Literal.Variable l) ≤ m)
    (hmax : m = 0 ∨ ∃ l ∈ literals, t.LevelOf (Literal.Variable l) = m) :
    t.MaxLevel literals = m := by
  apply le_antisymm
  · rcases MaxLevel_attained t literals with h | ⟨l, hl, h⟩
    · omega
    · rw [← h]
      exact hle l hl
  · rcases hmax with h | ⟨l, hl, h⟩
    · omega
    · rw [← h]
      exact MaxLevel_ge t literals l hl

end DecisionTrail

namespace CdclSolver

variable {S : Type}

/-- The clause that the conflict analysis makes of the literals collected and of the negated
literal of the entry at which it stopped: all its literals are false, the negated literal is
the one literal at the level of the trail, and the collected literals give the backjump
level. -/
theorem Marks.learned {F : Formula} {s : CdclSolver S} {iter : Nat} (h : LoopInv F s iter)
    (P : Platform S) (hP : P.SetOrderOk) {a : ConflictAnalysis S} {ti : Nat} (hm : Marks s a ti)
    (hti : ti < s.trail.Length) (hlevel : (s.trail.get ti).level = s.trail.level)
    (hidx : s.trail.var_index[(s.trail.get ti).var - 1]? = some (some ti)) :
    (∀ l ∈ ((a.solver.ext.learned_clause.Add (Literal.mk (s.trail.get ti).var
        (FlipVariableAssignment (s.trail.get ti).assignment))).Make P.set_order).1.clause,
      Literal.IsFalse l s.assignment) ∧
    ((a.solver.ext.learned_clause.Add (Literal.mk (s.trail.get ti).var
        (FlipVariableAssignment (s.trail.get ti).assignment))).Make P.set_order).1.clause.filter
      (fun l => decide (s.trail.LevelOf (Literal.Variable l) = s.trail.level)) =
      [Literal.mk (s.trail.get ti).var (FlipVariableAssignment (s.trail.get ti).assignment)] ∧
    s.trail.MaxLevel
      (((a.solver.ext.learned_clause.Add (Literal.mk (s.trail.get ti).var
        (FlipVariableAssignment (s.trail.get ti).assignment))).Make
          P.set_order).1.clause.filter
        (fun l => decide (l ≠ Literal.mk (s.trail.get ti).var
          (FlipVariableAssignment (s.trail.get ti).assignment)))) = a.backjump_level := by
  have het := get_getElem? s.trail ti hti
  have hrange := h.inv.trail_range _ (List.getElem?_mem het)
  have huiplv : s.trail.LevelOf (Literal.Variable (Literal.mk (s.trail.get ti).var
      (FlipVariableAssignment (s.trail.get ti).assignment))) = s.trail.level := by
    rw [Literal.variable_mk, DecisionTrail.LevelOf_of_index _ _ _ _ hrange.1 hidx het]
    exact hlevel
  have hbj := hm.backjump
  have hnot : Literal.mk (s.trail.get ti).var
      (FlipVariableAssignment (s.trail.get ti).assignment) ∉
        a.solver.ext.learned_clause.literals := by
    intro hin
    have := hm.builder _ hin
    omega
  have hadd : (a.solver.ext.learned_clause.Add (Literal.mk (s.trail.get ti).var
      (FlipVariableAssignment (s.trail.get ti).assignment))).literals =
      a.solver.ext.learned_clause.literals ++ [Literal.mk (s.trail.get ti).var
        (FlipVariableAssignment (s.trail.get ti).assignment)] := by
    unfold ClauseBuilder.Add
    simp only
    rw [if_neg hnot]
  have hmake : ((a.solver.ext.learned_clause.Add (Literal.mk (s.trail.get ti).var
      (FlipVariableAssignment (s.trail.get ti).assignment))).Make P.set_order).1.clause =
      P.set_order (a.solver.ext.learned_clause.literals ++ [Literal.mk (s.trail.get ti).var
        (FlipVariableAssignment (s.trail.get ti).assignment)]) := by
    show P.set_order _ = _
    rw [hadd]
  have hperm := hP (a.solver.ext.learned_clause.literals ++ [Literal.mk (s.trail.get ti).var
    (FlipVariableAssignment (s.trail.get ti).assignment)])
  have hassn := h.sound.trail_assignment _ (List.getElem?_mem het)
  have huipf : Literal.IsFalse (Literal.mk (s.trail.get ti).var
      (FlipVariableAssignment (s.trail.get ti).assignment)) s.assignment := by
    rw [← hassn.1]
    exact Literal.mk_flip_isFalse _ _ (by rw [hassn.1]; exact hassn.2)
  rw [hmake]
  refine ⟨?_, ?_, ?_⟩
  · intro l hl
    have hl2 := hperm.mem_iff.mp hl
    rw [List.mem_append, List.mem_singleton] at hl2
    rcases hl2 with hl2 | hl2
    · exact hm.builder_false l hl2
    · rw [hl2]
      exact huipf
  · have hp2 := hperm.filter
      (fun l => decide (s.trail.LevelOf (Literal.Variable l) = s.trail.level))
    rw [List.filter_append] at hp2
    have hnil : a.solver.ext.learned_clause.literals.filter
        (fun l => decide (s.trail.LevelOf (Literal.Variable l) = s.trail.level)) = [] := by
      rw [List.filter_eq_nil_iff]
      intro l hl
      have := hm.builder l hl
      simp only [decide_eq_true_eq]
      omega
    have hone : [Literal.mk (s.trail.get ti).var
        (FlipVariableAssignment (s.trail.get ti).assignment)].filter
        (fun l => decide (s.trail.LevelOf (Literal.Variable l) = s.trail.level)) =
        [Literal.mk (s.trail.get ti).var
          (FlipVariableAssignment (s.trail.get ti).assignment)] := by
      rw [List.filter_cons_of_pos (by simpa using huiplv)]
      rfl
    rw [hnil, hone, List.nil_append] at hp2
    exact List.perm_singleton.mp hp2
  · apply DecisionTrail.MaxLevel_eq
    · intro l hl
      rw [List.mem_filter] at hl
      have hl2 := hperm.mem_iff.mp hl.1
      rw [List.mem_append, List.mem_singleton] at hl2
      rcases hl2 with hl2 | hl2
      · exact hm.builder l hl2
      · exfalso
        have := hl.2
        simp only [decide_eq_true_eq] at this
        exact this hl2
    · rcases hm.builder_max with h0 | ⟨l, hl, hlv⟩
      · exact Or.inl h0
      · refine Or.inr ⟨l, ?_, hlv⟩
        rw [List.mem_filter]
        refine ⟨hperm.mem_iff.mpr (List.mem_append_left _ hl), ?_⟩
        simp only [decide_eq_true_eq]
        intro heq
        rw [heq] at hl
        exact hnot hl

end CdclSolver

end pjos

namespace pjos

namespace CdclSolver

variable {S : Type}

/-- The entry that `Find` returns for an assigned variable of the formula. -/
theorem Sound.last_found {F : Formula} {s : CdclSolver S} (hs : Sound F s)
    (hf : s.trail.Found) {v : Nat} (hv1 : 1 ≤ v) (hv2 : v ≤ s.formula.num_of_variables)
    (ha : s.assignment.get v ≠ .Unassigned) :
    ∃ (j : Nat) (e : DecisionTrail.Entry), s.trail.var_index[v - 1]? = some (some j) ∧
      s.trail.trail[j]? = some e ∧ e.var = v ∧ s.trail.Find v = some e := by
  obtain ⟨e0, he0m, he0v⟩ := hs.assigned_on_trail v hv1 hv2 ha
  obtain ⟨i, hi⟩ := List.mem_iff_getElem?.mp he0m
  obtain ⟨j, _, hj⟩ := hf i e0 hi
  rw [he0v] at hj
  obtain ⟨e, he, hev⟩ := hs.index _ _ hj
  exact ⟨j, e, hj, he, by omega, DecisionTrail.Find_of_index _ _ _ _ hv1 hj he⟩

/-- The marking of a clause for the final conflict analysis returns, when every literal of the
clause is on a variable that is marked already or assigned; a variable newly marked `Pending`
has its entry at or below the position of the scan. -/
theorem MarkClauseForFinalConflictAnalysis_total {F : Formula} {s : CdclSolver S}
    (hs : Sound F s) (hf : s.trail.Found) (ac : Bool) (ti : Nat) :
    ∀ (lits : List Literal) (t : CdclSolver S), BaseSolver.SameShared t s →
      t.ext.analysis_track.length = s.formula.num_of_variables →
      (∀ l ∈ lits, l ≠ 0 ∧ Literal.Variable l ≤ s.formula.num_of_variables ∧
        (AnalysisTrackOf t (Literal.Variable l) ≠ .Untracked ∨
          (s.assignment.get (Literal.Variable l) ≠ .Unassigned ∧
            ∀ (j : Nat) (e : DecisionTrail.Entry),
              s.trail.var_index[Literal.Variable l - 1]? = some (some j) →
              s.trail.trail[j]? = some e → 0 ≤ e.reason → j ≤ ti))) →
      ∃ (more : Nat) (t1 : CdclSolver S),
        MarkClauseForFinalConflictAnalysis ac lits t = .ok (more, t1) ∧
        BaseSolver.SameShared t1 s ∧
        t1.ext.analysis_track.length = s.formula.num_of_variables ∧
        t1.ext.analysis_track.count .Pending = t.ext.analysis_track.count .Pending + more ∧
        (∀ v, AnalysisTrackOf t1 v = .Processed ↔ AnalysisTrackOf t v = .Processed) ∧
        (∀ v, AnalysisTrackOf t v ≠ .Untracked → AnalysisTrackOf t1 v ≠ .Untracked) ∧
        (∀ v, 1 ≤ v → AnalysisTrackOf t1 v = .Pending → AnalysisTrackOf t v = .Pending ∨
          ∃ (j : Nat) (e : DecisionTrail.Entry), s.trail.var_index[v - 1]? = some (some j) ∧
            s.trail.trail[j]? = some e ∧ j ≤ ti)
  | [], t, hsh, hlen, _ => ⟨0, t, rfl, hsh, hlen, rfl, fun _ => Iff.rfl, fun _ hv => hv,
      fun _ _ hp => Or.inl hp⟩
  | literal :: rest, t, hsh, hlen, hl => by
    obtain ⟨hl0, hlN, hlt⟩ := hl literal (List.mem_cons_self _ _)
    have hrest := fun l hm1 => hl l (List.mem_cons_of_mem literal hm1)
    have hv1 := Literal.variable_pos hl0
    unfold MarkClauseForFinalConflictAnalysis
    simp only
    by_cases h1 : AnalysisTrackOf t (Literal.Variable literal) ≠ .Untracked
    · rw [if_pos h1]
      exact MarkClauseForFinalConflictAnalysis_total hs hf ac ti rest t hsh hlen hrest
    · rw [if_neg h1]
      have hun : AnalysisTrackOf t (Literal.Variable literal) = .Untracked := by
        by_contra hne
        exact h1 hne
      have hcond : s.assignment.get (Literal.Variable literal) ≠ .Unassigned ∧
          ∀ (j : Nat) (e : DecisionTrail.Entry),
            s.trail.var_index[Literal.Variable literal - 1]? = some (some j) →
            s.trail.trail[j]? = some e → 0 ≤ e.reason → j ≤ ti := by
        rcases hlt with hlt | hlt
        · exact absurd hlt h1
        · exact hlt
      obtain ⟨j, e, hj, he, hev, hfind⟩ := hs.last_found hf hv1 hlN hcond.1
      have hfind2 : t.trail.Find (Literal.Variable literal) = some e := by
        rw [hsh.trail]; exact hfind
      have hidx : t.ext.analysis_track[Literal.Variable literal - 1]? = some .Untracked :=
        AnalysisTrackOf_untracked_index hun (by rw [hlen]; omega)
      rw [hfind2]
      simp only
      by_cases hc1 : DecisionTrail.IsPropagatedFromClause e.reason = true ∧ ac = false
      · rw [if_pos hc1]
        have hre : 0 ≤ e.reason := by
          have := hc1.1
          unfold DecisionTrail.IsPropagatedFromClause at this
          simpa using this
        have htrack : ∀ v, AnalysisTrackOf
            (SetAnalysisTrackOf t (Literal.Variable literal) .Pending) v =
            if v - 1 = Literal.Variable literal - 1 ∧
              Literal.Variable literal - 1 < t.ext.analysis_track.length then .Pending
            else AnalysisTrackOf t v := fun v => AnalysisTrackOf_set _ _ _ _
        have hcount : (t.ext.analysis_track.set (Literal.Variable literal - 1)
            .Pending).count .Pending = t.ext.analysis_track.count .Pending + 1 :=
          List.count_set_of_ne _ _ (by decide) _ _ hidx
        obtain ⟨more, t1, hr, hsh1, hlen1, hc, hp, htr, hpend⟩ :=
          MarkClauseForFinalConflictAnalysis_total hs hf ac ti rest
            (SetAnalysisTrackOf t (Literal.Variable literal) .Pending)
            ⟨hsh.formula, hsh.variable_index, hsh.watchers, hsh.assignment, hsh.trail,
              hsh.pending⟩
            (by
              show (t.ext.analysis_track.set _ _).length = _
              rw [List.length_set]; exact hlen)
            (fun l hlm => by
              obtain ⟨h2, h3, h4⟩ := hrest l hlm
              refine ⟨h2, h3, ?_⟩
              rcases h4 with h4 | h4
              · left
                rw [htrack]
                split_ifs
                · decide
                · exact h4
              · exact Or.inr h4)
        rw [hr]
        refine ⟨more + 1, t1, rfl, hsh1, hlen1, ?_, ?_, ?_, ?_⟩
        · have hc2 : t1.ext.analysis_track.count .Pending =
              (t.ext.analysis_track.set (Literal.Variable literal - 1) .Pending).count
                .Pending + more := hc
          omega
        · intro v
          rw [hp, htrack]
          split_ifs with hsame
          · constructor
            · intro hx; cases hx
            · intro hx
              exfalso
              have : AnalysisTrackOf t v = AnalysisTrackOf t (Literal.Variable literal) := by
                unfold AnalysisTrackOf
                rw [hsame.1]
              rw [this, hun] at hx
              cases hx
          · exact Iff.rfl
        · intro v hv
          apply htr
          rw [htrack]
          split_ifs
          · decide
          · exact hv
        · intro v hv hvp
          rcases hpend v hv hvp with h5 | h5
          · rw [htrack] at h5
            split_ifs at h5 with hsame
            · right
              have hvv : v = Literal.Variable literal := by omega
              rw [hvv]
              exact ⟨j, e, hj, he, hcond.2 j e hj he hre⟩
            · exact Or.inl h5
          · exact Or.inr h5
      · rw [if_neg hc1]
        by_cases hc2 : e.reason = DecisionTrail.ReasonAssumption ∨ ac = true
        · rw [if_pos hc2]
          exact MarkClauseForFinalConflictAnalysis_total hs hf ac ti rest _
            ⟨hsh.formula, hsh.variable_index, hsh.watchers, hsh.assignment, hsh.trail,
              hsh.pending⟩ hlen hrest
        · rw [if_neg hc2]
          exact MarkClauseForFinalConflictAnalysis_total hs hf ac ti rest t hsh hlen hrest

/-- The loop of `AnalyzeFinalConflict` returns: every scan of the trail finds an entry marked
`Pending`. -/
theorem AnalyzeFinalConflictLoop_total {F : Formula} {s : CdclSolver S} {iter : Nat}
    (hi : Inv s iter) (hs : Sound F s) (hf : s.trail.Found) :
    ∀ (n : Nat) (t : CdclSolver S) (pending ti : Nat), BaseSolver.SameShared t s →
      t.ext.analysis_track.length = s.formula.num_of_variables →
      pending = t.ext.analysis_track.count .Pending →
      (∀ v, 1 ≤ v → AnalysisTrackOf t v = .Pending →
        ∃ (j : Nat) (e : DecisionTrail.Entry), s.trail.var_index[v - 1]? = some (some j) ∧
          s.trail.trail[j]? = some e ∧ j ≤ ti) →
      1 ≤ n →
      (0 < pending → ti < s.trail.Length ∧
        (ti + 2 ≤ n ∨ (ti + 1 ≤ n ∧ AnalysisTrackOf t (s.trail.get ti).var = .Processed))) →
      ∃ t1, AnalyzeFinalConflictLoop n t pending ti = .ok t1
  | 0, _, _, _, _, _, _, _, hn, _ => by
    exfalso
    omega
  | n + 1, t, pending, ti, hsh, hlen, hcnt, hpf, _, hfuel => by
    unfold AnalyzeFinalConflictLoop
    by_cases hpos : pending > 0
    · rw [if_pos hpos]
      obtain ⟨hti, hfuel2⟩ := hfuel hpos
      have htr : t.trail = s.trail := hsh.trail
      obtain ⟨v, hv1, hvp⟩ := AnalysisTrackOf_of_count_pos (t := t) .Pending (by omega)
      obtain ⟨j, e, hj, he, hjti⟩ := hpf v hv1 hvp
      have hjlt : j < s.trail.Length := (List.getElem?_eq_some_iff.mp he).1
      have hgetj : s.trail.get j = e := by
        have := get_getElem? s.trail j hjlt
        rw [he] at this
        cases this
        rfl
      have hevar : e.var = v := by
        obtain ⟨e1, he1, hev⟩ := hs.index _ _ hj
        rw [he] at he1
        cases he1
        omega
      obtain ⟨ti1, hfp, hle, hpend, hmax⟩ := FindPending_total t ti
        (by rw [htr]; exact hti) ⟨j, hjti, by rw [htr, hgetj, hevar]; exact hvp⟩
      rw [htr] at hpend hmax
      have hti1 : ti1 < s.trail.Length := by omega
      have het := get_getElem? s.trail ti1 hti1
      have hrange := hi.trail_range _ (List.getElem?_mem het)
      have hvlt : (s.trail.get ti1).var - 1 < t.ext.analysis_track.length := by
        rw [hlen]; omega
      have hidx := AnalysisTrackOf_index hpend (by decide)
      have htrack : ∀ u, AnalysisTrackOf
          (SetAnalysisTrackOf t (s.trail.get ti1).var .Processed) u =
          if u - 1 = (s.trail.get ti1).var - 1 then .Processed
          else AnalysisTrackOf t u := by
        intro u
        rw [AnalysisTrackOf_set]
        by_cases hu : u - 1 = (s.trail.get ti1).var - 1
        · rw [if_pos ⟨hu, hvlt⟩, if_pos hu]
        · rw [if_neg (fun hc => hu hc.1), if_neg hu]
      have hcnt2 : (t.ext.analysis_track.set ((s.trail.get ti1).var - 1) .Processed).count
          .Pending + 1 = t.ext.analysis_track.count .Pending :=
        List.count_set_remove _ _ (by decide) _ _ hidx
      have hn1 : 1 ≤ n ∧ ti1 + 1 ≤ n := by
        rcases hfuel2 with h2 | ⟨h2, hproc⟩
        · omega
        · have hne : ti1 ≠ ti := by
            intro heq
            rw [heq, hproc] at hpend
            cases hpend
          omega
      -- what every branch of the round hands to the next round
      have key : ∀ (t2 : CdclSolver S) (more : Nat), BaseSolver.SameShared t2 s →
          t2.ext.analysis_track.length = s.formula.num_of_variables →
          t2.ext.analysis_track.count .Pending =
            (t.ext.analysis_track.set ((s.trail.get ti1).var - 1) .Processed).count .Pending +
              more →
          (∀ u, AnalysisTrackOf t2 u = .Processed ↔ AnalysisTrackOf
            (SetAnalysisTrackOf t (s.trail.get ti1).var .Processed) u = .Processed) →
          (∀ u, 1 ≤ u → AnalysisTrackOf t2 u = .Pending → AnalysisTrackOf
              (SetAnalysisTrackOf t (s.trail.get ti1).var .Processed) u = .Pending ∨
            ∃ (j : Nat) (e : DecisionTrail.Entry), s.trail.var_index[u - 1]? = some (some j) ∧
              s.trail.trail[j]? = some e ∧ j ≤ ti1) →
          ∃ t1, AnalyzeFinalConflictLoop n t2 (pending - 1 + more) ti1 = .ok t1 := by
        intro t2 more hsh2 hlen2 hc2 hp2 hpend2
        apply AnalyzeFinalConflictLoop_total hi hs hf n t2 _ ti1 hsh2 hlen2 (by omega) ?_ hn1.1
        · intro _
          refine ⟨hti1, Or.inr ⟨hn1.2, ?_⟩⟩
          rw [hp2, htrack, if_pos rfl]
        · intro u hu1 hup
          rcases hpend2 u hu1 hup with h5 | h5
          · rw [htrack] at h5
            split_ifs at h5 with hsame
            obtain ⟨j2, e2, hj2, he2, hj2ti⟩ := hpf u hu1 h5
            refine ⟨j2, e2, hj2, he2, ?_⟩
            by_contra hgt
            have hj2lt : j2 < s.trail.Length := (List.getElem?_eq_some_iff.mp he2).1
            have hgetj2 : s.trail.get j2 = e2 := by
              have := get_getElem? s.trail j2 hj2lt
              rw [he2] at this
              cases this
              rfl
            have he2var : e2.var = u := by
              obtain ⟨e3, he3, hev⟩ := hs.index _ _ hj2
              rw [he2] at he3
              cases he3
              omega
            apply hmax j2 (by omega) hj2ti
            rw [hgetj2, he2var]
            exact h5
          · exact h5
      have hsh1 : BaseSolver.SameShared
          (SetAnalysisTrackOf t (s.trail.get ti1).var .Processed) s :=
        ⟨hsh.formula, hsh.variable_index, hsh.watchers, hsh.assignment, hsh.trail, hsh.pending⟩
      have hlen1 : (SetAnalysisTrackOf t (s.trail.get ti1).var
          .Processed).ext.analysis_track.length = s.formula.num_of_variables := by
        show (t.ext.analysis_track.set _ _).length = _
        rw [List.length_set]; exact hlen
      rw [hfp]
      simp only
      rw [htr]
      by_cases hprop : DecisionTrail.IsPropagatedFromClause (s.trail.get ti1).reason = true
      · rw [if_pos hprop]
        have hre : 0 ≤ (s.trail.get ti1).reason := by
          unfold DecisionTrail.IsPropagatedFromClause at hprop
          simpa using hprop
        have hform : (SetAnalysisTrackOf t (s.trail.get ti1).var .Processed).formula =
            s.formula := hsh.formula
        rw [hform]
        obtain ⟨more, t2, hr, hsh2, hlen2, hc2, hp2, _, hpend2⟩ :=
          MarkClauseForFinalConflictAnalysis_total hs hf false ti1
            (s.formula.get (s.trail.get ti1).reason.toNat).clause
            (SetAnalysisTrackOf t (s.trail.get ti1).var .Processed) hsh1 hlen1
            (fun l hlm => by
              have hwf := Formula.get_wellFormed hi.consistent.wf _ l hlm
              refine ⟨hwf.1, hwf.2, ?_⟩
              rcases (hs.reasons ti1 _ het hre).2 l hlm with hself | ⟨hfalse, hrank⟩
              · left
                rw [htrack, hself, Literal.variable_mk, if_pos rfl]
                decide
              · right
                refine ⟨hfalse.1, fun j2 e2 hj2 he2 hre2 => ?_⟩
                have he2var : e2.var = Literal.Variable l := by
                  obtain ⟨e3, he3, hev⟩ := hs.index _ _ hj2
                  rw [he2] at he3
                  cases he3
                  have := Literal.variable_pos hwf.1
                  omega
                have hra : e2.reason ≠ DecisionTrail.ReasonAssumption := by
                  intro heq
                  rw [heq] at hre2
                  unfold DecisionTrail.ReasonAssumption at hre2
                  omega
                have := hs.rank_entry he2 hra
                rw [he2var] at this
                omega)
        rw [hr]
        exact key t2 more hsh2 hlen2 hc2 hp2 hpend2
      · rw [if_neg hprop]
        by_cases hasm : (s.trail.get ti1).reason = DecisionTrail.ReasonAssumption
        · rw [if_pos hasm]
          exact key _ 0
            ⟨hsh.formula, hsh.variable_index, hsh.watchers, hsh.assignment, hsh.trail,
              hsh.pending⟩ hlen1 rfl (fun _ => Iff.rfl) (fun _ _ hp => Or.inl hp)
        · rw [if_neg hasm]
          exact key _ 0 hsh1 hlen1 rfl (fun _ => Iff.rfl) (fun _ _ hp => Or.inl hp)
    · rw [if_neg hpos]
      exact ⟨t, rfl⟩

/-- The final conflict analysis returns for a conflict whose literals are assigned. -/
theorem AnalyzeFinalConflict_total {F : Formula} {s : CdclSolver S} {iter : Nat}
    (hi : Inv s iter) (hs : Sound F s) (hf : s.trail.Found) (conflict : List Literal)
    (ac : Bool)
    (hc : ∀ l ∈ conflict, l ≠ 0 ∧ Literal.Variable l ≤ s.formula.num_of_variables ∧
      s.assignment.get (Literal.Variable l) ≠ .Unassigned) :
    ∃ s1, AnalyzeFinalConflict s conflict ac = .ok s1 := by
  have hL : s.trail.Length = s.trail.trail.length := rfl
  obtain ⟨more, t1, hr, hsh1, hlen1, hc1, _, _, hpend1⟩ :=
    MarkClauseForFinalConflictAnalysis_total hs hf ac (s.trail.Length - 1) conflict
      (ClearAnalysisTrack s) ⟨rfl, rfl, rfl, rfl, rfl, rfl⟩
      (by
        show (List.replicate _ _).length = _
        rw [List.length_replicate]
        exact hs.track_length)
      (fun l hl => by
        obtain ⟨h1, h2, h3⟩ := hc l hl
        refine ⟨h1, h2, Or.inr ⟨h3, fun j e _ he _ => ?_⟩⟩
        have : j < s.trail.trail.length := (List.getElem?_eq_some_iff.mp he).1
        omega)
  have hzero : (ClearAnalysisTrack s).ext.analysis_track.count .Pending = 0 := by
    show (List.replicate _ AnalysisTrackState.Untracked).count _ = 0
    rw [List.count_replicate]
    simp
  have hpf : ∀ v, 1 ≤ v → AnalysisTrackOf t1 v = .Pending →
      ∃ (j : Nat) (e : DecisionTrail.Entry), s.trail.var_index[v - 1]? = some (some j) ∧
        s.trail.trail[j]? = some e ∧ j ≤ s.trail.Length - 1 := by
    intro v hv hp
    rcases hpend1 v hv hp with h5 | h5
    · rw [AnalysisTrackOf_clear] at h5
      cases h5
    · exact h5
  unfold AnalyzeFinalConflict
  simp only
  rw [hr]
  simp only
  rw [hsh1.trail]
  apply AnalyzeFinalConflictLoop_total hi hs hf _ t1 more _ hsh1 hlen1 (by omega) hpf (by omega)
  intro hpos
  obtain ⟨v, hv1, hvp⟩ := AnalysisTrackOf_of_count_pos (t := t1) .Pending (by omega)
  obtain ⟨j, e, _, he, _⟩ := hpf v hv1 hvp
  have : j < s.trail.trail.length := (List.getElem?_eq_some_iff.mp he).1
  exact ⟨by omega, Or.inl (by omega)⟩

end CdclSolver

end pjos

namespace pjos

/-- A literal made of a variable and a value is true under that value only. -/
theorem Literal.eval_mk_true {v : Nat} {b x : VariableAssignment}
    (h : Literal.Eval (Literal.mk v b) x = true) : x = b ∨ b = .Unassigned := by
  unfold Literal.Eval Literal.mk at h
  cases b <;> cases x <;> simp at h ⊢ <;>
    exact absurd h (not_lt.mpr (Int.ofNat_nonneg v))

/-- An exact watcher of a clause without repeated literals in which one literal is unassigned
and every other literal is false has the status `Unit`, and its first watch is on the
unassigned literal. -/
theorem Watcher.unit_of_exact {w : Watcher} {assn : Assignment} {r : Nat → Nat}
    (hok : w.Ok assn) (ht : w.Tight assn r) (hu : w.UndecidedOk) (u : Literal)
    (hmem : u ∈ w.clause.clause) (hnd : w.clause.clause.Nodup)
    (hun : assn.get (Literal.Variable u) = .Unassigned)
    (hfalse : ∀ l ∈ w.clause.clause, l ≠ u → Literal.IsFalse l assn) :
    w.status = .Unit ∧ w.watched_literals.1 ≠ -1 ∧ w.watched_literals.2 = -1 ∧
      w.clause.get w.watched_literals.1.toNat = u := by
  obtain ⟨hrange, hsat, hunas⟩ := hok
  obtain ⟨hsw, hnone, _, _⟩ := ht
  have hnotrue : ∀ l ∈ w.clause.clause,
      Literal.Eval l (assn.get (Literal.Variable l)) = false := by
    intro l hl
    by_cases hlu : l = u
    · rw [hlu, hun]
      exact Literal.eval_unassigned _
    · exact (hfalse l hl hlu).2
  -- a watch on an unassigned literal is on `u`
  have hwatch : ∀ i : Int, w.WatchInRange i → i ≠ -1 → w.UnassignedAt assn i →
      0 ≤ i ∧ i.toNat < w.clause.clause.length ∧ w.clause.get i.toNat = u := by
    intro i hir hi1 hia
    rcases hir with hir | ⟨hi0, hilt⟩
    · exact absurd hir hi1
    · refine ⟨hi0, hilt, ?_⟩
      by_contra hne
      exact (hfalse _ (ClauseView.get_mem _ _ hilt) hne).1 hia
  have hnotsat : w.status ≠ .Satisfied := by
    intro hs
    have hsome : ∀ i : Int, w.WatchInRange i → w.IsSatisfied assn i = true → False := by
      intro i hir hi
      unfold Watcher.IsSatisfied at hi
      split_ifs at hi with hi1
      rcases hir with hir | ⟨_, hilt⟩
      · exact hi1 hir
      · simp only at hi
        rw [hnotrue _ (ClauseView.get_mem _ _ hilt)] at hi
        cases hi
    rcases hsat hs with h1 | h1
    · exact hsome _ hrange.1 h1
    · exact hsome _ hrange.2.1 h1
  have hfirst : w.watched_literals.1 ≠ -1 := by
    intro h1
    exact hnone.1 h1 u hmem hun
  obtain ⟨h10, h1lt, h1u⟩ := hwatch _ hrange.1 hfirst ((hunas hnotsat).1 hfirst)
  have hsecond : w.watched_literals.2 = -1 := by
    by_contra h2
    obtain ⟨h20, h2lt, h2u⟩ := hwatch _ hrange.2.1 h2 ((hunas hnotsat).2 h2)
    have hst : w.status = .Undecided := by
      cases hst : w.status with
      | Satisfied => exact absurd hst hnotsat
      | Unsatisfied => exact absurd (hsw.2 hst).1 hfirst
      | Unit => exact absurd (hsw.1 hst) h2
      | Undecided => rfl
    have hne := (hu hst).2
    apply hne
    have hg1 : w.clause.clause[w.watched_literals.1.toNat]? = some u := by
      rw [List.getElem?_eq_getElem h1lt]
      have := h1u
      unfold ClauseView.get at this
      rw [List.getD_eq_getElem?_getD, List.getElem?_eq_getElem h1lt] at this
      simpa using this
    have hg2 : w.clause.clause[w.watched_literals.2.toNat]? = some u := by
      rw [List.getElem?_eq_getElem h2lt]
      have := h2u
      unfold ClauseView.get at this
      rw [List.getD_eq_getElem?_getD, List.getElem?_eq_getElem h2lt] at this
      simpa using this
    have heq : w.watched_literals.1.toNat = w.watched_literals.2.toNat := by
      have h3 := (List.getElem?_eq_some_iff.mp hg1).2
      have h4 := (List.getElem?_eq_some_iff.mp hg2).2
      exact (List.Nodup.getElem_inj_iff hnd).mp (h3.trans h4.symm)
    omega
  refine ⟨?_, hfirst, hsecond, h1u⟩
  cases hst : w.status with
  | Satisfied => exact absurd hst hnotsat
  | Unsatisfied => exact absurd (hsw.2 hst).1 hfirst
  | Unit => rfl
  | Undecided => exact absurd hsecond (hu hst).1

namespace CdclSolver

variable {S : Type}

/-- The entries that `Backjump` pops are above the level. -/
theorem BackjumpLoop_popped (F : Formula) (iter level : Nat) :
    ∀ (n : Nat) (s s1 : CdclSolver S) (b : Bool), Inv s iter → Sound F s →
      BackjumpLoop level n s = .ok (b, s1) →
      ∃ rest, s.trail.trail = s1.trail.trail ++ rest ∧ ∀ e ∈ rest, level < e.level
  | 0, _, _, _, _, _, hr => by
    simp [BackjumpLoop] at hr
  | n + 1, s, s1, b, h, hs, hr => by
    unfold BackjumpLoop at hr
    split_ifs at hr with h0
    · have htop : s.trail.Top = (s.trail.trail.getLast?, s.trail) := by
        unfold DecisionTrail.Top
        simp only [h.skipStale]
      simp only [htop] at hr
      split at hr
      · rename_i hnone
        exfalso
        have hl := hs.level_last
        rw [hnone] at hl
        simp only [Option.map_none', Option.getD_none] at hl
        have h0a : s.trail.level > level := h0
        omega
      · rename_i e he
        have hsplit : s.trail.trail = s.trail.trail.dropLast ++ [e] :=
          (List.dropLast_append_getLast? e he).symm
        have hpf := h.pop_fields he
        have helv : level < e.level := by
          have hl := hs.level_last
          rw [he] at hl
          simp only [Option.map_some', Option.getD_some] at hl
          have h0a : s.trail.level > level := h0
          omega
        split_ifs at hr with h1 h2
        · have hi2 : Inv ({ s with ext := { s.ext with
              saved_phases := s.ext.saved_phases.set e.var e.assignment } } : CdclSolver S) iter :=
            h.of_shared ⟨rfl, rfl, rfl, rfl, rfl, rfl⟩ (fun v hv => hv) h.builder_ok
          have hrange := h.trail_range e (List.mem_of_mem_getLast? he)
          have hi3 := hi2.assign e.var .Unassigned hrange.1 hrange.2
            (fun j v a hj hp hv =>
              DecisionTrail.Guarded.top_var_ne (h.applied j v a hj hp).2 he h1 hv.symm)
          have hi4 := hi3.pop he h1
          have hs4 : Sound F ({ (BaseSolver.Assign ({ s with ext := { s.ext with
                saved_phases := s.ext.saved_phases.set e.var e.assignment } } : CdclSolver S)
                e.var .Unassigned) with
              trail := (BaseSolver.Assign ({ s with ext := { s.ext with
                saved_phases := s.ext.saved_phases.set e.var e.assignment } } : CdclSolver S)
                e.var .Unassigned).trail.Pop } : CdclSolver S) :=
            hs.unassign_pop h e he h1 rfl rfl rfl rfl rfl rfl
          obtain ⟨rest, ih3, ih4⟩ := BackjumpLoop_popped F iter level n _ s1 b hi4 hs4 hr
          refine ⟨rest ++ [e], ?_, ?_⟩
          · rw [← List.append_assoc, ← ih3]
            exact hsplit.trans (by rw [← hpf.1]; rfl)
          · intro e1 he1
            rw [List.mem_append, List.mem_singleton] at he1
            rcases he1 with he1 | he1
            · exact ih4 e1 he1
            · rw [he1]; exact helv
        · have hrange := h.trail_range e (List.mem_of_mem_getLast? he)
          have hi3 := h.assign e.var .Unassigned hrange.1 hrange.2
            (fun j v a hj hp hv =>
              DecisionTrail.Guarded.top_var_ne (h.applied j v a hj hp).2 he h1 hv.symm)
          have hi4 := hi3.pop he h1
          have hs4 : Sound F ({ (BaseSolver.Assign s e.var .Unassigned) with
              trail := (BaseSolver.Assign s e.var .Unassigned).trail.Pop } : CdclSolver S) :=
            hs.unassign_pop h e he h1 rfl rfl rfl rfl rfl rfl
          obtain ⟨rest, ih3, ih4⟩ := BackjumpLoop_popped F iter level n _ s1 b hi4 hs4 hr
          refine ⟨rest ++ [e], ?_, ?_⟩
          · rw [← List.append_assoc, ← ih3]
            exact hsplit.trans (by rw [← hpf.1]; rfl)
          · intro e1 he1
            rw [List.mem_append, List.mem_singleton] at he1
            rcases he1 with he1 | he1
            · exact ih4 e1 he1
            · rw [he1]; exact helv
    · cases hr
      exact ⟨[], by simp, fun e he => by cases he⟩

/-- The state after the learned clause was appended and `Backjump` returned `true`: the
invariant of the main loop holds, the learned clause is the last clause of the formula, and the
trail is the part of the trail at the conflict that is at or below the backjump level. -/
theorem LoopInv.backjumped (P : Platform S) (hP : P.SetOrderOk) {F : Formula}
    {s s1 s2 : CdclSolver S} {iter : Nat} (h : LoopInv F s iter) (cc : Nat)
    (hcc : cc < s.formula.NumOfClauses)
    (hcf : ∀ l ∈ (s.formula.get cc).clause, Literal.IsFalse l s.assignment)
    (learned : Clause) (bl : Nat)
    (han : AnalyzeConflict P s (s.formula.get cc) = .ok (learned, bl, s1))
    (hbj : Backjump (AppendClause P s1 learned) bl = .ok (true, s2)) :
    LoopInv F s2 iter ∧ s2.formula.clauses = s.formula.clauses ++ [learned] ∧
    s.formula.num_of_variables ≤ s2.formula.num_of_variables ∧ s2.trail.level ≤ bl ∧
    ∃ rest, s.trail.trail = s2.trail.trail ++ rest ∧
      (∀ e ∈ rest, e.reason ≠ DecisionTrail.ReasonAssumption) ∧
      ∀ e ∈ rest, bl < e.level := by
  have hwf := Formula.get_wellFormed h.inv.consistent.wf cc
  have hcm : s.formula.get cc ∈ s.formula.clauses := BaseSolver.Formula_get_mem _ _ hcc
  obtain ⟨hi3, hsh3, hlearned⟩ := AnalyzeConflict_spec P hP iter s s1 _
    learned bl (fun l hl => (hwf l hl).1) h.inv han
  obtain ⟨hs3, hb3, hlf, hlimp⟩ := AnalyzeConflict_sound P hP F iter s s1 _
    learned bl h.sound h.inv h.shape.builder hcf hcm han
  obtain ⟨hbl, ti, eu, heu, heul, heum⟩ := AnalyzeConflict_uip P hP iter s s1
    _ learned bl (fun l hl => (hwf l hl).1) h.inv han
  have hshape3 : Shape s.formula.clauses s1 :=
    h.shape.of_fields hsh3.watchers hsh3.assignment hsh3.trail hb3
  obtain ⟨hi4, hf4, hp4⟩ := AppendClause_spec P iter s1 learned hi3 hlearned
  have hs4 : Sound F (AppendClause P s1 learned) :=
    hs3.append_clause P hi3 learned (by rw [hsh3.assignment]; exact hlf)
      (by rw [hsh3.formula]; exact hlimp)
  have hshape4 : Shape s.formula.clauses (AppendClause P s1 learned) :=
    hshape3.clause_appended P hi3 learned
  obtain ⟨hf4a, _, hα4, ht4, _, _⟩ := AppendClause_fields P s1 learned hi3.consistent
  have hN : s1.formula.num_of_variables ≤
      (s1.formula.AppendClause learned).num_of_variables := by
    simp [Formula.AppendClause]
  obtain ⟨hi5, hf5, hp5⟩ := BackjumpLoop_spec iter bl _ _ s2 true hi4 hbj
  obtain ⟨hs5, _, hb5⟩ := BackjumpLoop_sound F iter bl _ _ s2 true hi4 hs4 hbj
  obtain ⟨hshape5, hlv5, rest, hrest1, hrest2⟩ :=
    BackjumpLoop_shape F iter bl s.formula.clauses _ _ s2 true hi4 hs4 hshape4
      (fun c hc => by rw [hf4, hsh3.formula]; exact List.mem_append_left _ hc) hbj
  obtain ⟨rest2, hrest3, hrest4⟩ := BackjumpLoop_popped F iter bl _ _ s2 true hi4 hs4 hbj
  have hresteq : rest2 = rest := by
    rw [hrest1] at hrest3
    exact (List.append_cancel_left hrest3).symm
  have htr4 : (AppendClause P s1 learned).trail.trail = s.trail.trail := by
    rw [ht4, DecisionTrail.SetNumOfVariables_entries, hsh3.trail]
  have heu4 : (AppendClause P s1 learned).trail.trail[ti]? = some eu := by
    rw [htr4]; exact heu
  have heur := h.inv.trail_range eu (List.getElem?_mem heu)
  have hun : s2.assignment.get eu.var = .Unassigned :=
    hs4.popped_unassigned hs5 rest hrest1 hrest2 ti eu heu4 (by omega) heur.1
      (by
        rw [hf5, hf4a]
        exact le_trans (by rw [hsh3.formula]; exact heur.2) hN)
  have hclauses : s2.formula.clauses = s.formula.clauses ++ [learned] := by
    rw [hf5, hf4, hsh3.formula]
  have hshape6 : Shape s2.formula.clauses s2 := by
    refine ⟨hshape5.undecided, hshape5.found, hshape5.starts, ?_, hshape5.builder⟩
    rw [hclauses]
    refine hshape5.early.add_clause learned ⟨_, heum, ?_⟩
    intro hfalse
    apply hfalse.1
    rw [Literal.variable_mk]
    exact hun
  have hnv : s.formula.num_of_variables ≤ s2.formula.num_of_variables := by
    rw [hf5, hf4a, ← hsh3.formula]
    exact hN
  refine ⟨⟨hi5, hs5, hshape6⟩, hclauses, hnv, hlv5, rest, ?_, hrest2, ?_⟩
  · rw [← htr4]; exact hrest1
  · rw [← hresteq]; exact hrest4

end CdclSolver

end pjos

namespace pjos

namespace CdclSolver

variable {S : Type}

/-- The clause that the conflict analysis makes lists the literals collected and the negated
literal of the entry at which the loop stopped, which was not collected. -/
theorem Marks.learned_perm {s : CdclSolver S} (P : Platform S) (hP : P.SetOrderOk)
    {a : ConflictAnalysis S} {ti : Nat} (hm : Marks s a ti) (hv1 : 1 ≤ (s.trail.get ti).var)
    (hti : ti < s.trail.Length) (hlevel : (s.trail.get ti).level = s.trail.level)
    (hidx : s.trail.var_index[(s.trail.get ti).var - 1]? = some (some ti)) :
    List.Perm
      ((a.solver.ext.learned_clause.Add (Literal.mk (s.trail.get ti).var
        (FlipVariableAssignment (s.trail.get ti).assignment))).Make P.set_order).1.clause
      (a.solver.ext.learned_clause.literals ++ [Literal.mk (s.trail.get ti).var
        (FlipVariableAssignment (s.trail.get ti).assignment)]) ∧
    Literal.mk (s.trail.get ti).var (FlipVariableAssignment (s.trail.get ti).assignment) ∉
      a.solver.ext.learned_clause.literals := by
  have het := get_getElem? s.trail ti hti
  have huiplv : s.trail.LevelOf (Literal.Variable (Literal.mk (s.trail.get ti).var
      (FlipVariableAssignment (s.trail.get ti).assignment))) = s.trail.level := by
    rw [Literal.variable_mk, DecisionTrail.LevelOf_of_index _ _ _ _ hv1 hidx het]
    exact hlevel
  have hbj := hm.backjump
  have hnot : Literal.mk (s.trail.get ti).var
      (FlipVariableAssignment (s.trail.get ti).assignment) ∉
        a.solver.ext.learned_clause.literals := by
    intro hin
    have := hm.builder _ hin
    omega
  refine ⟨?_, hnot⟩
  have hadd : (a.solver.ext.learned_clause.Add (Literal.mk (s.trail.get ti).var
      (FlipVariableAssignment (s.trail.get ti).assignment))).literals =
      a.solver.ext.learned_clause.literals ++ [Literal.mk (s.trail.get ti).var
        (FlipVariableAssignment (s.trail.get ti).assignment)] := by
    unfold ClauseBuilder.Add
    simp only
    rw [if_neg hnot]
  show List.Perm (P.set_order _) _
  rw [hadd]
  exact hP _

/-- A sequence of justified propagation steps keeps the values of the assigned variables. -/
theorem LoopInv.propagateAll_keeps {F : Formula} {iter : Nat} :
    ∀ (steps : List (Nat × Literal)) (s : CdclSolver S), LoopInv F s iter →
      BaseSolver.UnitJustified s steps → ∀ v, 1 ≤ v → s.assignment.get v ≠ .Unassigned →
      (BaseSolver.PropagateAll s steps).assignment.get v = s.assignment.get v
  | [], _, _, _, _, _, _ => rfl
  | (reason, literal) :: rest, s, h, hj, v, hv, ha => by
    obtain ⟨⟨h1, h2, h3, h4⟩, h5⟩ := hj
    have hwf := Formula.get_wellFormed h.inv.consistent.wf _ literal h2
    have hstep : (BaseSolver.Propagate s (Literal.Assignment literal).1
        (Literal.Assignment literal).2 reason).assignment.get v = s.assignment.get v := by
      show (s.assignment.set (Literal.Variable literal) _).get v = _
      apply Assignment.get_set_other _ _ _ _ hv (Literal.variable_pos hwf.1)
      intro heq
      rw [heq] at ha
      exact ha h3
    have ih := LoopInv.propagateAll_keeps rest _
      (h.propagate reason literal h2 hwf.1 hwf.2 h3 h4) h5 v hv (by rw [hstep]; exact ha)
    show (BaseSolver.PropagateAll (BaseSolver.Propagate s _ _ reason) rest).assignment.get v = _
    rw [ih, hstep]

/-- The state after the backjump, seen from the learned clause: the negated literal of the
entry at which the analysis stopped is unassigned, every other literal of the clause is false,
and no literal is repeated. -/
theorem LoopInv.asserting (P : Platform S) (hP : P.SetOrderOk) {F : Formula}
    {s s1 s2 : CdclSolver S} {iter : Nat} (h : LoopInv F s iter) (h0 : 0 < s.trail.level)
    (cc : Nat) (hcc : cc < s.formula.NumOfClauses)
    (hcf : ∀ l ∈ (s.formula.get cc).clause, Literal.IsFalse l s.assignment)
    (learned : Clause) (bl : Nat)
    (han : AnalyzeConflict P s (s.formula.get cc) = .ok (learned, bl, s1))
    (hbj : Backjump (AppendClause P s1 learned) bl = .ok (true, s2)) :
    ∃ (a : ConflictAnalysis S) (ti : Nat),
      AnalyzeConflictLoop P ((ClearAnalysisTrack s).trail.Length + 1)
        ⟨ClearAnalysisTrack s, 1, 0⟩ (s.formula.get cc).clause
        ((ClearAnalysisTrack s).trail.Length - 1) = .ok (a, ti) ∧
      (s.trail.get ti).assignment ≠ .Unassigned ∧
      LoopInv F s2 iter ∧ s2.formula.clauses = s.formula.clauses ++ [learned] ∧
      Literal.mk (s.trail.get ti).var (FlipVariableAssignment (s.trail.get ti).assignment) ∈
        learned.clause ∧
      learned.clause.Nodup ∧
      s2.assignment.get (s.trail.get ti).var = .Unassigned ∧
      (∀ l ∈ learned.clause, l ≠ Literal.mk (s.trail.get ti).var
        (FlipVariableAssignment (s.trail.get ti).assignment) →
        Literal.IsFalse l s2.assignment) ∧
      learned.clause.countP
        (fun l => Decidable.decide (Literal.Variable l = (s.trail.get ti).var)) = 1 := by
  obtain ⟨a, ti, hloop, hm, _, hti, hlevel, hidx, hl1, hbl⟩ :=
    h.analysed P h0 cc hcc hcf learned bl han
  have hble : a.backjump_level ≤ bl := by
    rw [hbl]
    split_ifs <;> omega
  have hbllt : bl < s.trail.level := by
    have := hm.backjump
    rw [hbl]
    split_ifs <;> omega
  have het := get_getElem? s.trail ti hti
  have hrange := h.inv.trail_range _ (List.getElem?_mem het)
  have hassn := h.sound.trail_assignment _ (List.getElem?_mem het)
  obtain ⟨hperm, hnot⟩ := hm.learned_perm P hP hrange.1 hti hlevel hidx
  rw [← hl1] at hperm
  obtain ⟨h2, hclauses, hnv, hlv2, rest, hrest1, hrest2, hrest3⟩ :=
    h.backjumped P hP cc hcc hcf learned bl han hbj
  obtain ⟨_, _, hlearned⟩ := AnalyzeConflict_spec P hP iter s s1 _ learned bl
    (fun l hl => (Formula.get_wellFormed h.inv.consistent.wf cc l hl).1) h.inv han
  have hun : s2.assignment.get (s.trail.get ti).var = .Unassigned :=
    h.sound.popped_unassigned h2.sound rest hrest1 hrest2 ti _ het (by omega) hrange.1
      (le_trans hrange.2 hnv)
  have hothers : ∀ l ∈ a.solver.ext.learned_clause.literals,
      Literal.IsFalse l s2.assignment ∧ Literal.Variable l ≠ (s.trail.get ti).var := by
    intro l hl
    have hf := hm.builder_false l hl
    have hlv := hm.builder l hl
    have hl0 : l ≠ 0 :=
      (hlearned l (hperm.mem_iff.mpr (List.mem_append_left _ hl))).1
    have hv1 := Literal.variable_pos hl0
    have hvN : Literal.Variable l ≤ s.formula.num_of_variables := by
      by_contra hgt
      exact hf.1 (BaseSolver.get_unassigned_of_gt _ _
        (by rw [h.inv.consistent.assignment_length]; omega))
    obtain ⟨j, e, hj, he, hev, _⟩ := h.last_entry hv1 hvN hf.1
    rw [DecisionTrail.LevelOf_of_index _ _ _ _ hv1 hj he] at hlv
    have hjlt : j < s2.trail.trail.length := by
      by_contra hge
      rw [hrest1, List.getElem?_append_right (by omega)] at he
      have := hrest3 e (List.getElem?_mem he)
      omega
    have he2 : s2.trail.trail[j]? = some e := by
      rw [hrest1, List.getElem?_append_left hjlt] at he
      exact he
    have ha2 := h2.sound.trail_assignment e (List.getElem?_mem he2)
    have ha1 := h.sound.trail_assignment e (List.getElem?_mem he)
    rw [hev] at ha1 ha2
    refine ⟨?_, ?_⟩
    · unfold Literal.IsFalse at hf ⊢
      rw [ha2.1]
      rw [ha1.1] at hf
      exact hf
    · intro heq
      rw [heq, hun] at ha2
      exact ha2.2 ha2.1.symm
  refine ⟨a, ti, hloop, hassn.2, h2, hclauses, ?_, ?_, hun, ?_, ?_⟩
  · exact hperm.mem_iff.mpr (List.mem_append_right _ (List.mem_singleton.mpr rfl))
  · rw [hperm.nodup_iff]
    refine List.Nodup.append hm.builder_nodup (List.nodup_singleton _) ?_
    intro x hx1 hx2
    rw [List.mem_singleton] at hx2
    rw [hx2] at hx1
    exact hnot hx1
  · intro l hl hne
    have hl2 := hperm.mem_iff.mp hl
    rw [List.mem_append, List.mem_singleton] at hl2
    rcases hl2 with hl2 | hl2
    · exact (hothers l hl2).1
    · exact absurd hl2 hne
  · rw [hperm.countP_eq, List.countP_append]
    have hz : a.solver.ext.learned_clause.literals.countP
        (fun l => Decidable.decide (Literal.Variable l = (s.trail.get ti).var)) = 0 := by
      rw [List.countP_eq_zero]
      intro l hl
      simpa using (hothers l hl).2
    rw [hz]
    simp [Literal.variable_mk]

end CdclSolver

end pjos

namespace pjos

namespace BaseSolver

variable {X : Type}

theorem Assign_fresh [SolverExt X] (s : BaseSolver X) (v : Nat) (a : VariableAssignment) :
    (s.Assign v a).fresh_solver = s.fresh_solver := rfl

theorem UnitPropagationFor_fresh [SolverExt X] :
    ∀ (n i : Nat) (s : BaseSolver X) (b : Bool),
      (UnitPropagationFor n i s b).solver.fresh_solver = s.fresh_solver
  | 0, _, _, _ => rfl
  | n + 1, i, s, b => by
    rw [UnitPropagationFor]
    simp only
    split_ifs
    · rfl
    · rfl
    · exact UnitPropagationFor_fresh n (i + 1) s _

theorem UnitPropagationLoop_fresh [SolverExt X] :
    ∀ (fuel : Nat) (s s1 : BaseSolver X) (r : UnitPropagationResult) (c : Nat),
      UnitPropagationLoop fuel s = .ok (s1, r, c) → s1.fresh_solver = s.fresh_solver
  | 0, _, _, _, _, h => by simp [UnitPropagationLoop] at h
  | fuel + 1, s, s1, r, c, h => by
    rw [UnitPropagationLoop] at h
    have hf := UnitPropagationFor_fresh s.watchers.length 0 s true
    split at h
    · cases h
      exact hf
    · split_ifs at h
      · rw [UnitPropagationLoop_fresh fuel _ s1 r c h, hf]
      · cases h
        exact hf
      · cases h
        exact hf

theorem PollInterrupt_fresh (s : BaseSolver X) :
    s.PollInterrupt.2.fresh_solver = s.fresh_solver := by
  unfold PollInterrupt
  split_ifs
  · rfl
  · split <;> rfl

theorem PerformPendingAssignment_fresh [SolverExt X] (s : BaseSolver X) (v : Nat)
    (a : VariableAssignment) (flag : Bool) :
    (s.PerformPendingAssignment v a flag).2.fresh_solver = s.fresh_solver := by
  unfold PerformPendingAssignment
  simp only
  split_ifs <;> rfl

theorem ResetCurrentStatus_fresh (s : BaseSolver X) :
    s.ResetCurrentStatus.fresh_solver = s.fresh_solver := by
  unfold ResetCurrentStatus
  cases s.current_status <;> rfl

theorem AttachClause_fresh (s : BaseSolver X) (i : Nat) (c : ClauseView) :
    (s.AttachClause i c).fresh_solver = s.fresh_solver := by
  unfold AttachClause
  rw [← ResetCurrentStatus_fresh s]
  generalize s.ResetCurrentStatus = t
  simp only
  split_ifs <;> rfl

theorem DetachClause_fresh (s : BaseSolver X) (i : Nat) (c : ClauseView) :
    (s.DetachClause i c).fresh_solver = s.fresh_solver := by
  unfold DetachClause
  rw [← ResetCurrentStatus_fresh s]
  generalize s.ResetCurrentStatus = t
  simp only
  split_ifs <;> rfl

theorem DetachClause_pending (s : BaseSolver X) (i : Nat) (c : ClauseView) :
    (s.DetachClause i c).pending_assignments = s.pending_assignments := by
  unfold DetachClause
  rw [← ResetCurrentStatus_pending s]
  generalize s.ResetCurrentStatus = t
  simp only
  split_ifs <;> rfl

end BaseSolver

namespace CdclSolver

variable {S : Type}

theorem AppendClause_fresh (P : Platform S) (s : CdclSolver S) (c : Clause) :
    (AppendClause P s c).fresh_solver = s.fresh_solver := by
  unfold AppendClause AttachClause
  simp only
  exact BaseSolver.AttachClause_fresh _ _ _

theorem RemoveClause_fresh (P : Platform S) (s : CdclSolver S) (i : Nat) :
    (RemoveClause P s i).fresh_solver = s.fresh_solver := by
  unfold RemoveClause DetachClause
  simp only
  exact BaseSolver.DetachClause_fresh _ _ _

theorem AnalyzeClause_fresh (P : Platform S) :
    ∀ (lits : List Literal) (a a1 : ConflictAnalysis S), AnalyzeClause P lits a = .ok a1 →
      a1.solver.fresh_solver = a.solver.fresh_solver
  | [], a, a1, h => by
    simp only [AnalyzeClause] at h
    cases h
    rfl
  | literal :: rest, a, a1, h => by
    rw [AnalyzeClause] at h
    simp only at h
    split at h
    · exact AnalyzeClause_fresh P rest a a1 h
    · split at h
      · cases h
      · split at h
        · cases h
        · have := AnalyzeClause_fresh P rest _ a1 h
          rw [this]
          split_ifs <;> rfl

theorem AnalyzeConflictLoop_fresh (P : Platform S) :
    ∀ (n : Nat) (a : ConflictAnalysis S) (lits : List Literal) (ti : Nat)
      (a1 : ConflictAnalysis S) (ti1 : Nat),
      AnalyzeConflictLoop P n a lits ti = .ok (a1, ti1) →
      a1.solver.fresh_solver = a.solver.fresh_solver
  | 0, _, _, _, _, _, h => by simp [AnalyzeConflictLoop] at h
  | n + 1, a, lits, ti, a1, ti1, h => by
    rw [AnalyzeConflictLoop] at h
    split at h
    · cases h
    · rename_i a2 ha2
      have hf2 := AnalyzeClause_fresh P lits a a2 ha2
      simp only at h
      split at h
      · cases h
      · split_ifs at h
        · rw [AnalyzeConflictLoop_fresh P n _ _ _ a1 ti1 h]
          exact hf2
        · cases h
          exact hf2
        · cases h
          exact hf2

theorem AnalyzeConflict_fresh (P : Platform S) (s s1 : CdclSolver S) (c : ClauseView)
    (learned : Clause) (bl : Nat) (h : AnalyzeConflict P s c = .ok (learned, bl, s1)) :
    s1.fresh_solver = s.fresh_solver := by
  unfold AnalyzeConflict at h
  split_ifs at h
  simp only at h
  split at h
  · cases h
  · rename_i a ti ha
    have hf := AnalyzeConflictLoop_fresh P _ _ _ _ a ti ha
    split at h
    · cases h
    · split_ifs at h
      all_goals
        cases h
        exact hf

theorem BackjumpLoop_fresh (level : Nat) :
    ∀ (n : Nat) (s s1 : CdclSolver S) (b : Bool), BackjumpLoop level n s = .ok (b, s1) →
      s1.fresh_solver = s.fresh_solver
  | 0, _, _, _, h => by simp [BackjumpLoop] at h
  | n + 1, s, s1, b, h => by
    rw [BackjumpLoop] at h
    split_ifs at h
    · simp only at h
      split at h
      · cases h
        rfl
      · split_ifs at h
        all_goals first
          | exact (BackjumpLoop_fresh level n _ s1 b h).trans rfl
    · cases h
      rfl

theorem Frame.frame_refl (s : CdclSolver S) : Frame s s :=
  ⟨BaseSolver.SameShared.refl s, rfl, rfl, rfl, rfl⟩

theorem Frame.frame_trans {r t s : CdclSolver S} (h1 : Frame r t) (h2 : Frame t s) : Frame r s :=
  ⟨h1.shared.trans h2.shared, h1.fresh.trans h2.fresh, h1.evsids.trans h2.evsids,
    h1.learned.trans h2.learned, h1.track.trans h2.track⟩

theorem Frame.setTrack (s : CdclSolver S) (v : Nat) (st : AnalysisTrackState) :
    Frame (SetAnalysisTrackOf s v st) s :=
  ⟨⟨rfl, rfl, rfl, rfl, rfl, rfl⟩, rfl, rfl, rfl, by simp [SetAnalysisTrackOf]⟩

theorem Frame.clearTrack (s : CdclSolver S) : Frame (ClearAnalysisTrack s) s :=
  ⟨⟨rfl, rfl, rfl, rfl, rfl, rfl⟩, rfl, rfl, rfl, by simp [ClearAnalysisTrack]⟩

theorem Frame.finalConflict (s : CdclSolver S) (fc : List Literal) :
    Frame ({ s with ext := { s.ext with final_conflict := fc } } : CdclSolver S) s :=
  ⟨⟨rfl, rfl, rfl, rfl, rfl, rfl⟩, rfl, rfl, rfl, rfl⟩

/-- The marking of a clause for the final conflict analysis writes marks and the final conflict
only. -/
theorem MarkClause_frame (ac : Bool) :
    ∀ (lits : List Literal) (s s1 : CdclSolver S) (n : Nat),
      MarkClauseForFinalConflictAnalysis ac lits s = .ok (n, s1) → Frame s1 s
  | [], s, s1, n, h => by
    simp only [MarkClauseForFinalConflictAnalysis] at h
    cases h
    exact Frame.frame_refl _
  | literal :: rest, s, s1, n, h => by
    rw [MarkClauseForFinalConflictAnalysis] at h
    simp only at h
    split at h
    · exact MarkClause_frame ac rest s s1 n h
    · split at h
      · cases h
      · split at h
        · split at h
          · cases h
          · rename_i hr
            cases h
            exact (MarkClause_frame ac rest _ _ _ hr).frame_trans (Frame.setTrack _ _ _)
        · split at h
          · exact (MarkClause_frame ac rest _ s1 n h).frame_trans (Frame.finalConflict _ _)
          · exact MarkClause_frame ac rest s s1 n h

theorem AnalyzeFinalConflictLoop_frame :
    ∀ (n : Nat) (s s1 : CdclSolver S) (pending ti : Nat),
      AnalyzeFinalConflictLoop n s pending ti = .ok s1 → Frame s1 s
  | 0, _, _, _, _, h => by simp [AnalyzeFinalConflictLoop] at h
  | n + 1, s, s1, pending, ti, h => by
    rw [AnalyzeFinalConflictLoop] at h
    split_ifs at h
    · split at h
      · cases h
      · simp only at h
        split_ifs at h
        · split at h
          · cases h
          · rename_i hm
            exact ((AnalyzeFinalConflictLoop_frame n _ s1 _ _ h).frame_trans
              (MarkClause_frame false _ _ _ _ hm)).frame_trans (Frame.setTrack _ _ _)
        · exact ((AnalyzeFinalConflictLoop_frame n _ s1 _ _ h).frame_trans
            (Frame.finalConflict _ _)).frame_trans (Frame.setTrack _ _ _)
        · exact (AnalyzeFinalConflictLoop_frame n _ s1 _ _ h).frame_trans (Frame.setTrack _ _ _)
    · cases h
      exact Frame.frame_refl _

theorem AnalyzeFinalConflict_frame (s s1 : CdclSolver S) (conflict : List Literal) (ac : Bool)
    (h : AnalyzeFinalConflict s conflict ac = .ok s1) : Frame s1 s := by
  unfold AnalyzeFinalConflict at h
  simp only at h
  split at h
  · cases h
  · rename_i hm
    exact ((AnalyzeFinalConflictLoop_frame _ _ s1 _ _ h).frame_trans
      (MarkClause_frame ac _ _ _ _ hm)).frame_trans (Frame.clearTrack _)

theorem FinishUnsatisfied_frame (s s1 : CdclSolver S) (afc : Bool) (conflict : List Literal)
    (ac : Bool) (st : SolverStatus) (h : FinishUnsatisfied s afc conflict ac = .ok (st, s1)) :
    Frame s1 s := by
  unfold FinishUnsatisfied at h
  split_ifs at h
  · split at h
    · cases h
    · rename_i hr
      cases h
      exact AnalyzeFinalConflict_frame _ _ _ _ hr
  · cases h
    exact Frame.frame_refl _

/-- The invariants of an idle solver pass through the final conflict analysis. -/
theorem Frame.frame_idle {t s : CdclSolver S} {iter : Nat} (hf : Frame t s) (hi : Inv s iter)
    (hb : s.ext.learned_clause.literals = [])
    (hk : s.ext.analysis_track.length = s.formula.num_of_variables)
    (hfr : s.fresh_solver = false) :
    Inv t iter ∧ t.ext.learned_clause.literals = [] ∧
      t.ext.analysis_track.length = t.formula.num_of_variables ∧ t.fresh_solver = false := by
  refine ⟨hi.of_shared hf.shared (by rw [hf.evsids]; exact fun v hv => hv) ?_, ?_, ?_, ?_⟩
  · rw [hf.learned, hb]
    intro l hl
    cases hl
  · rw [hf.learned, hb]
  · rw [hf.track, hf.shared.formula, hk]
  · rw [hf.fresh, hfr]

end CdclSolver

end pjos

namespace pjos

namespace CdclSolver

variable {S : Type}

theorem LoopInv.loop_idle {F : Formula} {s : CdclSolver S} {iter : Nat} (h : LoopInv F s iter)
    (hfr : s.fresh_solver = false) :
    ∃ iter1, Inv s iter1 ∧ s.ext.learned_clause.literals = [] ∧
      s.ext.analysis_track.length = s.formula.num_of_variables ∧ s.fresh_solver = false :=
  ⟨iter, h.inv, h.shape.builder, h.sound.track_length, hfr⟩

theorem FinishUnsatisfied_idle {s s1 : CdclSolver S} {iter : Nat} {afc ac : Bool}
    {conflict : List Literal} {st : SolverStatus} (hi : Inv s iter)
    (hb : s.ext.learned_clause.literals = [])
    (hk : s.ext.analysis_track.length = s.formula.num_of_variables)
    (hfr : s.fresh_solver = false)
    (hr : FinishUnsatisfied s afc conflict ac = .ok (st, s1)) :
    ∃ iter1, Inv s1 iter1 ∧ s1.ext.learned_clause.literals = [] ∧
      s1.ext.analysis_track.length = s1.formula.num_of_variables ∧ s1.fresh_solver = false :=
  ⟨iter, (FinishUnsatisfied_frame s s1 afc conflict ac st hr).frame_idle hi hb hk hfr⟩

/-- The state in which the main loop of `SolveImpl` returns satisfies the invariants of an
idle solver. -/
theorem SolveLoop_idle (P : Platform S) (hP : P.SetOrderOk) (F : Formula) (afc : Bool) :
    ∀ (fuel : Nat) (s s1 : CdclSolver S) (iter na : Nat) (st : SolverStatus),
      LoopInv F s iter → s.fresh_solver = false →
      SolveLoop P afc fuel s iter na = .ok (st, s1) →
      ∃ iter1, Inv s1 iter1 ∧ s1.ext.learned_clause.literals = [] ∧
        s1.ext.analysis_track.length = s1.formula.num_of_variables ∧ s1.fresh_solver = false
  | 0, _, _, _, _, _, _, _, hr => by
    simp [SolveLoop] at hr
  | fuel + 1, s, s1, iter, na, st, h, hfr, hr => by
    unfold SolveLoop at hr
    simp only at hr
    have hpoll := BaseSolver.PollInterrupt_spec s
    have h0 : LoopInv F s.PollInterrupt.2 iter :=
      h.of_ext hpoll.1 (by rw [hpoll.2]; exact fun v hv => hv) (by rw [hpoll.2])
        (by rw [hpoll.2])
    have hfr0 : s.PollInterrupt.2.fresh_solver = false := by
      rw [BaseSolver.PollInterrupt_fresh]; exact hfr
    split at hr
    · cases hr
      exact h0.loop_idle hfr0
    · split at hr
      · cases hr
      · rename_i s2 bcp cc hup
        obtain ⟨h2, hf2, hp2, hsat, hunsat, hpass⟩ :=
          UnitPropagationLoop_inv F iter _ _ s2 bcp cc h0 hup
        have hfr2 : s2.fresh_solver = false := by
          rw [BaseSolver.UnitPropagationLoop_fresh _ _ _ _ _ hup]; exact hfr0
        split at hr
        · -- the formula is satisfied
          split at hr
          · cases hr
            exact h2.loop_idle hfr2
          · exact FinishUnsatisfied_idle h2.inv h2.shape.builder h2.sound.track_length hfr2 hr
        · split at hr
          · -- a conflict
            rename_i hbcp
            obtain ⟨hcc, hcf⟩ := hunsat hbcp
            have hwf := Formula.get_wellFormed h2.inv.consistent.wf cc
            split at hr
            · exact FinishUnsatisfied_idle h2.inv h2.shape.builder h2.sound.track_length hfr2 hr
            · rename_i hlev
              split at hr
              · cases hr
              · rename_i learned bl s3 han
                have hcm : s2.formula.get cc ∈ s2.formula.clauses :=
                  BaseSolver.Formula_get_mem _ _ hcc
                obtain ⟨hi3, hsh3, hlearned⟩ := AnalyzeConflict_spec P hP iter s2 s3 _
                  learned bl (fun l hl => (hwf l hl).1) h2.inv han
                obtain ⟨hs3, hb3, hlf, hlimp⟩ := AnalyzeConflict_sound P hP F iter s2 s3 _
                  learned bl h2.sound h2.inv h2.shape.builder hcf hcm han
                obtain ⟨hbl, ti, eu, heu, heul, heum⟩ := AnalyzeConflict_uip P hP iter s2 s3
                  _ learned bl (fun l hl => (hwf l hl).1) h2.inv han
                have hfr3 : s3.fresh_solver = false := by
                  rw [AnalyzeConflict_fresh P s2 s3 _ learned bl han]; exact hfr2
                have hshape3 : Shape s2.formula.clauses s3 :=
                  h2.shape.of_fields hsh3.watchers hsh3.assignment hsh3.trail hb3
                obtain ⟨hi4, hf4, hp4⟩ := AppendClause_spec P iter s3 learned hi3 hlearned
                have hs4 : Sound F (AppendClause P s3 learned) :=
                  hs3.append_clause P hi3 learned (by rw [hsh3.assignment]; exact hlf)
                    (by rw [hsh3.formula]; exact hlimp)
                have hshape4 : Shape s2.formula.clauses (AppendClause P s3 learned) :=
                  hshape3.clause_appended P hi3 learned
                have hfr4 : (AppendClause P s3 learned).fresh_solver = false := by
                  rw [AppendClause_fresh]; exact hfr3
                obtain ⟨hf4a, _, hα4, ht4, _, _⟩ :=
                  AppendClause_fields P s3 learned hi3.consistent
                have hN : s3.formula.num_of_variables ≤
                    (s3.formula.AppendClause learned).num_of_variables := by
                  simp [Formula.AppendClause]
                split at hr
                · exact FinishUnsatisfied_idle hi4 hshape4.builder hs4.track_length hfr4 hr
                · split at hr
                  · cases hr
                  · rename_i s5 hbj
                    have := (BackjumpLoop_sound F iter bl _ _ s5 false hi4 hs4 hbj).2.1
                    cases this
                  · rename_i s5 hbj
                    obtain ⟨hi5, hf5, hp5⟩ := BackjumpLoop_spec iter bl _ _ s5 true hi4 hbj
                    obtain ⟨hs5, _, hb5⟩ :=
                      BackjumpLoop_sound F iter bl _ _ s5 true hi4 hs4 hbj
                    obtain ⟨hshape5, hlv5, rest, hrest1, hrest2⟩ :=
                      BackjumpLoop_shape F iter bl s2.formula.clauses _ _ s5 true hi4 hs4
                        hshape4
                        (fun c hc => by rw [hf4, hsh3.formula]; exact List.mem_append_left _ hc)
                        hbj
                    have hfr5 : s5.fresh_solver = false := by
                      rw [BackjumpLoop_fresh bl _ _ s5 true hbj]; exact hfr4
                    have heu4 : (AppendClause P s3 learned).trail.trail[ti]? = some eu := by
                      rw [ht4, DecisionTrail.SetNumOfVariables_entries, hsh3.trail]
                      exact heu
                    have heur := h2.inv.trail_range eu (List.getElem?_mem heu)
                    have hun : s5.assignment.get eu.var = .Unassigned :=
                      hs4.popped_unassigned hs5 rest hrest1 hrest2 ti eu heu4
                        (by omega) heur.1
                        (by
                          rw [hf5, hf4a]
                          exact le_trans (by rw [hsh3.formula]; exact heur.2) hN)
                    have hclauses : s5.formula.clauses = s2.formula.clauses ++ [learned] := by
                      rw [hf5, hf4, hsh3.formula]
                    have hshape6 : Shape s5.formula.clauses s5 := by
                      refine ⟨hshape5.undecided, hshape5.found, hshape5.starts, ?_,
                        hshape5.builder⟩
                      rw [hclauses]
                      refine hshape5.early.add_clause learned ⟨_, heum, ?_⟩
                      intro hfalse
                      apply hfalse.1
                      rw [Literal.variable_mk]
                      exact hun
                    have h5 : LoopInv F s5 iter := ⟨hi5, hs5, hshape6⟩
                    have h6 : LoopInv F ({ s5 with ext := { s5.ext with
                        evsids := s5.ext.evsids.NextIteration P } } : CdclSolver S) iter :=
                      h5.of_ext ⟨rfl, rfl, rfl, rfl, rfl, rfl⟩ (fun v hv => hv) rfl rfl
                    exact SolveLoop_idle P hP F afc fuel _ s1 iter na st h6 hfr5 hr
          · -- no conflict, the formula is not satisfied yet
            rename_i hnsat hnunsat
            have hbcp : bcp = .Pass := by
              cases bcp
              · exact absurd rfl hnsat
              · exact absurd rfl hnunsat
              · rfl
            have hnf := (hpass hbcp).2
            split at hr
            · -- a decision
              rename_i hiter
              have hpop := EVSIDSHeuristics.PopVariable_spec P s2.ext.evsids s2.assignment
              have h3 : LoopInv F ({ s2 with ext := { s2.ext with
                  evsids := (s2.ext.evsids.PopVariable P s2.assignment).2 } } : CdclSolver S)
                  iter :=
                h2.of_ext ⟨rfl, rfl, rfl, rfl, rfl, rfl⟩ hpop.2 rfl rfl
              have hvar : ¬ (s2.ext.evsids.PopVariable P s2.assignment).1 = 0 →
                  1 ≤ (s2.ext.evsids.PopVariable P s2.assignment).1 ∧
                  (s2.ext.evsids.PopVariable P s2.assignment).1 ≤
                    s2.formula.num_of_variables := by
                intro hv0
                rcases hpop.1 with h1 | h1
                · exact absurd h1 hv0
                · exact h2.inv.heap_range _ h1
              split_ifs at hr with hv0 hvu hph
              · exact SolveLoop_idle P hP F afc fuel _ s1 iter na st
                  (h3.decide _ _ (hvar hv0).1 (hvar hv0).2 (by_contra (fun hne => hvu hne))
                    hph.2 hnf) hfr2 hr
              · exact SolveLoop_idle P hP F afc fuel _ s1 iter na st
                  (h3.decide _ _ (hvar hv0).1 (hvar hv0).2 (by_contra (fun hne => hvu hne))
                    (by simp) hnf) hfr2 hr
            · -- a pending assignment
              rename_i hiter
              have hlt : iter < s2.pending_assignments.length :=
                lt_of_le_of_ne h2.inv.iter_le hiter
              have hget : s2.pending_assignments[iter]? =
                  some (s2.pending_assignments.getD iter (0, .Unassigned, false)) := by
                rw [List.getD_eq_getElem?_getD, List.getElem?_eq_getElem hlt]; rfl
              have hrange := h2.inv.pending_range _ (List.getElem?_mem hget)
              have hfrp := BaseSolver.PerformPendingAssignment_fresh s2
                (s2.pending_assignments.getD iter (0, .Unassigned, false)).1
                (s2.pending_assignments.getD iter (0, .Unassigned, false)).2.1
                (s2.pending_assignments.getD iter (0, .Unassigned, false)).2.2
              split at hr
              · rename_i hperf
                have hfail : (BaseSolver.PerformPendingAssignment s2
                    (s2.pending_assignments.getD iter (0, .Unassigned, false)).1
                    (s2.pending_assignments.getD iter (0, .Unassigned, false)).2.1
                    (s2.pending_assignments.getD iter (0, .Unassigned, false)).2.2).1 =
                      false := by
                  simpa using hperf
                obtain ⟨hsame, hassigned⟩ :=
                  BaseSolver.PerformPendingAssignment_failed _ _ _ _ hfail
                refine @FinishUnsatisfied_idle S _ _ iter _ _ _ _ ?_ ?_ ?_ ?_ hr
                · rw [hsame]; exact h2.inv
                · rw [hsame]; exact h2.shape.builder
                · rw [hsame]; exact h2.sound.track_length
                · rw [hsame]; exact hfr2
              · rename_i hperf
                have hok : (BaseSolver.PerformPendingAssignment s2
                    (s2.pending_assignments.getD iter (0, .Unassigned, false)).1
                    (s2.pending_assignments.getD iter (0, .Unassigned, false)).2.1
                    (s2.pending_assignments.getD iter (0, .Unassigned, false)).2.2).1 =
                      true := by
                  simpa using hperf
                exact SolveLoop_idle P hP F afc fuel _ s1 (iter + 1) _ st
                  (h2.pending_applied _ _ _ hget hnf hok) (hfrp.trans hfr2) hr

end CdclSolver

end pjos

namespace pjos

namespace Watcher

/-- A rescan of a new watcher under an assignment without assigned variables changes
nothing. -/
theorem Rescan_new (c : ClauseView) (n : Nat) :
    (Watcher.new c).Rescan (Assignment.new n) = Watcher.new c := by
  have hev : ∀ l : Literal,
      Literal.Eval l ((Assignment.new n).get (Literal.Variable l)) = false := by
    intro l
    rw [Assignment.new_get]
    exact Literal.eval_unassigned l
  obtain ⟨lits, num⟩ := c
  unfold Watcher.Rescan Watcher.UpdateStatus Watcher.IsSatisfied
  simp only [Watcher.new_clause]
  match lits with
  | [] =>
    simp [Watcher.new, ClauseView.Length, Watcher.RescanFrom]
  | [a] =>
    simp [Watcher.new, ClauseView.Length, Watcher.RescanFrom, Watcher.RescanStep,
      Literal.eval_unassigned, Assignment.new_get, ClauseView.get]
  | a :: b :: rest =>
    have hk := Watcher.RescanFrom_keep (Assignment.new n) rest 2 (0, 1) (by decide) (by decide)
      (fun l _ => hev l)
    simp only [Watcher.RescanFrom, Watcher.RescanStep, Literal.eval_unassigned,
      Assignment.new_get, Bool.false_eq_true, if_false, if_true]
    simp only [Nat.cast_zero, Nat.cast_one, Nat.zero_add] at hk ⊢
    simp [hk, Watcher.new, ClauseView.Length, Literal.eval_unassigned, Assignment.new_get]

/-- A rescan under an assignment without assigned variables gives the state of a new watcher of
the clause, whatever the state of the watcher was. -/
theorem Rescan_unassigned (w : Watcher) (n : Nat) :
    w.Rescan (Assignment.new n) = Watcher.new w.clause :=
  (Watcher.Rescan_congr_clause w (Watcher.new w.clause) _ (Watcher.new_clause w.clause).symm).trans
    (Rescan_new w.clause n)

end Watcher

namespace CdclSolver

variable {S : Type}

/-- The state in which `SolveImpl` is entered: `PreSolve` leaves a solver that was never used as
it is and resets a used one, so that in both cases no variable is assigned, the trail is empty
and every watcher is in the state of a new one. -/
theorem Idle.started {s : CdclSolver S} (h : Idle s) (A : List Literal) :
    (BaseSolver.SaveAssumptions (BaseSolver.PreSolve s) A).formula = s.formula ∧
    (BaseSolver.SaveAssumptions (BaseSolver.PreSolve s) A).variable_index = s.variable_index ∧
    (BaseSolver.SaveAssumptions (BaseSolver.PreSolve s) A).watchers =
      s.watchers.map (fun w => Watcher.new w.clause) ∧
    (BaseSolver.SaveAssumptions (BaseSolver.PreSolve s) A).assignment =
      Assignment.new s.formula.num_of_variables ∧
    (BaseSolver.SaveAssumptions (BaseSolver.PreSolve s) A).trail =
      DecisionTrail.new s.formula.num_of_variables ∧
    (BaseSolver.SaveAssumptions (BaseSolver.PreSolve s) A).pending_assignments =
      A.map (fun literal =>
        ((Literal.Assignment literal).1, (Literal.Assignment literal).2, true)) ∧
    (BaseSolver.SaveAssumptions (BaseSolver.PreSolve s) A).ext = s.ext ∧
    (BaseSolver.SaveAssumptions (BaseSolver.PreSolve s) A).fresh_solver = false := by
  have hlen := h.inv.consistent.assignment_length
  have htl := h.inv.trail_index_length
  have hreset : s.assignment.Reset = Assignment.new s.formula.num_of_variables := by
    unfold Assignment.Reset Assignment.new
    rw [hlen]
  have htrail : s.trail.Reset = DecisionTrail.new s.formula.num_of_variables := by
    unfold DecisionTrail.Reset DecisionTrail.new
    rw [htl]
  have hmap : s.watchers.map (fun w => w.Rescan s.assignment.Reset) =
      s.watchers.map (fun w => Watcher.new w.clause) := by
    apply List.map_congr_left
    intro w _
    rw [hreset]
    exact Watcher.Rescan_unassigned w _
  cases hfr : s.fresh_solver with
  | false =>
    refine ⟨?_, ?_, ?_, ?_, ?_, ?_, ?_, ?_⟩
    all_goals
      unfold BaseSolver.SaveAssumptions BaseSolver.PreSolve BaseSolver.ResetState
      simp only [hfr, Bool.not_false, if_true]
    · exact hmap
    · exact hreset
    · exact htrail
    · rfl
  | true =>
    obtain ⟨hp1, hp2, hp3, hp4⟩ := h.pristine hfr
    refine ⟨?_, ?_, ?_, ?_, ?_, ?_, ?_, ?_⟩
    all_goals
      unfold BaseSolver.SaveAssumptions BaseSolver.PreSolve
      simp only [hfr, Bool.not_true, Bool.false_eq_true, if_false]
    · rw [← hmap, hp2, hp4]
    · rw [← hreset, hp2]
    · rw [← htrail, hp3]
    · rw [hp1]; rfl

/-- The state in which the main loop of `SolveImpl` is entered by a `Solve` on an idle solver,
with assumptions on variables of the formula, satisfies the invariant of the loop for the
formula held when `Solve` is called. -/
theorem Idle.loop_start {s : CdclSolver S} (h : Idle s) (assumptions : List Literal)
    (hA : ∀ l ∈ assumptions, l ≠ 0 ∧ Literal.Variable l ≤ s.formula.num_of_variables) :
    LoopInv s.formula
      (if (BaseSolver.SaveAssumptions (BaseSolver.PreSolve s)
          assumptions).ext.parameters.pure_literal_elimination = true then
        ({ BaseSolver.SaveAssumptions (BaseSolver.PreSolve s) assumptions with
          pending_assignments :=
            (BaseSolver.SaveAssumptions (BaseSolver.PreSolve s) assumptions).pending_assignments ++
            (BaseSolver.SaveAssumptions (BaseSolver.PreSolve s) assumptions).ScanPureLiterals } :
          CdclSolver S)
      else BaseSolver.SaveAssumptions (BaseSolver.PreSolve s) assumptions) 0 := by
  obtain ⟨hf, hvi, hw, ha, ht, hp, hext, _⟩ := h.started assumptions
  have hun : ∀ v, (BaseSolver.SaveAssumptions (BaseSolver.PreSolve s)
      assumptions).assignment.get v = .Unassigned := by
    intro v
    rw [ha]
    exact Assignment.new_get _ _
  have hwm : ∀ w ∈ (BaseSolver.SaveAssumptions (BaseSolver.PreSolve s) assumptions).watchers,
      ∃ c, w = Watcher.new c := by
    intro w hwm
    rw [hw, List.mem_map] at hwm
    obtain ⟨w0, _, hw0⟩ := hwm
    exact ⟨w0.clause, hw0.symm⟩
  have hc : (BaseSolver.SaveAssumptions (BaseSolver.PreSolve s) assumptions).Consistent := by
    have h0 := h.inv.consistent
    refine ⟨by rw [hf]; exact h0.wf, ?_, by rw [hvi, hf]; exact h0.index_length, ?_, ?_, ?_, ?_⟩
    · rw [ha, hf]
      simp [Assignment.new]
    · rw [hw, hf, ← h0.watchers_clauses, List.map_map]
      apply List.map_congr_left
      intro w _
      exact Watcher.new_clause _
    · intro v i hv1 hv2
      rw [hf] at hv2 ⊢
      have := h0.index_pos v i hv1 hv2
      unfold BaseSolver.VariableIndex at this ⊢
      rw [hvi]
      exact this
    · intro v i hv1 hv2
      rw [hf] at hv2 ⊢
      have := h0.index_neg v i hv1 hv2
      unfold BaseSolver.VariableIndex at this ⊢
      rw [hvi]
      exact this
    · intro w hwm2
      obtain ⟨c, hc⟩ := hwm w hwm2
      rw [hc]
      exact Watcher.new_ok c _ (fun l _ => hun _)
  have hs : Sound s.formula (BaseSolver.SaveAssumptions (BaseSolver.PreSolve s) assumptions) := by
    refine ⟨?_, ?_, ?_, ?_, ?_, ?_, ?_, ?_, ?_, ?_, ?_⟩
    · intro w hwm2
      obtain ⟨c, hc⟩ := hwm w hwm2
      rw [hc]
      exact Watcher.new_tight c _ _ (fun l _ => hun _)
    · rw [ht]; intro e he; simp [DecisionTrail.new] at he
    · intro v _ _ hv
      exact absurd (hun v) hv
    · rw [ht]; intro i j ei ej _ hei; simp [DecisionTrail.new] at hei
    · rw [ht]
      intro k i hk
      simp only [DecisionTrail.new, List.getElem?_replicate] at hk
      split_ifs at hk
      cases hk
    · rw [ht]; intro i e he; simp [DecisionTrail.new] at he
    · rw [ht]; simp [DecisionTrail.new]
    · rw [ht]; simp [DecisionTrail.new]
    · rw [ht]; intro e he; simp [DecisionTrail.new] at he
    · intro M hM c hcm
      rw [hf] at hcm
      exact (Formula.value_all _ M).mp hM c hcm
    · rw [hext, hf]
      exact h.track_length
  exact LoopInv.impl_start s.formula _ assumptions hc
    (by rw [ht, hf]) (by rw [hext, hf]; exact h.inv.heap_range) (by rw [hext]; exact h.builder)
    hp (by rw [hf]; exact hA) hs
    (by
      intro w hwm2
      obtain ⟨c, hc⟩ := hwm w hwm2
      rw [hc]
      exact Watcher.new_undecidedOk c)

/-- Every call of `UnitPropagation`, `AnalyzeConflict` and `AnalyzeFinalConflict` made by a
`Solve` on an idle solver, with assumptions on variables of the formula, finds the solver in a
state that is ready for the call, for the formula held when `Solve` is called. -/
theorem Idle.idle_events_ready (P : Platform S) (hP : P.SetOrderOk) {s : CdclSolver S}
    (h : Idle s) (assumptions : List Literal)
    (hA : ∀ l ∈ assumptions, l ≠ 0 ∧ Literal.Variable l ≤ s.formula.num_of_variables)
    (fuel : Nat) (afc : Bool) :
    ∀ ev ∈ SolveEvents P fuel afc s assumptions, Event.Ready s.formula ev := by
  intro ev hev
  unfold SolveEvents ImplEvents at hev
  simp only at hev
  exact LoopEvents_ready P hP s.formula afc fuel _ 0 0 (h.loop_start assumptions hA) ev hev

end CdclSolver

end pjos

namespace pjos

namespace CdclSolver

variable {S : Type}

theorem Inv.start {s : CdclSolver S} {iter : Nat} (h : Inv s iter) : Inv s 0 :=
  ⟨h.consistent, h.trail_range, h.trail_index_length, h.heap_range, h.pending_range,
    h.builder_ok, Nat.zero_le _, fun j _ _ hj => absurd hj (Nat.not_lt_zero j)⟩

/-- A state that shares with an idle state all that the invariant reads is idle. -/
theorem Idle.idle_of_eq {t s : CdclSolver S} (h : Idle s) (hsh : BaseSolver.SameShared t s)
    (hfr : t.fresh_solver = s.fresh_solver)
    (hh : ∀ v ∈ t.ext.evsids.ordered_variables, v ∈ s.ext.evsids.ordered_variables)
    (hb : t.ext.learned_clause = s.ext.learned_clause)
    (hk : t.ext.analysis_track.length = s.ext.analysis_track.length) : Idle t := by
  refine ⟨h.inv.of_shared hsh hh ?_, by rw [hb]; exact h.builder,
    by rw [hk, hsh.formula]; exact h.track_length, ?_⟩
  · rw [hb, h.builder]
    intro l hl
    cases hl
  · intro hf
    rw [hfr] at hf
    obtain ⟨h1, h2, h3, h4⟩ := h.pristine hf
    exact ⟨by rw [hsh.pending]; exact h1, by rw [hsh.assignment]; exact h2,
      by rw [hsh.trail]; exact h3, by rw [hsh.watchers, hsh.assignment]; exact h4⟩

/-- A state that a `Solve` leaves is idle. -/
theorem Idle.of_solved {t s : CdclSolver S} {iter : Nat} (hi : Inv s iter)
    (hb0 : s.ext.learned_clause.literals = [])
    (hk0 : s.ext.analysis_track.length = s.formula.num_of_variables)
    (hfr0 : s.fresh_solver = false) (hsh : BaseSolver.SameShared t s)
    (hfr : t.fresh_solver = s.fresh_solver)
    (hh : ∀ v ∈ t.ext.evsids.ordered_variables, v ∈ s.ext.evsids.ordered_variables)
    (hb : t.ext.learned_clause = s.ext.learned_clause)
    (hk : t.ext.analysis_track.length = s.ext.analysis_track.length) : Idle t :=
  Idle.idle_of_eq ⟨hi.start, hb0, hk0, fun hf => by rw [hfr0] at hf; cases hf⟩ hsh hfr hh hb hk

/-- A new solver is idle. -/
theorem Idle.idle_new (P : Platform S) (formula : Formula) (scoring : ScoringParameters S)
    (hF : formula.WellFormed) : Idle (CdclSolver.new P formula scoring) := by
  have hcons : (CdclSolver.new P formula scoring).Consistent :=
    BaseSolver.new_consistent formula _ hF
  obtain ⟨hf1, hf2, hf3, hf4, hf5⟩ := BaseSolver.PopulateFrom_fields formula.clauses 0
    ({ formula := formula
       variable_index := List.replicate formula.NumOfVariables VariableIndexEntry.empty
       watchers := []
       assignment := Assignment.new formula.NumOfVariables
       trail := DecisionTrail.new formula.NumOfVariables
       pending_assignments := []
       interrupt_requested := false
       current_status := .Unknown
       interrupt_request_fn := none
       interrupt_polls := 0
       fresh_solver := true
       ext := ({ parameters := Parameters.default
                 analysis_track := List.replicate formula.NumOfVariables .Untracked
                 learned_clause := ClauseBuilder.empty
                 evsids := EVSIDSHeuristics.new P formula scoring
                 saved_phases := Assignment.new formula.NumOfVariables
                 final_conflict := [] } : CdclExt S) } : CdclSolver S)
  obtain ⟨hw1, hw2⟩ := BaseSolver.PopulateFrom_watchers formula.clauses 0
    ({ formula := formula
       variable_index := List.replicate formula.NumOfVariables VariableIndexEntry.empty
       watchers := []
       assignment := Assignment.new formula.NumOfVariables
       trail := DecisionTrail.new formula.NumOfVariables
       pending_assignments := []
       interrupt_requested := false
       current_status := .Unknown
       interrupt_request_fn := none
       interrupt_polls := 0
       fresh_solver := true
       ext := ({ parameters := Parameters.default
                 analysis_track := List.replicate formula.NumOfVariables .Untracked
                 learned_clause := ClauseBuilder.empty
                 evsids := EVSIDSHeuristics.new P formula scoring
                 saved_phases := Assignment.new formula.NumOfVariables
                 final_conflict := [] } : CdclExt S) } : CdclSolver S)
  have ht : (CdclSolver.new P formula scoring).trail =
      DecisionTrail.new formula.NumOfVariables := hf1
  have hp : (CdclSolver.new P formula scoring).pending_assignments = [] := hf2
  have hext : (CdclSolver.new P formula scoring).ext = _ := hf4
  have hform : (CdclSolver.new P formula scoring).formula = formula := hf5
  have hwat : (CdclSolver.new P formula scoring).watchers =
      [] ++ formula.clauses.map Watcher.new := hw1
  have hassn : (CdclSolver.new P formula scoring).assignment =
      Assignment.new formula.NumOfVariables := hw2
  refine ⟨⟨hcons, ?_, ?_, ?_, ?_, ?_, Nat.zero_le _, fun j _ _ hj => absurd hj (Nat.not_lt_zero j)⟩,
    ?_, ?_, fun _ => ⟨hp, ?_, ?_, ?_⟩⟩
  · rw [ht]; intro e he; simp [DecisionTrail.new] at he
  · rw [ht, hform]; simp [DecisionTrail.new, Formula.NumOfVariables]
  · intro v hv
    rw [hext] at hv
    rw [hform]
    exact EVSIDSHeuristics.new_mem P formula scoring v hv
  · rw [hp]; intro p hp1; cases hp1
  · rw [hext]; intro l hl; cases hl
  · rw [hext]; rfl
  · rw [hext, hform]; simp [Formula.NumOfVariables]
  · rw [hassn]; simp [Assignment.Reset, Assignment.new]
  · rw [ht]; simp [DecisionTrail.Reset, DecisionTrail.new]
  · rw [hwat, hassn, List.nil_append, List.map_map]
    apply List.map_congr_left
    intro c _
    exact Watcher.Rescan_new c _

end CdclSolver

end pjos

namespace pjos

theorem List.map_fixed {α : Type} {f : α → α} : ∀ {l : List α}, l.map f = l → ∀ x ∈ l, f x = x
  | [], _, x, hx => by cases hx
  | a :: l, h, x, hx => by
    simp only [List.map_cons, List.cons.injEq] at h
    rcases List.mem_cons.mp hx with hxa | hxl
    · rw [hxa]; exact h.1
    · exact List.map_fixed h.2 x hxl

theorem Assignment.new_resized (n m : Nat) (h : n ≤ m) :
    (Assignment.new n).SetNumOfVariables m = Assignment.new m := by
  unfold Assignment.SetNumOfVariables Assignment.new
  simp only [List.length_replicate]
  rw [if_neg (by omega)]
  split_ifs with h1
  · congr 1
    rw [List.append_replicate_replicate]
    congr 1
    omega
  · have : n = m := by omega
    rw [this]

theorem DecisionTrail.new_trail_resized (n m : Nat) (h : n ≤ m) :
    (DecisionTrail.new n).SetNumOfVariables m = DecisionTrail.new m := by
  unfold DecisionTrail.SetNumOfVariables DecisionTrail.new
  simp only [List.length_replicate]
  rw [if_neg (by omega)]
  split_ifs with h1
  · simp only [DecisionTrail.mk.injEq, true_and]
    rw [List.append_replicate_replicate]
    congr 1
    omega
  · have : n = m := by omega
    rw [this]

namespace BaseSolver

variable {X : Type}

/-- The state of a solver that was never used, read off `Pristine`. -/
theorem Pristine.fields {s : BaseSolver X} (h : s.Pristine) (hc : s.Consistent)
    (ht : s.trail.var_index.length = s.formula.num_of_variables) :
    s.assignment = Assignment.new s.formula.num_of_variables ∧
    s.trail = DecisionTrail.new s.formula.num_of_variables ∧
    ∀ w ∈ s.watchers, w = Watcher.new w.clause := by
  obtain ⟨_, h2, h3, h4⟩ := h
  have ha : s.assignment = Assignment.new s.formula.num_of_variables := by
    rw [← h2]
    unfold Assignment.Reset Assignment.new
    rw [hc.assignment_length]
  refine ⟨ha, ?_, ?_⟩
  · rw [← h3]
    unfold DecisionTrail.Reset DecisionTrail.new
    rw [ht]
  · intro w hw
    have := List.map_fixed h4 w hw
    rw [ha, Watcher.Rescan_unassigned] at this
    exact this.symm

theorem Pristine.pristine_of_fields {s : BaseSolver X} (n : Nat) (hp : s.pending_assignments = [])
    (ha : s.assignment = Assignment.new n) (ht : s.trail = DecisionTrail.new n)
    (hw : ∀ w ∈ s.watchers, w = Watcher.new w.clause) : s.Pristine := by
  refine ⟨hp, ?_, ?_, ?_⟩
  · rw [ha]; simp [Assignment.Reset, Assignment.new]
  · rw [ht]; simp [DecisionTrail.Reset, DecisionTrail.new]
  · rw [ha]
    conv_rhs => rw [← List.map_id s.watchers]
    apply List.map_congr_left
    intro w hwm
    rw [Watcher.Rescan_unassigned]
    exact (hw w hwm).symm

end BaseSolver

namespace CdclSolver

variable {S : Type}

/-- `AppendClause` with a valid clause keeps a solver idle. -/
theorem Idle.idle_append (P : Platform S) {s : CdclSolver S} (h : Idle s) (c : Clause)
    (hc : c.Valid) : Idle (AppendClause P s c) := by
  obtain ⟨hi, hcl, hp⟩ := AppendClause_spec P 0 s c h.inv hc
  obtain ⟨hf, hw, ha, ht, hk, _⟩ := AppendClause_fields P s c h.inv.consistent
  have hN : s.formula.num_of_variables ≤ (s.formula.AppendClause c).num_of_variables := by
    simp [Formula.AppendClause]
  refine ⟨hi, by rw [AppendClause_learned]; exact h.builder, ?_, ?_⟩
  · rw [hk, hf, h.track_length]
    exact max_eq_right hN
  · intro hfr
    rw [AppendClause_fresh] at hfr
    have hpr := h.pristine hfr
    obtain ⟨h2, h3, h4⟩ := hpr.fields h.inv.consistent h.inv.trail_index_length
    have ha2 : (AppendClause P s c).assignment =
        Assignment.new (s.formula.AppendClause c).num_of_variables := by
      rw [ha, h2]
      exact Assignment.new_resized _ _ hN
    refine BaseSolver.Pristine.pristine_of_fields (s.formula.AppendClause c).num_of_variables
      (by rw [hp]; exact hpr.1) ha2 ?_ ?_
    · rw [ht, h3]
      exact DecisionTrail.new_trail_resized _ _ hN
    · intro w hwm
      rw [hw, List.mem_append, List.mem_singleton] at hwm
      rcases hwm with hwm | hwm
      · exact h4 w hwm
      · rw [hwm, h2, Assignment.new_resized _ _ hN, Watcher.Rescan_new,
          Watcher.new_clause]

/-- `RemoveClause` with the index of a clause keeps a solver idle. -/
theorem Idle.remove (P : Platform S) {s : CdclSolver S} (h : Idle s) (i : Nat)
    (hi : i < s.formula.NumOfClauses) : Idle (RemoveClause P s i) := by
  have hd := BaseSolver.DetachClause_consistent s i (s.formula.get i) h.inv.consistent hi
  have hcons : (RemoveClause P s i).Consistent := hd.1.of_eq rfl rfl rfl rfl
  have hform : (RemoveClause P s i).formula =
      { s.formula with clauses := s.formula.clauses.eraseIdx i } := hd.2
  have hN : (RemoveClause P s i).formula.num_of_variables = s.formula.num_of_variables := by
    rw [hform]
  have hassn : (RemoveClause P s i).assignment = s.assignment := by
    show (BaseSolver.DetachClause s i (s.formula.get i)).assignment = _
    rw [BaseSolver.DetachClause_assignment]
    exact Assignment.SetNumOfVariables_self _ _ h.inv.consistent.assignment_length
  have htrail : (RemoveClause P s i).trail = s.trail := by
    show (BaseSolver.DetachClause s i (s.formula.get i)).trail = _
    simp only [BaseSolver.DetachClause]
    have : ∀ t : CdclSolver S, t.trail = s.trail → t.formula = s.formula →
        t.trail.SetNumOfVariables t.formula.NumOfVariables = s.trail := by
      intro t h1 h2
      rw [h1, h2]
      unfold DecisionTrail.SetNumOfVariables
      have := h.inv.trail_index_length
      simp only [Formula.NumOfVariables]
      rw [if_neg (by omega), if_neg (by omega)]
    split_ifs <;> exact this _ (by simp [BaseSolver.ResetCurrentStatus]; split <;> rfl)
      (by simp)
  have hpend : (RemoveClause P s i).pending_assignments = s.pending_assignments := by
    show (BaseSolver.DetachClause s i (s.formula.get i)).pending_assignments = _
    exact BaseSolver.DetachClause_pending s i _
  have hwat : (RemoveClause P s i).watchers = s.watchers.eraseIdx i := by
    show (BaseSolver.DetachClause s i (s.formula.get i)).watchers = _
    exact BaseSolver.DetachClause_watchers s i _
  have hext : (BaseSolver.DetachClause s i (s.formula.get i)).ext = s.ext := by
    simp only [BaseSolver.DetachClause]
    split_ifs <;> simp
  have hf0 : (BaseSolver.DetachClause s i (s.formula.get i)).formula = s.formula :=
    BaseSolver.DetachClause_formula s i _
  have hlearned : (RemoveClause P s i).ext.learned_clause = s.ext.learned_clause := by
    show (BaseSolver.DetachClause s i (s.formula.get i)).ext.learned_clause = _
    rw [hext]
  have hevsids : (RemoveClause P s i).ext.evsids =
      s.ext.evsids.FormulaUpdated P s.formula := by
    show (BaseSolver.DetachClause s i (s.formula.get i)).ext.evsids.FormulaUpdated P
      (BaseSolver.DetachClause s i (s.formula.get i)).formula = _
    rw [hext, hf0]
  have htrack : (RemoveClause P s i).ext.analysis_track = s.ext.analysis_track := by
    show (if (BaseSolver.DetachClause s i (s.formula.get i)).formula.NumOfVariables <
        (BaseSolver.DetachClause s i (s.formula.get i)).ext.analysis_track.length then
      (BaseSolver.DetachClause s i (s.formula.get i)).ext.analysis_track.take
        (BaseSolver.DetachClause s i (s.formula.get i)).formula.NumOfVariables
      else (BaseSolver.DetachClause s i (s.formula.get i)).ext.analysis_track) = _
    rw [hext, hf0, if_neg]
    rw [h.track_length]
    exact Nat.lt_irrefl _
  have hfresh : (RemoveClause P s i).fresh_solver = s.fresh_solver := RemoveClause_fresh P s i
  refine ⟨⟨hcons, ?_, ?_, ?_, ?_, ?_, Nat.zero_le _,
    fun j _ _ hj => absurd hj (Nat.not_lt_zero j)⟩, ?_, ?_, ?_⟩
  · rw [htrail, hN]; exact h.inv.trail_range
  · rw [htrail, hN]; exact h.inv.trail_index_length
  · intro v hv
    rw [hevsids] at hv
    rw [hN]
    rcases EVSIDSHeuristics.FormulaUpdated_mem P _ _ v hv with h1 | h1
    · exact h.inv.heap_range v h1
    · exact h1
  · rw [hpend, hN]; exact h.inv.pending_range
  · rw [hlearned, h.builder]
    intro l hl
    cases hl
  · rw [hlearned]; exact h.builder
  · rw [htrack, hN]; exact h.track_length
  · intro hfr
    rw [hfresh] at hfr
    have hpr := h.pristine hfr
    obtain ⟨h2, h3, h4⟩ := hpr.fields h.inv.consistent h.inv.trail_index_length
    refine BaseSolver.Pristine.pristine_of_fields s.formula.num_of_variables
      (by rw [hpend]; exact hpr.1) (by rw [hassn]; exact h2) (by rw [htrail]; exact h3) ?_
    intro w hwm
    rw [hwat] at hwm
    exact h4 w (List.mem_of_mem_eraseIdx hwm)

end CdclSolver

end pjos

namespace pjos

namespace BaseSolver

variable {X : Type}

theorem SaveAssumptions_nil (s : BaseSolver X) : s.SaveAssumptions [] = s := by
  unfold SaveAssumptions
  simp

end BaseSolver

namespace CdclSolver

variable {S : Type}

/-- The state that `SolveImpl` leaves when it is called by a `Solve` on an idle solver. -/
theorem Idle.impl_idle (P : Platform S) (hP : P.SetOrderOk) {s s1 : CdclSolver S}
    (h : Idle s) (assumptions : List Literal)
    (hA : ∀ l ∈ assumptions, l ≠ 0 ∧ Literal.Variable l ≤ s.formula.num_of_variables)
    (fuel : Nat) (afc : Bool) (st : SolverStatus)
    (hr : SolveImpl P fuel afc (BaseSolver.SaveAssumptions (BaseSolver.PreSolve s) assumptions) =
      .ok (st, s1)) :
    ∃ iter1, Inv s1 iter1 ∧ s1.ext.learned_clause.literals = [] ∧
      s1.ext.analysis_track.length = s1.formula.num_of_variables ∧ s1.fresh_solver = false := by
  have hstart := h.loop_start assumptions hA
  have hfr := (h.started assumptions).2.2.2.2.2.2.2
  unfold SolveImpl at hr
  simp only at hr
  refine SolveLoop_idle P hP s.formula afc fuel _ s1 0 0 st hstart ?_ hr
  split_ifs
  · exact hfr
  · exact hfr

/-- `Solve(assumptions)` leaves an idle solver idle. -/
theorem Idle.solve (P : Platform S) (hP : P.SetOrderOk) {s s1 : CdclSolver S} (h : Idle s)
    (assumptions : List Literal)
    (hA : ∀ l ∈ assumptions, l ≠ 0 ∧ Literal.Variable l ≤ s.formula.num_of_variables)
    (fuel : Nat) (st : SolverStatus) (hr : Solve P fuel s assumptions = .ok (st, s1)) :
    Idle s1 := by
  unfold Solve BaseSolver.SolveWith at hr
  simp only at hr
  split at hr
  · cases hr
  · rename_i st2 s2 himpl
    obtain ⟨iter1, hi, hb, hk, hfr⟩ := h.impl_idle P hP assumptions hA fuel false st2 himpl
    cases hr
    exact Idle.of_solved hi hb hk hfr ⟨rfl, rfl, rfl, rfl, rfl, rfl⟩ rfl (fun v hv => hv) rfl rfl

/-- `Solve()` leaves an idle solver idle. -/
theorem Idle.solve0 (P : Platform S) (hP : P.SetOrderOk) {s s1 : CdclSolver S} (h : Idle s)
    (fuel : Nat) (st : SolverStatus) (hr : Solve0 P fuel s = .ok (st, s1)) : Idle s1 := by
  unfold Solve0 BaseSolver.SolveNoAssumptions at hr
  simp only at hr
  rw [← BaseSolver.SaveAssumptions_nil (BaseSolver.PreSolve s)] at hr
  split at hr
  · cases hr
  · rename_i st2 s2 himpl
    obtain ⟨iter1, hi, hb, hk, hfr⟩ := h.impl_idle P hP [] (fun l hl => by cases hl) fuel false
      st2 himpl
    cases hr
    exact Idle.of_solved hi hb hk hfr ⟨rfl, rfl, rfl, rfl, rfl, rfl⟩ rfl (fun v hv => hv) rfl rfl

/-- The `Solve` with a final conflict output leaves an idle solver idle. -/
theorem Idle.solveFinalConflict (P : Platform S) (hP : P.SetOrderOk) {s s1 : CdclSolver S}
    (h : Idle s) (assumptions : List Literal)
    (hA : ∀ l ∈ assumptions, l ≠ 0 ∧ Literal.Variable l ≤ s.formula.num_of_variables)
    (fuel : Nat) (st : SolverStatus) (fc : List Literal)
    (hr : SolveFinalConflict P fuel s assumptions = .ok (st, fc, s1)) : Idle s1 := by
  unfold SolveFinalConflict at hr
  simp only at hr
  split at hr
  · cases hr
  · rename_i st2 s2 himpl
    obtain ⟨iter1, hi, hb, hk, hfr⟩ := h.impl_idle P hP assumptions hA fuel true st2 himpl
    split_ifs at hr
    · cases hr
      exact Idle.of_solved hi hb hk hfr ⟨rfl, rfl, rfl, rfl, rfl, rfl⟩ rfl (fun v hv => hv)
        rfl rfl
    · cases hr
      exact Idle.of_solved hi hb hk hfr ⟨rfl, rfl, rfl, rfl, rfl, rfl⟩ rfl (fun v hv => hv)
        rfl rfl

/-- Every state of a `CdclSolver` that a program reaches through the public interface is
idle. -/
theorem Reachable.reach_idle (P : Platform S) (hP : P.SetOrderOk) {s : CdclSolver S}
    (h : Reachable P s) : Idle s := by
  induction h with
  | new formula scoring hF => exact Idle.idle_new P formula scoring hF
  | parameters s parameters _ ih =>
    exact ih.idle_of_eq ⟨rfl, rfl, rfl, rfl, rfl, rfl⟩ rfl (fun v hv => hv) rfl rfl
  | append s clause _ hc ih => exact ih.idle_append P clause hc
  | remove s index _ hi ih => exact ih.remove P index hi
  | interrupt s _ ih =>
    exact ih.idle_of_eq ⟨rfl, rfl, rfl, rfl, rfl, rfl⟩ rfl (fun v hv => hv) rfl rfl
  | interruptOn s req_fn _ ih =>
    exact ih.idle_of_eq ⟨rfl, rfl, rfl, rfl, rfl, rfl⟩ rfl (fun v hv => hv) rfl rfl
  | interruptOff s _ ih =>
    exact ih.idle_of_eq ⟨rfl, rfl, rfl, rfl, rfl, rfl⟩ rfl (fun v hv => hv) rfl rfl
  | solve0 s s1 fuel status _ hr ih => exact ih.solve0 P hP fuel status hr
  | solve s s1 fuel assumptions status _ hA hr ih =>
    exact ih.solve P hP assumptions hA fuel status hr
  | solveFinalConflict s s1 fuel assumptions status final_conflict _ hA hr ih =>
    exact ih.solveFinalConflict P hP assumptions hA fuel status final_conflict hr

/-- Every call of `UnitPropagation`, `AnalyzeConflict` and `AnalyzeFinalConflict` that a `Solve`
makes, on any solver state that a program reaches and with assumptions on variables of the
formula, finds the solver in a state that is ready for the call, for the formula held when
`Solve` is called. -/
theorem Reachable.events_ready (P : Platform S) (hP : P.SetOrderOk) {s : CdclSolver S}
    (h : Reachable P s) (assumptions : List Literal)
    (hA : ∀ l ∈ assumptions, l ≠ 0 ∧ Literal.Variable l ≤ s.formula.num_of_variables)
    (fuel : Nat) (afc : Bool) :
    ∀ ev ∈ SolveEvents P fuel afc s assumptions, Event.Ready s.formula ev :=
  (h.reach_idle P hP).idle_events_ready P hP assumptions hA fuel afc

end CdclSolver

end pjos

namespace pjos

/-- C36 (counterexample): `CdclSolver` for `(x1) (x2 ∨ x3)`, `Solve({x1})`.  The first
`UnitPropagation` assigns `x1` from the clause `(x1)`; the assumption `x1` then holds already
and `PerformPendingAssignment` pushes an `Assumption` entry for it all the same.  At the second
call of `UnitPropagation` the variable `x1` has two entries on the trail. -/
theorem C36_an_assumption_that_holds_adds_a_second_entry :
    ((CdclSolver.SolveEvents exactPlatform 10 false
      (CdclSolver.new exactPlatform (Formula.ofClauses id [[1], [2, 3]]) defaultScoring)
      [1]).map (fun ev => ev.solver.trail.trail))[1]? =
      some [⟨1, .True, 0, 0⟩, ⟨1, .True, DecisionTrail.ReasonAssumption, 1⟩] ∧
    ∃ s, (CdclSolver.SolveEvents exactPlatform 10 false
      (CdclSolver.new exactPlatform (Formula.ofClauses id [[1], [2, 3]]) defaultScoring)
      [1])[1]? = some (.propagate s) :=
  ⟨rfl, _, rfl⟩

/-- C36 (amended): in every `Solve` of a `CdclSolver` (`Solve()`, `Solve` with assumptions,
`Solve` with a final conflict), called in any state `s0` that a program reaches through the
public interface (constructor, parameters, `AppendClause`, `RemoveClause`, the interrupts and
earlier solves that returned), with assumptions over the variables of the formula, each time
`SolveImpl` is about to call `UnitPropagation`: a variable is assigned iff the trail has an
entry for it; the value of every entry of the trail is the current assignment of its variable;
and a variable has a second entry on the trail only when the later entry is an `Assumption`
entry, with the same value. -/
theorem C36_trail_and_assignment_agree {S : Type} (P : Platform S) (hP : P.SetOrderOk)
    (s0 : CdclSolver S) (h0 : CdclSolver.Reachable P s0) (assumptions : List Literal)
    (hA : ∀ l ∈ assumptions, l ≠ 0 ∧ Literal.Variable l ≤ s0.formula.num_of_variables)
    (fuel : Nat) (afc : Bool) (s : CdclSolver S)
    (h : CdclSolver.Event.propagate s ∈ CdclSolver.SolveEvents P fuel afc s0 assumptions) :
    (∀ v, 1 ≤ v →
      (s.assignment.get v ≠ .Unassigned ↔ ∃ e ∈ s.trail.trail, e.var = v)) ∧
    (∀ e ∈ s.trail.trail, s.assignment.get e.var = e.assignment ∧ 1 ≤ e.var) ∧
    (∀ (i j : Nat) (ei ej : DecisionTrail.Entry), i < j → s.trail.trail[i]? = some ei →
      s.trail.trail[j]? = some ej → ei.var = ej.var →
      ej.reason = DecisionTrail.ReasonAssumption ∧ ej.assignment = ei.assignment) := by
  obtain ⟨iter, hinv⟩ :=
    CdclSolver.Reachable.events_ready P hP h0 assumptions hA fuel afc _ h
  refine ⟨?_, ?_, ?_⟩
  · intro v hv1
    constructor
    · intro hne
      by_cases hv2 : v ≤ s.formula.num_of_variables
      · exact hinv.sound.assigned_on_trail v hv1 hv2 hne
      · exfalso
        apply hne
        apply BaseSolver.get_unassigned_of_gt
        rw [hinv.inv.consistent.assignment_length]
        omega
    · rintro ⟨e, he, hev⟩
      have := hinv.sound.trail_assignment e he
      rw [← hev, this.1]
      exact this.2
  · intro e he
    exact ⟨(hinv.sound.trail_assignment e he).1, (hinv.inv.trail_range e he).1⟩
  · intro i j ei ej hij hi hj hvar
    refine ⟨hinv.sound.dups i j ei ej hij hi hj hvar, ?_⟩
    rw [← (hinv.sound.trail_assignment ej (List.getElem?_mem hj)).1,
      ← (hinv.sound.trail_assignment ei (List.getElem?_mem hi)).1, hvar]

/-- C36 (instance): the second call of `UnitPropagation` in `Solve({x1})` for
`(x1) (x2 ∨ x3)`. -/
theorem C36_trail_and_assignment_agree_witness :
    ∃ s : CdclSolver Score,
      CdclSolver.Event.propagate s ∈ CdclSolver.SolveEvents exactPlatform 10 false
        (CdclSolver.SetParameters
          (CdclSolver.new exactPlatform (Formula.ofClauses id [[1], [2, 3]]) defaultScoring)
          CdclSolver.Parameters.default) [1] ∧
      s.trail.trail = [⟨1, .True, 0, 0⟩, ⟨1, .True, DecisionTrail.ReasonAssumption, 1⟩] ∧
      (∀ v, 1 ≤ v →
        (s.assignment.get v ≠ .Unassigned ↔ ∃ e ∈ s.trail.trail, e.var = v)) := by
  have hP : exactPlatform.SetOrderOk := fun ls => List.Perm.refl ls
  have hF : (Formula.ofClauses id [[1], [2, 3]]).WellFormed :=
    Formula.wellFormed_of_all _ (by decide)
  have hA : ∀ l ∈ [(1 : Literal)],
      l ≠ 0 ∧ Literal.Variable l ≤ (Formula.ofClauses id [[1], [2, 3]]).num_of_variables := by
    intro l hl
    simp only [List.mem_singleton] at hl
    subst hl
    decide
  have hev : ∃ s : CdclSolver Score, (CdclSolver.SolveEvents exactPlatform 10 false
      (CdclSolver.SetParameters
        (CdclSolver.new exactPlatform (Formula.ofClauses id [[1], [2, 3]]) defaultScoring)
        CdclSolver.Parameters.default) [1])[1]? = some (.propagate s) ∧
      s.trail.trail = [⟨1, .True, 0, 0⟩, ⟨1, .True, DecisionTrail.ReasonAssumption, 1⟩] :=
    ⟨_, rfl, rfl⟩
  obtain ⟨s, hs, htrail⟩ := hev
  exact ⟨s, List.getElem?_mem hs, htrail,
    (C36_trail_and_assignment_agree exactPlatform hP _
      (CdclSolver.Reachable.parameters _ _ (CdclSolver.Reachable.new _ _ hF)) [1] hA 10 false s
      (List.getElem?_mem hs)).1⟩

/-- C33: in every `Solve` of a `CdclSolver`, called in any state `s0` that a program reaches
through the public interface (constructor, parameters, `AppendClause`, `RemoveClause`, the
interrupts and earlier solves that returned), with assumptions over the variables of the
formula and any fuel, every clause that `AnalyzeConflict` returns when `SolveImpl` calls it is a
logical consequence of the formula at that moment: every total assignment that satisfies all
the clauses currently in the formula satisfies the learned clause; and so does every total
assignment that satisfies the formula as it was when `Solve` was called. -/
theorem C33_learned_clause_follows_from_the_formula {S : Type} (P : Platform S)
    (hP : P.SetOrderOk) (s0 : CdclSolver S) (h0 : CdclSolver.Reachable P s0)
    (assumptions : List Literal)
    (hA : ∀ l ∈ assumptions, l ≠ 0 ∧ Literal.Variable l ≤ s0.formula.num_of_variables)
    (fuel : Nat) (afc : Bool) (s s1 : CdclSolver S) (conflict_clause na : Nat)
    (learned : Clause) (backjump_level : Nat)
    (h : CdclSolver.Event.analyze s conflict_clause na ∈
      CdclSolver.SolveEvents P fuel afc s0 assumptions)
    (hr : CdclSolver.AnalyzeConflict P s (s.formula.get conflict_clause) =
      .ok (learned, backjump_level, s1)) :
    (∀ M : Nat → Bool, (∀ c ∈ s.formula.clauses, ClauseView.value M c = true) →
      ClauseView.value M learned = true) ∧
    (∀ M : Nat → Bool, s0.formula.value M = true → ClauseView.value M learned = true) := by
  obtain ⟨⟨iter, hinv⟩, _, hcc, hcf⟩ :=
    CdclSolver.Reachable.events_ready P hP h0 assumptions hA fuel afc _ h
  obtain ⟨_, _, _, himp⟩ := CdclSolver.AnalyzeConflict_sound P hP s0.formula iter s s1 _ learned
    backjump_level hinv.sound hinv.inv hinv.shape.builder hcf
    (BaseSolver.Formula_get_mem _ _ hcc) hr
  exact ⟨himp, fun M hM => himp M (hinv.sound.implied M hM)⟩

/-- C33 (instance): `Solve()` for `(¬x1 ∨ x2) (¬x1 ∨ ¬x2) (x1 ∨ x3) (x1 ∨ ¬x3)`: the solver
decides `x3`, propagates `x1` and `x2`, and analyses the conflict in the clause `1`; the learned
clause `(¬x1)` follows from the formula. -/
theorem C33_learned_clause_follows_from_the_formula_witness :
    ∃ (s s1 : CdclSolver Score) (learned : Clause),
      CdclSolver.Event.analyze s 1 0 ∈ CdclSolver.SolveEvents exactPlatform 10 false
        (CdclSolver.SetParameters
          (CdclSolver.new exactPlatform
            (Formula.ofClauses id [[-1, 2], [-1, -2], [1, 3], [1, -3]]) defaultScoring)
          CdclSolver.Parameters.default) [] ∧
      CdclSolver.AnalyzeConflict exactPlatform s (s.formula.get 1) = .ok (learned, 0, s1) ∧
      learned.clause = [-1] ∧
      ∀ M : Nat → Bool,
        (Formula.ofClauses id [[-1, 2], [-1, -2], [1, 3], [1, -3]]).value M = true →
          ClauseView.value M learned = true := by
  have hP : exactPlatform.SetOrderOk := fun ls => List.Perm.refl ls
  have hF : (Formula.ofClauses id [[-1, 2], [-1, -2], [1, 3], [1, -3]]).WellFormed :=
    Formula.wellFormed_of_all _ (by decide)
  have hev : ∃ (s s1 : CdclSolver Score) (learned : Clause),
      (CdclSolver.SolveEvents exactPlatform 10 false
        (CdclSolver.SetParameters
          (CdclSolver.new exactPlatform
            (Formula.ofClauses id [[-1, 2], [-1, -2], [1, 3], [1, -3]]) defaultScoring)
          CdclSolver.Parameters.default) [])[2]? = some (.analyze s 1 0) ∧
      CdclSolver.AnalyzeConflict exactPlatform s (s.formula.get 1) = .ok (learned, 0, s1) ∧
      learned.clause = [-1] :=
    ⟨_, _, _, rfl, rfl, rfl⟩
  obtain ⟨s, s1, learned, hs, hr, hl⟩ := hev
  exact ⟨s, s1, learned, List.getElem?_mem hs, hr, hl,
    (C33_learned_clause_follows_from_the_formula exactPlatform hP _
      (CdclSolver.Reachable.parameters _ _ (CdclSolver.Reachable.new _ _ hF))
      [] (fun l hl => by cases hl) 10 false s s1 1 0 learned 0
      (List.getElem?_mem hs) hr).2⟩

end pjos

namespace pjos

/-- C31 (amended): in every `Solve` of a `CdclSolver`, called in any state `s0` that a program
reaches through the public interface (constructor, parameters, `AppendClause`, `RemoveClause`,
the interrupts, earlier solves that returned), with assumptions over the variables of the
formula, any fuel and any arithmetic of the scores, for every conflict that `SolveImpl` passes
to `AnalyzeConflict`: the level of the trail is above zero and the conflict clause is
falsified; with the two asserts of `VariableActive` on a score taken out, the loop of the
analysis returns with the count of paths `1` at an entry of the level of the trail, and
`AnalyzeConflict` returns (no assertion fails) a backjump level strictly less than the level of
the trail; with the asserts on the scores in place `AnalyzeConflict` returns the same clause,
level and state, unless an assert of `VariableActive` on a score fails. -/
theorem C31_conflict_analysis_assertions_hold {S : Type} (P : Platform S)
    (hP : P.SetOrderOk) (s0 : CdclSolver S) (h0 : CdclSolver.Reachable P s0)
    (assumptions : List Literal)
    (hA : ∀ l ∈ assumptions, l ≠ 0 ∧ Literal.Variable l ≤ s0.formula.num_of_variables)
    (fuel : Nat) (afc : Bool) (s : CdclSolver S) (conflict_clause na : Nat)
    (h : CdclSolver.Event.analyze s conflict_clause na ∈
      CdclSolver.SolveEvents P fuel afc s0 assumptions) :
    0 < s.trail.level ∧
    (∀ l ∈ (s.formula.get conflict_clause).clause, Literal.IsFalse l s.assignment) ∧
    ∃ (a : CdclSolver.ConflictAnalysis S) (ti : Nat) (learned : Clause) (backjump_level : Nat)
      (s1 : CdclSolver S),
      CdclSolver.AnalyzeConflictLoop P.withoutScoreAsserts
        ((CdclSolver.ClearAnalysisTrack s).trail.Length + 1)
        ⟨CdclSolver.ClearAnalysisTrack s, 1, 0⟩ (s.formula.get conflict_clause).clause
        ((CdclSolver.ClearAnalysisTrack s).trail.Length - 1) = .ok (a, ti) ∧
      a.number_of_paths = 1 ∧ ti < s.trail.Length ∧
      (s.trail.get ti).level = s.trail.level ∧
      CdclSolver.AnalyzeConflict P.withoutScoreAsserts s (s.formula.get conflict_clause) =
        .ok (learned, backjump_level, s1) ∧
      backjump_level < s.trail.level ∧
      (CdclSolver.AnalyzeConflict P s (s.formula.get conflict_clause) =
          .ok (learned, backjump_level, s1) ∨
        (CdclSolver.AnalyzeConflict P s (s.formula.get conflict_clause) =
            .error .AssertionFailed ∧
          ∃ (e : EVSIDSHeuristics S) (var : Nat),
            e.VariableActive P var = .error .AssertionFailed)) := by
  obtain ⟨⟨iter, hinv⟩, hl, hcc, hcf⟩ :=
    CdclSolver.Reachable.events_ready P hP h0 assumptions hA fuel afc _ h
  exact ⟨hl, hcf, hinv.analysis P hl conflict_clause hcc hcf⟩

/-- C31 (instance): `Solve()` for `(¬x3 ∨ ¬x2 ∨ x1) (¬x3 ∨ ¬x2 ∨ ¬x1) (x3 ∨ x2)`: the solver
decides `x3` and `x2`, propagates `x1`, and analyses the conflict in the clause `1` at level
`2`; the loop stops at the decision of `x2` with one path left, and the backjump level is
`1`. -/
theorem C31_conflict_analysis_assertions_hold_witness :
    ∃ (s s1 : CdclSolver Score) (a : CdclSolver.ConflictAnalysis Score) (learned : Clause),
      CdclSolver.Event.analyze s 1 0 ∈ CdclSolver.SolveEvents exactPlatform 10 false
        (CdclSolver.SetParameters
          (CdclSolver.new exactPlatform
            (Formula.ofClauses id [[-3, -2, 1], [-3, -2, -1], [3, 2]]) defaultScoring)
          CdclSolver.Parameters.default) [] ∧
      s.trail.level = 2 ∧
      CdclSolver.AnalyzeConflictLoop exactPlatform
        ((CdclSolver.ClearAnalysisTrack s).trail.Length + 1)
        ⟨CdclSolver.ClearAnalysisTrack s, 1, 0⟩ (s.formula.get 1).clause
        ((CdclSolver.ClearAnalysisTrack s).trail.Length - 1) = .ok (a, 1) ∧
      a.number_of_paths = 1 ∧
      CdclSolver.AnalyzeConflict exactPlatform s (s.formula.get 1) = .ok (learned, 1, s1) ∧
      ∃ (a2 : CdclSolver.ConflictAnalysis Score) (ti : Nat) (learned2 : Clause)
        (backjump_level : Nat) (s2 : CdclSolver Score),
        CdclSolver.AnalyzeConflictLoop exactPlatform.withoutScoreAsserts
          ((CdclSolver.ClearAnalysisTrack s).trail.Length + 1)
          ⟨CdclSolver.ClearAnalysisTrack s, 1, 0⟩ (s.formula.get 1).clause
          ((CdclSolver.ClearAnalysisTrack s).trail.Length - 1) = .ok (a2, ti) ∧
        a2.number_of_paths = 1 ∧ ti < s.trail.Length ∧
        (s.trail.get ti).level = s.trail.level ∧
        CdclSolver.AnalyzeConflict exactPlatform.withoutScoreAsserts s (s.formula.get 1) =
          .ok (learned2, backjump_level, s2) ∧
        backjump_level < s.trail.level ∧
        (CdclSolver.AnalyzeConflict exactPlatform s (s.formula.get 1) =
            .ok (learned2, backjump_level, s2) ∨
          (CdclSolver.AnalyzeConflict exactPlatform s (s.formula.get 1) =
              .error .AssertionFailed ∧
            ∃ (e : EVSIDSHeuristics Score) (var : Nat),
              e.VariableActive exactPlatform var = .error .AssertionFailed)) := by
  have hP : exactPlatform.SetOrderOk := fun ls => List.Perm.refl ls
  have hF : (Formula.ofClauses id [[-3, -2, 1], [-3, -2, -1], [3, 2]]).WellFormed :=
    Formula.wellFormed_of_all _ (by decide)
  have hev : ∃ (s s1 : CdclSolver Score) (a : CdclSolver.ConflictAnalysis Score)
      (learned : Clause),
      (CdclSolver.SolveEvents exactPlatform 10 false
        (CdclSolver.SetParameters
          (CdclSolver.new exactPlatform
            (Formula.ofClauses id [[-3, -2, 1], [-3, -2, -1], [3, 2]]) defaultScoring)
          CdclSolver.Parameters.default) [])[3]? = some (.analyze s 1 0) ∧
      s.trail.level = 2 ∧
      CdclSolver.AnalyzeConflictLoop exactPlatform
        ((CdclSolver.ClearAnalysisTrack s).trail.Length + 1)
        ⟨CdclSolver.ClearAnalysisTrack s, 1, 0⟩ (s.formula.get 1).clause
        ((CdclSolver.ClearAnalysisTrack s).trail.Length - 1) = .ok (a, 1) ∧
      a.number_of_paths = 1 ∧
      CdclSolver.AnalyzeConflict exactPlatform s (s.formula.get 1) = .ok (learned, 1, s1) :=
    ⟨_, _, _, _, rfl, rfl, rfl, rfl, rfl⟩
  obtain ⟨s, s1, a, learned, hs, hl, hloop, hp, hr⟩ := hev
  exact ⟨s, s1, a, learned, List.getElem?_mem hs, hl, hloop, hp, hr,
    (C31_conflict_analysis_assertions_hold exactPlatform hP _
      (CdclSolver.Reachable.parameters _ _ (CdclSolver.Reachable.new _ _ hF))
      [] (fun l hl => by cases hl) 10 false s 1 0 (List.getElem?_mem hs)).2.2⟩

/-- C31 (counterexample to the claim as stated): `Solve()` for
`(¬x1 ∨ x2) (¬x1 ∨ ¬x2) (x1 ∨ x3) (x1 ∨ ¬x3)`: the solver decides `x3`, propagates `x1` from
the clause `3` and `x2` from the clause `0`, and analyses the conflict in the clause `1` at
level `1`; the loop of the analysis stops at the entry of `x1`, which is a propagation from the
clause `3`, neither a decision nor an assumption. -/
theorem C31_analysis_stops_at_a_propagation :
    ∃ (s : CdclSolver Score) (a : CdclSolver.ConflictAnalysis Score),
      CdclSolver.Event.analyze s 1 0 ∈ CdclSolver.SolveEvents exactPlatform 10 false
        (CdclSolver.SetParameters
          (CdclSolver.new exactPlatform
            (Formula.ofClauses id [[-1, 2], [-1, -2], [1, 3], [1, -3]]) defaultScoring)
          CdclSolver.Parameters.default) [] ∧
      s.trail.level = 1 ∧
      (∀ l ∈ (s.formula.get 1).clause, Literal.IsFalse l s.assignment) ∧
      CdclSolver.AnalyzeConflictLoop exactPlatform
        ((CdclSolver.ClearAnalysisTrack s).trail.Length + 1)
        ⟨CdclSolver.ClearAnalysisTrack s, 1, 0⟩ (s.formula.get 1).clause
        ((CdclSolver.ClearAnalysisTrack s).trail.Length - 1) = .ok (a, 1) ∧
      s.trail.get 1 = ⟨1, .True, 3, 1⟩ ∧
      (s.trail.get 1).reason ≠ DecisionTrail.ReasonDecision ∧
      (s.trail.get 1).reason ≠ DecisionTrail.ReasonAssumption := by
  have hP : exactPlatform.SetOrderOk := fun ls => List.Perm.refl ls
  have hF : (Formula.ofClauses id [[-1, 2], [-1, -2], [1, 3], [1, -3]]).WellFormed :=
    Formula.wellFormed_of_all _ (by decide)
  have hev : ∃ (s : CdclSolver Score) (a : CdclSolver.ConflictAnalysis Score),
      (CdclSolver.SolveEvents exactPlatform 10 false
        (CdclSolver.SetParameters
          (CdclSolver.new exactPlatform
            (Formula.ofClauses id [[-1, 2], [-1, -2], [1, 3], [1, -3]]) defaultScoring)
          CdclSolver.Parameters.default) [])[2]? = some (.analyze s 1 0) ∧
      s.trail.level = 1 ∧
      CdclSolver.AnalyzeConflictLoop exactPlatform
        ((CdclSolver.ClearAnalysisTrack s).trail.Length + 1)
        ⟨CdclSolver.ClearAnalysisTrack s, 1, 0⟩ (s.formula.get 1).clause
        ((CdclSolver.ClearAnalysisTrack s).trail.Length - 1) = .ok (a, 1) ∧
      s.trail.get 1 = ⟨1, .True, 3, 1⟩ :=
    ⟨_, _, rfl, rfl, rfl, rfl⟩
  obtain ⟨s, a, hs, hl, hloop, hget⟩ := hev
  have hready := CdclSolver.Reachable.events_ready exactPlatform hP
    (CdclSolver.Reachable.parameters _ CdclSolver.Parameters.default
      (CdclSolver.Reachable.new _ defaultScoring hF))
    [] (fun l hl => by cases hl) 10 false _ (List.getElem?_mem hs)
  refine ⟨s, a, List.getElem?_mem hs, hl, hready.2.2.2, hloop, hget, ?_, ?_⟩
  · rw [hget]
    decide
  · rw [hget]
    decide

/-- C35: in every `Solve` of a `CdclSolver`, called in any state `s0` that a program reaches
through the public interface (constructor, parameters, `AppendClause`, `RemoveClause`, the
interrupts, earlier solves that returned), with assumptions over the variables of the formula,
any fuel and any arithmetic of the scores, for every conflict that `SolveImpl` passes to
`AnalyzeConflict` and that `AnalyzeConflict` analyses (it returns a clause and a level): every
literal of the clause is false under the assignment at the conflict; the negated literal of
the entry at which the loop stopped is the one literal of the clause whose variable is
assigned at the level of the trail; and the backjump level returned is the greatest level among
the other literals, or the level of the trail less one when that is `0`. -/
theorem C35_learned_clause_is_false_with_one_literal_at_the_level {S : Type} (P : Platform S)
    (hP : P.SetOrderOk) (s0 : CdclSolver S) (h0 : CdclSolver.Reachable P s0)
    (assumptions : List Literal)
    (hA : ∀ l ∈ assumptions, l ≠ 0 ∧ Literal.Variable l ≤ s0.formula.num_of_variables)
    (fuel : Nat) (afc : Bool) (s s1 : CdclSolver S) (conflict_clause na : Nat)
    (learned : Clause) (backjump_level : Nat)
    (h : CdclSolver.Event.analyze s conflict_clause na ∈
      CdclSolver.SolveEvents P fuel afc s0 assumptions)
    (hr : CdclSolver.AnalyzeConflict P s (s.formula.get conflict_clause) =
      .ok (learned, backjump_level, s1)) :
    ∃ (a : CdclSolver.ConflictAnalysis S) (ti : Nat),
      CdclSolver.AnalyzeConflictLoop P ((CdclSolver.ClearAnalysisTrack s).trail.Length + 1)
        ⟨CdclSolver.ClearAnalysisTrack s, 1, 0⟩ (s.formula.get conflict_clause).clause
        ((CdclSolver.ClearAnalysisTrack s).trail.Length - 1) = .ok (a, ti) ∧
      ti < s.trail.Length ∧ (s.trail.get ti).level = s.trail.level ∧
      (∀ l ∈ learned.clause, Literal.IsFalse l s.assignment) ∧
      learned.clause.filter
        (fun l => decide (s.trail.LevelOf (Literal.Variable l) = s.trail.level)) =
        [Literal.mk (s.trail.get ti).var
          (FlipVariableAssignment (s.trail.get ti).assignment)] ∧
      backjump_level =
        if s.trail.MaxLevel (learned.clause.filter
            (fun l => decide (l ≠ Literal.mk (s.trail.get ti).var
              (FlipVariableAssignment (s.trail.get ti).assignment)))) = 0
        then s.trail.level - 1
        else s.trail.MaxLevel (learned.clause.filter
            (fun l => decide (l ≠ Literal.mk (s.trail.get ti).var
              (FlipVariableAssignment (s.trail.get ti).assignment)))) := by
  obtain ⟨⟨iter, hinv⟩, hl, hcc, hcf⟩ :=
    CdclSolver.Reachable.events_ready P hP h0 assumptions hA fuel afc _ h
  obtain ⟨a, ti, hloop, hm, _, hti, hlevel, hidx, hlearned, hbl⟩ :=
    hinv.analysed P hl conflict_clause hcc hcf learned backjump_level hr
  obtain ⟨hfalse, hone, hmax⟩ := hm.learned hinv P hP hti hlevel hidx
  rw [← hlearned] at hfalse hone hmax
  refine ⟨a, ti, hloop, hti, hlevel, hfalse, hone, ?_⟩
  rw [hmax]
  exact hbl

/-- C35 (instance): `Solve()` for `(¬x3 ∨ ¬x2 ∨ x1) (¬x3 ∨ ¬x2 ∨ ¬x1) (x3 ∨ x2)`: the conflict
in the clause `1` at level `2` gives the clause `(¬x3 ∨ ¬x2)`: both literals are false, `¬x2`
is the one literal at level `2`, and the backjump level `1` is the level of `x3`. -/
theorem C35_learned_clause_is_false_with_one_literal_at_the_level_witness :
    ∃ (s s1 : CdclSolver Score) (learned : Clause),
      CdclSolver.Event.analyze s 1 0 ∈ CdclSolver.SolveEvents exactPlatform 10 false
        (CdclSolver.SetParameters
          (CdclSolver.new exactPlatform
            (Formula.ofClauses id [[-3, -2, 1], [-3, -2, -1], [3, 2]]) defaultScoring)
          CdclSolver.Parameters.default) [] ∧
      s.trail.level = 2 ∧
      CdclSolver.AnalyzeConflict exactPlatform s (s.formula.get 1) = .ok (learned, 1, s1) ∧
      learned.clause = [-3, -2] ∧
      ∃ (a : CdclSolver.ConflictAnalysis Score) (ti : Nat),
        CdclSolver.AnalyzeConflictLoop exactPlatform
          ((CdclSolver.ClearAnalysisTrack s).trail.Length + 1)
          ⟨CdclSolver.ClearAnalysisTrack s, 1, 0⟩ (s.formula.get 1).clause
          ((CdclSolver.ClearAnalysisTrack s).trail.Length - 1) = .ok (a, ti) ∧
        ti < s.trail.Length ∧ (s.trail.get ti).level = s.trail.level ∧
        (∀ l ∈ learned.clause, Literal.IsFalse l s.assignment) ∧
        learned.clause.filter
          (fun l => decide (s.trail.LevelOf (Literal.Variable l) = s.trail.level)) =
          [Literal.mk (s.trail.get ti).var
            (FlipVariableAssignment (s.trail.get ti).assignment)] ∧
        1 =
          if s.trail.MaxLevel (learned.clause.filter
              (fun l => decide (l ≠ Literal.mk (s.trail.get ti).var
                (FlipVariableAssignment (s.trail.get ti).assignment)))) = 0
          then s.trail.level - 1
          else s.trail.MaxLevel (learned.clause.filter
              (fun l => decide (l ≠ Literal.mk (s.trail.get ti).var
                (FlipVariableAssignment (s.trail.get ti).assignment)))) := by
  have hP : exactPlatform.SetOrderOk := fun ls => List.Perm.refl ls
  have hF : (Formula.ofClauses id [[-3, -2, 1], [-3, -2, -1], [3, 2]]).WellFormed :=
    Formula.wellFormed_of_all _ (by decide)
  have hev : ∃ (s s1 : CdclSolver Score) (learned : Clause),
      (CdclSolver.SolveEvents exactPlatform 10 false
        (CdclSolver.SetParameters
          (CdclSolver.new exactPlatform
            (Formula.ofClauses id [[-3, -2, 1], [-3, -2, -1], [3, 2]]) defaultScoring)
          CdclSolver.Parameters.default) [])[3]? = some (.analyze s 1 0) ∧
      s.trail.level = 2 ∧
      CdclSolver.AnalyzeConflict exactPlatform s (s.formula.get 1) = .ok (learned, 1, s1) ∧
      learned.clause = [-3, -2] :=
    ⟨_, _, _, rfl, rfl, rfl, rfl⟩
  obtain ⟨s, s1, learned, hs, hl, hr, hc⟩ := hev
  exact ⟨s, s1, learned, List.getElem?_mem hs, hl, hr, hc,
    C35_learned_clause_is_false_with_one_literal_at_the_level exactPlatform hP _
      (CdclSolver.Reachable.parameters _ _ (CdclSolver.Reachable.new _ _ hF))
      [] (fun l hl => by cases hl) 10 false s s1 1 0 learned 1
      (List.getElem?_mem hs) hr⟩

end pjos

namespace pjos

/-- C40: in every `Solve` of a `CdclSolver`, called in any state `s0` that a program reaches
through the public interface (constructor, parameters, `AppendClause`, `RemoveClause`, the
interrupts, earlier solves that returned), with assumptions over the variables of the formula,
any fuel and any arithmetic of the scores: every call of `AnalyzeFinalConflict` that `SolveImpl`
makes returns, and every call of `AnalyzeConflict` that it makes returns when the two asserts of
`VariableActive` on a score are taken out; with these asserts in place `AnalyzeConflict` returns
the same, unless one of them fails.  A backward scan of the trail that finds no entry marked
`Pending` (the failing assertion `trail_index > 0` or a read of the trail out of range) is a
fault of the scan, and a fault of the scan is a fault of the analysis: so in both analyses every
scan of the trail finds an entry marked `Pending`. -/
theorem C40_scans_of_the_trail_find_a_pending_entry {S : Type} (P : Platform S)
    (hP : P.SetOrderOk) (s0 : CdclSolver S) (h0 : CdclSolver.Reachable P s0)
    (assumptions : List Literal)
    (hA : ∀ l ∈ assumptions, l ≠ 0 ∧ Literal.Variable l ≤ s0.formula.num_of_variables)
    (fuel : Nat) (afc : Bool) :
    (∀ (s : CdclSolver S) (conflict_clause na : Nat),
      CdclSolver.Event.analyze s conflict_clause na ∈
        CdclSolver.SolveEvents P fuel afc s0 assumptions →
      ∃ (a : CdclSolver.ConflictAnalysis S) (ti : Nat)
        (r : Clause × Nat × CdclSolver S),
        CdclSolver.AnalyzeConflictLoop P.withoutScoreAsserts
          ((CdclSolver.ClearAnalysisTrack s).trail.Length + 1)
          ⟨CdclSolver.ClearAnalysisTrack s, 1, 0⟩ (s.formula.get conflict_clause).clause
          ((CdclSolver.ClearAnalysisTrack s).trail.Length - 1) = .ok (a, ti) ∧
        ti < s.trail.Length ∧
        CdclSolver.AnalyzeConflict P.withoutScoreAsserts s (s.formula.get conflict_clause) =
          .ok r ∧
        (CdclSolver.AnalyzeConflict P s (s.formula.get conflict_clause) = .ok r ∨
          (CdclSolver.AnalyzeConflict P s (s.formula.get conflict_clause) =
              .error .AssertionFailed ∧
            ∃ (e : EVSIDSHeuristics S) (var : Nat),
              e.VariableActive P var = .error .AssertionFailed))) ∧
    (∀ (s : CdclSolver S) (conflict : List Literal) (assumption_clause : Bool),
      CdclSolver.Event.final s conflict assumption_clause ∈
        CdclSolver.SolveEvents P fuel afc s0 assumptions →
      ∃ s1, CdclSolver.AnalyzeFinalConflict s conflict assumption_clause = .ok s1) := by
  constructor
  · intro s conflict_clause na h
    obtain ⟨⟨iter, hinv⟩, hl, hcc, hcf⟩ :=
      CdclSolver.Reachable.events_ready P hP h0 assumptions hA fuel afc _ h
    obtain ⟨a, ti, learned, bl, s1, hloop, _, hti, _, hr, _, hboth⟩ :=
      hinv.analysis P hl conflict_clause hcc hcf
    exact ⟨a, ti, _, hloop, hti, hr, hboth⟩
  · intro s conflict assumption_clause h
    obtain ⟨⟨iter, hinv⟩, hsound, hfound, hc⟩ :=
      CdclSolver.Reachable.events_ready P hP h0 assumptions hA fuel afc _ h
    exact CdclSolver.AnalyzeFinalConflict_total hinv hsound hfound conflict assumption_clause
      hc

/-- C40 (instance): `Solve()` under the assumption `¬x4` for
`(¬x1 ∨ ¬x2 ∨ x3) (¬x1 ∨ ¬x2 ∨ ¬x3) (x1 ∨ x4) (x2 ∨ x4)` with the final conflict analysis
switched on: the solver analyses the conflict in the clause `1`, where the scan of the trail
goes down to the entry `0` of the assumption, and then runs the final conflict analysis on that
clause, which gives the final conflict `¬x4`. -/
theorem C40_scans_of_the_trail_find_a_pending_entry_witness :
    ∃ (s t s1 : CdclSolver Score) (a : CdclSolver.ConflictAnalysis Score)
      (r : Clause × Nat × CdclSolver Score),
      CdclSolver.Event.analyze s 1 1 ∈ CdclSolver.SolveEvents exactPlatform 10 true
        (CdclSolver.SetParameters
          (CdclSolver.new exactPlatform
            (Formula.ofClauses id [[-1, -2, 3], [-1, -2, -3], [1, 4], [2, 4]]) defaultScoring)
          CdclSolver.Parameters.default) [-4] ∧
      CdclSolver.AnalyzeConflictLoop exactPlatform
        ((CdclSolver.ClearAnalysisTrack s).trail.Length + 1)
        ⟨CdclSolver.ClearAnalysisTrack s, 1, 0⟩ (s.formula.get 1).clause
        ((CdclSolver.ClearAnalysisTrack s).trail.Length - 1) = .ok (a, 0) ∧
      CdclSolver.AnalyzeConflict exactPlatform s (s.formula.get 1) = .ok r ∧
      CdclSolver.Event.final t [-1, -2, -3] false ∈ CdclSolver.SolveEvents exactPlatform 10 true
        (CdclSolver.SetParameters
          (CdclSolver.new exactPlatform
            (Formula.ofClauses id [[-1, -2, 3], [-1, -2, -3], [1, 4], [2, 4]]) defaultScoring)
          CdclSolver.Parameters.default) [-4] ∧
      CdclSolver.AnalyzeFinalConflict t [-1, -2, -3] false = .ok s1 ∧
      s1.ext.final_conflict = [-4] ∧
      (∃ (a2 : CdclSolver.ConflictAnalysis Score) (ti : Nat)
        (r2 : Clause × Nat × CdclSolver Score),
        CdclSolver.AnalyzeConflictLoop exactPlatform.withoutScoreAsserts
          ((CdclSolver.ClearAnalysisTrack s).trail.Length + 1)
          ⟨CdclSolver.ClearAnalysisTrack s, 1, 0⟩ (s.formula.get 1).clause
          ((CdclSolver.ClearAnalysisTrack s).trail.Length - 1) = .ok (a2, ti) ∧
        ti < s.trail.Length ∧
        CdclSolver.AnalyzeConflict exactPlatform.withoutScoreAsserts s (s.formula.get 1) =
          .ok r2 ∧
        (CdclSolver.AnalyzeConflict exactPlatform s (s.formula.get 1) = .ok r2 ∨
          (CdclSolver.AnalyzeConflict exactPlatform s (s.formula.get 1) =
              .error .AssertionFailed ∧
            ∃ (e : EVSIDSHeuristics Score) (var : Nat),
              e.VariableActive exactPlatform var = .error .AssertionFailed))) ∧
      ∃ s2, CdclSolver.AnalyzeFinalConflict t [-1, -2, -3] false = .ok s2 := by
  have hP : exactPlatform.SetOrderOk := fun ls => List.Perm.refl ls
  have hF : (Formula.ofClauses id
      [[-1, -2, 3], [-1, -2, -3], [1, 4], [2, 4]]).WellFormed :=
    Formula.wellFormed_of_all _ (by decide)
  have hA : ∀ l ∈ [(-4 : Literal)], l ≠ 0 ∧ Literal.Variable l ≤
      (Formula.ofClauses id [[-1, -2, 3], [-1, -2, -3], [1, 4], [2, 4]]).num_of_variables := by
    intro l hl
    rw [List.mem_singleton] at hl
    rw [hl]
    decide
  have hev : ∃ (s t s1 : CdclSolver Score) (a : CdclSolver.ConflictAnalysis Score)
      (r : Clause × Nat × CdclSolver Score),
      (CdclSolver.SolveEvents exactPlatform 10 true
        (CdclSolver.SetParameters
          (CdclSolver.new exactPlatform
            (Formula.ofClauses id [[-1, -2, 3], [-1, -2, -3], [1, 4], [2, 4]]) defaultScoring)
          CdclSolver.Parameters.default) [-4])[2]? = some (.analyze s 1 1) ∧
      CdclSolver.AnalyzeConflictLoop exactPlatform
        ((CdclSolver.ClearAnalysisTrack s).trail.Length + 1)
        ⟨CdclSolver.ClearAnalysisTrack s, 1, 0⟩ (s.formula.get 1).clause
        ((CdclSolver.ClearAnalysisTrack s).trail.Length - 1) = .ok (a, 0) ∧
      CdclSolver.AnalyzeConflict exactPlatform s (s.formula.get 1) = .ok r ∧
      (CdclSolver.SolveEvents exactPlatform 10 true
        (CdclSolver.SetParameters
          (CdclSolver.new exactPlatform
            (Formula.ofClauses id [[-1, -2, 3], [-1, -2, -3], [1, 4], [2, 4]]) defaultScoring)
          CdclSolver.Parameters.default) [-4])[3]? = some (.final t [-1, -2, -3] false) ∧
      CdclSolver.AnalyzeFinalConflict t [-1, -2, -3] false = .ok s1 ∧
      s1.ext.final_conflict = [-4] :=
    ⟨_, _, _, _, _, rfl, rfl, rfl, rfl, rfl, rfl⟩
  obtain ⟨s, t, s1, a, r, hs, hloop, hr, ht, hfin, hfc⟩ := hev
  have hboth := C40_scans_of_the_trail_find_a_pending_entry exactPlatform hP _
    (CdclSolver.Reachable.parameters _ CdclSolver.Parameters.default
      (CdclSolver.Reachable.new _ defaultScoring hF)) [-4] hA 10 true
  exact ⟨s, t, s1, a, r, List.getElem?_mem hs, hloop, hr, List.getElem?_mem ht, hfin, hfc,
    hboth.1 s 1 1 (List.getElem?_mem hs), hboth.2 t _ false (List.getElem?_mem ht)⟩

/-- C34 (amended): in every `Solve` of a `CdclSolver`, called in any state `s0` that a program
reaches through the public interface (constructor, parameters, `AppendClause`, `RemoveClause`,
the interrupts, earlier solves that returned), with assumptions over the variables of the
formula, any fuel and any arithmetic of the scores: after `SolveImpl` has appended the clause
that `AnalyzeConflict` returned and `Backjump` to the backjump level has returned `true`, the
watcher of the learned clause has the status `Unit`, its first watch is on
the negated literal of the entry at which the analysis stopped, and the variable of that entry
is unassigned; and when the next `UnitPropagation` returns without a conflict, it has given
that variable the opposite value. -/
theorem C34_learned_clause_is_unit_after_the_backjump {S : Type} (P : Platform S)
    (hP : P.SetOrderOk) (s0 : CdclSolver S) (h0 : CdclSolver.Reachable P s0)
    (assumptions : List Literal)
    (hA : ∀ l ∈ assumptions, l ≠ 0 ∧ Literal.Variable l ≤ s0.formula.num_of_variables)
    (fuel : Nat) (afc : Bool) (s s1 s2 : CdclSolver S) (conflict_clause na : Nat)
    (learned : Clause) (backjump_level : Nat)
    (h : CdclSolver.Event.analyze s conflict_clause na ∈
      CdclSolver.SolveEvents P fuel afc s0 assumptions)
    (hr : CdclSolver.AnalyzeConflict P s (s.formula.get conflict_clause) =
      .ok (learned, backjump_level, s1))
    (hb : CdclSolver.Backjump (CdclSolver.AppendClause P s1 learned) backjump_level =
      .ok (true, s2)) :
    ∃ (a : CdclSolver.ConflictAnalysis S) (ti : Nat) (w : Watcher),
      CdclSolver.AnalyzeConflictLoop P ((CdclSolver.ClearAnalysisTrack s).trail.Length + 1)
        ⟨CdclSolver.ClearAnalysisTrack s, 1, 0⟩ (s.formula.get conflict_clause).clause
        ((CdclSolver.ClearAnalysisTrack s).trail.Length - 1) = .ok (a, ti) ∧
      s2.watchers[s.formula.NumOfClauses]? = some w ∧ w.clause = learned ∧
      w.status = .Unit ∧ w.watched_literals.1 ≠ -1 ∧
      w.clause.get w.watched_literals.1.toNat =
        Literal.mk (s.trail.get ti).var (FlipVariableAssignment (s.trail.get ti).assignment) ∧
      s2.assignment.get (s.trail.get ti).var = .Unassigned ∧
      ∀ (fuel2 : Nat) (s3 : CdclSolver S) (r : UnitPropagationResult) (c : Nat),
        BaseSolver.UnitPropagation fuel2
          (BaseSolver.PollInterrupt ({ s2 with ext := { s2.ext with
            evsids := s2.ext.evsids.NextIteration P } } : CdclSolver S)).2 = .ok (s3, r, c) →
        r ≠ .Unsat →
        s3.assignment.get (s.trail.get ti).var =
          FlipVariableAssignment (s.trail.get ti).assignment := by
  obtain ⟨⟨iter, hinv⟩, hl, hcc, hcf⟩ :=
    CdclSolver.Reachable.events_ready P hP h0 assumptions hA fuel afc _ h
  obtain ⟨a, ti, hloop, hane, h2, hclauses, humem, hnd, hun, hothers, hcount⟩ :=
    hinv.asserting P hP hl conflict_clause hcc hcf learned backjump_level hr hb
  -- the watcher of the learned clause
  have hwc := h2.inv.consistent.watchers_clauses
  have hk : (s2.watchers.map (fun w => w.clause))[s.formula.NumOfClauses]? = some learned := by
    rw [hwc, hclauses]
    show (s.formula.clauses ++ [learned])[s.formula.clauses.length]? = _
    rw [List.getElem?_append_right (le_refl _)]
    simp
  rw [List.getElem?_map] at hk
  obtain ⟨w, hw, hwcl⟩ := Option.map_eq_some'.mp hk
  have hwmem : w ∈ s2.watchers := List.getElem?_mem hw
  obtain ⟨hst, hw1, _, hwu⟩ := Watcher.unit_of_exact
    (h2.inv.consistent.watchers_ok w hwmem) (h2.sound.tight w hwmem)
    (h2.shape.undecided w hwmem)
    (Literal.mk (s.trail.get ti).var (FlipVariableAssignment (s.trail.get ti).assignment))
    (by rw [hwcl]; exact humem) (by rw [hwcl]; exact hnd)
    (by rw [Literal.variable_mk]; exact hun)
    (by rw [hwcl]; exact hothers)
  refine ⟨a, ti, w, hloop, hw, hwcl, hst, hw1, hwu, hun, ?_⟩
  -- the next propagation
  intro fuel2 s3 r c hup hne
  have h6 : CdclSolver.LoopInv s0.formula ({ s2 with ext := { s2.ext with
      evsids := s2.ext.evsids.NextIteration P } } : CdclSolver S) iter :=
    h2.of_ext ⟨rfl, rfl, rfl, rfl, rfl, rfl⟩ (fun v hv => hv) rfl rfl
  have hpoll := BaseSolver.PollInterrupt_spec ({ s2 with ext := { s2.ext with
      evsids := s2.ext.evsids.NextIteration P } } : CdclSolver S)
  have h7a : CdclSolver.LoopInv s0.formula (BaseSolver.PollInterrupt ({ s2 with ext := { s2.ext with
      evsids := s2.ext.evsids.NextIteration P } } : CdclSolver S)).2 iter :=
    h6.of_ext hpoll.1 (by rw [hpoll.2]; exact fun v hv => hv) (by rw [hpoll.2])
      (by rw [hpoll.2])
  have hassna : (BaseSolver.PollInterrupt ({ s2 with ext := { s2.ext with
      evsids := s2.ext.evsids.NextIteration P } } : CdclSolver S)).2.assignment =
      s2.assignment := hpoll.1.assignment
  have hforma : (BaseSolver.PollInterrupt ({ s2 with ext := { s2.ext with
      evsids := s2.ext.evsids.NextIteration P } } : CdclSolver S)).2.formula =
      s2.formula := hpoll.1.formula
  have hup2a : BaseSolver.UnitPropagationLoop fuel2
      (BaseSolver.PollInterrupt ({ s2 with ext := { s2.ext with
        evsids := s2.ext.evsids.NextIteration P } } : CdclSolver S)).2 = .ok (s3, r, c) := hup
  obtain ⟨t, h7, hassn, hform, hup2⟩ : ∃ t : CdclSolver S,
      CdclSolver.LoopInv s0.formula t iter ∧ t.assignment = s2.assignment ∧
      t.formula = s2.formula ∧ BaseSolver.UnitPropagationLoop fuel2 t = .ok (s3, r, c) :=
    ⟨_, h7a, hassna, hforma, hup2a⟩
  obtain ⟨steps, hs3, hjust, _, _, _⟩ := BaseSolver.UnitPropagationLoop_steps fuel2 t s3 r c
    h7.inv.consistent h7.exact hup2
  obtain ⟨_, hf3, _, hsat, _, hpass⟩ :=
    CdclSolver.UnitPropagationLoop_inv s0.formula iter fuel2 t s3 r c h7 hup2
  have hkeep : ∀ v, 1 ≤ v → s2.assignment.get v ≠ .Unassigned →
      s3.assignment.get v = s2.assignment.get v := by
    intro v hv ha
    have := CdclSolver.LoopInv.propagateAll_keeps steps t h7 hjust v hv
      (by rw [hassn]; exact ha)
    rw [hs3, this, hassn]
  have hmem2 : learned ∈ s2.formula.clauses := by
    rw [hclauses]
    exact List.mem_append_right _ (List.mem_singleton.mpr rfl)
  have hmem3 : learned ∈ s3.formula.clauses := by
    rw [hf3, hform]
    exact hmem2
  have hothers3 : ∀ l ∈ learned.clause, l ≠ Literal.mk (s.trail.get ti).var
      (FlipVariableAssignment (s.trail.get ti).assignment) →
      Literal.IsFalse l s3.assignment := by
    intro l hl hlu
    have hf := hothers l hl hlu
    have hl0 := (h2.inv.consistent.wf learned hmem2 l hl).1
    unfold Literal.IsFalse at hf ⊢
    rw [hkeep _ (Literal.variable_pos hl0) hf.1]
    exact hf
  have key : (∃ l ∈ learned.clause,
      Literal.Eval l (s3.assignment.get (Literal.Variable l)) = true) →
      s3.assignment.get (s.trail.get ti).var =
        FlipVariableAssignment (s.trail.get ti).assignment := by
    rintro ⟨l, hl, hev⟩
    by_cases hlu : l = Literal.mk (s.trail.get ti).var
        (FlipVariableAssignment (s.trail.get ti).assignment)
    · rw [hlu, Literal.variable_mk] at hev
      rcases Literal.eval_mk_true hev with h5 | h5
      · exact h5
      · exfalso
        cases hx : (s.trail.get ti).assignment with
        | Unassigned => exact hane hx
        | True =>
          rw [hx] at h5
          cases h5
        | False =>
          rw [hx] at h5
          cases h5
    · have := (hothers3 l hl hlu).2
      rw [this] at hev
      cases hev
  cases r with
  | Sat =>
    have h5 := hsat rfl learned hmem3
    unfold ClauseView.SatisfiedBy at h5
    rw [List.any_eq_true] at h5
    exact key h5
  | Unsat => exact absurd rfl hne
  | Pass =>
    obtain ⟨hnu, hnf⟩ := hpass rfl
    obtain ⟨l, hl, hnotf⟩ := hnf learned hmem3
    have hlu : l = Literal.mk (s.trail.get ti).var
        (FlipVariableAssignment (s.trail.get ti).assignment) := by
      by_contra hne2
      exact hnotf (hothers3 l hl hne2)
    by_cases hx : s3.assignment.get (s.trail.get ti).var = .Unassigned
    · exfalso
      apply hnu learned hmem3
      have hnsat : ¬ learned.SatisfiedBy s3.assignment = true := by
        intro hs
        unfold ClauseView.SatisfiedBy at hs
        rw [List.any_eq_true] at hs
        have := key hs
        rw [hx] at this
        exact hane (by
          cases hy : (s.trail.get ti).assignment with
          | Unassigned => rfl
          | True =>
            rw [hy] at this
            cases this
          | False =>
            rw [hy] at this
            cases this)
      have hnum : learned.numUnassigned s3.assignment = 1 := by
        unfold ClauseView.numUnassigned
        rw [← hcount]
        apply List.countP_congr
        intro x hxm
        simp only [decide_eq_true_eq]
        constructor
        · intro hxu
          by_contra hne3
          have hxne : x ≠ Literal.mk (s.trail.get ti).var
              (FlipVariableAssignment (s.trail.get ti).assignment) := by
            intro heq
            apply hne3
            rw [heq, Literal.variable_mk]
          exact (hothers3 x hxm hxne).1 hxu
        · intro hxv
          rw [hxv]
          exact hx
      unfold ClauseView.TrueStatus
      rw [if_neg hnsat, if_neg (by omega), if_pos hnum]
    · apply key
      refine ⟨l, hl, ?_⟩
      rw [hlu, Literal.variable_mk]
      by_contra hev
      apply hnotf
      rw [hlu]
      unfold Literal.IsFalse
      rw [Literal.variable_mk]
      exact ⟨hx, by simpa using hev⟩

/-- C34 (instance): `Solve()` for `(¬x3 ∨ ¬x2 ∨ x1) (¬x3 ∨ ¬x2 ∨ ¬x1) (x3 ∨ x2)`: the conflict
in the clause `1` at level `2` gives the clause `(¬x3 ∨ ¬x2)` and the backjump level `1`; after
the backjump the watcher of the learned clause is `Unit` with its first watch on `¬x2`, and the
next `UnitPropagation` makes `x2` false. -/
theorem C34_learned_clause_is_unit_after_the_backjump_witness :
    ∃ (s s1 s2 s3 : CdclSolver Score) (learned : Clause) (c : Nat),
      CdclSolver.Event.analyze s 1 0 ∈ CdclSolver.SolveEvents exactPlatform 10 false
        (CdclSolver.SetParameters
          (CdclSolver.new exactPlatform
            (Formula.ofClauses id [[-3, -2, 1], [-3, -2, -1], [3, 2]]) defaultScoring)
          CdclSolver.Parameters.default) [] ∧
      CdclSolver.AnalyzeConflict exactPlatform s (s.formula.get 1) = .ok (learned, 1, s1) ∧
      learned.clause = [-3, -2] ∧
      CdclSolver.Backjump (CdclSolver.AppendClause exactPlatform s1 learned) 1 =
        .ok (true, s2) ∧
      s2.watchers[3]? = some ⟨learned, .Unit, (1, -1)⟩ ∧
      BaseSolver.UnitPropagation 10
        (BaseSolver.PollInterrupt ({ s2 with ext := { s2.ext with
          evsids := s2.ext.evsids.NextIteration exactPlatform } } : CdclSolver Score)).2 =
        .ok (s3, .Sat, c) ∧
      s3.assignment.get 2 = .False ∧
      ∃ (a : CdclSolver.ConflictAnalysis Score) (ti : Nat) (w : Watcher),
        CdclSolver.AnalyzeConflictLoop exactPlatform
          ((CdclSolver.ClearAnalysisTrack s).trail.Length + 1)
          ⟨CdclSolver.ClearAnalysisTrack s, 1, 0⟩ (s.formula.get 1).clause
          ((CdclSolver.ClearAnalysisTrack s).trail.Length - 1) = .ok (a, ti) ∧
        s2.watchers[s.formula.NumOfClauses]? = some w ∧ w.clause = learned ∧
        w.status = .Unit ∧ w.watched_literals.1 ≠ -1 ∧
        w.clause.get w.watched_literals.1.toNat =
          Literal.mk (s.trail.get ti).var
            (FlipVariableAssignment (s.trail.get ti).assignment) ∧
        s2.assignment.get (s.trail.get ti).var = .Unassigned ∧
        ∀ (fuel2 : Nat) (s4 : CdclSolver Score) (r : UnitPropagationResult) (c2 : Nat),
          BaseSolver.UnitPropagation fuel2
            (BaseSolver.PollInterrupt ({ s2 with ext := { s2.ext with
              evsids := s2.ext.evsids.NextIteration exactPlatform } } :
                CdclSolver Score)).2 = .ok (s4, r, c2) →
          r ≠ .Unsat →
          s4.assignment.get (s.trail.get ti).var =
            FlipVariableAssignment (s.trail.get ti).assignment := by
  have hP : exactPlatform.SetOrderOk := fun ls => List.Perm.refl ls
  have hF : (Formula.ofClauses id [[-3, -2, 1], [-3, -2, -1], [3, 2]]).WellFormed :=
    Formula.wellFormed_of_all _ (by decide)
  have hev : ∃ (s s1 s2 s3 : CdclSolver Score) (learned : Clause) (c : Nat),
      (CdclSolver.SolveEvents exactPlatform 10 false
        (CdclSolver.SetParameters
          (CdclSolver.new exactPlatform
            (Formula.ofClauses id [[-3, -2, 1], [-3, -2, -1], [3, 2]]) defaultScoring)
          CdclSolver.Parameters.default) [])[3]? = some (.analyze s 1 0) ∧
      CdclSolver.AnalyzeConflict exactPlatform s (s.formula.get 1) = .ok (learned, 1, s1) ∧
      learned.clause = [-3, -2] ∧
      CdclSolver.Backjump (CdclSolver.AppendClause exactPlatform s1 learned) 1 =
        .ok (true, s2) ∧
      s2.watchers[3]? = some ⟨learned, .Unit, (1, -1)⟩ ∧
      BaseSolver.UnitPropagation 10
        (BaseSolver.PollInterrupt ({ s2 with ext := { s2.ext with
          evsids := s2.ext.evsids.NextIteration exactPlatform } } : CdclSolver Score)).2 =
        .ok (s3, .Sat, c) ∧
      s3.assignment.get 2 = .False :=
    ⟨_, _, _, _, _, _, rfl, rfl, rfl, rfl, rfl, rfl, rfl⟩
  obtain ⟨s, s1, s2, s3, learned, c, hs, hr, hl, hb, hw, hup, hx⟩ := hev
  exact ⟨s, s1, s2, s3, learned, c, List.getElem?_mem hs, hr, hl, hb, hw, hup, hx,
    C34_learned_clause_is_unit_after_the_backjump exactPlatform hP _
      (CdclSolver.Reachable.parameters _ CdclSolver.Parameters.default
        (CdclSolver.Reachable.new _ defaultScoring hF))
      [] (fun l hl => by cases hl) 10 false s s1 s2 1 0 learned 1
      (List.getElem?_mem hs) hr hb⟩

/-- C34 (counterexample to the claim as stated): `Solve()` for
`(¬x2 ∨ ¬x1) (¬x3 ∨ x1) (x2 ∨ ¬x1) (x1 ∨ x3) (x4 ∨ x3)`.  The first conflict, at level `2`,
gives the unit clause `(¬x1)`, clause `5`, and the solver goes back to level `1` only, where the
clause `5` makes `x1` false; the second conflict, in the clause `3` at level `1`, stops at that
entry of `x1` and gives the unit clause `(x1)`, clause `6`.  After the backjump to level `0` the
next `UnitPropagation` visits the clause `5` first: it makes `x1` false again, not true, and
returns the conflict. -/
theorem C34_next_propagation_repeats_the_old_value :
    ∃ (s s1 s2 s3 : CdclSolver Score) (a : CdclSolver.ConflictAnalysis Score)
      (learned : Clause) (c : Nat),
      CdclSolver.Event.analyze s 3 0 ∈ CdclSolver.SolveEvents exactPlatform 10 false
        (CdclSolver.SetParameters
          (CdclSolver.new exactPlatform
            (Formula.ofClauses id [[-2, -1], [-3, 1], [2, -1], [1, 3], [4, 3]])
            defaultScoring)
          CdclSolver.Parameters.default) [] ∧
      CdclSolver.AnalyzeConflictLoop exactPlatform
        ((CdclSolver.ClearAnalysisTrack s).trail.Length + 1)
        ⟨CdclSolver.ClearAnalysisTrack s, 1, 0⟩ (s.formula.get 3).clause
        ((CdclSolver.ClearAnalysisTrack s).trail.Length - 1) = .ok (a, 1) ∧
      s.trail.get 1 = ⟨1, .False, 5, 1⟩ ∧
      CdclSolver.AnalyzeConflict exactPlatform s (s.formula.get 3) = .ok (learned, 0, s1) ∧
      learned.clause = [1] ∧
      CdclSolver.Backjump (CdclSolver.AppendClause exactPlatform s1 learned) 0 =
        .ok (true, s2) ∧
      s2.assignment.get 1 = .Unassigned ∧
      BaseSolver.UnitPropagation 10
        (BaseSolver.PollInterrupt ({ s2 with ext := { s2.ext with
          evsids := s2.ext.evsids.NextIteration exactPlatform } } : CdclSolver Score)).2 =
        .ok (s3, .Unsat, c) ∧
      s3.assignment.get 1 = .False ∧
      s3.assignment.get 1 ≠ FlipVariableAssignment (s.trail.get 1).assignment := by
  have hev : ∃ (s s1 s2 s3 : CdclSolver Score) (a : CdclSolver.ConflictAnalysis Score)
      (learned : Clause) (c : Nat),
      (CdclSolver.SolveEvents exactPlatform 10 false
        (CdclSolver.SetParameters
          (CdclSolver.new exactPlatform
            (Formula.ofClauses id [[-2, -1], [-3, 1], [2, -1], [1, 3], [4, 3]])
            defaultScoring)
          CdclSolver.Parameters.default) [])[5]? = some (.analyze s 3 0) ∧
      CdclSolver.AnalyzeConflictLoop exactPlatform
        ((CdclSolver.ClearAnalysisTrack s).trail.Length + 1)
        ⟨CdclSolver.ClearAnalysisTrack s, 1, 0⟩ (s.formula.get 3).clause
        ((CdclSolver.ClearAnalysisTrack s).trail.Length - 1) = .ok (a, 1) ∧
      s.trail.get 1 = ⟨1, .False, 5, 1⟩ ∧
      CdclSolver.AnalyzeConflict exactPlatform s (s.formula.get 3) = .ok (learned, 0, s1) ∧
      learned.clause = [1] ∧
      CdclSolver.Backjump (CdclSolver.AppendClause exactPlatform s1 learned) 0 =
        .ok (true, s2) ∧
      s2.assignment.get 1 = .Unassigned ∧
      BaseSolver.UnitPropagation 10
        (BaseSolver.PollInterrupt ({ s2 with ext := { s2.ext with
          evsids := s2.ext.evsids.NextIteration exactPlatform } } : CdclSolver Score)).2 =
        .ok (s3, .Unsat, c) ∧
      s3.assignment.get 1 = .False :=
    ⟨_, _, _, _, _, _, _, rfl, rfl, rfl, rfl, rfl, rfl, rfl, rfl, rfl⟩
  obtain ⟨s, s1, s2, s3, a, learned, c, hs, hloop, hget, hr, hl, hb, hu, hup, hx⟩ := hev
  refine ⟨s, s1, s2, s3, a, learned, c, List.getElem?_mem hs, hloop, hget, hr, hl, hb, hu, hup,
    hx, ?_⟩
  rw [hx, hget]
  decide

end pjos

namespace pjos

/-- C16: a newly constructed `Watcher` has the watches `(0, 1)` and the status `Undecided` when
the clause has at least two literals, the watches `(0, -1)` and the status `Unit` when it has
exactly one, and the watches `(-1, -1)` and the status `Unsatisfied` when it is empty; and this
is the result of `Rescan` under the all-`Unassigned` assignment over `n` variables that covers
the clause: `Rescan` turns every watcher of the clause, whatever its watches and its status,
into the newly constructed one. -/
theorem C16_new_watcher_is_rescan_of_unassigned (c : ClauseView) (n : Nat)
    (_hc : c.CoveredBy (Assignment.new n)) :
    (2 ≤ c.Length →
      (Watcher.new c).WatchedLiterals = (0, 1) ∧ (Watcher.new c).Status = .Undecided) ∧
    (c.Length = 1 →
      (Watcher.new c).WatchedLiterals = (0, -1) ∧ (Watcher.new c).Status = .Unit) ∧
    (c.Length = 0 →
      (Watcher.new c).WatchedLiterals = (-1, -1) ∧ (Watcher.new c).Status = .Unsatisfied) ∧
    (Watcher.new c).clause = c ∧
    ∀ (status : ClauseStatus) (watched_literals : Int × Int),
      (⟨c, status, watched_literals⟩ : Watcher).Rescan (Assignment.new n) = Watcher.new c := by
  refine ⟨?_, ?_, ?_, Watcher.new_clause c, ?_⟩
  · intro h
    unfold Watcher.new Watcher.WatchedLiterals Watcher.Status
    rw [if_pos (by omega), if_pos (by omega)]
    exact ⟨rfl, rfl⟩
  · intro h
    unfold Watcher.new Watcher.WatchedLiterals Watcher.Status
    rw [if_pos (by omega), if_neg (by omega)]
    exact ⟨rfl, rfl⟩
  · intro h
    unfold Watcher.new Watcher.WatchedLiterals Watcher.Status
    rw [if_neg (by omega)]
    exact ⟨rfl, rfl⟩
  · intro status watched_literals
    exact Watcher.Rescan_unassigned ⟨c, status, watched_literals⟩ n

/-- C16 (instance): the watcher of the clause `x1 ∨ ¬x2`: the new watcher has the watches
`(0, 1)`, and `Rescan` under the all-`Unassigned` assignment gives it back from the watcher with
the status `Satisfied` and the watches `(1, -1)`. -/
theorem C16_new_watcher_is_rescan_of_unassigned_witness :
    (⟨[1, -2], 2⟩ : ClauseView).CoveredBy (Assignment.new 2) ∧
    (Watcher.new ⟨[1, -2], 2⟩).WatchedLiterals = (0, 1) ∧
    (Watcher.new ⟨[1, -2], 2⟩).Status = .Undecided ∧
    (⟨⟨[1, -2], 2⟩, .Satisfied, (1, -1)⟩ : Watcher).Rescan (Assignment.new 2) =
      ⟨⟨[1, -2], 2⟩, .Undecided, (0, 1)⟩ := by
  have hc : (⟨[1, -2], 2⟩ : ClauseView).CoveredBy (Assignment.new 2) := by
    intro l hl
    simp only [List.mem_cons, List.mem_singleton, List.not_mem_nil, or_false] at hl
    rcases hl with hl | hl <;> subst hl <;> decide
  have h := C16_new_watcher_is_rescan_of_unassigned ⟨[1, -2], 2⟩ 2 hc
  exact ⟨hc, (h.1 (by decide)).1, (h.1 (by decide)).2, h.2.2.2.2 .Satisfied (1, -1)⟩

end pjos

namespace pjos

/-- C14 (failing run): `DpllSolver` for `(x1 ∨ ¬x1 ∨ x3) (x1 ∨ x2) (x1 ∨ ¬x2)`, `Solve({¬x1})`.
After the assumption `x1 = False` is applied, unit propagation assigns `x2` from the clause `1`
and reports the conflict in the clause `2`.  The undo loop unassigns `x2` and stops at the
`Assumption` entry of `x1`, which `SolveImpl` flips as it flips a decision
(`this->Assign(variable, new_assignment)` with `x1` still `False`).  Before that call of
`Assign(1, True)` the watcher invariant holds for every watcher; after it the watcher of the
clause `0` has the status `Unit` (only watch on `x3`) while the literal `x1` of the clause is
true, so the invariant fails, and a rescan of that watcher gives `Satisfied`.  `Solve` then
returns `Satisfied` with `x1 = True`. -/
theorem C14_assign_at_the_flip_breaks_the_invariant :
    ∃ (s3 s4 : DpllSolver),
      ((DpllSolver.new (Formula.ofClauses id [[1, -1, 3], [1, 2], [1, -2]])).PerformPendingAssignment
        1 .False true).2.UnitPropagation 10 = .ok (s3, .Unsat, 2) ∧
      DpllSolver.UndoDecision (s3.trail.trail.length + 1) s3 = .ok (some (1, .False), s4) ∧
      s4.assignment = ⟨[.False, .Unassigned, .Unassigned]⟩ ∧
      s4.watchers = [⟨⟨[1, -1, 3], 3⟩, .Satisfied, (2, 1)⟩, ⟨⟨[1, 2], 2⟩, .Unit, (1, -1)⟩,
        ⟨⟨[1, -2], 2⟩, .Unit, (1, -1)⟩] ∧
      (∀ w ∈ s4.watchers, w.Invariant s4.assignment) ∧
      (({ s4 with trail := s4.trail.Propagation 1 .True } : DpllSolver).Assign 1 .True).assignment =
        ⟨[.True, .Unassigned, .Unassigned]⟩ ∧
      (({ s4 with trail := s4.trail.Propagation 1 .True } : DpllSolver).Assign 1 .True).watchers =
        [⟨⟨[1, -1, 3], 3⟩, .Unit, (2, -1)⟩, ⟨⟨[1, 2], 2⟩, .Satisfied, (0, 1)⟩,
          ⟨⟨[1, -2], 2⟩, .Satisfied, (0, 1)⟩] ∧
      ¬ (∀ w ∈ (({ s4 with trail := s4.trail.Propagation 1 .True } : DpllSolver).Assign
          1 .True).watchers,
        w.Invariant (({ s4 with trail := s4.trail.Propagation 1 .True } : DpllSolver).Assign
          1 .True).assignment) ∧
      ((⟨⟨[1, -1, 3], 3⟩, .Unit, (2, -1)⟩ : Watcher).Rescan
        ⟨[.True, .Unassigned, .Unassigned]⟩).status = .Satisfied ∧
      (DpllSolver.Solve 30 (DpllSolver.new (Formula.ofClauses id [[1, -1, 3], [1, 2], [1, -2]]))
        [-1]).toOption.map (fun r => (r.1, r.2.assignment)) =
        some (.Satisfied, ⟨[.True, .Unassigned, .True]⟩) := by
  have hrun : ∃ (s3 s4 : DpllSolver),
      ((DpllSolver.new (Formula.ofClauses id [[1, -1, 3], [1, 2], [1, -2]])).PerformPendingAssignment
        1 .False true).2.UnitPropagation 10 = .ok (s3, .Unsat, 2) ∧
      DpllSolver.UndoDecision (s3.trail.trail.length + 1) s3 = .ok (some (1, .False), s4) ∧
      s4.assignment = ⟨[.False, .Unassigned, .Unassigned]⟩ ∧
      s4.watchers = [⟨⟨[1, -1, 3], 3⟩, .Satisfied, (2, 1)⟩, ⟨⟨[1, 2], 2⟩, .Unit, (1, -1)⟩,
        ⟨⟨[1, -2], 2⟩, .Unit, (1, -1)⟩] ∧
      (({ s4 with trail := s4.trail.Propagation 1 .True } : DpllSolver).Assign 1 .True).assignment =
        ⟨[.True, .Unassigned, .Unassigned]⟩ ∧
      (({ s4 with trail := s4.trail.Propagation 1 .True } : DpllSolver).Assign 1 .True).watchers =
        [⟨⟨[1, -1, 3], 3⟩, .Unit, (2, -1)⟩, ⟨⟨[1, 2], 2⟩, .Satisfied, (0, 1)⟩,
          ⟨⟨[1, -2], 2⟩, .Satisfied, (0, 1)⟩] :=
    ⟨_, _, rfl, rfl, rfl, rfl, rfl, rfl⟩
  obtain ⟨s3, s4, h1, h2, h3, h4, h5, h6⟩ := hrun
  refine ⟨s3, s4, h1, h2, h3, h4, ?_, h5, h6, ?_, by decide, rfl⟩
  · intro w hw
    rw [h4] at hw
    rw [h3]
    simp only [List.mem_cons, List.mem_singleton, List.not_mem_nil, or_false] at hw
    rcases hw with hw | hw | hw <;> subst hw
    · exact ⟨fun _ => Or.inr (by decide), fun h => absurd h (by decide),
        fun h => absurd h (by decide), fun h => absurd h (by decide)⟩
    · refine ⟨fun h => absurd h (by decide), fun h => absurd h (by decide), fun _ => ⟨Or.inl
        ⟨⟨by decide, by decide, rfl⟩, fun h => absurd h.1 (by decide)⟩, ?_⟩,
        fun h => absurd h (by decide)⟩
      intro l hl
      simp only [List.mem_cons, List.mem_singleton, List.not_mem_nil, or_false] at hl
      rcases hl with hl | hl <;> subst hl <;> decide
    · refine ⟨fun h => absurd h (by decide), fun h => absurd h (by decide), fun _ => ⟨Or.inl
        ⟨⟨by decide, by decide, rfl⟩, fun h => absurd h.1 (by decide)⟩, ?_⟩,
        fun h => absurd h (by decide)⟩
      intro l hl
      simp only [List.mem_cons, List.mem_singleton, List.not_mem_nil, or_false] at hl
      rcases hl with hl | hl <;> subst hl <;> decide
  · intro hall
    have hw := hall ⟨⟨[1, -1, 3], 3⟩, .Unit, (2, -1)⟩ (by rw [h6]; exact List.mem_cons_self _ _)
    rw [h5] at hw
    have := (hw.2.2.1 rfl).2 1 (List.mem_cons_self _ _)
    revert this
    decide

/-- C15 (failing calls): the watcher of `x1 ∨ x2`, rescanned while `x1` is `False` and `x2` is
`True`, is `Satisfied` with its only watch on `x2`.  When `x1` becomes `True`, `Update` (called
with `satisfies = true`) leaves the watcher as it is: its status is the one that `Rescan` gives
and the watcher invariant holds.  When `x2` is unassigned then, `Update` (called with
`satisfies = false`, as the literal `x2` is not true) sets the status `Unit`, while `Rescan`
under the new assignment gives `Satisfied`: the check under `PJOS_DEBUG_VALIDATIONS_ENABLE` at
the end of `Update` fails.  The same check fails in `DpllSolver` for
`(x1 ∨ ¬x1 ∨ x3) (x1 ∨ x2) (x1 ∨ ¬x2)`, `Solve({¬x1})`, at the calls of `Update` that
`Assign(1, True)` makes on the watcher of the clause `0` when the assumption is flipped. -/
theorem C15_update_differs_from_rescan :
    (Watcher.new ⟨[1, 2], 2⟩).Rescan ⟨[.False, .True]⟩ =
      ⟨⟨[1, 2], 2⟩, .Satisfied, (1, -1)⟩ ∧
    ((Watcher.new ⟨[1, 2], 2⟩).Rescan ⟨[.False, .True]⟩).Update ⟨[.True, .True]⟩ 1 .True true =
      ⟨⟨[1, 2], 2⟩, .Satisfied, (1, -1)⟩ ∧
    ((⟨⟨[1, 2], 2⟩, .Satisfied, (1, -1)⟩ : Watcher).Rescan ⟨[.True, .True]⟩).status =
      .Satisfied ∧
    (⟨⟨[1, 2], 2⟩, .Satisfied, (1, -1)⟩ : Watcher).Invariant ⟨[.True, .True]⟩ ∧
    (⟨[.True, .True]⟩ : Assignment).set 2 .Unassigned = ⟨[.True, .Unassigned]⟩ ∧
    ((⟨⟨[1, 2], 2⟩, .Satisfied, (1, -1)⟩ : Watcher).Update ⟨[.True, .Unassigned]⟩ 2
      .Unassigned false).status = .Unit ∧
    ((⟨⟨[1, 2], 2⟩, .Satisfied, (1, -1)⟩ : Watcher).Rescan ⟨[.True, .Unassigned]⟩).status =
      .Satisfied ∧
    ∃ (s3 s4 : DpllSolver),
      ((DpllSolver.new (Formula.ofClauses id [[1, -1, 3], [1, 2], [1, -2]])).PerformPendingAssignment
        1 .False true).2.UnitPropagation 10 = .ok (s3, .Unsat, 2) ∧
      DpllSolver.UndoDecision (s3.trail.trail.length + 1) s3 = .ok (some (1, .False), s4) ∧
      ((({ s4 with trail := s4.trail.Propagation 1 .True } : DpllSolver).Assign
        1 .True).watchers.map (fun w => w.status)) = [.Unit, .Satisfied, .Satisfied] ∧
      ((({ s4 with trail := s4.trail.Propagation 1 .True } : DpllSolver).Assign
        1 .True).watchers.map (fun w => (w.Rescan
          (({ s4 with trail := s4.trail.Propagation 1 .True } : DpllSolver).Assign
            1 .True).assignment).status)) = [.Satisfied, .Satisfied, .Satisfied] := by
  refine ⟨by decide, by decide, by decide, ?_, by decide, by decide, by decide,
    _, _, rfl, rfl, rfl, rfl⟩
  refine ⟨fun _ => Or.inl (by decide), fun h => ?_, fun h => ?_, fun h => ?_⟩ <;>
    exact absurd h (by decide)

/-- C27 (failing run): `DpllSolver` for `(x1 ∨ ¬x1) (x1 ∨ x2) (x1 ∨ ¬x2)`, `Solve({¬x1})`.
After the assumption `x1 = False` is applied, unit propagation assigns `x2` and reports the
conflict in the clause `2`; the undo loop unassigns `x2` and stops at the `Assumption` entry of
`x1`, which `SolveImpl` flips.  After `Assign(1, True)` the watcher of the clause `0` has the
status `Unsatisfied` and no watch, and the watchers of the other two clauses are `Satisfied`
with a watch on `x1`: the watcher invariant holds for every watcher.  The next call of
`UnitPropagation` returns `(Unsat, 0)`, and the literal `x1` of the clause `0` is true. -/
theorem C27_conflict_reported_in_a_satisfied_clause :
    ∃ (s3 s4 s7 : DpllSolver),
      ((DpllSolver.new (Formula.ofClauses id [[1, -1], [1, 2], [1, -2]])).PerformPendingAssignment
        1 .False true).2.UnitPropagation 10 = .ok (s3, .Unsat, 2) ∧
      DpllSolver.UndoDecision (s3.trail.trail.length + 1) s3 = .ok (some (1, .False), s4) ∧
      (({ s4 with trail := s4.trail.Propagation 1 .True } : DpllSolver).Assign 1 .True).assignment =
        ⟨[.True, .Unassigned]⟩ ∧
      (({ s4 with trail := s4.trail.Propagation 1 .True } : DpllSolver).Assign 1 .True).watchers =
        [⟨⟨[1, -1], 1⟩, .Unsatisfied, (-1, -1)⟩, ⟨⟨[1, 2], 2⟩, .Satisfied, (0, 1)⟩,
          ⟨⟨[1, -2], 2⟩, .Satisfied, (0, 1)⟩] ∧
      (∀ w ∈ (({ s4 with trail := s4.trail.Propagation 1 .True } : DpllSolver).Assign
          1 .True).watchers,
        w.Invariant (({ s4 with trail := s4.trail.Propagation 1 .True } : DpllSolver).Assign
          1 .True).assignment) ∧
      (({ s4 with trail := s4.trail.Propagation 1 .True } : DpllSolver).Assign
        1 .True).UnitPropagation 10 = .ok (s7, .Unsat, 0) ∧
      s7.assignment = ⟨[.True, .Unassigned]⟩ ∧
      (s7.formula.get 0).clause = [1, -1] ∧
      Literal.Eval 1 (s7.assignment.get (Literal.Variable 1)) = true ∧
      ¬ (∀ l ∈ (s7.formula.get 0).clause, Literal.IsFalse l s7.assignment) ∧
      (DpllSolver.Solve 30 (DpllSolver.new (Formula.ofClauses id [[1, -1], [1, 2], [1, -2]]))
        [-1]).toOption.map (fun r => r.1) = some .Unsatisfied := by
  have hrun : ∃ (s3 s4 s7 : DpllSolver),
      ((DpllSolver.new (Formula.ofClauses id [[1, -1], [1, 2], [1, -2]])).PerformPendingAssignment
        1 .False true).2.UnitPropagation 10 = .ok (s3, .Unsat, 2) ∧
      DpllSolver.UndoDecision (s3.trail.trail.length + 1) s3 = .ok (some (1, .False), s4) ∧
      (({ s4 with trail := s4.trail.Propagation 1 .True } : DpllSolver).Assign 1 .True).assignment =
        ⟨[.True, .Unassigned]⟩ ∧
      (({ s4 with trail := s4.trail.Propagation 1 .True } : DpllSolver).Assign 1 .True).watchers =
        [⟨⟨[1, -1], 1⟩, .Unsatisfied, (-1, -1)⟩, ⟨⟨[1, 2], 2⟩, .Satisfied, (0, 1)⟩,
          ⟨⟨[1, -2], 2⟩, .Satisfied, (0, 1)⟩] ∧
      (({ s4 with trail := s4.trail.Propagation 1 .True } : DpllSolver).Assign
        1 .True).UnitPropagation 10 = .ok (s7, .Unsat, 0) ∧
      s7.assignment = ⟨[.True, .Unassigned]⟩ ∧
      (s7.formula.get 0).clause = [1, -1] :=
    ⟨_, _, _, rfl, rfl, rfl, rfl, rfl, rfl, rfl⟩
  obtain ⟨s3, s4, s7, h1, h2, h3, h4, h5, h6, h7⟩ := hrun
  refine ⟨s3, s4, s7, h1, h2, h3, h4, ?_, h5, h6, h7, ?_, ?_, rfl⟩
  · intro w hw
    rw [h4] at hw
    rw [h3]
    simp only [List.mem_cons, List.mem_singleton, List.not_mem_nil, or_false] at hw
    rcases hw with hw | hw | hw <;> subst hw
    · exact ⟨fun h => absurd h (by decide), fun h => absurd h (by decide),
        fun h => absurd h (by decide),
        fun _ => ⟨fun h => absurd h.1 (by decide), fun h => absurd h.1 (by decide),
          by decide, by decide⟩⟩
    · exact ⟨fun _ => Or.inl (by decide), fun h => absurd h (by decide),
        fun h => absurd h (by decide), fun h => absurd h (by decide)⟩
    · exact ⟨fun _ => Or.inl (by decide), fun h => absurd h (by decide),
        fun h => absurd h (by decide), fun h => absurd h (by decide)⟩
  · rw [h6]
    decide
  · intro hall
    have := (hall 1 (by rw [h7]; exact List.mem_cons_self _ _)).2
    rw [h6] at this
    revert this
    decide

end pjos

namespace pjos

namespace BaseSolver

variable {X : Type}

/-- A propagation step on a variable of the formula keeps the state consistent. -/
theorem Propagate_consistent [SolverExt X] (s : BaseSolver X) (x : Nat)
    (a : VariableAssignment) (c : Nat) (h : s.Consistent) (hx : 1 ≤ x)
    (hle : x ≤ s.formula.num_of_variables) : (s.Propagate x a c).Consistent := by
  have hc1 : BaseSolver.Consistent
      ({ s with trail := s.trail.PropagationFrom x a c } : BaseSolver X) :=
    h.of_eq rfl rfl rfl rfl
  exact Assign_consistent _ x a hc1 hx hle

/-- `UnitPropagation` returns on every consistent state when the fuel exceeds the number of
unassigned variables: every pass that propagates takes the literal at the first watch of a
`Unit` watcher, whose variable is unassigned, so that every pass but the last lowers the number
of unassigned variables by one. -/
theorem UnitPropagationLoop_terminates [SolverExt X] :
    ∀ (fuel : Nat) (s : BaseSolver X), s.Consistent → s.assignment.numUnassigned < fuel →
      ∃ (s1 : BaseSolver X) (r : UnitPropagationResult) (c : Nat) (steps : List (Nat × Literal)),
        UnitPropagationLoop fuel s = .ok (s1, r, c) ∧
        s1 = s.PropagateAll steps ∧ s.UnitFresh steps ∧ s1.Consistent ∧
        s1.assignment.numUnassigned + steps.length = s.assignment.numUnassigned
  | 0, _, _, hf => by omega
  | fuel + 1, s, h, hf => by
    obtain ⟨pass, hpass⟩ : ∃ pass, pass = UnitPropagationFor s.watchers.length 0 s true :=
      ⟨_, rfl⟩
    have hloop : UnitPropagationLoop (fuel + 1) s =
        (match pass.conflict with
          | some i => .ok (pass.solver, .Unsat, i)
          | none =>
            if pass.propagate && !pass.all_satisfied then UnitPropagationLoop fuel pass.solver
            else .ok (pass.solver, if pass.all_satisfied then .Sat else .Pass, ClauseUndef)) := by
      rw [UnitPropagationLoop, hpass]
      all_goals (cases (UnitPropagationFor s.watchers.length 0 s true).conflict <;> rfl)
    rw [hloop]
    rcases UnitPropagationFor_cases s.watchers.length 0 s true pass (by omega) hpass with
      ⟨c, w, h1, h2, h3, h4⟩ | ⟨c, w, h1, h2, h3, h4, h5, h6⟩ | ⟨h1, h2, h3, h4, h5⟩
    · -- a conflict
      rw [h1, h2]
      exact ⟨s, .Unsat, c, [], rfl, rfl, trivial, h, rfl⟩
    · -- a propagation
      rw [h1]
      simp only [h2, h3, Bool.not_false, Bool.and_self, if_true]
      have hunit := h.unit_watch h4 h5
      have hwc := h.watcher_clause h4
      have hv1 := Literal.variable_pos hunit.2.1
      have hcons := Propagate_consistent s
        (Literal.Assignment ((s.formula.get c).get w.watched_literals.1.toNat)).1
        (Literal.Assignment ((s.formula.get c).get w.watched_literals.1.toNat)).2 c h
        hv1 hunit.2.2.1
      have hnum := Propagate_numUnassigned s
        (Literal.Assignment ((s.formula.get c).get w.watched_literals.1.toNat)).1
        (Literal.Assignment ((s.formula.get c).get w.watched_literals.1.toNat)).2 c
        hv1 (by rw [h.assignment_length]; exact hunit.2.2.1)
        (Literal.assignment_ne_unassigned _) hunit.2.2.2
      rw [h6]
      obtain ⟨s1, r1, c1, steps, hres, hsteps, hfresh, hcons1, hcount⟩ :=
        UnitPropagationLoop_terminates fuel
          (s.Propagate (Literal.Assignment ((s.formula.get c).get w.watched_literals.1.toNat)).1
            (Literal.Assignment ((s.formula.get c).get w.watched_literals.1.toNat)).2 c)
          hcons (by omega)
      refine ⟨s1, r1, c1, (c, (s.formula.get c).get w.watched_literals.1.toNat) :: steps,
        hres, hsteps, ⟨⟨hwc.2.1, hunit.1, hunit.2.2.2⟩, hfresh⟩, hcons1, ?_⟩
      rw [List.length_cons]
      omega
    · -- the end of the pass
      rw [h1]
      simp only [h2, Bool.false_and, Bool.false_eq_true, if_false]
      rw [h3]
      exact ⟨s, _, ClauseUndef, [], rfl, rfl, trivial, h, rfl⟩

end BaseSolver

/-- C39: `UnitPropagation` terminates on every consistent solver state (the vectors have the size
of the formula, the watchers are those of the clauses, the watches are positions of the clause,
a `Unit` watcher has a first watch and a watcher that is not `Satisfied` watches unassigned
literals only: what the constructor establishes and every operation of the solvers keeps,
whatever the order of the assignments), in particular on every such state in which the watcher
invariant holds: every pass that propagates assigns a variable that was unassigned at that
moment, so that the propagations are at most as many as the unassigned variables, and the
passes at most one more: with a pass for every unit of fuel, `UnitPropagation` returns when the
fuel is the number of unassigned variables plus one, or more. -/
theorem C39_unit_propagation_terminates {X : Type} [SolverExt X] (s : BaseSolver X)
    (fuel : Nat) (hc : s.Consistent) (hf : s.assignment.numUnassigned + 1 ≤ fuel) :
    ∃ (s1 : BaseSolver X) (r : UnitPropagationResult) (c : Nat) (steps : List (Nat × Literal)),
      s.UnitPropagation fuel = .ok (s1, r, c) ∧
      s1 = s.PropagateAll steps ∧ s.UnitFresh steps ∧
      steps.length + 1 ≤ s.assignment.numUnassigned + 1 ∧
      s1.assignment.numUnassigned + steps.length = s.assignment.numUnassigned := by
  obtain ⟨s1, r, c, steps, h1, h2, h3, _, h5⟩ :=
    BaseSolver.UnitPropagationLoop_terminates fuel s hc (by omega)
  exact ⟨s1, r, c, steps, h1, h2, h3, by omega, h5⟩

/-- C39 (instance): on a new `DpllSolver` for `(x1) (¬x1 ∨ x2)`, with two unassigned variables,
three passes suffice: two passes propagate (`x1` from the clause `0`, `x2` from the clause `1`)
and the third returns `Sat`. -/
theorem C39_unit_propagation_terminates_witness :
    (DpllSolver.new (Formula.ofClauses id [[1], [-1, 2]])).assignment.numUnassigned + 1 ≤ 3 ∧
    resultPropagation ((DpllSolver.new (Formula.ofClauses id [[1], [-1, 2]])).UnitPropagation 3) =
      .ok (.Sat, BaseSolver.ClauseUndef) ∧
    resultPropagation ((DpllSolver.new (Formula.ofClauses id [[1], [-1, 2]])).UnitPropagation 2) =
      .error .OutOfFuel ∧
    ∃ (s1 : DpllSolver) (r : UnitPropagationResult) (c : Nat) (steps : List (Nat × Literal)),
      (DpllSolver.new (Formula.ofClauses id [[1], [-1, 2]])).UnitPropagation 3 =
        .ok (s1, r, c) ∧
      s1 = (DpllSolver.new (Formula.ofClauses id [[1], [-1, 2]])).PropagateAll steps ∧
      (DpllSolver.new (Formula.ofClauses id [[1], [-1, 2]])).UnitFresh steps ∧
      steps.length + 1 ≤
        (DpllSolver.new (Formula.ofClauses id [[1], [-1, 2]])).assignment.numUnassigned + 1 ∧
      s1.assignment.numUnassigned + steps.length =
        (DpllSolver.new (Formula.ofClauses id [[1], [-1, 2]])).assignment.numUnassigned := by
  have hF : (Formula.ofClauses id [[1], [-1, 2]]).WellFormed :=
    Formula.wellFormed_of_all _ (by decide)
  exact ⟨by decide, rfl, rfl,
    C39_unit_propagation_terminates (DpllSolver.new (Formula.ofClauses id [[1], [-1, 2]])) 3
      (BaseSolver.new_consistent _ () hF) (by decide)⟩

end pjos

namespace pjos

namespace BaseSolver

variable {X : Type}

end BaseSolver

namespace CdclSolver

variable {S : Type}

/-- An entry that is not an assumption may be pushed when no assumption is still to be applied,
or when the entry does not raise the level. -/
theorem Levels.pushed {s t : CdclSolver S} {iter na : Nat} (h : Levels s iter na)
    (e : DecisionTrail.Entry) (ht : t.trail.trail = s.trail.trail ++ [e])
    (hl : t.trail.level = e.level) (hp : t.pending_assignments = s.pending_assignments)
    (hr : e.reason ≠ DecisionTrail.ReasonAssumption)
    (hw : ∀ (j : Nat) (p : Nat × VariableAssignment × Bool), iter ≤ j →
      s.pending_assignments[j]? = some p → p.2.2 = true → e.level ≤ na) :
    Levels t iter na := by
  refine ⟨?_, ?_, by rw [hp]; exact h.sorted⟩
  · intro e1 he1 hr1
    rw [ht, List.mem_append, List.mem_singleton] at he1
    rcases he1 with he1 | he1
    · exact h.assumed e1 he1 hr1
    · rw [he1] at hr1
      exact absurd hr1 hr
  · intro j p hj hpj hflag
    rw [hl]
    rw [hp] at hpj
    exact hw j p hj hpj hflag

end CdclSolver

end pjos

namespace pjos

namespace CdclSolver

variable {S : Type}

end CdclSolver

end pjos
